import Mathlib

/-!
# Pathfinder: the Abstract Coverage Tree (ACT)

A shallow embedding of `src/src/exectree.cpp`, `src/include/exectree.h`,
`src/include/utils.h` and the parts of `src/src/trace_pc.cpp` that the tree uses
(`significant`, `tail_of`, `Prune`, `IsND`).

Modelling conventions.

* A `PCID` (`uint32_t`) is a natural number; `0` is the Epsilon marker.
* An `ExecPath` (`std::vector<PCID>`) is a list.
* A `Node*` is modelled in two ways.  Inside one tree operation a pointer is a
  position: the list of child indices leading from the root to the node.  Every
  node also carries an identifier `id` drawn from the counter `next_id` of the
  tree when the node is created (`create_leaf`, `create_internal`); it stands
  for the address of the node and is what the pointer sets of `prune` hold.
  Addresses are fresh: a node created after another one was freed never gets the
  address of the freed node.  The order of the addresses, which is the iteration
  order of the pointer sets, is a parameter `addr`.
* The member `prefix` of the source is called `pfx` (the source name is a
  reserved word).
* Branch conditions, enum bit vectors, depths and the `exception_path` flag of
  internal nodes are bookkeeping that none of the modelled operations reads back
  to decide the shape of the tree; they are left out.  The sets `internals` and
  `leaves` of `ExecTree` always hold exactly the nodes of the tree and are
  recomputed from it.
* `assert`s are not modelled: every function is total and an out-of-contract
  read of `v[0]` on an empty vector yields `0`.
* `std::rand()` is an explicit argument `rnd`.
-/

namespace Pathfinder

/-! ## Paths (`pathfinder_defs.h`, `utils.h`) -/

/-- Program-counter identifier, `typedef uint32_t PCID`. -/
abbrev PCID := Nat

/-- Execution path, `typedef std::vector<PCID> ExecPath`. -/
abbrev ExecPath := List Nat

/-- Length of the longest common prefix of two vectors (`utils.h`). -/
def common_prefix_length : ExecPath → ExecPath → Nat
  | a :: l, b :: r => if a = b then common_prefix_length l r + 1 else 0
  | _, _ => 0

/-- Two-argument `subvec(orig, start)`: the elements from `start` to the end. -/
def subvec (orig : ExecPath) (start : Nat) : ExecPath := orig.drop start

/-- Three-argument `subvec(orig, start, len)`. -/
def subvec_len (orig : ExecPath) (start len : Nat) : ExecPath := (orig.drop start).take len

/-- Concatenation `vec_concat(left, right)`. -/
def vec_concat (left right : ExecPath) : ExecPath := left ++ right

/-- First element `v[0]` of a path (`0` when the path is empty). -/
def front (p : ExecPath) : Nat := p.headD 0

/-! ## The tracer (`trace_pc.cpp`) -/

/-- The part of `TracePC` the tree depends on: the significant length `S`
(`max_significant_execpath_size`; the tail length is the same number) and the
set of PCIDs whose bit is set in `nondeterministic_pc_bitmap`. -/
structure TracePC where
  max_significant_execpath_size : Nat
  nd : List PCID
deriving Repr

namespace TracePC

def ExecPathSignificantMax (tpc : TracePC) : Nat := tpc.max_significant_execpath_size

def ExecPathTailMax (tpc : TracePC) : Nat := tpc.max_significant_execpath_size

/-- The first `S` PCIDs of a path, `TracePC::significant`. -/
def significant (tpc : TracePC) (epath : ExecPath) : ExecPath :=
  if epath.length ≤ tpc.ExecPathSignificantMax then epath
  else subvec_len epath 0 tpc.ExecPathSignificantMax

/-- The PCIDs after position `S`, at most `S` of them, `TracePC::tail_of`. -/
def tail_of (tpc : TracePC) (epath : ExecPath) : ExecPath :=
  if epath.length ≤ tpc.ExecPathSignificantMax then []
  else
    let len :=
      if epath.length - tpc.ExecPathSignificantMax ≤ tpc.ExecPathTailMax
      then epath.length - tpc.ExecPathSignificantMax
      else tpc.ExecPathTailMax
    subvec_len epath tpc.ExecPathSignificantMax len

/-- Bit test of the nondeterminism bitmap, `TracePC::IsND`. -/
def IsND (tpc : TracePC) (pcid : PCID) : Bool := tpc.nd.contains pcid

/-- The path without its nondeterministic PCIDs, `TracePC::Prune`. -/
def Prune (tpc : TracePC) (epath : ExecPath) : ExecPath :=
  epath.filter (fun pcid => !tpc.IsND pcid)

/-- Marks every PCID of `epath` nondeterministic, `TracePC::AddND(const ExecPath&)`. -/
def AddND (tpc : TracePC) (epath : ExecPath) : TracePC :=
  { tpc with nd := tpc.nd ++ epath }

end TracePC

/-! ## Inputs (`pathfinder_defs.h`) -/

/-- Argument map `std::map<std::string, long>`, kept as its sorted entry list. -/
abbrev Args := List (String × Int)

/-- Lexicographic `operator<` of `std::map`: entries compare as pairs. -/
def Args.lt : Args → Args → Bool
  | [], [] => false
  | [], _ :: _ => true
  | _ :: _, [] => false
  | (k1, v1) :: r1, (k2, v2) :: r2 =>
    if k1 < k2 ∨ (k1 = k2 ∧ v1 < v2) then true
    else if k2 < k1 ∨ (k2 = k1 ∧ v2 < v1) then false
    else Args.lt r1 r2

/-- The class `Input`: enum arguments and numeric arguments. -/
structure Input where
  enum_args : Args
  numeric_args : Args
deriving DecidableEq, Repr

/-- The order `Input::operator<`. -/
def Input.lt (a b : Input) : Bool :=
  if Args.lt a.enum_args b.enum_args then true
  else if Args.lt b.enum_args a.enum_args then false
  else Args.lt a.numeric_args b.numeric_args

/-- Insertion into a `std::set<Input>` kept as its ascending element list. -/
def set_insert : List Input → Input → List Input
  | [], x => [x]
  | y :: ys, x =>
    if Input.lt x y then x :: y :: ys
    else if Input.lt y x then y :: set_insert ys x
    else y :: ys

/-- Insertion of a range, `set.insert(first, last)`. -/
def set_insert_all (s : List Input) (other : List Input) : List Input :=
  other.foldl set_insert s

/-! ## Nodes (`exectree.h`) -/

/-- The Epsilon marker `Node::EpsilonPCID`. -/
def EpsilonPCID : PCID := 0

/-- The one-element path `Node::EPSILON`. -/
def EPSILON : ExecPath := [EpsilonPCID]

/-- The bound `Node::MAX_INPUT_PER_PATH`. -/
def MAX_INPUT_PER_PATH : Nat := 100

/-- The status `PATHFINDER_EXPECTED_EXCEPTION`. -/
def PATHFINDER_EXPECTED_EXCEPTION : Int := -2

/-- A node of the tree: `LeafNode` or `InternalNode`. -/
inductive Node where
  | leaf (id : Nat) (pfx : ExecPath) (tail : ExecPath) (inputset : List Input)
      (exception_path : Bool)
  | internal (id : Nat) (pfx : ExecPath) (children : List Node)
deriving Repr

/-- A pointer to a node during one operation: child indices from the root. -/
abbrev Pos := List Nat

namespace Node

def id : Node → Nat
  | leaf i _ _ _ _ => i
  | internal i _ _ => i

/-- The accessor `get_prefix()`. -/
def pfx : Node → ExecPath
  | leaf _ p _ _ _ => p
  | internal _ p _ => p

def is_leaf : Node → Bool
  | leaf .. => true
  | internal .. => false

def is_internal : Node → Bool
  | leaf .. => false
  | internal .. => true

/-- The children of an internal node (none for a leaf). -/
def children : Node → List Node
  | leaf .. => []
  | internal _ _ cs => cs

/-- Assignment to the member `prefix`. -/
def set_pfx (p : ExecPath) : Node → Node
  | leaf i _ t s e => leaf i p t s e
  | internal i _ cs => internal i p cs

/-- Assignment to the member `children` of an internal node. -/
def set_children (cs : List Node) : Node → Node
  | leaf i p t s e => leaf i p t s e
  | internal i p _ => internal i p cs

end Node

/-- Index at which `InternalNode::add_child` puts `node`: before the first child
whose `prefix[0]` is greater than that of `node`. -/
def add_child_idx : List Node → Node → Nat
  | [], _ => 0
  | c :: cs, node => if front c.pfx > front node.pfx then 0 else add_child_idx cs node + 1

/-- The children after `InternalNode::add_child(node)`. -/
def add_child : List Node → Node → List Node
  | [], node => [node]
  | c :: cs, node => if front c.pfx > front node.pfx then node :: c :: cs else c :: add_child cs node

/-- Overload `lookup_child(PCID)`: index of the first child whose `prefix[0]` is `pcid`. -/
def lookup_child : List Node → PCID → Option Nat
  | [], _ => none
  | c :: cs, pcid => if front c.pfx = pcid then some 0 else (lookup_child cs pcid).map (· + 1)

/-- Overload `lookup_child(ExecPath)`: index of the first child whose prefix is `p`. -/
def lookup_child_path : List Node → ExecPath → Option Nat
  | [], _ => none
  | c :: cs, p => if c.pfx = p then some 0 else (lookup_child_path cs p).map (· + 1)

/-- The check `InternalNode::children_sorted`: `prefix[0]` strictly increases
along the children. -/
def children_sorted : List Node → Bool
  | [] => true
  | [_] => true
  | a :: b :: rest => decide (front a.pfx < front b.pfx) && children_sorted (b :: rest)

/-- The check `InternalNode::has_two_or_more_children()` (not recursive). -/
def has_two_or_more_children (n : Node) : Bool := decide (2 ≤ n.children.length)

/-! ## Searching (`LeafNode::find`, `InternalNode::find`) -/

/-- The test of the two overloads of `lookup_child` on one child: `prefix[0] ==
pcid` for a PCID key, `prefix == prefix_` for a path key. -/
def child_matches (key : PCID ⊕ ExecPath) (c : Node) : Bool :=
  match key with
  | Sum.inl pcid => decide (front c.pfx = pcid)
  | Sum.inr p => decide (c.pfx = p)

mutual
/-- The virtual `Node::find(epath)`, for the node reached from the root along
`pos`.  The result is the pair `(nearest, epath_rem)` of the source: `none` is
`nullptr`, `some q` the node at position `q`; the `parent` of the node at `pos`
is the node at `pos.dropLast`, and `is_root()` is `pos = []`. -/
def Node.find : Node → Pos → ExecPath → Option Pos × ExecPath
  | .leaf _ pfx _ _ _, pos, epath =>
    if epath = pfx then (some pos, [])
    else
      let common_len := common_prefix_length pfx epath
      let common := subvec_len pfx 0 common_len
      let epath_rem := subvec epath common_len
      if common ≠ pfx then
        if pos.isEmpty then (none, epath) else (some pos.dropLast, epath)
      else (some pos, epath_rem)
  | .internal _ pfx children, pos, epath =>
    if pos.isEmpty ∧ pfx = EPSILON then
      Node.find_child children 0 (Sum.inl (front epath)) pos epath (none, epath)
    else if epath = pfx then
      Node.find_child children 0 (Sum.inr EPSILON) pos EPSILON (some pos, [])
    else
      let common_len := common_prefix_length pfx epath
      let common := subvec_len pfx 0 common_len
      let epath_rem := subvec epath common_len
      if common ≠ pfx then
        if pos.isEmpty then (none, epath) else (some pos.dropLast, epath)
      else
        Node.find_child children 0 (Sum.inl (front epath_rem)) pos epath_rem
          (some pos, epath_rem)
/-- The step `matched_child = lookup_child(key); matched_child != nullptr ?
matched_child->find(arg) : dflt` of `InternalNode::find`, scanning the children
from index `idx` on; `key` selects the overload of `lookup_child`. -/
def Node.find_child : List Node → Nat → PCID ⊕ ExecPath → Pos → ExecPath →
    Option Pos × ExecPath → Option Pos × ExecPath
  | [], _, _, _, _, dflt => dflt
  | c :: cs, idx, key, pos, arg, dflt =>
    if child_matches key c then c.find (pos ++ [idx]) arg
    else Node.find_child cs (idx + 1) key pos arg dflt
end

namespace Node

/-- Dereference of a position. -/
def get? : Node → Pos → Option Node
  | n, [] => some n
  | leaf .., _ :: _ => none
  | internal _ _ cs, k :: rest =>
    match cs[k]? with
    | none => none
    | some c => c.get? rest

/-- In-place update of the node at a position. -/
def modifyAt (f : Node → Node) : Node → Pos → Node
  | n, [] => f n
  | leaf i p t s e, _ :: _ => leaf i p t s e
  | internal i p cs, k :: rest =>
    match cs[k]? with
    | none => internal i p cs
    | some c => internal i p (cs.set k (modifyAt f c rest))

/-- The squeezed path log `get_path_log(true)` of the node at `pos`: the
prefixes from the root down to the node, Epsilon prefixes dropped. -/
def path_log : Node → Pos → ExecPath
  | n, [] => if n.pfx = EPSILON then [] else n.pfx
  | leaf _ p _ _ _, _ :: _ => if p = EPSILON then [] else p
  | internal _ p cs, k :: rest =>
    match cs[k]? with
    | none => if p = EPSILON then [] else p
    | some c => vec_concat (if p = EPSILON then [] else p) (c.path_log rest)

end Node

/-! ## Leaves (`LeafNode`) -/

/-- Fresh leaf of `ExecTree::create_leaf`, at address `id`. -/
def create_leaf (id : Nat) (pfx : ExecPath) : Node := .leaf id pfx [] [] false

/-- Fresh internal node of `ExecTree::create_internal`, at address `id`. -/
def create_internal (id : Nat) (pfx : ExecPath) : Node := .internal id pfx []

/-- The test `LeafNode::is_full`. -/
def is_full (inputset : List Input) : Bool := inputset.length ≥ MAX_INPUT_PER_PATH

/-- The inputs left by `LeafNode::evict_random` when `std::rand()` returns `rnd`. -/
def evict_random (rnd : Nat) (inputset : List Input) : List Input :=
  inputset.eraseIdx (rnd % inputset.length)

/-- The method `LeafNode::insert_inputset`. -/
def insert_inputset (rnd : Nat) (epath_tail : ExecPath) (inputset_ : List Input)
    (run_status : Int) : Node → Node
  | .leaf i p _ s e =>
    let s1 := if is_full s then evict_random rnd s else s
    let s2 := set_insert_all s1 inputset_
    let e2 := if run_status = 0 then false
              else if run_status = PATHFINDER_EXPECTED_EXCEPTION then true else e
    .leaf i p epath_tail s2 e2
  | n => n

/-- The inputs of a leaf after `LeafNode::merge_inputset(other)`; `size_t`
subtraction wraps modulo `2^64`. -/
def merge_inputset (inputset other : List Input) : List Input :=
  if inputset.length + other.length ≤ MAX_INPUT_PER_PATH then set_insert_all inputset other
  else
    let num_left := (MAX_INPUT_PER_PATH + 2 ^ 64 - inputset.length % 2 ^ 64) % 2 ^ 64
    (other.foldl
      (fun (acc : List Input × Nat) input =>
        if acc.2 = 0 then acc else (set_insert acc.1 input, acc.2 - 1))
      (inputset, num_left)).1

/-! ## The tree (`ExecTree`) -/

/-- The tree: its root (`none` when empty) and the next unused node address. -/
structure ExecTree where
  root : Option Node
  next_id : Nat
deriving Repr

namespace ExecTree

/-- The tree made by the constructor. -/
def empty : ExecTree := { root := none, next_id := 0 }

def is_empty (t : ExecTree) : Bool := t.root.isNone

/-- The method `ExecTree::insert(epath, inputset, run_status)`.  Returns the new
tree and the position of the returned leaf in it. -/
def insert_set (tpc : TracePC) (t : ExecTree) (epath : ExecPath) (inputset : List Input)
    (run_status : Int) (rnd : Nat) : ExecTree × Pos :=
  let epath_significant := tpc.significant epath
  let epath_tail := tpc.tail_of epath
  match t.root with
  | none =>
    -- Case 1: first insertion
    let new_root :=
      insert_inputset rnd epath_tail inputset run_status (create_leaf t.next_id epath_significant)
    ({ root := some new_root, next_id := t.next_id + 1 }, [])
  | some root =>
    match root.find [] epath_significant with
    | (none, epath_rem) =>
      -- Case 2: epath does not go through the current root
      if root.pfx = EPSILON then
        let new_leaf :=
          insert_inputset rnd epath_tail inputset run_status (create_leaf t.next_id epath_rem)
        ({ root := some (root.set_children (add_child root.children new_leaf)),
           next_id := t.next_id + 1 },
         [add_child_idx root.children new_leaf])
      else
        let common_len := common_prefix_length root.pfx epath_rem
        let common := if common_len = 0 then EPSILON else subvec_len root.pfx 0 common_len
        let new_root := create_internal t.next_id common
        let old_root := root.set_pfx (subvec root.pfx common_len)
        let new_root := new_root.set_children (add_child new_root.children old_root)
        let epath_rem := if epath_rem.length = common_len then EPSILON
                         else subvec epath_rem common_len
        let new_leaf :=
          insert_inputset rnd epath_tail inputset run_status
            (create_leaf (t.next_id + 1) epath_rem)
        ({ root := some (new_root.set_children (add_child new_root.children new_leaf)),
           next_id := t.next_id + 2 },
         [add_child_idx new_root.children new_leaf])
    | (some nearest, epath_rem) =>
      match root.get? nearest with
      | none => (t, nearest)
      | some nearest_node =>
        if epath_rem.length = 0 then
          if nearest_node.is_internal then
            -- Case 3: epath stops at an internal node
            let new_leaf :=
              insert_inputset rnd epath_tail inputset run_status (create_leaf t.next_id EPSILON)
            ({ root := some (root.modifyAt
                 (fun n => n.set_children (add_child n.children new_leaf)) nearest),
               next_id := t.next_id + 1 },
             nearest ++ [add_child_idx nearest_node.children new_leaf])
          else
            -- Case 4: found an existing leaf
            ({ root := some (root.modifyAt
                 (insert_inputset rnd epath_tail inputset run_status) nearest),
               next_id := t.next_id },
             nearest)
        else if nearest_node.is_internal then
          match lookup_child nearest_node.children (front epath_rem) with
          | none =>
            -- Case 5: a new leaf under the internal node nearest
            let leaf :=
              insert_inputset rnd epath_tail inputset run_status (create_leaf t.next_id epath_rem)
            ({ root := some (root.modifyAt
                 (fun n => n.set_children (add_child n.children leaf)) nearest),
               next_id := t.next_id + 1 },
             nearest ++ [add_child_idx nearest_node.children leaf])
          | some match_idx =>
            -- Case 6: a new internal node between nearest and one of its children
            match nearest_node.children[match_idx]? with
            | none => (t, nearest)
            | some pulled =>
              let rest := nearest_node.children.eraseIdx match_idx
              let common_len := common_prefix_length pulled.pfx epath_rem
              let common := subvec_len pulled.pfx 0 common_len
              let internal := create_internal t.next_id common
              let pulled := pulled.set_pfx (subvec pulled.pfx common_len)
              let internal := internal.set_children (add_child internal.children pulled)
              let epath_rem := if epath_rem.length = common_len then EPSILON
                               else subvec epath_rem common_len
              let leaf :=
                insert_inputset rnd epath_tail inputset run_status
                  (create_leaf (t.next_id + 1) epath_rem)
              let leaf_idx := add_child_idx internal.children leaf
              let internal := internal.set_children (add_child internal.children leaf)
              ({ root := some (root.modifyAt
                   (fun n => n.set_children (add_child rest internal)) nearest),
                 next_id := t.next_id + 2 },
               nearest ++ [add_child_idx rest internal, leaf_idx])
        else
          -- Case 7: nearest is a leaf; it becomes the Epsilon child of a new internal node
          let pulled := nearest_node
          let internal := create_internal t.next_id pulled.pfx
          let pulled := pulled.set_pfx EPSILON
          let internal := internal.set_children (add_child internal.children pulled)
          let leaf :=
            insert_inputset rnd epath_tail inputset run_status
              (create_leaf (t.next_id + 1) epath_rem)
          let leaf_idx := add_child_idx internal.children leaf
          let internal := internal.set_children (add_child internal.children leaf)
          match nearest.getLast? with
          | none =>
            ({ root := some internal, next_id := t.next_id + 2 }, [leaf_idx])
          | some idx =>
            match root.get? nearest.dropLast with
            | none => (t, nearest)
            | some internal_parent =>
              let rest := internal_parent.children.eraseIdx idx
              ({ root := some (root.modifyAt
                   (fun n => n.set_children (add_child rest internal)) nearest.dropLast),
                 next_id := t.next_id + 2 },
               nearest.dropLast ++ [add_child_idx rest internal, leaf_idx])

/-- The method `ExecTree::insert(epath, input, run_status)` with a single input. -/
def insert (tpc : TracePC) (t : ExecTree) (epath : ExecPath) (input : Input)
    (run_status : Int) (rnd : Nat) : ExecTree × Pos :=
  t.insert_set tpc epath [input] run_status rnd

/-- The method `ExecTree::find(epath)` on a non-empty tree. -/
def find (tpc : TracePC) (t : ExecTree) (epath : ExecPath) : Option Pos :=
  match t.root with
  | none => none
  | some root =>
    match root.find [] (tpc.significant epath) with
    | (nearest, epath_rem) => if epath_rem.length > 0 then none else nearest

/-- The method `ExecTree::has(epath)`. -/
def has (tpc : TracePC) (t : ExecTree) (epath : ExecPath) : Bool :=
  if t.is_empty then false else (t.find tpc epath).isSome

end ExecTree

/-! ## Purging (`purge_leaf`, `purge_and_reinsert`, `rm_internal_with_only_child`) -/

namespace ExecTree

/-- The method `ExecTree::rm_internal_with_only_child(internal)` for the internal
node at `pos`. -/
def rm_internal_with_only_child (t : ExecTree) (pos : Pos) : ExecTree :=
  match t.root with
  | none => t
  | some root =>
    match root.get? pos with
    | none => t
    | some internal =>
      if has_two_or_more_children internal then t
      else
        match internal.children with
        | [] => t
        | only_child :: _ =>
          let only_child :=
            if internal.pfx = EPSILON then only_child.set_pfx only_child.pfx
            else if only_child.pfx = EPSILON then only_child.set_pfx internal.pfx
            else only_child.set_pfx (vec_concat internal.pfx only_child.pfx)
          match pos.getLast? with
          | none => { t with root := some only_child }
          | some idx =>
            { t with root := some (root.modifyAt
                (fun n => n.set_children (add_child (n.children.eraseIdx idx) only_child))
                pos.dropLast) }

/-- The method `ExecTree::purge_leaf(epath)`: the tree without the leaf, and the
leaf.  `none` stands for a failed assertion (no node found, or not a leaf). -/
def purge_leaf (tpc : TracePC) (t : ExecTree) (epath : ExecPath) : Option (ExecTree × Node) :=
  match t.root with
  | none => none
  | some root =>
    match t.find tpc epath with
    | none => none
    | some pos =>
      match root.get? pos with
      | none => none
      | some leaf_raw =>
        if leaf_raw.is_leaf then
          match pos.getLast? with
          | none => some ({ t with root := none }, leaf_raw)
          | some idx =>
            let t1 : ExecTree :=
              { t with root := some (root.modifyAt
                  (fun n => n.set_children (n.children.eraseIdx idx)) pos.dropLast) }
            some (t1.rm_internal_with_only_child pos.dropLast, leaf_raw)
        else none

/-- The inputs of a leaf (`inputset`). -/
def leaf_inputset : Node → List Input
  | .leaf _ _ _ s _ => s
  | .internal .. => []

/-- The flag `exception_path` of a leaf. -/
def leaf_exception_path : Node → Bool
  | .leaf _ _ _ _ e => e
  | .internal .. => false

/-- The tail of a leaf. -/
def leaf_tail : Node → ExecPath
  | .leaf _ _ t _ _ => t
  | .internal .. => []

/-- The method `ExecTree::purge_and_reinsert(epath_old, epath_new)`.  The source
passes the `bool exception_path` where `insert` expects the `int run_status`:
`true` converts to `1`, `false` to `0`. -/
def purge_and_reinsert (tpc : TracePC) (t : ExecTree) (epath_old epath_new : ExecPath)
    (rnd : Nat) : Option ExecTree :=
  match t.purge_leaf tpc epath_old with
  | none => none
  | some (t1, leaf_old) =>
    let inputset := leaf_inputset leaf_old
    let exception_path := leaf_exception_path leaf_old
    some (t1.insert_set tpc epath_new inputset (if exception_path then 1 else 0) rnd).1

end ExecTree

/-! ## Pruning (`filter_nd_pcid`, `sort`, `merge`, `prune`) -/

mutual
/-- The virtual `filter_nd_pcid(tpc, prefix_len_so_far, filtered_nodes)`: the
node after the call and the addresses added to `filtered_nodes`, in visiting
order.  In `InternalNode::filter_nd_pcid` the local `prefix_len` is read without
having been written when pruning leaves the prefix unchanged; `garbage i` is the
value that read yields in the node at address `i`.  Sums of `size_t` wrap. -/
def Node.filter_nd_pcid (tpc : TracePC) (garbage : Nat → Nat) :
    Node → Nat → Node × List Nat
  | .leaf i pfx tail s e, prefix_len_so_far =>
    let prefix_before := if pfx = EPSILON then 0 else pfx.length
    let pfx1 := if pfx = EPSILON then pfx else tpc.Prune pfx
    let prefix_after := if pfx = EPSILON then 0 else pfx1.length
    let tail_before := tail.length
    let tail1 := tpc.Prune tail
    let tail_after := tail1.length
    let so_far := (prefix_len_so_far + prefix_after) % 2 ^ 64
    let tail_moved := decide (so_far < tpc.ExecPathSignificantMax) && decide (tail_after > 0)
    let len_to_be_moved := min (tpc.ExecPathSignificantMax - so_far) tail_after
    let pfx2 :=
      if tail_moved then
        (if pfx1 = EPSILON then subvec_len tail1 0 len_to_be_moved
         else vec_concat pfx1 (subvec_len tail1 0 len_to_be_moved))
      else if pfx1.length = 0 then EPSILON else pfx1
    let tail2 := if tail_moved then subvec tail1 len_to_be_moved else tail1
    let filtered :=
      decide (prefix_before ≠ prefix_after) || decide (tail_before ≠ tail_after) || tail_moved
    (.leaf i pfx2 tail2 s e, if filtered then [i] else [])
  | .internal i pfx children, prefix_len_so_far =>
    let pfx1 := if pfx = EPSILON then pfx else tpc.Prune pfx
    let changed := decide (pfx ≠ EPSILON) && decide (pfx1.length ≠ pfx.length)
    let pfx2 := if changed && decide (pfx1.length = 0) then EPSILON else pfx1
    let prefix_len :=
      if pfx = EPSILON then 0
      else if changed then (if pfx1.length = 0 then 0 else pfx1.length)
      else garbage i
    let r := Node.filter_nd_pcid_list tpc garbage children
      ((prefix_len_so_far + prefix_len) % 2 ^ 64)
    (.internal i pfx2 r.1, (if changed then [i] else []) ++ r.2)
/-- The loop `for (auto& child : children) child->filter_nd_pcid(...)`. -/
def Node.filter_nd_pcid_list (tpc : TracePC) (garbage : Nat → Nat) :
    List Node → Nat → List Node × List Nat
  | [], _ => ([], [])
  | c :: cs, prefix_len_so_far =>
    let r := c.filter_nd_pcid tpc garbage prefix_len_so_far
    let rs := Node.filter_nd_pcid_list tpc garbage cs prefix_len_so_far
    (r.1 :: rs.1, r.2 ++ rs.2)
end

mutual
/-- Position of the node whose address is `id`, reached from a node at `pos`. -/
def Node.pos_of (id : Nat) : Node → Pos → Option Pos
  | .leaf i _ _ _ _, pos => if i = id then some pos else none
  | .internal i _ cs, pos => if i = id then some pos else Node.pos_of_list id cs pos 0
/-- Search of the children, from child index `idx` on. -/
def Node.pos_of_list (id : Nat) : List Node → Pos → Nat → Option Pos
  | [], _, _ => none
  | c :: cs, pos, idx =>
    match c.pos_of id (pos ++ [idx]) with
    | some q => some q
    | none => Node.pos_of_list id cs pos (idx + 1)
end

/-- Insertion into a `std::set` of node pointers, kept in ascending address
order; `addr` gives the address order of the node identifiers. -/
def ptr_insert (addr : Nat → Nat) : List Nat → Nat → List Nat
  | [], x => [x]
  | y :: ys, x =>
    if x = y then y :: ys
    else if addr x < addr y then x :: y :: ys
    else y :: ptr_insert addr ys x

/-- The function `ExecTree::merge(left, right)` on two pulled nodes; `next_id` is
the next unused address.  Returns the merged node and the new `next_id`. -/
def merge (left right : Node) (next_id : Nat) : Node × Nat :=
  let common_len := common_prefix_length left.pfx right.pfx
  let common := subvec_len left.pfx 0 common_len
  if left.pfx = right.pfx then
    match left, right with
    | .leaf _ _ ltail ls le, .leaf _ _ _ rs _ =>
      (.leaf next_id common ltail (merge_inputset (merge_inputset [] ls) rs) le, next_id + 1)
    | .leaf i _ t s e, .internal j p cs =>
      (.internal j p (add_child cs (.leaf i EPSILON t s e)), next_id)
    | .internal j p cs, .leaf i _ t s e =>
      (.internal j p (add_child cs (.leaf i EPSILON t s e)), next_id)
    | .internal _ _ lcs, .internal _ _ rcs =>
      (.internal next_id common ((lcs ++ rcs).foldl add_child []), next_id + 1)
  else if left.pfx.length = common_len then
    let cs1 :=
      match left with
      | .leaf i _ t s e => add_child [] (.leaf i EPSILON t s e)
      | .internal _ _ lcs => lcs.foldl add_child []
    (.internal next_id common (add_child cs1 (right.set_pfx (subvec right.pfx common_len))),
      next_id + 1)
  else if right.pfx.length = common_len then
    let cs1 := add_child [] (left.set_pfx (subvec left.pfx common_len))
    let cs2 :=
      match right with
      | .leaf i _ t s e => add_child cs1 (.leaf i EPSILON t s e)
      | .internal _ _ rcs => rcs.foldl add_child cs1
    (.internal next_id common cs2, next_id + 1)
  else
    (.internal next_id common
      (add_child (add_child [] (left.set_pfx (subvec left.pfx common_len)))
        (right.set_pfx (subvec right.pfx common_len))), next_id + 1)

/-- The loop body of `ExecTree::sort`: re-adds one pulled child `node` to the
children `cur` rebuilt so far, merging it with a child of the same `prefix[0]`.
The state is `(cur, merged_nodes, next_id)`. -/
def sort_step (addr : Nat → Nat) (st : List Node × List Nat × Nat) (node : Node) :
    List Node × List Nat × Nat :=
  match lookup_child st.1 (front node.pfx) with
  | none => (add_child st.1 node, st.2.1, st.2.2)
  | some idx =>
    match st.1[idx]? with
    | none => st
    | some conflict =>
      let m := merge conflict node st.2.2
      (add_child (st.1.eraseIdx idx) m.1, ptr_insert addr st.2.1 m.1.id, m.2)

namespace ExecTree

/-- The method `ExecTree::rm_internal_epsilon_node(internal)` for the non-root
internal node at `pos`. -/
def rm_internal_epsilon_node (t : ExecTree) (pos : Pos) : ExecTree :=
  match t.root with
  | none => t
  | some root =>
    match root.get? pos, pos.getLast? with
    | some internal, some idx =>
      if internal.pfx ≠ EPSILON then t
      else
        { t with root := some (root.modifyAt
            (fun n => n.set_children (internal.children.foldl add_child (n.children.eraseIdx idx)))
            pos.dropLast) }
    | _, _ => t

/-- The method `ExecTree::sort(internal)` for the internal node at `pos`: the new
tree and the set `merged_nodes`. -/
def sort (addr : Nat → Nat) (t : ExecTree) (pos : Pos) : ExecTree × List Nat :=
  match t.root with
  | none => (t, [])
  | some root =>
    match root.get? pos with
    | none => (t, [])
    | some internal =>
      if children_sorted internal.children then (t, [])
      else
        let r := internal.children.foldl (sort_step addr) ([], [], t.next_id)
        ({ root := some (root.modifyAt (fun n => n.set_children r.1) pos), next_id := r.2.2 },
          r.2.1)

/-- The address test `ExecTree::has(Node*)`. -/
def has_node (t : ExecTree) (id : Nat) : Bool :=
  match t.root with
  | none => false
  | some root => (root.pos_of id []).isSome

/-- The node at address `id`, with its position. -/
def node_at (t : ExecTree) (id : Nat) : Option (Pos × Node) :=
  match t.root with
  | none => none
  | some root =>
    match root.pos_of id [] with
    | none => none
    | some pos => (root.get? pos).map (fun n => (pos, n))

/-- The loop of `prune` that builds `may_need_sort`: the parents of the filtered
nodes that are not the root. -/
def parents_of (addr : Nat → Nat) (t : ExecTree) (filtered_nodes : List Nat) : List Nat :=
  filtered_nodes.foldl
    (fun acc id =>
      match t.node_at id with
      | some (pos, _) =>
        if pos.isEmpty then acc
        else
          match t.root.bind (fun r => r.get? pos.dropLast) with
          | some parent => ptr_insert addr acc parent.id
          | none => acc
      | none => acc)
    []

/-- The loop of `prune` that removes the filtered non-root internal nodes whose
prefix became Epsilon. -/
def rm_epsilon_loop (t : ExecTree) (filtered_nodes : List Nat) : ExecTree :=
  filtered_nodes.foldl
    (fun t id =>
      match t.node_at id with
      | some (pos, n) =>
        if n.is_internal && !pos.isEmpty then t.rm_internal_epsilon_node pos else t
      | none => t)
    t

/-- The `while (true)` loop of `prune` over `may_need_sort`; the state is the
tree and the set `may_have_only_child`.  `none` when `fuel` iterations do not
empty the set. -/
def sort_loop (addr : Nat → Nat) : Nat → ExecTree → List Nat → List Nat →
    Option (ExecTree × List Nat)
  | _, t, [], may_have_only_child => some (t, may_have_only_child)
  | 0, _, _ :: _, _ => none
  | fuel + 1, t, target :: may_need_sort, may_have_only_child =>
    match t.node_at target with
    | none => sort_loop addr fuel t may_need_sort may_have_only_child
    | some (pos, _) =>
      let r := t.sort addr pos
      if r.2.isEmpty then sort_loop addr fuel r.1 may_need_sort may_have_only_child
      else
        let may_need_sort :=
          r.2.foldl
            (fun acc id =>
              match r.1.node_at id with
              | some (_, n) => if n.is_internal then ptr_insert addr acc id else acc
              | none => acc)
            may_need_sort
        sort_loop addr fuel r.1 may_need_sort (ptr_insert addr may_have_only_child target)

/-- The last loop of `prune`: collapses the internal nodes left with one child. -/
def only_child_loop (t : ExecTree) (may_have_only_child : List Nat) : ExecTree :=
  may_have_only_child.foldl
    (fun t id =>
      match t.node_at id with
      | some (pos, _) => t.rm_internal_with_only_child pos
      | none => t)
    t

/-- The method `ExecTree::prune()`.  `addr` orders the node addresses (the
iteration order of the pointer sets), `garbage` gives the uninitialised reads of
`InternalNode::filter_nd_pcid`, `fuel` bounds the iterations of the sort loop. -/
def prune (tpc : TracePC) (addr garbage : Nat → Nat) (fuel : Nat) (t : ExecTree) :
    Option ExecTree :=
  match t.root with
  | none => some t
  | some root =>
    let r := root.filter_nd_pcid tpc garbage 0
    let filtered_nodes := r.2.foldl (ptr_insert addr) []
    let t1 : ExecTree := { t with root := some r.1 }
    let may_need_sort := t1.parents_of addr filtered_nodes
    let t2 := t1.rm_epsilon_loop filtered_nodes
    match sort_loop addr fuel t2 may_need_sort [] with
    | none => none
    | some (t3, may_have_only_child) => some (t3.only_child_loop may_have_only_child)

end ExecTree

/-! ## Structural equality and the invariant checks -/

mutual
/-- The virtual `struct_eq`: same kind, same prefix and, for internal nodes,
pairwise `struct_eq` children. -/
def Node.struct_eq : Node → Node → Bool
  | .leaf _ p _ _ _, other => other.is_leaf && decide (p = other.pfx)
  | .internal _ p cs, other =>
    other.is_internal && decide (p = other.pfx) && Node.struct_eq_list cs other.children
/-- The loop of `InternalNode::struct_eq` over two child vectors. -/
def Node.struct_eq_list : List Node → List Node → Bool
  | [], [] => true
  | [], _ :: _ => false
  | _ :: _, [] => false
  | c :: cs, d :: ds => c.struct_eq d && Node.struct_eq_list cs ds
end

mutual
/-- All nodes below and including a node, the node first. -/
def Node.nodes : Node → List Node
  | .leaf i p t s e => [.leaf i p t s e]
  | .internal i p cs => .internal i p cs :: Node.nodes_list cs
/-- All nodes of a list of subtrees. -/
def Node.nodes_list : List Node → List Node
  | [] => []
  | c :: cs => c.nodes ++ Node.nodes_list cs
end

namespace ExecTree

/-- Same shape and same prefix on every node: both trees empty, or both
non-empty with `struct_eq` roots.  The free function `struct_eq(left, right)` of
the unit tests is weaker: it also returns `true` when exactly one tree is empty. -/
def same_shape (left right : ExecTree) : Bool :=
  match left.root, right.root with
  | none, none => true
  | some l, some r => l.struct_eq r
  | _, _ => false

/-- All nodes of the tree (`get_all_nodes`). -/
def all_nodes (t : ExecTree) : List Node :=
  match t.root with
  | none => []
  | some r => r.nodes

/-- All nodes but the root. -/
def non_root_nodes (t : ExecTree) : List Node :=
  match t.root with
  | none => []
  | some r => Node.nodes_list r.children

/-- The check `no_empty_prefixed_node` (I1). -/
def no_empty_prefixed_node (t : ExecTree) : Bool :=
  t.all_nodes.all (fun n => !n.pfx.isEmpty)

/-- The check `no_epsilon_internal_node` (I2). -/
def no_epsilon_internal_node (t : ExecTree) : Bool :=
  t.non_root_nodes.all (fun n => !(n.is_internal && decide (n.pfx = EPSILON)))

/-- The check `sorted` (I3). -/
def sorted (t : ExecTree) : Bool :=
  t.all_nodes.all (fun n => !n.is_internal || children_sorted n.children)

/-- The check `no_only_child_internal_node` (I4). -/
def no_only_child_internal_node (t : ExecTree) : Bool :=
  t.all_nodes.all (fun n => !n.is_internal || has_two_or_more_children n)

/-- The method `ExecTree::is_sorted`. -/
def is_sorted (t : ExecTree) : Bool :=
  t.no_empty_prefixed_node && t.no_epsilon_internal_node && t.sorted &&
    t.no_only_child_internal_node

end ExecTree

/-! ## Sequences of calls -/

/-- The arguments of one call `insert(epath, input, run_status)`, with the value
`std::rand()` would return in it. -/
structure InsertCall where
  epath : ExecPath
  input : Input
  run_status : Int
  rnd : Nat

namespace ExecTree

/-- The tree after a sequence of `insert` calls on an empty tree. -/
def insert_calls (tpc : TracePC) (calls : List InsertCall) : ExecTree :=
  calls.foldl (fun t c => (t.insert tpc c.epath c.input c.run_status c.rnd).1) ExecTree.empty

/-- The node `find(epath)` returns, dereferenced. -/
def node_found (tpc : TracePC) (t : ExecTree) (epath : ExecPath) : Option Node :=
  (t.find tpc epath).bind (fun pos => t.root.bind (fun r => r.get? pos))

end ExecTree

mutual
/-- Position of the first leaf below a node (reached along `pos`) whose inputset
holds `x`: the leaf `all_input[x]`. -/
def Node.leaf_of (x : Input) : Node → Pos → Option Pos
  | .leaf _ _ _ s _, pos => if x ∈ s then some pos else none
  | .internal _ _ cs, pos => Node.leaf_of_list x cs pos 0
/-- Search of the children, from child index `idx` on. -/
def Node.leaf_of_list (x : Input) : List Node → Pos → Nat → Option Pos
  | [], _, _ => none
  | c :: cs, pos, idx =>
    match c.leaf_of x (pos ++ [idx]) with
    | some q => some q
    | none => Node.leaf_of_list x cs pos (idx + 1)
end

/-- The squeezed path log of the leaf that holds input `x`. -/
def ExecTree.path_log_of (t : ExecTree) (x : Input) : Option ExecPath :=
  t.root.bind (fun r => (r.leaf_of x []).map (fun pos => r.path_log pos))

/-! ## Concrete runs -/

/-- A tracer with `S = 10`, the smallest size the constructor accepts, and no
nondeterministic PCID. -/
def tpc10 : TracePC := { max_significant_execpath_size := 10, nd := [] }

/-- An input with no enum argument and the numeric argument `x = i`. -/
def input_x (i : Int) : Input := { enum_args := [], numeric_args := [("x", i)] }

/-- The calls `insert({1,2})` and `insert({1,3})`. -/
def calls_12_13 : List InsertCall := [⟨[1, 2], input_x 0, 0, 0⟩, ⟨[1, 3], input_x 1, 0, 0⟩]

/-- The tree after `insert({1,2})` and `insert({1,3})`. -/
def tree_12_13 : ExecTree := ExecTree.insert_calls tpc10 calls_12_13

/-- The tree after `insert({1})` with status `PATHFINDER_EXPECTED_EXCEPTION`. -/
def tree_exc : ExecTree :=
  ExecTree.insert_calls tpc10 [⟨[1], input_x 0, PATHFINDER_EXPECTED_EXCEPTION, 0⟩]

/-- A path of length 12 whose sixth PCID is `9`. -/
def path_long : ExecPath := [1, 1, 1, 1, 1, 9, 2, 2, 2, 2, 3, 3]

/-- The tree after inserting `path_long` and `{1,1,1,1,1,4}`: an internal root
with prefix `{1,1,1,1,1}` over the leaves `{4}` and `{9,2,2,2,2}` (tail `{3,3}`). -/
def tree_tail : ExecTree :=
  ExecTree.insert_calls tpc10
    [⟨path_long, input_x 0, 0, 0⟩, ⟨[1, 1, 1, 1, 1, 4], input_x 1, 0, 0⟩]

/-! ## The tracer (`TracePC`, `trace_pc.h` and `trace_pc.cpp`)

`TracePC` above is the part of the tracer that the tree reads.  `Tracer` is the
whole state of the class, with its two bitmaps and the path log.

* A `BitMap` is `none` while its pointer `bitmap` is `nullptr`, else its bytes.
  An access outside the allocated bytes is undefined in the source; here a read
  outside yields `0` and a write outside is dropped.
* The array `PathLog` of `2S` entries is a list of that length together with
  `PathLogSize`; `new PCID[...]` leaves the entries unspecified, so the initial
  contents are a parameter.
* `PCID` arithmetic is `uint32_t`: `pcid - 1` wraps modulo `2^32`.
-/

/-- The class `TracePC::BitMap`. -/
structure BitMap where
  bitmap : Option (List Nat)
  size : Nat
deriving Repr, DecidableEq

namespace BitMap

/-- The constructor `BitMap()`. -/
def empty : BitMap := { bitmap := none, size := 0 }

def is_available (b : BitMap) : Bool := b.bitmap.isSome

/-- The method `init(size_)`: zeroed bytes, rounded up to a multiple of eight. -/
def init (size_ : Nat) : BitMap :=
  let bytesize := if size_ % 8 = 0 then size_ / 8 else size_ / 8 + 1
  let alligned_size := if bytesize % 8 = 0 then bytesize else (bytesize / 8 + 1) * 8
  { bitmap := some (List.replicate alligned_size 0), size := size_ }

/-- The `switch` of `bitmask(bitidx)` for `bitidx` in `0..7`. -/
def bitmask (bitidx : Nat) : Nat := 2 ^ bitidx

/-- The method `set(idx)`: `bitmap[idx / 8] |= bitmask(idx % 8)`. -/
def set (b : BitMap) (idx : Nat) : BitMap :=
  match b.bitmap with
  | none => b
  | some bytes =>
    { b with bitmap := some (bytes.modify (fun byte => byte ||| bitmask (idx % 8)) (idx / 8)) }

/-- The method `is_set(idx)`: `bitmap[idx / 8] & bitmask(idx % 8)`, as a `bool`. -/
def is_set (b : BitMap) (idx : Nat) : Bool :=
  match b.bitmap with
  | none => false
  | some bytes => decide ((bytes.getD (idx / 8) 0) &&& bitmask (idx % 8) ≠ 0)

end BitMap

/-- The state of the class `TracePC`. -/
structure Tracer where
  max_significant_execpath_size : Nat
  max_tail_execpath_size : Nat
  check_diff_chunk_size : Nat
  NumGuards : Nat
  covered_pc_bitmap : BitMap
  nondeterministic_pc_bitmap : BitMap
  PathLog : List PCID
  PathLogSize : Nat
  trace : Bool
deriving Repr, DecidableEq

namespace Tracer

/-- The constructor `TracePC(max_significant_execpath_size_)`; `buf` is the
unspecified content of the fresh array `PathLog`, cut or padded to its size. -/
def create (max_significant_execpath_size_ : Nat) (buf : List PCID) : Tracer :=
  { max_significant_execpath_size := max_significant_execpath_size_
    max_tail_execpath_size := max_significant_execpath_size_
    check_diff_chunk_size := max_significant_execpath_size_ / 10
    NumGuards := 0
    covered_pc_bitmap := BitMap.empty
    nondeterministic_pc_bitmap := BitMap.empty
    PathLog := (buf ++ List.replicate (2 * max_significant_execpath_size_) 0).take
      (max_significant_execpath_size_ + max_significant_execpath_size_)
    PathLogSize := 0
    trace := false }

/-- The method `HandleInit(Start, Stop)` on a zeroed guard array of `n` entries:
the guards get the numbers `NumGuards + 1 ..`. -/
def HandleInit (t : Tracer) (n : Nat) : Tracer := { t with NumGuards := t.NumGuards + n }

def ExecPathSignificantMax (t : Tracer) : Nat := t.max_significant_execpath_size

def ExecPathTailMax (t : Tracer) : Nat := t.max_tail_execpath_size

def ExecPathMax (t : Tracer) : Nat := t.ExecPathSignificantMax + t.ExecPathTailMax

def CheckDiffChunkSize (t : Tracer) : Nat := t.check_diff_chunk_size

def TraceOn (t : Tracer) : Tracer := { t with trace := true }

def TraceOff (t : Tracer) : Tracer := { t with trace := false }

def ClearPathLog (t : Tracer) : Tracer := { t with PathLogSize := 0 }

def InitCoveredBitMap (t : Tracer) : Tracer :=
  if !t.covered_pc_bitmap.is_available then
    { t with covered_pc_bitmap := BitMap.init t.NumGuards }
  else t

def InitNDBitMap (t : Tracer) : Tracer :=
  if !t.nondeterministic_pc_bitmap.is_available then
    { t with nondeterministic_pc_bitmap := BitMap.init t.NumGuards }
  else t

/-- The index `pcid - 1` of a PCID in a bitmap, in `uint32_t` arithmetic. -/
def bit_of (pcid : PCID) : Nat := (pcid + 2 ^ 32 - 1) % 2 ^ 32

/-- The method `IsND(pcid)`: the state after `InitNDBitMap()` and the bit. -/
def IsND (t : Tracer) (pcid : PCID) : Tracer × Bool :=
  let t1 := t.InitNDBitMap
  (t1, t1.nondeterministic_pc_bitmap.is_set (bit_of pcid))

/-- The method `AppendPathLog(pcid)`. -/
def AppendPathLog (t : Tracer) (pcid : PCID) : Tracer :=
  if !t.trace then t
  else
    let t1 :=
      if t.covered_pc_bitmap.is_available then
        { t with covered_pc_bitmap := t.covered_pc_bitmap.set (bit_of pcid) }
      else t
    if t1.PathLogSize < t1.max_significant_execpath_size + t1.max_tail_execpath_size then
      if !t1.nondeterministic_pc_bitmap.is_available then
        { t1 with PathLog := t1.PathLog.set t1.PathLogSize pcid,
                  PathLogSize := t1.PathLogSize + 1 }
      else
        let r := t1.IsND pcid
        if !r.2 then
          { r.1 with PathLog := r.1.PathLog.set r.1.PathLogSize pcid,
                     PathLogSize := r.1.PathLogSize + 1 }
        else r.1
    else t1

/-- The method `GetPathLog()`. -/
def GetPathLog (t : Tracer) : ExecPath :=
  t.PathLog.take (min t.PathLogSize (t.max_significant_execpath_size + t.max_tail_execpath_size))

def GetNumInstrumented (t : Tracer) : Nat := t.NumGuards

end Tracer


/-! ## Learned conditions

A shallow embedding of `src/src/sygus_ast.cpp` (`IntExpr::eval`, `BoolExpr::eval`,
`operator!`, `simplify`), `src/src/enumarg_bitvec.cpp` and
`src/src/branch_condition.cpp`.

Modelling conventions.

* A `long` or `int64_t` is an integer; the arithmetic of `IntExpr::eval` wraps
  around at 64 bits (`wrap_long`), the operands of a division are cut to 32 bits as
  by the assignment to `int left_val, right_val` (`wrap_int`).  The four counters of
  a confusion matrix are not wrapped.
* A `size_t` or `unsigned long` is a natural number below `2 ^ 64`.
* An exception is a value of `EvalError`; a function that can throw returns
  `Except EvalError`.  The two operands of a binary operator are evaluated left
  first.
* A `std::set<Input>` is the list of its elements in iteration order.
* `EnumArgBitVec::idx_to_bitfield` shifts the `int` constant `1`: a shift by less
  than 31 is a power of two, a shift by 31 gives `INT_MIN`, which converts to the
  `size_t` value `2 ^ 64 - 2 ^ 31`, and the result of a shift by 32 or more is the
  parameter `ub_shift`.
* What the process reads from outside (the registered enum signature, the clock,
  the float rounding of `almost_zero(ns_to_s(·))`, the external synthesizer, the
  random sample and the indeterminate members of a default-constructed bit vector)
  is the record `SynthEnv`.  The synthesizer stands for the chain `gen_sygus_file`,
  `exec(duet_cmd(..))`, `parse_fun`: it gets the kind and the examples and returns
  the parsed body, or nothing on a timeout or failure message.
* `synthesize_internal` and `synthesize` also return the number of times the
  external synthesizer was started.
-/

/-- Value of a `long` computation after wrap-around. -/
def wrap_long (x : Int) : Int := (x + 2 ^ 63) % 2 ^ 64 - 2 ^ 63

/-- Conversion to `int`. -/
def wrap_int (x : Int) : Int := (x + 2 ^ 31) % 2 ^ 32 - 2 ^ 31

/-- Conversion of a `long` to `size_t`. -/
def to_size_t (x : Int) : Nat := (x % 2 ^ 64).toNat

/-- The exceptions of the evaluation code: `CondEvalException`, `std::out_of_range` of
`map::at`, `Unreachable`, and a read through a null pointer. -/
inductive EvalError where
  | CondEvalException
  | out_of_range
  | Unreachable
  | null_pointer
deriving Repr, DecidableEq

mutual
/-- Integer expression of a synthesized condition (`class IntExpr`). -/
inductive IntExpr where
  | CONST (value : Int)
  | VAR (id : String)
  | ITE (cond : BoolExpr) (left right : IntExpr)
  | ADD (left right : IntExpr)
  | SUB (left right : IntExpr)
  | MULT (left right : IntExpr)
  | DIV (left right : IntExpr)
  | MOD (left right : IntExpr)
/-- Boolean expression of a synthesized condition (`class BoolExpr`). -/
inductive BoolExpr where
  | AND (bleft bright : BoolExpr)
  | OR (bleft bright : BoolExpr)
  | NOT (b : BoolExpr)
  | EQ (ileft iright : IntExpr)
  | NEQ (ileft iright : IntExpr)
  | LT (ileft iright : IntExpr)
  | GT (ileft iright : IntExpr)
  | LTE (ileft iright : IntExpr)
  | GTE (ileft iright : IntExpr)
  | VAR (id : String)
end

/-- Read of `args.at(id)`: throws `std::out_of_range` when the key is absent. -/
def Args.at (args : Args) (id : String) : Except EvalError Int :=
  match args.lookup id with
  | some v => .ok v
  | none => .error .out_of_range

/-- Read of `args[id]` on a copy of the map: `0` when the key is absent. -/
def Args.get (args : Args) (id : String) : Int := (args.lookup id).getD 0

mutual
/-- Evaluation `IntExpr::eval(numeric_args)`. -/
def IntExpr.eval (numeric_args : Args) : IntExpr → Except EvalError Int
  | .CONST value => .ok value
  | .VAR id => numeric_args.at id
  | .ITE cond left right =>
    match cond.eval numeric_args with
    | .error e => .error e
    | .ok true => left.eval numeric_args
    | .ok false => right.eval numeric_args
  | .ADD left right =>
    match left.eval numeric_args with
    | .error e => .error e
    | .ok l =>
      match right.eval numeric_args with
      | .error e => .error e
      | .ok r => .ok (wrap_long (l + r))
  | .SUB left right =>
    match left.eval numeric_args with
    | .error e => .error e
    | .ok l =>
      match right.eval numeric_args with
      | .error e => .error e
      | .ok r => .ok (wrap_long (l - r))
  | .MULT left right =>
    match left.eval numeric_args with
    | .error e => .error e
    | .ok l =>
      match right.eval numeric_args with
      | .error e => .error e
      | .ok r => .ok (wrap_long (l * r))
  | .DIV left right =>
    match left.eval numeric_args with
    | .error e => .error e
    | .ok l =>
      match right.eval numeric_args with
      | .error e => .error e
      | .ok r =>
        if wrap_int r = 0 then .error .CondEvalException
        else .ok (wrap_int (Int.tdiv (wrap_int l) (wrap_int r)))
  | .MOD left right =>
    match left.eval numeric_args with
    | .error e => .error e
    | .ok l =>
      match right.eval numeric_args with
      | .error e => .error e
      | .ok r =>
        if wrap_int r = 0 then .error .CondEvalException
        else .ok (Int.tmod (wrap_int l) (wrap_int r))
/-- Evaluation `BoolExpr::eval(args)`; `&&` and `||` do not evaluate their right
operand when the left one decides. -/
def BoolExpr.eval (args : Args) : BoolExpr → Except EvalError Bool
  | .AND bleft bright =>
    match bleft.eval args with
    | .error e => .error e
    | .ok false => .ok false
    | .ok true => bright.eval args
  | .OR bleft bright =>
    match bleft.eval args with
    | .error e => .error e
    | .ok true => .ok true
    | .ok false => bright.eval args
  | .NOT b =>
    match b.eval args with
    | .error e => .error e
    | .ok v => .ok (!v)
  | .EQ ileft iright =>
    match ileft.eval args with
    | .error e => .error e
    | .ok l =>
      match iright.eval args with
      | .error e => .error e
      | .ok r => .ok (decide (l = r))
  | .NEQ ileft iright =>
    match ileft.eval args with
    | .error e => .error e
    | .ok l =>
      match iright.eval args with
      | .error e => .error e
      | .ok r => .ok (decide (l ≠ r))
  | .LT ileft iright =>
    match ileft.eval args with
    | .error e => .error e
    | .ok l =>
      match iright.eval args with
      | .error e => .error e
      | .ok r => .ok (decide (l < r))
  | .GT ileft iright =>
    match ileft.eval args with
    | .error e => .error e
    | .ok l =>
      match iright.eval args with
      | .error e => .error e
      | .ok r => .ok (decide (l > r))
  | .LTE ileft iright =>
    match ileft.eval args with
    | .error e => .error e
    | .ok l =>
      match iright.eval args with
      | .error e => .error e
      | .ok r => .ok (decide (l ≤ r))
  | .GTE ileft iright =>
    match ileft.eval args with
    | .error e => .error e
    | .ok l =>
      match iright.eval args with
      | .error e => .error e
      | .ok r => .ok (decide (l ≥ r))
  | .VAR _ => .error .Unreachable
end

/-- Negation `BoolExpr::operator!`. -/
def BoolExpr.not : BoolExpr → BoolExpr
  | .NOT b => b
  | .EQ l r => .NEQ l r
  | .NEQ l r => .EQ l r
  | .LT l r => .GTE l r
  | .GT l r => .LTE l r
  | .LTE l r => .GT l r
  | .GTE l r => .LT l r
  | e => .NOT e

/-- The function `simplify(e)`: removes one outer negation. -/
def simplify (e : BoolExpr) : BoolExpr :=
  match e with
  | .NOT b => b.not
  | e => e

/-! ### Enum bit vectors (`enumarg_bitvec.cpp`) -/

/-- Constant `ENUM_SIZE_MAX`. -/
def ENUM_SIZE_MAX : Nat := 64

/-- Bit vector over the values `start, .., start + size - 1` of one enum parameter
(`class EnumArgBitVec`). -/
structure EnumArgBitVec where
  name : String
  start : Nat
  size : Nat
  entries : List String
  mask : Nat
  bitvec : Nat
deriving Repr, DecidableEq

/-- Bitwise complement of an `unsigned long`. -/
def not64 (x : Nat) : Nat := 2 ^ 64 - 1 - x % 2 ^ 64

/-- The function `init_mask`: `~(~0 << size)`; a shift by 64 or more has no defined
result and gives `ub_shift size`. -/
def EnumArgBitVec.init_mask (ub_shift : Nat → Nat) (bv : EnumArgBitVec) : EnumArgBitVec :=
  { bv with mask :=
      if bv.size < 64 then not64 ((not64 0 * 2 ^ bv.size) % 2 ^ 64) else not64 (ub_shift bv.size) }

/-- Default constructor `EnumArgBitVec()`: only `bitvec` is initialised; `start`,
`size` and `mask` hold the indeterminate values `u`. -/
def EnumArgBitVec.uninit (u : Nat × Nat × Nat) : EnumArgBitVec :=
  { name := "", start := u.1, size := u.2.1, entries := [], mask := u.2.2, bitvec := 0 }

/-- Constructor `EnumArgBitVec(name, entries)`. -/
def EnumArgBitVec.of_entries (ub_shift : Nat → Nat) (name : String) (entries : List String) :
    EnumArgBitVec :=
  EnumArgBitVec.init_mask ub_shift
    { name := name, start := 0, size := entries.length, entries := entries, mask := 0, bitvec := 0 }

/-- Constructor `EnumArgBitVec(name, start, size)`. -/
def EnumArgBitVec.of_range (ub_shift : Nat → Nat) (name : String) (start size : Nat) :
    EnumArgBitVec :=
  EnumArgBitVec.init_mask ub_shift
    { name := name, start := start, size := size, entries := [], mask := 0, bitvec := 0 }

/-- The function `idx_to_bitfield(idx)`: `1 << (size - 1 - idx)` computed in `int` and
converted to `size_t`. -/
def EnumArgBitVec.idx_to_bitfield (ub_shift : Nat → Nat) (bv : EnumArgBitVec) (idx : Nat) : Nat :=
  let shift_amt := (bv.size + (2 ^ 64 - 1 - idx % 2 ^ 64)) % 2 ^ 64
  if shift_amt < 31 then 2 ^ shift_amt
  else if shift_amt = 31 then 2 ^ 64 - 2 ^ 31
  else ub_shift shift_amt % 2 ^ 64

/-- The function `bitfield_to_idx()`: the indices whose bit is set, in increasing
order. -/
def EnumArgBitVec.bitfield_to_idx (bv : EnumArgBitVec) : List Nat :=
  (List.range bv.size).filter (fun i => (bv.bitvec >>> (bv.size - 1 - i)) &&& 1 ≠ 0)

/-- The function `eval(args)`. -/
def EnumArgBitVec.eval (ub_shift : Nat → Nat) (bv : EnumArgBitVec) (args : Args) : Bool :=
  let val := args.get bv.name
  let bitfield := bv.idx_to_bitfield ub_shift (to_size_t val)
  decide ((bv.bitvec &&& bitfield) ^^^ bitfield ≠ 0)

/-- The function `set_all`. -/
def EnumArgBitVec.set_all (bv : EnumArgBitVec) : EnumArgBitVec := { bv with bitvec := bv.mask }

/-- The function `unset_all`. -/
def EnumArgBitVec.unset_all (bv : EnumArgBitVec) : EnumArgBitVec := { bv with bitvec := 0 }

/-- The function `empty`. -/
def EnumArgBitVec.empty (bv : EnumArgBitVec) : Bool := bv.bitvec == 0

/-- The function `full`. -/
def EnumArgBitVec.full (bv : EnumArgBitVec) : Bool := bv.bitvec == bv.mask

/-- The function `set(value)`: sets the bit of index `value - start`. -/
def EnumArgBitVec.set (ub_shift : Nat → Nat) (bv : EnumArgBitVec) (value : Nat) : EnumArgBitVec :=
  { bv with bitvec :=
      bv.bitvec ||| bv.idx_to_bitfield ub_shift ((value + (2 ^ 64 - bv.start % 2 ^ 64)) % 2 ^ 64) }

/-- The function `draw()`: a random set index plus `start`; `rnd` is the value of
`rand()`.  A remainder by zero has no defined result and gives `0` here. -/
def EnumArgBitVec.draw (bv : EnumArgBitVec) (rnd : Nat) : Option Nat :=
  if bv.empty then none
  else
    let candidate := bv.bitfield_to_idx
    some ((bv.start + candidate.getD (rnd % candidate.length) 0) % 2 ^ 64)

/-- The function `exclusive(other)`. -/
def EnumArgBitVec.exclusive (bv other : EnumArgBitVec) : Bool := bv.bitvec &&& other.bitvec == 0

/-- The function `bit_and(other)`. -/
def EnumArgBitVec.bit_and (bv other : EnumArgBitVec) : EnumArgBitVec :=
  { bv with bitvec := bv.bitvec &&& other.bitvec }

/-- The function `bit_or(other)`. -/
def EnumArgBitVec.bit_or (bv other : EnumArgBitVec) : EnumArgBitVec :=
  { bv with bitvec := bv.bitvec ||| other.bitvec }

/-- The function `exclude(other)`. -/
def EnumArgBitVec.exclude (bv other : EnumArgBitVec) : EnumArgBitVec :=
  { bv with bitvec := bv.bitvec &&& not64 other.bitvec }

/-- The function `negate()`. -/
def EnumArgBitVec.negate (bv : EnumArgBitVec) : EnumArgBitVec :=
  { bv with bitvec := not64 bv.bitvec &&& bv.mask }

/-- The function `extract_random_bit()`. -/
def EnumArgBitVec.extract_random_bit (ub_shift : Nat → Nat) (bv : EnumArgBitVec) (rnd : Nat) :
    Option EnumArgBitVec :=
  match bv.draw rnd with
  | none => none
  | some value => some (bv.unset_all.set ub_shift value)

/-- The function `num_set_bit()`. -/
def EnumArgBitVec.num_set_bit (bv : EnumArgBitVec) : Nat := bv.bitfield_to_idx.length

/-- An array of bit vectors, one per enum parameter (`class EnumArgBitVecArray`). -/
abbrev EnumArgBitVecArray := List EnumArgBitVec

/-- The function `EnumArgBitVecArray::set(enum_args)`; `enum_args.at` throws when a
parameter is missing. -/
def EnumArgBitVecArray.set (ub_shift : Nat → Nat) :
    EnumArgBitVecArray → Args → Except EvalError EnumArgBitVecArray
  | [], _ => .ok []
  | bv :: rest, enum_args =>
    match enum_args.at bv.name with
    | .error e => .error e
    | .ok v =>
      match EnumArgBitVecArray.set ub_shift rest enum_args with
      | .error e => .error e
      | .ok rest2 => .ok (bv.set ub_shift (to_size_t v) :: rest2)

/-- The function `EnumArgBitVecArray::empty()`. -/
def EnumArgBitVecArray.empty (a : EnumArgBitVecArray) : Bool := a.all (fun bv => bv.empty)

/-- The function `EnumArgBitVecArray::distinct(other)`: a copy of the registered
template (`initial_enum_bvs(false)`) with the entry `i` replaced by `other[i]`
wherever `array[i]` and `other[i]` share no bit. -/
def EnumArgBitVecArray.distinct :
    EnumArgBitVecArray → EnumArgBitVecArray → EnumArgBitVecArray → EnumArgBitVecArray
  | t :: template, a :: array, o :: other =>
    (if a.exclusive o then o else t) :: EnumArgBitVecArray.distinct template array other
  | template, _, _ => template

/-- The function `EnumArgBitVecArray::export_non_empty_bv()`. -/
def EnumArgBitVecArray.export_non_empty_bv (a : EnumArgBitVecArray) : Except EvalError EnumArgBitVec :=
  match a.find? (fun bv => !bv.empty) with
  | some bv => .ok bv
  | none => .error .Unreachable

/-! ### Branch conditions (`branch_condition.cpp`) -/

/-- Kind of a branch condition (`enum CondType`). -/
inductive CondType where
  | CT_ENUM
  | CT_NUMERIC
  | CT_NEGLECT
deriving Repr, DecidableEq

/-- Counters of classified examples (`class ConfusionMatrix`). -/
structure ConfusionMatrix where
  tp : Int
  tn : Int
  fp : Int
  fn : Int
deriving Repr, DecidableEq

/-- Constructor `ConfusionMatrix()`. -/
def ConfusionMatrix.zero : ConfusionMatrix := ⟨0, 0, 0, 0⟩

/-- The function `add_tp`. -/
def ConfusionMatrix.add_tp (c : ConfusionMatrix) : ConfusionMatrix := { c with tp := c.tp + 1 }

/-- The function `add_tn`. -/
def ConfusionMatrix.add_tn (c : ConfusionMatrix) : ConfusionMatrix := { c with tn := c.tn + 1 }

/-- The function `add_fp`. -/
def ConfusionMatrix.add_fp (c : ConfusionMatrix) : ConfusionMatrix := { c with fp := c.fp + 1 }

/-- The function `add_fn`. -/
def ConfusionMatrix.add_fn (c : ConfusionMatrix) : ConfusionMatrix := { c with fn := c.fn + 1 }

/-- The function `perfect`. -/
def ConfusionMatrix.perfect (c : ConfusionMatrix) : Bool :=
  decide (c.tp + c.tn > 0) && decide (c.fp + c.fn = 0)

/-- Result status of a synthesis (`enum SynthesisStatus`). -/
inductive SynthesisStatus where
  | SUCCESS
  | FAIL
  | GIVEUP
deriving Repr, DecidableEq

/-- The members of the three subclasses of `BranchCondition`. -/
inductive CondBody where
  | Enum (inclusion_cond : Option EnumArgBitVec) (equality_cond : Option BoolExpr)
  | Numeric (cond : Option BoolExpr)
  | Neglect

/-- A branch condition (`class BranchCondition` with its subclass). -/
structure BranchCondition where
  synthesis_budget : Int
  cmat : ConfusionMatrix
  body : CondBody

/-- What a synthesis reads from outside the modelled code. -/
structure SynthEnv where
  /-- Option `SYNTHESIS_BUDGET`, in seconds. -/
  SYNTHESIS_BUDGET : Nat
  /-- The registered bit vectors `enum_bvs_template`. -/
  enum_bvs_template : EnumArgBitVecArray
  /-- Result of `enum_params_size()`. -/
  enum_params_size : Nat
  /-- Result of a shift whose amount is not below the width of the shifted type. -/
  ub_shift : Nat → Nat
  /-- Members `start`, `size`, `mask` of a default-constructed `EnumArgBitVec`. -/
  uninit : Nat × Nat × Nat
  /-- The composition `almost_zero(ns_to_s(budget))`. -/
  almost_zero_ns : Int → Bool
  /-- Value of `elapsed_from_ns(synthesis_start)` at the return. -/
  elapsed : Int
  /-- The external synthesizer on the examples of a kind with a time limit: the parsed
  body of its answer, or nothing on a timeout or a failure message. -/
  synthesizer : CondType → List Args → List Args → Int → Option BoolExpr
  /-- The function `random_sample(orig, sample_size)`. -/
  random_sample : List Input → Nat → List Input

/-- The function `get_condtype`. -/
def BranchCondition.get_condtype (c : BranchCondition) : CondType :=
  match c.body with
  | .Enum _ _ => .CT_ENUM
  | .Numeric _ => .CT_NUMERIC
  | .Neglect => .CT_NEGLECT

/-- The function `synthesis_budget_max`, in nanoseconds. -/
def synthesis_budget_max (env : SynthEnv) : Int := wrap_long (env.SYNTHESIS_BUDGET * 1000000000)

/-- Constructor `EnumCondition()`. -/
def EnumCondition.new (env : SynthEnv) : BranchCondition :=
  { synthesis_budget := synthesis_budget_max env, cmat := ConfusionMatrix.zero,
    body := .Enum (some (EnumArgBitVec.uninit env.uninit)) none }

/-- Constructor `NumericCondition()`. -/
def NumericCondition.new (env : SynthEnv) : BranchCondition :=
  { synthesis_budget := synthesis_budget_max env, cmat := ConfusionMatrix.zero,
    body := .Numeric none }

/-- Constructor `NeglectCondition()`. -/
def NeglectCondition.new (env : SynthEnv) : BranchCondition :=
  { synthesis_budget := synthesis_budget_max env, cmat := ConfusionMatrix.zero,
    body := .Neglect }

/-- The function `default_condtype`. -/
def default_condtype (env : SynthEnv) : CondType :=
  if env.enum_params_size > 0 then .CT_ENUM else .CT_NUMERIC

/-- The function `default_branch_condition`. -/
def default_branch_condition (env : SynthEnv) : BranchCondition :=
  if default_condtype env = .CT_ENUM then EnumCondition.new env else NumericCondition.new env

/-- The virtual function `eval(input, ground_truth)` of the three subclasses. -/
def BranchCondition.eval (env : SynthEnv) (c : BranchCondition) (input : Input)
    (ground_truth : Bool) : Except EvalError Bool :=
  match c.body with
  | .Enum (some bv) _ => .ok (bv.eval env.ub_shift input.enum_args == ground_truth)
  | .Enum none (some e) =>
    match e.eval input.enum_args with
    | .error err => .error err
    | .ok v => .ok (v == ground_truth)
  | .Enum none none => .error .null_pointer
  | .Numeric (some e) =>
    match e.eval input.numeric_args with
    | .error err => .error err
    | .ok v => .ok (v == ground_truth)
  | .Numeric none => .error .null_pointer
  | .Neglect => .ok true

/-- The function `eval_and_update(input, ground_truth)`: the condition with the
updated confusion matrix and the returned flag, or the exception that escapes. -/
def BranchCondition.eval_and_update (env : SynthEnv) (c : BranchCondition) (input : Input)
    (ground_truth : Bool) : Except EvalError (BranchCondition × Bool) :=
  match c.eval env input ground_truth with
  | .ok true =>
    if ground_truth = true then .ok ({ c with cmat := c.cmat.add_tp }, true)
    else .ok ({ c with cmat := c.cmat.add_tn }, true)
  | .ok false =>
    if ground_truth = true then .ok ({ c with cmat := c.cmat.add_fn }, false)
    else .ok ({ c with cmat := c.cmat.add_fp }, false)
  | .error .CondEvalException =>
    if ground_truth = true then .ok ({ c with cmat := c.cmat.add_fn }, false)
    else .ok ({ c with cmat := c.cmat.add_fp }, false)
  | .error e => .error e

/-- First loop of `classify`: the counters `tp` and `fn` over the positive examples. -/
def BranchCondition.classify_pos (env : SynthEnv) (c : BranchCondition) :
    List Input → Int → Int → Except EvalError (Int × Int)
  | [], tp, fn => .ok (tp, fn)
  | pos_example :: rest, tp, fn =>
    match c.eval env pos_example true with
    | .ok true => c.classify_pos env rest (tp + 1) fn
    | .ok false => c.classify_pos env rest tp (fn + 1)
    | .error .CondEvalException => c.classify_pos env rest tp (fn + 1)
    | .error e => .error e

/-- Second loop of `classify`: the counters `tn` and `fp` over the negative examples. -/
def BranchCondition.classify_neg (env : SynthEnv) (c : BranchCondition) :
    List Input → Int → Int → Except EvalError (Int × Int)
  | [], tn, fp => .ok (tn, fp)
  | neg_example :: rest, tn, fp =>
    match c.eval env neg_example false with
    | .ok true => c.classify_neg env rest (tn + 1) fp
    | .ok false => c.classify_neg env rest tn (fp + 1)
    | .error .CondEvalException => c.classify_neg env rest tn (fp + 1)
    | .error e => .error e

/-- The function `classify(pos_examples, neg_examples)`. -/
def BranchCondition.classify (env : SynthEnv) (c : BranchCondition)
    (pos_examples neg_examples : List Input) : Except EvalError BranchCondition :=
  match c.classify_pos env pos_examples 0 0 with
  | .error e => .error e
  | .ok (tp, fn) =>
    match c.classify_neg env neg_examples 0 0 with
    | .error e => .error e
    | .ok (tn, fp) => .ok { c with cmat := ⟨tp, tn, fp, fn⟩ }

/-- The function `deduct_synthesis_budget(used)`. -/
def BranchCondition.deduct_synthesis_budget (env : SynthEnv) (c : BranchCondition) (used : Int) :
    BranchCondition :=
  let budget := if c.synthesis_budget > used then wrap_long (c.synthesis_budget - used) else 0
  { c with synthesis_budget := if env.almost_zero_ns budget then 0 else budget }

/-- The function `insolvent`. -/
def BranchCondition.insolvent (c : BranchCondition) : Bool := decide (c.synthesis_budget ≤ 0)

/-- Result of a synthesis (`SynthesisResult`): status, new condition, new sibling
condition, synthesis time. -/
structure SynthesisResult where
  status : SynthesisStatus
  cond_new : Option BranchCondition
  cond_new_sibling : Option BranchCondition
  synthesis_time : Int

/-- The function `run_synthesizer(sygus_file, timeout)` followed by the parse of its
answer; the second component counts the starts of the external synthesizer. -/
def run_synthesizer (env : SynthEnv) (kind : CondType) (pos neg : List Args) (budget : Int) :
    Option BoolExpr × Nat :=
  if env.almost_zero_ns budget then (none, 0) else (env.synthesizer kind pos neg budget, 1)

/-- The loop `for (example : examples) enum_bvs.set(example.get_enum_args())`. -/
def EnumArgBitVecArray.set_examples (ub_shift : Nat → Nat) :
    EnumArgBitVecArray → List Input → Except EvalError EnumArgBitVecArray
  | a, [] => .ok a
  | a, ex :: rest =>
    match EnumArgBitVecArray.set ub_shift a ex.enum_args with
    | .error e => .error e
    | .ok a2 => EnumArgBitVecArray.set_examples ub_shift a2 rest

/-- The synthesizer part of both `synthesize_internal`: the conditions `cond_new` and
`cond_new_sibling` get the synthesized body through `fill`; a missing answer gives
the status `none_status`. -/
def synthesize_external (env : SynthEnv) (kind : CondType) (none_status : SynthesisStatus)
    (fill : BoolExpr → CondBody) (c : BranchCondition) (is_pair : Bool)
    (pos neg : List Input) (args_of : Input → Args) : SynthesisResult × Nat :=
  match run_synthesizer env kind (pos.map args_of) (neg.map args_of) c.synthesis_budget with
  | (none, runs) => (⟨none_status, none, none, env.elapsed⟩, runs)
  | (some answer, runs) =>
    let synthesized_cond := simplify answer
    (⟨.SUCCESS,
      some { synthesis_budget := c.synthesis_budget, cmat := ConfusionMatrix.zero,
             body := fill synthesized_cond },
      if is_pair then
        some { synthesis_budget := c.synthesis_budget, cmat := ConfusionMatrix.zero,
               body := fill synthesized_cond.not }
      else none,
      env.elapsed⟩, runs)

/-- The function `EnumCondition::synthesize_internal`, on a condition whose members
are `inclusion_cond` and an equality condition. -/
def EnumCondition.synthesize_internal (env : SynthEnv) (c : BranchCondition)
    (inclusion_cond : Option EnumArgBitVec) (is_pair : Bool)
    (pos_examples neg_examples : List Input) : Except EvalError (SynthesisResult × Nat) :=
  let external :=
    synthesize_external env .CT_ENUM .GIVEUP (fun e => .Enum none (some e)) c is_pair
      pos_examples neg_examples (fun i => i.enum_args)
  if inclusion_cond.isSome then
    match EnumArgBitVecArray.set_examples env.ub_shift env.enum_bvs_template pos_examples with
    | .error e => .error e
    | .ok enum_bvs_pos =>
      match EnumArgBitVecArray.set_examples env.ub_shift env.enum_bvs_template neg_examples with
      | .error e => .error e
      | .ok enum_bvs_neg =>
        let distinct_bvs :=
          EnumArgBitVecArray.distinct env.enum_bvs_template enum_bvs_pos enum_bvs_neg
        if !distinct_bvs.empty then
          match distinct_bvs.export_non_empty_bv with
          | .error e => .error e
          | .ok bv =>
            let cond_new : BranchCondition :=
              { synthesis_budget := c.synthesis_budget, cmat := ConfusionMatrix.zero,
                body := .Enum (some bv) none }
            if is_pair then
              let distinct_bvs_opposite :=
                EnumArgBitVecArray.distinct env.enum_bvs_template enum_bvs_neg enum_bvs_pos
              match distinct_bvs_opposite.export_non_empty_bv with
              | .error e => .error e
              | .ok bv_opposite =>
                .ok (⟨.SUCCESS, some cond_new,
                      some { synthesis_budget := c.synthesis_budget, cmat := ConfusionMatrix.zero,
                             body := .Enum (some bv_opposite) none },
                      env.elapsed⟩, 0)
            else .ok (⟨.SUCCESS, some cond_new, none, env.elapsed⟩, 0)
        else .ok external
  else .ok external

/-- The function `NumericCondition::synthesize_internal`. -/
def NumericCondition.synthesize_internal (env : SynthEnv) (c : BranchCondition) (is_pair : Bool)
    (pos_examples neg_examples : List Input) : SynthesisResult × Nat :=
  let sample_size := min (max pos_examples.length neg_examples.length) 50
  synthesize_external env .CT_NUMERIC .FAIL (fun e => .Numeric (some e)) c is_pair
    (env.random_sample pos_examples sample_size) (env.random_sample neg_examples sample_size)
    (fun i => i.numeric_args)

/-- The function `NeglectCondition::synthesize_internal`. -/
def NeglectCondition.synthesize_internal (c : BranchCondition) (is_pair : Bool) :
    SynthesisResult × Nat :=
  (⟨.SUCCESS,
    some { synthesis_budget := c.synthesis_budget, cmat := ConfusionMatrix.zero, body := .Neglect },
    if is_pair then
      some { synthesis_budget := c.synthesis_budget, cmat := ConfusionMatrix.zero,
             body := .Neglect }
    else none,
    0⟩, 0)

/-- The virtual function `synthesize_internal`. -/
def BranchCondition.synthesize_internal (env : SynthEnv) (c : BranchCondition) (is_pair : Bool)
    (pos_examples neg_examples : List Input) : Except EvalError (SynthesisResult × Nat) :=
  match c.body with
  | .Enum inclusion_cond _ =>
    EnumCondition.synthesize_internal env c inclusion_cond is_pair pos_examples neg_examples
  | .Numeric _ => .ok (NumericCondition.synthesize_internal env c is_pair pos_examples neg_examples)
  | .Neglect => .ok (NeglectCondition.synthesize_internal c is_pair)

/-- Classification of an optional condition (a null pointer cannot be classified). -/
def classify_new (env : SynthEnv) (cond : Option BranchCondition)
    (pos_examples neg_examples : List Input) : Except EvalError (Option BranchCondition) :=
  match cond with
  | none => .error .null_pointer
  | some c =>
    match c.classify env pos_examples neg_examples with
    | .error e => .error e
    | .ok c2 => .ok (some c2)

/-- The function `synthesize(is_pair, pos_examples, neg_examples)`: the result and the
number of starts of the external synthesizer. -/
def BranchCondition.synthesize (env : SynthEnv) (c : BranchCondition) (is_pair : Bool)
    (pos_examples neg_examples : List Input) : Except EvalError (SynthesisResult × Nat) :=
  if c.insolvent then .ok (⟨.GIVEUP, none, none, 0⟩, 0)
  else
    match c.synthesize_internal env is_pair pos_examples neg_examples with
    | .error e => .error e
    | .ok (res, runs) =>
      if res.status = .SUCCESS then
        match classify_new env res.cond_new pos_examples neg_examples with
        | .error e => .error e
        | .ok cond_new =>
          if is_pair then
            match classify_new env res.cond_new_sibling neg_examples pos_examples with
            | .error e => .error e
            | .ok cond_new_sibling => .ok (⟨res.status, cond_new, cond_new_sibling, res.synthesis_time⟩, runs)
          else .ok (⟨res.status, cond_new, res.cond_new_sibling, res.synthesis_time⟩, runs)
      else .ok (res, runs)


/-! ## The enum solver (`enum_solver.cpp`)

A shallow embedding of `EqualSet::unset_assignment`, `EqualSet::pick`,
`EqualSet::draw` and `EqualityGraph::draw`.

* An `EqualSet*` is the index of the set in the list of all sets of the graph; the
  pointer sets `inequal_sets` and `eqsets` are lists in iteration order.
* `rand()` is a stream `rand : Nat → Nat` with the number `k` of values taken so
  far; `EnumArgBitVec::draw` takes a value only when the vector is not empty.
* The recursion of `pick` and `unset_assignment` and the loop of `pick` are bounded
  by `fuel`; `none` stands for an exhausted bound or a read through a pointer that
  is not in the graph.
-/

/-- A class of parameters that must be equal (`class EqualSet`). -/
structure EqualSet where
  params : List String
  candidates : EnumArgBitVec
  inequal_sets : List Nat
  assignment : Option EnumArgBitVec
  traversed : List Nat
deriving Repr, DecidableEq

/-- Insertion `args.insert({key, value})` into a `std::map`: an existing key keeps its
value. -/
def Args.insert : Args → String → Int → Args
  | [], key, value => [(key, value)]
  | (k, v) :: rest, key, value =>
    if key < k then (key, value) :: (k, v) :: rest
    else if key = k then (k, v) :: rest
    else (k, v) :: Args.insert rest key value

/-- Assignment `args[key] = value` on a `std::map`. -/
def Args.assign : Args → String → Int → Args
  | [], key, value => [(key, value)]
  | (k, v) :: rest, key, value =>
    if key < k then (key, value) :: (k, v) :: rest
    else if key = k then (k, value) :: rest
    else (k, v) :: Args.assign rest key value

/-- The function `EqualSet::unset_assignment()` on the set at index `self`. -/
def EqualSet.unset_assignment : Nat → List EqualSet → Nat → Option (List EqualSet)
  | 0, _, _ => none
  | fuel + 1, g, self =>
    match g[self]? with
    | none => none
    | some s =>
      let g1 := g.modify (fun s => { s with assignment := none }) self
      match s.traversed.foldlM (fun acc j => EqualSet.unset_assignment fuel acc j) g1 with
      | none => none
      | some g2 => some (g2.modify (fun s => { s with traversed := [] }) self)

/-- The call `extract_random_bit()` with the stream of random values. -/
def EnumArgBitVec.extract_random_bit_next (ub_shift : Nat → Nat) (rand : Nat → Nat)
    (bv : EnumArgBitVec) (k : Nat) : Option EnumArgBitVec × Nat :=
  if bv.empty then (none, k) else (bv.extract_random_bit ub_shift (rand k), k + 1)

/-- The assignment of the set at index `j`, if it has one. -/
def EqualSet.assignment_of (g : List EqualSet) (j : Nat) : Option EnumArgBitVec :=
  match g[j]? with
  | none => none
  | some s => s.assignment

mutual
/-- The function `EqualSet::pick()` on the set at index `self`: the graph, the
number of random values taken, and the returned flag. -/
def EqualSet.pick (ub_shift : Nat → Nat) (rand : Nat → Nat) :
    Nat → List EqualSet → Nat → Nat → Option (List EqualSet × Nat × Bool)
  | 0, _, _, _ => none
  | fuel + 1, g, k, self =>
    match g[self]? with
    | none => none
    | some s =>
      if s.assignment.isSome then some (g, k, true)
      else
        let fixed := s.inequal_sets.filter (fun j => (EqualSet.assignment_of g j).isSome)
        let to_be_fixed := s.inequal_sets.filter (fun j => !(EqualSet.assignment_of g j).isSome)
        let to_be_excluded :=
          fixed.foldl (fun acc j =>
            match EqualSet.assignment_of g j with
            | some a => acc.bit_or a
            | none => acc) s.candidates.unset_all
        let excluded := s.candidates.exclude to_be_excluded
        let tried := s.candidates.unset_all
        let picked := excluded.extract_random_bit_next ub_shift rand k
        EqualSet.pick_loop ub_shift rand fuel g picked.2 self to_be_fixed excluded tried picked.1
termination_by structural fuel => fuel
/-- The `while (picked_opt.has_value())` loop of `pick` and the code after it. -/
def EqualSet.pick_loop (ub_shift : Nat → Nat) (rand : Nat → Nat) :
    Nat → List EqualSet → Nat → Nat → List Nat → EnumArgBitVec → EnumArgBitVec →
      Option EnumArgBitVec → Option (List EqualSet × Nat × Bool)
  | 0, _, _, _, _, _, _, _ => none
  | fuel + 1, g, k, self, to_be_fixed, excluded, tried, picked_opt =>
    match picked_opt with
    | none =>
      match EqualSet.unset_assignment (fuel + 1) g self with
      | none => none
      | some g1 => some (g1, k, false)
    | some picked =>
      let g1 := g.modify (fun s => { s with assignment := some picked }) self
      let tried1 := tried.bit_or picked
      match EqualSet.pick_all ub_shift rand fuel g1 k self to_be_fixed with
      | none => none
      | some (g2, k2, true) => some (g2, k2, true)
      | some (g2, k2, false) =>
        match EqualSet.unset_assignment (fuel + 1) g2 self with
        | none => none
        | some g3 =>
          let excluded1 := excluded.exclude tried1
          let next := excluded1.extract_random_bit_next ub_shift rand k2
          EqualSet.pick_loop ub_shift rand fuel g3 next.2 self to_be_fixed excluded1 tried1 next.1
termination_by structural fuel => fuel
/-- The loop `for (inequal_set : to_be_fixed)` of `pick`: every set that is picked
is appended to `traversed`; the loop stops at the first failure. -/
def EqualSet.pick_all (ub_shift : Nat → Nat) (rand : Nat → Nat) :
    Nat → List EqualSet → Nat → Nat → List Nat → Option (List EqualSet × Nat × Bool)
  | 0, _, _, _, _ => none
  | _ + 1, g, k, _, [] => some (g, k, true)
  | fuel + 1, g, k, self, j :: rest =>
    match EqualSet.pick ub_shift rand fuel g k j with
    | none => none
    | some (g1, k1, false) => some (g1, k1, false)
    | some (g1, k1, true) =>
      EqualSet.pick_all ub_shift rand fuel
        (g1.modify (fun s => { s with traversed := s.traversed ++ [j] }) self) k1 self rest
termination_by structural fuel => fuel
end

/-- The function `EqualSet::draw()`: the drawn value for every parameter of the set. -/
def EqualSet.draw (s : EqualSet) (rnd : Nat) : Option Args :=
  match s.assignment with
  | none => none
  | some a =>
    match a.draw rnd with
    | none => none
    | some value => some (s.params.foldl (fun args param => Args.assign args param value) [])

/-- The first loop of `EqualityGraph::draw`: `unset_assignment` on every set. -/
def EqualityGraph.unset_all (fuel : Nat) (g : List EqualSet) : Option (List EqualSet) :=
  (List.range g.length).foldlM (fun acc i => EqualSet.unset_assignment fuel acc i) g

/-- The second loop of `EqualityGraph::draw`: `pick` on every set, until one fails. -/
def EqualityGraph.pick_each (ub_shift : Nat → Nat) (rand : Nat → Nat) (fuel : Nat) :
    List Nat → List EqualSet → Nat → Option (List EqualSet × Nat × Bool)
  | [], g, k => some (g, k, true)
  | i :: rest, g, k =>
    match EqualSet.pick ub_shift rand fuel g k i with
    | none => none
    | some (g1, k1, false) => some (g1, k1, false)
    | some (g1, k1, true) => EqualityGraph.pick_each ub_shift rand fuel rest g1 k1

/-- The third loop of `EqualityGraph::draw`: the arguments drawn by every set are
inserted into `enum_args`. -/
def EqualityGraph.draw_each (rand : Nat → Nat) : List EqualSet → Nat → Args → Option Args
  | [], _, enum_args => some enum_args
  | s :: rest, k, enum_args =>
    match s.draw (rand k) with
    | none => none
    | some args =>
      EqualityGraph.draw_each rand rest (k + 1)
        (args.foldl (fun acc kv => Args.insert acc kv.1 kv.2) enum_args)

/-- The function `EqualityGraph::draw()`; the inner option is the returned
`std::optional<Args>`. -/
def EqualityGraph.draw (ub_shift : Nat → Nat) (rand : Nat → Nat) (fuel : Nat)
    (g : List EqualSet) : Option (Option Args) :=
  match EqualityGraph.unset_all fuel g with
  | none => none
  | some g1 =>
    match EqualityGraph.pick_each ub_shift rand fuel (List.range g1.length) g1 0 with
    | none => none
    | some (_, _, false) => some none
    | some (g2, k, true) =>
      match EqualityGraph.draw_each rand g2 k [] with
      | none => none
      | some enum_args => some (some enum_args)


/-! ## Branch conditions of the nodes and the input map (`exectree.cpp`)

The members of the tree that `ExecTree` of the first part leaves out: the member
`cond` of every node and the map `all_input` of the tree.

* Both are kept beside the tree, in the record `Books`, keyed by the address of the
  node: `cond id` is the condition the node at address `id` owns (`none` for
  `nullptr`), and `all_input x` is the address of the leaf `all_input[x]` (`none`
  when `x` is not a key).  `Input::operator<` is a strict total order, so two keys
  are equivalent exactly when they are equal.
* `ExecTree.insert_books` follows `ExecTree::insert` case by case and performs the
  writes of `LeafNode::insert_inputset`, `ExecTree::pull_node`,
  `ExecTree::add_node` and `InternalNode::initialize_children_cond` in the order
  of the source; the tree itself is built by `ExecTree.insert_set`.
-/

/-- The members `cond` of the nodes and the map `all_input`. -/
structure Books where
  cond : Nat → Option BranchCondition
  all_input : Input → Option Nat

namespace Books

/-- No node owns a condition and the map is empty. -/
def empty : Books := { cond := fun _ => none, all_input := fun _ => none }

/-- Assignment `node->cond = c` for the node at address `id`. -/
def set_cond (b : Books) (id : Nat) (c : Option BranchCondition) : Books :=
  { b with cond := fun i => if i = id then c else b.cond i }

/-- Assignment `all_input[input] = leaf`. -/
def set_input (b : Books) (input : Input) (leaf : Nat) : Books :=
  { b with all_input := fun x => if x = input then some leaf else b.all_input x }

/-- The call `all_input.erase(input)`. -/
def erase_input (b : Books) (input : Input) : Books :=
  { b with all_input := fun x => if x = input then none else b.all_input x }

/-- The loop `for (input : inputs) all_input[input] = leaf`. -/
def set_inputs (b : Books) (inputs : List Input) (leaf : Nat) : Books :=
  inputs.foldl (fun acc x => acc.set_input x leaf) b

/-- The loop `for (input : inputs) all_input.erase(input)`. -/
def erase_inputs (b : Books) (inputs : List Input) : Books :=
  inputs.foldl erase_input b

/-- The writes of `LeafNode::insert_inputset` on `leaf` (the node before the call):
a full leaf evicts the input at index `rnd % size` first. -/
def insert_inputset (b : Books) (rnd : Nat) (leaf : Node) (inputset_ : List Input) : Books :=
  let s := ExecTree.leaf_inputset leaf
  let b1 :=
    if is_full s then
      match s[rnd % s.length]? with
      | some evicted => b.erase_input evicted
      | none => b
    else b
  b1.set_inputs inputset_ leaf.id

/-- The writes of `ExecTree::pull_node(node)`. -/
def pull_node (b : Books) (node : Node) : Books :=
  if node.is_leaf then b.erase_inputs (ExecTree.leaf_inputset node) else b

/-- The writes of `ExecTree::add_node(node, parent, cond)`; `is_root` stands for
`parent == nullptr`. -/
def add_node (env : SynthEnv) (b : Books) (node : Node) (is_root : Bool)
    (cond : Option BranchCondition) : Books :=
  let b1 := if node.is_leaf then b.set_inputs (ExecTree.leaf_inputset node) node.id else b
  if is_root then b1.set_cond node.id (some (NeglectCondition.new env))
  else
    b1.set_cond node.id
      (some (match cond with
        | some c => c
        | none => default_branch_condition env))

/-- The function `InternalNode::initialize_children_cond(condtype)` on the children
`children`. -/
def initialize_children_cond (env : SynthEnv) (b : Books) (condtype : CondType)
    (children : List Node) : Books :=
  children.foldl
    (fun acc child =>
      if condtype = .CT_ENUM then acc.set_cond child.id (some (EnumCondition.new env))
      else acc.set_cond child.id (some (NumericCondition.new env))) b

end Books

/-- The function `Node::get_sibling()` for the node at position `pos` below `root`:
nothing for the root and for a node whose parent does not have exactly two
children, else the child of the parent that is not the node itself. -/
def Node.get_sibling (root : Node) (pos : Pos) : Option Node :=
  match pos.getLast? with
  | none => none
  | some k =>
    match root.get? pos.dropLast with
    | none => none
    | some parent =>
      if parent.children.length ≠ 2 then none
      else if k = 0 then parent.children[1]? else parent.children[0]?

/-- The function `Node::promote_cond()` for the node at position `pos`. -/
def Books.promote_cond (env : SynthEnv) (t : ExecTree) (b : Books) (pos : Pos) : Books :=
  match t.root with
  | none => b
  | some root =>
    match root.get? pos with
    | none => b
    | some node =>
      match b.cond node.id with
      | none => b
      | some cond =>
        let condtype := cond.get_condtype
        let cond1 :=
          if condtype = .CT_ENUM then NumericCondition.new env
          else if condtype = .CT_NUMERIC then NeglectCondition.new env
          else cond
        let b1 := b.set_cond node.id (some cond1)
        match root.get_sibling pos with
        | none => b1
        | some sibling => b1.set_cond sibling.id (some cond1)

/-- The writes of `ExecTree::insert(epath, inputset, run_status)` to the conditions
and to `all_input`. -/
def ExecTree.insert_books (env : SynthEnv) (tpc : TracePC) (t : ExecTree) (b : Books)
    (epath : ExecPath) (inputset : List Input) (run_status : Int) (rnd : Nat) : Books :=
  let epath_significant := tpc.significant epath
  let epath_tail := tpc.tail_of epath
  match t.root with
  | none =>
    -- Case 1
    let fresh := create_leaf t.next_id epath_significant
    let new_root := insert_inputset rnd epath_tail inputset run_status fresh
    (b.insert_inputset rnd fresh inputset).add_node env new_root true none
  | some root =>
    match root.find [] epath_significant with
    | (none, epath_rem) =>
      -- Case 2
      if root.pfx = EPSILON then
        let fresh := create_leaf t.next_id epath_rem
        let new_leaf := insert_inputset rnd epath_tail inputset run_status fresh
        let b1 := (b.insert_inputset rnd fresh inputset).add_node env new_leaf false none
        b1.initialize_children_cond env (default_condtype env)
          (root.set_children (add_child root.children new_leaf)).children
      else
        let common_len := common_prefix_length root.pfx epath_rem
        let common := if common_len = 0 then EPSILON else subvec_len root.pfx 0 common_len
        let new_root := create_internal t.next_id common
        let b1 := b.pull_node root
        let old_root := root.set_pfx (subvec root.pfx common_len)
        let b2 := b1.add_node env old_root false none
        let new_root := new_root.set_children (add_child new_root.children old_root)
        let b3 := b2.add_node env new_root true none
        let epath_rem := if epath_rem.length = common_len then EPSILON
                         else subvec epath_rem common_len
        let fresh := create_leaf (t.next_id + 1) epath_rem
        let new_leaf := insert_inputset rnd epath_tail inputset run_status fresh
        let b4 := (b3.insert_inputset rnd fresh inputset).add_node env new_leaf false none
        b4.initialize_children_cond env (default_condtype env)
          (add_child new_root.children new_leaf)
    | (some nearest, epath_rem) =>
      match root.get? nearest with
      | none => b
      | some nearest_node =>
        if epath_rem.length = 0 then
          if nearest_node.is_internal then
            -- Case 3
            let fresh := create_leaf t.next_id EPSILON
            let new_leaf := insert_inputset rnd epath_tail inputset run_status fresh
            (b.insert_inputset rnd fresh inputset).add_node env new_leaf false none
          else
            -- Case 4
            b.insert_inputset rnd nearest_node inputset
        else if nearest_node.is_internal then
          match lookup_child nearest_node.children (front epath_rem) with
          | none =>
            -- Case 5
            let fresh := create_leaf t.next_id epath_rem
            let leaf := insert_inputset rnd epath_tail inputset run_status fresh
            (b.insert_inputset rnd fresh inputset).add_node env leaf false none
          | some match_idx =>
            -- Case 6
            match nearest_node.children[match_idx]? with
            | none => b
            | some pulled =>
              let b1 := b.pull_node pulled
              let common_len := common_prefix_length pulled.pfx epath_rem
              let common := subvec_len pulled.pfx 0 common_len
              let internal := create_internal t.next_id common
              let internal_cond := b.cond pulled.id
              let pulled := pulled.set_pfx (subvec pulled.pfx common_len)
              let b2 := b1.add_node env pulled false none
              let b3 := b2.add_node env internal false internal_cond
              let epath_rem := if epath_rem.length = common_len then EPSILON
                               else subvec epath_rem common_len
              let fresh := create_leaf (t.next_id + 1) epath_rem
              let leaf := insert_inputset rnd epath_tail inputset run_status fresh
              (b3.insert_inputset rnd fresh inputset).add_node env leaf false none
        else
          -- Case 7
          let pulled := nearest_node
          let b1 := b.pull_node pulled
          let internal := create_internal t.next_id pulled.pfx
          let internal_cond := b.cond pulled.id
          let pulled := pulled.set_pfx EPSILON
          let b2 := b1.add_node env pulled false none
          let fresh := create_leaf (t.next_id + 1) epath_rem
          let leaf := insert_inputset rnd epath_tail inputset run_status fresh
          let b3 := (b2.insert_inputset rnd fresh inputset).add_node env leaf false none
          b3.add_node env internal nearest.getLast?.isNone internal_cond

/-- A tree together with the conditions of its nodes and its map `all_input`. -/
structure BookedTree where
  tree : ExecTree
  books : Books

namespace BookedTree

/-- The tree made by the constructor. -/
def empty : BookedTree := { tree := ExecTree.empty, books := Books.empty }

/-- One call `insert(epath, input, run_status)`. -/
def insert (env : SynthEnv) (tpc : TracePC) (bt : BookedTree) (c : InsertCall) : BookedTree :=
  { tree := (bt.tree.insert tpc c.epath c.input c.run_status c.rnd).1
    books := bt.tree.insert_books env tpc bt.books c.epath [c.input] c.run_status c.rnd }

/-- The tree after a sequence of `insert` calls on an empty tree. -/
def insert_calls (env : SynthEnv) (tpc : TracePC) (calls : List InsertCall) : BookedTree :=
  calls.foldl (insert env tpc) empty

/-- One call `promote_cond()` on the node at position `pos`. -/
def promote_cond (env : SynthEnv) (bt : BookedTree) (pos : Pos) : BookedTree :=
  { bt with books := bt.books.promote_cond env bt.tree pos }

end BookedTree

/-! ## The comparison of two paths (`trace_pc.cpp`: `find_middle_snake_myers_original`, `CheckDiff`, `AddND`)

* The tracer is the record `TracePC` of the first part: the bitmap
  `nondeterministic_pc_bitmap` is the list `nd` of the PCIDs whose bit is set, so
  `nondeterministic_pc_bitmap.set(pcid - 1)` appends `pcid` to `nd`.
* A read or write of a vector outside its bounds, which the source does not
  check, is the fault `out_of_range`; `throw Unreachable()` is the fault
  `Unreachable`; a failed `assert` is the fault `assert_failed`.
* Loops and the recursion of `CheckDiff` run on a step budget; the fault `fuel`
  says that the budget of the model was too small.
* The `int` variables of `find_middle_snake_myers_original` and the `PCID` entries
  of its two `NegIndexable` vectors hold numbers between `0` and twice the sum of
  the two sizes; they are integers without a bound here.  A `size_t` difference
  and a `size_t` index computed from a negative `int` are written with their
  wrap-around modulo `2^64`.
-/

/-- What stops a run before its result: an unchecked access outside a vector, the
exception `Unreachable`, or the step budget of the model. -/
inductive Fault where
  | out_of_range
  | Unreachable
  | assert_failed
  | fuel
deriving DecidableEq, Repr

/-- The element `v[i]` for a `size_t` index computed from `int` terms: a negative
number wraps around. -/
def at_index (v : ExecPath) (i : Int) : Except Fault PCID :=
  match v[if 0 ≤ i then i.toNat else (i % 2 ^ 64).toNat]? with
  | some a => .ok a
  | none => .error .out_of_range

/-- The class `NegIndexable`: a vector indexed by `idx`, or by `size + idx` when
`idx` is negative. -/
structure NegIndexable where
  vec : List Nat
deriving Repr

namespace NegIndexable

/-- The constructor `NegIndexable(size)`: `size` zeros. -/
def create (size : Nat) : NegIndexable := { vec := List.replicate size 0 }

/-- The method `normal_idx`. -/
def normal_idx (a : NegIndexable) (idx : Int) : Nat :=
  if 0 ≤ idx then idx.toNat
  else if 0 ≤ (a.vec.length : Int) + idx then ((a.vec.length : Int) + idx).toNat
  else (((a.vec.length : Int) + idx) % 2 ^ 64).toNat

/-- A read `vec[normal_idx(idx)]`. -/
def get (a : NegIndexable) (idx : Int) : Except Fault Int :=
  match a.vec[a.normal_idx idx]? with
  | some v => .ok (v : Int)
  | none => .error .out_of_range

/-- A write `vec[normal_idx(idx)] = value`. -/
def set (a : NegIndexable) (idx : Int) (value : Int) : Except Fault NegIndexable :=
  if a.normal_idx idx < a.vec.length then
    .ok { vec := a.vec.set (a.normal_idx idx) value.toNat }
  else .error .out_of_range

end NegIndexable

/-- The start `x` on diagonal `k` in round `d`: taken from diagonal `k + 1`, or one
more than the entry of diagonal `k - 1`. -/
def start_x (v : NegIndexable) (d k : Int) : Except Fault Int :=
  if k = -d then v.get (k + 1)
  else if k ≠ d then do
    let a ← v.get (k - 1)
    let b ← v.get (k + 1)
    if a < b then pure b else pure (a + 1)
  else do
    let a ← v.get (k - 1)
    pure (a + 1)

/-- The loop `while (x < left_size && y < right_size && left[..] == right[..])` of
the forward search (`back = false`), which compares `left[left_start + x]` with
`right[right_start + y]`, and of the backward search (`back = true`), which
compares `left[left_start + (left_size - x - 1)]` with
`right[right_start + (right_size - y - 1)]`.  Returns the last `x` and `y`. -/
def snake (left right : ExecPath) (left_start left_size right_start right_size : Nat)
    (back : Bool) : Nat → Int → Int → Except Fault (Int × Int)
  | 0, x, y => if x < left_size ∧ y < right_size then .error .fuel else .ok (x, y)
  | fuel + 1, x, y =>
    if x < left_size ∧ y < right_size then do
      let a ← (at_index left
        (if back then left_start + (left_size - x - 1) else left_start + x))
      let b ← (at_index right
        (if back then right_start + (right_size - y - 1) else right_start + y))
      if a = b then
        (snake left right left_start left_size right_start right_size back fuel (x + 1)
          (y + 1))
      else .ok (x, y)
    else .ok (x, y)

/-- The tuple `(d, x, y, u, v)` returned by `find_middle_snake_myers_original`. -/
structure MiddleSnake where
  d : Int
  x : Int
  y : Int
  u : Int
  v : Int
deriving DecidableEq, Repr

/-- The first inner loop `for (int k = -d; k <= d; k += 2)` of round `d`, from `k`
on: the forward search.  Returns the tuple when the loop returns one, and `vf`. -/
def forward_loop (left right : ExecPath) (left_start left_size right_start right_size : Nat)
    (delta d : Int) (vb : NegIndexable) :
    Nat → Int → NegIndexable → Except Fault (Option MiddleSnake × NegIndexable)
  | 0, k, vf => if k ≤ d then .error .fuel else .ok (none, vf)
  | fuel + 1, k, vf =>
    if k ≤ d then do
      let x_i ← start_x vf d k
      let y_i := x_i - k
      let xy ← (snake left right left_start left_size right_start right_size false
        (left_size + 1) x_i y_i)
      let vf ← vf.set k xy.1
      if Int.tmod delta 2 ≠ 0 ∧ -(k - delta) ≥ -(d - 1) ∧ -(k - delta) ≤ d - 1 then do
        let a ← vf.get k
        let b ← vb.get (-(k - delta))
        if a + b ≥ left_size then .ok (some ⟨2 * d - 1, x_i, y_i, xy.1, xy.2⟩, vf)
        else
          (forward_loop left right left_start left_size right_start right_size delta d vb
            fuel (k + 2) vf)
      else
        (forward_loop left right left_start left_size right_start right_size delta d vb
          fuel (k + 2) vf)
    else .ok (none, vf)

/-- The second inner loop of round `d`, from `k` on: the backward search.  Returns
the tuple when the loop returns one, and `vb`. -/
def backward_loop (left right : ExecPath) (left_start left_size right_start right_size : Nat)
    (delta d : Int) (vf : NegIndexable) :
    Nat → Int → NegIndexable → Except Fault (Option MiddleSnake × NegIndexable)
  | 0, k, vb => if k ≤ d then .error .fuel else .ok (none, vb)
  | fuel + 1, k, vb =>
    if k ≤ d then do
      let x_i ← start_x vb d k
      let y_i := x_i - k
      let xy ← (snake left right left_start left_size right_start right_size true
        (left_size + 1) x_i y_i)
      let vb ← vb.set k xy.1
      if Int.tmod delta 2 = 0 ∧ -(k - delta) ≥ -d ∧ -(k - delta) ≤ d then do
        let a ← vb.get k
        let b ← vf.get (-(k - delta))
        if a + b ≥ left_size then
          .ok (some ⟨2 * d, left_size - xy.1, right_size - xy.2, left_size - x_i,
            right_size - y_i⟩, vb)
        else
          (backward_loop left right left_start left_size right_start right_size delta d vf
            fuel (k + 2) vb)
      else
        (backward_loop left right left_start left_size right_start right_size delta d vf
          fuel (k + 2) vb)
    else .ok (none, vb)

/-- The outer loop `for (int d = 0; d <= d_max; d++)`, from `d` on, and the
`throw Unreachable()` after it. -/
def middle_snake_rounds (left right : ExecPath)
    (left_start left_size right_start right_size : Nat) (delta d_max : Int) :
    Nat → Int → NegIndexable → NegIndexable → Except Fault MiddleSnake
  | 0, d, _, _ => if d ≤ d_max then .error .fuel else .error .Unreachable
  | fuel + 1, d, vf, vb =>
    if d ≤ d_max then do
      let r ← (forward_loop left right left_start left_size right_start right_size delta d
        vb (d.toNat + 1) (-d) vf)
      match r.1 with
      | some t => .ok t
      | none => do
        let r2 ← (backward_loop left right left_start left_size right_start right_size delta
          d r.2 (d.toNat + 1) (-d) vb)
        match r2.1 with
        | some t => .ok t
        | none =>
          (middle_snake_rounds left right left_start left_size right_start right_size delta
            d_max fuel (d + 1) r.2 r2.2)
    else .error .Unreachable

/-- The function `find_middle_snake_myers_original`. -/
def find_middle_snake_myers_original (left : ExecPath) (left_start left_size : Nat)
    (right : ExecPath) (right_start right_size : Nat) : Except Fault MiddleSnake :=
  let max := left_size + right_size
  if max > 0 then
    let delta : Int := (left_size : Int) - right_size
    let vf := NegIndexable.create (max * 2)
    let vb := NegIndexable.create (max * 2)
    match vf.set 1 0, vb.set 1 0 with
    | .ok vf, .ok vb =>
      let d_max : Int := if max % 2 = 0 then max / 2 else max / 2 + 1
      middle_snake_rounds left right left_start left_size right_start right_size delta d_max
        (d_max.toNat + 1) 0 vf vb
    | _, _ => .error .out_of_range
  else .error .assert_failed

/-- The write `shadow[i] = true`. -/
def set_shadow (shadow : List Bool) (i : Nat) : Except Fault (List Bool) :=
  if i < shadow.length then .ok (shadow.set i true) else .error .out_of_range

/-- The loop `for (i = 0; i < size; i++) shadow[start + i] = true`, from `i` on. -/
def shadow_range (start size : Nat) : Nat → Nat → List Bool → Except Fault (List Bool)
  | 0, i, shadow => if i < size then .error .fuel else .ok shadow
  | fuel + 1, i, shadow =>
    if i < size then do
      let s ← set_shadow shadow (start + i)
      shadow_range start size fuel (i + 1) s
    else .ok shadow

/-- The loop `for (i = 0; i < size; i++) if (a[a_start + i] != b[b_start + i])
{ shadow[a_start + i] = true; break; }`, from `i` on; `a` is the longer part, the
one that `shadow` belongs to. -/
def shadow_first_diff (a b : ExecPath) (a_start b_start size : Nat) :
    Nat → Nat → List Bool → Except Fault (List Bool)
  | 0, i, shadow => if i < size then .error .fuel else .ok shadow
  | fuel + 1, i, shadow =>
    if i < size then do
      let x ← at_index a (a_start + i)
      let y ← at_index b (b_start + i)
      if x ≠ y then set_shadow shadow (a_start + i)
      else shadow_first_diff a b a_start b_start size fuel (i + 1) shadow
    else .ok shadow

/-- A `size_t` difference `a - b`. -/
def size_sub (a b : Nat) : Nat := if b ≤ a then a - b else 2 ^ 64 - (b - a)

/-- The conversion of an `int` of the returned tuple to `size_t`. -/
def size_of_int (x : Int) : Nat := if 0 ≤ x then x.toNat else (x % 2 ^ 64).toNat

/-- The recursive overload `TracePC::CheckDiff(left, left_start, left_size, right,
right_start, right_size, shadow_left, shadow_right)`: the two shadows after the
call. -/
def CheckDiff_shadow (left right : ExecPath) :
    Nat → Nat → Nat → Nat → Nat → List Bool → List Bool → Except Fault (List Bool × List Bool)
  | 0, _, _, _, _, _, _ => .error .fuel
  | fuel + 1, left_start, left_size, right_start, right_size, shadow_left, shadow_right =>
    if left_size = 0 then do
      let sr ← shadow_range right_start right_size right_size 0 shadow_right
      .ok (shadow_left, sr)
    else if right_size = 0 then do
      let sl ← shadow_range left_start left_size left_size 0 shadow_left
      .ok (sl, shadow_right)
    else do
      let t ← (find_middle_snake_myers_original left left_start left_size right right_start
        right_size)
      let d := size_of_int t.d
      let x := size_of_int t.x
      let y := size_of_int t.y
      let u := size_of_int t.u
      let v := size_of_int t.v
      if d > 1 then do
        let s ← (CheckDiff_shadow left right fuel left_start x right_start y shadow_left
          shadow_right)
        (CheckDiff_shadow left right fuel (left_start + u) (size_sub left_size u)
          (right_start + v) (size_sub right_size v) s.1 s.2)
      else if d = 1 then
        if left_size < right_size then do
          let sr ← (shadow_first_diff right left right_start left_start left_size left_size 0
            shadow_right)
          let sr ← set_shadow sr (right_start + right_size - 1)
          .ok (shadow_left, sr)
        else do
          let sl ← (shadow_first_diff left right left_start right_start right_size right_size
            0 shadow_left)
          let sl ← set_shadow sl (left_start + left_size - 1)
          .ok (sl, shadow_right)
      else .ok (shadow_left, shadow_right)

/-- The function `remove_common_prefix`: the two paths without their common
prefix, and its length. -/
def remove_common_prefix (left right : ExecPath) : ExecPath × ExecPath × Nat :=
  let common_length := common_prefix_length left right
  (subvec left common_length, subvec right common_length, common_length)

namespace TracePC

/-- The loop `for (i = 0; i < n; i++) if (left[i] != right[i]) return false;` of
`eq_significant`: `true` when it ends without a return. -/
def same_upto (left right : ExecPath) (n : Nat) : Bool :=
  (List.range n).all (fun i => left[i]? == right[i]?)

/-- The function `TracePC::eq_significant(left, right)`. -/
def eq_significant (tpc : TracePC) (left right : ExecPath) : Bool :=
  if left.length ≥ tpc.ExecPathSignificantMax ∧ right.length ≥ tpc.ExecPathSignificantMax then
    same_upto left right tpc.ExecPathSignificantMax
  else if left.length ≠ right.length then false
  else same_upto left right left.length

/-- The accessor `CheckDiffChunkSize`: `check_diff_chunk_size` is a tenth of
`max_significant_execpath_size` (constructor). -/
def CheckDiffChunkSize (tpc : TracePC) : Nat := tpc.max_significant_execpath_size / 10

/-- The loop of `AddND(epath, shadow_epath, false)` over the elements from `i` on:
`rest` holds the elements with their shadow bits. -/
def AddND_half (common_half : Nat) : List (PCID × Bool) → Nat → TracePC → TracePC
  | [], _, tpc => tpc
  | (pcid, sh) :: rest, common_seen, tpc =>
    if common_seen > common_half then tpc
    else if sh = true then AddND_half common_half rest common_seen (tpc.AddND [pcid])
    else AddND_half common_half rest (common_seen + 1) tpc

/-- The overload `AddND(epath, shadow_epath, do_all)`; the two vectors have the
same size (assertion of the source). -/
def AddND_shadow (tpc : TracePC) (epath : ExecPath) (shadow_epath : List Bool)
    (do_all : Bool) : TracePC :=
  if do_all then
    (epath.zip shadow_epath).foldl
      (fun acc e => if e.2 = true then acc.AddND [e.1] else acc) tpc
  else
    let common_length := (shadow_epath.filter (fun s => s = false)).length
    let common_half :=
      if common_length % 2 = 0 then common_length / 2 else common_length / 2 + 1
    AddND_half common_half (epath.zip shadow_epath) 0 tpc

/-- The choice of the two chunks from the two pruned paths: `is_last_iter` and the
chunks. -/
def chunks (tpc : TracePC) (left_pruned right_pruned : ExecPath) :
    Bool × ExecPath × ExecPath :=
  let is_last_iter := decide (left_pruned.length ≤ tpc.CheckDiffChunkSize) ||
    decide (right_pruned.length ≤ tpc.CheckDiffChunkSize)
  if is_last_iter then (true, left_pruned, right_pruned)
  else (false, subvec_len left_pruned 0 tpc.CheckDiffChunkSize,
    subvec_len right_pruned 0 tpc.CheckDiffChunkSize)

/-- The statements of one pass of the loop `while (true)` of `CheckDiff` up to the
call of `remove_common_prefix`: the tracer after the two calls of `AddND`. -/
def CheckDiff_round (tpc : TracePC) (is_last_iter : Bool) (left_chunk right_chunk : ExecPath) :
    Except Fault TracePC := do
  let s ← (CheckDiff_shadow left_chunk right_chunk
    (left_chunk.length + right_chunk.length + 1) 0 left_chunk.length 0 right_chunk.length
    (List.replicate left_chunk.length false) (List.replicate right_chunk.length false))
  .ok ((tpc.AddND_shadow left_chunk s.1 is_last_iter).AddND_shadow right_chunk s.2
    is_last_iter)

/-- The loop `while (true)` of `CheckDiff(left, right)`. -/
def CheckDiff_loop (left right : ExecPath) :
    Nat → TracePC → Bool → ExecPath → ExecPath → Except Fault TracePC
  | 0, _, _, _, _ => .error .fuel
  | fuel + 1, tpc, is_last_iter, left_chunk, right_chunk => do
    let tpc1 ← tpc.CheckDiff_round is_last_iter left_chunk right_chunk
    let r := remove_common_prefix (tpc1.Prune left) (tpc1.Prune right)
    if r.2.2 ≥ tpc1.ExecPathSignificantMax ∨ (r.1.length = 0 ∧ r.2.1.length = 0) then .ok tpc1
    else
      let c := tpc1.chunks r.1 r.2.1
      CheckDiff_loop left right fuel tpc1 c.1 c.2.1 c.2.2

/-- The function `TracePC::CheckDiff(left, right)`, with at most `fuel` passes of
its loop: the tracer on return. -/
def CheckDiff (tpc : TracePC) (left right : ExecPath) (fuel : Nat) : Except Fault TracePC :=
  let r := remove_common_prefix left right
  if r.2.2 < tpc.ExecPathSignificantMax then
    let c := tpc.chunks r.1 r.2.1
    CheckDiff_loop left right fuel tpc c.1 c.2.1 c.2.2
  else .error .assert_failed

end TracePC

/-! ## Construction and comparison of expressions (`sygus_ast.cpp`), more of the bit vectors

* The constructor `BoolExpr(t_, bleft_, bright_)` asserts that `t_` is
  `BOOLEXPR_AND` or `BOOLEXPR_OR`; its model takes the tag from the two-valued type
  `BinaryType`.  Inside the constructor the members `bleft` and `bright` of the new
  object are still null pointers; `*bleft` on the member is the fault
  `null_pointer`.
* The copy constructors of `IntExpr` and `BoolExpr` copy every member and every
  subtree, so a copy is the same value.
* In `to_equality_condition` a failed `assert` (the program aborts) and a failed
  `PATHFINDER_CHECK` (a message and `exit(0)`) both end the call without a result.
-/

mutual
/-- The function `IntExpr::struct_eq(other)`: `false` when the tags differ, else the
comparison of the members of the tag. -/
def IntExpr.struct_eq : IntExpr → IntExpr → Bool
  | .CONST value, other =>
    match other with
    | .CONST value2 => value == value2
    | _ => false
  | .VAR id, other =>
    match other with
    | .VAR id2 => id == id2
    | _ => false
  | .ITE cond left right, other =>
    match other with
    | .ITE cond2 left2 right2 =>
      cond.struct_eq cond2 && left.struct_eq left2 && right.struct_eq right2
    | _ => false
  | .ADD left right, other =>
    match other with
    | .ADD left2 right2 => left.struct_eq left2 && right.struct_eq right2
    | _ => false
  | .SUB left right, other =>
    match other with
    | .SUB left2 right2 => left.struct_eq left2 && right.struct_eq right2
    | _ => false
  | .MULT left right, other =>
    match other with
    | .MULT left2 right2 => left.struct_eq left2 && right.struct_eq right2
    | _ => false
  | .DIV left right, other =>
    match other with
    | .DIV left2 right2 => left.struct_eq left2 && right.struct_eq right2
    | _ => false
  | .MOD left right, other =>
    match other with
    | .MOD left2 right2 => left.struct_eq left2 && right.struct_eq right2
    | _ => false
/-- The function `BoolExpr::struct_eq(other)`. -/
def BoolExpr.struct_eq : BoolExpr → BoolExpr → Bool
  | .VAR id, other =>
    match other with
    | .VAR id2 => id == id2
    | _ => false
  | .NOT b, other =>
    match other with
    | .NOT b2 => b.struct_eq b2
    | _ => false
  | .AND bleft bright, other =>
    match other with
    | .AND bleft2 bright2 => bleft.struct_eq bleft2 && bright.struct_eq bright2
    | _ => false
  | .OR bleft bright, other =>
    match other with
    | .OR bleft2 bright2 => bleft.struct_eq bleft2 && bright.struct_eq bright2
    | _ => false
  | .EQ ileft iright, other =>
    match other with
    | .EQ ileft2 iright2 => ileft.struct_eq ileft2 && iright.struct_eq iright2
    | _ => false
  | .NEQ ileft iright, other =>
    match other with
    | .NEQ ileft2 iright2 => ileft.struct_eq ileft2 && iright.struct_eq iright2
    | _ => false
  | .LT ileft iright, other =>
    match other with
    | .LT ileft2 iright2 => ileft.struct_eq ileft2 && iright.struct_eq iright2
    | _ => false
  | .GT ileft iright, other =>
    match other with
    | .GT ileft2 iright2 => ileft.struct_eq ileft2 && iright.struct_eq iright2
    | _ => false
  | .LTE ileft iright, other =>
    match other with
    | .LTE ileft2 iright2 => ileft.struct_eq ileft2 && iright.struct_eq iright2
    | _ => false
  | .GTE ileft iright, other =>
    match other with
    | .GTE ileft2 iright2 => ileft.struct_eq ileft2 && iright.struct_eq iright2
    | _ => false
end

/-- The expression `BoolExpr::true_expr()`: `1 = 1`. -/
def BoolExpr.true_expr : BoolExpr := .EQ (.CONST 1) (.CONST 1)

/-- The expression `BoolExpr::false_expr()`: `1 != 1`. -/
def BoolExpr.false_expr : BoolExpr := .NEQ (.CONST 1) (.CONST 1)

/-- The two tags the binary constructor of `BoolExpr` accepts. -/
inductive BinaryType where
  | BOOLEXPR_AND
  | BOOLEXPR_OR
deriving Repr, DecidableEq

/-- Constructor `BoolExpr(t_, bleft_, bright_)`.  A left operand equal to the
neutral expression gives a copy of the right operand.  For a right operand equal
to the neutral expression the source calls `copy(*bleft)`, with the member `bleft`
of the object under construction and not the parameter `bleft_`. -/
def BoolExpr.binary (t_ : BinaryType) (bleft_ bright_ : BoolExpr) : Except EvalError BoolExpr :=
  match t_ with
  | .BOOLEXPR_AND =>
    if bleft_.struct_eq BoolExpr.true_expr then .ok bright_
    else if bright_.struct_eq BoolExpr.true_expr then .error .null_pointer
    else .ok (.AND bleft_ bright_)
  | .BOOLEXPR_OR =>
    if bleft_.struct_eq BoolExpr.false_expr then .ok bright_
    else if bright_.struct_eq BoolExpr.false_expr then .error .null_pointer
    else .ok (.OR bleft_ bright_)

/-- The operator `BoolExpr::operator&&(const BoolExpr &other)`. -/
def BoolExpr.and_op (e other : BoolExpr) : Except EvalError BoolExpr :=
  BoolExpr.binary .BOOLEXPR_AND e other

/-- The operator `BoolExpr::operator||(const BoolExpr &other)`. -/
def BoolExpr.or_op (e other : BoolExpr) : Except EvalError BoolExpr :=
  BoolExpr.binary .BOOLEXPR_OR e other

/-- Kind of an equality condition (`enum EqualityType`). -/
inductive EqualityType where
  | ET_Equal
  | ET_Inequal
deriving Repr, DecidableEq

/-- An equality or inequality between two parameters (`class EqualityCondition`). -/
structure EqualityCondition where
  eqtype : EqualityType
  left : String
  right : String
deriving Repr, DecidableEq

/-- The function `EqualityCondition::negate()`. -/
def EqualityCondition.negate (c : EqualityCondition) : EqualityCondition :=
  { c with eqtype := if c.eqtype = .ET_Equal then .ET_Inequal else .ET_Equal }

/-- How `to_equality_condition` ends without a result. -/
inductive Rejected where
  | assert_failed
  | check_failed
deriving Repr, DecidableEq

/-- The function `to_equality_condition(e)`. -/
def to_equality_condition : BoolExpr → Except Rejected EqualityCondition
  | .NOT b =>
    match to_equality_condition b with
    | .ok c => .ok c.negate
    | .error r => .error r
  | .EQ (.VAR left) (.VAR right) => .ok ⟨.ET_Equal, left, right⟩
  | .EQ _ _ => .error .assert_failed
  | .NEQ (.VAR left) (.VAR right) => .ok ⟨.ET_Inequal, left, right⟩
  | .NEQ _ _ => .error .assert_failed
  | _ => .error .check_failed

/-! ### Validity of a condition (`branch_condition.cpp`) -/

/-- The virtual function `invalid()`: an Enum condition whose inclusion vector is
empty, or that has neither inclusion vector nor equality expression; a Numeric
condition without expression; a Neglect condition never. -/
def BranchCondition.invalid (c : BranchCondition) : Bool :=
  match c.body with
  | .Enum (some inclusion_cond) _ => inclusion_cond.empty
  | .Enum none equality_cond => equality_cond.isNone
  | .Numeric cond => cond.isNone
  | .Neglect => false

/-! ### Operators of the bit vectors (`enumarg_bitvec.cpp`) -/

/-- The function `in(other)`. -/
def EnumArgBitVec.in_ (bv other : EnumArgBitVec) : Bool :=
  bv.bitvec ||| other.bitvec == other.bitvec

/-- The operator `operator&`: a copy, then `bit_and`. -/
def EnumArgBitVec.and_op (bv other : EnumArgBitVec) : EnumArgBitVec := bv.bit_and other

/-- The operator `operator|`: a copy, then `bit_or`. -/
def EnumArgBitVec.or_op (bv other : EnumArgBitVec) : EnumArgBitVec := bv.bit_or other

/-- The operator `operator~`: a copy, then `negate`. -/
def EnumArgBitVec.not_op (bv : EnumArgBitVec) : EnumArgBitVec := bv.negate

/-! ## The input signature (`input_signature.cpp`)

* The global `input_signature` is a value of `InputSignature`; a registration
  returns the new signature, or nothing when `PATHFINDER_CHECK` ends the process
  on a duplicate name.  The set `name_set` is the list of its names.
* The byte stream of a corpus file is the vector of `long` values `data`; the two
  loops of `deserialize` over `i` with `data[i]` and `data[enum_params_size() + i]`
  walk the parameter list and `data` side by side.
-/

/-- A declared enum parameter (`class EnumParam`). -/
structure EnumParam where
  name : String
  start : Nat
  size : Nat
  entries : List String
deriving Repr, DecidableEq

/-- A declared integer parameter (`class NumericParam`). -/
structure NumericParam where
  name : String
deriving Repr, DecidableEq

/-- The registry of the declared parameters (`class InputSignature`). -/
structure InputSignature where
  enum_params : List EnumParam
  enum_param_groups : List (List EnumParam)
  numeric_params : List NumericParam
  name_set : List String
deriving Repr, DecidableEq

namespace InputSignature

/-- Constructor `InputSignature()`. -/
def empty : InputSignature :=
  { enum_params := [], enum_param_groups := [], numeric_params := [], name_set := [] }

/-- The function `check_duplicate_and_register(name)`. -/
def check_duplicate_and_register (sig : InputSignature) (name : String) :
    Option InputSignature :=
  if name ∈ sig.name_set then none else some { sig with name_set := sig.name_set ++ [name] }

/-- The loop of `push(EnumParam)` over the groups: the parameter joins the first
group whose first member has its `start` and `size`, else it starts a new group. -/
def add_to_groups (enum_param : EnumParam) : List (List EnumParam) → List (List EnumParam)
  | [] => [[enum_param]]
  | group :: rest =>
    match group with
    | first :: _ =>
      if first.start = enum_param.start ∧ first.size = enum_param.size then
        (group ++ [enum_param]) :: rest
      else group :: add_to_groups enum_param rest
    | [] => group :: add_to_groups enum_param rest

/-- The function `push(EnumParam enum_param)`. -/
def push_enum (sig : InputSignature) (enum_param : EnumParam) : Option InputSignature :=
  match sig.check_duplicate_and_register enum_param.name with
  | none => none
  | some sig1 =>
    some { sig1 with
      enum_params := sig1.enum_params ++ [enum_param]
      enum_param_groups := add_to_groups enum_param sig1.enum_param_groups }

/-- The function `push(NumericParam int_param)`. -/
def push_numeric (sig : InputSignature) (int_param : NumericParam) : Option InputSignature :=
  match sig.check_duplicate_and_register int_param.name with
  | none => none
  | some sig1 => some { sig1 with numeric_params := sig1.numeric_params ++ [int_param] }

/-- The function `register_enum_param(name, entries)`. -/
def register_enum_param_entries (sig : InputSignature) (name : String) (entries : List String) :
    Option InputSignature :=
  sig.push_enum { name := name, start := 0, size := entries.length, entries := entries }

/-- The function `register_enum_param(name, start, size)`. -/
def register_enum_param (sig : InputSignature) (name : String) (start size : Nat) :
    Option InputSignature :=
  sig.push_enum { name := name, start := start, size := size, entries := [] }

/-- The function `register_int_param(name)`. -/
def register_int_param (sig : InputSignature) (name : String) : Option InputSignature :=
  sig.push_numeric { name := name }

/-- The function `enum_params_size()`. -/
def enum_params_size (sig : InputSignature) : Nat := sig.enum_params.length

/-- The function `int_params_size()`. -/
def int_params_size (sig : InputSignature) : Nat := sig.numeric_params.length

/-- The function `params_size()`. -/
def params_size (sig : InputSignature) : Nat := sig.enum_params_size + sig.int_params_size

/-- The function `get_enum_param_names()`. -/
def get_enum_param_names (sig : InputSignature) : List String :=
  sig.enum_params.map (fun p => p.name)

/-- The function `get_numeric_param_names()`. -/
def get_numeric_param_names (sig : InputSignature) : List String :=
  sig.numeric_params.map (fun p => p.name)

/-- The function `serialize(input)`: `args[name]` on a copy of each map, the enum
parameters first. -/
def serialize (sig : InputSignature) (input : Input) : List Int :=
  sig.enum_params.map (fun enum_param => input.enum_args.get enum_param.name) ++
    sig.numeric_params.map (fun int_param => input.numeric_args.get int_param.name)

/-- One loop of `deserialize`: `args.insert({name, data[i]})` for the names in
order. -/
def insert_values : List String → List Int → Args → Args
  | name :: names, value :: data, args => insert_values names data (args.insert name value)
  | _, _, args => args

/-- The function `deserialize(data)`: nothing when `data` is shorter than the
signature; values beyond the signature are ignored. -/
def deserialize (sig : InputSignature) (data : List Int) : Option Input :=
  if data.length < sig.params_size then none
  else
    some
      { enum_args := insert_values sig.get_enum_param_names data []
        numeric_args :=
          insert_values sig.get_numeric_param_names (data.drop sig.enum_params_size) [] }

end InputSignature

/-! ## The numeric solver (`numeric_solver.cpp`)

The SMT library is outside the modelled code.

* A z3 model is a function `Z3Model` from the names of the integer constants to
  their values (`m.eval(exp, true)` completes the model, so every constant has a
  value), and a `z3::expr` of sort Bool is a `Formula`, a predicate on models.
* The call `s->check()` followed by `s->get_model()` is the oracle `check`: it gets
  the asserted formulas and returns a model, or nothing when the answer is not
  `z3::sat`.  The assertion stack of `s` is the list `assertions`; a `push()` with
  its `pop()` is a call on the extended list.
* `get_numeral_int()` throws when the value is not a value of `int`: the fault
  `numeral_overflow`.
* The comparison `rand_float() < MUT_RATE` is the flag `mutate`, the values of
  `std::rand()` are arguments.
* `NumericSolver::set_condition` and the translation `to_z3_expr` of the user
  constraints are not modelled: the constructor gets the translated hard and soft
  constraints, and further conditions are assertions added to the solver.
-/

/-- A model of the SMT solver: the value of every integer constant. -/
abbrev Z3Model := String → Int

/-- A boolean `z3::expr`. -/
abbrev Formula := Z3Model → Bool

/-- What ends a draw by an exception. -/
inductive SolverFault where
  | numeral_overflow
  | out_of_range
  | Unreachable
deriving Repr, DecidableEq

/-- The function `conjunction(ctrs)`: a null pointer for no constraint. -/
def conjunction : List Formula → Option Formula
  | [] => none
  | c :: ctrs => some (ctrs.foldl (fun res c2 => fun m => res m && c2 m) c)

/-- A variable of the solver (`class SolverVar`); `concrete` is indeterminate until
the first `assign`. -/
structure SolverVar where
  name : String
  concrete : Int

namespace SolverVar

/-- The function `basic_constraint()`: `ARG_INT_MIN <= exp && exp <= ARG_INT_MAX`. -/
def basic_constraint (ARG_INT_MIN ARG_INT_MAX : Int) (v : SolverVar) : Formula :=
  fun m => decide (ARG_INT_MIN ≤ m v.name) && decide (m v.name ≤ ARG_INT_MAX)

/-- The function `assign(m)`. -/
def assign (v : SolverVar) (m : Z3Model) : Except SolverFault SolverVar :=
  if -(2 ^ 31) ≤ m v.name ∧ m v.name < 2 ^ 31 then .ok { v with concrete := m v.name }
  else .error .numeral_overflow

/-- The function `current()`: `get_z3_expr() == (int)concrete`. -/
def current (v : SolverVar) : Formula := fun m => decide (m v.name = wrap_int v.concrete)

end SolverVar

/-- The members of `class Solver`: the variables, the history and the assertions of
the z3 solver `s`. -/
structure Solver where
  solver_vars : List SolverVar
  history : Option Formula
  assertions : List Formula

namespace Solver

/-- The function `clear_history()`. -/
def clear_history (s : Solver) : Solver := { s with history := none }

/-- The function `reset()`. -/
def reset (s : Solver) : Solver := { s with assertions := [], history := none }

/-- The loop of `assign(m)` over the variables. -/
def assign_vars (m : Z3Model) : List SolverVar → Except SolverFault (List SolverVar)
  | [] => .ok []
  | v :: vs =>
    match v.assign m with
    | .error e => .error e
    | .ok v2 =>
      match assign_vars m vs with
      | .error e => .error e
      | .ok vs2 => .ok (v2 :: vs2)

/-- The function `assign(m)`. -/
def assign (s : Solver) (m : Z3Model) : Except SolverFault Solver :=
  match assign_vars m s.solver_vars with
  | .error e => .error e
  | .ok vs => .ok { s with solver_vars := vs }

/-- The function `current_assignment()`. -/
def current_assignment (s : Solver) : Option Formula :=
  conjunction (s.solver_vars.map SolverVar.current)

/-- The function `get_args()`. -/
def get_args (s : Solver) : Args :=
  s.solver_vars.foldl (fun args v => args.insert v.name v.concrete) []

/-- The function `Solver::draw()`, called with the formulas `pushed` on top of the
assertions (none for a call outside a `push()`). -/
def draw (check : List Formula → Option Z3Model) (s : Solver) (pushed : List Formula) :
    Except SolverFault (Option Args × Solver) :=
  let asserted :=
    s.assertions ++ pushed ++
      (match s.history with
       | some h => [h]
       | none => [])
  match check asserted with
  | none => .ok (none, s)
  | some m =>
    match s.assign m with
    | .error e => .error e
    | .ok s1 =>
      let args := s1.get_args
      match s1.current_assignment with
      | none => .ok (some args, s1)
      | some cur_assign =>
        .ok (some args,
          { s1 with
            history :=
              match s1.history with
              | none => some (fun m2 => !cur_assign m2)
              | some h => some (fun m2 => h m2 && !cur_assign m2) })

end Solver

/-- The members of `class NumericSolver`. -/
structure NumericSolver where
  solver : Solver
  basic_constraint : Option Formula
  hard_constraint : Option Formula
  soft_constraint : Option Formula

namespace NumericSolver

/-- Constructor `NumericSolver()` for the integer parameters `numeric_params` and
the translated user constraints; `concrete` gives the indeterminate first values. -/
def new (ARG_INT_MIN ARG_INT_MAX : Int) (numeric_params : List NumericParam)
    (hard_ctrs soft_ctrs : List Formula) (concrete : String → Int) : NumericSolver :=
  let solver_vars : List SolverVar :=
    numeric_params.map (fun param => { name := param.name, concrete := concrete param.name })
  { solver := { solver_vars := solver_vars, history := none, assertions := [] }
    basic_constraint :=
      conjunction (solver_vars.map (SolverVar.basic_constraint ARG_INT_MIN ARG_INT_MAX))
    hard_constraint := conjunction hard_ctrs
    soft_constraint := conjunction soft_ctrs }

/-- The function `reset(conform_soft)`. -/
def reset (ns : NumericSolver) (conform_soft : Bool) : NumericSolver :=
  let s0 := ns.solver.reset
  let a1 :=
    match ns.basic_constraint with
    | some c => [c]
    | none => []
  let a2 :=
    match ns.hard_constraint with
    | some c => [c]
    | none => []
  let a3 : List Formula :=
    match ns.soft_constraint with
    | some c => if conform_soft then [c] else [fun m => !c m]
    | none => []
  { ns with solver := { s0 with assertions := a1 ++ a2 ++ a3 } }

/-- The function `rand_constraint()` with the three values of `std::rand()`. -/
def rand_constraint (ns : NumericSolver) (r1 r2 r3 : Nat) : Except SolverFault Formula :=
  let num_args := ns.solver.solver_vars.length
  let first := r1 % num_args
  let second := (first + (r2 % (num_args - 1)) + 1) % num_args
  let NUM_RELOP := 4 - 0
  let op := r3 % NUM_RELOP + 1
  match ns.solver.solver_vars[first]?, ns.solver.solver_vars[second]? with
  | some a, some b =>
    if op = 1 then .ok (fun m => decide (m a.name = m b.name))
    else if op = 2 then .ok (fun m => decide (m a.name ≠ m b.name))
    else if op = 3 then .ok (fun m => decide (m a.name < m b.name))
    else if op = 4 then .ok (fun m => decide (m a.name ≤ m b.name))
    else .error .Unreachable
  | _, _ => .error .out_of_range

/-- The two calls of `Solver::draw()` at the end of `NumericSolver::draw()`: an
absent result clears the history and the draw is repeated once. -/
def draw_plain (check : List Formula → Option Z3Model) (ns : NumericSolver) :
    Except SolverFault (Option Args × NumericSolver) :=
  match ns.solver.draw check [] with
  | .error e => .error e
  | .ok (some args, s1) => .ok (some args, { ns with solver := s1 })
  | .ok (none, s1) =>
    match s1.clear_history.draw check [] with
    | .error e => .error e
    | .ok (args_opt, s2) => .ok (args_opt, { ns with solver := s2 })

/-- The function `NumericSolver::draw()`. -/
def draw (check : List Formula → Option Z3Model) (ns : NumericSolver) (mutate : Bool)
    (r1 r2 r3 : Nat) : Except SolverFault (Option Args × NumericSolver) :=
  if mutate ∧ ns.solver.solver_vars.length > 1 then
    match ns.rand_constraint r1 r2 r3 with
    | .error e => .error e
    | .ok c =>
      match ns.solver.draw check [c] with
      | .error e => .error e
      | .ok (some args, s1) => .ok (some args, { ns with solver := s1 })
      | .ok (none, s1) => draw_plain check { ns with solver := s1 }
  else draw_plain check ns

end NumericSolver

/-! ## The parser and the printer of synthesized functions (`sygus_parser.cpp`, `sygus_ast.cpp`)

* A `std::string` and a C string are lists of characters; the `char *cursor` is the
  list of the characters from the cursor on, and a read at the end of the string
  gives the terminating NUL.  The copy `strdup(fun_str.c_str())` ends at the first
  NUL of `fun_str`.
* A `char` is compared with `EOF` (-1) as a signed byte: only the character with
  the code 255 is equal to it.
* `PATHFINDER_CHECK` on a false condition prints a message and calls `exit(0)`: the
  fault `check_failed`.  The constructor of a conjunction or disjunction can read
  through a null member: the fault `null_pointer`.
* Every call of `parse_intexpr` and `parse_boolexpr` that calls itself has consumed
  an opening parenthesis before, and every round of the parameter loop consumes
  one; the recursion and the loop are bounded by the length of the string and
  `fuel` is the fault of an exhausted bound.
* `atoi` on a number that is not a value of `int` is undefined; the model wraps.
* `std::to_string(int)` is the decimal numeral with a leading `-` for a negative
  number.
-/

/-- What ends a parse without a result. -/
inductive ParseFault where
  | check_failed
  | null_pointer
  | fuel
deriving Repr, DecidableEq

/-- The character `**cursor`. -/
def cur (cursor : List Char) : Char := cursor.headD (Char.ofNat 0)

/-- The condition `**cursor != EOF` fails. -/
def at_EOF (cursor : List Char) : Bool := (cur cursor).toNat == 255

/-- The function `is_delimiter`. -/
def is_delimiter (c : Char) : Bool := c == ' ' || c == '\n' || c == '\t' || c == '\\'

/-- The function `strip`. -/
def strip (cursor : List Char) : List Char := cursor.dropWhile is_delimiter

/-- The function `is_digit`. -/
def is_digit (c : Char) : Bool := decide ('0' ≤ c) && decide (c ≤ '9')

/-- The function `is_capital_alphabet`. -/
def is_capital_alphabet (c : Char) : Bool := decide ('A' ≤ c) && decide (c ≤ 'Z')

/-- The function `is_lower_alphabet`. -/
def is_lower_alphabet (c : Char) : Bool := decide ('a' ≤ c) && decide (c ≤ 'z')

/-- The function `is_alphabet`. -/
def is_alphabet (c : Char) : Bool := is_capital_alphabet c || is_lower_alphabet c

/-- The function `is_alphanumeric`. -/
def is_alphanumeric (c : Char) : Bool := is_alphabet c || is_digit c

/-- The function `consume(cursor, char c)` for a character `c` other than NUL. -/
def consume_char (cursor : List Char) (c : Char) : Except ParseFault (List Char) :=
  if at_EOF cursor then .error .check_failed
  else
    match strip cursor with
    | d :: rest => if d = c then .ok (strip rest) else .error .check_failed
    | [] => .error .check_failed

/-- The function `consume(cursor, const char* str)`. -/
def consume_str (cursor : List Char) (str : List Char) : Except ParseFault (List Char) :=
  if at_EOF cursor then .error .check_failed
  else if str.isPrefixOf (strip cursor) then .ok (strip ((strip cursor).drop str.length))
  else .error .check_failed

/-- The function `parse_id`. -/
def parse_id (cursor : List Char) : Except ParseFault (String × List Char) :=
  if at_EOF cursor then .error .check_failed
  else
    match strip cursor with
    | start :: rest =>
      if is_alphabet start || start == '_' then
        .ok (String.mk (start :: rest.takeWhile (fun c => is_alphanumeric c || c == '_')),
          rest.dropWhile (fun c => is_alphanumeric c || c == '_'))
      else .error .check_failed
    | [] => .error .check_failed

/-- A parameter of a synthesized function (`class Param`). -/
structure Param where
  id : String
deriving Repr, DecidableEq

/-- The function `parse_param`. -/
def parse_param (cursor : List Char) : Except ParseFault (Param × List Char) :=
  match consume_char cursor '(' with
  | .error e => .error e
  | .ok c1 =>
    match parse_id c1 with
    | .error e => .error e
    | .ok (param_name, c2) =>
      match consume_str c2 "Int".toList with
      | .error e => .error e
      | .ok c3 =>
        match consume_char c3 ')' with
        | .error e => .error e
        | .ok c4 => .ok (⟨param_name⟩, c4)

/-- The digits at the start of the string as a number, on top of `acc`. -/
def atoi_digits : List Char → Nat → Nat
  | [], acc => acc
  | c :: rest, acc => if is_digit c then atoi_digits rest (acc * 10 + (c.toNat - 48)) else acc

/-- The library function `atoi`: white space, an optional sign, digits. -/
def atoi (str : List Char) : Int :=
  match str.dropWhile (fun c => c == ' ' || (9 ≤ c.toNat && c.toNat ≤ 13)) with
  | '-' :: rest => wrap_int (-(atoi_digits rest 0 : Int))
  | '+' :: rest => wrap_int (atoi_digits rest 0)
  | rest => wrap_int (atoi_digits rest 0)

/-- The binary operators of `parse_intexpr` after the opening parenthesis. -/
def int_operator (c : Char) : Option (IntExpr → IntExpr → IntExpr) :=
  if c = '+' then some .ADD
  else if c = '-' then some .SUB
  else if c = '*' then some .MULT
  else if c = '/' then some .DIV
  else if c = '%' then some .MOD
  else none

/-- The comparisons of `parse_boolexpr`, in the order of its tests. -/
def comparisons : List (List Char × (IntExpr → IntExpr → BoolExpr)) :=
  [("=".toList, .EQ), ("<=".toList, .LTE), (">=".toList, .GTE), ("<".toList, .LT),
    (">".toList, .GT)]

/-- The construction of a conjunction or disjunction by the constructor
`BoolExpr(t_, bleft_, bright_)`. -/
def make_binary (t_ : BinaryType) (bleft bright : BoolExpr) (cursor : List Char) :
    Except ParseFault (BoolExpr × List Char) :=
  match BoolExpr.binary t_ bleft bright with
  | .ok ret => .ok (ret, cursor)
  | .error _ => .error .null_pointer

mutual
/-- The function `parse_intexpr`. -/
def parse_intexpr : Nat → List Char → Except ParseFault (IntExpr × List Char)
  | 0, _ => .error .fuel
  | fuel + 1, cursor =>
    let c0 := strip cursor
    -- `'-' == **cursor && is_digit(*((*cursor)++))`: the increment happens when the
    -- left test holds, and the right test reads the character before the increment
    let first_test := cur c0 = '-' ∧ is_digit (cur c0) = true
    let c1 := if cur c0 = '-' then c0.tail else c0
    if first_test then
      .ok (.CONST (wrap_int (-(atoi c1))), c1.dropWhile is_digit)
    else if is_digit (cur c1) then
      .ok (.CONST (atoi c1), c1.dropWhile is_digit)
    else if is_alphabet (cur c1) || cur c1 == '_' then
      match parse_id c1 with
      | .error e => .error e
      | .ok (id, c2) => .ok (.VAR id, c2)
    else if cur c1 = '(' then
      match consume_char c1 '(' with
      | .error e => .error e
      | .ok c2 =>
        match int_operator (cur c2) with
        | some op =>
          match consume_char c2 (cur c2) with
          | .error e => .error e
          | .ok c3 =>
            match parse_intexpr fuel c3 with
            | .error e => .error e
            | .ok (left, c4) =>
              match parse_intexpr fuel c4 with
              | .error e => .error e
              | .ok (right, c5) =>
                match consume_char c5 ')' with
                | .error e => .error e
                | .ok c6 => .ok (op left right, c6)
        | none =>
          if cur c2 = 'i' then
            match consume_str c2 "ite".toList with
            | .error e => .error e
            | .ok c3 =>
              match parse_boolexpr fuel c3 with
              | .error e => .error e
              | .ok (cond, c4) =>
                match parse_intexpr fuel c4 with
                | .error e => .error e
                | .ok (left, c5) =>
                  match parse_intexpr fuel c5 with
                  | .error e => .error e
                  | .ok (right, c6) =>
                    match consume_char c6 ')' with
                    | .error e => .error e
                    | .ok c7 => .ok (.ITE cond left right, c7)
          else .error .check_failed
    else .error .check_failed
termination_by structural fuel => fuel
/-- The function `parse_boolexpr`. -/
def parse_boolexpr : Nat → List Char → Except ParseFault (BoolExpr × List Char)
  | 0, _ => .error .fuel
  | fuel + 1, cursor =>
    match consume_char cursor '(' with
    | .error e => .error e
    | .ok c1 =>
      let parsed : Except ParseFault (BoolExpr × List Char) :=
        match comparisons.find? (fun p => p.1.isPrefixOf c1) with
        | some (str, op) =>
          match consume_str c1 str with
          | .error e => .error e
          | .ok c2 =>
            match parse_intexpr fuel c2 with
            | .error e => .error e
            | .ok (ileft, c3) =>
              match parse_intexpr fuel c3 with
              | .error e => .error e
              | .ok (iright, c4) => .ok (op ileft iright, c4)
        | none =>
          if "and".toList.isPrefixOf c1 then
            match consume_str c1 "and".toList with
            | .error e => .error e
            | .ok c2 =>
              match parse_boolexpr fuel c2 with
              | .error e => .error e
              | .ok (bleft, c3) =>
                match parse_boolexpr fuel c3 with
                | .error e => .error e
                | .ok (bright, c4) => make_binary .BOOLEXPR_AND bleft bright c4
          else if "or".toList.isPrefixOf c1 then
            match consume_str c1 "or".toList with
            | .error e => .error e
            | .ok c2 =>
              match parse_boolexpr fuel c2 with
              | .error e => .error e
              | .ok (bleft, c3) =>
                match parse_boolexpr fuel c3 with
                | .error e => .error e
                | .ok (bright, c4) => make_binary .BOOLEXPR_OR bleft bright c4
          else if "not".toList.isPrefixOf c1 then
            match consume_str c1 "not".toList with
            | .error e => .error e
            | .ok c2 =>
              match parse_boolexpr fuel c2 with
              | .error e => .error e
              | .ok (b, c3) => .ok (.NOT b, c3)
          else .error .check_failed
      match parsed with
      | .error e => .error e
      | .ok (ret, c5) =>
        match consume_char c5 ')' with
        | .error e => .error e
        | .ok c6 => .ok (ret, c6)
termination_by structural fuel => fuel
end

/-- A synthesized function (`class FunSynthesized`). -/
structure FunSynthesized where
  name : String
  params : List Param
  body : BoolExpr

/-- The loop `while (*cursor != ')') params.push_back(parse_param(&cursor))`. -/
def parse_params : Nat → List Char → Except ParseFault (List Param × List Char)
  | 0, _ => .error .fuel
  | fuel + 1, cursor =>
    if cur cursor = ')' then .ok ([], cursor)
    else
      match parse_param cursor with
      | .error e => .error e
      | .ok (p, c1) =>
        match parse_params fuel c1 with
        | .error e => .error e
        | .ok (ps, c2) => .ok (p :: ps, c2)

/-- The function `parse_fun(fun_str)`. -/
def parse_fun (fun_str : List Char) : Except ParseFault FunSynthesized :=
  let c0 := fun_str.takeWhile (fun c => c ≠ Char.ofNat 0)
  match consume_char c0 '(' with
  | .error e => .error e
  | .ok c1 =>
    match consume_str c1 "define-fun".toList with
    | .error e => .error e
    | .ok c2 =>
      match parse_id c2 with
      | .error e => .error e
      | .ok (fun_name, c3) =>
        match consume_char c3 '(' with
        | .error e => .error e
        | .ok c4 =>
          match parse_params (c0.length + 1) c4 with
          | .error e => .error e
          | .ok (params, c5) =>
            match consume_char c5 ')' with
            | .error e => .error e
            | .ok c6 =>
              match consume_str c6 "Bool".toList with
              | .error e => .error e
              | .ok c7 =>
                match parse_boolexpr (c0.length + 1) c7 with
                | .error e => .error e
                | .ok (body, _) => .ok ⟨fun_name, params, body⟩

/-- The library function `std::to_string(int)`. -/
def int_to_string (value : Int) : List Char :=
  if value < 0 then '-' :: Nat.toDigits 10 (-value).toNat else Nat.toDigits 10 value.toNat

mutual
/-- The function `IntExpr::to_string(readable = false)`. -/
def IntExpr.to_string : IntExpr → List Char
  | .CONST value => int_to_string value
  | .VAR id => id.toList
  | .ITE cond left right =>
    "(ite ".toList ++ cond.to_string ++ " ".toList ++ left.to_string ++ " ".toList ++
      right.to_string ++ ")".toList
  | .ADD left right =>
    "(+ ".toList ++ left.to_string ++ " ".toList ++ right.to_string ++ ")".toList
  | .SUB left right =>
    "(- ".toList ++ left.to_string ++ " ".toList ++ right.to_string ++ ")".toList
  | .MULT left right =>
    "(* ".toList ++ left.to_string ++ " ".toList ++ right.to_string ++ ")".toList
  | .DIV left right =>
    "(/ ".toList ++ left.to_string ++ " ".toList ++ right.to_string ++ ")".toList
  | .MOD left right =>
    "(% ".toList ++ left.to_string ++ " ".toList ++ right.to_string ++ ")".toList
/-- The function `BoolExpr::to_string(readable = false)`. -/
def BoolExpr.to_string : BoolExpr → List Char
  | .AND bleft bright =>
    "(and ".toList ++ bleft.to_string ++ " ".toList ++ bright.to_string ++ ")".toList
  | .OR bleft bright =>
    "(or ".toList ++ bleft.to_string ++ " ".toList ++ bright.to_string ++ ")".toList
  | .NOT b => "(not ".toList ++ b.to_string ++ ")".toList
  | .EQ ileft iright =>
    "(= ".toList ++ ileft.to_string ++ " ".toList ++ iright.to_string ++ ")".toList
  | .NEQ ileft iright =>
    "(!= ".toList ++ ileft.to_string ++ " ".toList ++ iright.to_string ++ ")".toList
  | .LT ileft iright =>
    "(< ".toList ++ ileft.to_string ++ " ".toList ++ iright.to_string ++ ")".toList
  | .GT ileft iright =>
    "(> ".toList ++ ileft.to_string ++ " ".toList ++ iright.to_string ++ ")".toList
  | .LTE ileft iright =>
    "(<= ".toList ++ ileft.to_string ++ " ".toList ++ iright.to_string ++ ")".toList
  | .GTE ileft iright =>
    "(>= ".toList ++ ileft.to_string ++ " ".toList ++ iright.to_string ++ ")".toList
  | .VAR id => id.toList
end

/-- The loop of `FunSynthesized::to_string` over the parameters: `(p Int)` for each,
separated by one blank. -/
def params_to_string : List Param → List Char
  | [] => []
  | [p] => "(".toList ++ p.id.toList ++ " Int)".toList
  | p :: rest => "(".toList ++ p.id.toList ++ " Int)".toList ++ " ".toList ++ params_to_string rest

/-- The function `FunSynthesized::to_string()`. -/
def FunSynthesized.to_string (f : FunSynthesized) : List Char :=
  "(define-fun ".toList ++ f.name.toList ++ " (".toList ++ params_to_string f.params ++
    ") Bool ".toList ++ f.body.to_string ++ ")".toList

/-! ## Assertions of `ExecTree::insert` (`exectree.cpp`)

The tree operations above leave the `assert`s of the source out.  The two
assertions of the branch of Case 2 in which the root has the prefix Epsilon are
written here as a function of the arguments of the call.
-/

/-- The assertions `assert(root->is_internal() &&
as_internal(root.get())->lookup_child(epath_rem[0]) == nullptr)` and
`assert(epath_rem == epath)` of `ExecTree::insert(epath, inputset, run_status)`:
the values of the two conditions, or `none` when the call does not reach them. -/
def ExecTree.insert_epsilon_root_asserts (tpc : TracePC) (t : ExecTree) (epath : ExecPath) :
    Option (Bool × Bool) :=
  let epath_significant := tpc.significant epath
  match t.root with
  | none => none
  | some root =>
    match root.find [] epath_significant with
    | (none, epath_rem) =>
      if root.pfx = EPSILON then
        some (root.is_internal && (lookup_child root.children (front epath_rem)).isNone,
          decide (epath_rem = epath))
      else none
    | (some _, _) => none

/-- The method `ExecTree::insert(epath, inputset, run_status)` with the two assertions
of the Epsilon-root branch of Case 2: `none` when one of them fails, else the tree
and the position of the returned leaf.  The other assertions of `insert` are left
out. -/
def ExecTree.insert_set_asserting (tpc : TracePC) (t : ExecTree) (epath : ExecPath)
    (inputset : List Input) (run_status : Int) (rnd : Nat) : Option (ExecTree × Pos) :=
  match t.insert_epsilon_root_asserts tpc epath with
  | some (first, second) =>
    if first && second then some (t.insert_set tpc epath inputset run_status rnd) else none
  | none => some (t.insert_set tpc epath inputset run_status rnd)

/-- The method `ExecTree::insert(epath, input, run_status)` with a single input and
the assertions of `insert_set_asserting`. -/
def ExecTree.insert_asserting (tpc : TracePC) (t : ExecTree) (epath : ExecPath) (input : Input)
    (run_status : Int) (rnd : Nat) : Option (ExecTree × Pos) :=
  t.insert_set_asserting tpc epath [input] run_status rnd

/-- The tree after a sequence of `insert` calls on an empty tree, with the assertions
of `insert_set_asserting`: `none` when a call fails one of them. -/
def ExecTree.insert_calls_asserting (tpc : TracePC) : List InsertCall → ExecTree → Option ExecTree
  | [], t => some t
  | c :: rest, t =>
    match t.insert_asserting tpc c.epath c.input c.run_status c.rnd with
    | none => none
    | some r => ExecTree.insert_calls_asserting tpc rest r.1

/-- The method `ExecTree::purge_and_reinsert(epath_old, epath_new)` with the
assertions of `purge_leaf` and of `insert_set_asserting`: `none` when one of them
fails. -/
def ExecTree.purge_and_reinsert_asserting (tpc : TracePC) (t : ExecTree)
    (epath_old epath_new : ExecPath) (rnd : Nat) : Option ExecTree :=
  match t.purge_leaf tpc epath_old with
  | none => none
  | some (t1, leaf_old) =>
    let inputset := ExecTree.leaf_inputset leaf_old
    let exception_path := ExecTree.leaf_exception_path leaf_old
    match t1.insert_set_asserting tpc epath_new inputset (if exception_path then 1 else 0) rnd with
    | none => none
    | some r => some r.1

/-! ## The translation of expressions to solver terms (`sygus_ast.cpp`: `to_z3_expr`)

* A `z3::expr` is the term that the functions and operators of `z3++.h` build; the
  constructors of `Z3Int` and `Z3Bool` are named after them: `ctx.int_val`,
  `ctx.int_const`, `z3::ite`, and the operators `+`, `-`, `*`, `/` (`Z3_mk_div`), `%`
  (`Z3_mk_mod`), `&&`, `||`, `!`, `==`, `!=`, `<`, `>`, `<=`, `>=`.
* `to_z3_expr` of a boolean variable throws `Unreachable`.
-/

mutual
/-- An integer term of the solver. -/
inductive Z3Int where
  | int_val (value : Int)
  | int_const (name : String)
  | ite (c : Z3Bool) (t e : Z3Int)
  | add (a b : Z3Int)
  | sub (a b : Z3Int)
  | mul (a b : Z3Int)
  | div (a b : Z3Int)
  | mod (a b : Z3Int)
/-- A boolean term of the solver. -/
inductive Z3Bool where
  | and (a b : Z3Bool)
  | or (a b : Z3Bool)
  | not (a : Z3Bool)
  | eq (a b : Z3Int)
  | ne (a b : Z3Int)
  | lt (a b : Z3Int)
  | gt (a b : Z3Int)
  | le (a b : Z3Int)
  | ge (a b : Z3Int)
end

mutual
/-- The function `IntExpr::to_z3_expr(ctx)`. -/
def IntExpr.to_z3_expr : IntExpr → Except EvalError Z3Int
  | .CONST value => .ok (.int_val value)
  | .VAR id => .ok (.int_const id)
  | .ITE cond left right =>
    match cond.to_z3_expr with
    | .error e => .error e
    | .ok c =>
      match left.to_z3_expr with
      | .error e => .error e
      | .ok l =>
        match right.to_z3_expr with
        | .error e => .error e
        | .ok r => .ok (.ite c l r)
  | .ADD left right =>
    match left.to_z3_expr with
    | .error e => .error e
    | .ok l =>
      match right.to_z3_expr with
      | .error e => .error e
      | .ok r => .ok (.add l r)
  | .SUB left right =>
    match left.to_z3_expr with
    | .error e => .error e
    | .ok l =>
      match right.to_z3_expr with
      | .error e => .error e
      | .ok r => .ok (.sub l r)
  | .MULT left right =>
    match left.to_z3_expr with
    | .error e => .error e
    | .ok l =>
      match right.to_z3_expr with
      | .error e => .error e
      | .ok r => .ok (.mul l r)
  | .DIV left right =>
    match left.to_z3_expr with
    | .error e => .error e
    | .ok l =>
      match right.to_z3_expr with
      | .error e => .error e
      | .ok r => .ok (.div l r)
  | .MOD left right =>
    match left.to_z3_expr with
    | .error e => .error e
    | .ok l =>
      match right.to_z3_expr with
      | .error e => .error e
      | .ok r => .ok (.mod l r)
/-- The function `BoolExpr::to_z3_expr(ctx)`. -/
def BoolExpr.to_z3_expr : BoolExpr → Except EvalError Z3Bool
  | .AND bleft bright =>
    match bleft.to_z3_expr with
    | .error e => .error e
    | .ok l =>
      match bright.to_z3_expr with
      | .error e => .error e
      | .ok r => .ok (.and l r)
  | .OR bleft bright =>
    match bleft.to_z3_expr with
    | .error e => .error e
    | .ok l =>
      match bright.to_z3_expr with
      | .error e => .error e
      | .ok r => .ok (.or l r)
  | .NOT b =>
    match b.to_z3_expr with
    | .error e => .error e
    | .ok a => .ok (.not a)
  | .EQ ileft iright =>
    match ileft.to_z3_expr with
    | .error e => .error e
    | .ok l =>
      match iright.to_z3_expr with
      | .error e => .error e
      | .ok r => .ok (.eq l r)
  | .NEQ ileft iright =>
    match ileft.to_z3_expr with
    | .error e => .error e
    | .ok l =>
      match iright.to_z3_expr with
      | .error e => .error e
      | .ok r => .ok (.ne l r)
  | .LT ileft iright =>
    match ileft.to_z3_expr with
    | .error e => .error e
    | .ok l =>
      match iright.to_z3_expr with
      | .error e => .error e
      | .ok r => .ok (.lt l r)
  | .GT ileft iright =>
    match ileft.to_z3_expr with
    | .error e => .error e
    | .ok l =>
      match iright.to_z3_expr with
      | .error e => .error e
      | .ok r => .ok (.gt l r)
  | .LTE ileft iright =>
    match ileft.to_z3_expr with
    | .error e => .error e
    | .ok l =>
      match iright.to_z3_expr with
      | .error e => .error e
      | .ok r => .ok (.le l r)
  | .GTE ileft iright =>
    match ileft.to_z3_expr with
    | .error e => .error e
    | .ok l =>
      match iright.to_z3_expr with
      | .error e => .error e
      | .ok r => .ok (.ge l r)
  | .VAR _ => .error .Unreachable
end

/-! ## The accuracy of a confusion matrix (`branch_condition.cpp`: `ConfusionMatrix::accuracy`)

* The `int64_t` products, sums and the difference wrap around at 64 bits
  (`wrap_long`); `x /= 2` is the truncating division.
* The returned `double` is not computed: the result is `zero` for `return 0.0`, and
  otherwise the pair of the integers `numerator` and `prod` of
  `(double)numerator / sqrt(prod)`.
* The loop runs on a step budget; `none` says that the budget was too small.
-/

/-- What `accuracy` returns: `0.0`, or the quotient of `numerator` by the square
root of `prod`. -/
inductive Accuracy where
  | zero
  | ratio (numerator prod : Int)
deriving Repr, DecidableEq

/-- The loop `while (std::max({tp_, tn_, fp_, fn_}) > 25000)` that halves the four
counters: their values after the loop. -/
def ConfusionMatrix.halve : Nat → Int → Int → Int → Int → Option (Int × Int × Int × Int)
  | 0, tp_, tn_, fp_, fn_ =>
    if max (max (max tp_ tn_) fp_) fn_ > 25000 then none else some (tp_, tn_, fp_, fn_)
  | fuel + 1, tp_, tn_, fp_, fn_ =>
    if max (max (max tp_ tn_) fp_) fn_ > 25000 then
      ConfusionMatrix.halve fuel (Int.tdiv tp_ 2) (Int.tdiv tn_ 2) (Int.tdiv fp_ 2)
        (Int.tdiv fn_ 2)
    else some (tp_, tn_, fp_, fn_)

/-- The statement `int64_t numerator = tp_ * tn_ - fp_ * fn_`. -/
def ConfusionMatrix.numerator (tp_ tn_ fp_ fn_ : Int) : Int :=
  wrap_long (wrap_long (tp_ * tn_) - wrap_long (fp_ * fn_))

/-- The statement `int64_t prod = (tp_ + fp_) * (tp_ + fn_) * (tn_ + fp_) * (tn_ + fn_)`. -/
def ConfusionMatrix.prod (tp_ tn_ fp_ fn_ : Int) : Int :=
  wrap_long (wrap_long (wrap_long (wrap_long (tp_ + fp_) * wrap_long (tp_ + fn_)) *
    wrap_long (tn_ + fp_)) * wrap_long (tn_ + fn_))

/-- The function `ConfusionMatrix::accuracy()`. -/
def ConfusionMatrix.accuracy (fuel : Nat) (c : ConfusionMatrix) : Option Accuracy :=
  match ConfusionMatrix.halve fuel c.tp c.tn c.fp c.fn with
  | none => none
  | some (tp_, tn_, fp_, fn_) =>
    if ConfusionMatrix.prod tp_ tn_ fp_ fn_ = 0 then some .zero
    else some (.ratio (ConfusionMatrix.numerator tp_ tn_ fp_ fn_)
      (ConfusionMatrix.prod tp_ tn_ fp_ fn_))

/-! ## The construction of an equality graph (`enum_solver.cpp`)

A shallow embedding of `EqualSet::merge`, `EqualSet::connect`, `EqualSet::exclude`,
`EqualSet::detach` and of the constructor of `EqualityGraph` with its functions
`merge`, `connect` and `simplify`.

* An `EqualSet*` is the number of the set in order of creation; the heap is the
  list of the sets made so far, and the entry of a set is `none` once its
  `unique_ptr` was erased from `eqsets`, which frees the set.  The set `eqsets` is
  the list of the entries that are not `none`, and a `std::set<EqualSet*>` is a list
  without repetition in increasing order.
* A `std::set<std::string>` is a list without repetition in increasing order.
* `param_to_eqset` is the list of its entries; `none` is a null pointer, which
  `operator[]` stores for a key that is not in the map.
* `PATHFINDER_CHECK(false, "Enum solver Unsat")` prints the message and calls
  `exit(0)`: the fault `unsat`.  A read through a null pointer or through a pointer
  to a freed set is a fault, and so is a failed `assert`.
-/

/-- What ends the construction of a graph without a graph. -/
inductive GraphFault where
  | unsat
  | null_pointer
  | dangling
  | assert_failed
deriving Repr, DecidableEq

/-- Insertion into a `std::set` of pointers. -/
def ptr_set_insert : List Nat → Nat → List Nat
  | [], p => [p]
  | q :: rest, p =>
    if p < q then p :: q :: rest
    else if p = q then q :: rest
    else q :: ptr_set_insert rest p

/-- Insertion into a `std::set<std::string>`; the strings are compared character by
character. -/
def str_set_insert : List String → String → List String
  | [], p => [p]
  | q :: rest, p =>
    if p.toList < q.toList then p :: q :: rest
    else if p = q then q :: rest
    else q :: str_set_insert rest p

/-- The members `eqsets` and `param_to_eqset` of `class EqualityGraph`. -/
structure EqualityGraph where
  eqsets : List (Option EqualSet)
  param_to_eqset : List (String × Option Nat)
deriving Repr, DecidableEq

/-- A read through the pointer `p`. -/
def EqualSet.deref (eqsets : List (Option EqualSet)) (p : Option Nat) :
    Except GraphFault EqualSet :=
  match p with
  | none => .error .null_pointer
  | some i =>
    match eqsets[i]? with
    | some (some s) => .ok s
    | _ => .error .dangling

/-- The loop `for (inequal_set : other->inequal_sets)` of `EqualSet::merge`: every
neighbour of `other` forgets `other` and gets `this`. -/
def EqualSet.redirect (this other : Nat) :
    List Nat → List (Option EqualSet) → Except GraphFault (List (Option EqualSet))
  | [], eqsets => .ok eqsets
  | j :: rest, eqsets =>
    match EqualSet.deref eqsets (some j) with
    | .error e => .error e
    | .ok n =>
      EqualSet.redirect this other rest
        (eqsets.set j
          (some { n with inequal_sets := ptr_set_insert (n.inequal_sets.erase other) this }))

/-- The function `EqualSet::merge(other)` on the set at `this`. -/
def EqualSet.merge (eqsets : List (Option EqualSet)) (this other : Nat) :
    Except GraphFault (List (Option EqualSet)) :=
  match EqualSet.deref eqsets (some this), EqualSet.deref eqsets (some other) with
  | .error e, _ => .error e
  | _, .error e => .error e
  | .ok s, .ok o =>
    if s.inequal_sets.contains other || o.inequal_sets.contains this then .error .unsat
    else
      match EqualSet.redirect this other o.inequal_sets eqsets with
      | .error e => .error e
      | .ok eqsets1 =>
        match EqualSet.deref eqsets1 (some this) with
        | .error e => .error e
        | .ok s1 =>
          let candidates := s1.candidates.bit_and o.candidates
          if candidates.empty then .error .unsat
          else
            .ok (eqsets1.set this
              (some { s1 with
                params := o.params.foldl str_set_insert s1.params
                candidates := candidates
                inequal_sets := o.inequal_sets.foldl ptr_set_insert s1.inequal_sets }))

/-- The function `EqualSet::connect(other)` on the set at `this`. -/
def EqualSet.connect (eqsets : List (Option EqualSet)) (this other : Nat) :
    Except GraphFault (List (Option EqualSet)) :=
  match EqualSet.deref eqsets (some this), EqualSet.deref eqsets (some other) with
  | .error e, _ => .error e
  | _, .error e => .error e
  | .ok s, .ok o =>
    if s.params.any (fun param => o.params.contains param) ||
        o.params.any (fun param => s.params.contains param) then .error .unsat
    else
      let eqsets1 :=
        eqsets.set this (some { s with inequal_sets := ptr_set_insert s.inequal_sets other })
      match EqualSet.deref eqsets1 (some other) with
      | .error e => .error e
      | .ok o1 =>
        .ok (eqsets1.set other
          (some { o1 with inequal_sets := ptr_set_insert o1.inequal_sets this }))

/-- The function `EqualSet::has_sole_candidate()`. -/
def EqualSet.has_sole_candidate (s : EqualSet) : Bool := s.candidates.num_set_bit == 1

/-- The loop of `EqualSet::exclude()` over the neighbours of the set at `this`, whose
candidates are `candidates`. -/
def EqualSet.exclude_loop (this : Nat) (candidates : EnumArgBitVec) :
    List Nat → List (Option EqualSet) → Except GraphFault (List (Option EqualSet))
  | [], eqsets => .ok eqsets
  | j :: rest, eqsets =>
    match EqualSet.deref eqsets (some j) with
    | .error e => .error e
    | .ok n =>
      EqualSet.exclude_loop this candidates rest
        (eqsets.set j
          (some { n with
            candidates := n.candidates.exclude candidates
            inequal_sets := n.inequal_sets.erase this }))

/-- The function `EqualSet::exclude()` on the set at `this`. -/
def EqualSet.exclude (eqsets : List (Option EqualSet)) (this : Nat) :
    Except GraphFault (List (Option EqualSet)) :=
  match EqualSet.deref eqsets (some this) with
  | .error e => .error e
  | .ok s =>
    if s.candidates.num_set_bit ≠ 1 then .error .assert_failed
    else
      match EqualSet.exclude_loop this s.candidates s.inequal_sets eqsets with
      | .error e => .error e
      | .ok eqsets1 =>
        match EqualSet.deref eqsets1 (some this) with
        | .error e => .error e
        | .ok s1 => .ok (eqsets1.set this (some { s1 with inequal_sets := [] }))

/-- The function `EqualSet::detach(other)` on the set at `this`. -/
def EqualSet.detach (eqsets : List (Option EqualSet)) (this other : Nat) :
    Except GraphFault (List (Option EqualSet)) :=
  match EqualSet.deref eqsets (some this), EqualSet.deref eqsets (some other) with
  | .error e, _ => .error e
  | _, .error e => .error e
  | .ok s, .ok o =>
    if !s.candidates.exclusive o.candidates then .error .assert_failed
    else
      let eqsets1 := eqsets.set this (some { s with inequal_sets := s.inequal_sets.erase other })
      match EqualSet.deref eqsets1 (some other) with
      | .error e => .error e
      | .ok o1 =>
        .ok (eqsets1.set other (some { o1 with inequal_sets := o1.inequal_sets.erase this }))

namespace EqualityGraph

/-- The read `param_to_eqset[param]`: the pointer, and the map, which gets a null
pointer for a new key. -/
def lookup (g : EqualityGraph) (param : String) : Option Nat × EqualityGraph :=
  match g.param_to_eqset.lookup param with
  | some p => (p, g)
  | none => (none, { g with param_to_eqset := g.param_to_eqset ++ [(param, none)] })

/-- The write `param_to_eqset[param] = p`. -/
def assign (g : EqualityGraph) (param : String) (p : Option Nat) : EqualityGraph :=
  if (g.param_to_eqset.lookup param).isSome then
    { g with param_to_eqset :=
        g.param_to_eqset.map (fun e => if e.1 = param then (e.1, p) else e) }
  else { g with param_to_eqset := g.param_to_eqset ++ [(param, p)] }

/-- The function `EqualityGraph::merge(param_l, param_r)`. -/
def merge (g : EqualityGraph) (param_l param_r : String) : Except GraphFault EqualityGraph :=
  if param_l = param_r then .ok g
  else
    let l := g.lookup param_l
    let r := l.2.lookup param_r
    let eqset_l := l.1
    let eqset_r := r.1
    let g1 := r.2
    if eqset_l = eqset_r then .ok g1
    else
      match eqset_l, eqset_r with
      | some this, some other =>
        match EqualSet.merge g1.eqsets this other with
        | .error e => .error e
        | .ok eqsets1 =>
          .ok (assign { g1 with eqsets := eqsets1.set other none } param_r eqset_l)
      | _, _ => .error .null_pointer

/-- The function `EqualityGraph::connect(param_l, param_r)`. -/
def connect (g : EqualityGraph) (param_l param_r : String) : Except GraphFault EqualityGraph :=
  if param_l = param_r then .error .unsat
  else
    let l := g.lookup param_l
    let r := l.2.lookup param_r
    match l.1, r.1 with
    | some this, some other =>
      match EqualSet.connect r.2.eqsets this other with
      | .error e => .error e
      | .ok eqsets1 => .ok { r.2 with eqsets := eqsets1 }
    | _, _ => .error .null_pointer

/-- The pointers in `eqsets`, in the order of the iteration. -/
def live (eqsets : List (Option EqualSet)) : List Nat :=
  (List.range eqsets.length).filter (fun i => (eqsets.getD i none).isSome)

/-- The first loop of `simplify`. -/
def exclude_each : List Nat → List (Option EqualSet) → Except GraphFault (List (Option EqualSet))
  | [], eqsets => .ok eqsets
  | i :: rest, eqsets =>
    match EqualSet.deref eqsets (some i) with
    | .error e => .error e
    | .ok s =>
      if s.has_sole_candidate then
        match EqualSet.exclude eqsets i with
        | .error e => .error e
        | .ok eqsets1 => exclude_each rest eqsets1
      else exclude_each rest eqsets

/-- The loop `for (inequal_eqset : to_be_detached) eqset->detach(inequal_eqset)`. -/
def detach_all (this : Nat) :
    List Nat → List (Option EqualSet) → Except GraphFault (List (Option EqualSet))
  | [], eqsets => .ok eqsets
  | j :: rest, eqsets =>
    match EqualSet.detach eqsets this j with
    | .error e => .error e
    | .ok eqsets1 => detach_all this rest eqsets1

/-- The members of `to_be_detached` for the set `s`: the neighbours whose
candidates are exclusive with those of `s`. -/
def to_be_detached (eqsets : List (Option EqualSet)) (s : EqualSet) :
    List Nat → Except GraphFault (List Nat)
  | [] => .ok []
  | j :: rest =>
    match EqualSet.deref eqsets (some j), to_be_detached eqsets s rest with
    | .error e, _ => .error e
    | _, .error e => .error e
    | .ok n, .ok found =>
      if s.candidates.exclusive n.candidates then .ok (j :: found) else .ok found

/-- The second loop of `simplify`. -/
def detach_each : List Nat → List (Option EqualSet) → Except GraphFault (List (Option EqualSet))
  | [], eqsets => .ok eqsets
  | i :: rest, eqsets =>
    match EqualSet.deref eqsets (some i) with
    | .error e => .error e
    | .ok s =>
      match to_be_detached eqsets s s.inequal_sets with
      | .error e => .error e
      | .ok found =>
        match detach_all i found eqsets with
        | .error e => .error e
        | .ok eqsets1 => detach_each rest eqsets1

/-- The function `EqualityGraph::simplify()`. -/
def simplify (g : EqualityGraph) : Except GraphFault EqualityGraph :=
  match exclude_each (live g.eqsets) g.eqsets with
  | .error e => .error e
  | .ok eqsets1 =>
    match detach_each (live eqsets1) eqsets1 with
    | .error e => .error e
    | .ok eqsets2 => .ok { g with eqsets := eqsets2 }

/-- The value `const_equality_bv_map[param]`: the last vector of the array with the
name `param`, or a default-constructed vector with the indeterminate members `u`. -/
def const_equality_bv (u : Nat × Nat × Nat) (const_equality_bvs : EnumArgBitVecArray)
    (param : String) : EnumArgBitVec :=
  match const_equality_bvs.reverse.find? (fun bv => bv.name == param) with
  | some bv => bv
  | none => EnumArgBitVec.uninit u

/-- The loop of the constructor that makes one set for every parameter. -/
def make_sets (u : Nat × Nat × Nat) (const_equality_bvs : EnumArgBitVecArray) :
    List String → EqualityGraph → Except GraphFault EqualityGraph
  | [], g => .ok g
  | param :: rest, g =>
    if (g.param_to_eqset.lookup param).isSome then .error .assert_failed
    else
      make_sets u const_equality_bvs rest
        { eqsets := g.eqsets ++
            [some { params := [param], candidates := const_equality_bv u const_equality_bvs param,
                    inequal_sets := [], assignment := none, traversed := [] }]
          param_to_eqset := g.param_to_eqset ++ [(param, some g.eqsets.length)] }

/-- The loop `for (equal : equals) merge(equal.get_left(), equal.get_right())`. -/
def merge_all : List EqualityCondition → EqualityGraph → Except GraphFault EqualityGraph
  | [], g => .ok g
  | equal :: rest, g =>
    match g.merge equal.left equal.right with
    | .error e => .error e
    | .ok g1 => merge_all rest g1

/-- The loop `for (inequal : inequals) connect(inequal.get_left(), inequal.get_right())`. -/
def connect_all : List EqualityCondition → EqualityGraph → Except GraphFault EqualityGraph
  | [], g => .ok g
  | inequal :: rest, g =>
    match g.connect inequal.left inequal.right with
    | .error e => .error e
    | .ok g1 => connect_all rest g1

/-- The constructor `EqualityGraph(params, const_equality_bvs, param_equality_conds)`. -/
def create (u : Nat × Nat × Nat) (params : List String) (const_equality_bvs : EnumArgBitVecArray)
    (param_equality_conds : List EqualityCondition) : Except GraphFault EqualityGraph :=
  match make_sets u const_equality_bvs params { eqsets := [], param_to_eqset := [] } with
  | .error e => .error e
  | .ok g0 =>
    let equals := param_equality_conds.filter (fun c => c.eqtype = .ET_Equal)
    let inequals := param_equality_conds.filter (fun c => c.eqtype ≠ .ET_Equal)
    match merge_all equals g0 with
    | .error e => .error e
    | .ok g1 =>
      match connect_all inequals g1 with
      | .error e => .error e
      | .ok g2 => g2.simplify

end EqualityGraph

/-! ## The loop of `Engine::refine` for one target (`engine.cpp`)

A shallow embedding of the loop `while (true)` of `Engine::refine` and of the
writes of `Node::promote_cond` to the conditions of the target and of its sibling.

* The state of the loop is the condition of the target and, when the target has a
  sibling, the condition of the sibling; the examples and `is_pair` are fixed before
  the loop.
* The call `exit_if_time_up()`, which ends the process when the time of the whole
  run is used up, is left out.
* A failed `assert` and an exception that leaves `synthesize` end the loop with a
  fault; the loop is bounded by `fuel`, and the result counts the calls of
  `synthesize`.
-/

/-- What ends the loop of `refine` without a `break`. -/
inductive RefineFault where
  | fuel
  | exception (e : EvalError)
  | assert_failed

/-- The conditions that the loop reads and writes: `target->cond` and
`sibling.value()->cond`. -/
structure RefineTarget where
  cond : BranchCondition
  sibling : Option BranchCondition

/-- The function `Node::promote_cond()` on the target. -/
def RefineTarget.promote_cond (env : SynthEnv) (t : RefineTarget) :
    Except RefineFault RefineTarget :=
  let condtype := t.cond.get_condtype
  let cond :=
    if condtype = .CT_ENUM then NumericCondition.new env
    else if condtype = .CT_NUMERIC then NeglectCondition.new env
    else t.cond
  match t.sibling with
  | none => .ok { cond := cond, sibling := none }
  | some sibling =>
    if sibling.get_condtype = condtype then .ok { cond := cond, sibling := some cond }
    else .error .assert_failed

/-- The block `if (synthesis_status == SUCCESS)` of the loop. -/
def RefineTarget.take_new (t : RefineTarget) (res : SynthesisResult) :
    Except RefineFault RefineTarget :=
  match res.cond_new with
  | none => .error .assert_failed
  | some cond_new =>
    match t.sibling with
    | none => .ok { cond := cond_new, sibling := none }
    | some _ =>
      match res.cond_new_sibling with
      | none => .error .assert_failed
      | some cond_new_sibling => .ok { cond := cond_new, sibling := some cond_new_sibling }

/-- The two branches with `deduct_synthesis_budget` of the loop. -/
def RefineTarget.deduct (env : SynthEnv) (t : RefineTarget) (synthesis_time : Int) :
    RefineTarget :=
  match t.sibling with
  | some sibling =>
    { cond := t.cond.deduct_synthesis_budget env (synthesis_time.tdiv 2)
      sibling := some (sibling.deduct_synthesis_budget env (synthesis_time.tdiv 2)) }
  | none => { cond := t.cond.deduct_synthesis_budget env synthesis_time, sibling := none }

/-- One pass of the loop `while (true)` of `Engine::refine`: the conditions after the
pass, and whether the pass left the loop through `break`. -/
def Engine.refine_pass (env : SynthEnv) (pos_examples neg_examples : List Input)
    (t : RefineTarget) : Except RefineFault (RefineTarget × Bool) :=
  match t.cond.synthesize env t.sibling.isSome pos_examples neg_examples with
  | .error e => .error (.exception e)
  | .ok (synthesis_result, _) =>
    if synthesis_result.status = .SUCCESS ∨ synthesis_result.status = .FAIL then
      if synthesis_result.status = .SUCCESS then
        match t.take_new synthesis_result with
        | .error e => .error e
        | .ok t1 => .ok (t1.deduct env synthesis_result.synthesis_time, true)
      else .ok (t.deduct env synthesis_result.synthesis_time, true)
    else
      match t.promote_cond env with
      | .error e => .error e
      | .ok t1 => .ok (t1, false)

/-- The loop `while (true)` of `Engine::refine` for one target: the conditions at the
`break` and the number of calls of `synthesize`, counted from `calls`. -/
def Engine.refine_loop (env : SynthEnv) (pos_examples neg_examples : List Input) :
    Nat → RefineTarget → Nat → Except RefineFault (RefineTarget × Nat)
  | 0, _, _ => .error .fuel
  | fuel + 1, t, calls =>
    match Engine.refine_pass env pos_examples neg_examples t with
    | .error e => .error e
    | .ok (t1, true) => .ok (t1, calls + 1)
    | .ok (t1, false) => Engine.refine_loop env pos_examples neg_examples fuel t1 (calls + 1)

/-! ## Definitions used by the statements and proofs -/

/-- A path the tracer can produce: not empty, all PCIDs positive. -/
def ValidPath (p : ExecPath) : Prop := p ≠ [] ∧ ∀ x ∈ p, 0 < x

instance (p : ExecPath) : Decidable (ValidPath p) := by
  unfold ValidPath; infer_instance

/-- The squeezed form of a prefix: Epsilon stands for the empty path. -/
def squeeze (p : ExecPath) : ExecPath := if p = EPSILON then [] else p

mutual
/-- Shape invariant of a node that is not the root: a leaf has the Epsilon prefix
or a valid one; an internal node has a valid prefix and at least two children,
strictly sorted by `prefix[0]`, that satisfy the invariant. -/
def Node.Good : Node → Prop
  | .leaf _ p _ _ _ => p = EPSILON ∨ ValidPath p
  | .internal _ p cs =>
    ValidPath p ∧ 2 ≤ cs.length ∧ children_sorted cs = true ∧ Node.GoodList cs
/-- The invariant on every node of a list. -/
def Node.GoodList : List Node → Prop
  | [] => True
  | c :: cs => c.Good ∧ Node.GoodList cs
end

/-- Shape invariant of the root: as for other nodes, but a root leaf is not
Epsilon, and an internal root may have the Epsilon prefix, in which case no
child is an Epsilon leaf. -/
def Node.RootGood : Node → Prop
  | .leaf _ p _ _ _ => ValidPath p
  | .internal _ p cs =>
    ((p = EPSILON ∧ ∀ c ∈ cs, 0 < front c.pfx) ∨ ValidPath p) ∧ 2 ≤ cs.length ∧
      children_sorted cs = true ∧ Node.GoodList cs

/-- Shape invariant of a tree. -/
def ExecTree.Good (t : ExecTree) : Prop :=
  match t.root with
  | none => True
  | some r => r.RootGood

/-- The keys `prefix[0]` of a list of children. -/
def fronts (cs : List Node) : List Nat := cs.map (fun c => front c.pfx)

/-- The squeezed prefixes of the nodes strictly above position `q`, concatenated. -/
def Node.path_to : Node → Pos → ExecPath
  | _, [] => []
  | .leaf .., _ :: _ => []
  | .internal _ p cs, k :: rest =>
    match cs[k]? with
    | none => []
    | some c => squeeze p ++ c.path_to rest

/-- Conditions at the node `find` stops at, with the remaining path `rem`. -/
def LocalOK (m : Node) (rem : ExecPath) : Prop :=
  (rem = [] → m.is_internal = true → lookup_child_path m.children EPSILON = none) ∧
  (rem ≠ [] → ValidPath rem ∧ (m.is_leaf = true → m.pfx ≠ EPSILON) ∧
    (m.is_internal = true → ∀ k c, lookup_child m.children (front rem) = some k →
      m.children[k]? = some c → ¬ c.pfx <+: rem))

/-- The search for `arg` below `n` stops at relative position `q` with `rem` left
over: the path down to and including that node, followed by `rem`, is `arg`. -/
def Outcome (n : Node) (arg : ExecPath) (q : Pos) (rem : ExecPath) : Prop :=
  ∃ m, n.get? q = some m ∧ n.path_to q ++ squeeze m.pfx ++ rem = squeeze arg ∧ LocalOK m rem

/-- The two results of `find` on a node at `acc`: the prefix does not match and
the parent (or `nullptr` at the root) is returned, or the search stops below. -/
def FindSpec (n : Node) (acc : Pos) (arg : ExecPath) : Prop :=
  (n.find acc arg = (if acc.isEmpty then none else some acc.dropLast, arg) ∧ ¬ n.pfx <+: arg) ∨
  ∃ q rem, n.find acc arg = (some (acc ++ q), rem) ∧ Outcome n arg q rem

/-- The case in which `find` on the root returns `nullptr`. -/
def RootMiss (n : Node) (arg : ExecPath) : Prop :=
  (n.pfx = EPSILON ∧ lookup_child n.children (front arg) = none) ∨
  (n.pfx ≠ EPSILON ∧ ¬ n.pfx <+: arg)
mutual
/-- The squeezed paths of the leaves below a node, the prefix of the node
included: the paths the subtree stands for. -/
def Node.denote : Node → List ExecPath
  | .leaf _ p _ _ _ => [squeeze p]
  | .internal _ p cs => (Node.denote_list cs).map (fun x => squeeze p ++ x)
/-- The paths of a list of subtrees. -/
def Node.denote_list : List Node → List ExecPath
  | [] => []
  | c :: cs => c.denote ++ Node.denote_list cs
end

/-- The paths of the leaves below a node, without the prefix of the node. -/
def Node.rests : Node → List ExecPath
  | .leaf .. => [[]]
  | .internal _ _ cs => Node.denote_list cs

/-- The paths a tree stands for. -/
def ExecTree.denote (t : ExecTree) : List ExecPath :=
  match t.root with
  | none => []
  | some r => r.denote

/-- A local step of `insert`: the node `m` is replaced by `m1`, which holds the
new or updated leaf at relative position `rel`; `y` is the path of that leaf
counted from the prefix of `m` on. -/
structure Step (m m1 : Node) (rel : Pos) (y : ExecPath) : Prop where
  leaf : ∃ l, m1.get? rel = some l ∧ l.is_leaf = true
  path : m1.path_log rel = y
  good : m.Good → m1.Good ∧ front m1.pfx = front m.pfx
  root : m.RootGood → m1.RootGood
  den : ∀ x, x ∈ m1.denote ↔ x ∈ m.denote ∨ x = y
/-- What a call of `insert` achieves, `e` being the significant part of the
inserted path: the result `r` is a good tree whose returned position holds a
leaf with squeezed path log `e`, and the tree stands for the old paths and `e`. -/
structure InsertOK (t : ExecTree) (e : ExecPath) (r : ExecTree × Pos) : Prop where
  good : r.1.Good
  leaf : ∃ root1, r.1.root = some root1 ∧ (∃ l, root1.get? r.2 = some l ∧ l.is_leaf = true) ∧
    root1.path_log r.2 = e
  den : ∀ x, x ∈ r.1.denote ↔ x ∈ t.denote ∨ x = e
/-- The inputs `x = -(k-1), ..., x = -1, x = 0`, in ascending order. -/
def inputs_desc : Nat → List Input
  | 0 => []
  | k + 1 => input_x (-(k : Int)) :: inputs_desc k

/-- The calls `insert({1}, x = -i, 0)` for `i = 0 .. k-1`, in this order. -/
def calls_same_path (k : Nat) : List InsertCall :=
  (List.range k).map (fun i => ⟨[1], input_x (-(i : Int)), 0, 0⟩)

/-- One hundred inserts of distinct inputs on the path `{1}`, then one insert on
the path `{2}`. -/
def calls_cap : List InsertCall := calls_same_path 100 ++ [⟨[2], input_x (-100), 0, 0⟩]

/-- The tree is an internal root with prefix `p` over exactly two leaves, the
first with the Epsilon prefix, the second with prefix `rest`. -/
def ExecTree.IsEpsilonFork (t : ExecTree) (p rest : ExecPath) : Prop :=
  ∃ root a b, t.root = some root ∧ root.is_internal = true ∧ root.pfx = p ∧
    root.children = [a, b] ∧ a.is_leaf = true ∧ a.pfx = EPSILON ∧ b.is_leaf = true ∧
    b.pfx = rest

/-- The path of `n` PCIDs `1`. -/
def path_ones (n : Nat) : ExecPath := List.replicate n 1

/-- The node that takes the place of an internal node when `purge_leaf` pulls its
child `idx`: the node without that child or, when a single child is left, that
child with the prefix `rm_internal_with_only_child` gives it. -/
def purge_node (m : Node) (idx : Nat) : Node :=
  if has_two_or_more_children (m.set_children (m.children.eraseIdx idx)) then
    m.set_children (m.children.eraseIdx idx)
  else
    match m.children.eraseIdx idx with
    | [] => m.set_children (m.children.eraseIdx idx)
    | only_child :: _ =>
      if m.pfx = EPSILON then only_child.set_pfx only_child.pfx
      else if only_child.pfx = EPSILON then only_child.set_pfx m.pfx
      else only_child.set_pfx (vec_concat m.pfx only_child.pfx)

/-- The three `insert` calls of the unit test `PurgeAndReinsert`: the paths
`{1,2,3}`, `{1,2,4}`, `{1,5,6}`, each with the empty input and status `true`. -/
def calls_purge_test : List InsertCall :=
  [⟨[1, 2, 3], ⟨[], []⟩, 1, 0⟩, ⟨[1, 2, 4], ⟨[], []⟩, 1, 0⟩, ⟨[1, 5, 6], ⟨[], []⟩, 1, 0⟩]


/-! ## Definitions for the analysis of `prune` -/

/-- The address of a node with its tail (empty for an internal node). -/
def Node.tag (n : Node) : Nat × ExecPath := (n.id, ExecTree.leaf_tail n)

/-- The addresses and tails of all nodes below and including a node. -/
def Node.tags (n : Node) : List (Nat × ExecPath) := n.nodes.map Node.tag

/-- The addresses of all nodes below and including a node. -/
def Node.ids (n : Node) : List Nat := n.nodes.map Node.id

/-- The addresses of all nodes of a list of subtrees. -/
def Node.ids_list (cs : List Node) : List Nat := (Node.nodes_list cs).map Node.id

/-- Addresses distinct and below `nid`, and every tail satisfies `P`. -/
def Node.TagsOK (nid : Nat) (P : ExecPath → Prop) (n : Node) : Prop :=
  n.ids.Nodup ∧ ∀ x ∈ n.tags, x.1 < nid ∧ P x.2

/-- The nodes of a tree have distinct addresses below `next_id`, and every tail
satisfies `P`. -/
def ExecTree.TagsOK (P : ExecPath → Prop) (t : ExecTree) : Prop :=
  match t.root with
  | none => True
  | some r => r.TagsOK t.next_id P

/-- Local condition of the invariant of `prune` at one node, relative to the
addresses `E` still to be visited by the Epsilon loop, `U` in `may_need_sort` and
`O` in `may_have_only_child`: the prefix is Epsilon or valid; an internal node has
a child, has strictly sorted children unless it is in `U`, has two children unless
it is in `O`, and has an internal Epsilon child only if it is in `U` and the child
in `E`. -/
def Node.Local (E U O : Nat → Prop) (m : Node) : Prop :=
  (m.pfx = EPSILON ∨ ValidPath m.pfx) ∧
  (m.is_internal = true →
    m.children ≠ [] ∧ (children_sorted m.children = true ∨ U m.id) ∧
    (2 ≤ m.children.length ∨ O m.id) ∧
    ∀ c ∈ m.children, c.is_internal = true → c.pfx = EPSILON → U m.id ∧ E c.id)

/-- The invariant of `prune`: the local condition at every node. -/
def Node.Inv (E U O : Nat → Prop) (n : Node) : Prop := ∀ m ∈ n.nodes, m.Local E U O

/-- A child may take the place of another one: same `prefix[0]`, and no new
internal Epsilon node. -/
def Node.Replaces (c1 c : Node) : Prop :=
  front c1.pfx = front c.pfx ∧
  (c1.is_internal = true → c1.pfx = EPSILON →
    c.is_internal = true ∧ c.pfx = EPSILON ∧ c1.id = c.id)

/-- No address is in the worklist. -/
def no_id : Nat → Prop := fun _ => False

/-- Every PCID of a path is positive. -/
def AllPos (p : ExecPath) : Prop := ∀ x ∈ p, 0 < x

/-- The invariant of the loops of `prune` on a tree: distinct addresses below
`next_id`, and the invariant on the nodes. -/
def ExecTree.PInv (E U O : Nat → Prop) (t : ExecTree) : Prop :=
  match t.root with
  | none => True
  | some root => root.ids.Nodup ∧ (∀ i ∈ root.ids, i < t.next_id) ∧ root.Inv E U O

/-- The children of a new internal node after `merge` has put the node `n` under
it next to the children `base`: `n` itself as an Epsilon leaf when it is a leaf,
the children of `n` when it is internal. -/
def absorb (base : List Node) : Node → List Node
  | .leaf i _ t s e => add_child base (.leaf i EPSILON t s e)
  | .internal _ _ cs => cs.foldl add_child base

/-- What `merge` returns: a node that satisfies the invariant once its address is
in `may_need_sort`, with the `prefix[0]` of the merged nodes, made of their nodes
and at most one new one. -/
structure MergeOK (U O : Nat → Prop) (left right : Node) (nid : Nat) (m : Node × Nat) :
    Prop where
  inv : m.1.Inv no_id (fun i => U i ∨ i = m.1.id) O
  valid : m.1.is_internal = true → ValidPath m.1.pfx
  pfx : m.1.pfx = EPSILON ∨ ValidPath m.1.pfx
  front : front m.1.pfx = front left.pfx
  nodup : m.1.ids.Nodup
  ids : ∀ i ∈ m.1.ids, i ∈ left.ids ∨ i ∈ right.ids ∨ (i = nid ∧ m.2 = nid + 1)
  next : nid ≤ m.2 ∧ m.2 ≤ nid + 1

/-- The invariant of the loop of `sort` over the pulled children: `done` are the
children re-added so far, `todo` those still to come, the state is the children
rebuilt so far, `merged_nodes` and the next free address. -/
structure SortInv (U O : Nat → Prop) (nid0 : Nat) (done todo : List Node)
    (st : List Node × List Nat × Nat) : Prop where
  sorted : children_sorted st.1 = true
  inv : ∀ d ∈ st.1, d.Inv no_id (fun i => U i ∨ i ∈ st.2.1) O ∧
    (d.is_internal = true → ValidPath d.pfx)
  nodup : (Node.ids_list st.1 ++ Node.ids_list todo).Nodup
  ids : ∀ i ∈ Node.ids_list st.1, i ∈ Node.ids_list done ∨ nid0 ≤ i
  bound : ∀ i ∈ Node.ids_list st.1, i < st.2.2
  next : nid0 ≤ st.2.2
  len : (st.2.1 = [] → st.1.length = done.length) ∧ (done ≠ [] → st.1 ≠ [])

/-! ## Definitions for the comparison of `prune` with rebuilding -/

/-- The two trees stand for the same paths. -/
def ExecTree.SamePaths (t u : ExecTree) : Prop := ∀ x, x ∈ t.denote ↔ x ∈ u.denote

/-- The weight of one node in the measure that bounds the sort loop of `prune`:
twice the length of its squeezed prefix, plus one. -/
def Node.weight (n : Node) : Nat := 2 * (squeeze n.pfx).length + 1

/-- The sum of the weights of the nodes below and including a node. -/
def Node.size (n : Node) : Nat := (n.nodes.map Node.weight).sum

/-- The sum of the weights of the nodes of a list of subtrees. -/
def Node.size_list (cs : List Node) : Nat := ((Node.nodes_list cs).map Node.weight).sum

/-- The sum of the weights of the nodes of a tree. -/
def ExecTree.size (t : ExecTree) : Nat :=
  match t.root with
  | none => 0
  | some r => r.size

/-- The state after one iteration of the `while (true)` loop of `prune` that takes
`target` from `may_need_sort`: the tree, `may_need_sort` and
`may_have_only_child`. -/
def ExecTree.sort_loop_step (addr : Nat → Nat) (t : ExecTree) (target : Nat)
    (may_need_sort may_have_only_child : List Nat) : ExecTree × List Nat × List Nat :=
  match t.node_at target with
  | none => (t, may_need_sort, may_have_only_child)
  | some (pos, _) =>
    let r := t.sort addr pos
    if r.2.isEmpty then (r.1, may_need_sort, may_have_only_child)
    else
      (r.1,
        r.2.foldl
          (fun acc id =>
            match r.1.node_at id with
            | some (_, n) => if n.is_internal then ptr_insert addr acc id else acc
            | none => acc)
          may_need_sort,
        ptr_insert addr may_have_only_child target)


/-! ## Definitions for the statements about the tracer -/

/-- The number of bits a bitmap has room for: eight per allocated byte. -/
def BitMap.capacity (b : BitMap) : Nat :=
  match b.bitmap with
  | none => 0
  | some bytes => 8 * bytes.length

/-- The PCID is marked nondeterministic: the bitmap exists and its bit is set. -/
def Tracer.nd_marked (t : Tracer) (pcid : PCID) : Bool :=
  t.nondeterministic_pc_bitmap.is_available &&
    t.nondeterministic_pc_bitmap.is_set (Tracer.bit_of pcid)

/-- The tracer of the unit tests (`MockTracePC`), with `S = 10`: 100 guards, the
covered bitmap initialised, tracing on. -/
def tracer10 : Tracer := ((Tracer.create 10 []).HandleInit 100).InitCoveredBitMap.TraceOn


/-! ### Concrete signatures and inputs for the learned conditions -/

/-- Signature with one enum parameter `x` over the values 1, 2, 3
(`PathFinderEnumArg("x", 1, 3)`), a synthesizer that never answers, and a shift
beyond the width that gives 0. -/
def env_x13 : SynthEnv :=
  { SYNTHESIS_BUDGET := 4
    enum_bvs_template := [EnumArgBitVec.of_range (fun _ => 0) "x" 1 3]
    enum_params_size := 1
    ub_shift := fun _ => 0
    uninit := (0, 0, 0)
    almost_zero_ns := fun b => decide (b < 1000)
    elapsed := 0
    synthesizer := fun _ _ _ _ => none
    random_sample := fun l n => l.take n }

/-- Input whose enum parameter `x` has the value `v`. -/
def enum_x (v : Int) : Input := { enum_args := [("x", v)], numeric_args := [] }

/-- Status and confusion matrices of a synthesis result. -/
def SynthesisResult.summary (r : SynthesisResult) :
    SynthesisStatus × Option ConfusionMatrix × Option ConfusionMatrix :=
  (r.status, r.cond_new.map (fun c => c.cmat), r.cond_new_sibling.map (fun c => c.cmat))

/-- The bit vector after `set(v)` for every `v` of `vs`, in order. -/
def EnumArgBitVec.set_list (ub_shift : Nat → Nat) (bv : EnumArgBitVec) (vs : List Nat) :
    EnumArgBitVec :=
  vs.foldl (EnumArgBitVec.set ub_shift) bv

/-- Bit vector of an enum parameter `x` over the values 0, 1, 2. -/
def bv_x03 : EnumArgBitVec := EnumArgBitVec.of_range (fun _ => 0) "x" 0 3

/-- The numeric condition `x / y = 1` with the budget of the constructor. -/
def cond_x_div_y : BranchCondition :=
  { synthesis_budget := synthesis_budget_max env_x13, cmat := ConfusionMatrix.zero,
    body := .Numeric (some (.EQ (.DIV (.VAR "x") (.VAR "y")) (.CONST 1))) }

/-- Input with the numeric parameters `x` and `y`. -/
def input_xy (x y : Int) : Input := { enum_args := [], numeric_args := [("x", x), ("y", y)] }

/-- The confusion matrix with `k` more false negatives. -/
def BranchCondition.more_fn (c : BranchCondition) (k : Int) : BranchCondition :=
  { c with cmat := { c.cmat with fn := c.cmat.fn + k } }

/-- The confusion matrix with `k` more false positives. -/
def BranchCondition.more_fp (c : BranchCondition) (k : Int) : BranchCondition :=
  { c with cmat := { c.cmat with fp := c.cmat.fp + k } }


/-- Kind of the condition of the node at address `id` (`cond->get_condtype()`). -/
def Books.kind (b : Books) (id : Nat) : Option CondType :=
  (b.cond id).map BranchCondition.get_condtype

/-- All children of every internal node carry conditions of the same kind. -/
def BookedTree.SiblingsSameKind (bt : BookedTree) : Prop :=
  ∀ n ∈ bt.tree.all_nodes, ∀ c1 ∈ n.children, ∀ c2 ∈ n.children,
    bt.books.kind c1.id = bt.books.kind c2.id

instance (bt : BookedTree) : Decidable bt.SiblingsSameKind := by
  unfold BookedTree.SiblingsSameKind; infer_instance

/-- The kind after `promote_cond`: Enum, then Numeric, then Neglect. -/
def CondType.promoted : CondType → CondType
  | .CT_ENUM => .CT_NUMERIC
  | .CT_NUMERIC => .CT_NEGLECT
  | .CT_NEGLECT => .CT_NEGLECT

/-- The position `pos` holds a node that is not the root and has exactly one
sibling. -/
def ExecTree.has_one_sibling (t : ExecTree) (pos : Pos) : Bool :=
  match t.root with
  | none => false
  | some root => (root.get? pos).isSome && (root.get_sibling pos).isSome

/-- The addresses of all nodes but the root. -/
def ExecTree.non_root_ids (t : ExecTree) : List Nat :=
  match t.root with
  | none => []
  | some r => Node.ids_list r.children

/-- The kinds of the conditions of the children of the node at position `pos`. -/
def BookedTree.child_kinds (bt : BookedTree) (pos : Pos) : List (Option CondType) :=
  match bt.tree.root.bind (fun r => r.get? pos) with
  | none => []
  | some n => n.children.map (fun c => bt.books.kind c.id)

/-- Three inserts below the common prefix `{1}`. -/
def calls_12_13_14 : List InsertCall :=
  [⟨[1, 2], input_x 0, 0, 0⟩, ⟨[1, 3], input_x 1, 0, 0⟩, ⟨[1, 4], input_x 2, 0, 0⟩]

/-- Every node below the root carries a condition of the default kind. -/
def BookedTree.AllDefault (env : SynthEnv) (bt : BookedTree) : Prop :=
  ∀ x ∈ bt.tree.non_root_ids, bt.books.kind x = some (default_condtype env)


/-! ### The map `all_input` and the inputs of the leaves -/

/-- Every input of every leaf is a key of `all_input` that maps to this leaf. -/
def BookedTree.LeafInputsMapped (bt : BookedTree) : Prop :=
  ∀ l ∈ bt.tree.all_nodes, l.is_leaf = true →
    ∀ i ∈ ExecTree.leaf_inputset l, bt.books.all_input i = some l.id

/-- The keys of `all_input` are the inputs of the leaves. -/
def BookedTree.KeysAreLeafInputs (bt : BookedTree) : Prop :=
  ∀ i, (bt.books.all_input i).isSome = true ↔
    ∃ l ∈ bt.tree.all_nodes, l.is_leaf = true ∧ i ∈ ExecTree.leaf_inputset l

/-- The address and the inputs of every leaf of the tree. -/
def ExecTree.leaf_inputs (t : ExecTree) : List (Nat × List Input) :=
  (t.all_nodes.filter Node.is_leaf).map (fun l => (l.id, ExecTree.leaf_inputset l))

/-- The input `x = 0` inserted with the path `{1,2}`, then with the path `{1,3}`. -/
def calls_same_input_two_paths : List InsertCall :=
  [⟨[1, 2], input_x 0, 0, 0⟩, ⟨[1, 3], input_x 0, 0, 0⟩]

/-- The extension of a path at its front, on the first component of a triple. -/
def under (y : ExecPath) (x : ExecPath × Nat × List Input) : ExecPath × Nat × List Input :=
  (y ++ x.1, x.2)

mutual
/-- The leaves below a node: the squeezed path from the node on, the address and
the inputs of each. -/
def Node.entries : Node → List (ExecPath × Nat × List Input)
  | .leaf i p _ s _ => [(squeeze p, i, s)]
  | .internal _ p cs => (Node.entries_list cs).map (under (squeeze p))
/-- The leaves below a list of subtrees. -/
def Node.entries_list : List Node → List (ExecPath × Nat × List Input)
  | [] => []
  | c :: cs => c.entries ++ Node.entries_list cs
end

/-- The leaves below a node, their paths counted from below the prefix of the node. -/
def Node.erests : Node → List (ExecPath × Nat × List Input)
  | .leaf i _ _ s _ => [([], i, s)]
  | .internal _ _ cs => Node.entries_list cs

/-- The leaves of a tree. -/
def ExecTree.entries (t : ExecTree) : List (ExecPath × Nat × List Input) :=
  match t.root with
  | none => []
  | some r => r.entries

/-- The elements of an ascending list of inputs increase strictly. -/
def InputsSorted (s : List Input) : Prop := s.Pairwise (fun a b => Input.lt a b = true)

/-- Invariant of a tree built by the calls `calls`, with its map `all_input`: the
tree is good; `all_input` maps exactly the inputs of each leaf to the address of
the leaf; every input of a leaf was inserted with a path whose significant part is
the path of the leaf; the inputs of a leaf are in ascending order; and no two
leaves have the same path. -/
structure InputsInv (tpc : TracePC) (calls : List InsertCall) (bt : BookedTree) : Prop where
  good : bt.tree.Good
  mapped : ∀ i k, bt.books.all_input i = some k ↔
    ∃ z ∈ bt.tree.entries, z.2.1 = k ∧ i ∈ z.2.2
  origin : ∀ z ∈ bt.tree.entries, ∀ i ∈ z.2.2,
    ∃ c ∈ calls, c.input = i ∧ tpc.significant c.epath = z.1
  sorted : ∀ z ∈ bt.tree.entries, InputsSorted z.2.2
  paths : (bt.tree.entries.map Prod.fst).Nodup

/-- No input is inserted with two paths that differ in their significant parts. -/
def OnePathPerInput (tpc : TracePC) (calls : List InsertCall) : Prop :=
  ∀ c1 ∈ calls, ∀ c2 ∈ calls, c1.input = c2.input →
    tpc.significant c1.epath = tpc.significant c2.epath

instance (tpc : TracePC) (calls : List InsertCall) : Decidable (OnePathPerInput tpc calls) := by
  unfold OnePathPerInput; infer_instance

/-- The input `x = 0` inserted with the path `{1,2}`, the input `x = 1` with the path
`{1,3}`, then `x = 0` with `{1,2}` once more. -/
def calls_12_13_again : List InsertCall :=
  [⟨[1, 2], input_x 0, 0, 0⟩, ⟨[1, 3], input_x 1, 0, 0⟩, ⟨[1, 2], input_x 0, 0, 0⟩]


/-! ### The search for the middle snake, round by round -/

/-- The comparison of the snake loop at `(x, y)` succeeds: both elements are read
and they are equal. -/
def snake_match (left right : ExecPath) (left_start left_size right_start right_size : Nat)
    (back : Bool) (x y : Int) : Prop :=
  ∃ a, at_index left (if back then left_start + (left_size - x - 1) else left_start + x) = .ok a ∧
    at_index right (if back then right_start + (right_size - y - 1) else right_start + y) = .ok a

/-- The last `x` of the snake loop started at `x` on diagonal `k` (the start itself if
the loop faults). -/
def snake_end (left right : ExecPath) (left_start left_size right_start right_size : Nat)
    (back : Bool) (x k : Int) : Int :=
  match snake left right left_start left_size right_start right_size back (left_size + 1) x
    (x - k) with
  | .ok r => r.1
  | .error _ => x

/-- The start on diagonal `k` in round `d`, from the entries `g` of the round before. -/
def diag_start (g : Int → Int) (d k : Int) : Int :=
  if k = -d then g (k + 1)
  else if k ≠ d then (if g (k - 1) < g (k + 1) then g (k + 1) else g (k - 1) + 1)
  else g (k - 1) + 1

/-- The entries of one of the two vectors after `d` rounds without a return: all
zero before the first round, then on diagonal `k` the end of the snake that starts
where the round before leads. -/
def search_row (left right : ExecPath) (left_start left_size right_start right_size : Nat)
    (back : Bool) : Nat → Int → Int
  | 0, _ => 0
  | d + 1, k =>
    snake_end left right left_start left_size right_start right_size back
      (diag_start (search_row left right left_start left_size right_start right_size back d)
        d k) k

/-- The diagonals of round `d`: `-d, -d + 2, ..., d`. -/
def InRow (d : Nat) (k : Int) : Prop := -(d : Int) ≤ k ∧ k ≤ d ∧ (k + d) % 2 = 0

/-- The overlap test of the forward search in round `d` on diagonal `k` succeeds. -/
def forward_hit (left right : ExecPath) (left_start left_size right_start right_size : Nat)
    (d : Nat) (k : Int) : Prop :=
  ((left_size : Int) - right_size) % 2 = 1 ∧
  -((d : Int) - 1) ≤ (left_size : Int) - right_size - k ∧
  (left_size : Int) - right_size - k ≤ (d : Int) - 1 ∧
  search_row left right left_start left_size right_start right_size false (d + 1) k +
    search_row left right left_start left_size right_start right_size true d
      ((left_size : Int) - right_size - k) ≥ left_size

/-- The overlap test of the backward search in round `d` on diagonal `k` succeeds. -/
def backward_hit (left right : ExecPath) (left_start left_size right_start right_size : Nat)
    (d : Nat) (k : Int) : Prop :=
  ((left_size : Int) - right_size) % 2 = 0 ∧
  -(d : Int) ≤ (left_size : Int) - right_size - k ∧
  (left_size : Int) - right_size - k ≤ (d : Int) ∧
  search_row left right left_start left_size right_start right_size true (d + 1) k +
    search_row left right left_start left_size right_start right_size false (d + 1)
      ((left_size : Int) - right_size - k) ≥ left_size

/-- No overlap test succeeds in the rounds before round `d`. -/
def NoHit (left right : ExecPath) (left_start left_size right_start right_size : Nat)
    (d : Nat) : Prop :=
  ∀ d1 < d, ∀ k, InRow d1 k →
    ¬ forward_hit left right left_start left_size right_start right_size d1 k ∧
    ¬ backward_hit left right left_start left_size right_start right_size d1 k

/-- The diagonals whose entries round `d` reads: those of round `d - 1`, and diagonal
`1` in round `0`. -/
def InPrev (d : Nat) (k : Int) : Prop := (d = 0 ∧ k = 1) ∨ (1 ≤ d ∧ InRow (d - 1) k)

/-- The vector holds the entries of the search after `d` rounds on the diagonals that
round `d` reads. -/
def HoldsPrev (a : NegIndexable) (g : Nat → Int → Int) (d : Nat) : Prop :=
  ∀ k, InPrev d k → a.get k = .ok (g d k)

/-- The vector holds the entries of round `d` on the diagonals below `k`. -/
def HoldsBelow (a : NegIndexable) (g : Nat → Int → Int) (d : Nat) (k : Int) : Prop :=
  ∀ k1, InRow d k1 → k1 < k → a.get k1 = .ok (g (d + 1) k1)

/-! ### The shadows and the rounds of `CheckDiff` -/

/-- The shadow `s2` has the size of `s1` and every bit that is set in `s1`. -/
def ShadowGrows (s1 s2 : List Bool) : Prop :=
  s2.length = s1.length ∧ ∀ j : Nat, s1[j]? = some true → s2[j]? = some true

/-- Some PCID is marked nondeterministic in `b` and not in `a`. -/
def marks_new (a b : TracePC) : Bool := b.nd.any (fun pcid => !a.IsND pcid)

/-- The tracers after each pass of the loop `while (true)` of `CheckDiff(left, right)`,
in order. -/
def TracePC.CheckDiff_loop_states (left right : ExecPath) :
    Nat → TracePC → Bool → ExecPath → ExecPath → Except Fault (List TracePC)
  | 0, _, _, _, _ => .error .fuel
  | fuel + 1, tpc, is_last_iter, left_chunk, right_chunk => do
    let tpc1 ← tpc.CheckDiff_round is_last_iter left_chunk right_chunk
    let r := remove_common_prefix (tpc1.Prune left) (tpc1.Prune right)
    if r.2.2 ≥ tpc1.ExecPathSignificantMax ∨ (r.1.length = 0 ∧ r.2.1.length = 0) then
      .ok [tpc1]
    else do
      let c := tpc1.chunks r.1 r.2.1
      let rest ← TracePC.CheckDiff_loop_states left right fuel tpc1 c.1 c.2.1 c.2.2
      .ok (tpc1 :: rest)

/-- The tracers after each pass of the loop of `CheckDiff(left, right)`. -/
def TracePC.CheckDiff_states (tpc : TracePC) (left right : ExecPath) (fuel : Nat) :
    Except Fault (List TracePC) :=
  let r := remove_common_prefix left right
  if r.2.2 < tpc.ExecPathSignificantMax then
    let c := tpc.chunks r.1 r.2.1
    TracePC.CheckDiff_loop_states left right fuel tpc c.1 c.2.1 c.2.2
  else .error .assert_failed

/-- The PCIDs of the two paths that are not marked nondeterministic. -/
def unmarked (tpc : TracePC) (left right : ExecPath) : Finset PCID :=
  (left ++ right).toFinset.filter (fun pcid => tpc.IsND pcid = false)

/-- The two chunks of a pass of the loop hold unmarked PCIDs of the two paths, they
are not both empty, and they start with different PCIDs when both are not
empty. -/
def ChunksOK (tpc : TracePC) (left right left_chunk right_chunk : ExecPath) : Prop :=
  (∀ p ∈ left_chunk ++ right_chunk, p ∈ left ++ right ∧ tpc.IsND p = false) ∧
  (left_chunk ≠ [] ∨ right_chunk ≠ []) ∧
  (left_chunk ≠ [] → right_chunk ≠ [] → left_chunk[0]? ≠ right_chunk[0]?)

/-- A tracer with `S = 10` in which PCID 5 is marked. -/
def tpc_nd5 : TracePC := { max_significant_execpath_size := 10, nd := [5] }

/-- The tracer `t2` has the `S` of `t1`, every mark of `t1`, and its other marks are
PCIDs of `epath`. -/
def MarksWithin (t1 t2 : TracePC) (epath : ExecPath) : Prop :=
  t2.max_significant_execpath_size = t1.max_significant_execpath_size ∧
  (∀ p ∈ t1.nd, p ∈ t2.nd) ∧ (∀ p ∈ t2.nd, p ∈ t1.nd ∨ p ∈ epath)

/-- A tracer with `S = 10` and no marked PCID. -/
def tpc_fresh : TracePC := { max_significant_execpath_size := 10, nd := [] }

/-! ### Expressions of the equality shape, bit vectors above 31 values -/

/-- The expression `e` under `k` negations `Not(Not(.. e))`, each built by the
constructor `BoolExpr(BOOLEXPR_NOT, b)`. -/
def nest_not : Nat → BoolExpr → BoolExpr
  | 0, e => e
  | k + 1, e => .NOT (nest_not k e)

/-- The relation of an equality condition holds on an argument map: both
parameters have a value there, and the two values are equal (`ET_Equal`) or
different (`ET_Inequal`). -/
def EqualityCondition.holds (c : EqualityCondition) (args : Args) : Bool :=
  match args.lookup c.left, args.lookup c.right with
  | some x, some y => if c.eqtype = .ET_Equal then decide (x = y) else decide (x ≠ y)
  | _, _ => false

/-- The comparison `a < 0` on a parameter `a`. -/
def a_lt_0 : BoolExpr := .LT (.VAR "a") (.CONST 0)

/-- Bit vector of an enum parameter `x` over the 32 values 0, .., 31. -/
def bv_x32 : EnumArgBitVec := EnumArgBitVec.of_range (fun _ => 0) "x" 0 32

/-- Bit vector of an enum parameter `x` over the 33 values 0, .., 32. -/
def bv_x33 : EnumArgBitVec := EnumArgBitVec.of_range (fun _ => 0) "x" 0 33

/-- The condition `cond` of the node at position `pos` of the tree. -/
def BookedTree.cond_at (bt : BookedTree) (pos : Pos) : Option BranchCondition :=
  match bt.tree.root with
  | none => none
  | some root =>
    match root.get? pos with
    | none => none
    | some node => bt.books.cond node.id

/-! ### The value of an expression as the specification describes it -/

/-- The number `x` is a value of the type `int`. -/
def fits_int (x : Int) : Bool := decide (-(2 ^ 31) ≤ x ∧ x < 2 ^ 31)

/-- An absent value stands for `CondEvalException`. -/
def raised_or {α : Type} : Option α → Except EvalError α
  | some v => .ok v
  | none => .error .CondEvalException

mutual
/-- The names of the integer variables of an expression. -/
def IntExpr.vars : IntExpr → List String
  | .CONST _ => []
  | .VAR id => [id]
  | .ITE cond left right => cond.vars ++ (left.vars ++ right.vars)
  | .ADD left right => left.vars ++ right.vars
  | .SUB left right => left.vars ++ right.vars
  | .MULT left right => left.vars ++ right.vars
  | .DIV left right => left.vars ++ right.vars
  | .MOD left right => left.vars ++ right.vars
/-- The names of the integer variables of a boolean expression. -/
def BoolExpr.vars : BoolExpr → List String
  | .AND bleft bright => bleft.vars ++ bright.vars
  | .OR bleft bright => bleft.vars ++ bright.vars
  | .NOT b => b.vars
  | .EQ ileft iright => ileft.vars ++ iright.vars
  | .NEQ ileft iright => ileft.vars ++ iright.vars
  | .LT ileft iright => ileft.vars ++ iright.vars
  | .GT ileft iright => ileft.vars ++ iright.vars
  | .LTE ileft iright => ileft.vars ++ iright.vars
  | .GTE ileft iright => ileft.vars ++ iright.vars
  | .VAR _ => []
end

mutual
/-- No boolean variable (`BOOLEXPR_VAR`) occurs in the expression. -/
def IntExpr.no_bool_var : IntExpr → Bool
  | .CONST _ => true
  | .VAR _ => true
  | .ITE cond left right => cond.no_bool_var && left.no_bool_var && right.no_bool_var
  | .ADD left right => left.no_bool_var && right.no_bool_var
  | .SUB left right => left.no_bool_var && right.no_bool_var
  | .MULT left right => left.no_bool_var && right.no_bool_var
  | .DIV left right => left.no_bool_var && right.no_bool_var
  | .MOD left right => left.no_bool_var && right.no_bool_var
/-- No boolean variable occurs in the boolean expression. -/
def BoolExpr.no_bool_var : BoolExpr → Bool
  | .AND bleft bright => bleft.no_bool_var && bright.no_bool_var
  | .OR bleft bright => bleft.no_bool_var && bright.no_bool_var
  | .NOT b => b.no_bool_var
  | .EQ ileft iright => ileft.no_bool_var && iright.no_bool_var
  | .NEQ ileft iright => ileft.no_bool_var && iright.no_bool_var
  | .LT ileft iright => ileft.no_bool_var && iright.no_bool_var
  | .GT ileft iright => ileft.no_bool_var && iright.no_bool_var
  | .LTE ileft iright => ileft.no_bool_var && iright.no_bool_var
  | .GTE ileft iright => ileft.no_bool_var && iright.no_bool_var
  | .VAR _ => false
end

mutual
/-- The integer value of an expression as the specification describes it: nothing
when the evaluation reaches a Div or Mod node whose right operand has the value
zero; an Ite node has the value of the branch its condition selects and the other
branch is not looked at; Div and Mod are the truncating division and remainder of
the two operand values; sums, differences and products are those of `long`. -/
def IntExpr.value (args : Args) : IntExpr → Option Int
  | .CONST value => some value
  | .VAR id => some (args.get id)
  | .ITE cond left right =>
    match cond.truth args with
    | none => none
    | some true => left.value args
    | some false => right.value args
  | .ADD left right =>
    match left.value args, right.value args with
    | some l, some r => some (wrap_long (l + r))
    | _, _ => none
  | .SUB left right =>
    match left.value args, right.value args with
    | some l, some r => some (wrap_long (l - r))
    | _, _ => none
  | .MULT left right =>
    match left.value args, right.value args with
    | some l, some r => some (wrap_long (l * r))
    | _, _ => none
  | .DIV left right =>
    match left.value args, right.value args with
    | some l, some r => if r = 0 then none else some (Int.tdiv l r)
    | _, _ => none
  | .MOD left right =>
    match left.value args, right.value args with
    | some l, some r => if r = 0 then none else some (Int.tmod l r)
    | _, _ => none
/-- The truth value of a boolean expression as the specification describes it; a
conjunction with a false left operand and a disjunction with a true left operand
do not look at the right operand. -/
def BoolExpr.truth (args : Args) : BoolExpr → Option Bool
  | .AND bleft bright =>
    match bleft.truth args with
    | none => none
    | some false => some false
    | some true => bright.truth args
  | .OR bleft bright =>
    match bleft.truth args with
    | none => none
    | some true => some true
    | some false => bright.truth args
  | .NOT b => (b.truth args).map (fun v => !v)
  | .EQ ileft iright =>
    match ileft.value args, iright.value args with
    | some l, some r => some (decide (l = r))
    | _, _ => none
  | .NEQ ileft iright =>
    match ileft.value args, iright.value args with
    | some l, some r => some (decide (l ≠ r))
    | _, _ => none
  | .LT ileft iright =>
    match ileft.value args, iright.value args with
    | some l, some r => some (decide (l < r))
    | _, _ => none
  | .GT ileft iright =>
    match ileft.value args, iright.value args with
    | some l, some r => some (decide (l > r))
    | _, _ => none
  | .LTE ileft iright =>
    match ileft.value args, iright.value args with
    | some l, some r => some (decide (l ≤ r))
    | _, _ => none
  | .GTE ileft iright =>
    match ileft.value args, iright.value args with
    | some l, some r => some (decide (l ≥ r))
    | _, _ => none
  | .VAR _ => some false
end

/-- The two operand values of a Div or Mod node are values of `int`, and so is the
quotient when the right one is not zero. -/
def div_operands_fit (l r : Option Int) : Bool :=
  match l, r with
  | some a, some b => fits_int a && fits_int b && (decide (b = 0) || fits_int (Int.tdiv a b))
  | _, _ => true

mutual
/-- At every Div and Mod node that the evaluation reaches with both operand values,
the operand values and the quotient are values of `int`.  Operands are looked at
from left to right, up to the first one without a value. -/
def IntExpr.div_fits_int (args : Args) : IntExpr → Bool
  | .CONST _ => true
  | .VAR _ => true
  | .ITE cond left right =>
    cond.div_fits_int args &&
      (match cond.truth args with
       | none => true
       | some true => left.div_fits_int args
       | some false => right.div_fits_int args)
  | .ADD left right =>
    left.div_fits_int args && ((left.value args).isNone || right.div_fits_int args)
  | .SUB left right =>
    left.div_fits_int args && ((left.value args).isNone || right.div_fits_int args)
  | .MULT left right =>
    left.div_fits_int args && ((left.value args).isNone || right.div_fits_int args)
  | .DIV left right =>
    left.div_fits_int args && ((left.value args).isNone || right.div_fits_int args) &&
      div_operands_fit (left.value args) (right.value args)
  | .MOD left right =>
    left.div_fits_int args && ((left.value args).isNone || right.div_fits_int args) &&
      div_operands_fit (left.value args) (right.value args)
/-- The same for a boolean expression. -/
def BoolExpr.div_fits_int (args : Args) : BoolExpr → Bool
  | .AND bleft bright =>
    bleft.div_fits_int args &&
      (match bleft.truth args with
       | some true => bright.div_fits_int args
       | _ => true)
  | .OR bleft bright =>
    bleft.div_fits_int args &&
      (match bleft.truth args with
       | some false => bright.div_fits_int args
       | _ => true)
  | .NOT b => b.div_fits_int args
  | .EQ ileft iright =>
    ileft.div_fits_int args && ((ileft.value args).isNone || iright.div_fits_int args)
  | .NEQ ileft iright =>
    ileft.div_fits_int args && ((ileft.value args).isNone || iright.div_fits_int args)
  | .LT ileft iright =>
    ileft.div_fits_int args && ((ileft.value args).isNone || iright.div_fits_int args)
  | .GT ileft iright =>
    ileft.div_fits_int args && ((ileft.value args).isNone || iright.div_fits_int args)
  | .LTE ileft iright =>
    ileft.div_fits_int args && ((ileft.value args).isNone || iright.div_fits_int args)
  | .GTE ileft iright =>
    ileft.div_fits_int args && ((ileft.value args).isNone || iright.div_fits_int args)
  | .VAR _ => true
end

/-- The expression `ite(p, 1, 2)` on a boolean variable `p`. -/
def ite_on_bool_var : IntExpr := .ITE (.VAR "p") (.CONST 1) (.CONST 2)

/-- The expression `1 / (x * x)`. -/
def one_div_square : IntExpr := .DIV (.CONST 1) (.MULT (.VAR "x") (.VAR "x"))

/-- The expression `ite(y = 0, 0, x / y)`. -/
def guarded_div : IntExpr :=
  .ITE (.EQ (.VAR "y") (.CONST 0)) (.CONST 0) (.DIV (.VAR "x") (.VAR "y"))

/-! ### Registered signatures and well-formed argument maps -/

/-- One registration call of the driver. -/
inductive Registration where
  | enum_entries (name : String) (entries : List String)
  | enum_range (name : String) (start size : Nat)
  | int_param (name : String)
deriving Repr, DecidableEq

/-- The signature after one registration call. -/
def InputSignature.register (sig : InputSignature) : Registration → Option InputSignature
  | .enum_entries name entries => sig.register_enum_param_entries name entries
  | .enum_range name start size => sig.register_enum_param name start size
  | .int_param name => sig.register_int_param name

/-- The signature after the registration calls `regs` on the empty signature, or
nothing when a name is registered twice. -/
def InputSignature.register_all (regs : List Registration) : Option InputSignature :=
  regs.foldlM InputSignature.register InputSignature.empty

/-- The entry list of a `std::map`: the keys ascend strictly. -/
def Args.is_map (args : Args) : Prop := args.Pairwise (fun x y => x.1 < y.1)

instance (args : Args) : Decidable args.is_map := by
  unfold Args.is_map; infer_instance

/-- The keys of the map are exactly the names `names`. -/
def Args.has_keys (args : Args) (names : List String) : Prop :=
  ∀ k : String, k ∈ args.map Prod.fst ↔ k ∈ names

/-- The registrations of an enum parameter `e` over 0, 1, 2 and of two integer
parameters `x` and `y`. -/
def regs_e_x_y : List Registration :=
  [.int_param "x", .enum_range "e" 0 3, .int_param "y"]

/-- An input for the signature of `regs_e_x_y`. -/
def input_e_x_y : Input := { enum_args := [("e", 2)], numeric_args := [("x", -7), ("y", 5)] }

/-- The names of a signature built by registrations: every parameter name is in
`name_set` once, in the order of the registrations. -/
def InputSignature.NamesOK (sig : InputSignature) : Prop :=
  sig.name_set.Nodup ∧
    (sig.get_enum_param_names ++ sig.get_numeric_param_names).Perm sig.name_set

/-- The signature that the registrations `regs_e_x_y` build. -/
def sig_e_x_y : InputSignature :=
  { enum_params := [{ name := "e", start := 0, size := 3, entries := [] }]
    enum_param_groups := [[{ name := "e", start := 0, size := 3, entries := [] }]]
    numeric_params := [{ name := "x" }, { name := "y" }]
    name_set := ["x", "e", "y"] }

/-! ### Sequences of draws and the oracle -/

/-- A sequence of calls of `Solver::draw()` without a `clear_history()` between
them, each with its pushed formulas (none for a plain call, the random constraint
for a mutated one): the returned assignments in order. -/
def Solver.draws (check : List Formula → Option Z3Model) :
    List (List Formula) → Solver → Except SolverFault (List (Option Args))
  | [], _ => .ok []
  | pushed :: rest, s =>
    match s.draw check pushed with
    | .error e => .error e
    | .ok (r, s1) =>
      match Solver.draws check rest s1 with
      | .error e => .error e
      | .ok rs => .ok (r :: rs)

/-- A sequence of calls of `NumericSolver::draw()`, each with its flag and random
values: the returned assignments in order. -/
def NumericSolver.draws (check : List Formula → Option Z3Model) :
    List (Bool × Nat × Nat × Nat) → NumericSolver → Except SolverFault (List (Option Args))
  | [], _ => .ok []
  | (mutate, r1, r2, r3) :: rest, ns =>
    match ns.draw check mutate r1 r2 r3 with
    | .error e => .error e
    | .ok (r, ns1) =>
      match NumericSolver.draws check rest ns1 with
      | .error e => .error e
      | .ok rs => .ok (r :: rs)

/-- The oracle returns only models of the asserted formulas. -/
def SoundOracle (check : List Formula → Option Z3Model) : Prop :=
  ∀ (fs : List Formula) (m : Z3Model), check fs = some m → ∀ f ∈ fs, f m = true

/-- No model satisfies all the formulas. -/
def Unsatisfiable (fs : List Formula) : Prop := ∀ m : Z3Model, ∃ f ∈ fs, f m = false

/-- The formula looks only at the constants `names`. -/
def DependsOnly (names : List String) (f : Formula) : Prop :=
  ∀ m m2 : Z3Model, (∀ n ∈ names, m n = m2 n) → f m = f m2

/-- On formulas about the constants `names` that bound every one of them by `lo` and
`hi`, the oracle answers without a model only when there is none. -/
def CompleteOracle (check : List Formula → Option Z3Model) (names : List String)
    (lo hi : Int) : Prop :=
  ∀ fs : List Formula, (∀ f ∈ fs, DependsOnly names f) →
    (∀ m : Z3Model, (∀ f ∈ fs, f m = true) → ∀ n ∈ names, lo ≤ m n ∧ m n ≤ hi) →
    check fs = none → Unsatisfiable fs

/-- The model that gives `x` the value `v` and every other constant `0`. -/
def model_x (v : Int) : Z3Model := fun n => if n = "x" then v else 0

/-- An oracle for formulas about the one constant `x` between -64 and 64: the first
of the values -64, .., 64 that satisfies all formulas. -/
def check_x64 (fs : List Formula) : Option Z3Model :=
  (((List.range 129).map (fun (i : Nat) => (i : Int) - 64)).find?
    (fun v => fs.all (fun f => f (model_x v)))).map model_x

/-- A solver without variables and without assertions. -/
def solver_no_vars : Solver := { solver_vars := [], history := none, assertions := [] }

/-- The numeric solver of the one integer parameter `x` with the domain -64, .., 64,
without user constraints, after `reset`. -/
def numeric_solver_x64 : NumericSolver :=
  (NumericSolver.new (-64) 64 [{ name := "x" }] [] [] (fun _ => 0)).reset true

/-- The argument map that `get_args()` returns after `assign(m)`: the value of every
name in the model. -/
def assignment_of (names : List String) (m : Z3Model) : Args :=
  InputSignature.insert_values names (names.map m) []

/-- The history holds in a model; no history holds in every model. -/
def history_holds (history : Option Formula) (m : Z3Model) : Bool :=
  match history with
  | none => true
  | some h => h m

/-- The basic constraint of the one variable `name` with the domain -64, .., 64. -/
def basic_64 (name : String) : Formula :=
  SolverVar.basic_constraint (-64) 64 { name := name, concrete := 0 }

/-- State of a numeric solver with the one variable `name`, the domain -64, .., 64
and no user constraint, whose history excludes exactly the values `seen`. -/
structure OneVarState (name : String) (ns : NumericSolver) (seen : List Int) : Prop where
  vars : ns.solver.solver_vars.map (fun v => v.name) = [name]
  assertions : ns.solver.assertions = [basic_64 name]
  history : ∀ m : Z3Model, history_holds ns.solver.history m = true ↔ m name ∉ seen

/-- The numeric solver when no integer parameter is declared, after `reset`. -/
def numeric_solver_no_params : NumericSolver :=
  (NumericSolver.new (-64) 64 [] [] [] (fun _ => 0)).reset true

/-! ### Functions that print and parse back -/

/-- The name is an identifier: a letter or an underscore, then letters, digits and
underscores. -/
def is_identifier (s : String) : Bool :=
  match s.toList with
  | [] => false
  | c :: rest =>
    (is_alphabet c || c == '_') && rest.all (fun d => is_alphanumeric d || d == '_')

mutual
/-- The integer term is built from non-negative literals of the type `int`,
identifiers, `+`, `-`, `*`, `/`, `%` and `ite` over a printable condition. -/
def IntExpr.printable : IntExpr → Bool
  | .CONST value => decide (0 ≤ value) && decide (value < 2 ^ 31)
  | .VAR id => is_identifier id
  | .ITE cond left right => cond.printable && left.printable && right.printable
  | .ADD left right => left.printable && right.printable
  | .SUB left right => left.printable && right.printable
  | .MULT left right => left.printable && right.printable
  | .DIV left right => left.printable && right.printable
  | .MOD left right => left.printable && right.printable
/-- The boolean expression is built from the comparisons `=`, `<`, `>`, `<=`, `>=` of
printable integer terms and from `and`, `or`, `not`, and no operand of an `and`
or `or` is the expression `1 = 1` or the expression `1 != 1`. -/
def BoolExpr.printable : BoolExpr → Bool
  | .AND bleft bright =>
    !bleft.struct_eq BoolExpr.true_expr && !bright.struct_eq BoolExpr.true_expr &&
      !bleft.struct_eq BoolExpr.false_expr && !bright.struct_eq BoolExpr.false_expr &&
      bleft.printable && bright.printable
  | .OR bleft bright =>
    !bleft.struct_eq BoolExpr.true_expr && !bright.struct_eq BoolExpr.true_expr &&
      !bleft.struct_eq BoolExpr.false_expr && !bright.struct_eq BoolExpr.false_expr &&
      bleft.printable && bright.printable
  | .NOT b => b.printable
  | .EQ ileft iright => ileft.printable && iright.printable
  | .NEQ _ _ => false
  | .LT ileft iright => ileft.printable && iright.printable
  | .GT ileft iright => ileft.printable && iright.printable
  | .LTE ileft iright => ileft.printable && iright.printable
  | .GTE ileft iright => ileft.printable && iright.printable
  | .VAR _ => false
end

/-- The name and the parameters of the function are identifiers and the body is
printable. -/
def FunSynthesized.printable (f : FunSynthesized) : Bool :=
  is_identifier f.name && f.params.all (fun p => is_identifier p.id) && f.body.printable

/-- The character after an integer term ends a literal and an identifier: it is no
letter, no digit and no underscore. -/
def ends_token (rest : List Char) : Prop :=
  is_alphanumeric (cur rest) = false ∧ cur rest ≠ '_'

/-- The function `f(x, y_1) = x < 10 and not (ite(x >= y_1, x + 1, y_1 % 3) = 0)`. -/
def fun_example : FunSynthesized :=
  { name := "f"
    params := [⟨"x"⟩, ⟨"y_1"⟩]
    body :=
      .AND (.LT (.VAR "x") (.CONST 10))
        (.NOT (.EQ (.ITE (.GTE (.VAR "x") (.VAR "y_1")) (.ADD (.VAR "x") (.CONST 1))
          (.MOD (.VAR "y_1") (.CONST 3))) (.CONST 0))) }


/-! ### Insertion orders -/

/-- The calls of `calls_12_13` in the other order. -/
def calls_13_12 : List InsertCall := [⟨[1, 3], input_x 1, 0, 0⟩, ⟨[1, 2], input_x 0, 0, 0⟩]

/-! ### A function with a negative literal -/

/-- The function `f(x) = (x = -3)`. -/
def fun_x_eq_minus_3 : FunSynthesized :=
  { name := "f", params := [⟨"x"⟩], body := .EQ (.VAR "x") (.CONST (-3)) }

/-- The function `f(x) = (x = 3)`. -/
def fun_x_eq_3 : FunSynthesized :=
  { name := "f", params := [⟨"x"⟩], body := .EQ (.VAR "x") (.CONST 3) }

/-! ### Edit scripts -/

/-- The PCIDs of a path at the positions whose shadow bit is not set. -/
def unshadowed (epath : ExecPath) (shadow : List Bool) : ExecPath :=
  ((epath.zip shadow).filter (fun e => !e.2)).map Prod.fst

/-- The length of a longest common subsequence of `a :: l` and a path, from the
lengths `f` for `l`. -/
def lcs_length_step (a : PCID) (f : ExecPath → Nat) : ExecPath → Nat
  | [] => 0
  | b :: r => if a = b then f r + 1 else max (f (b :: r)) (lcs_length_step a f r)

/-- The length of a longest common subsequence of two paths. -/
def lcs_length : ExecPath → ExecPath → Nat
  | [], _ => 0
  | a :: l, r => lcs_length_step a (lcs_length l) r

/-- The number of insertions and deletions that turn one path into the other. -/
def edit_distance (left right : ExecPath) : Nat :=
  left.length + right.length - 2 * lcs_length left right

/-! ### Solutions of an equality graph -/

/-- The values that a candidate vector holds. -/
def EnumArgBitVec.values (bv : EnumArgBitVec) : List Nat :=
  bv.bitfield_to_idx.map (fun idx => bv.start + idx)

/-- An assignment of one value to every set of the graph: every set gets one of
its candidates and two sets joined by an inequality edge get different values. -/
def EqualityGraph.is_solution (g : List EqualSet) (value : List Nat) : Bool :=
  decide (value.length = g.length) &&
  (List.range g.length).all (fun i =>
    match g[i]?, value[i]? with
    | some s, some v =>
      s.candidates.values.contains v &&
        s.inequal_sets.all (fun j => value[j]? != some v)
    | _, _ => false)

/-- Bit vector of the enum parameter `name` over the values 0, .., 32 that holds
exactly the values 0 and 1 (the bits `33 - 1 - 0 = 32` and `33 - 1 - 1 = 31`): the
negation of the vector that holds the values 2, .., 32. -/
def bv33_0_1 (name : String) : EnumArgBitVec :=
  { EnumArgBitVec.of_range (fun _ => 0) name 0 33 with bitvec := 2 ^ 32 + 2 ^ 31 }

/-- Equality graph with the sets `{x}` and `{y}` joined by an inequality edge; the
candidates of both sets are the values 0 and 1. -/
def graph_x33_y33 : List EqualSet :=
  [{ params := ["x"], candidates := bv33_0_1 "x", inequal_sets := [1], assignment := none,
     traversed := [] },
   { params := ["y"], candidates := bv33_0_1 "y", inequal_sets := [0], assignment := none,
     traversed := [] }]

/-! ### A path longer than the significant length -/

/-- The calls `insert({1}, x = 0, 0)` and `insert({2}, x = 1, 0)`. -/
def calls_1_2 : List InsertCall := [⟨[1], input_x 0, 0, 0⟩, ⟨[2], input_x 1, 0, 0⟩]

/-- The path of eleven PCIDs 3. -/
def path_eleven_3 : ExecPath := List.replicate 11 3

/-! ### The value of a solver term -/

mutual
/-- The value of an integer term under the integer semantics of SMT-LIB (theory
`Ints`) in the assignment `m`: `div` and `mod` by a divisor `y ≠ 0` are the quotient
and the remainder with `x = y * div x y + mod x y` and `0 ≤ mod x y < |y|`. -/
def Z3Int.smt_value (m : String → Int) : Z3Int → Int
  | .int_val value => value
  | .int_const name => m name
  | .ite c t e => if c.smt_value m then t.smt_value m else e.smt_value m
  | .add a b => a.smt_value m + b.smt_value m
  | .sub a b => a.smt_value m - b.smt_value m
  | .mul a b => a.smt_value m * b.smt_value m
  | .div a b => Int.ediv (a.smt_value m) (b.smt_value m)
  | .mod a b => Int.emod (a.smt_value m) (b.smt_value m)
/-- The value of a boolean term under the semantics of SMT-LIB. -/
def Z3Bool.smt_value (m : String → Int) : Z3Bool → Bool
  | .and a b => a.smt_value m && b.smt_value m
  | .or a b => a.smt_value m || b.smt_value m
  | .not a => !a.smt_value m
  | .eq a b => decide (a.smt_value m = b.smt_value m)
  | .ne a b => decide (a.smt_value m ≠ b.smt_value m)
  | .lt a b => decide (a.smt_value m < b.smt_value m)
  | .gt a b => decide (a.smt_value m > b.smt_value m)
  | .le a b => decide (a.smt_value m ≤ b.smt_value m)
  | .ge a b => decide (a.smt_value m ≥ b.smt_value m)
end

/-- The assignment of the solver that gives every variable its value in `args`. -/
def Args.as_model (args : Args) : String → Int := fun name => args.get name

/-- The term `x / 2`. -/
def x_div_2 : IntExpr := .DIV (.VAR "x") (.CONST 2)

/-- The term `x % 2`. -/
def x_mod_2 : IntExpr := .MOD (.VAR "x") (.CONST 2)

/-- The condition `x % 2 = 1`. -/
def x_is_odd : BoolExpr := .EQ x_mod_2 (.CONST 1)

/-! ### An equality on a parameter that was merged away -/

/-- The bit vector of the enum parameter `name` over the values 0, 1, 2 that holds
all three values. -/
def bv3_full (name : String) : EnumArgBitVec :=
  (EnumArgBitVec.of_range (fun _ => 0) name 0 3).set_all

/-- The equalities `X == Y` and `Z == X`, in this order. -/
def conds_xy_zx : List EqualityCondition :=
  [⟨.ET_Equal, "X", "Y"⟩, ⟨.ET_Equal, "Z", "X"⟩]

/-! ### The budget of a synthesis and the loop of `refine` -/

/-- The environment `env_x13` with the option `--synthesis_budget 9223372800`. -/
def env_budget_wraps : SynthEnv := { env_x13 with SYNTHESIS_BUDGET := 9223372800 }

/-- A target without sibling whose condition is `cond`. -/
def single_target (cond : BranchCondition) : RefineTarget := { cond := cond, sibling := none }

/-- No call of `synthesize` on the condition gives up. -/
def NoGiveup (env : SynthEnv) (pos_examples neg_examples : List Input) (c : BranchCondition) :
    Prop :=
  ∀ is_pair res runs, c.synthesize env is_pair pos_examples neg_examples = .ok (res, runs) →
    res.status ≠ .GIVEUP

/-! ### A reinserted path beyond the significant length -/

/-- The calls `insert({1})`, `insert({2})`, `insert({4})`. -/
def calls_1_2_4 : List InsertCall :=
  [⟨[1], input_x 0, 0, 0⟩, ⟨[2], input_x 1, 0, 0⟩, ⟨[4], input_x 2, 0, 0⟩]

/-! ### Edit scripts inside the shadows -/

/-- The part of a vector that starts at `start` and has `size` elements. -/
def span {α : Type} (v : List α) (start size : Nat) : List α := (v.drop start).take size

/-- The part of `a` from `a_start` has one element more than the part of `b` from
`b_start`, which has `n` elements: the two parts agree before position `p`, differ
at `p` unless `p = n`, and from `p` on the part of `b` is the part of `a` moved by
one position. -/
def OneInserted (a b : ExecPath) (a_start b_start n p : Nat) : Prop :=
  p ≤ n ∧ (∀ j, j < p → a[a_start + j]? = b[b_start + j]?) ∧
  (p < n → a[a_start + p]? ≠ b[b_start + p]?) ∧
  ∀ j, p ≤ j → j < n → a[a_start + j + 1]? = b[b_start + j]?

/-- The marks `el` and `er` are an edit script between the part of `left` from `ls`
with `N` elements and the part of `right` from `rs` with `M` elements (without the
marked positions the two parts are equal), every mark is a set bit of the shadows
`sl` and `sr`, and the shadows have at most twice as many set bits in the two parts
as there are marks. -/
def ScriptIn (left right : ExecPath) (ls N rs M : Nat) (sl sr el er : List Bool) : Prop :=
  el.length = N ∧ er.length = M ∧
  (∀ j, j < N → el[j]? = some true → sl[ls + j]? = some true) ∧
  (∀ j, j < M → er[j]? = some true → sr[rs + j]? = some true) ∧
  unshadowed (span left ls N) el = unshadowed (span right rs M) er ∧
  (span sl ls N).count true + (span sr rs M).count true ≤
    2 * (el.count true + er.count true)

/-- An edit script with `d` deletions and insertions between two sequences: the
elements that are kept are the same in both, in the same order. -/
inductive Script {α : Type} : List α → List α → Nat → Prop
  | nil : Script [] [] 0
  | keep (c : α) {a b : List α} {d : Nat} : Script a b d → Script (c :: a) (c :: b) d
  | del (c : α) {a b : List α} {d : Nat} : Script a b d → Script (c :: a) b (d + 1)
  | ins (c : α) {a b : List α} {d : Nat} : Script a b d → Script a (c :: b) (d + 1)

/-- An element of a part, or a marker of a position beyond the part; the markers of
the two sides differ. -/
abbrev Ext := PCID ⊕ (Bool × Nat)

/-- The element that a search reads at coordinate `j` of the part of `v` from `start`
with `size` elements: the forward search reads from the start of the part, the
backward search from its end; beyond the part stands a marker of the side. -/
def ext_elem (v : ExecPath) (start size : Nat) (side back : Bool) (j : Nat) : Ext :=
  if j < size then .inl (v.getD (start + (if back then size - 1 - j else j)) 0)
  else .inr (side, j)

/-- The elements at the coordinates below `x`, the last one first. -/
def ext_part (v : ExecPath) (start size : Nat) (side back : Bool) : Nat → List Ext
  | 0 => []
  | x + 1 => ext_elem v start size side back x :: ext_part v start size side back x

/-! ## Lemmas -/


/-! ## Facts about paths -/

theorem common_prefix_length_le_left (p e : ExecPath) : common_prefix_length p e ≤ p.length := by
  induction p generalizing e with
  | nil => simp [common_prefix_length]
  | cons a l ih =>
    cases e with
    | nil => simp [common_prefix_length]
    | cons b r =>
      by_cases h : a = b
      · simp [common_prefix_length, h, ih r]
      · simp [common_prefix_length, h]

theorem common_prefix_length_le_right (p e : ExecPath) : common_prefix_length p e ≤ e.length := by
  induction p generalizing e with
  | nil => simp [common_prefix_length]
  | cons a l ih =>
    cases e with
    | nil => simp [common_prefix_length]
    | cons b r =>
      by_cases h : a = b
      · simp [common_prefix_length, h, ih r]
      · simp [common_prefix_length, h]

theorem take_common_prefix_length (p e : ExecPath) :
    p.take (common_prefix_length p e) = e.take (common_prefix_length p e) := by
  induction p generalizing e with
  | nil => simp [common_prefix_length]
  | cons a l ih =>
    cases e with
    | nil => simp [common_prefix_length]
    | cons b r =>
      by_cases h : a = b
      · simp [common_prefix_length, h, ih r]
      · simp [common_prefix_length, h]

theorem common_prefix_length_append (p r : ExecPath) :
    common_prefix_length p (p ++ r) = p.length := by
  induction p with
  | nil => cases r <;> simp [common_prefix_length]
  | cons a l ih => simp [common_prefix_length, ih]

theorem cpl_of_isPrefix {p e : ExecPath} (h : p <+: e) :
    common_prefix_length p e = p.length := by
  obtain ⟨r, rfl⟩ := h
  exact common_prefix_length_append p r

theorem take_common_prefix_length_eq_iff (p e : ExecPath) :
    p.take (common_prefix_length p e) = p ↔ p <+: e := by
  constructor
  · intro h
    have h2 := take_common_prefix_length p e
    rw [h] at h2
    rw [h2]
    exact List.take_prefix _ _
  · intro h
    rw [cpl_of_isPrefix h, List.take_length]

theorem subvec_len_zero (p : ExecPath) (n : Nat) : subvec_len p 0 n = p.take n := by
  simp [subvec_len]

/-- At the end of the common prefix two paths differ, when both go on. -/
theorem common_prefix_length_diverge (p e : ExecPath) :
    (p.drop (common_prefix_length p e)) = [] ∨ (e.drop (common_prefix_length p e)) = [] ∨
    (p.drop (common_prefix_length p e)).headD 0 ≠ (e.drop (common_prefix_length p e)).headD 0 := by
  induction p generalizing e with
  | nil => left; simp
  | cons a l ih =>
    cases e with
    | nil => right; left; simp
    | cons b r =>
      by_cases h : a = b
      · simpa [common_prefix_length, h] using ih r
      · right; right; simpa [common_prefix_length, h] using h

theorem common_prefix_length_pos {p e : ExecPath} (hp : p ≠ []) (he : e ≠ [])
    (h : front p = front e) : 0 < common_prefix_length p e := by
  cases p with
  | nil => exact absurd rfl hp
  | cons a l =>
    cases e with
    | nil => exact absurd rfl he
    | cons b r =>
      simp [front] at h
      simp [common_prefix_length, h]


/-! ## The shape invariant -/

theorem Node.goodList_iff (cs : List Node) : Node.GoodList cs ↔ ∀ c ∈ cs, c.Good := by
  induction cs with
  | nil => simp [Node.GoodList]
  | cons c cs ih => simp [Node.GoodList, ih]

/-- Induction over nodes, with the hypothesis for every child. -/
theorem Node.induct {P : Node → Prop}
    (hleaf : ∀ i p t s e, P (.leaf i p t s e))
    (hint : ∀ i p cs, (∀ c ∈ cs, P c) → P (.internal i p cs)) : ∀ n, P n := by
  intro n
  refine Node.rec (motive_1 := P) (motive_2 := fun cs => ∀ c ∈ cs, P c)
    hleaf (fun i p cs ih => hint i p cs ih) ?_ ?_ n
  · intro c hc; cases hc
  · intro hd tl h1 h2 c hc
    rcases List.mem_cons.mp hc with h | h
    · exact h ▸ h1
    · exact h2 c h

theorem validPath_ne_epsilon {p : ExecPath} (h : ValidPath p) : p ≠ EPSILON := by
  intro hp
  have := h.2 0 (by simp [hp, EPSILON, EpsilonPCID])
  exact absurd this (by decide)

theorem validPath_front_pos {p : ExecPath} (h : ValidPath p) : 0 < front p := by
  cases p with
  | nil => exact absurd rfl h.1
  | cons a l => exact h.2 a (by simp)

theorem Node.Good.pfx_ne_nil {n : Node} (h : n.Good) : n.pfx ≠ [] := by
  cases n with
  | leaf i p t s e =>
    simp only [Node.Good] at h
    rcases h with h | h
    · simp [Node.pfx, h, EPSILON]
    · exact h.1
  | internal i p cs =>
    simp only [Node.Good] at h
    exact h.1.1

theorem Node.Good.internal_ne_epsilon {n : Node} (h : n.Good) (hi : n.is_internal = true) :
    n.pfx ≠ EPSILON := by
  cases n with
  | leaf i p t s e => simp [Node.is_internal] at hi
  | internal i p cs =>
    simp only [Node.Good] at h
    exact validPath_ne_epsilon h.1

theorem Node.RootGood.root_pfx_ne_nil {n : Node} (h : n.RootGood) : n.pfx ≠ [] := by
  cases n with
  | leaf i p t s e => exact h.1
  | internal i p cs =>
    simp only [Node.RootGood] at h
    rcases h.1 with h1 | h1
    · simp [Node.pfx, h1.1, EPSILON]
    · exact h1.1

/-- What the four checks of `is_sorted` find on the nodes below a good node. -/
theorem Node.Good.nodes_ok {n : Node} : n.Good → ∀ m ∈ n.nodes,
    m.pfx ≠ [] ∧ ¬ (m.is_internal = true ∧ m.pfx = EPSILON) ∧
    (m.is_internal = true → children_sorted m.children = true ∧ 2 ≤ m.children.length) := by
  induction n using Node.induct with
  | hleaf i p t s e =>
    intro h m hm
    simp only [Node.nodes, List.mem_singleton] at hm
    subst hm
    exact ⟨h.pfx_ne_nil, by simp [Node.is_internal], by simp [Node.is_internal]⟩
  | hint i p cs ih =>
    intro h m hm
    simp only [Node.nodes, List.mem_cons] at hm
    rcases hm with hm | hm
    · subst hm
      refine ⟨h.pfx_ne_nil, fun hh => h.internal_ne_epsilon rfl hh.2, fun _ => ?_⟩
      simp only [Node.Good] at h
      exact ⟨h.2.2.1, h.2.1⟩
    · simp only [Node.Good] at h
      have hg := (Node.goodList_iff cs).mp h.2.2.2
      have : ∀ cs0 : List Node, (∀ c ∈ cs0, c ∈ cs) → m ∈ Node.nodes_list cs0 →
          ∃ c ∈ cs0, m ∈ c.nodes := by
        intro cs0
        induction cs0 with
        | nil => intro _ hm0; simp [Node.nodes_list] at hm0
        | cons c0 r0 ih0 =>
          intro hsub hm0
          simp only [Node.nodes_list, List.mem_append] at hm0
          rcases hm0 with hm0 | hm0
          · exact ⟨c0, by simp, hm0⟩
          · obtain ⟨c, hc, hmc⟩ := ih0 (fun c hc => hsub c (by simp [hc])) hm0
            exact ⟨c, by simp [hc], hmc⟩
      obtain ⟨c, hc, hmc⟩ := this cs (fun c hc => hc) hm
      exact ih c hc (hg c hc) m hmc

theorem Node.mem_nodes_list {m : Node} {cs : List Node} :
    m ∈ Node.nodes_list cs ↔ ∃ c ∈ cs, m ∈ c.nodes := by
  induction cs with
  | nil => simp [Node.nodes_list]
  | cons c0 r0 ih => simp [Node.nodes_list, ih]

/-- A tree with the shape invariant passes `is_sorted`. -/
theorem ExecTree.Good.passes_is_sorted {t : ExecTree} (h : t.Good) : t.is_sorted = true := by
  unfold ExecTree.Good at h
  unfold ExecTree.is_sorted ExecTree.no_empty_prefixed_node ExecTree.no_epsilon_internal_node
    ExecTree.sorted ExecTree.no_only_child_internal_node ExecTree.all_nodes
    ExecTree.non_root_nodes
  cases hr : t.root with
  | none => simp
  | some r =>
    rw [hr] at h
    simp only [Bool.and_eq_true, List.all_eq_true]
    cases r with
    | leaf i p t s e =>
      have hp : p ≠ [] := h.1
      simp [Node.nodes, Node.pfx, Node.is_internal, Node.children, Node.nodes_list, hp]
    | internal i p cs =>
      simp only [Node.RootGood] at h
      have hg := (Node.goodList_iff cs).mp h.2.2.2
      have hsub : ∀ m ∈ Node.nodes_list cs,
          m.pfx ≠ [] ∧ ¬ (m.is_internal = true ∧ m.pfx = EPSILON) ∧
          (m.is_internal = true → children_sorted m.children = true ∧ 2 ≤ m.children.length) := by
        intro m hm
        obtain ⟨c, hc, hmc⟩ := Node.mem_nodes_list.mp hm
        exact (hg c hc).nodes_ok m hmc
      have hp : p ≠ [] := by
        rcases h.1 with h1 | h1
        · simp [h1.1, EPSILON]
        · exact h1.1
      refine ⟨⟨⟨?_, ?_⟩, ?_⟩, ?_⟩
      · intro m hm
        simp only [Node.nodes, List.mem_cons] at hm
        rcases hm with hm | hm
        · subst hm; simpa [Node.pfx] using hp
        · simpa using (hsub m hm).1
      · intro m hm
        simp only [Node.children] at hm
        have := (hsub m hm).2.1
        simp only [Bool.not_eq_true', Bool.and_eq_false_imp, decide_eq_false_iff_not]
        intro hi hpe
        exact this ⟨hi, hpe⟩
      · intro m hm
        simp only [Node.nodes, List.mem_cons] at hm
        rcases hm with hm | hm
        · subst hm; simp [Node.is_internal, Node.children, h.2.2.1]
        · cases hmi : m.is_internal with
          | false => simp
          | true => simpa [hmi] using ((hsub m hm).2.2 hmi).1
      · intro m hm
        simp only [Node.nodes, List.mem_cons] at hm
        rcases hm with hm | hm
        · subst hm; simp [Node.is_internal, has_two_or_more_children, Node.children, h.2.1]
        · cases hmi : m.is_internal with
          | false => simp
          | true => simpa [hmi, has_two_or_more_children] using ((hsub m hm).2.2 hmi).2


/-! ## Children lists -/

theorem children_sorted_iff (cs : List Node) :
    children_sorted cs = true ↔ (fronts cs).Pairwise (· < ·) := by
  induction cs with
  | nil => simp [children_sorted, fronts]
  | cons a r ih =>
    cases r with
    | nil => simp [children_sorted, fronts]
    | cons b r2 =>
      simp only [children_sorted, Bool.and_eq_true, decide_eq_true_eq, ih]
      simp only [fronts, List.map_cons, List.pairwise_cons, List.mem_cons, List.mem_map,
        forall_eq_or_imp]
      constructor
      · rintro ⟨hab, hb, hr⟩
        refine ⟨⟨hab, ?_⟩, hb, hr⟩
        rintro x ⟨c, hc, rfl⟩
        exact lt_trans hab (hb _ ⟨c, hc, rfl⟩)
      · rintro ⟨⟨hab, _⟩, hb, hr⟩
        exact ⟨hab, hb, hr⟩

theorem children_sorted_cons {a : Node} {r : List Node} :
    children_sorted (a :: r) = true ↔
      (∀ c ∈ r, front a.pfx < front c.pfx) ∧ children_sorted r = true := by
  rw [children_sorted_iff, children_sorted_iff]
  simp [fronts]

theorem lookup_child_none {cs : List Node} {x : PCID} :
    lookup_child cs x = none ↔ ∀ c ∈ cs, front c.pfx ≠ x := by
  induction cs with
  | nil => simp [lookup_child]
  | cons c r ih =>
    by_cases h : front c.pfx = x
    · simp [lookup_child, h]
    · simp [lookup_child, h, ih]

theorem lookup_child_some {cs : List Node} {x : PCID} {k : Nat} :
    lookup_child cs x = some k →
      ∃ c, cs[k]? = some c ∧ front c.pfx = x ∧ ∀ c0 ∈ cs.take k, front c0.pfx ≠ x := by
  induction cs generalizing k with
  | nil => simp [lookup_child]
  | cons c r ih =>
    by_cases h : front c.pfx = x
    · simp only [lookup_child, h, if_true, Option.some.injEq]
      rintro rfl
      exact ⟨c, by simp, h, by simp⟩
    · simp only [lookup_child, h, if_false, Option.map_eq_some']
      rintro ⟨j, hj, rfl⟩
      obtain ⟨c1, h1, h2, h3⟩ := ih hj
      refine ⟨c1, by simpa using h1, h2, ?_⟩
      intro c0 hc0
      simp only [List.take_succ_cons, List.mem_cons] at hc0
      rcases hc0 with rfl | hc0
      · exact h
      · exact h3 c0 hc0

theorem lookup_child_path_none {cs : List Node} {p : ExecPath} :
    lookup_child_path cs p = none ↔ ∀ c ∈ cs, c.pfx ≠ p := by
  induction cs with
  | nil => simp [lookup_child_path]
  | cons c r ih =>
    by_cases h : c.pfx = p
    · simp [lookup_child_path, h]
    · simp [lookup_child_path, h, ih]

theorem lookup_child_path_some {cs : List Node} {p : ExecPath} {k : Nat} :
    lookup_child_path cs p = some k →
      ∃ c, cs[k]? = some c ∧ c.pfx = p ∧ ∀ c0 ∈ cs.take k, c0.pfx ≠ p := by
  induction cs generalizing k with
  | nil => simp [lookup_child_path]
  | cons c r ih =>
    by_cases h : c.pfx = p
    · simp only [lookup_child_path, h, if_true, Option.some.injEq]
      rintro rfl
      exact ⟨c, by simp, h, by simp⟩
    · simp only [lookup_child_path, h, if_false, Option.map_eq_some']
      rintro ⟨j, hj, rfl⟩
      obtain ⟨c1, h1, h2, h3⟩ := ih hj
      refine ⟨c1, by simpa using h1, h2, ?_⟩
      intro c0 hc0
      simp only [List.take_succ_cons, List.mem_cons] at hc0
      rcases hc0 with rfl | hc0
      · exact h
      · exact h3 c0 hc0

/-- In a sorted list the child at index `k` is the one `lookup_child` finds for
its key. -/
theorem lookup_child_of_sorted {cs : List Node} (hs : children_sorted cs = true) {k : Nat}
    {c : Node} (hk : cs[k]? = some c) : lookup_child cs (front c.pfx) = some k := by
  induction cs generalizing k with
  | nil => simp at hk
  | cons a r ih =>
    rw [children_sorted_cons] at hs
    cases k with
    | zero =>
      simp at hk
      subst hk
      simp [lookup_child]
    | succ j =>
      simp at hk
      have hc : c ∈ r := List.getElem?_mem hk
      have hne : front a.pfx ≠ front c.pfx := ne_of_lt (hs.1 c hc)
      simp [lookup_child, hne, ih hs.2 hk]

/-- In a sorted list a child with the full prefix `p` is the one `lookup_child_path`
finds. -/
theorem lookup_child_path_of_sorted {cs : List Node} (hs : children_sorted cs = true) {k : Nat}
    {c : Node} (hk : cs[k]? = some c) : lookup_child_path cs c.pfx = some k := by
  induction cs generalizing k with
  | nil => simp at hk
  | cons a r ih =>
    rw [children_sorted_cons] at hs
    cases k with
    | zero =>
      simp at hk
      subst hk
      simp [lookup_child_path]
    | succ j =>
      simp at hk
      have hc : c ∈ r := List.getElem?_mem hk
      have hne : a.pfx ≠ c.pfx := fun h => (ne_of_lt (hs.1 c hc)) (by rw [h])
      simp [lookup_child_path, hne, ih hs.2 hk]

theorem find_child_inl (cs : List Node) (idx : Nat) (x : PCID) (acc : Pos) (arg : ExecPath)
    (dflt : Option Pos × ExecPath) :
    Node.find_child cs idx (Sum.inl x) acc arg dflt =
      match lookup_child cs x with
      | none => dflt
      | some k =>
        match cs[k]? with
        | none => dflt
        | some c => c.find (acc ++ [idx + k]) arg := by
  induction cs generalizing idx with
  | nil => simp [Node.find_child, lookup_child]
  | cons c r ih =>
    by_cases h : front c.pfx = x
    · simp [Node.find_child, lookup_child, child_matches, h]
    · simp only [Node.find_child, child_matches, h, decide_False, Bool.false_eq_true, if_false,
        lookup_child, ih]
      cases hl : lookup_child r x with
      | none => simp
      | some k => simp [Nat.add_assoc, Nat.add_comm 1 k]

theorem find_child_inr (cs : List Node) (idx : Nat) (p : ExecPath) (acc : Pos) (arg : ExecPath)
    (dflt : Option Pos × ExecPath) :
    Node.find_child cs idx (Sum.inr p) acc arg dflt =
      match lookup_child_path cs p with
      | none => dflt
      | some k =>
        match cs[k]? with
        | none => dflt
        | some c => c.find (acc ++ [idx + k]) arg := by
  induction cs generalizing idx with
  | nil => simp [Node.find_child, lookup_child_path]
  | cons c r ih =>
    by_cases h : c.pfx = p
    · simp [Node.find_child, lookup_child_path, child_matches, h]
    · simp only [Node.find_child, child_matches, h, decide_False, Bool.false_eq_true, if_false,
        lookup_child_path, ih]
      cases hl : lookup_child_path r p with
      | none => simp
      | some k => simp [Nat.add_assoc, Nat.add_comm 1 k]

/-! ### `add_child` -/

theorem add_child_eq (cs : List Node) (x : Node) :
    add_child cs x = cs.take (add_child_idx cs x) ++ x :: cs.drop (add_child_idx cs x) := by
  induction cs with
  | nil => simp [add_child, add_child_idx]
  | cons c r ih =>
    by_cases h : front c.pfx > front x.pfx
    · simp [add_child, add_child_idx, h]
    · simp only [add_child, add_child_idx, h, if_false, List.take_succ_cons, List.drop_succ_cons,
        List.cons_append]
      rw [← ih]

theorem add_child_idx_le (cs : List Node) (x : Node) : add_child_idx cs x ≤ cs.length := by
  induction cs with
  | nil => simp [add_child_idx]
  | cons c r ih =>
    by_cases h : front c.pfx > front x.pfx
    · simp [add_child_idx, h]
    · simp [add_child_idx, h, ih]

theorem add_child_get (cs : List Node) (x : Node) :
    (add_child cs x)[add_child_idx cs x]? = some x := by
  rw [add_child_eq]
  have h := add_child_idx_le cs x
  rw [List.getElem?_append_right (by simp [h])]
  simp [List.length_take, h]

theorem mem_add_child {cs : List Node} {x c : Node} : c ∈ add_child cs x ↔ c = x ∨ c ∈ cs := by
  induction cs with
  | nil => simp [add_child]
  | cons a r ih =>
    by_cases h : front a.pfx > front x.pfx
    · simp [add_child, h]
    · simp only [add_child, h, if_false, List.mem_cons, ih]
      tauto

theorem length_add_child (cs : List Node) (x : Node) :
    (add_child cs x).length = cs.length + 1 := by
  induction cs with
  | nil => simp [add_child]
  | cons a r ih =>
    by_cases h : front a.pfx > front x.pfx
    · simp [add_child, h]
    · simp [add_child, h, ih]

/-- Adding a child with a new key keeps the children sorted. -/
theorem children_sorted_add_child {cs : List Node} {x : Node} (hs : children_sorted cs = true)
    (hx : ∀ c ∈ cs, front c.pfx ≠ front x.pfx) : children_sorted (add_child cs x) = true := by
  induction cs with
  | nil => simp [add_child, children_sorted]
  | cons a r ih =>
    rw [children_sorted_cons] at hs
    by_cases h : front a.pfx > front x.pfx
    · simp only [add_child, h, if_true]
      rw [children_sorted_cons]
      refine ⟨?_, children_sorted_cons.mpr hs⟩
      intro c hc
      rcases List.mem_cons.mp hc with rfl | hc
      · exact h
      · exact lt_trans h (hs.1 c hc)
    · simp only [add_child, h, if_false]
      rw [children_sorted_cons]
      refine ⟨?_, ih hs.2 (fun c hc => hx c (by simp [hc]))⟩
      intro c hc
      rcases mem_add_child.mp hc with rfl | hc
      · have := hx a (by simp)
        omega
      · exact hs.1 c hc

/-- Read `k` of a list after erasing index `k`... the erased list and `set`:
re-adding, after a pull, a node with the key of the pulled child puts it where
the child was. -/
theorem add_child_eraseIdx {cs : List Node} (hs : children_sorted cs = true) {k : Nat}
    {c x : Node} (hk : cs[k]? = some c) (hx : front x.pfx = front c.pfx) :
    add_child (cs.eraseIdx k) x = cs.set k x ∧ add_child_idx (cs.eraseIdx k) x = k := by
  induction cs generalizing k with
  | nil => simp at hk
  | cons a r ih =>
    rw [children_sorted_cons] at hs
    cases k with
    | zero =>
      simp at hk
      subst hk
      simp only [List.eraseIdx_cons_zero, List.set_cons_zero]
      cases r with
      | nil => simp [add_child, add_child_idx]
      | cons b r2 =>
        have := hs.1 b (by simp)
        have h : front b.pfx > front x.pfx := by omega
        simp [add_child, add_child_idx, h]
    | succ j =>
      simp at hk
      have hc : c ∈ r := List.getElem?_mem hk
      have h : ¬ front a.pfx > front x.pfx := by
        have := hs.1 c hc
        omega
      obtain ⟨h1, h2⟩ := ih hs.2 hk
      simp [add_child, add_child_idx, h, h1, h2]


/-! ## Positions -/

theorem Node.get?_append {n m : Node} {q : Pos} (h : n.get? q = some m) (r : Pos) :
    n.get? (q ++ r) = m.get? r := by
  induction q generalizing n with
  | nil => simp [Node.get?] at h; simp [h]
  | cons k rest ih =>
    cases n with
    | leaf i p t s e => simp [Node.get?] at h
    | internal i p cs =>
      simp only [Node.get?, List.cons_append] at h ⊢
      cases hc : cs[k]? with
      | none => simp [hc] at h
      | some c =>
        simp only [hc] at h ⊢
        exact ih h

theorem Node.get?_snoc {n m : Node} {q : Pos} (h : n.get? q = some m) (k : Nat) :
    n.get? (q ++ [k]) = m.children[k]? := by
  rw [Node.get?_append h]
  cases m with
  | leaf i p t s e => simp [Node.get?, Node.children]
  | internal i p cs =>
    simp only [Node.get?, Node.children]
    cases cs[k]? <;> rfl

theorem Node.path_log_eq {n m : Node} {q : Pos} (h : n.get? q = some m) (r : Pos) :
    n.path_log (q ++ r) = n.path_to q ++ m.path_log r := by
  induction q generalizing n with
  | nil => simp [Node.get?] at h; simp [h, Node.path_to]
  | cons k rest ih =>
    cases n with
    | leaf i p t s e => simp [Node.get?] at h
    | internal i p cs =>
      simp only [Node.get?, List.cons_append] at h
      cases hc : cs[k]? with
      | none => simp [hc] at h
      | some c =>
        simp only [hc] at h
        have := ih h
        simp only [List.cons_append, Node.path_log, Node.path_to, hc, vec_concat, squeeze,
          List.append_assoc, List.append_eq, this]

theorem Node.path_log_nil (n : Node) : n.path_log [] = squeeze n.pfx := by
  cases n <;> simp [Node.path_log, squeeze, Node.pfx]

theorem Node.path_log_at {n m : Node} {q : Pos} (h : n.get? q = some m) :
    n.path_log q = n.path_to q ++ squeeze m.pfx := by
  have := Node.path_log_eq h []
  simpa [Node.path_log_nil] using this

theorem Node.path_to_snoc {n m : Node} {q : Pos} (h : n.get? q = some m) {k : Nat} {c : Node}
    (hc : m.children[k]? = some c) : n.path_to (q ++ [k]) = n.path_to q ++ squeeze m.pfx := by
  induction q generalizing n with
  | nil =>
    simp [Node.get?] at h
    subst h
    cases n with
    | leaf i p t s e => simp [Node.children] at hc
    | internal i p cs =>
      simp only [Node.children] at hc
      simp [Node.path_to, hc, Node.pfx]
  | cons j rest ih =>
    cases n with
    | leaf i p t s e => simp [Node.get?] at h
    | internal i p cs =>
      simp only [Node.get?] at h
      cases hj : cs[j]? with
      | none => simp [hj] at h
      | some c0 =>
        simp only [hj] at h
        have := ih h
        simp only [List.cons_append, Node.path_to, hj, List.append_assoc, List.append_eq, this]

theorem Node.get?_modifyAt {n m : Node} {q : Pos} (f : Node → Node) (h : n.get? q = some m)
    (r : Pos) : (n.modifyAt f q).get? (q ++ r) = (f m).get? r := by
  induction q generalizing n with
  | nil => simp [Node.get?] at h; simp [h, Node.modifyAt]
  | cons k rest ih =>
    cases n with
    | leaf i p t s e => simp [Node.get?] at h
    | internal i p cs =>
      simp only [Node.get?] at h
      cases hc : cs[k]? with
      | none => simp [hc] at h
      | some c =>
        simp only [hc] at h
        have hk : k < cs.length := by
          by_contra hlt
          simp [List.getElem?_eq_none (Nat.le_of_not_lt hlt)] at hc
        simp only [Node.modifyAt, hc, List.cons_append, Node.get?]
        rw [List.getElem?_set_self hk]
        exact ih h

theorem Node.path_log_modifyAt {n m : Node} {q : Pos} (f : Node → Node)
    (h : n.get? q = some m) (r : Pos) :
    (n.modifyAt f q).path_log (q ++ r) = n.path_to q ++ (f m).path_log r := by
  induction q generalizing n with
  | nil => simp [Node.get?] at h; simp [h, Node.modifyAt, Node.path_to]
  | cons k rest ih =>
    cases n with
    | leaf i p t s e => simp [Node.get?] at h
    | internal i p cs =>
      simp only [Node.get?] at h
      cases hc : cs[k]? with
      | none => simp [hc] at h
      | some c =>
        simp only [hc] at h
        have hk : k < cs.length := by
          by_contra hlt
          simp [List.getElem?_eq_none (Nat.le_of_not_lt hlt)] at hc
        simp only [Node.modifyAt, hc, List.cons_append, Node.path_log, Node.path_to]
        rw [List.getElem?_set_self hk]
        simp only [vec_concat, ih h, squeeze, List.append_assoc]

theorem Node.pfx_modifyAt_cons (f : Node → Node) (n : Node) (k : Nat) (rest : Pos) :
    (n.modifyAt f (k :: rest)).pfx = n.pfx := by
  cases n with
  | leaf i p t s e => simp [Node.modifyAt, Node.pfx]
  | internal i p cs =>
    simp only [Node.modifyAt]
    cases cs[k]? <;> simp [Node.pfx]

theorem children_sorted_set {cs : List Node} (hs : children_sorted cs = true) {k : Nat}
    {c x : Node} (hk : cs[k]? = some c) (hx : front x.pfx = front c.pfx) :
    children_sorted (cs.set k x) = true := by
  rw [children_sorted_iff] at hs ⊢
  have : fronts (cs.set k x) = fronts cs := by
    simp only [fronts, List.map_set]
    apply List.ext_getElem?
    intro j
    by_cases hj : j = k
    · subst hj
      by_cases hlt : j < cs.length
      · rw [List.getElem?_set_self (by simpa using hlt)]
        simp [hk, hx]
      · simp [List.getElem?_eq_none (Nat.le_of_not_lt hlt)] at hk
    · rw [List.getElem?_set_ne (Ne.symm hj)]
  rw [this]
  exact hs

/-- Replacing the node at a position below a good node by a good node with the
same `prefix[0]` leaves a good node. -/
theorem Node.Good.modifyAt_good {n m : Node} {q : Pos} (f : Node → Node) (hn : n.Good)
    (h : n.get? q = some m) (hf : m.Good → (f m).Good ∧ front (f m).pfx = front m.pfx) :
    (n.modifyAt f q).Good ∧ front (n.modifyAt f q).pfx = front n.pfx := by
  induction q generalizing n with
  | nil =>
    simp [Node.get?] at h
    subst h
    simpa [Node.modifyAt] using hf hn
  | cons k rest ih =>
    cases n with
    | leaf i p t s e => simp [Node.get?] at h
    | internal i p cs =>
      simp only [Node.get?] at h
      cases hc : cs[k]? with
      | none => simp [hc] at h
      | some c =>
        simp only [hc] at h
        simp only [Node.Good] at hn
        have hg := (Node.goodList_iff cs).mp hn.2.2.2
        have hcm : c ∈ cs := List.getElem?_mem hc
        obtain ⟨h1, h2⟩ := ih (hg c hcm) h
        simp only [Node.modifyAt, hc, Node.Good, Node.pfx, and_true]
        refine ⟨hn.1, by simpa using hn.2.1, children_sorted_set hn.2.2.1 hc h2, ?_⟩
        rw [Node.goodList_iff]
        intro c1 hc1
        rcases List.mem_or_eq_of_mem_set hc1 with hc1 | hc1
        · exact hg c1 hc1
        · exact hc1 ▸ h1

/-- The same below a good root. -/
theorem Node.RootGood.modifyAt_root {n m : Node} {q : Pos} (f : Node → Node) (hn : n.RootGood)
    (h : n.get? q = some m) (hroot : q = [] → (f m).RootGood)
    (hf : q ≠ [] → m.Good → (f m).Good ∧ front (f m).pfx = front m.pfx) :
    (n.modifyAt f q).RootGood := by
  cases q with
  | nil =>
    simp [Node.get?] at h
    subst h
    simpa [Node.modifyAt] using hroot rfl
  | cons k rest =>
    cases n with
    | leaf i p t s e => simp [Node.get?] at h
    | internal i p cs =>
      simp only [Node.get?] at h
      cases hc : cs[k]? with
      | none => simp [hc] at h
      | some c =>
        simp only [hc] at h
        simp only [Node.RootGood] at hn
        have hg := (Node.goodList_iff cs).mp hn.2.2.2
        have hcm : c ∈ cs := List.getElem?_mem hc
        obtain ⟨h1, h2⟩ := Node.Good.modifyAt_good f (hg c hcm) h (hf (by simp))
        simp only [Node.modifyAt, hc, Node.RootGood]
        refine ⟨?_, by simpa using hn.2.1, children_sorted_set hn.2.2.1 hc h2, ?_⟩
        · rcases hn.1 with h0 | h0
          · left
            refine ⟨h0.1, ?_⟩
            intro c1 hc1
            rcases List.mem_or_eq_of_mem_set hc1 with hc1 | hc1
            · exact h0.2 c1 hc1
            · rw [hc1, h2]; exact h0.2 c hcm
          · right; exact h0
        · rw [Node.goodList_iff]
          intro c1 hc1
          rcases List.mem_or_eq_of_mem_set hc1 with hc1 | hc1
          · exact hg c1 hc1
          · exact hc1 ▸ h1

/-- The node at a position below a good node is good. -/
theorem Node.Good.get_good {n m : Node} {q : Pos} (hn : n.Good) (h : n.get? q = some m) : m.Good := by
  induction q generalizing n with
  | nil => simp [Node.get?] at h; exact h ▸ hn
  | cons k rest ih =>
    cases n with
    | leaf i p t s e => simp [Node.get?] at h
    | internal i p cs =>
      simp only [Node.get?] at h
      cases hc : cs[k]? with
      | none => simp [hc] at h
      | some c =>
        simp only [hc] at h
        simp only [Node.Good] at hn
        exact ih ((Node.goodList_iff cs).mp hn.2.2.2 c (List.getElem?_mem hc)) h

theorem Node.RootGood.get_below {n m : Node} {q : Pos} (hn : n.RootGood) (h : n.get? q = some m)
    (hq : q ≠ []) : m.Good := by
  cases q with
  | nil => exact absurd rfl hq
  | cons k rest =>
    cases n with
    | leaf i p t s e => simp [Node.get?] at h
    | internal i p cs =>
      simp only [Node.get?] at h
      cases hc : cs[k]? with
      | none => simp [hc] at h
      | some c =>
        simp only [hc] at h
        simp only [Node.RootGood] at hn
        exact Node.Good.get_good ((Node.goodList_iff cs).mp hn.2.2.2 c (List.getElem?_mem hc)) h


/-! ## What `find` returns -/

theorem squeeze_of_valid {p : ExecPath} (h : ValidPath p) : squeeze p = p := by
  simp [squeeze, validPath_ne_epsilon h]

theorem squeeze_epsilon : squeeze EPSILON = [] := by simp [squeeze]

theorem validPath_drop_isPrefix {p arg : ExecPath} (harg : ValidPath arg) (hpre : p <+: arg)
    (hne : arg ≠ p) : ValidPath (arg.drop p.length) ∧ p ++ arg.drop p.length = arg := by
  obtain ⟨r, rfl⟩ := hpre
  have hr : r ≠ [] := by
    intro h; apply hne; simp [h]
  refine ⟨⟨by simpa using hr, ?_⟩, by simp⟩
  intro x hx
  simp only [List.drop_left'] at hx
  exact harg.2 x (by simp [hx])

theorem validPath_of_isPrefix {p arg : ExecPath} (harg : ValidPath arg) (hpre : p <+: arg)
    (hp : p ≠ []) : ValidPath p :=
  ⟨hp, fun x hx => harg.2 x (hpre.subset hx)⟩

theorem Outcome.lift {i : Nat} {p : ExecPath} {cs : List Node} {k : Nat} {c : Node}
    {arg rem0 : ExecPath} {q : Pos} {rem : ExecPath} (hc : cs[k]? = some c)
    (h : Outcome c rem0 q rem) (harg : squeeze p ++ squeeze rem0 = squeeze arg) :
    Outcome (.internal i p cs) arg (k :: q) rem := by
  obtain ⟨m, h1, h2, h3⟩ := h
  refine ⟨m, by simp [Node.get?, hc, h1], ?_, h3⟩
  simp only [Node.path_to, hc, List.append_assoc]
  rw [← harg, ← h2]
  simp

theorem find_leaf (i : Nat) (p t : ExecPath) (s : List Input) (e : Bool) (acc : Pos)
    (arg : ExecPath) (hp : p = EPSILON ∨ ValidPath p)
    (harg : ValidPath arg ∨ (arg = EPSILON ∧ p = EPSILON)) :
    FindSpec (.leaf i p t s e) acc arg := by
  unfold FindSpec
  by_cases h1 : arg = p
  · right
    refine ⟨[], [], by simp [Node.find, h1], .leaf i p t s e, by simp [Node.get?], ?_, ?_⟩
    · simp [Node.path_to, Node.pfx, h1]
    · simp [LocalOK, Node.is_internal]
  · have hav : ValidPath arg := by
      rcases harg with h | h
      · exact h
      · exact absurd (h.1.trans h.2.symm) h1
    by_cases h2 : p <+: arg
    · right
      have hpne : p ≠ [] := by
        rcases hp with h | h
        · simp [h, EPSILON]
        · exact h.1
      have hpv := validPath_of_isPrefix hav h2 hpne
      obtain ⟨hv, heq⟩ := validPath_drop_isPrefix hav h2 h1
      refine ⟨[], arg.drop p.length, ?_, .leaf i p t s e, by simp [Node.get?], ?_, ?_⟩
      · simp [Node.find, h1, subvec_len_zero, (take_common_prefix_length_eq_iff p arg).mpr h2,
          subvec, cpl_of_isPrefix h2]
      · simp [Node.path_to, Node.pfx, squeeze_of_valid hpv, squeeze_of_valid hav, heq]
      · refine ⟨fun h => absurd h hv.1, fun _ => ⟨hv, ?_, ?_⟩⟩
        · intro _; exact validPath_ne_epsilon hpv
        · simp [Node.is_internal]
    · left
      refine ⟨?_, by simpa [Node.pfx] using h2⟩
      have : ¬ (List.take (common_prefix_length p arg) p = p) :=
        fun h => h2 ((take_common_prefix_length_eq_iff p arg).mp h)
      cases hacc : acc.isEmpty <;> simp [Node.find, h1, subvec_len_zero, this, hacc]

theorem find_internal (i : Nat) (p : ExecPath) (cs : List Node) (acc : Pos) (arg : ExecPath)
    (hp : ValidPath p) (harg : ValidPath arg)
    (hch : ∀ k c, cs[k]? = some c → ∀ arg0,
      (ValidPath arg0 ∨ (arg0 = EPSILON ∧ c.pfx = EPSILON)) → FindSpec c (acc ++ [k]) arg0) :
    FindSpec (.internal i p cs) acc arg := by
  have hpe : p ≠ EPSILON := validPath_ne_epsilon hp
  unfold FindSpec
  by_cases h1 : arg = p
  · right
    have hfind : (Node.internal i p cs).find acc arg =
        Node.find_child cs 0 (Sum.inr EPSILON) acc EPSILON (some acc, []) := by
      simp [Node.find, hpe, h1]
    rw [hfind, find_child_inr]
    cases hl : lookup_child_path cs EPSILON with
    | none =>
      refine ⟨[], [], by simp, .internal i p cs, by simp [Node.get?], ?_, ?_⟩
      · simp [Node.path_to, Node.pfx, h1]
      · refine ⟨fun _ _ => by simpa [Node.children] using hl, fun h => absurd rfl h⟩
    | some k =>
      obtain ⟨c, hc, hcp, _⟩ := lookup_child_path_some hl
      simp only [hc, Nat.zero_add]
      rcases hch k c hc EPSILON (Or.inr ⟨rfl, hcp⟩) with ⟨_, hmis⟩ | ⟨q, rem, hf, ho⟩
      · exact absurd (hcp ▸ List.prefix_refl _) hmis
      · refine ⟨k :: q, rem, by simpa using hf, Outcome.lift hc ho ?_⟩
        simp [squeeze_epsilon, h1]
  · by_cases h2 : p <+: arg
    · right
      obtain ⟨hv, heq⟩ := validPath_drop_isPrefix harg h2 h1
      have hfind : (Node.internal i p cs).find acc arg =
          Node.find_child cs 0 (Sum.inl (front (arg.drop p.length))) acc (arg.drop p.length)
            (some acc, arg.drop p.length) := by
        simp [Node.find, hpe, h1, subvec_len_zero,
          (take_common_prefix_length_eq_iff p arg).mpr h2, subvec,
          cpl_of_isPrefix h2]
      rw [hfind, find_child_inl]
      cases hl : lookup_child cs (front (arg.drop p.length)) with
      | none =>
        refine ⟨[], arg.drop p.length, by simp, .internal i p cs, by simp [Node.get?], ?_, ?_⟩
        · simp [Node.path_to, Node.pfx, squeeze_of_valid hp, squeeze_of_valid harg, heq]
        · refine ⟨fun h => absurd h hv.1, fun _ => ⟨hv, by simp [Node.is_leaf], ?_⟩⟩
          intro _ k c hk
          simp [Node.children, hl] at hk
      | some k =>
        obtain ⟨c, hc, hcf, _⟩ := lookup_child_some hl
        simp only [hc, Nat.zero_add]
        rcases hch k c hc (arg.drop p.length) (Or.inl hv) with ⟨hf, hmis⟩ | ⟨q, rem, hf, ho⟩
        · refine ⟨[], arg.drop p.length, by simpa using hf, .internal i p cs,
            by simp [Node.get?], ?_, ?_⟩
          · simp [Node.path_to, Node.pfx, squeeze_of_valid hp, squeeze_of_valid harg, heq]
          · refine ⟨fun h => absurd h hv.1, fun _ => ⟨hv, by simp [Node.is_leaf], ?_⟩⟩
            intro _ k0 c0 hk0 hc0
            simp only [Node.children, hl, Option.some.injEq] at hk0 hc0
            subst hk0
            rw [hc] at hc0
            exact (Option.some.inj hc0) ▸ hmis
        · refine ⟨k :: q, rem, by simpa using hf, Outcome.lift hc ho ?_⟩
          simp [squeeze_of_valid hp, squeeze_of_valid harg, squeeze_of_valid hv, heq]
    · left
      refine ⟨?_, by simpa [Node.pfx] using h2⟩
      have : ¬ (List.take (common_prefix_length p arg) p = p) :=
        fun h => h2 ((take_common_prefix_length_eq_iff p arg).mp h)
      cases hacc : acc.isEmpty <;> simp [Node.find, hpe, h1, subvec_len_zero, this, hacc]

/-- The result of `find` on a good node that is not the root. -/
theorem find_spec_nonroot : ∀ n : Node, n.Good → ∀ (acc : Pos) (arg : ExecPath),
    (ValidPath arg ∨ (arg = EPSILON ∧ n.pfx = EPSILON)) → FindSpec n acc arg := by
  intro n
  induction n using Node.induct with
  | hleaf i p t s e =>
    intro hn acc arg harg
    exact find_leaf i p t s e acc arg hn harg
  | hint i p cs ih =>
    intro hn acc arg harg
    simp only [Node.Good] at hn
    have hg := (Node.goodList_iff cs).mp hn.2.2.2
    have hav : ValidPath arg := by
      rcases harg with h | h
      · exact h
      · exact absurd h.2 (validPath_ne_epsilon hn.1)
    exact find_internal i p cs acc arg hn.1 hav
      (fun k c hc arg0 h0 => ih c (List.getElem?_mem hc) (hg c (List.getElem?_mem hc)) _ arg0 h0)

/-- The result of `find` on a good root. -/
theorem find_spec_root (n : Node) (hn : n.RootGood) (arg : ExecPath) (harg : ValidPath arg) :
    (n.find [] arg = (none, arg) ∧ RootMiss n arg) ∨
    ∃ q rem, n.find [] arg = (some q, rem) ∧ Outcome n arg q rem := by
  cases n with
  | leaf i p t s e =>
    rcases find_leaf i p t s e [] arg (Or.inr hn) (Or.inl harg) with ⟨hf, hmis⟩ | ⟨q, rem, hf, ho⟩
    · left
      exact ⟨by simpa using hf, Or.inr ⟨validPath_ne_epsilon hn, hmis⟩⟩
    · right
      exact ⟨q, rem, by simpa using hf, ho⟩
  | internal i p cs =>
    simp only [Node.RootGood] at hn
    have hg := (Node.goodList_iff cs).mp hn.2.2.2
    have hch : ∀ k c, cs[k]? = some c → ∀ arg0,
        (ValidPath arg0 ∨ (arg0 = EPSILON ∧ c.pfx = EPSILON)) → FindSpec c ([] ++ [k]) arg0 :=
      fun k c hc arg0 h0 => find_spec_nonroot c (hg c (List.getElem?_mem hc)) _ arg0 h0
    rcases hn.1 with ⟨hpe, _⟩ | hpv
    · subst hpe
      have hfind : (Node.internal i EPSILON cs).find [] arg =
          Node.find_child cs 0 (Sum.inl (front arg)) [] arg (none, arg) := by
        simp [Node.find]
      rw [hfind, find_child_inl]
      cases hl : lookup_child cs (front arg) with
      | none =>
        left
        exact ⟨rfl, Or.inl ⟨rfl, by simpa [Node.children] using hl⟩⟩
      | some k =>
        right
        obtain ⟨c, hc, hcf, _⟩ := lookup_child_some hl
        simp only [hc, Nat.zero_add]
        rcases hch k c hc arg (Or.inl harg) with ⟨hf, hmis⟩ | ⟨q, rem, hf, ho⟩
        · refine ⟨[], arg, by simpa using hf, .internal i EPSILON cs, by simp [Node.get?], ?_, ?_⟩
          · simp [Node.path_to, Node.pfx, squeeze_epsilon, squeeze_of_valid harg]
          · refine ⟨fun h => absurd h harg.1, fun _ => ⟨harg, by simp [Node.is_leaf], ?_⟩⟩
            intro _ k0 c0 hk0 hc0
            simp only [Node.children, hl, Option.some.injEq] at hk0 hc0
            subst hk0
            rw [hc] at hc0
            exact (Option.some.inj hc0) ▸ hmis
        · refine ⟨k :: q, rem, by simpa using hf, Outcome.lift hc ho ?_⟩
          simp [squeeze_epsilon]
    · rcases find_internal i p cs [] arg hpv harg hch with ⟨hf, hmis⟩ | ⟨q, rem, hf, ho⟩
      · left
        exact ⟨by simpa using hf, Or.inr ⟨validPath_ne_epsilon hpv, hmis⟩⟩
      · right
        exact ⟨q, rem, by simpa using hf, ho⟩

/-! ## Paths of a subtree -/

@[simp] theorem Node.pfx_leaf (i : Nat) (p t : ExecPath) (s : List Input) (e : Bool) :
    (Node.leaf i p t s e).pfx = p := rfl

@[simp] theorem Node.pfx_internal (i : Nat) (p : ExecPath) (cs : List Node) :
    (Node.internal i p cs).pfx = p := rfl

@[simp] theorem Node.children_leaf (i : Nat) (p t : ExecPath) (s : List Input) (e : Bool) :
    (Node.leaf i p t s e).children = [] := rfl

@[simp] theorem Node.children_internal (i : Nat) (p : ExecPath) (cs : List Node) :
    (Node.internal i p cs).children = cs := rfl

@[simp] theorem Node.is_leaf_leaf (i : Nat) (p t : ExecPath) (s : List Input) (e : Bool) :
    (Node.leaf i p t s e).is_leaf = true := rfl

@[simp] theorem Node.is_leaf_internal (i : Nat) (p : ExecPath) (cs : List Node) :
    (Node.internal i p cs).is_leaf = false := rfl

@[simp] theorem Node.is_internal_leaf (i : Nat) (p t : ExecPath) (s : List Input) (e : Bool) :
    (Node.leaf i p t s e).is_internal = false := rfl

@[simp] theorem Node.is_internal_internal (i : Nat) (p : ExecPath) (cs : List Node) :
    (Node.internal i p cs).is_internal = true := rfl

@[simp] theorem Node.set_children_internal (i : Nat) (p : ExecPath) (cs ds : List Node) :
    (Node.internal i p cs).set_children ds = Node.internal i p ds := rfl

theorem Node.mem_denote_list {x : ExecPath} {cs : List Node} :
    x ∈ Node.denote_list cs ↔ ∃ c ∈ cs, x ∈ c.denote := by
  induction cs with
  | nil => simp [Node.denote_list]
  | cons c r ih => simp [Node.denote_list, ih]

theorem Node.denote_eq (n : Node) : n.denote = n.rests.map (fun x => squeeze n.pfx ++ x) := by
  cases n <;> simp [Node.denote, Node.rests, Node.pfx]

theorem Node.mem_denote {x : ExecPath} {n : Node} :
    x ∈ n.denote ↔ ∃ y ∈ n.rests, x = squeeze n.pfx ++ y := by
  rw [Node.denote_eq]
  simp [eq_comm]

@[simp] theorem Node.pfx_set_pfx (p : ExecPath) (n : Node) : (n.set_pfx p).pfx = p := by
  cases n <;> rfl

@[simp] theorem Node.rests_set_pfx (p : ExecPath) (n : Node) : (n.set_pfx p).rests = n.rests := by
  cases n <;> rfl

@[simp] theorem Node.is_leaf_set_pfx (p : ExecPath) (n : Node) :
    (n.set_pfx p).is_leaf = n.is_leaf := by
  cases n <;> rfl

theorem Node.Good.set_pfx_good {n : Node} (h : n.Good) {p : ExecPath} (hp : ValidPath p) :
    (n.set_pfx p).Good := by
  cases n with
  | leaf i q t s e => exact Or.inr hp
  | internal i q cs =>
    simp only [Node.Good, Node.set_pfx] at h ⊢
    exact ⟨hp, h.2⟩

theorem Node.good_of_leaf {l : Node} (hl : l.is_leaf = true) :
    l.Good ↔ (l.pfx = EPSILON ∨ ValidPath l.pfx) := by
  cases l with
  | leaf i p t s e => simp [Node.Good, Node.pfx]
  | internal i p cs => simp [Node.is_leaf] at hl

theorem Node.rests_of_leaf {l : Node} (hl : l.is_leaf = true) : l.rests = [[]] := by
  cases l with
  | leaf i p t s e => rfl
  | internal i p cs => simp [Node.is_leaf] at hl

theorem Node.denote_of_leaf {l : Node} (hl : l.is_leaf = true) : l.denote = [squeeze l.pfx] := by
  rw [Node.denote_eq, Node.rests_of_leaf hl]; simp

theorem Node.Good.pfx_cases {n : Node} (h : n.Good) : n.pfx = EPSILON ∨ ValidPath n.pfx := by
  cases n with
  | leaf i p t s e => exact h
  | internal i p cs =>
    simp only [Node.Good] at h
    exact Or.inr h.1

theorem Node.Good.valid_of_front_pos {n : Node} (h : n.Good) (hf : 0 < front n.pfx) :
    ValidPath n.pfx := by
  rcases h.pfx_cases with h1 | h1
  · rw [h1] at hf; simp [front, EPSILON, EpsilonPCID] at hf
  · exact h1

theorem insert_inputset_create_leaf (rnd : Nat) (tail : ExecPath) (inputset : List Input)
    (run_status : Int) (id : Nat) (p : ExecPath) :
    (insert_inputset rnd tail inputset run_status (create_leaf id p)).is_leaf = true ∧
    (insert_inputset rnd tail inputset run_status (create_leaf id p)).pfx = p := by
  simp [insert_inputset, create_leaf, Node.is_leaf, Node.pfx]

theorem insert_inputset_leaf (rnd : Nat) (tail : ExecPath) (inputset : List Input)
    (run_status : Int) (m : Node) :
    (insert_inputset rnd tail inputset run_status m).is_leaf = m.is_leaf ∧
    (insert_inputset rnd tail inputset run_status m).pfx = m.pfx ∧
    (insert_inputset rnd tail inputset run_status m).is_internal = m.is_internal := by
  cases m <;> simp [insert_inputset, Node.is_leaf, Node.pfx, Node.is_internal]

/-! ## The local steps of `insert` -/

/-- Case 4: the inputs go into an existing leaf. -/
theorem step_case4 (rnd : Nat) (tail : ExecPath) (inputset : List Input) (run_status : Int)
    {m : Node} (hm : m.is_leaf = true) :
    Step m (insert_inputset rnd tail inputset run_status m) [] (squeeze m.pfx) := by
  cases m with
  | internal i p cs => simp [Node.is_leaf] at hm
  | leaf i p t s e =>
    refine ⟨⟨_, rfl, by simp [insert_inputset, Node.is_leaf]⟩, ?_, ?_, ?_, ?_⟩
    · simp [insert_inputset, Node.path_log, squeeze, Node.pfx]
    · intro h; exact ⟨by simpa [insert_inputset, Node.Good] using h, rfl⟩
    · intro h; simpa [insert_inputset, Node.RootGood] using h
    · intro x; simp [insert_inputset, Node.denote, Node.pfx]

/-- Cases 3 and 5: a new leaf `l` becomes a child of the internal node `m`. -/
theorem step_add_leaf {m l : Node} (hm : m.is_internal = true) (hl : l.is_leaf = true)
    (hlg : l.Good) (hkey : ∀ c ∈ m.children, front c.pfx ≠ front l.pfx)
    (hroot : m.pfx = EPSILON → 0 < front l.pfx) :
    Step m (m.set_children (add_child m.children l)) [add_child_idx m.children l]
      (squeeze m.pfx ++ squeeze l.pfx) := by
  cases m with
  | leaf i p t s e => simp [Node.is_internal] at hm
  | internal i p cs =>
    simp only [Node.children_internal, Node.set_children_internal, Node.pfx_internal]
      at hkey hroot ⊢
    refine ⟨⟨l, by simp [Node.get?, add_child_get], hl⟩, ?_, ?_, ?_, ?_⟩
    · simp [Node.path_log, add_child_get, Node.path_log_nil, vec_concat, squeeze]
    · intro h
      simp only [Node.Good] at h ⊢
      refine ⟨⟨h.1, ?_, children_sorted_add_child h.2.2.1 hkey, ?_⟩, rfl⟩
      · rw [length_add_child]; omega
      · rw [Node.goodList_iff] at h ⊢
        intro c hc
        rcases mem_add_child.mp hc with rfl | hc
        · exact hlg
        · exact h.2.2.2 c hc
    · intro h
      simp only [Node.RootGood] at h ⊢
      refine ⟨?_, ?_, children_sorted_add_child h.2.2.1 hkey, ?_⟩
      · rcases h.1 with h1 | h1
        · left
          refine ⟨h1.1, ?_⟩
          intro c hc
          rcases mem_add_child.mp hc with rfl | hc
          · exact hroot h1.1
          · exact h1.2 c hc
        · right; exact h1
      · rw [length_add_child]; omega
      · rw [Node.goodList_iff] at h ⊢
        intro c hc
        rcases mem_add_child.mp hc with rfl | hc
        · exact hlg
        · exact h.2.2.2 c hc
    · intro x
      simp only [Node.denote, List.mem_map, Node.mem_denote_list, mem_add_child]
      constructor
      · rintro ⟨y, ⟨c, hc | hc, hy⟩, rfl⟩
        · subst hc
          rw [Node.denote_of_leaf hl] at hy
          simp only [List.mem_singleton] at hy
          right; rw [hy]
        · left; exact ⟨y, ⟨c, hc, hy⟩, rfl⟩
      · rintro (⟨y, ⟨c, hc, hy⟩, rfl⟩ | rfl)
        · exact ⟨y, ⟨c, Or.inr hc, hy⟩, rfl⟩
        · exact ⟨squeeze l.pfx, ⟨l, Or.inl rfl, by simp [Node.denote_of_leaf hl]⟩, rfl⟩
theorem front_take {p : ExecPath} {n : Nat} (hn : 0 < n) : front (p.take n) = front p := by
  cases p with
  | nil => simp
  | cons a l =>
    cases n with
    | zero => omega
    | succ j => simp [front]

theorem validPath_take {p : ExecPath} (hp : ValidPath p) {n : Nat} (hn : 0 < n) :
    ValidPath (p.take n) := by
  refine ⟨?_, fun x hx => hp.2 x (List.mem_of_mem_take hx)⟩
  intro h
  have := congrArg List.length h
  simp only [List.length_take, List.length_nil] at this
  have hl : 0 < p.length := List.length_pos.mpr hp.1
  omega

theorem validPath_drop {p : ExecPath} (hp : ValidPath p) {n : Nat} (hn : n < p.length) :
    ValidPath (p.drop n) := by
  refine ⟨?_, fun x hx => hp.2 x (List.mem_of_mem_drop hx)⟩
  intro h
  have := congrArg List.length h
  simp only [List.length_drop, List.length_nil] at this
  omega

theorem cpl_lt_of_not_isPrefix {p e : ExecPath} (h : ¬ p <+: e) :
    common_prefix_length p e < p.length := by
  rcases Nat.lt_or_ge (common_prefix_length p e) p.length with h1 | h1
  · exact h1
  · exfalso
    apply h
    rw [← take_common_prefix_length_eq_iff]
    exact List.take_of_length_le h1

/-- The internal node that `insert` puts in place of the child `c` when the
remaining path `rem` leaves the prefix of `c` partway (Case 6), with the new
leaf `l` below it. -/
theorem split_child {c l : Node} {rem : ExecPath} (id : Nat) (hc : c.Good)
    (hrem : ValidPath rem) (hfront : front c.pfx = front rem) (hnp : ¬ c.pfx <+: rem)
    (hl : l.is_leaf = true)
    (hlp : l.pfx = if rem.length = common_prefix_length c.pfx rem then EPSILON
      else subvec rem (common_prefix_length c.pfx rem)) :
    let cl := common_prefix_length c.pfx rem
    let c1 := c.set_pfx (subvec c.pfx cl)
    let n := Node.internal id (subvec_len c.pfx 0 cl) (add_child (add_child [] c1) l)
    n.Good ∧ front n.pfx = front c.pfx ∧ n.get? [add_child_idx (add_child [] c1) l] = some l ∧
      n.path_log [add_child_idx (add_child [] c1) l] = rem ∧
      ∀ x, x ∈ n.denote ↔ x ∈ c.denote ∨ x = rem := by
  intro cl c1 n
  have hcv : ValidPath c.pfx :=
    hc.valid_of_front_pos (hfront ▸ validPath_front_pos hrem)
  have h1 : 0 < cl := common_prefix_length_pos hcv.1 hrem.1 hfront
  have h2 : cl < c.pfx.length := cpl_lt_of_not_isPrefix hnp
  have h3 : cl ≤ rem.length := common_prefix_length_le_right _ _
  have h4 : c.pfx.take cl = rem.take cl := take_common_prefix_length _ _
  have h5 : ValidPath (c.pfx.take cl) := validPath_take hcv h1
  have h6 : ValidPath (c.pfx.drop cl) := validPath_drop hcv h2
  have hc1 : c1.Good := hc.set_pfx_good h6
  have hc1p : c1.pfx = c.pfx.drop cl := by simp [c1, subvec]
  have hlg : l.Good := by
    rw [Node.good_of_leaf hl, hlp]
    by_cases h : rem.length = cl
    · left; simp [cl] at h; simp [h]
    · right
      have : ¬ rem.length = common_prefix_length c.pfx rem := h
      simp only [this, if_false, subvec]
      exact validPath_drop hrem (by omega)
  have hsq : squeeze l.pfx = rem.drop cl := by
    rw [hlp]
    by_cases h : rem.length = cl
    · have : rem.length = common_prefix_length c.pfx rem := h
      simp only [this, if_true, squeeze_epsilon]
      rw [List.drop_of_length_le (by omega)]
    · have h0 : ¬ rem.length = common_prefix_length c.pfx rem := h
      simp only [h0, if_false, subvec]
      exact squeeze_of_valid (validPath_drop hrem (by omega))
  have hkey : front c1.pfx ≠ front l.pfx := by
    rw [hc1p, hlp]
    by_cases h : rem.length = cl
    · have : rem.length = common_prefix_length c.pfx rem := h
      simp only [this, if_true]
      have := validPath_front_pos h6
      simp [front, EPSILON, EpsilonPCID] at this ⊢
      omega
    · have h0 : ¬ rem.length = common_prefix_length c.pfx rem := h
      simp only [h0, if_false, subvec]
      rcases common_prefix_length_diverge c.pfx rem with hd | hd | hd
      · exact absurd hd h6.1
      · exact absurd hd (validPath_drop hrem (by omega)).1
      · exact hd
  have hsorted : children_sorted (add_child (add_child [] c1) l) = true := by
    apply children_sorted_add_child
    · simp [add_child, children_sorted]
    · intro c0 hc0
      simp only [add_child, List.mem_singleton] at hc0
      rw [hc0]; exact hkey
  have hgood : n.Good := by
    simp only [n, Node.Good, subvec_len_zero]
    refine ⟨h5, by rw [length_add_child, length_add_child]; simp, hsorted, ?_⟩
    rw [Node.goodList_iff]
    intro c0 hc0
    rcases mem_add_child.mp hc0 with rfl | hc0
    · exact hlg
    · simp only [add_child, List.mem_singleton] at hc0
      rw [hc0]; exact hc1
  refine ⟨hgood, ?_, ?_, ?_, ?_⟩
  · simp only [n, Node.pfx_internal, subvec_len_zero]
    exact front_take h1
  · simp [n, Node.get?, add_child_get]
  · simp only [n, Node.path_log, add_child_get, Node.path_log_nil, vec_concat, subvec_len_zero,
      hsq]
    rw [if_neg (validPath_ne_epsilon h5), h4, List.take_append_drop]
  · intro x
    simp only [n, Node.denote, List.mem_map, Node.mem_denote_list, mem_add_child, subvec_len_zero,
      squeeze_of_valid h5]
    constructor
    · rintro ⟨y, ⟨c0, hc0 | hc0, hy⟩, rfl⟩
      · subst hc0
        right
        rw [Node.denote_of_leaf hl, List.mem_singleton] at hy
        rw [hy, hsq, h4, List.take_append_drop]
      · left
        have hc0 : c0 = c1 := by simpa using hc0
        subst hc0
        rw [Node.mem_denote] at hy ⊢
        obtain ⟨z, hz, rfl⟩ := hy
        refine ⟨z, by simpa [c1] using hz, ?_⟩
        rw [hc1p, squeeze_of_valid h6, squeeze_of_valid hcv, ← List.append_assoc,
          List.take_append_drop]
    · rintro (hx | hx)
      · rw [Node.mem_denote] at hx
        obtain ⟨z, hz, rfl⟩ := hx
        refine ⟨c.pfx.drop cl ++ z, ⟨c1, Or.inr (by simp [add_child]), ?_⟩, ?_⟩
        · rw [Node.mem_denote]
          exact ⟨z, by simpa [c1] using hz, by rw [hc1p, squeeze_of_valid h6]⟩
        · rw [squeeze_of_valid hcv, ← List.append_assoc, List.take_append_drop]
      · refine ⟨rem.drop cl, ⟨l, Or.inl rfl, ?_⟩, ?_⟩
        · rw [Node.denote_of_leaf hl, hsq]; simp
        · rw [hx, h4, List.take_append_drop]

/-- Replacing the child at index `k` of the internal node `m` by a node `n` with
the same `prefix[0]` that holds the new leaf (Case 6). -/
theorem step_replace_child {m c n : Node} {k : Nat} {rel : Pos} {y : ExecPath}
    (hm : m.is_internal = true) (hs : children_sorted m.children = true)
    (hk : m.children[k]? = some c) (hn : n.Good) (hfront : front n.pfx = front c.pfx)
    (hleaf : ∃ l, n.get? rel = some l ∧ l.is_leaf = true) (hpath : n.path_log rel = y)
    (hden : ∀ x, x ∈ n.denote ↔ x ∈ c.denote ∨ x = y) :
    Step m (m.set_children (add_child (m.children.eraseIdx k) n))
      (add_child_idx (m.children.eraseIdx k) n :: rel) (squeeze m.pfx ++ y) := by
  cases m with
  | leaf i p t s e => simp at hm
  | internal i p cs =>
    simp only [Node.children_internal, Node.set_children_internal, Node.pfx_internal] at hs hk ⊢
    obtain ⟨he1, he2⟩ := add_child_eraseIdx hs hk hfront
    rw [he1, he2]
    have hklt : k < cs.length := by
      by_contra hlt
      simp [List.getElem?_eq_none (Nat.le_of_not_lt hlt)] at hk
    have hget : (cs.set k n)[k]? = some n := by
      rw [List.getElem?_set_self hklt]
    have hcm : c ∈ cs := List.getElem?_mem hk
    refine ⟨?_, ?_, ?_, ?_, ?_⟩
    · obtain ⟨l, h1, h2⟩ := hleaf
      exact ⟨l, by simp [Node.get?, hget, h1], h2⟩
    · simp [Node.path_log, hget, vec_concat, hpath, squeeze]
    · intro h
      simp only [Node.Good] at h ⊢
      refine ⟨⟨h.1, by simpa using h.2.1, children_sorted_set hs hk hfront, ?_⟩, rfl⟩
      rw [Node.goodList_iff] at h ⊢
      intro c1 hc1
      rcases List.mem_or_eq_of_mem_set hc1 with hc1 | hc1
      · exact h.2.2.2 c1 hc1
      · exact hc1 ▸ hn
    · intro h
      simp only [Node.RootGood] at h ⊢
      refine ⟨?_, by simpa using h.2.1, children_sorted_set hs hk hfront, ?_⟩
      · rcases h.1 with h1 | h1
        · left
          refine ⟨h1.1, ?_⟩
          intro c1 hc1
          rcases List.mem_or_eq_of_mem_set hc1 with hc1 | hc1
          · exact h1.2 c1 hc1
          · rw [hc1, hfront]; exact h1.2 c hcm
        · right; exact h1
      · rw [Node.goodList_iff] at h ⊢
        intro c1 hc1
        rcases List.mem_or_eq_of_mem_set hc1 with hc1 | hc1
        · exact h.2.2.2 c1 hc1
        · exact hc1 ▸ hn
    · intro x
      simp only [Node.denote, List.mem_map, Node.mem_denote_list]
      constructor
      · rintro ⟨z, ⟨c1, hc1, hz⟩, rfl⟩
        rcases List.mem_or_eq_of_mem_set hc1 with hc1 | hc1
        · left; exact ⟨z, ⟨c1, hc1, hz⟩, rfl⟩
        · subst hc1
          rcases (hden z).mp hz with hz | hz
          · left; exact ⟨z, ⟨c, hcm, hz⟩, rfl⟩
          · right; rw [hz]
      · rintro (⟨z, ⟨c1, hc1, hz⟩, rfl⟩ | rfl)
        · obtain ⟨j, hj, hjc⟩ := List.getElem_of_mem hc1
          by_cases hjk : j = k
          · subst hjk
            have : c1 = c := by
              rw [List.getElem?_eq_getElem hj] at hk
              exact hjc ▸ (Option.some.inj hk)
            subst this
            exact ⟨z, ⟨n, List.getElem?_mem hget, (hden z).mpr (Or.inl hz)⟩, rfl⟩
          · refine ⟨z, ⟨c1, ?_, hz⟩, rfl⟩
            have : (cs.set k n)[j]? = some c1 := by
              rw [List.getElem?_set_ne (Ne.symm hjk), List.getElem?_eq_getElem hj, hjc]
            exact List.getElem?_mem this
        · exact ⟨y, ⟨n, List.getElem?_mem hget, (hden y).mpr (Or.inr rfl)⟩, rfl⟩

/-- Case 7: the leaf `m` becomes the Epsilon child of a new internal node with
the prefix of `m`, next to the new leaf `l`. -/
theorem step_case7 {m l : Node} (id : Nat) (hm : m.is_leaf = true) (hmv : ValidPath m.pfx)
    (hl : l.is_leaf = true) (hlv : ValidPath l.pfx) :
    Step m
      (Node.internal id m.pfx (add_child (add_child [] (m.set_pfx EPSILON)) l))
      [add_child_idx (add_child [] (m.set_pfx EPSILON)) l] (squeeze m.pfx ++ l.pfx) := by
  have hkey : front (m.set_pfx EPSILON).pfx ≠ front l.pfx := by
    have := validPath_front_pos hlv
    simp [front, EPSILON, EpsilonPCID] at this ⊢
    omega
  have hsorted : children_sorted (add_child (add_child [] (m.set_pfx EPSILON)) l) = true := by
    apply children_sorted_add_child
    · simp [add_child, children_sorted]
    · intro c0 hc0
      simp only [add_child, List.mem_singleton] at hc0
      rw [hc0]; exact hkey
  have hgl : Node.GoodList (add_child (add_child [] (m.set_pfx EPSILON)) l) := by
    rw [Node.goodList_iff]
    intro c0 hc0
    rcases mem_add_child.mp hc0 with rfl | hc0
    · exact (Node.good_of_leaf hl).mpr (Or.inr hlv)
    · simp only [add_child, List.mem_singleton] at hc0
      rw [hc0]
      exact (Node.good_of_leaf (by simpa using hm)).mpr (Or.inl (by simp))
  have hlen : 2 ≤ (add_child (add_child [] (m.set_pfx EPSILON)) l).length := by
    rw [length_add_child, length_add_child]; simp
  refine ⟨⟨l, by simp [Node.get?, add_child_get], hl⟩, ?_, ?_, ?_, ?_⟩
  · simp only [Node.path_log, add_child_get, Node.path_log_nil, vec_concat,
      squeeze_of_valid hlv]
    rw [if_neg (validPath_ne_epsilon hmv), squeeze_of_valid hmv]
  · intro _
    exact ⟨by simp only [Node.Good]; exact ⟨hmv, hlen, hsorted, hgl⟩, rfl⟩
  · intro _
    simp only [Node.RootGood]
    exact ⟨Or.inr hmv, hlen, hsorted, hgl⟩
  · intro x
    simp only [Node.denote, List.mem_map, Node.mem_denote_list, mem_add_child]
    rw [Node.denote_of_leaf hm]
    constructor
    · rintro ⟨z, ⟨c0, hc0 | hc0, hz⟩, rfl⟩
      · subst hc0
        rw [Node.denote_of_leaf hl, List.mem_singleton] at hz
        right; rw [hz, squeeze_of_valid hlv]
      · have hc0 : c0 = m.set_pfx EPSILON := by simpa using hc0
        subst hc0
        rw [Node.denote_of_leaf (by simpa using hm), List.mem_singleton] at hz
        left; simp [hz, squeeze_epsilon]
    · rintro (hx | rfl)
      · simp only [List.mem_singleton] at hx
        refine ⟨[], ⟨m.set_pfx EPSILON, Or.inr (by simp [add_child]), ?_⟩, by simp [hx]⟩
        rw [Node.denote_of_leaf (by simpa using hm)]
        simp [squeeze_epsilon]
      · refine ⟨l.pfx, ⟨l, Or.inl rfl, ?_⟩, rfl⟩
        rw [Node.denote_of_leaf hl, squeeze_of_valid hlv]; simp

/-! ## Updating below the root -/

theorem Node.mem_denote_modifyAt {n m : Node} {q : Pos} (f : Node → Node) {y : ExecPath}
    (h : n.get? q = some m) (hf : ∀ x, x ∈ (f m).denote ↔ x ∈ m.denote ∨ x = y) :
    ∀ x, x ∈ (n.modifyAt f q).denote ↔ x ∈ n.denote ∨ x = n.path_to q ++ y := by
  induction q generalizing n with
  | nil =>
    simp [Node.get?] at h
    subst h
    simpa [Node.modifyAt, Node.path_to] using hf
  | cons k rest ih =>
    cases n with
    | leaf i p t s e => simp [Node.get?] at h
    | internal i p cs =>
      simp only [Node.get?] at h
      cases hc : cs[k]? with
      | none => simp [hc] at h
      | some c =>
        simp only [hc] at h
        have hklt : k < cs.length := by
          by_contra hlt
          simp [List.getElem?_eq_none (Nat.le_of_not_lt hlt)] at hc
        have hget : (cs.set k (c.modifyAt f rest))[k]? = some (c.modifyAt f rest) := by
          rw [List.getElem?_set_self hklt]
        have hcm : c ∈ cs := List.getElem?_mem hc
        have ihc := ih h
        intro x
        simp only [Node.modifyAt, hc, Node.denote, List.mem_map, Node.mem_denote_list,
          Node.path_to]
        constructor
        · rintro ⟨z, ⟨c1, hc1, hz⟩, rfl⟩
          rcases List.mem_or_eq_of_mem_set hc1 with hc1 | hc1
          · left; exact ⟨z, ⟨c1, hc1, hz⟩, rfl⟩
          · subst hc1
            rcases (ihc z).mp hz with hz | hz
            · left; exact ⟨z, ⟨c, hcm, hz⟩, rfl⟩
            · right; rw [hz]; simp
        · rintro (⟨z, ⟨c1, hc1, hz⟩, rfl⟩ | hx)
          · obtain ⟨j, hj, hjc⟩ := List.getElem_of_mem hc1
            by_cases hjk : j = k
            · subst hjk
              have : c1 = c := by
                rw [List.getElem?_eq_getElem hj] at hc
                exact hjc ▸ (Option.some.inj hc)
              subst this
              exact ⟨z, ⟨_, List.getElem?_mem hget, (ihc z).mpr (Or.inl hz)⟩, rfl⟩
            · refine ⟨z, ⟨c1, ?_, hz⟩, rfl⟩
              have : (cs.set k (c.modifyAt f rest))[j]? = some c1 := by
                rw [List.getElem?_set_ne (Ne.symm hjk), List.getElem?_eq_getElem hj, hjc]
              exact List.getElem?_mem this
          · refine ⟨c.path_to rest ++ y, ⟨_, List.getElem?_mem hget, (ihc _).mpr (Or.inr rfl)⟩, ?_⟩
            rw [hx]; simp

/-- A local step applied at position `q` of a good root. -/
theorem apply_step {root m : Node} {q rel : Pos} {y : ExecPath} (f : Node → Node)
    (hr : root.RootGood) (hq : root.get? q = some m) (hs : Step m (f m) rel y) :
    (root.modifyAt f q).RootGood ∧
    (∃ l, (root.modifyAt f q).get? (q ++ rel) = some l ∧ l.is_leaf = true) ∧
    (root.modifyAt f q).path_log (q ++ rel) = root.path_to q ++ y ∧
    ∀ x, x ∈ (root.modifyAt f q).denote ↔ x ∈ root.denote ∨ x = root.path_to q ++ y := by
  refine ⟨?_, ?_, ?_, Node.mem_denote_modifyAt f hq hs.den⟩
  · apply Node.RootGood.modifyAt_root f hr hq
    · intro hq0
      subst hq0
      simp [Node.get?] at hq
      subst hq
      exact hs.root hr
    · intro _ hm
      exact hs.good hm
  · rw [Node.get?_modifyAt f hq]
    exact hs.leaf
  · rw [Node.path_log_modifyAt f hq, hs.path]

theorem Node.get?_snoc_inv {n m : Node} {q0 : Pos} {idx : Nat}
    (h : n.get? (q0 ++ [idx]) = some m) :
    ∃ parent, n.get? q0 = some parent ∧ parent.children[idx]? = some m := by
  induction q0 generalizing n with
  | nil =>
    cases n with
    | leaf i p t s e => simp [Node.get?] at h
    | internal i p cs =>
      simp only [List.nil_append, Node.get?] at h
      cases hc : cs[idx]? with
      | none => simp [hc] at h
      | some c =>
        simp only [hc, Node.get?, Option.some.injEq] at h
        subst h
        exact ⟨Node.internal i p cs, by simp [Node.get?], by simpa using hc⟩
  | cons k rest ih =>
    cases n with
    | leaf i p t s e => simp [Node.get?] at h
    | internal i p cs =>
      simp only [List.cons_append, Node.get?] at h
      cases hc : cs[k]? with
      | none => simp [hc] at h
      | some c =>
        simp only [hc] at h
        obtain ⟨parent, h3, h4⟩ := ih h
        exact ⟨parent, by simp [Node.get?, hc, h3], h4⟩

theorem significant_valid (tpc : TracePC) (hS : 0 < tpc.max_significant_execpath_size)
    {epath : ExecPath} (he : ValidPath epath) : ValidPath (tpc.significant epath) := by
  unfold TracePC.significant TracePC.ExecPathSignificantMax
  split
  · exact he
  · rw [subvec_len_zero]
    exact validPath_take he hS

theorem Node.RootGood.good_set_pfx {n : Node} (h : n.RootGood) {p : ExecPath}
    (hp : ValidPath p) : (n.set_pfx p).Good := by
  cases n with
  | leaf i q t s e => exact Or.inr hp
  | internal i q cs =>
    simp only [Node.RootGood, Node.Good, Node.set_pfx] at h ⊢
    exact ⟨hp, h.2⟩

theorem Node.Good.rootGood_of_valid {n : Node} (h : n.Good) (hp : ValidPath n.pfx) :
    n.RootGood := by
  cases n with
  | leaf i q t s e => exact hp
  | internal i q cs =>
    simp only [Node.RootGood, Node.Good] at h ⊢
    exact ⟨Or.inr h.1, h.2⟩

theorem Node.RootGood.root_pfx_cases {n : Node} (h : n.RootGood) :
    (n.pfx = EPSILON ∧ n.is_internal = true) ∨ ValidPath n.pfx := by
  cases n with
  | leaf i p t s e => exact Or.inr h
  | internal i p cs =>
    simp only [Node.RootGood] at h
    rcases h.1 with h1 | h1
    · exact Or.inl ⟨h1.1, rfl⟩
    · exact Or.inr h1

theorem Node.RootGood.root_sorted_children {n : Node} (h : n.RootGood) :
    children_sorted n.children = true := by
  cases n with
  | leaf i p t s e => rfl
  | internal i p cs => exact h.2.2.1

theorem Node.Good.sorted_children {n : Node} (h : n.Good) : children_sorted n.children = true := by
  cases n with
  | leaf i p t s e => rfl
  | internal i p cs => exact h.2.2.1

theorem Node.Good.child_good {n c : Node} (h : n.Good) (hc : c ∈ n.children) : c.Good := by
  cases n with
  | leaf i p t s e => simp at hc
  | internal i p cs => exact (Node.goodList_iff cs).mp h.2.2.2 c hc

theorem Node.RootGood.root_child_good {n c : Node} (h : n.RootGood) (hc : c ∈ n.children) : c.Good := by
  cases n with
  | leaf i p t s e => simp at hc
  | internal i p cs => exact (Node.goodList_iff cs).mp h.2.2.2 c hc

/-- Case 2 with a root that is not Epsilon: a new root at the common part, over
the old root and the new leaf `l`. -/
theorem new_root {root l : Node} {e : ExecPath} (id : Nat) (hr : root.RootGood)
    (hrv : ValidPath root.pfx) (he : ValidPath e) (hnp : ¬ root.pfx <+: e)
    (hl : l.is_leaf = true)
    (hlp : l.pfx = if e.length = common_prefix_length root.pfx e then EPSILON
      else subvec e (common_prefix_length root.pfx e)) :
    let cl := common_prefix_length root.pfx e
    let common := if cl = 0 then EPSILON else subvec_len root.pfx 0 cl
    let c1 := root.set_pfx (subvec root.pfx cl)
    let n := Node.internal id common (add_child (add_child [] c1) l)
    n.RootGood ∧ n.get? [add_child_idx (add_child [] c1) l] = some l ∧
      n.path_log [add_child_idx (add_child [] c1) l] = e ∧
      ∀ x, x ∈ n.denote ↔ x ∈ root.denote ∨ x = e := by
  intro cl common c1 n
  by_cases h0 : cl = 0
  · have hcl : common_prefix_length root.pfx e = 0 := h0
    have hc1p : c1.pfx = root.pfx := by simp [c1, cl, subvec, hcl]
    have hc1 : c1.Good := hr.good_set_pfx (by simpa [cl, subvec, hcl] using hrv)
    have hel : ¬ e.length = 0 := by
      intro h; exact he.1 (List.length_eq_zero.mp h)
    have hlp1 : l.pfx = e := by
      rw [hlp, hcl]; simp [hel, subvec]
    have hlg : l.Good := (Node.good_of_leaf hl).mpr (Or.inr (hlp1 ▸ he))
    have hkey : front c1.pfx ≠ front l.pfx := by
      rw [hc1p, hlp1]
      rcases common_prefix_length_diverge root.pfx e with hd | hd | hd
      · rw [hcl] at hd; exact absurd (by simpa using hd) hrv.1
      · rw [hcl] at hd; exact absurd (by simpa using hd) he.1
      · rw [hcl] at hd; simpa [front] using hd
    have hsorted : children_sorted (add_child (add_child [] c1) l) = true := by
      apply children_sorted_add_child
      · simp [add_child, children_sorted]
      · intro c0 hc0
        have hc0 : c0 = c1 := by simpa [add_child] using hc0
        rw [hc0]; exact hkey
    have hcommon : common = EPSILON := by simp [common, h0]
    refine ⟨?_, ?_, ?_, ?_⟩
    · simp only [n, Node.RootGood, hcommon]
      refine ⟨Or.inl ⟨trivial, ?_⟩, by rw [length_add_child, length_add_child]; simp, hsorted, ?_⟩
      · intro c0 hc0
        rcases mem_add_child.mp hc0 with rfl | hc0
        · rw [hlp1]; exact validPath_front_pos he
        · have hc0 : c0 = c1 := by simpa [add_child] using hc0
          rw [hc0, hc1p]; exact validPath_front_pos hrv
      · rw [Node.goodList_iff]
        intro c0 hc0
        rcases mem_add_child.mp hc0 with rfl | hc0
        · exact hlg
        · have hc0 : c0 = c1 := by simpa [add_child] using hc0
          rw [hc0]; exact hc1
    · simp [n, Node.get?, add_child_get]
    · simp only [n, Node.path_log, add_child_get, Node.path_log_nil, vec_concat, hcommon,
        hlp1, squeeze_of_valid he]
      simp
    · intro x
      simp only [n, hcommon, Node.denote, List.mem_map, Node.mem_denote_list, mem_add_child,
        squeeze_epsilon, List.nil_append, exists_eq_right]
      constructor
      · rintro ⟨c0, hc0 | hc0, hx⟩
        · subst hc0
          rw [Node.denote_of_leaf hl, List.mem_singleton, hlp1, squeeze_of_valid he] at hx
          exact Or.inr hx
        · have hc0 : c0 = c1 := by simpa [add_child] using hc0
          subst hc0
          left
          rw [Node.mem_denote] at hx ⊢
          obtain ⟨z, hz, rfl⟩ := hx
          exact ⟨z, by simpa [c1] using hz, by rw [hc1p]⟩
      · rintro (hx | hx)
        · refine ⟨c1, Or.inr (by simp [add_child]), ?_⟩
          rw [Node.mem_denote] at hx ⊢
          obtain ⟨z, hz, rfl⟩ := hx
          exact ⟨z, by simpa [c1] using hz, by rw [hc1p]⟩
        · refine ⟨l, Or.inl rfl, ?_⟩
          rw [Node.denote_of_leaf hl, hlp1, squeeze_of_valid he, hx]; simp
  · have hfront : front root.pfx = front e := by
      have h1 : 0 < common_prefix_length root.pfx e := Nat.pos_of_ne_zero h0
      have h4 := take_common_prefix_length root.pfx e
      rw [← front_take h1, h4, front_take h1]
    have hcommon : common = subvec_len root.pfx 0 cl := by simp [common, h0]
    have hrg : root.Good := by
      have := hr.good_set_pfx hrv
      cases root <;> simpa [Node.set_pfx] using this
    obtain ⟨h1, _, h3, h4, h5⟩ := split_child id hrg he hfront hnp hl hlp
    refine ⟨?_, ?_, ?_, ?_⟩
    · simp only [n, hcommon]
      apply Node.Good.rootGood_of_valid h1
      simp only [Node.pfx_internal, subvec_len_zero]
      exact validPath_take hrv (Nat.pos_of_ne_zero h0)
    · simpa [n, Node.get?, add_child_get] using h3
    · simpa only [n, hcommon] using h4
    · simpa only [n, hcommon] using h5
/-! ## `insert` keeps the invariant -/

theorem insertOK_of_step {t : ExecTree} {root m : Node} {q rel : Pos} {y e : ExecPath}
    (f : Node → Node) (nid : Nat) (hroot : t.root = some root) (hr : root.RootGood)
    (hq : root.get? q = some m) (hs : Step m (f m) rel y) (hy : root.path_to q ++ y = e) :
    InsertOK t e ({ root := some (root.modifyAt f q), next_id := nid }, q ++ rel) := by
  obtain ⟨h1, h2, h3, h4⟩ := apply_step f hr hq hs
  refine ⟨by simpa [ExecTree.Good] using h1, ⟨_, rfl, h2, by rw [h3, hy]⟩, ?_⟩
  intro x
  simp only [ExecTree.denote, hroot]
  rw [h4 x, hy]

theorem insertOK_of_root {t : ExecTree} {root n : Node} {pos : Pos} {e : ExecPath} (nid : Nat)
    (hroot : t.root = some root) (hn : n.RootGood)
    (hleaf : ∃ l, n.get? pos = some l ∧ l.is_leaf = true) (hpath : n.path_log pos = e)
    (hden : ∀ x, x ∈ n.denote ↔ x ∈ root.denote ∨ x = e) :
    InsertOK t e ({ root := some n, next_id := nid }, pos) := by
  refine ⟨by simpa [ExecTree.Good] using hn, ⟨_, rfl, hleaf, hpath⟩, ?_⟩
  intro x
  simp only [ExecTree.denote, hroot]
  exact hden x

theorem Node.is_leaf_of_not_internal {m : Node} (h : ¬ m.is_internal = true) :
    m.is_leaf = true := by
  cases m <;> simp_all

theorem Node.is_internal_of_child {m c : Node} {k : Nat} (h : m.children[k]? = some c) :
    m.is_internal = true := by
  cases m <;> simp_all

/-- Every call of `insert` on a good tree with a valid path gives a good tree,
returns the position of a leaf whose squeezed path log is the significant part
of the path, and adds exactly that path to the paths of the tree. -/
theorem insert_set_ok (tpc : TracePC) (hS : 0 < tpc.max_significant_execpath_size)
    (t : ExecTree) (ht : t.Good) (epath : ExecPath) (he : ValidPath epath)
    (inputset : List Input) (run_status : Int) (rnd : Nat) :
    InsertOK t (tpc.significant epath) (t.insert_set tpc epath inputset run_status rnd) := by
  have hev := significant_valid tpc hS he
  unfold ExecTree.insert_set
  generalize tpc.tail_of epath = tl
  generalize tpc.significant epath = e at hev ⊢
  simp only []
  cases hroot : t.root with
  | none =>
    simp only []
    obtain ⟨h1, h2⟩ := insert_inputset_create_leaf rnd tl inputset run_status t.next_id e
    have hsq := squeeze_of_valid hev
    refine ⟨?_, ⟨_, rfl, ⟨_, rfl, h1⟩, ?_⟩, ?_⟩
    · simp only [ExecTree.Good]
      have hg := (Node.good_of_leaf h1).mpr (Or.inr (h2 ▸ hev))
      exact hg.rootGood_of_valid (h2 ▸ hev)
    · rw [Node.path_log_nil, h2, hsq]
    · intro x
      simp [ExecTree.denote, hroot, Node.denote_of_leaf h1, h2, hsq]
  | some root =>
    have hr : root.RootGood := by
      simpa [ExecTree.Good, hroot] using ht
    simp only []
    rcases find_spec_root root hr e hev with ⟨hf, hmiss⟩ | ⟨q, rem, hf, m, hq, heq, hlocal⟩
    · rw [hf]
      simp only []
      rcases hmiss with ⟨hpe, hlook⟩ | ⟨hpe, hnp⟩
      · -- Case 2, Epsilon root
        rw [if_pos hpe]
        obtain ⟨h1, h2⟩ := insert_inputset_create_leaf rnd tl inputset run_status t.next_id e
        have hint : root.is_internal = true := by
          rcases hr.root_pfx_cases with h | h
          · exact h.2
          · exact absurd hpe (validPath_ne_epsilon h)
        have hs := step_add_leaf hint h1 ((Node.good_of_leaf h1).mpr (Or.inr (h2 ▸ hev)))
          (fun c hc => by rw [h2]; exact lookup_child_none.mp hlook c hc)
          (fun _ => by rw [h2]; exact validPath_front_pos hev)
        refine insertOK_of_root _ hroot (hs.root hr) hs.leaf ?_ ?_
        · rw [hs.path, hpe, h2, squeeze_epsilon, squeeze_of_valid hev]; rfl
        · intro x
          rw [hs.den x, hpe, h2, squeeze_epsilon, squeeze_of_valid hev]; rfl
      · -- Case 2, new root
        rw [if_neg hpe]
        have hrv : ValidPath root.pfx := by
          rcases hr.root_pfx_cases with h | h
          · exact absurd h.1 hpe
          · exact h
        obtain ⟨h1, h2⟩ := insert_inputset_create_leaf rnd tl inputset run_status
          (t.next_id + 1)
          (if e.length = common_prefix_length root.pfx e then EPSILON
            else subvec e (common_prefix_length root.pfx e))
        obtain ⟨g1, g2, g3, g4⟩ := new_root t.next_id hr hrv hev hnp h1 h2
        simp only [create_internal, Node.children_internal, Node.set_children_internal]
        exact insertOK_of_root _ hroot g1 ⟨_, g2, h1⟩ g3 g4
    · rw [hf]
      simp only [hq]
      rw [squeeze_of_valid hev] at heq
      have hmch : ∀ c ∈ m.children, c.Good := by
        intro c hc
        by_cases hq0 : q = []
        · subst hq0
          simp [Node.get?] at hq
          subst hq
          exact hr.root_child_good hc
        · exact (hr.get_below hq hq0).child_good hc
      have hms : children_sorted m.children = true := by
        by_cases hq0 : q = []
        · subst hq0
          simp [Node.get?] at hq
          subst hq
          exact hr.root_sorted_children
        · exact (hr.get_below hq hq0).sorted_children
      by_cases hrem : rem = []
      · subst hrem
        simp only [List.length_nil, if_true]
        simp only [List.append_nil] at heq
        by_cases hmi : m.is_internal = true
        · -- Case 3
          rw [if_pos hmi]
          obtain ⟨h1, h2⟩ := insert_inputset_create_leaf rnd tl inputset run_status t.next_id
            EPSILON
          have hmne : m.pfx ≠ EPSILON := by
            by_cases hq0 : q = []
            · subst hq0
              intro hme
              rw [hme, squeeze_epsilon] at heq
              simp [Node.path_to] at heq
              exact hev.1 heq
            · exact (hr.get_below hq hq0).internal_ne_epsilon hmi
          have hkey : ∀ c ∈ m.children, front c.pfx ≠
              front (insert_inputset rnd tl inputset run_status
                (create_leaf t.next_id EPSILON)).pfx := by
            intro c hc
            rw [h2]
            rcases (hmch c hc).pfx_cases with h | h
            · exact absurd h (lookup_child_path_none.mp (hlocal.1 rfl hmi) c hc)
            · have := validPath_front_pos h
              simp [front, EPSILON, EpsilonPCID] at this ⊢
              omega
          have hs := step_add_leaf hmi h1 ((Node.good_of_leaf h1).mpr (Or.inl h2)) hkey
            (fun h => absurd h hmne)
          refine insertOK_of_step _ _ hroot hr hq hs ?_
          rw [h2, squeeze_epsilon, List.append_nil, heq]
        · -- Case 4
          rw [if_neg hmi]
          have hs := step_case4 rnd tl inputset run_status (Node.is_leaf_of_not_internal hmi)
          have := insertOK_of_step (insert_inputset rnd tl inputset run_status) t.next_id
            hroot hr hq hs heq
          simpa using this
      · have hlen : ¬ rem.length = 0 := fun h => hrem (List.length_eq_zero.mp h)
        rw [if_neg hlen]
        obtain ⟨hrv, hleafne, hint⟩ := hlocal.2 hrem
        by_cases hmi : m.is_internal = true
        · rw [if_pos hmi]
          cases hl : lookup_child m.children (front rem) with
          | none =>
            -- Case 5
            simp only []
            obtain ⟨h1, h2⟩ := insert_inputset_create_leaf rnd tl inputset run_status t.next_id
              rem
            have hs := step_add_leaf hmi h1 ((Node.good_of_leaf h1).mpr (Or.inr (h2 ▸ hrv)))
              (fun c hc => by rw [h2]; exact lookup_child_none.mp hl c hc)
              (fun _ => by rw [h2]; exact validPath_front_pos hrv)
            refine insertOK_of_step _ _ hroot hr hq hs ?_
            rw [h2, squeeze_of_valid hrv, ← List.append_assoc, heq]
          | some k =>
            -- Case 6
            obtain ⟨c, hc, hcf, _⟩ := lookup_child_some hl
            simp only [hc]
            have hnp := hint hmi k c hl hc
            obtain ⟨h1, h2⟩ := insert_inputset_create_leaf rnd tl inputset run_status
              (t.next_id + 1)
              (if rem.length = common_prefix_length c.pfx rem then EPSILON
                else subvec rem (common_prefix_length c.pfx rem))
            obtain ⟨g1, g2, g3, g4, g5⟩ := split_child t.next_id
              (hmch c (List.getElem?_mem hc)) hrv hcf hnp h1 h2
            have hs := step_replace_child hmi hms hc g1 g2 ⟨_, g3, h1⟩ g4 g5
            simp only [create_internal, Node.children_internal, Node.set_children_internal]
            have := insertOK_of_step
              (fun n => n.set_children (add_child (m.children.eraseIdx k)
                (Node.internal t.next_id
                  (subvec_len c.pfx 0 (common_prefix_length c.pfx rem))
                  (add_child
                    (add_child [] (Node.set_pfx (subvec c.pfx (common_prefix_length c.pfx rem)) c))
                    (insert_inputset rnd tl inputset run_status
                      (create_leaf (t.next_id + 1)
                        (if rem.length = common_prefix_length c.pfx rem then EPSILON
                          else subvec rem (common_prefix_length c.pfx rem))))))))
              (t.next_id + 2) hroot hr hq hs (by rw [← List.append_assoc, heq])
            simpa using this
        · -- Case 7
          rw [if_neg hmi]
          have hml := Node.is_leaf_of_not_internal hmi
          obtain ⟨h1, h2⟩ := insert_inputset_create_leaf rnd tl inputset run_status
            (t.next_id + 1) rem
          simp only [create_internal, Node.children_internal, Node.set_children_internal]
          rcases List.eq_nil_or_concat q with hq0 | ⟨q0, idx, hq0⟩
          · subst hq0
            simp [Node.get?] at hq
            subst hq
            have hmv : ValidPath root.pfx := by
              rcases hr.root_pfx_cases with h | h
              · exact absurd h.1 (hleafne hml)
              · exact h
            have hs := step_case7 t.next_id hml hmv h1 (h2 ▸ hrv)
            simp only [List.getLast?_nil]
            refine insertOK_of_root _ hroot (hs.root hr) hs.leaf ?_ ?_
            · rw [hs.path, h2]
              simpa [Node.path_to] using heq
            · intro x
              rw [hs.den x, h2]
              simp only [Node.path_to, List.nil_append] at heq
              rw [heq]
          · rw [List.concat_eq_append] at hq0
            subst hq0
            obtain ⟨parent, hp1, hp2⟩ := Node.get?_snoc_inv hq
            have hmg : m.Good := hr.get_below hq (by simp)
            have hmv : ValidPath m.pfx := by
              rcases hmg.pfx_cases with h | h
              · exact absurd h (hleafne hml)
              · exact h
            have hs7 := step_case7 t.next_id hml hmv h1 (h2 ▸ hrv)
            have hpi := Node.is_internal_of_child hp2
            have hps : children_sorted parent.children = true := by
              by_cases hq00 : q0 = []
              · subst hq00
                simp [Node.get?] at hp1
                subst hp1
                exact hr.root_sorted_children
              · exact (hr.get_below hp1 hq00).sorted_children
            have hs := step_replace_child hpi hps hp2 (hs7.good hmg).1 (hs7.good hmg).2
              hs7.leaf hs7.path hs7.den
            simp only [List.getLast?_concat, List.dropLast_concat, hp1]
            have := insertOK_of_step
              (fun n => n.set_children (add_child (parent.children.eraseIdx idx)
                (Node.internal t.next_id m.pfx
                  (add_child (add_child [] (Node.set_pfx EPSILON m))
                    (insert_inputset rnd tl inputset run_status
                      (create_leaf (t.next_id + 1) rem))))))
              (t.next_id + 2) hroot hr hp1 hs
              (by rw [h2, ← List.append_assoc, ← List.append_assoc,
                    ← Node.path_to_snoc hp1 hp2, heq])
            simpa using this

/-! ## `find` reaches every leaf -/

theorem Node.path_log_starts (n : Node) (r : Pos) : ∃ z, n.path_log r = squeeze n.pfx ++ z := by
  cases r with
  | nil => exact ⟨[], by simp [Node.path_log_nil]⟩
  | cons k rest =>
    cases n with
    | leaf i p t s e => exact ⟨[], by simp [Node.path_log, squeeze]⟩
    | internal i p cs =>
      simp only [Node.path_log]
      cases cs[k]? with
      | none => exact ⟨[], by simp [squeeze]⟩
      | some c => exact ⟨c.path_log rest, by simp [vec_concat, squeeze]⟩

theorem Node.get?_leaf_nil {n l : Node} {r : Pos} (hn : n.is_leaf = true)
    (h : n.get? r = some l) : r = [] := by
  cases n with
  | internal i p cs => simp at hn
  | leaf i p t s e =>
    cases r with
    | nil => rfl
    | cons k rest => simp [Node.get?] at h

/-- Below a good node, `find` called with the path log of a leaf returns that
leaf and no remainder (an Epsilon leaf is asked for `EPSILON`). -/
theorem find_complete_nonroot : ∀ n : Node, n.Good → ∀ (acc rest : Pos) (l : Node),
    n.get? rest = some l → l.is_leaf = true →
    n.find acc (if n.pfx = EPSILON then EPSILON else n.path_log rest) =
      (some (acc ++ rest), []) := by
  intro n
  induction n using Node.induct with
  | hleaf i p t s e =>
    intro hn acc rest l hget _
    have hr : rest = [] := Node.get?_leaf_nil (Node.is_leaf_leaf i p t s e) hget
    subst hr
    by_cases hp : p = EPSILON
    · simp [Node.find, hp]
    · simp [Node.find, hp, Node.path_log]
  | hint i p cs ih =>
    intro hn acc rest l hget hl
    simp only [Node.Good] at hn
    have hg := (Node.goodList_iff cs).mp hn.2.2.2
    have hpe : p ≠ EPSILON := validPath_ne_epsilon hn.1
    cases rest with
    | nil =>
      simp [Node.get?] at hget
      subst hget
      simp at hl
    | cons k rest =>
      simp only [Node.get?] at hget
      cases hc : cs[k]? with
      | none => simp [hc] at hget
      | some c =>
        simp only [hc] at hget
        have hcm : c ∈ cs := List.getElem?_mem hc
        have ihc := ih c hcm (hg c hcm) (acc ++ [k]) rest l hget hl
        simp only [Node.pfx_internal, hpe, if_false, Node.path_log, hc, vec_concat]
        by_cases hce : c.pfx = EPSILON
        · have hcl : c.is_leaf = true := by
            by_contra h
            have : c.is_internal = true := by cases c <;> simp_all
            exact (hg c hcm).internal_ne_epsilon this hce
          have hr : rest = [] := Node.get?_leaf_nil hcl hget
          subst hr
          simp only [hce, if_true] at ihc
          have hlk := lookup_child_path_of_sorted hn.2.2.1 hc
          rw [hce] at hlk
          have : (Node.internal i p cs).find acc (p ++ c.path_log []) =
              Node.find_child cs 0 (Sum.inr EPSILON) acc EPSILON (some acc, []) := by
            simp [Node.find, hpe, Node.path_log_nil, hce, squeeze_epsilon]
          rw [this, find_child_inr, hlk]
          simp only [hc, Nat.zero_add]
          simpa using ihc
        · simp only [hce, if_false] at ihc
          have hcv : ValidPath c.pfx := by
            rcases (hg c hcm).pfx_cases with h | h
            · exact absurd h hce
            · exact h
          obtain ⟨z, hz⟩ := Node.path_log_starts c rest
          rw [squeeze_of_valid hcv] at hz
          have hne : c.path_log rest ≠ [] := by
            rw [hz]; simp [hcv.1]
          have hfr : front (c.path_log rest) = front c.pfx := by
            rw [hz]
            cases hcp : c.pfx with
            | nil => exact absurd hcp hcv.1
            | cons a b => simp [front]
          have hlk := lookup_child_of_sorted hn.2.2.1 hc
          have hpre : p <+: p ++ c.path_log rest := List.prefix_append _ _
          have hnq : ¬ (p ++ c.path_log rest = p) := by
            intro h
            exact hne (by simpa using h)
          have : (Node.internal i p cs).find acc (p ++ c.path_log rest) =
              Node.find_child cs 0 (Sum.inl (front (c.path_log rest))) acc (c.path_log rest)
                (some acc, c.path_log rest) := by
            simp only [Node.find, hpe, hnq, and_false, if_false, subvec_len_zero,
              (take_common_prefix_length_eq_iff p _).mpr hpre, subvec,
              cpl_of_isPrefix hpre, ne_eq, not_true_eq_false,
              List.drop_left', List.take_length]
          rw [this, find_child_inl, hfr, hlk]
          simp only [hc, Nat.zero_add]
          simpa using ihc

/-- On a good root, `find` called with the path log of a leaf returns that leaf
and no remainder. -/
theorem find_complete (root : Node) (hr : root.RootGood) (pos : Pos) (l : Node)
    (hget : root.get? pos = some l) (hl : l.is_leaf = true) :
    root.find [] (root.path_log pos) = (some pos, []) := by
  rcases hr.root_pfx_cases with ⟨hpe, hint⟩ | hv
  · cases root with
    | leaf i p t s e => simp at hint
    | internal i p cs =>
      simp only [Node.pfx_internal] at hpe
      subst hpe
      simp only [Node.RootGood] at hr
      have hg := (Node.goodList_iff cs).mp hr.2.2.2
      have hpos : ∀ c ∈ cs, 0 < front c.pfx := by
        rcases hr.1 with h | h
        · exact h.2
        · exact absurd rfl (validPath_ne_epsilon h)
      cases pos with
      | nil =>
        simp [Node.get?] at hget
        subst hget
        simp at hl
      | cons k rest =>
        simp only [Node.get?] at hget
        cases hc : cs[k]? with
        | none => simp [hc] at hget
        | some c =>
          simp only [hc] at hget
          have hcm : c ∈ cs := List.getElem?_mem hc
          have hcv : ValidPath c.pfx := (hg c hcm).valid_of_front_pos (hpos c hcm)
          have ihc := find_complete_nonroot c (hg c hcm) [k] rest l hget hl
          simp only [validPath_ne_epsilon hcv, if_false] at ihc
          obtain ⟨z, hz⟩ := Node.path_log_starts c rest
          rw [squeeze_of_valid hcv] at hz
          have hfr : front (c.path_log rest) = front c.pfx := by
            rw [hz]
            cases hcp : c.pfx with
            | nil => exact absurd hcp hcv.1
            | cons a b => simp [front]
          have hlk := lookup_child_of_sorted hr.2.2.1 hc
          have : (Node.internal i EPSILON cs).find [] ((Node.internal i EPSILON cs).path_log
              (k :: rest)) =
              Node.find_child cs 0 (Sum.inl (front (c.path_log rest))) [] (c.path_log rest)
                (none, c.path_log rest) := by
            simp [Node.find, Node.path_log, hc, vec_concat]
          rw [this, find_child_inl, hfr, hlk]
          simp only [hc, Nat.zero_add]
          simpa using ihc
  · have hg : root.Good := by
      have := hr.good_set_pfx hv
      cases root <;> simpa [Node.set_pfx] using this
    have := find_complete_nonroot root hg [] pos l hget hl
    simpa [validPath_ne_epsilon hv] using this

/-! ## Trees built by `insert` -/

theorem ExecTree.good_empty : ExecTree.empty.Good := by
  simp [ExecTree.Good, ExecTree.empty]

theorem ExecTree.insert_calls_append (tpc : TracePC) (calls : List InsertCall) (c : InsertCall) :
    ExecTree.insert_calls tpc (calls ++ [c]) =
      ((ExecTree.insert_calls tpc calls).insert tpc c.epath c.input c.run_status c.rnd).1 := by
  simp [ExecTree.insert_calls, List.foldl_append]

/-- A tree built by `insert` calls with valid paths is good. -/
theorem ExecTree.insert_calls_good (tpc : TracePC) (hS : 0 < tpc.max_significant_execpath_size)
    (calls : List InsertCall) (hv : ∀ c ∈ calls, ValidPath c.epath) :
    (ExecTree.insert_calls tpc calls).Good := by
  induction calls using List.reverseRecOn with
  | nil => exact ExecTree.good_empty
  | append_singleton calls c ih =>
    rw [ExecTree.insert_calls_append]
    exact (insert_set_ok tpc hS _ (ih (fun c0 hc0 => hv c0 (by simp [hc0]))) c.epath
      (hv c (by simp)) [c.input] c.run_status c.rnd).good

/-! ## The input cap -/

theorem input_x_lt (i k : Int) : Input.lt (input_x i) (input_x k) = decide (i < k) := by
  have h1 : ¬ ("x" : String) < "x" := lt_irrefl _
  by_cases h : i < k
  · simp [Input.lt, Args.lt, input_x, h1, h]
  · by_cases h2 : k < i
    · simp [Input.lt, Args.lt, input_x, h1, h, h2]
    · simp [Input.lt, Args.lt, input_x, h1, h, h2]

theorem set_insert_append_of_greater (l : List Input) (x : Input)
    (h : ∀ y ∈ l, Input.lt x y = false ∧ Input.lt y x = true) : set_insert l x = l ++ [x] := by
  induction l with
  | nil => rfl
  | cons y ys ih =>
    have hy := h y (by simp)
    simp [set_insert, hy.1, hy.2, ih (fun z hz => h z (by simp [hz]))]

theorem mem_inputs_desc {k : Nat} {y : Input} (h : y ∈ inputs_desc k) :
    ∃ j : Nat, j < k ∧ y = input_x (-(j : Int)) := by
  induction k with
  | zero => simp [inputs_desc] at h
  | succ k ih =>
    simp only [inputs_desc, List.mem_cons] at h
    rcases h with h | h
    · exact ⟨k, by omega, h⟩
    · obtain ⟨j, hj, hy⟩ := ih h
      exact ⟨j, by omega, hy⟩

theorem length_inputs_desc (k : Nat) : (inputs_desc k).length = k := by
  induction k with
  | zero => rfl
  | succ k ih => simp [inputs_desc, ih]

theorem set_insert_inputs_desc (k : Nat) :
    set_insert (inputs_desc k) (input_x (-(k : Int))) = inputs_desc (k + 1) := by
  cases k with
  | zero => rfl
  | succ k =>
    have : Input.lt (input_x (-((k + 1 : Nat) : Int))) (input_x (-(k : Int))) = true := by
      rw [input_x_lt]; simp
    simp only [inputs_desc, set_insert, this, if_true]

/-- Inserting on the path `{1}` into the tree that is a single leaf `{1}` with
fewer than 100 inputs. -/
theorem insert_same_leaf (s : List Input) (x : Input) (hs : s.length < 100) :
    (ExecTree.insert tpc10 ⟨some (.leaf 0 [1] [] s false), 1⟩ [1] x 0 0).1 =
      ⟨some (.leaf 0 [1] [] (set_insert s x) false), 1⟩ := by
  have hfull : is_full s = false := by
    simp only [is_full, MAX_INPUT_PER_PATH, decide_eq_false_iff_not]; omega
  simp [ExecTree.insert, ExecTree.insert_set, TracePC.significant, TracePC.tail_of,
    TracePC.ExecPathSignificantMax, tpc10, Node.find, Node.get?, Node.modifyAt,
    insert_inputset, hfull, set_insert_all]

theorem insert_calls_same_path (k : Nat) (hk : k < 100) :
    ExecTree.insert_calls tpc10 (calls_same_path (k + 1)) =
      ⟨some (.leaf 0 [1] [] (inputs_desc (k + 1)) false), 1⟩ := by
  induction k with
  | zero => rfl
  | succ k ih =>
    have : calls_same_path (k + 1 + 1) =
        calls_same_path (k + 1) ++ [⟨[1], input_x (-((k + 1 : Nat) : Int)), 0, 0⟩] := by
      simp [calls_same_path, List.range_succ]
    rw [this, ExecTree.insert_calls_append, ih (by omega)]
    simp only []
    rw [insert_same_leaf _ _ (by rw [length_inputs_desc]; omega), set_insert_inputs_desc]

theorem insert_second_path (s : List Input) (x : Input) :
    (ExecTree.insert tpc10 ⟨some (.leaf 0 [1] [] s false), 1⟩ [2] x 0 0).1 =
      ⟨some (.internal 1 EPSILON [.leaf 0 [1] [] s false, .leaf 2 [2] [] [x] false]), 3⟩ := by
  rfl

theorem purge_and_reinsert_two_leaves (s : List Input) (x : Input) :
    ExecTree.purge_and_reinsert tpc10
      ⟨some (.internal 1 EPSILON [.leaf 0 [1] [] s false, .leaf 2 [2] [] [x] false]), 3⟩
      [1] [2] 0 =
      some ⟨some (.leaf 2 [2] [] (set_insert_all [x] s) false), 3⟩ := by
  rfl

theorem set_insert_all_append (l : List Input) (k : Nat)
    (hl : ∀ y ∈ l, ∃ j : Int, j + k ≤ 0 ∧ y = input_x j) :
    set_insert_all l (inputs_desc k) = l ++ inputs_desc k := by
  induction k generalizing l with
  | zero => simp [inputs_desc, set_insert_all]
  | succ k ih =>
    have h1 : set_insert l (input_x (-(k : Int))) = l ++ [input_x (-(k : Int))] := by
      apply set_insert_append_of_greater
      intro y hy
      obtain ⟨j, hj, rfl⟩ := hl y hy
      rw [input_x_lt, input_x_lt]
      simp only [decide_eq_false_iff_not, decide_eq_true_eq]
      push_cast at hj
      omega
    have h2 := ih (l ++ [input_x (-(k : Int))]) (by
      intro y hy
      rcases List.mem_append.mp hy with hy | hy
      · obtain ⟨j, hj, rfl⟩ := hl y hy
        exact ⟨j, by push_cast at hj; omega, rfl⟩
      · simp only [List.mem_singleton] at hy
        exact ⟨-(k : Int), by omega, hy⟩)
    simp only [inputs_desc, set_insert_all, List.foldl_cons] at h2 ⊢
    rw [h1, h2]
    simp

/-! ## Paths of one subtree start with its key -/

theorem front_append_of_ne_nil {a : ExecPath} (h : a ≠ []) (b : ExecPath) :
    front (a ++ b) = front a := by
  cases a with
  | nil => exact absurd rfl h
  | cons x l => simp [front]

theorem front_squeeze_of_good {n : Node} (h : n.Good) : front (squeeze n.pfx) = front n.pfx := by
  rcases h.pfx_cases with h1 | h1
  · rw [h1, squeeze_epsilon]; rfl
  · rw [squeeze_of_valid h1]

theorem Node.rests_ne_nil (n : Node) (h : n.Good) : n.rests ≠ [] := by
  induction n using Node.induct with
  | hleaf i p t s e => simp [Node.rests]
  | hint i p cs ih =>
    simp only [Node.Good] at h
    have hg := (Node.goodList_iff cs).mp h.2.2.2
    cases cs with
    | nil => simp at h
    | cons c r =>
      have hc := ih c (by simp) (hg c (by simp))
      simp only [Node.rests, Node.denote_list]
      rw [Node.denote_eq]
      intro hnil
      simp only [List.append_eq_nil, List.map_eq_nil_iff] at hnil
      exact hc hnil.1

/-- Every path of a good subtree starts with `prefix[0]` of its root (an Epsilon
leaf stands for the empty path, whose first PCID reads as `0`). -/
theorem Node.front_of_mem_denote {n : Node} (h : n.Good) {x : ExecPath} (hx : x ∈ n.denote) :
    front x = front n.pfx := by
  rw [Node.mem_denote] at hx
  obtain ⟨y, hy, rfl⟩ := hx
  rcases h.pfx_cases with h1 | h1
  · have hl : n.is_leaf = true := by
      by_contra hh
      have : n.is_internal = true := by cases n <;> simp_all
      exact h.internal_ne_epsilon this h1
    rw [Node.rests_of_leaf hl] at hy
    simp only [List.mem_singleton] at hy
    rw [hy, h1, squeeze_epsilon]; rfl
  · rw [squeeze_of_valid h1]
    exact front_append_of_ne_nil h1.1 y

theorem Node.front_path_log {n : Node} (h : n.Good) (r : Pos) :
    front (n.path_log r) = front n.pfx := by
  obtain ⟨z, hz⟩ := Node.path_log_starts n r
  rcases h.pfx_cases with h1 | h1
  · have hl : n.is_leaf = true := by
      by_contra hh
      have : n.is_internal = true := by cases n <;> simp_all
      exact h.internal_ne_epsilon this h1
    cases n with
    | internal i p cs => simp at hl
    | leaf i p t s e =>
      cases r <;> simp_all [Node.path_log, front, EPSILON, EpsilonPCID]
  · rw [hz, squeeze_of_valid h1]
    exact front_append_of_ne_nil h1.1 z

/-- In sorted children, equal keys mean equal indices. -/
theorem children_sorted_index {cs : List Node} (hs : children_sorted cs = true) {j k : Nat}
    {a b : Node} (ha : cs[j]? = some a) (hb : cs[k]? = some b)
    (hf : front a.pfx = front b.pfx) : j = k := by
  have h1 := lookup_child_of_sorted hs ha
  have h2 := lookup_child_of_sorted hs hb
  rw [hf, h2] at h1
  exact (Option.some.inj h1).symm

/-- Radix property below a list of sorted good children: if the path log of the
leaf at `rest` below the child at index `k` is a proper prefix of a path of some
child, then that leaf is an Epsilon leaf. -/
theorem epsilon_of_proper_prefix_children {cs : List Node} (hs : children_sorted cs = true)
    (hg : ∀ c ∈ cs, c.Good)
    (ih : ∀ c ∈ cs, ∀ (rest : Pos) (l : Node) (b : ExecPath), c.get? rest = some l →
      l.is_leaf = true → b ∈ c.denote → c.path_log rest <+: b → c.path_log rest ≠ b →
      l.pfx = EPSILON)
    {k : Nat} {c : Node} (hc : cs[k]? = some c) {rest : Pos} {l : Node}
    (hget : c.get? rest = some l) (hl : l.is_leaf = true) {b : ExecPath}
    (hb : b ∈ Node.denote_list cs) (hpre : c.path_log rest <+: b) (hne : c.path_log rest ≠ b) :
    l.pfx = EPSILON := by
  have hcm : c ∈ cs := List.getElem?_mem hc
  rw [Node.mem_denote_list] at hb
  obtain ⟨c1, hc1, hb1⟩ := hb
  by_cases hnil : c.path_log rest = []
  · obtain ⟨z, hz⟩ := Node.path_log_starts c rest
    rw [hnil] at hz
    have hsq : squeeze c.pfx = [] := by
      have := hz.symm
      simp only [List.append_eq_nil] at this
      exact this.1
    have hce : c.pfx = EPSILON := by
      rcases (hg c hcm).pfx_cases with h | h
      · exact h
      · rw [squeeze_of_valid h] at hsq; exact absurd hsq h.1
    have hcl : c.is_leaf = true := by
      by_contra hh
      have : c.is_internal = true := by cases c <;> simp_all
      exact (hg c hcm).internal_ne_epsilon this hce
    have hr : rest = [] := Node.get?_leaf_nil hcl hget
    subst hr
    simp [Node.get?] at hget
    rw [← hget]; exact hce
  · have hf1 : front (c.path_log rest) = front b := by
      obtain ⟨z, rfl⟩ := hpre
      exact (front_append_of_ne_nil hnil z).symm
    have hf2 := Node.front_path_log (hg c hcm) rest
    have hf3 := Node.front_of_mem_denote (hg c1 hc1) hb1
    obtain ⟨j, hj, hjc⟩ := List.getElem_of_mem hc1
    have hj' : cs[j]? = some c1 := by rw [List.getElem?_eq_getElem hj, hjc]
    have hjk : j = k := children_sorted_index hs hj' hc (by rw [← hf3, ← hf1, hf2])
    subst hjk
    rw [hj'] at hc
    have : c1 = c := Option.some.inj hc
    subst this
    exact ih c1 hc1 rest l b hget hl hb1 hpre hne

theorem epsilon_of_proper_prefix_good : ∀ n : Node, n.Good → ∀ (rest : Pos) (l : Node)
    (b : ExecPath), n.get? rest = some l → l.is_leaf = true → b ∈ n.denote →
    n.path_log rest <+: b → n.path_log rest ≠ b → l.pfx = EPSILON := by
  intro n
  induction n using Node.induct with
  | hleaf i p t s e =>
    intro _ rest l b hget _ hb _ hne
    have hr : rest = [] := Node.get?_leaf_nil (Node.is_leaf_leaf i p t s e) hget
    subst hr
    simp only [Node.denote, List.mem_singleton] at hb
    simp [Node.path_log_nil, hb] at hne
  | hint i p cs ih =>
    intro hn rest l b hget hl hb hpre hne
    simp only [Node.Good] at hn
    have hg := (Node.goodList_iff cs).mp hn.2.2.2
    cases rest with
    | nil =>
      simp [Node.get?] at hget
      subst hget
      simp at hl
    | cons k rest =>
      simp only [Node.get?] at hget
      cases hc : cs[k]? with
      | none => simp [hc] at hget
      | some c =>
        simp only [hc] at hget
        simp only [Node.denote, List.mem_map] at hb
        obtain ⟨b1, hb1, rfl⟩ := hb
        have hpl : (Node.internal i p cs).path_log (k :: rest) = squeeze p ++ c.path_log rest := by
          simp [Node.path_log, hc, vec_concat, squeeze]
        rw [hpl] at hpre hne
        have hpre1 : c.path_log rest <+: b1 := (List.prefix_append_right_inj _).mp hpre
        have hne1 : c.path_log rest ≠ b1 := fun h => hne (by rw [h])
        exact epsilon_of_proper_prefix_children hn.2.2.1 hg
          (fun c0 hc0 => ih c0 hc0 (hg c0 hc0)) hc hget hl hb1 hpre1 hne1

/-- Radix property of a good tree: a leaf whose squeezed path log is a proper
prefix of another path of the tree is an Epsilon leaf. -/
theorem epsilon_of_proper_prefix_root (root : Node) (hr : root.RootGood) (pos : Pos) (l : Node)
    (b : ExecPath) (hget : root.get? pos = some l) (hl : l.is_leaf = true)
    (hb : b ∈ root.denote) (hpre : root.path_log pos <+: b) (hne : root.path_log pos ≠ b) :
    l.pfx = EPSILON := by
  cases root with
  | leaf i p t s e =>
    have hr0 : pos = [] := Node.get?_leaf_nil (Node.is_leaf_leaf i p t s e) hget
    subst hr0
    simp only [Node.denote, List.mem_singleton] at hb
    simp [Node.path_log_nil, hb] at hne
  | internal i p cs =>
    simp only [Node.RootGood] at hr
    have hg := (Node.goodList_iff cs).mp hr.2.2.2
    cases pos with
    | nil =>
      simp [Node.get?] at hget
      subst hget
      simp at hl
    | cons k rest =>
      simp only [Node.get?] at hget
      cases hc : cs[k]? with
      | none => simp [hc] at hget
      | some c =>
        simp only [hc] at hget
        simp only [Node.denote, List.mem_map] at hb
        obtain ⟨b1, hb1, rfl⟩ := hb
        have hpl : (Node.internal i p cs).path_log (k :: rest) = squeeze p ++ c.path_log rest := by
          simp [Node.path_log, hc, vec_concat, squeeze]
        rw [hpl] at hpre hne
        have hpre1 : c.path_log rest <+: b1 := (List.prefix_append_right_inj _).mp hpre
        have hne1 : c.path_log rest ≠ b1 := fun h => hne (by rw [h])
        exact epsilon_of_proper_prefix_children hr.2.2.1 hg
          (fun c0 hc0 => epsilon_of_proper_prefix_good c0 (hg c0 hc0)) hc hget hl hb1 hpre1 hne1

/-! ## The paths of a tree built by `insert` -/

theorem ExecTree.mem_denote_insert_calls (tpc : TracePC)
    (hS : 0 < tpc.max_significant_execpath_size) (calls : List InsertCall)
    (hv : ∀ c ∈ calls, ValidPath c.epath) (x : ExecPath) :
    x ∈ (ExecTree.insert_calls tpc calls).denote ↔
      ∃ c ∈ calls, x = tpc.significant c.epath := by
  induction calls using List.reverseRecOn with
  | nil => simp [ExecTree.insert_calls, ExecTree.denote, ExecTree.empty]
  | append_singleton calls c ih =>
    have hv0 : ∀ c0 ∈ calls, ValidPath c0.epath := fun c0 hc0 => hv c0 (by simp [hc0])
    rw [ExecTree.insert_calls_append]
    have hok := insert_set_ok tpc hS _ (ExecTree.insert_calls_good tpc hS calls hv0) c.epath
      (hv c (by simp)) [c.input] c.run_status c.rnd
    have := hok.den x
    simp only [ExecTree.insert]
    rw [this, ih hv0]
    constructor
    · rintro (⟨c0, hc0, hx⟩ | hx)
      · exact ⟨c0, by simp [hc0], hx⟩
      · exact ⟨c, by simp, hx⟩
    · rintro ⟨c0, hc0, hx⟩
      rcases List.mem_append.mp hc0 with h | h
      · exact Or.inl ⟨c0, h, hx⟩
      · simp only [List.mem_singleton] at h
        subst h
        exact Or.inr hx

/-! ## Inserting a proper prefix -/

theorem significant_eq_take (tpc : TracePC) (x : ExecPath) :
    tpc.significant x = x.take tpc.max_significant_execpath_size := by
  unfold TracePC.significant TracePC.ExecPathSignificantMax
  split
  · rename_i h; exact (List.take_of_length_le h).symm
  · rw [subvec_len_zero]

theorem significant_of_le (tpc : TracePC) {x : ExecPath}
    (h : x.length ≤ tpc.max_significant_execpath_size) :
    tpc.significant x = x ∧ tpc.tail_of x = [] := by
  simp [TracePC.significant, TracePC.tail_of, TracePC.ExecPathSignificantMax, h]

theorem take_isPrefix_take {p r : ExecPath} (h : p <+: r) (n : Nat) : p.take n <+: r.take n := by
  obtain ⟨z, rfl⟩ := h
  rw [List.take_append_eq_append_take]
  exact List.prefix_append _ _

theorem common_prefix_length_append_left (p z : ExecPath) :
    common_prefix_length (p ++ z) p = p.length := by
  induction p with
  | nil => cases z <;> simp [common_prefix_length]
  | cons a l ih => simp [common_prefix_length, ih]

/-- The first half of C6: in a tree built by `insert`, a path that is a proper
prefix of an inserted path and was not inserted itself goes into an Epsilon leaf
below an internal node whose cumulative path is that path. -/
theorem epsilon_leaf_of_nested_insert (tpc : TracePC) (hS : 0 < tpc.max_significant_execpath_size)
    (calls : List InsertCall) (hv : ∀ c ∈ calls, ValidPath c.epath) (r : InsertCall)
    (hr : r ∈ calls) (p : ExecPath) (hp : ValidPath p) (hpre : p <+: r.epath)
    (habs : ∀ c ∈ calls, tpc.significant c.epath ≠ tpc.significant p) (input : Input)
    (run_status : Int) (rnd : Nat) :
    ∃ root q k parent l,
      ((ExecTree.insert_calls tpc calls).insert tpc p input run_status rnd).1.root = some root ∧
      ((ExecTree.insert_calls tpc calls).insert tpc p input run_status rnd).2 = q ++ [k] ∧
      root.get? q = some parent ∧ parent.is_internal = true ∧ root.path_log q = p ∧
      root.get? (q ++ [k]) = some l ∧ l.is_leaf = true ∧ l.pfx = EPSILON := by
  have hg := ExecTree.insert_calls_good tpc hS calls hv
  have hok := insert_set_ok tpc hS _ hg p hp [input] run_status rnd
  obtain ⟨root1, h1, ⟨l, h2, h3⟩, h4⟩ := hok.leaf
  have hrg : root1.RootGood := by
    have := hok.good
    simpa [ExecTree.Good, h1] using this
  have hmem : tpc.significant r.epath ∈ root1.denote := by
    have := (hok.den (tpc.significant r.epath)).mpr
      (Or.inl ((ExecTree.mem_denote_insert_calls tpc hS calls hv _).mpr ⟨r, hr, rfl⟩))
    simpa [ExecTree.denote, h1] using this
  have hsp : tpc.significant p <+: tpc.significant r.epath := by
    rw [significant_eq_take, significant_eq_take]
    exact take_isPrefix_take hpre _
  have hpl : p.length ≤ tpc.max_significant_execpath_size := by
    by_contra hlt
    apply habs r hr
    rw [significant_eq_take, significant_eq_take]
    obtain ⟨z, hz⟩ := hpre
    rw [← hz, List.take_append_of_le_length (by omega)]
  have hsig : tpc.significant p = p := (significant_of_le tpc hpl).1
  have hle := epsilon_of_proper_prefix_root root1 hrg _ l _ h2 h3 hmem (by rw [h4]; exact hsp)
    (by rw [h4]; exact fun h => habs r hr h.symm)
  have hpos : ((ExecTree.insert_calls tpc calls).insert_set tpc p [input] run_status rnd).2 ≠
      [] := by
    intro h0
    rw [h0] at h2
    simp [Node.get?] at h2
    subst h2
    rcases hrg.root_pfx_cases with h | h
    · have := h.2; cases root1 <;> simp_all
    · exact validPath_ne_epsilon h hle
  obtain ⟨q, k, hqk⟩ : ∃ q k,
      ((ExecTree.insert_calls tpc calls).insert_set tpc p [input] run_status rnd).2 =
        q ++ [k] :=
    ⟨_, _, (List.dropLast_append_getLast hpos).symm⟩
  rw [hqk] at h2 h4
  obtain ⟨parent, hp1, hp2⟩ := Node.get?_snoc_inv h2
  refine ⟨root1, q, k, parent, l, h1, hqk, hp1, Node.is_internal_of_child hp2, ?_, h2, h3, hle⟩
  rw [Node.path_log_at hp1, ← Node.path_to_snoc hp1 hp2]
  rw [Node.path_log_at h2, hle, squeeze_epsilon, List.append_nil] at h4
  rw [h4, hsig]

/-- The second half of C6, for paths within the significant length: inserting `r`
then its proper prefix `p`, or `p` then `r`, into the empty tree gives an internal
root `p` over an Epsilon leaf and a leaf with `r` minus `p`. -/
theorem insert_two_nested (tpc : TracePC) (p r : ExecPath) (hp : ValidPath p)
    (hr : ValidPath r) (hpre : p <+: r) (hne : p ≠ r)
    (hlen : r.length ≤ tpc.max_significant_execpath_size) (c1 c2 : InsertCall)
    (h1 : c1.epath = r) (h2 : c2.epath = p) :
    (ExecTree.insert_calls tpc [c1, c2]).IsEpsilonFork p (subvec r p.length) ∧
    (ExecTree.insert_calls tpc [c2, c1]).IsEpsilonFork p (subvec r p.length) := by
  obtain ⟨z, rfl⟩ := hpre
  have hz : z ≠ [] := by
    intro h; apply hne; simp [h]
  have hzv : ValidPath z := ⟨hz, fun x hx => hr.2 x (by simp [hx])⟩
  have hzf : 0 < front z := validPath_front_pos hzv
  have hplen : p.length ≤ tpc.max_significant_execpath_size := by
    simp at hlen; omega
  obtain ⟨s1, s2⟩ := significant_of_le tpc hlen
  obtain ⟨s3, s4⟩ := significant_of_le tpc hplen
  have hpe : p ≠ EPSILON := validPath_ne_epsilon hp
  have hre : p ++ z ≠ EPSILON := validPath_ne_epsilon hr
  have hne2 : ¬ (p ++ z = p) := fun h => hne h.symm
  have hpl0 : p.length ≠ 0 := fun h => hp.1 (List.length_eq_zero.mp h)
  have hzl0 : z.length ≠ 0 := fun h => hz (List.length_eq_zero.mp h)
  have hfz : ¬ (front z = 0) := by omega
  constructor
  · simp only [ExecTree.insert_calls, List.foldl_cons, List.foldl_nil, ExecTree.insert,
      ExecTree.insert_set, ExecTree.empty, h1, h2, s1, s2, s3, s4]
    simp only [insert_inputset, create_leaf, Node.find, hne, if_false, subvec_len_zero,
      common_prefix_length_append_left, List.take_left', ne_eq, hne2, not_false_eq_true,
      if_true, List.isEmpty_nil, Node.pfx_leaf, hre, hpl0, create_internal,
      Node.children_internal, Node.set_children_internal, Node.set_pfx, subvec,
      List.drop_left', add_child]
    rw [if_pos (show front z > front EPSILON from hzf)]
    exact ⟨_, _, _, rfl, rfl, rfl, rfl, rfl, rfl, rfl, rfl⟩
  · simp only [ExecTree.insert_calls, List.foldl_cons, List.foldl_nil, ExecTree.insert,
      ExecTree.insert_set, ExecTree.empty, h1, h2, s1, s2, s3, s4]
    simp only [insert_inputset, create_leaf, Node.find, hne2, if_false, subvec_len_zero,
      common_prefix_length_append, List.take_length, ne_eq, not_true_eq_false,
      List.isEmpty_nil, Node.pfx_leaf, create_internal, subvec, List.drop_left',
      Node.get?, List.length_drop, List.length_append, Node.is_internal_leaf,
      Node.children_internal, Node.set_children_internal, Node.set_pfx, add_child,
      List.getLast?_nil]
    simp only [Nat.add_sub_cancel_left, hzl0, if_false, Bool.false_eq_true]
    rw [if_neg (show ¬ (front EPSILON > front z) from Nat.not_lt.mpr (Nat.zero_le _))]
    exact ⟨_, _, _, rfl, rfl, rfl, rfl, rfl, rfl, rfl, rfl⟩

/-! ## Canonical shape: a good tree is determined by its paths -/

theorem squeeze_inj {a b : ExecPath} (ha : a = EPSILON ∨ ValidPath a)
    (hb : b = EPSILON ∨ ValidPath b) (h : squeeze a = squeeze b) : a = b := by
  rcases ha with ha | ha <;> rcases hb with hb | hb
  · rw [ha, hb]
  · rw [ha, squeeze_epsilon, squeeze_of_valid hb] at h
    exact absurd h.symm hb.1
  · rw [hb, squeeze_epsilon, squeeze_of_valid ha] at h
    exact absurd h ha.1
  · rwa [squeeze_of_valid ha, squeeze_of_valid hb] at h

theorem Node.denote_ne_nil (n : Node) (h : n.Good) : n.denote ≠ [] := by
  rw [Node.denote_eq]
  intro h0
  exact Node.rests_ne_nil n h (List.map_eq_nil_iff.mp h0)

theorem Node.exists_mem_denote (n : Node) (h : n.Good) : ∃ x, x ∈ n.denote :=
  List.exists_mem_of_ne_nil _ (Node.denote_ne_nil n h)

/-- Two children of a sorted list of good nodes give paths with distinct first
PCIDs. -/
theorem two_fronts {cs : List Node} (hlen : 2 ≤ cs.length) (hs : children_sorted cs = true)
    (hg : ∀ c ∈ cs, c.Good) :
    ∃ y0 ∈ Node.denote_list cs, ∃ y1 ∈ Node.denote_list cs, front y0 ≠ front y1 := by
  match cs, hlen with
  | c0 :: c1 :: rest, _ =>
    obtain ⟨y0, h0⟩ := Node.exists_mem_denote c0 (hg c0 (by simp))
    obtain ⟨y1, h1⟩ := Node.exists_mem_denote c1 (hg c1 (by simp))
    refine ⟨y0, Node.mem_denote_list.mpr ⟨c0, by simp, h0⟩, y1,
      Node.mem_denote_list.mpr ⟨c1, by simp, h1⟩, ?_⟩
    rw [Node.front_of_mem_denote (hg c0 (by simp)) h0,
      Node.front_of_mem_denote (hg c1 (by simp)) h1]
    have := (children_sorted_cons.mp hs).1 c1 (by simp)
    omega

theorem struct_eq_list_of_same_denote : ∀ (cs ds : List Node), children_sorted cs = true →
    children_sorted ds = true → (∀ c ∈ cs, c.Good) → (∀ d ∈ ds, d.Good) →
    (∀ c ∈ cs, ∀ d : Node, d.Good → (∀ x, x ∈ c.denote ↔ x ∈ d.denote) →
      c.struct_eq d = true) →
    (∀ x, x ∈ Node.denote_list cs ↔ x ∈ Node.denote_list ds) →
    Node.struct_eq_list cs ds = true := by
  intro cs
  induction cs with
  | nil =>
    intro ds _ _ _ hgd _ hden
    cases ds with
    | nil => simp [Node.struct_eq_list]
    | cons d ds =>
      obtain ⟨x, hx⟩ := Node.exists_mem_denote d (hgd d (by simp))
      have := (hden x).mpr (Node.mem_denote_list.mpr ⟨d, by simp, hx⟩)
      simp [Node.denote_list] at this
  | cons c cs ih =>
    intro ds hsc hsd hgc hgd hih hden
    cases ds with
    | nil =>
      obtain ⟨x, hx⟩ := Node.exists_mem_denote c (hgc c (by simp))
      have := (hden x).mp (Node.mem_denote_list.mpr ⟨c, by simp, hx⟩)
      simp [Node.denote_list] at this
    | cons d ds =>
      have hc := hgc c (by simp)
      have hd := hgd d (by simp)
      obtain ⟨hcl, hsc'⟩ := children_sorted_cons.mp hsc
      obtain ⟨hdl, hsd'⟩ := children_sorted_cons.mp hsd
      have key1 : front d.pfx ≤ front c.pfx := by
        obtain ⟨x, hx⟩ := Node.exists_mem_denote c hc
        have := (hden x).mp (Node.mem_denote_list.mpr ⟨c, by simp, hx⟩)
        obtain ⟨d', hd', hxd⟩ := Node.mem_denote_list.mp this
        have e1 := Node.front_of_mem_denote hc hx
        have e2 := Node.front_of_mem_denote (hgd d' hd') hxd
        rcases List.mem_cons.mp hd' with h | h
        · subst h; omega
        · have := hdl d' h; omega
      have key2 : front c.pfx ≤ front d.pfx := by
        obtain ⟨x, hx⟩ := Node.exists_mem_denote d hd
        have := (hden x).mpr (Node.mem_denote_list.mpr ⟨d, by simp, hx⟩)
        obtain ⟨c', hc', hxc⟩ := Node.mem_denote_list.mp this
        have e1 := Node.front_of_mem_denote hd hx
        have e2 := Node.front_of_mem_denote (hgc c' hc') hxc
        rcases List.mem_cons.mp hc' with h | h
        · subst h; omega
        · have := hcl c' h; omega
      have key : front c.pfx = front d.pfx := by omega
      have hhead : ∀ x, x ∈ c.denote ↔ x ∈ d.denote := by
        intro x
        constructor
        · intro hx
          have := (hden x).mp (Node.mem_denote_list.mpr ⟨c, by simp, hx⟩)
          obtain ⟨d', hd', hxd⟩ := Node.mem_denote_list.mp this
          rcases List.mem_cons.mp hd' with h | h
          · subst h; exact hxd
          · have e1 := Node.front_of_mem_denote hc hx
            have e2 := Node.front_of_mem_denote (hgd d' hd') hxd
            have := hdl d' h; omega
        · intro hx
          have := (hden x).mpr (Node.mem_denote_list.mpr ⟨d, by simp, hx⟩)
          obtain ⟨c', hc', hxc⟩ := Node.mem_denote_list.mp this
          rcases List.mem_cons.mp hc' with h | h
          · subst h; exact hxc
          · have e1 := Node.front_of_mem_denote hd hx
            have e2 := Node.front_of_mem_denote (hgc c' hc') hxc
            have := hcl c' h; omega
      have htail : ∀ x, x ∈ Node.denote_list cs ↔ x ∈ Node.denote_list ds := by
        intro x
        constructor
        · intro hx
          obtain ⟨c', hc', hxc⟩ := Node.mem_denote_list.mp hx
          have := (hden x).mp (Node.mem_denote_list.mpr ⟨c', by simp [hc'], hxc⟩)
          obtain ⟨d', hd', hxd⟩ := Node.mem_denote_list.mp this
          rcases List.mem_cons.mp hd' with h | h
          · subst h
            have e1 := Node.front_of_mem_denote (hgc c' (by simp [hc'])) hxc
            have e2 := Node.front_of_mem_denote hd hxd
            have := hcl c' hc'; omega
          · exact Node.mem_denote_list.mpr ⟨d', h, hxd⟩
        · intro hx
          obtain ⟨d', hd', hxd⟩ := Node.mem_denote_list.mp hx
          have := (hden x).mpr (Node.mem_denote_list.mpr ⟨d', by simp [hd'], hxd⟩)
          obtain ⟨c', hc', hxc⟩ := Node.mem_denote_list.mp this
          rcases List.mem_cons.mp hc' with h | h
          · subst h
            have e1 := Node.front_of_mem_denote (hgd d' (by simp [hd'])) hxd
            have e2 := Node.front_of_mem_denote hc hxc
            have := hdl d' hd'; omega
          · exact Node.mem_denote_list.mpr ⟨c', h, hxc⟩
      simp only [Node.struct_eq_list, Bool.and_eq_true]
      exact ⟨hih c (by simp) d hd hhead,
        ih ds hsc' hsd' (fun c' h => hgc c' (by simp [h])) (fun d' h => hgd d' (by simp [h]))
          (fun c' h => hih c' (by simp [h])) htail⟩

/-- If every path `sa ++ y` is of the form `sb ++ z` and two of the `y` differ in
their first PCID, `sb` is not longer than `sa`. -/
theorem not_longer {sa a1 : ExecPath} {ra rb : List ExecPath}
    (h : ∀ y ∈ ra, ∃ z ∈ rb, sa ++ y = (sa ++ a1) ++ z)
    (ha : ∃ y0 ∈ ra, ∃ y1 ∈ ra, front y0 ≠ front y1) : a1 = [] := by
  by_contra hne
  obtain ⟨y0, h0, y1, h1, hf⟩ := ha
  obtain ⟨z0, _, e0⟩ := h y0 h0
  obtain ⟨z1, _, e1⟩ := h y1 h1
  rw [List.append_assoc] at e0 e1
  have e0 := List.append_cancel_left e0
  have e1 := List.append_cancel_left e1
  apply hf
  rw [e0, e1, front_append_of_ne_nil hne, front_append_of_ne_nil hne]

theorem prefix_eq_of_same_paths {sa sb : ExecPath} {ra rb : List ExecPath}
    (h : ∀ x, x ∈ ra.map (fun y => sa ++ y) ↔ x ∈ rb.map (fun y => sb ++ y))
    (ha : ∃ y0 ∈ ra, ∃ y1 ∈ ra, front y0 ≠ front y1)
    (hb : ∃ y0 ∈ rb, ∃ y1 ∈ rb, front y0 ≠ front y1) : sa = sb := by
  have hab : ∀ y ∈ ra, ∃ z ∈ rb, sa ++ y = sb ++ z := by
    intro y hy
    have := (h (sa ++ y)).mp (List.mem_map.mpr ⟨y, hy, rfl⟩)
    obtain ⟨z, hz, e⟩ := List.mem_map.mp this
    exact ⟨z, hz, e.symm⟩
  have hba : ∀ z ∈ rb, ∃ y ∈ ra, sb ++ z = sa ++ y := by
    intro z hz
    have := (h (sb ++ z)).mpr (List.mem_map.mpr ⟨z, hz, rfl⟩)
    obtain ⟨y, hy, e⟩ := List.mem_map.mp this
    exact ⟨y, hy, e.symm⟩
  obtain ⟨y0, h0, -⟩ := id ha
  obtain ⟨z0, -, e0⟩ := hab y0 h0
  rcases List.append_eq_append_iff.mp e0 with ⟨a1, e1, -⟩ | ⟨c1, e1, -⟩
  · have : a1 = [] := @not_longer sa a1 ra rb
      (by rw [← e1]; exact hab) ha
    rw [e1, this, List.append_nil]
  · have : c1 = [] := @not_longer sb c1 rb ra
      (by rw [← e1]; exact hba) hb
    rw [e1, this, List.append_nil]

/-- The core of uniqueness at an internal node. -/
theorem internal_unique {pa pb : ExecPath} {csa csb : List Node}
    (hpa : pa = EPSILON ∨ ValidPath pa) (hpb : pb = EPSILON ∨ ValidPath pb)
    (hla : 2 ≤ csa.length) (hlb : 2 ≤ csb.length) (hsa : children_sorted csa = true)
    (hsb : children_sorted csb = true) (hga : ∀ c ∈ csa, c.Good) (hgb : ∀ d ∈ csb, d.Good)
    (hih : ∀ c ∈ csa, ∀ d : Node, d.Good → (∀ x, x ∈ c.denote ↔ x ∈ d.denote) →
      c.struct_eq d = true)
    (h : ∀ x, x ∈ (Node.denote_list csa).map (fun y => squeeze pa ++ y) ↔
      x ∈ (Node.denote_list csb).map (fun y => squeeze pb ++ y)) :
    pa = pb ∧ Node.struct_eq_list csa csb = true := by
  have hs : squeeze pa = squeeze pb :=
    prefix_eq_of_same_paths h (two_fronts hla hsa hga) (two_fronts hlb hsb hgb)
  refine ⟨squeeze_inj hpa hpb hs, ?_⟩
  apply struct_eq_list_of_same_denote csa csb hsa hsb hga hgb hih
  intro y
  have := h (squeeze pa ++ y)
  rw [hs] at this
  simpa using this

/-- A single path is not the set of paths of an internal node. -/
theorem leaf_ne_internal {s sp : ExecPath} {cs : List Node} (hl : 2 ≤ cs.length)
    (hs : children_sorted cs = true) (hg : ∀ c ∈ cs, c.Good)
    (h : ∀ x, x ∈ [s] ↔ x ∈ (Node.denote_list cs).map (fun y => sp ++ y)) : False := by
  obtain ⟨y0, h0, y1, h1, hf⟩ := two_fronts hl hs hg
  have e0 := (h (sp ++ y0)).mpr (List.mem_map.mpr ⟨y0, h0, rfl⟩)
  have e1 := (h (sp ++ y1)).mpr (List.mem_map.mpr ⟨y1, h1, rfl⟩)
  rw [List.mem_singleton] at e0 e1
  have := List.append_cancel_left (e0.trans e1.symm)
  exact hf (by rw [this])

theorem struct_eq_of_same_denote : ∀ a : Node, a.Good → ∀ b : Node, b.Good →
    (∀ x, x ∈ a.denote ↔ x ∈ b.denote) → a.struct_eq b = true := by
  intro a
  induction a using Node.induct with
  | hleaf i p t s e =>
    intro ha b hb h
    cases b with
    | leaf j q t2 s2 e2 =>
      simp only [Node.denote, List.mem_singleton] at h
      have := (h (squeeze p)).mp rfl
      simp [Node.struct_eq, Node.is_leaf, Node.pfx, squeeze_inj ha hb this]
    | internal j q ds =>
      exfalso
      obtain ⟨-, hl, hs, hg⟩ := hb
      exact leaf_ne_internal hl hs ((Node.goodList_iff ds).mp hg) h
  | hint i p cs ih =>
    intro ha b hb h
    obtain ⟨hpv, hl, hs, hg⟩ := ha
    cases b with
    | leaf j q t2 s2 e2 =>
      exfalso
      exact leaf_ne_internal hl hs ((Node.goodList_iff cs).mp hg) (fun x => (h x).symm)
    | internal j q ds =>
      obtain ⟨hqv, hl2, hs2, hg2⟩ := hb
      obtain ⟨e1, e2⟩ := internal_unique (Or.inr hpv) (Or.inr hqv) hl hl2 hs hs2
        ((Node.goodList_iff cs).mp hg) ((Node.goodList_iff ds).mp hg2)
        (fun c hc d hd hx => ih c hc ((Node.goodList_iff cs).mp hg c hc) d hd hx) h
      simp [Node.struct_eq, Node.is_internal, Node.pfx, Node.children, e1, e2]

theorem struct_eq_of_same_denote_root (a b : Node) (ha : a.RootGood) (hb : b.RootGood)
    (h : ∀ x, x ∈ a.denote ↔ x ∈ b.denote) : a.struct_eq b = true := by
  cases a with
  | leaf i p t s e =>
    cases b with
    | leaf j q t2 s2 e2 =>
      simp only [Node.denote, List.mem_singleton] at h
      have := (h (squeeze p)).mp rfl
      simp [Node.struct_eq, Node.is_leaf, Node.pfx, squeeze_inj (Or.inr ha) (Or.inr hb) this]
    | internal j q ds =>
      exfalso
      obtain ⟨-, hl, hs, hg⟩ := hb
      exact leaf_ne_internal hl hs ((Node.goodList_iff ds).mp hg) h
  | internal i p cs =>
    obtain ⟨hpv, hl, hs, hg⟩ := ha
    cases b with
    | leaf j q t2 s2 e2 =>
      exfalso
      exact leaf_ne_internal hl hs ((Node.goodList_iff cs).mp hg) (fun x => (h x).symm)
    | internal j q ds =>
      obtain ⟨hqv, hl2, hs2, hg2⟩ := hb
      obtain ⟨e1, e2⟩ := internal_unique (hpv.imp (fun h => h.1) id) (hqv.imp (fun h => h.1) id)
        hl hl2 hs hs2 ((Node.goodList_iff cs).mp hg) ((Node.goodList_iff ds).mp hg2)
        (fun c hc d hd hx =>
          struct_eq_of_same_denote c ((Node.goodList_iff cs).mp hg c hc) d hd hx) h
      simp [Node.struct_eq, Node.is_internal, Node.pfx, Node.children, e1, e2]

/-- Two good trees that stand for the same paths have the same shape. -/
theorem ExecTree.same_shape_of_same_denote (t u : ExecTree) (ht : t.Good) (hu : u.Good)
    (h : ∀ x, x ∈ t.denote ↔ x ∈ u.denote) : t.same_shape u = true := by
  unfold ExecTree.same_shape
  unfold ExecTree.Good at ht hu
  unfold ExecTree.denote at h
  cases hr : t.root with
  | none =>
    cases hr2 : u.root with
    | none => rfl
    | some b =>
      exfalso
      rw [hr, hr2] at h
      rw [hr2] at hu
      cases b with
      | leaf j q t2 s2 e2 => simpa [Node.denote] using h (squeeze q)
      | internal j q ds =>
        obtain ⟨-, hl, hs, hg⟩ := hu
        obtain ⟨y0, h0, -⟩ := two_fronts hl hs ((Node.goodList_iff ds).mp hg)
        simpa [Node.denote] using (h (squeeze q ++ y0)).mpr (List.mem_map.mpr ⟨y0, h0, rfl⟩)
  | some a =>
    cases hr2 : u.root with
    | none =>
      exfalso
      rw [hr, hr2] at h
      rw [hr] at ht
      cases a with
      | leaf j q t2 s2 e2 => simpa [Node.denote] using h (squeeze q)
      | internal j q ds =>
        obtain ⟨-, hl, hs, hg⟩ := ht
        obtain ⟨y0, h0, -⟩ := two_fronts hl hs ((Node.goodList_iff ds).mp hg)
        simpa [Node.denote] using (h (squeeze q ++ y0)).mp (List.mem_map.mpr ⟨y0, h0, rfl⟩)
    | some b =>
      rw [hr, hr2] at h
      rw [hr] at ht
      rw [hr2] at hu
      exact struct_eq_of_same_denote_root a b ht hu h

/-! ## Purging a leaf -/

theorem Node.modifyAt_nil (f : Node → Node) (n : Node) : n.modifyAt f [] = f n := by
  cases n <;> rfl

theorem Node.modifyAt_append (f : Node → Node) (n : Node) (q r : Pos) :
    n.modifyAt f (q ++ r) = n.modifyAt (fun m => m.modifyAt f r) q := by
  induction q generalizing n with
  | nil => simp [Node.modifyAt_nil]
  | cons k rest ih =>
    cases n with
    | leaf i p t s e => simp [Node.modifyAt]
    | internal i p cs =>
      simp only [List.cons_append, Node.modifyAt]
      cases hc : cs[k]? with
      | none => rfl
      | some c => simp only [List.append_eq, ih]

theorem Node.modifyAt_modifyAt (f g : Node → Node) (n : Node) (q : Pos) :
    (n.modifyAt f q).modifyAt g q = n.modifyAt (fun m => g (f m)) q := by
  induction q generalizing n with
  | nil => simp [Node.modifyAt_nil]
  | cons k rest ih =>
    cases n with
    | leaf i p t s e => simp [Node.modifyAt]
    | internal i p cs =>
      simp only [Node.modifyAt]
      cases hc : cs[k]? with
      | none => simp [Node.modifyAt, hc]
      | some c =>
        have hklt : k < cs.length := by
          by_contra hlt
          simp [List.getElem?_eq_none (Nat.le_of_not_lt hlt)] at hc
        simp only [Node.modifyAt, List.getElem?_set_self hklt, List.set_set, ih]

theorem Node.modifyAt_congr {f g : Node → Node} {n m : Node} {q : Pos}
    (h : n.get? q = some m) (hfg : f m = g m) : n.modifyAt f q = n.modifyAt g q := by
  induction q generalizing n with
  | nil =>
    simp [Node.get?] at h
    subst h
    simpa [Node.modifyAt_nil] using hfg
  | cons k rest ih =>
    cases n with
    | leaf i p t s e => simp [Node.modifyAt]
    | internal i p cs =>
      simp only [Node.get?] at h
      simp only [Node.modifyAt]
      cases hc : cs[k]? with
      | none => rfl
      | some c =>
        simp only [hc] at h
        simp only [ih h]

theorem Node.mem_denote_of_get {n m : Node} {q : Pos} {y : ExecPath} (h : n.get? q = some m)
    (hy : y ∈ m.denote) : n.path_to q ++ y ∈ n.denote := by
  induction q generalizing n with
  | nil =>
    simp [Node.get?] at h
    subst h
    simpa [Node.path_to] using hy
  | cons k rest ih =>
    cases n with
    | leaf i p t s e => simp [Node.get?] at h
    | internal i p cs =>
      simp only [Node.get?] at h
      cases hc : cs[k]? with
      | none => simp [hc] at h
      | some c =>
        simp only [hc] at h
        simp only [Node.path_to, hc, Node.denote, List.mem_map, List.append_assoc]
        exact ⟨_, Node.mem_denote_list.mpr ⟨c, List.getElem?_mem hc, ih h⟩, rfl⟩

theorem Node.exists_leaf_of_mem_denote : ∀ (n : Node) (x : ExecPath), x ∈ n.denote →
    ∃ pos l, n.get? pos = some l ∧ l.is_leaf = true ∧ n.path_log pos = x := by
  intro n
  induction n using Node.induct with
  | hleaf i p t s e =>
    intro x hx
    simp only [Node.denote, List.mem_singleton] at hx
    exact ⟨[], _, rfl, rfl, by rw [Node.path_log_nil, hx]; rfl⟩
  | hint i p cs ih =>
    intro x hx
    simp only [Node.denote, List.mem_map] at hx
    obtain ⟨z, hz, rfl⟩ := hx
    obtain ⟨c, hc, hzc⟩ := Node.mem_denote_list.mp hz
    obtain ⟨pos, l, h1, h2, h3⟩ := ih c hc z hzc
    obtain ⟨k, hk, hkc⟩ := List.getElem_of_mem hc
    have hk2 : cs[k]? = some c := by rw [List.getElem?_eq_getElem hk, hkc]
    refine ⟨k :: pos, l, ?_, h2, ?_⟩
    · simp [Node.get?, hk2, h1]
    · have hg : (Node.internal i p cs).get? [k] = some c := by simp [Node.get?, hk2]
      have := Node.path_log_eq hg pos
      simp only [List.singleton_append] at this
      rw [this, h3]
      simp [Node.path_to, hk2]

theorem denote_list_set_remove {cs : List Node} (hs : children_sorted cs = true)
    (hg : ∀ c ∈ cs, c.Good) {k : Nat} {c c1 : Node} (hk : cs[k]? = some c) {w : ExecPath}
    (hw : w ∈ c.denote) (hc1 : ∀ x, x ∈ c1.denote ↔ x ∈ c.denote ∧ x ≠ w) :
    ∀ z, z ∈ Node.denote_list (cs.set k c1) ↔ z ∈ Node.denote_list cs ∧ z ≠ w := by
  have hcm : c ∈ cs := List.getElem?_mem hk
  have hklt : k < cs.length := by
    by_contra hlt
    simp [List.getElem?_eq_none (Nat.le_of_not_lt hlt)] at hk
  intro z
  simp only [Node.mem_denote_list]
  constructor
  · rintro ⟨d, hd, hz⟩
    obtain ⟨j, hj, hjd⟩ := List.getElem_of_mem hd
    have hj2 : (cs.set k c1)[j]? = some d := by rw [List.getElem?_eq_getElem hj, hjd]
    by_cases hjk : k = j
    · subst hjk
      rw [List.getElem?_set_self hklt] at hj2
      simp only [Option.some.injEq] at hj2
      subst hj2
      exact ⟨⟨c, hcm, ((hc1 z).mp hz).1⟩, ((hc1 z).mp hz).2⟩
    · rw [List.getElem?_set_ne hjk] at hj2
      have hdm : d ∈ cs := List.getElem?_mem hj2
      refine ⟨⟨d, hdm, hz⟩, ?_⟩
      intro hzw
      subst hzw
      have e1 := Node.front_of_mem_denote (hg d hdm) hz
      have e2 := Node.front_of_mem_denote (hg c hcm) hw
      exact hjk (children_sorted_index hs hk hj2 (by omega))
  · rintro ⟨⟨d, hd, hz⟩, hzw⟩
    obtain ⟨j, hj, hjd⟩ := List.getElem_of_mem hd
    have hj2 : cs[j]? = some d := by rw [List.getElem?_eq_getElem hj, hjd]
    by_cases hjk : k = j
    · subst hjk
      rw [hk] at hj2
      simp only [Option.some.injEq] at hj2
      subst hj2
      exact ⟨c1, List.getElem?_mem (List.getElem?_set_self hklt), (hc1 z).mpr ⟨hz, hzw⟩⟩
    · refine ⟨d, ?_, hz⟩
      have : (cs.set k c1)[j]? = some d := by rw [List.getElem?_set_ne hjk]; exact hj2
      exact List.getElem?_mem this

theorem mem_denote_modifyAt_remove_internal {i : Nat} {p : ExecPath} {cs : List Node}
    {k : Nat} {rest : Pos} {c m : Node} (f : Node → Node) {y : ExecPath}
    (hs : children_sorted cs = true) (hg : ∀ c ∈ cs, c.Good) (hk : cs[k]? = some c)
    (hget : c.get? rest = some m) (hy : y ∈ m.denote)
    (hc : ∀ z, z ∈ (c.modifyAt f rest).denote ↔ z ∈ c.denote ∧ z ≠ c.path_to rest ++ y) :
    ∀ x, x ∈ ((Node.internal i p cs).modifyAt f (k :: rest)).denote ↔
      x ∈ (Node.internal i p cs).denote ∧ x ≠ (Node.internal i p cs).path_to (k :: rest) ++ y := by
  have hw := Node.mem_denote_of_get hget hy
  have hl := denote_list_set_remove hs hg hk hw hc
  intro x
  simp only [Node.modifyAt, hk, Node.denote, List.mem_map, Node.path_to, List.append_assoc]
  constructor
  · rintro ⟨z, hz, rfl⟩
    obtain ⟨h1, h2⟩ := (hl z).mp hz
    exact ⟨⟨z, h1, rfl⟩, fun h => h2 (List.append_cancel_left h)⟩
  · rintro ⟨⟨z, hz, rfl⟩, hne⟩
    exact ⟨z, (hl z).mpr ⟨hz, fun h => hne (by rw [h])⟩, rfl⟩

theorem Node.Good.mem_denote_modifyAt_remove {n m : Node} {q : Pos} (f : Node → Node)
    {y : ExecPath} (hn : n.Good) (h : n.get? q = some m) (hy : y ∈ m.denote)
    (hf : ∀ x, x ∈ (f m).denote ↔ x ∈ m.denote ∧ x ≠ y) :
    ∀ x, x ∈ (n.modifyAt f q).denote ↔ x ∈ n.denote ∧ x ≠ n.path_to q ++ y := by
  induction q generalizing n with
  | nil =>
    simp [Node.get?] at h
    subst h
    simpa [Node.modifyAt_nil, Node.path_to] using hf
  | cons k rest ih =>
    cases n with
    | leaf i p t s e => simp [Node.get?] at h
    | internal i p cs =>
      simp only [Node.get?] at h
      cases hc : cs[k]? with
      | none => simp [hc] at h
      | some c =>
        simp only [hc] at h
        obtain ⟨-, -, hs, hg⟩ := hn
        have hg := (Node.goodList_iff cs).mp hg
        exact mem_denote_modifyAt_remove_internal f hs hg hc h hy
          (ih (hg c (List.getElem?_mem hc)) h)

theorem Node.RootGood.mem_denote_modifyAt_remove_root {n m : Node} {q : Pos}
    (f : Node → Node) {y : ExecPath} (hn : n.RootGood) (h : n.get? q = some m)
    (hy : y ∈ m.denote) (hf : ∀ x, x ∈ (f m).denote ↔ x ∈ m.denote ∧ x ≠ y) :
    ∀ x, x ∈ (n.modifyAt f q).denote ↔ x ∈ n.denote ∧ x ≠ n.path_to q ++ y := by
  cases q with
  | nil =>
    simp [Node.get?] at h
    subst h
    simpa [Node.modifyAt_nil, Node.path_to] using hf
  | cons k rest =>
    cases n with
    | leaf i p t s e => simp [Node.get?] at h
    | internal i p cs =>
      simp only [Node.get?] at h
      cases hc : cs[k]? with
      | none => simp [hc] at h
      | some c =>
        simp only [hc] at h
        obtain ⟨-, -, hs, hg⟩ := hn
        have hg := (Node.goodList_iff cs).mp hg
        exact mem_denote_modifyAt_remove_internal f hs hg hc h hy
          (Node.Good.mem_denote_modifyAt_remove f (hg c (List.getElem?_mem hc)) h hy hf)

theorem children_sorted_eraseIdx {cs : List Node} (hs : children_sorted cs = true) (k : Nat) :
    children_sorted (cs.eraseIdx k) = true := by
  rw [children_sorted_iff] at *
  exact List.Pairwise.sublist (List.Sublist.map _ (List.eraseIdx_sublist cs k)) hs

theorem denote_list_eraseIdx {cs : List Node} (hs : children_sorted cs = true)
    (hg : ∀ c ∈ cs, c.Good) {k : Nat} {l : Node} (hk : cs[k]? = some l)
    (hl : l.is_leaf = true) :
    ∀ z, z ∈ Node.denote_list (cs.eraseIdx k) ↔
      z ∈ Node.denote_list cs ∧ z ≠ squeeze l.pfx := by
  have hlm : l ∈ cs := List.getElem?_mem hk
  have hw : squeeze l.pfx ∈ l.denote := by rw [Node.denote_of_leaf hl]; simp
  intro z
  simp only [Node.mem_denote_list]
  constructor
  · rintro ⟨d, hd, hz⟩
    obtain ⟨j, hjk, hj⟩ := List.mem_eraseIdx_iff_getElem?.mp hd
    have hdm : d ∈ cs := List.getElem?_mem hj
    refine ⟨⟨d, hdm, hz⟩, ?_⟩
    intro hzw
    subst hzw
    have e1 := Node.front_of_mem_denote (hg d hdm) hz
    have e2 := Node.front_of_mem_denote (hg l hlm) hw
    exact hjk (children_sorted_index hs hj hk (by omega))
  · rintro ⟨⟨d, hd, hz⟩, hzw⟩
    obtain ⟨j, hj, hjd⟩ := List.getElem_of_mem hd
    have hj2 : cs[j]? = some d := by rw [List.getElem?_eq_getElem hj, hjd]
    refine ⟨d, List.mem_eraseIdx_iff_getElem?.mpr ⟨j, ?_, hj2⟩, hz⟩
    intro hjk
    subst hjk
    rw [hk] at hj2
    simp only [Option.some.injEq] at hj2
    subst hj2
    rw [Node.denote_of_leaf hl] at hz
    exact hzw (by simpa using hz)

theorem Node.set_pfx_self (n : Node) : n.set_pfx n.pfx = n := by
  cases n <;> rfl

theorem Node.denote_set_pfx (n : Node) (p : ExecPath) :
    (n.set_pfx p).denote = n.rests.map (fun x => squeeze p ++ x) := by
  rw [Node.denote_eq, Node.rests_set_pfx, Node.pfx_set_pfx]

/-- The child that replaces an internal node with prefix `p` and the only child
`c` stands for the same paths. -/
theorem collapse_ok {p : ExecPath} {c : Node} (hc : c.Good)
    (hp : (p = EPSILON ∧ 0 < front c.pfx) ∨ ValidPath p) :
    (if p = EPSILON then c.set_pfx c.pfx
      else if c.pfx = EPSILON then c.set_pfx p
      else c.set_pfx (vec_concat p c.pfx)).denote = c.denote.map (fun x => squeeze p ++ x) ∧
    (ValidPath p →
      (if p = EPSILON then c.set_pfx c.pfx
        else if c.pfx = EPSILON then c.set_pfx p
        else c.set_pfx (vec_concat p c.pfx)).Good ∧
      front (if p = EPSILON then c.set_pfx c.pfx
        else if c.pfx = EPSILON then c.set_pfx p
        else c.set_pfx (vec_concat p c.pfx)).pfx = front p) ∧
    (if p = EPSILON then c.set_pfx c.pfx
      else if c.pfx = EPSILON then c.set_pfx p
      else c.set_pfx (vec_concat p c.pfx)).RootGood := by
  rcases hp with ⟨hpe, hf⟩ | hpv
  · subst hpe
    simp only [if_true, Node.set_pfx_self, squeeze_epsilon, List.nil_append, List.map_id_fun,
      id_eq, true_and]
    exact ⟨by simp, fun h => absurd rfl (validPath_ne_epsilon h),
      hc.rootGood_of_valid (hc.valid_of_front_pos hf)⟩
  · have hpe : p ≠ EPSILON := validPath_ne_epsilon hpv
    simp only [hpe, if_false]
    by_cases hce : c.pfx = EPSILON
    · simp only [hce, if_true]
      have hg : (c.set_pfx p).Good := hc.set_pfx_good hpv
      refine ⟨?_, fun _ => ⟨hg, by simp⟩, hg.rootGood_of_valid (by simpa using hpv)⟩
      rw [Node.denote_set_pfx, Node.denote_eq, hce, squeeze_epsilon, List.map_map]
      rfl
    · simp only [hce, if_false]
      have hcv : ValidPath c.pfx := hc.pfx_cases.resolve_left hce
      have hv : ValidPath (vec_concat p c.pfx) := by
        refine ⟨by simp [vec_concat, hpv.1], ?_⟩
        intro x hx
        simp only [vec_concat, List.mem_append] at hx
        rcases hx with hx | hx
        · exact hpv.2 x hx
        · exact hcv.2 x hx
      have hg : (c.set_pfx (vec_concat p c.pfx)).Good := hc.set_pfx_good hv
      refine ⟨?_, fun _ => ⟨hg, ?_⟩, hg.rootGood_of_valid (by simpa using hv)⟩
      · rw [Node.denote_set_pfx, Node.denote_eq, squeeze_of_valid hv, squeeze_of_valid hpv,
          squeeze_of_valid hcv, List.map_map]
        simp [vec_concat, Function.comp_def]
      · simp [vec_concat, front_append_of_ne_nil hpv.1]

theorem purge_node_ok {i : Nat} {p : ExecPath} {cs : List Node} {idx : Nat} {l : Node}
    (hlen : 2 ≤ cs.length) (hs : children_sorted cs = true) (hg : ∀ c ∈ cs, c.Good)
    (hk : cs[idx]? = some l) (hl : l.is_leaf = true)
    (hp : (p = EPSILON ∧ ∀ c ∈ cs, 0 < front c.pfx) ∨ ValidPath p) :
    (ValidPath p → (purge_node (.internal i p cs) idx).Good ∧
      front (purge_node (.internal i p cs) idx).pfx = front p) ∧
    (purge_node (.internal i p cs) idx).RootGood ∧
    ∀ x, x ∈ (purge_node (.internal i p cs) idx).denote ↔
      x ∈ (Node.internal i p cs).denote ∧ x ≠ squeeze p ++ squeeze l.pfx := by
  have hklt : idx < cs.length := by
    by_contra hlt
    simp [List.getElem?_eq_none (Nat.le_of_not_lt hlt)] at hk
  have hlen1 : (cs.eraseIdx idx).length = cs.length - 1 := by
    rw [List.length_eraseIdx, if_pos hklt]
  have hs1 := children_sorted_eraseIdx hs idx
  have hg1 : ∀ c ∈ cs.eraseIdx idx, c.Good := fun c hc => hg c (List.mem_of_mem_eraseIdx hc)
  have hden := denote_list_eraseIdx hs hg hk hl
  have hdenx : ∀ x, x ∈ (Node.denote_list (cs.eraseIdx idx)).map (fun y => squeeze p ++ y) ↔
      x ∈ (Node.internal i p cs).denote ∧ x ≠ squeeze p ++ squeeze l.pfx := by
    intro x
    simp only [Node.denote, List.mem_map]
    constructor
    · rintro ⟨z, hz, rfl⟩
      obtain ⟨h1, h2⟩ := (hden z).mp hz
      exact ⟨⟨z, h1, rfl⟩, fun h => h2 (List.append_cancel_left h)⟩
    · rintro ⟨⟨z, hz, rfl⟩, hne⟩
      exact ⟨z, (hden z).mpr ⟨hz, fun h => hne (by rw [h])⟩, rfl⟩
  by_cases h2 : 2 ≤ (cs.eraseIdx idx).length
  · have e : purge_node (.internal i p cs) idx = .internal i p (cs.eraseIdx idx) := by
      simp [purge_node, has_two_or_more_children, h2]
    rw [e]
    refine ⟨fun hpv => ⟨⟨hpv, h2, hs1, (Node.goodList_iff _).mpr hg1⟩, rfl⟩, ?_, ?_⟩
    · refine ⟨?_, h2, hs1, (Node.goodList_iff _).mpr hg1⟩
      rcases hp with ⟨hpe, hf⟩ | hpv
      · exact Or.inl ⟨hpe, fun c hc => hf c (List.mem_of_mem_eraseIdx hc)⟩
      · exact Or.inr hpv
    · exact hdenx
  · obtain ⟨c, hc⟩ : ∃ c, cs.eraseIdx idx = [c] := by
      have : (cs.eraseIdx idx).length = 1 := by omega
      exact List.length_eq_one.mp this
    have hcm : c ∈ cs := List.mem_of_mem_eraseIdx (by rw [hc]; simp)
    have e : purge_node (.internal i p cs) idx =
        (if p = EPSILON then c.set_pfx c.pfx
          else if c.pfx = EPSILON then c.set_pfx p
          else c.set_pfx (vec_concat p c.pfx)) := by
      simp [purge_node, has_two_or_more_children, hc]
    rw [e]
    have hdc : ∀ x, x ∈ c.denote.map (fun y => squeeze p ++ y) ↔
        x ∈ (Node.internal i p cs).denote ∧ x ≠ squeeze p ++ squeeze l.pfx := by
      intro x
      rw [← hdenx x, hc]
      simp [Node.denote_list]
    have hco := collapse_ok (hg c hcm) (hp.imp (fun h => ⟨h.1, h.2 c hcm⟩) id)
    refine ⟨hco.2.1, hco.2.2, ?_⟩
    intro x
    rw [hco.1]
    exact hdc x

theorem eraseIdx_set_self {α : Type} (l : List α) (k : Nat) (x : α) :
    (l.set k x).eraseIdx k = l.eraseIdx k := by
  induction l generalizing k with
  | nil => rfl
  | cons a as ih =>
    cases k with
    | zero => rfl
    | succ k => simp [List.set, List.eraseIdx, ih]

theorem getLast?_snoc (q : Pos) (k : Nat) : (q ++ [k]).getLast? = some k := by simp

theorem dropLast_snoc (q : Pos) (k : Nat) : (q ++ [k]).dropLast = q := by simp

/-- Facts about an internal node below a good root. -/
theorem internal_facts {root parent : Node} {q : Pos} (hr : root.RootGood)
    (hq : root.get? q = some parent) (hi : parent.is_internal = true) :
    2 ≤ parent.children.length ∧ children_sorted parent.children = true ∧
    (∀ c ∈ parent.children, c.Good) ∧
    ((parent.pfx = EPSILON ∧ ∀ c ∈ parent.children, 0 < front c.pfx) ∨ ValidPath parent.pfx) ∧
    (q ≠ [] → parent.Good ∧ ValidPath parent.pfx) := by
  by_cases hq0 : q = []
  · subst hq0
    simp [Node.get?] at hq
    subst hq
    cases root with
    | leaf i p t s e => simp [Node.is_internal] at hi
    | internal i p cs =>
      obtain ⟨h1, h2, h3, h4⟩ := hr
      exact ⟨h2, h3, (Node.goodList_iff cs).mp h4, h1, fun h => absurd rfl h⟩
  · have hg := hr.get_below hq hq0
    cases parent with
    | leaf i p t s e => simp [Node.is_internal] at hi
    | internal i p cs =>
      obtain ⟨h1, h2, h3, h4⟩ := id hg
      exact ⟨h2, h3, (Node.goodList_iff cs).mp h4, Or.inr h1, fun _ => ⟨hg, h1⟩⟩

theorem purge_leaf_eq (tpc : TracePC) (t : ExecTree) (root : Node) (hroot : t.root = some root)
    (hr : root.RootGood) (q : Pos) (idx : Nat) (parent l : Node)
    (hq : root.get? q = some parent) (hk : parent.children[idx]? = some l)
    (hl : l.is_leaf = true) (epath : ExecPath) (hfind : t.find tpc epath = some (q ++ [idx])) :
    t.purge_leaf tpc epath =
      some ({ t with root := some (root.modifyAt (fun m => purge_node m idx) q) }, l) := by
  have hi : parent.is_internal = true := Node.is_internal_of_child hk
  obtain ⟨hlen, hs, hg, hpp, hnr⟩ := internal_facts hr hq hi
  have hgl : root.get? (q ++ [idx]) = some l := by rw [Node.get?_snoc hq idx, hk]
  have hg1 : (root.modifyAt (fun n => n.set_children (n.children.eraseIdx idx)) q).get? q =
      some (parent.set_children (parent.children.eraseIdx idx)) := by
    have := Node.get?_modifyAt (fun n => n.set_children (n.children.eraseIdx idx)) hq []
    simpa [Node.get?] using this
  unfold ExecTree.purge_leaf
  simp only [hroot, hfind, hgl, hl, if_true, getLast?_snoc, dropLast_snoc]
  unfold ExecTree.rm_internal_with_only_child
  simp only [hg1]
  cases parent with
  | leaf i p t s e => simp [Node.is_internal] at hi
  | internal i p cs =>
    simp only [Node.children_internal, Node.set_children_internal, Node.pfx_internal] at *
    by_cases h2 : has_two_or_more_children (.internal i p (cs.eraseIdx idx)) = true
    · simp only [h2, if_true]
      congr 4
      apply Node.modifyAt_congr hq
      simp [purge_node, h2]
    · simp only [h2, if_false]
      cases hce : cs.eraseIdx idx with
      | nil =>
        simp only [Bool.false_eq_true, if_false]
        congr 4
        apply Node.modifyAt_congr hq
        simp [purge_node, hce, has_two_or_more_children]
      | cons c rest =>
        have hpn : purge_node (.internal i p cs) idx =
            (if p = EPSILON then c.set_pfx c.pfx
              else if c.pfx = EPSILON then c.set_pfx p
              else c.set_pfx (vec_concat p c.pfx)) := by
          rw [hce] at h2
          simp [purge_node, hce, h2]
        rcases List.eq_nil_or_concat q with hq0 | ⟨q0, j, hq0⟩
        · subst hq0
          simp [Node.get?] at hq
          subst hq
          simp [Node.modifyAt_nil, hpn]
        · rw [List.concat_eq_append] at hq0
          subst hq0
          obtain ⟨gp, hgp, hgk⟩ := Node.get?_snoc_inv hq
          have hgi : gp.is_internal = true := Node.is_internal_of_child hgk
          obtain ⟨-, hgs, -, -, -⟩ := internal_facts hr hgp hgi
          obtain ⟨hpg, hpv⟩ := hnr (by simp)
          have hfront := ((@purge_node_ok i p cs idx l hlen hs hg hk hl hpp).1 hpv).2
          rw [hpn] at hfront
          simp only [getLast?_snoc, dropLast_snoc, Bool.false_eq_true, if_false]
          congr 4
          rw [Node.modifyAt_append, Node.modifyAt_modifyAt, Node.modifyAt_append]
          apply Node.modifyAt_congr hgp
          cases gp with
          | leaf gi gpp gt gs ge => simp [Node.is_internal] at hgi
          | internal gi gpp gcs =>
            simp only [Node.children_internal] at hgk hgs
            have hjl : j < gcs.length := by
              by_contra hlt
              simp [List.getElem?_eq_none (Nat.le_of_not_lt hlt)] at hgk
            simp only [Node.modifyAt, hgk, Node.modifyAt_nil, Node.set_children_internal,
              Node.children_internal, eraseIdx_set_self, hpn]
            rw [(add_child_eraseIdx hgs hgk (by simpa using hfront)).1]

/-- What `purge_leaf` achieves on a good tree for a stored path: the leaf of the
path is returned, and the tree left is good and stands for the other paths. -/
theorem purge_leaf_ok (tpc : TracePC) (t : ExecTree) (ht : t.Good) (p : ExecPath)
    (hp : p ∈ t.denote) (hsig : tpc.significant p = p) :
    ∃ t1 l, t.purge_leaf tpc p = some (t1, l) ∧ l.is_leaf = true ∧ t1.Good ∧
      ∀ x, x ∈ t1.denote ↔ x ∈ t.denote ∧ x ≠ p := by
  cases hroot : t.root with
  | none => simp [ExecTree.denote, hroot] at hp
  | some root =>
    have hr : root.RootGood := by simpa [ExecTree.Good, hroot] using ht
    have hp2 : p ∈ root.denote := by simpa [ExecTree.denote, hroot] using hp
    obtain ⟨pos, l, hget, hl, hpath⟩ := Node.exists_leaf_of_mem_denote root p hp2
    have hf := find_complete root hr pos l hget hl
    rw [hpath] at hf
    have hfind : t.find tpc p = some pos := by
      simp [ExecTree.find, hroot, hsig, hf]
    rcases List.eq_nil_or_concat pos with h0 | ⟨q, idx, h0⟩
    · subst h0
      simp [Node.get?] at hget
      subst hget
      refine ⟨{ t with root := none }, root, ?_, hl, by simp [ExecTree.Good], ?_⟩
      · simp [ExecTree.purge_leaf, hroot, hfind, Node.get?, hl]
      · intro x
        have hd : root.denote = [p] := by
          rw [Node.denote_of_leaf hl, ← Node.path_log_nil, hpath]
        simp [ExecTree.denote, hroot, hd]
    · rw [List.concat_eq_append] at h0
      subst h0
      obtain ⟨parent, hq, hk⟩ := Node.get?_snoc_inv hget
      have hi : parent.is_internal = true := Node.is_internal_of_child hk
      obtain ⟨hlen, hs, hg, hpp, hnr⟩ := internal_facts hr hq hi
      refine ⟨_, l, purge_leaf_eq tpc t root hroot hr q idx parent l hq hk hl p hfind, hl, ?_, ?_⟩
      · cases parent with
        | leaf i pp tt s e => simp [Node.is_internal] at hi
        | internal i pp cs =>
          simp only [Node.children_internal, Node.pfx_internal] at hlen hs hg hpp hnr hk
          have hok := @purge_node_ok i pp cs idx l hlen hs hg hk hl hpp
          have : (root.modifyAt (fun m => purge_node m idx) q).RootGood :=
            hr.modifyAt_root (fun m => purge_node m idx) hq (fun _ => hok.2.1)
              (fun hq0 _ => hok.1 (hnr hq0).2)
          simpa [ExecTree.Good] using this
      · cases parent with
        | leaf i pp tt s e => simp [Node.is_internal] at hi
        | internal i pp cs =>
          simp only [Node.children_internal, Node.pfx_internal] at hlen hs hg hpp hnr hk
          have hok := @purge_node_ok i pp cs idx l hlen hs hg hk hl hpp
          have hy : squeeze pp ++ squeeze l.pfx ∈ (Node.internal i pp cs).denote := by
            simp only [Node.denote, List.mem_map]
            refine ⟨_, Node.mem_denote_list.mpr ⟨l, List.getElem?_mem hk, ?_⟩, rfl⟩
            rw [Node.denote_of_leaf hl]; simp
          have hden := hr.mem_denote_modifyAt_remove_root (fun m => purge_node m idx) hq hy
            hok.2.2
          have hpl : root.path_to q ++ (squeeze pp ++ squeeze l.pfx) = p := by
            rw [← hpath, Node.path_log_at hget, Node.path_to_snoc hq hk]
            simp
          rw [hpl] at hden
          intro x
          simpa [ExecTree.denote, hroot] using hden x

/-- What `purge_and_reinsert` achieves on a good tree for a stored path. -/
theorem purge_and_reinsert_ok (tpc : TracePC) (hS : 0 < tpc.max_significant_execpath_size)
    (t : ExecTree) (ht : t.Good) (p : ExecPath) (hp : p ∈ t.denote)
    (hsig : tpc.significant p = p) (q : ExecPath) (hq : ValidPath q) (rnd : Nat) :
    ∃ t2, t.purge_and_reinsert tpc p q rnd = some t2 ∧ t2.Good ∧
      ∀ x, x ∈ t2.denote ↔ (x ∈ t.denote ∧ x ≠ p) ∨ x = tpc.significant q := by
  obtain ⟨t1, l, h1, -, hg1, hd1⟩ := purge_leaf_ok tpc t ht p hp hsig
  have hok := insert_set_ok tpc hS t1 hg1 q hq (ExecTree.leaf_inputset l)
    (if ExecTree.leaf_exception_path l then 1 else 0) rnd
  refine ⟨_, by simp only [ExecTree.purge_and_reinsert, h1], hok.good, ?_⟩
  intro x
  rw [hok.den x, hd1 x]

theorem mem_eraseIdx_epath {calls : List InsertCall}
    (hd : (calls.map InsertCall.epath).Nodup) {i : Nat} (hi : i < calls.length) (x : ExecPath) :
    (∃ c ∈ calls.eraseIdx i, x = c.epath) ↔ (∃ c ∈ calls, x = c.epath) ∧ x ≠ calls[i].epath := by
  constructor
  · rintro ⟨c, hc, rfl⟩
    obtain ⟨j, hji, hj⟩ := List.mem_eraseIdx_iff_getElem?.mp hc
    refine ⟨⟨c, List.getElem?_mem hj, rfl⟩, ?_⟩
    intro he
    obtain ⟨hjl, hjc⟩ := List.getElem?_eq_some.mp hj
    apply hji
    have h1 : (calls.map InsertCall.epath)[j]? = some c.epath := by
      simp [hj]
    have h2 : (calls.map InsertCall.epath)[i]? = some c.epath := by
      simp [List.getElem?_eq_getElem hi, he]
    have hjl2 : j < (calls.map InsertCall.epath).length := by simpa using hjl
    have hil2 : i < (calls.map InsertCall.epath).length := by simpa using hi
    rw [List.getElem?_eq_getElem hjl2] at h1
    rw [List.getElem?_eq_getElem hil2] at h2
    exact (List.Nodup.getElem_inj_iff hd).mp (Option.some.inj (h1.trans h2.symm))
  · rintro ⟨⟨c, hc, rfl⟩, hne⟩
    obtain ⟨j, hj, hjc⟩ := List.getElem_of_mem hc
    refine ⟨c, List.mem_eraseIdx_iff_getElem?.mpr ⟨j, ?_, ?_⟩, rfl⟩
    · intro hji
      subst hji
      exact hne (by rw [hjc])
    · rw [List.getElem?_eq_getElem hj, hjc]

/-! ## Nodes, addresses and positions -/

theorem split_at_index {α : Type} : ∀ {cs : List α} {k : Nat} {c : α}, cs[k]? = some c →
    cs = cs.take k ++ c :: cs.drop (k + 1)
  | [], k, c, h => by simp at h
  | a :: as, 0, c, h => by
    simp only [List.getElem?_cons_zero, Option.some.injEq] at h
    simp [h]
  | a :: as, k + 1, c, h => by
    simp only [List.getElem?_cons_succ] at h
    have := split_at_index h
    simp only [List.take_succ_cons, List.drop_succ_cons, List.cons_append]
    rw [← this]

theorem set_at_index {α : Type} : ∀ {cs : List α} {k : Nat} {c : α}, cs[k]? = some c →
    ∀ x : α, cs.set k x = cs.take k ++ x :: cs.drop (k + 1)
  | [], k, c, h => by simp at h
  | a :: as, 0, c, h => by simp
  | a :: as, k + 1, c, h => by
    intro x
    simp only [List.getElem?_cons_succ] at h
    simp only [List.set_cons_succ, List.take_succ_cons, List.drop_succ_cons, List.cons_append]
    rw [set_at_index h x]

theorem Node.nodes_internal (i : Nat) (p : ExecPath) (cs : List Node) :
    (Node.internal i p cs).nodes = Node.internal i p cs :: Node.nodes_list cs := rfl

theorem Node.self_mem_nodes (n : Node) : n ∈ n.nodes := by
  cases n <;> simp [Node.nodes]

theorem Node.nodes_eq_cons (n : Node) : n.nodes = n :: Node.nodes_list n.children := by
  cases n <;> simp [Node.nodes, Node.nodes_list, Node.children]

theorem Node.nodes_list_append (a b : List Node) :
    Node.nodes_list (a ++ b) = Node.nodes_list a ++ Node.nodes_list b := by
  induction a with
  | nil => rfl
  | cons c cs ih => simp [Node.nodes_list, ih]

theorem Node.mem_nodes_trans : ∀ (n : Node) {m x : Node}, m ∈ n.nodes → x ∈ m.nodes →
    x ∈ n.nodes := by
  intro n
  induction n using Node.induct with
  | hleaf i p t s e =>
    intro m x hm hx
    simp only [Node.nodes, List.mem_singleton] at hm
    subst hm
    exact hx
  | hint i p cs ih =>
    intro m x hm hx
    rw [Node.nodes_internal, List.mem_cons] at hm
    rcases hm with hm | hm
    · subst hm; exact hx
    · obtain ⟨c, hc, hmc⟩ := Node.mem_nodes_list.mp hm
      rw [Node.nodes_internal, List.mem_cons]
      exact Or.inr (Node.mem_nodes_list.mpr ⟨c, hc, ih c hc hmc hx⟩)

theorem Node.mem_nodes_of_child {n c : Node} (hc : c ∈ n.children) : c ∈ n.nodes := by
  rw [Node.nodes_eq_cons]
  exact List.mem_cons_of_mem _ (Node.mem_nodes_list.mpr ⟨c, hc, c.self_mem_nodes⟩)

theorem Node.mem_nodes_of_get {n m : Node} {q : Pos} (h : n.get? q = some m) :
    m ∈ n.nodes := by
  induction q generalizing n with
  | nil =>
    simp [Node.get?] at h
    subst h
    exact n.self_mem_nodes
  | cons k rest ih =>
    cases n with
    | leaf i p t s e => simp [Node.get?] at h
    | internal i p cs =>
      simp only [Node.get?] at h
      cases hc : cs[k]? with
      | none => simp [hc] at h
      | some c =>
        simp only [hc] at h
        rw [Node.nodes_internal, List.mem_cons]
        exact Or.inr (Node.mem_nodes_list.mpr ⟨c, List.getElem?_mem hc, ih h⟩)

theorem Node.mem_nodes_list_of_get {n m : Node} {q : Pos} (h : n.get? q = some m)
    (hq : q ≠ []) : m ∈ Node.nodes_list n.children := by
  cases q with
  | nil => exact absurd rfl hq
  | cons k rest =>
    cases n with
    | leaf i p t s e => simp [Node.get?] at h
    | internal i p cs =>
      simp only [Node.get?] at h
      cases hc : cs[k]? with
      | none => simp [hc] at h
      | some c =>
        simp only [hc] at h
        exact Node.mem_nodes_list.mpr ⟨c, List.getElem?_mem hc, Node.mem_nodes_of_get h⟩

theorem Node.exists_get_of_mem_nodes : ∀ (n : Node) {m : Node}, m ∈ n.nodes →
    ∃ q, n.get? q = some m := by
  intro n
  induction n using Node.induct with
  | hleaf i p t s e =>
    intro m hm
    simp only [Node.nodes, List.mem_singleton] at hm
    subst hm
    exact ⟨[], rfl⟩
  | hint i p cs ih =>
    intro m hm
    rw [Node.nodes_internal, List.mem_cons] at hm
    rcases hm with hm | hm
    · subst hm; exact ⟨[], rfl⟩
    · obtain ⟨c, hc, hmc⟩ := Node.mem_nodes_list.mp hm
      obtain ⟨q, hq⟩ := ih c hc hmc
      obtain ⟨k, hk, hkc⟩ := List.getElem_of_mem hc
      refine ⟨k :: q, ?_⟩
      simp [Node.get?, List.getElem?_eq_getElem hk, hkc, hq]

theorem Node.exists_get_of_mem_nodes_list {n m : Node}
    (hm : m ∈ Node.nodes_list n.children) : ∃ q, q ≠ [] ∧ n.get? q = some m := by
  obtain ⟨c, hc, hmc⟩ := Node.mem_nodes_list.mp hm
  obtain ⟨q, hq⟩ := Node.exists_get_of_mem_nodes c hmc
  obtain ⟨k, hk, hkc⟩ := List.getElem_of_mem hc
  refine ⟨k :: q, by simp, ?_⟩
  cases n with
  | leaf i p t s e => simp [Node.children] at hc
  | internal i p cs =>
    simp only [Node.children_internal] at hk hkc
    simp [Node.get?, List.getElem?_eq_getElem hk, hkc, hq]

theorem Node.mem_ids {n : Node} {i : Nat} : i ∈ n.ids ↔ ∃ m ∈ n.nodes, m.id = i := by
  simp [Node.ids]

theorem Node.mem_ids_list {cs : List Node} {i : Nat} :
    i ∈ Node.ids_list cs ↔ ∃ c ∈ cs, i ∈ c.ids := by
  simp only [Node.ids_list, Node.ids, List.mem_map, Node.mem_nodes_list]
  constructor
  · rintro ⟨m, ⟨c, hc, hm⟩, rfl⟩
    exact ⟨c, hc, m, hm, rfl⟩
  · rintro ⟨c, hc, m, hm, rfl⟩
    exact ⟨m, ⟨c, hc, hm⟩, rfl⟩

theorem Node.ids_internal (i : Nat) (p : ExecPath) (cs : List Node) :
    (Node.internal i p cs).ids = i :: Node.ids_list cs := rfl

theorem Node.ids_eq_cons (n : Node) : n.ids = n.id :: Node.ids_list n.children := by
  simp [Node.ids, Node.ids_list, Node.nodes_eq_cons n]

theorem Node.ids_list_cons (c : Node) (cs : List Node) :
    Node.ids_list (c :: cs) = c.ids ++ Node.ids_list cs := by
  simp [Node.ids_list, Node.ids, Node.nodes_list]

theorem Node.ids_list_append (a b : List Node) :
    Node.ids_list (a ++ b) = Node.ids_list a ++ Node.ids_list b := by
  simp [Node.ids_list, Node.nodes_list_append]

theorem Node.id_mem_ids (n : Node) : n.id ∈ n.ids :=
  Node.mem_ids.mpr ⟨n, n.self_mem_nodes, rfl⟩

theorem Node.ids_subset_of_get {n m : Node} {q : Pos} (h : n.get? q = some m) {i : Nat}
    (hi : i ∈ m.ids) : i ∈ n.ids := by
  obtain ⟨x, hx, rfl⟩ := Node.mem_ids.mp hi
  exact Node.mem_ids.mpr ⟨x, Node.mem_nodes_trans n (Node.mem_nodes_of_get h) hx, rfl⟩

/-- With distinct addresses, a node of the tree is determined by its address. -/
theorem Node.eq_of_id_eq {n a b : Node} (hnd : n.ids.Nodup) (ha : a ∈ n.nodes)
    (hb : b ∈ n.nodes) (h : a.id = b.id) : a = b :=
  List.inj_on_of_nodup_map hnd ha hb h

theorem Node.nodup_ids_of_get {n m : Node} {q : Pos} (hnd : n.ids.Nodup)
    (h : n.get? q = some m) : m.ids.Nodup := by
  induction q generalizing n with
  | nil =>
    simp [Node.get?] at h
    subst h
    exact hnd
  | cons k rest ih =>
    cases n with
    | leaf i p t s e => simp [Node.get?] at h
    | internal i p cs =>
      simp only [Node.get?] at h
      cases hc : cs[k]? with
      | none => simp [hc] at h
      | some c =>
        simp only [hc] at h
        apply ih _ h
        rw [Node.ids_internal, List.nodup_cons] at hnd
        have hsplit := split_at_index hc
        have h2 := hnd.2
        rw [hsplit, Node.ids_list_append, Node.ids_list_cons] at h2
        exact (List.nodup_append.mp (List.nodup_append.mp h2).2.1).1

/-- With distinct addresses, the address of a node does not occur strictly below
it. -/
theorem Node.id_not_mem_ids_list {n : Node} (hnd : n.ids.Nodup) :
    n.id ∉ Node.ids_list n.children := by
  rw [Node.ids_eq_cons, List.nodup_cons] at hnd
  exact hnd.1

theorem Node.id_not_mem_ids_of_get {n m : Node} {q : Pos} (hnd : n.ids.Nodup)
    (h : n.get? q = some m) (hq : q ≠ []) : n.id ∉ m.ids := by
  intro hi
  apply Node.id_not_mem_ids_list hnd
  obtain ⟨x, hx, hxi⟩ := Node.mem_ids.mp hi
  have hm := Node.mem_nodes_list_of_get h hq
  obtain ⟨c, hc, hmc⟩ := Node.mem_nodes_list.mp hm
  exact Node.mem_ids_list.mpr ⟨c, hc, Node.mem_ids.mpr ⟨x, Node.mem_nodes_trans c hmc hx, hxi⟩⟩

theorem perm_insert_middle {α : Type} {x : α} {a b c r m : List α} (h : c.Perm (r ++ m)) :
    (x :: (a ++ c ++ b)).Perm ((x :: (a ++ r ++ b)) ++ m) := by
  rw [← Multiset.coe_eq_coe] at h ⊢
  simp only [← Multiset.cons_coe, ← Multiset.coe_add] at h ⊢
  rw [h]
  simp only [Multiset.cons_add]
  congr 1
  abel

/-- Replacing the subtree at a position changes the values of a function of the
nodes that does not look at the children only inside that subtree. -/
theorem nodes_map_modifyAt {α : Type} (g : Node → α)
    (hg : ∀ i p cs ds, g (.internal i p cs) = g (.internal i p ds)) :
    ∀ (q : Pos) {n m : Node}, n.get? q = some m →
    ∃ rest : List α, (n.nodes.map g).Perm (rest ++ m.nodes.map g) ∧
      ∀ f : Node → Node, ((n.modifyAt f q).nodes.map g).Perm (rest ++ (f m).nodes.map g) := by
  intro q
  induction q with
  | nil =>
    intro n m h
    simp [Node.get?] at h
    subst h
    exact ⟨[], by simp, fun f => by simp [Node.modifyAt_nil]⟩
  | cons k r ih =>
    intro n m h
    cases n with
    | leaf i p t s e => simp [Node.get?] at h
    | internal i p cs =>
      simp only [Node.get?] at h
      cases hc : cs[k]? with
      | none => simp [hc] at h
      | some c =>
        simp only [hc] at h
        obtain ⟨rc, h1, h2⟩ := ih h
        refine ⟨g (.internal i p cs) :: ((Node.nodes_list (cs.take k)).map g ++ rc ++
          (Node.nodes_list (cs.drop (k + 1))).map g), ?_, ?_⟩
        · have hs := split_at_index hc
          rw [Node.nodes_internal]
          conv_lhs => rw [hs]
          simp only [Node.nodes_list_append, Node.nodes_list, List.map_cons, List.map_append]
          rw [hg i p (List.take k cs ++ c :: List.drop (k + 1) cs) cs]
          have := @perm_insert_middle α (g (.internal i p cs))
            ((Node.nodes_list (cs.take k)).map g) ((Node.nodes_list (cs.drop (k + 1))).map g)
            (c.nodes.map g) rc (m.nodes.map g) h1
          simpa using this
        · intro f
          simp only [Node.modifyAt, hc, Node.nodes_internal, List.map_cons]
          rw [set_at_index hc, hg i p _ cs]
          simp only [Node.nodes_list_append, Node.nodes_list, List.map_cons, List.map_append]
          have := @perm_insert_middle α (g (.internal i p cs))
            ((Node.nodes_list (cs.take k)).map g) ((Node.nodes_list (cs.drop (k + 1))).map g)
            ((c.modifyAt f r).nodes.map g) rc ((f m).nodes.map g) (h2 f)
          simpa using this

theorem Node.ids_modifyAt {n m : Node} {q : Pos} (h : n.get? q = some m) :
    ∃ rest : List Nat, n.ids.Perm (rest ++ m.ids) ∧
      ∀ f : Node → Node, (n.modifyAt f q).ids.Perm (rest ++ (f m).ids) :=
  nodes_map_modifyAt Node.id (fun _ _ _ _ => rfl) q h

theorem Node.tags_modifyAt {n m : Node} {q : Pos} (h : n.get? q = some m) :
    ∃ rest : List (Nat × ExecPath), n.tags.Perm (rest ++ m.tags) ∧
      ∀ f : Node → Node, (n.modifyAt f q).tags.Perm (rest ++ (f m).tags) :=
  nodes_map_modifyAt Node.tag (fun _ _ _ _ => rfl) q h

mutual
theorem Node.pos_of_some (id : Nat) : ∀ (n : Node) (acc : Pos) (p : Pos),
    n.pos_of id acc = some p → ∃ q m, p = acc ++ q ∧ n.get? q = some m ∧ m.id = id
  | .leaf i pf t s e, acc, p, h => by
    simp only [Node.pos_of] at h
    split at h
    · rename_i hi
      simp only [Option.some.injEq] at h
      exact ⟨[], _, by simp [h], rfl, hi⟩
    · simp at h
  | .internal i pf cs, acc, p, h => by
    simp only [Node.pos_of] at h
    split at h
    · rename_i hi
      simp only [Option.some.injEq] at h
      exact ⟨[], _, by simp [h], rfl, hi⟩
    · obtain ⟨k, c, q, m, h1, h2, h3, h4⟩ := Node.pos_of_list_some id cs acc 0 p h
      refine ⟨k :: q, m, by simp [h2], ?_, h4⟩
      simp [Node.get?, h1, h3]
theorem Node.pos_of_list_some (id : Nat) : ∀ (cs : List Node) (acc : Pos) (idx : Nat) (p : Pos),
    Node.pos_of_list id cs acc idx = some p →
    ∃ k c q m, cs[k]? = some c ∧ p = acc ++ [idx + k] ++ q ∧ c.get? q = some m ∧ m.id = id
  | [], acc, idx, p, h => by simp [Node.pos_of_list] at h
  | c :: cs, acc, idx, p, h => by
    simp only [Node.pos_of_list] at h
    cases hc : c.pos_of id (acc ++ [idx]) with
    | some q0 =>
      rw [hc] at h
      simp only [Option.some.injEq] at h
      obtain ⟨q, m, h1, h2, h3⟩ := Node.pos_of_some id c (acc ++ [idx]) q0 hc
      exact ⟨0, c, q, m, by simp, by rw [← h, h1]; simp, h2, h3⟩
    | none =>
      rw [hc] at h
      obtain ⟨k, c1, q, m, h1, h2, h3, h4⟩ := Node.pos_of_list_some id cs acc (idx + 1) p h
      exact ⟨k + 1, c1, q, m, by simpa using h1, by rw [h2]; simp; omega, h3, h4⟩
end

mutual
theorem Node.pos_of_none (id : Nat) : ∀ (n : Node) (acc : Pos),
    n.pos_of id acc = none → id ∉ n.ids
  | .leaf i pf t s e, acc, h => by
    simp only [Node.pos_of] at h
    split at h
    · simp at h
    · rename_i hi
      simp [Node.ids, Node.nodes, Node.id]
      exact fun h => hi h.symm
  | .internal i pf cs, acc, h => by
    simp only [Node.pos_of] at h
    split at h
    · simp at h
    · rename_i hi
      rw [Node.ids_internal, List.mem_cons]
      rintro (h1 | h1)
      · exact hi h1.symm
      · exact Node.pos_of_list_none id cs acc 0 h h1
theorem Node.pos_of_list_none (id : Nat) : ∀ (cs : List Node) (acc : Pos) (idx : Nat),
    Node.pos_of_list id cs acc idx = none → id ∉ Node.ids_list cs
  | [], acc, idx, h => by simp [Node.ids_list, Node.nodes_list]
  | c :: cs, acc, idx, h => by
    simp only [Node.pos_of_list] at h
    cases hc : c.pos_of id (acc ++ [idx]) with
    | some q0 => rw [hc] at h; simp at h
    | none =>
      rw [hc] at h
      rw [Node.ids_list_cons, List.mem_append]
      rintro (h1 | h1)
      · exact Node.pos_of_none id c _ hc h1
      · exact Node.pos_of_list_none id cs acc (idx + 1) h h1
end

/-- What `node_at` returns: a position of a node with the address, or nothing when
no node has the address. -/
theorem ExecTree.node_at_some {t : ExecTree} {id : Nat} {pos : Pos} {n : Node}
    (h : t.node_at id = some (pos, n)) :
    ∃ root, t.root = some root ∧ root.get? pos = some n ∧ n.id = id := by
  unfold ExecTree.node_at at h
  cases hr : t.root with
  | none => simp [hr] at h
  | some root =>
    simp only [hr] at h
    cases hp : root.pos_of id [] with
    | none => simp [hp] at h
    | some p =>
      simp only [hp, Option.map_eq_some'] at h
      obtain ⟨m, hm, he⟩ := h
      simp only [Prod.mk.injEq] at he
      obtain ⟨q, m2, h1, h2, h3⟩ := Node.pos_of_some id root [] p hp
      simp only [List.nil_append] at h1
      subst h1
      rw [h2] at hm
      simp only [Option.some.injEq] at hm
      refine ⟨root, rfl, ?_, ?_⟩
      · rw [← he.1, h2, hm, he.2]
      · rw [← he.2, ← hm, h3]

theorem ExecTree.node_at_none {t : ExecTree} {id : Nat} (h : t.node_at id = none) :
    ∀ root, t.root = some root → id ∉ root.ids := by
  intro root hr
  unfold ExecTree.node_at at h
  simp only [hr] at h
  cases hp : root.pos_of id [] with
  | none => exact Node.pos_of_none id root [] hp
  | some p =>
    exfalso
    simp only [hp] at h
    obtain ⟨q, m2, h1, h2, h3⟩ := Node.pos_of_some id root [] p hp
    simp only [List.nil_append] at h1
    subst h1
    simp [h2] at h

/-! ## Addresses and tails under `insert` -/

theorem Node.ids_eq_tags (n : Node) : n.ids = n.tags.map Prod.fst := by
  simp [Node.ids, Node.tags, Node.tag, Function.comp_def]

theorem Node.tags_leaf (i : Nat) (p t : ExecPath) (s : List Input) (e : Bool) :
    (Node.leaf i p t s e).tags = [(i, t)] := rfl

theorem Node.tags_internal (i : Nat) (p : ExecPath) (cs : List Node) :
    (Node.internal i p cs).tags = (i, []) :: (Node.nodes_list cs).map Node.tag := rfl

theorem Node.tags_set_pfx (n : Node) (p : ExecPath) : (n.set_pfx p).tags = n.tags := by
  cases n <;> rfl

theorem perm_append_swap {α : Type} (a b c : List α) : (a ++ (b ++ c)).Perm (b ++ (a ++ c)) := by
  rw [← Multiset.coe_eq_coe]
  simp only [← Multiset.coe_add]
  abel

theorem nodes_list_add_child_perm (cs : List Node) (x : Node) :
    (Node.nodes_list (add_child cs x)).Perm (x.nodes ++ Node.nodes_list cs) := by
  rw [add_child_eq]
  conv_rhs => rw [← List.take_append_drop (add_child_idx cs x) cs]
  simp only [Node.nodes_list_append, Node.nodes_list]
  exact perm_append_swap _ _ _

theorem nodes_list_eraseIdx_perm {cs : List Node} {k : Nat} {c : Node} (h : cs[k]? = some c) :
    (Node.nodes_list cs).Perm (c.nodes ++ Node.nodes_list (cs.eraseIdx k)) := by
  rw [List.eraseIdx_eq_take_drop_succ]
  conv_lhs => rw [split_at_index h]
  simp only [Node.nodes_list_append, Node.nodes_list]
  exact perm_append_swap _ _ _

theorem Node.tags_insert_inputset_create_leaf (rnd : Nat) (tl : ExecPath) (inputset : List Input)
    (run_status : Int) (id : Nat) (p : ExecPath) :
    (insert_inputset rnd tl inputset run_status (create_leaf id p)).tags = [(id, tl)] := rfl

theorem Node.TagsOK.of_perm {nid nid2 : Nat} {P : ExecPath → Prop} {n n2 : Node}
    {news : List (Nat × ExecPath)} (h : n.TagsOK nid P) (hp : n2.tags.Perm (n.tags ++ news))
    (hnd : (news.map Prod.fst).Nodup)
    (hnew : ∀ x ∈ news, nid ≤ x.1 ∧ x.1 < nid2 ∧ P x.2) (hle : nid ≤ nid2) :
    n2.TagsOK nid2 P := by
  constructor
  · rw [Node.ids_eq_tags]
    apply (List.Perm.nodup_iff (List.Perm.map Prod.fst hp)).mpr
    rw [List.map_append, ← Node.ids_eq_tags]
    refine List.nodup_append.mpr ⟨h.1, hnd, ?_⟩
    intro a ha hb
    rw [Node.ids_eq_tags] at ha
    obtain ⟨x, hx, rfl⟩ := List.mem_map.mp ha
    obtain ⟨y, hy, hxy⟩ := List.mem_map.mp hb
    have := (h.2 x hx).1
    have := (hnew y hy).1
    omega
  · intro x hx
    rcases List.mem_append.mp (hp.subset hx) with h1 | h1
    · exact ⟨Nat.lt_of_lt_of_le (h.2 x h1).1 hle, (h.2 x h1).2⟩
    · exact (hnew x h1).2

theorem Node.TagsOK.modifyAt_add {nid nid2 : Nat} {P : ExecPath → Prop} {n m : Node} {q : Pos}
    (f : Node → Node) {news : List (Nat × ExecPath)} (h : n.TagsOK nid P)
    (hq : n.get? q = some m) (hp : (f m).tags.Perm (m.tags ++ news))
    (hnd : (news.map Prod.fst).Nodup)
    (hnew : ∀ x ∈ news, nid ≤ x.1 ∧ x.1 < nid2 ∧ P x.2) (hle : nid ≤ nid2) :
    (n.modifyAt f q).TagsOK nid2 P := by
  obtain ⟨rest, h1, h2⟩ := Node.tags_modifyAt hq
  refine h.of_perm ?_ hnd hnew hle
  refine (h2 f).trans ?_
  refine (List.Perm.append_left rest hp).trans ?_
  rw [← List.append_assoc]
  exact List.Perm.append_right news h1.symm

/-- The tags of an internal node after one more child is added. -/
theorem tags_add_leaf (n x : Node) (hn : n.is_internal = true) :
    (n.set_children (add_child n.children x)).tags.Perm (n.tags ++ x.tags) := by
  cases n with
  | leaf i p t s e => simp [Node.is_internal] at hn
  | internal i p cs =>
    simp only [Node.children_internal, Node.set_children_internal, Node.tags_internal,
      List.cons_append]
    refine List.Perm.cons _ ?_
    refine (List.Perm.map _ (nodes_list_add_child_perm cs x)).trans ?_
    rw [List.map_append]
    exact List.perm_append_comm

/-- The tags of the new internal node of cases 2, 6 and 7 of `insert`. -/
theorem tags_new_internal (id : Nat) (p : ExecPath) (a b : Node) :
    (Node.internal id p (add_child (add_child [] a) b)).tags.Perm
      (a.tags ++ [(id, [])] ++ b.tags) := by
  rw [Node.tags_internal]
  have h1 := (nodes_list_add_child_perm (add_child [] a) b).map Node.tag
  have h2 : Node.nodes_list (add_child [] a) = a.nodes := by
    simp [add_child, Node.nodes_list]
  rw [h2, List.map_append] at h1
  refine (List.Perm.cons _ h1).trans ?_
  show ((id, ([] : ExecPath)) :: (b.tags ++ a.tags)).Perm (a.tags ++ [(id, [])] ++ b.tags)
  rw [← Multiset.coe_eq_coe]
  simp only [← Multiset.cons_coe, ← Multiset.coe_add, Multiset.cons_add, Multiset.add_cons,
    Multiset.coe_nil, add_zero]
  rw [add_comm]

/-- The tags of a node after the child `k` is replaced by a new internal node over
that child and a new leaf. -/
theorem tags_replace_child {n c : Node} {k : Nat} (hn : n.is_internal = true)
    (hk : n.children[k]? = some c) (x : Node) {news : List (Nat × ExecPath)}
    (hx : x.tags.Perm (c.tags ++ news)) :
    (n.set_children (add_child (n.children.eraseIdx k) x)).tags.Perm (n.tags ++ news) := by
  cases n with
  | leaf i p t s e => simp [Node.is_internal] at hn
  | internal i p cs =>
    simp only [Node.children_internal, Node.set_children_internal, Node.tags_internal,
      List.cons_append] at hk ⊢
    refine List.Perm.cons _ ?_
    refine (List.Perm.map _ (nodes_list_add_child_perm (cs.eraseIdx k) x)).trans ?_
    have h1 := (nodes_list_eraseIdx_perm hk).map Node.tag
    rw [List.map_append] at h1 ⊢
    have hx2 : (x.nodes.map Node.tag).Perm (c.nodes.map Node.tag ++ news) := hx
    refine (List.Perm.append_right _ hx2).trans ?_
    refine List.Perm.trans ?_ (List.Perm.append_right news h1.symm)
    rw [← Multiset.coe_eq_coe]
    simp only [← Multiset.coe_add]
    abel
theorem Node.TagsOK.mono_bound {nid nid2 : Nat} {P : ExecPath → Prop} {n : Node}
    (h : n.TagsOK nid P) (hle : nid ≤ nid2) : n.TagsOK nid2 P :=
  @Node.TagsOK.of_perm nid nid2 P n n [] h (by simp) (by simp) (fun x hx => by simp at hx) hle

theorem Node.set_children_of_leaf {n : Node} (h : n.is_internal = false) (cs : List Node) :
    n.set_children cs = n := by
  cases n with
  | leaf i p t s e => rfl
  | internal i p ds => simp [Node.is_internal] at h

theorem Node.tags_insert_inputset_leaf (rnd : Nat) (tl : ExecPath) (inputset : List Input)
    (run_status : Int) {m : Node} (hm : m.is_internal = false) :
    (insert_inputset rnd tl inputset run_status m).tags = [(m.id, tl)] ∧ m.tags.map Prod.fst = [m.id] := by
  cases m with
  | leaf i p t s e => exact ⟨rfl, rfl⟩
  | internal i p ds => simp [Node.is_internal] at hm

/-- The function `insert` keeps the addresses distinct and below `next_id`, and
tails that satisfy `P` when the tail of the inserted path does. -/
theorem insert_set_tags (tpc : TracePC) (t : ExecTree) (epath : ExecPath)
    (inputset : List Input) (run_status : Int) (rnd : Nat) (P : ExecPath → Prop) (hP0 : P [])
    (hPt : P (tpc.tail_of epath)) (h : t.TagsOK P) :
    (t.insert_set tpc epath inputset run_status rnd).1.TagsOK P := by
  unfold ExecTree.insert_set
  generalize tpc.tail_of epath = tl at hPt
  generalize tpc.significant epath = e
  simp only []
  have hnd2 : ∀ a b : ExecPath, (([(t.next_id, a), (t.next_id + 1, b)] :
      List (Nat × ExecPath)).map Prod.fst).Nodup := by
    intro a b; simp
  have hnew2 : ∀ x ∈ ([(t.next_id, []), (t.next_id + 1, tl)] : List (Nat × ExecPath)),
      t.next_id ≤ x.1 ∧ x.1 < t.next_id + 2 ∧ P x.2 := by
    intro x hx
    simp only [List.mem_cons, List.mem_singleton, List.not_mem_nil, or_false] at hx
    rcases hx with rfl | rfl
    · exact ⟨Nat.le_refl _, by omega, hP0⟩
    · exact ⟨by simp, by simp, hPt⟩
  have hnd1 : (([(t.next_id, tl)] : List (Nat × ExecPath)).map Prod.fst).Nodup := by simp
  have hnew1 : ∀ x ∈ ([(t.next_id, tl)] : List (Nat × ExecPath)),
      t.next_id ≤ x.1 ∧ x.1 < t.next_id + 1 ∧ P x.2 := by
    intro x hx
    simp only [List.mem_singleton] at hx
    subst hx
    exact ⟨Nat.le_refl _, by simp, hPt⟩
  cases hroot : t.root with
  | none =>
    simp only [ExecTree.TagsOK]
    refine ⟨by simp [Node.ids_eq_tags, Node.tags_insert_inputset_create_leaf], ?_⟩
    intro x hx
    rw [Node.tags_insert_inputset_create_leaf] at hx
    exact (hnew1 x hx).2
  | some root =>
    have hr : root.TagsOK t.next_id P := by simpa [ExecTree.TagsOK, hroot] using h
    simp only []
    cases hf : root.find [] e with
    | mk nearest rem =>
    cases nearest with
    | none =>
      simp only []
      by_cases hpe : root.pfx = EPSILON
      · rw [if_pos hpe]
        simp only [ExecTree.TagsOK]
        by_cases hi : root.is_internal = true
        · exact hr.of_perm (tags_add_leaf root _ hi) hnd1 hnew1 (by omega)
        · rw [Node.set_children_of_leaf (by simpa using hi)]
          exact hr.mono_bound (by omega)
      · rw [if_neg hpe]
        simp only [ExecTree.TagsOK, create_internal, Node.children_internal,
          Node.set_children_internal]
        refine hr.of_perm ?_ (hnd2 [] tl) hnew2 (by omega)
        refine (tags_new_internal _ _ _ _).trans ?_
        rw [Node.tags_set_pfx, Node.tags_insert_inputset_create_leaf]
        simp
    | some nearest =>
      simp only []
      cases hq : root.get? nearest with
      | none =>
        simp only []
        simpa [ExecTree.TagsOK, hroot] using hr
      | some m =>
        simp only []
        by_cases hrem : rem.length = 0
        · rw [if_pos hrem]
          by_cases hi : m.is_internal = true
          · rw [if_pos hi]
            simp only [ExecTree.TagsOK]
            exact hr.modifyAt_add _ hq (tags_add_leaf m _ hi) hnd1 hnew1 (by omega)
          · rw [if_neg hi]
            simp only [ExecTree.TagsOK]
            have hi2 : m.is_internal = false := by simpa using hi
            obtain ⟨e1, e2⟩ := Node.tags_insert_inputset_leaf rnd tl inputset run_status hi2
            obtain ⟨rest, h1, h2⟩ := Node.tags_modifyAt hq
            have h3 := h2 (insert_inputset rnd tl inputset run_status)
            rw [e1] at h3
            have hmid : m.id ∈ root.ids := Node.ids_subset_of_get hq m.id_mem_ids
            have hidlt : m.id < t.next_id := by
              rw [Node.ids_eq_tags] at hmid
              obtain ⟨x, hx, hx1⟩ := List.mem_map.mp hmid
              rw [← hx1]
              exact (hr.2 x hx).1
            constructor
            · rw [Node.ids_eq_tags]
              apply (List.Perm.nodup_iff (List.Perm.map Prod.fst h3)).mpr
              have := (List.Perm.nodup_iff (List.Perm.map Prod.fst h1)).mp
                (by rw [← Node.ids_eq_tags]; exact hr.1)
              rw [List.map_append, e2] at this
              simpa using this
            · intro x hx
              rcases List.mem_append.mp (h3.subset hx) with hx | hx
              · exact hr.2 x (h1.symm.subset (List.mem_append_left _ hx))
              · simp only [List.mem_singleton] at hx
                subst hx
                exact ⟨hidlt, hPt⟩
        · rw [if_neg hrem]
          by_cases hi : m.is_internal = true
          · rw [if_pos hi]
            cases hl : lookup_child m.children (front rem) with
            | none =>
              simp only [ExecTree.TagsOK]
              exact hr.modifyAt_add _ hq (tags_add_leaf m _ hi) hnd1 hnew1 (by omega)
            | some k =>
              simp only []
              cases hc : m.children[k]? with
              | none =>
                simp only []
                simpa [ExecTree.TagsOK, hroot] using hr
              | some c =>
                simp only [ExecTree.TagsOK, create_internal, Node.children_internal,
                  Node.set_children_internal]
                refine hr.modifyAt_add _ hq ?_ (hnd2 [] tl) hnew2 (by omega)
                apply tags_replace_child hi hc
                refine (tags_new_internal _ _ _ _).trans ?_
                rw [Node.tags_set_pfx, Node.tags_insert_inputset_create_leaf]
                simp
          · rw [if_neg hi]
            simp only [create_internal, Node.children_internal, Node.set_children_internal]
            have hnew : (Node.internal t.next_id m.pfx
                (add_child (add_child [] (m.set_pfx EPSILON))
                  (insert_inputset rnd tl inputset run_status
                    (create_leaf (t.next_id + 1) rem)))).tags.Perm
                (m.tags ++ [(t.next_id, []), (t.next_id + 1, tl)]) := by
              refine (tags_new_internal _ _ _ _).trans ?_
              rw [Node.tags_set_pfx, Node.tags_insert_inputset_create_leaf]
              simp
            rcases List.eq_nil_or_concat nearest with h0 | ⟨q0, idx, h0⟩
            · subst h0
              simp only [List.getLast?_nil, ExecTree.TagsOK]
              simp [Node.get?] at hq
              subst hq
              exact hr.of_perm hnew (hnd2 [] tl) hnew2 (by omega)
            · rw [List.concat_eq_append] at h0
              subst h0
              simp only [getLast?_snoc, dropLast_snoc]
              obtain ⟨parent, hp1, hp2⟩ := Node.get?_snoc_inv hq
              simp only [hp1, ExecTree.TagsOK]
              exact hr.modifyAt_add _ hp1
                (tags_replace_child (Node.is_internal_of_child hp2) hp2 _ hnew) (hnd2 [] tl)
                hnew2 (by omega)

/-! ## The invariant of `prune` -/

@[simp] theorem Node.id_leaf (i : Nat) (p t : ExecPath) (s : List Input) (e : Bool) :
    (Node.leaf i p t s e).id = i := rfl

@[simp] theorem Node.id_internal (i : Nat) (p : ExecPath) (cs : List Node) :
    (Node.internal i p cs).id = i := rfl

@[simp] theorem Node.id_set_pfx (p : ExecPath) (n : Node) : (n.set_pfx p).id = n.id := by
  cases n <;> rfl

@[simp] theorem Node.id_set_children (cs : List Node) (n : Node) :
    (n.set_children cs).id = n.id := by
  cases n <;> rfl

theorem Node.inv_iff (E U O : Nat → Prop) (n : Node) :
    n.Inv E U O ↔ n.Local E U O ∧ ∀ c ∈ n.children, c.Inv E U O := by
  unfold Node.Inv
  rw [Node.nodes_eq_cons]
  simp only [List.mem_cons, forall_eq_or_imp, Node.mem_nodes_list]
  constructor
  · rintro ⟨h1, h2⟩
    exact ⟨h1, fun c hc m hm => h2 m ⟨c, hc, hm⟩⟩
  · rintro ⟨h1, h2⟩
    exact ⟨h1, fun m ⟨c, hc, hm⟩ => h2 c hc m hm⟩

theorem Node.Inv.of_get {E U O : Nat → Prop} {n m : Node} {q : Pos} (h : n.Inv E U O)
    (hq : n.get? q = some m) : m.Inv E U O :=
  fun x hx => h x (Node.mem_nodes_trans n (Node.mem_nodes_of_get hq) hx)

theorem Node.Inv.local_of_get {E U O : Nat → Prop} {n m : Node} {q : Pos} (h : n.Inv E U O)
    (hq : n.get? q = some m) : m.Local E U O :=
  h m (Node.mem_nodes_of_get hq)

theorem Node.Local.replace_child {E U O : Nat → Prop} {i : Nat} {p : ExecPath}
    {cs : List Node} {k : Nat} {c c1 : Node} (h : (Node.internal i p cs).Local E U O)
    (hk : cs[k]? = some c) (hr : c1.Replaces c) :
    (Node.internal i p (cs.set k c1)).Local E U O := by
  obtain ⟨h1, h2⟩ := h
  refine ⟨h1, fun _ => ?_⟩
  obtain ⟨g1, g2, g3, g4⟩ := h2 rfl
  simp only [Node.children_internal, Node.id_internal] at g1 g2 g3 g4 ⊢
  refine ⟨?_, ?_, ?_, ?_⟩
  · intro h0
    apply g1
    have := congrArg List.length h0
    simp only [List.length_set, List.length_nil] at this
    exact List.length_eq_zero.mp this
  · rcases g2 with g2 | g2
    · exact Or.inl (children_sorted_set g2 hk hr.1)
    · exact Or.inr g2
  · simpa using g3
  · intro d hd hdi hde
    rcases List.mem_or_eq_of_mem_set hd with hd | hd
    · exact g4 d hd hdi hde
    · subst hd
      obtain ⟨e1, e2, e3⟩ := hr.2 hdi hde
      have := g4 c (List.getElem?_mem hk) e1 e2
      rw [e3]
      exact this

theorem Node.replaces_modifyAt_cons (f : Node → Node) (c : Node) (k : Nat) (rest : Pos) :
    (c.modifyAt f (k :: rest)).Replaces c := by
  cases c with
  | leaf i p t s e => exact ⟨rfl, fun h1 h2 => ⟨h1, h2, rfl⟩⟩
  | internal i p cs =>
    simp only [Node.modifyAt]
    cases cs[k]? with
    | none => exact ⟨rfl, fun h1 h2 => ⟨h1, h2, rfl⟩⟩
    | some d => exact ⟨rfl, fun h1 h2 => ⟨h1, h2, rfl⟩⟩

/-- With distinct addresses, the subtrees of two different children share no
address. -/
theorem Node.ids_disjoint_children {cs : List Node} (hnd : (Node.ids_list cs).Nodup)
    {j k : Nat} {c d : Node} (hj : cs[j]? = some d) (hk : cs[k]? = some c) (hjk : j ≠ k)
    {x : Nat} (hxd : x ∈ d.ids) : x ∉ c.ids := by
  induction cs generalizing j k with
  | nil => simp at hj
  | cons a as ih =>
    rw [Node.ids_list_cons] at hnd
    obtain ⟨h1, h2, h3⟩ := List.nodup_append.mp hnd
    cases j with
    | zero =>
      cases k with
      | zero => exact absurd rfl hjk
      | succ k =>
        simp only [List.getElem?_cons_zero, Option.some.injEq] at hj
        simp only [List.getElem?_cons_succ] at hk
        subst hj
        intro hxc
        exact h3 hxd (Node.mem_ids_list.mpr ⟨c, List.getElem?_mem hk, hxc⟩)
    | succ j =>
      cases k with
      | zero =>
        simp only [List.getElem?_cons_zero, Option.some.injEq] at hk
        simp only [List.getElem?_cons_succ] at hj
        subst hk
        intro hxc
        exact h3 hxc (Node.mem_ids_list.mpr ⟨d, List.getElem?_mem hj, hxd⟩)
      | succ k =>
        simp only [List.getElem?_cons_succ] at hj hk
        exact ih h2 hj hk (fun h => hjk (by rw [h]))

/-- The invariant after the subtree at a position is replaced, possibly with other
worklists. -/
theorem Node.Inv.modifyAt {E U O E2 U2 O2 : Nat → Prop} (f : Node → Node) :
    ∀ (q : Pos) {n m : Node}, n.ids.Nodup → n.get? q = some m → n.Inv E U O →
    (f m).Inv E2 U2 O2 → (q ≠ [] → (f m).Replaces m) →
    (∀ a ∈ n.nodes, a.id ∉ m.ids → a.Local E U O → a.Local E2 U2 O2) →
    (n.modifyAt f q).Inv E2 U2 O2 := by
  intro q
  induction q with
  | nil =>
    intro n m _ hq _ hf _ _
    simp [Node.get?] at hq
    subst hq
    rw [Node.modifyAt_nil]
    exact hf
  | cons k rest ih =>
    intro n m hnd hq hn hf hrel hmono
    cases n with
    | leaf i p t s e => simp [Node.get?] at hq
    | internal i p cs =>
      have hq0 := hq
      simp only [Node.get?] at hq
      cases hc : cs[k]? with
      | none => simp [hc] at hq
      | some c =>
        simp only [hc] at hq
        simp only [Node.modifyAt, hc]
        have hcm : c ∈ cs := List.getElem?_mem hc
        have hgc : (Node.internal i p cs).get? [k] = some c := by simp [Node.get?, hc]
        have hndc : c.ids.Nodup := Node.nodup_ids_of_get hnd hgc
        have hinv := (Node.inv_iff E U O _).mp hn
        have hc1 : (c.modifyAt f rest).Inv E2 U2 O2 := by
          apply ih hndc hq (hinv.2 c hcm) hf
          · intro hr
            exact hrel (by simp)
          · intro a ha hai
            exact hmono a (Node.mem_nodes_trans _ (Node.mem_nodes_of_get hgc) ha) hai
        have hrep : (c.modifyAt f rest).Replaces c := by
          cases rest with
          | nil =>
            simp [Node.get?] at hq
            subst hq
            rw [Node.modifyAt_nil]
            exact hrel (by simp)
          | cons k2 r2 => exact Node.replaces_modifyAt_cons f c k2 r2
        have hself : (Node.internal i p cs).id ∉ m.ids :=
          Node.id_not_mem_ids_of_get hnd hq0 (by simp)
        have hloc := hmono _ (Node.self_mem_nodes _) hself hinv.1
        rw [Node.inv_iff]
        refine ⟨hloc.replace_child hc hrep, ?_⟩
        intro d hd
        simp only [Node.children_internal] at hd
        obtain ⟨j, hj, hjd⟩ := List.getElem_of_mem hd
        have hj2 : (cs.set k (c.modifyAt f rest))[j]? = some d := by
          rw [List.getElem?_eq_getElem hj, hjd]
        by_cases hjk : k = j
        · subst hjk
          have hklt : k < cs.length := by simpa using hj
          rw [List.getElem?_set_self hklt] at hj2
          simp only [Option.some.injEq] at hj2
          rw [← hj2]
          exact hc1
        · rw [List.getElem?_set_ne hjk] at hj2
          have hdm : d ∈ cs := List.getElem?_mem hj2
          have hdi := hinv.2 d hdm
          intro a ha
          have hand : a ∈ (Node.internal i p cs).nodes := by
            rw [Node.nodes_internal]
            exact List.mem_cons_of_mem _ (Node.mem_nodes_list.mpr ⟨d, hdm, ha⟩)
          apply hmono a hand _ (hdi a ha)
          intro ham
          rw [Node.ids_internal, List.nodup_cons] at hnd
          have hx : a.id ∈ d.ids := Node.mem_ids.mpr ⟨a, ha, rfl⟩
          have hx2 : a.id ∈ c.ids := Node.ids_subset_of_get hq ham
          exact Node.ids_disjoint_children hnd.2 hj2 hc (fun h => hjk h.symm) hx hx2

/-! ## The first phase of `prune`: `filter_nd_pcid` -/

theorem filter_nd_pcid_list_eq (tpc : TracePC) (garbage : Nat → Nat) (len : Nat) :
    ∀ cs : List Node,
    (Node.filter_nd_pcid_list tpc garbage cs len).1 =
      cs.map (fun c => (c.filter_nd_pcid tpc garbage len).1) ∧
    ∀ x, x ∈ (Node.filter_nd_pcid_list tpc garbage cs len).2 ↔
      ∃ c ∈ cs, x ∈ (c.filter_nd_pcid tpc garbage len).2
  | [] => by simp [Node.filter_nd_pcid_list]
  | c :: cs => by
    have ih := filter_nd_pcid_list_eq tpc garbage len cs
    simp only [Node.filter_nd_pcid_list, List.map_cons, ih.1, List.mem_append, ih.2,
      List.mem_cons, exists_eq_or_imp, true_and]
    intro x
    trivial

theorem prune_eq_self_of_length (tpc : TracePC) (p : ExecPath)
    (h : (tpc.Prune p).length = p.length) : tpc.Prune p = p := by
  unfold TracePC.Prune at *
  exact List.filter_eq_self.mpr (List.filter_length_eq_length.mp h)

theorem allPos_prune (tpc : TracePC) {p : ExecPath} (h : AllPos p) : AllPos (tpc.Prune p) := by
  intro x hx
  unfold TracePC.Prune at hx
  exact h x (List.mem_filter.mp hx).1

theorem validPath_of_allPos {p : ExecPath} (h : AllPos p) (hne : p ≠ []) : ValidPath p :=
  ⟨hne, h⟩

/-- The leaf after `filter_nd_pcid`: same address, a prefix that is Epsilon or
valid, and the old prefix unless the leaf is reported as filtered. -/
theorem filter_leaf_facts (tpc : TracePC) (garbage : Nat → Nat) (i : Nat) (p t : ExecPath)
    (s : List Input) (e : Bool) (len : Nat) (hp : p = EPSILON ∨ ValidPath p) (ht : AllPos t) :
    ((Node.leaf i p t s e).filter_nd_pcid tpc garbage len).1.is_leaf = true ∧
    ((Node.leaf i p t s e).filter_nd_pcid tpc garbage len).1.id = i ∧
    (((Node.leaf i p t s e).filter_nd_pcid tpc garbage len).1.pfx = EPSILON ∨
      ValidPath ((Node.leaf i p t s e).filter_nd_pcid tpc garbage len).1.pfx) ∧
    (((Node.leaf i p t s e).filter_nd_pcid tpc garbage len).1.pfx = p ∨
      i ∈ ((Node.leaf i p t s e).filter_nd_pcid tpc garbage len).2) ∧
    ∀ x ∈ ((Node.leaf i p t s e).filter_nd_pcid tpc garbage len).2, x = i := by
  have htp : AllPos (tpc.Prune t) := allPos_prune tpc ht
  have htake : ∀ n : Nat, 0 < n → 0 < (tpc.Prune t).length →
      ValidPath (subvec_len (tpc.Prune t) 0 n) := by
    intro n hn hl
    rw [subvec_len_zero]
    refine ⟨?_, fun x hx => htp x (List.mem_of_mem_take hx)⟩
    intro h0
    have := congrArg List.length h0
    simp only [List.length_take, List.length_nil] at this
    omega
  simp only [Node.filter_nd_pcid, Node.is_leaf, Node.id_leaf, Node.pfx_leaf, true_and]
  by_cases hpe : p = EPSILON
  · subst hpe
    simp only [if_true]
    refine ⟨?_, ?_, ?_⟩
    · split
      · rename_i hmoved
        simp only [Bool.and_eq_true, decide_eq_true_eq] at hmoved
        exact Or.inr (htake _ (by simp only [lt_min_iff]; exact ⟨by omega, hmoved.2⟩) hmoved.2)
      · left; simp [EPSILON]
    · by_cases hm : (decide ((len + 0) % 2 ^ 64 < tpc.ExecPathSignificantMax) &&
          decide ((tpc.Prune t).length > 0)) = true
      · right; simp only [hm, Bool.or_true, if_true, List.mem_singleton]
      · left
        rw [if_neg hm]
        simp [EPSILON]
    · intro x hx
      split at hx
      · simpa using hx
      · simp at hx
  · have hpv := hp.resolve_left hpe
    have hpp : AllPos (tpc.Prune p) := allPos_prune tpc hpv.2
    simp only [hpe, if_false]
    refine ⟨?_, ?_, ?_⟩
    · split
      · rename_i hmoved
        simp only [Bool.and_eq_true, decide_eq_true_eq] at hmoved
        have hv := htake (min (tpc.ExecPathSignificantMax -
          (len + (tpc.Prune p).length) % 2 ^ 64) (tpc.Prune t).length)
          (by simp only [lt_min_iff]; exact ⟨by omega, hmoved.2⟩) hmoved.2
        split
        · exact Or.inr hv
        · right
          refine ⟨fun h => hv.1 (List.append_eq_nil.mp h).2, ?_⟩
          intro x hx
          simp only [vec_concat, List.mem_append] at hx
          rcases hx with hx | hx
          · exact hpp x hx
          · exact hv.2 x hx
      · split
        · exact Or.inl rfl
        · rename_i hne
          exact Or.inr ⟨fun h => hne (by rw [h]; rfl), hpp⟩
    · by_cases hf : (decide (p.length ≠ (tpc.Prune p).length) ||
          decide (t.length ≠ (tpc.Prune t).length) ||
          (decide ((len + (tpc.Prune p).length) % 2 ^ 64 < tpc.ExecPathSignificantMax) &&
            decide ((tpc.Prune t).length > 0))) = true
      · right; simp only [hf, if_true, List.mem_singleton]
      · left
        simp only [Bool.or_eq_true, not_or, Bool.not_eq_true] at hf
        obtain ⟨⟨h1, -⟩, h3⟩ := hf
        simp only [ne_eq, decide_not, Bool.not_eq_false', decide_eq_true_eq] at h1
        have := prune_eq_self_of_length tpc p h1.symm
        rw [if_neg (by rw [h3]; simp), this, if_neg (by simpa using hpv.1)]
    · intro x hx
      split at hx
      · simpa using hx
      · simp at hx
theorem filter_internal_eq (tpc : TracePC) (garbage : Nat → Nat) (i : Nat) (p : ExecPath)
    (cs : List Node) (len : Nat) :
    ∃ p2 len2, (Node.internal i p cs).filter_nd_pcid tpc garbage len =
        (.internal i p2 (cs.map (fun c => (c.filter_nd_pcid tpc garbage len2).1)),
          (if p2 = p then [] else [i]) ++
            (Node.filter_nd_pcid_list tpc garbage cs len2).2) ∧
      ((p = EPSILON ∨ ValidPath p) → (p2 = EPSILON ∨ ValidPath p2)) := by
  simp only [Node.filter_nd_pcid]
  refine ⟨if (decide (p ≠ EPSILON) &&
        decide ((if p = EPSILON then p else tpc.Prune p).length ≠ p.length) &&
        decide ((if p = EPSILON then p else tpc.Prune p).length = 0)) = true then EPSILON
      else if p = EPSILON then p else tpc.Prune p,
    (len + if p = EPSILON then 0
      else if (decide (p ≠ EPSILON) &&
          decide ((if p = EPSILON then p else tpc.Prune p).length ≠ p.length)) = true then
        (if (if p = EPSILON then p else tpc.Prune p).length = 0 then 0
          else (if p = EPSILON then p else tpc.Prune p).length)
      else garbage i) % 2 ^ 64, ?_, ?_⟩
  · rw [(filter_nd_pcid_list_eq tpc garbage _ cs).1]
    congr 2
    by_cases hpe : p = EPSILON
    · simp [hpe]
    · simp only [hpe, if_false, ne_eq, not_false_eq_true, decide_True, Bool.true_and,
        decide_not]
      by_cases hl : (tpc.Prune p).length = p.length
      · have := prune_eq_self_of_length tpc p hl
        simp [hl, this]
      · have hne : ¬ tpc.Prune p = p := fun h => hl (by rw [h])
        have hne2 : ¬ EPSILON = p := fun h => hpe h.symm
        by_cases h0 : (tpc.Prune p).length = 0
        · have hl0 : ¬ 0 = p.length := fun h => hl (by rw [h0, h])
          simp [hl, h0, hne2, hl0]
        · simp [hl, h0, hne]
  · intro hp
    by_cases hpe : p = EPSILON
    · simp [hpe]
    · have hpv := hp.resolve_left hpe
      simp only [hpe, if_false, ne_eq, not_false_eq_true, decide_True, Bool.true_and,
        decide_not]
      by_cases hl : (tpc.Prune p).length = p.length
      · have := prune_eq_self_of_length tpc p hl
        simp [hl, this, hpv]
      · by_cases h0 : (tpc.Prune p).length = 0
        · have hl0 : ¬ 0 = p.length := fun h => hl (by rw [h0, h])
          simp [hl, h0, hl0]
        · simp only [hl, h0, not_false_eq_true, decide_True, decide_False, Bool.and_false,
            Bool.false_eq_true, if_false]
          exact Or.inr ⟨fun h => h0 (by rw [h]; rfl), allPos_prune tpc hpv.2⟩

theorem ids_list_map_eq {cs : List Node} {f : Node → Node} (h : ∀ c ∈ cs, (f c).ids = c.ids) :
    Node.ids_list (cs.map f) = Node.ids_list cs := by
  induction cs with
  | nil => rfl
  | cons c cs ih =>
    rw [List.map_cons, Node.ids_list_cons, Node.ids_list_cons, h c (by simp),
      ih (fun d hd => h d (by simp [hd]))]

theorem children_sorted_map_eq {cs : List Node} {f : Node → Node}
    (h : ∀ c ∈ cs, (f c).pfx = c.pfx) (hs : children_sorted cs = true) :
    children_sorted (cs.map f) = true := by
  rw [children_sorted_iff] at *
  have : fronts (cs.map f) = fronts cs := by
    simp only [fronts, List.map_map]
    apply List.map_congr_left
    intro c hc
    simp [h c hc]
  rw [this]
  exact hs

theorem Node.Local.of_leaf {E U O : Nat → Prop} {l : Node} (hl : l.is_leaf = true)
    (hp : l.pfx = EPSILON ∨ ValidPath l.pfx) : l.Local E U O := by
  refine ⟨hp, fun hi => ?_⟩
  cases l <;> simp [Node.is_leaf, Node.is_internal] at hl hi

/-- The tree after `filter_nd_pcid`: same addresses; every node keeps its prefix or
is reported as filtered; the invariant of `prune` holds for all worklists `E` that
hold the filtered nodes and `U` that hold the parents of the nodes in `E`. -/
theorem filter_spec (tpc : TracePC) (garbage : Nat → Nat) : ∀ n : Node,
    n.Inv no_id no_id no_id → (∀ x ∈ n.tags, AllPos x.2) → ∀ len : Nat,
    (n.filter_nd_pcid tpc garbage len).1.id = n.id ∧
    (n.filter_nd_pcid tpc garbage len).1.is_internal = n.is_internal ∧
    (n.filter_nd_pcid tpc garbage len).1.ids = n.ids ∧
    ((n.filter_nd_pcid tpc garbage len).1.pfx = n.pfx ∨
      n.id ∈ (n.filter_nd_pcid tpc garbage len).2) ∧
    ∀ E U O : Nat → Prop, (∀ x ∈ (n.filter_nd_pcid tpc garbage len).2, E x) →
      (∀ a ∈ (n.filter_nd_pcid tpc garbage len).1.nodes, ∀ c ∈ a.children,
        E c.id → U a.id) →
      (n.filter_nd_pcid tpc garbage len).1.Inv E U O := by
  intro n
  induction n using Node.induct with
  | hleaf i p t s e =>
    intro hn ht len
    have hp : p = EPSILON ∨ ValidPath p := (hn _ (Node.self_mem_nodes _)).1
    have htt : AllPos t := ht (i, t) (by simp [Node.tags_leaf])
    obtain ⟨h1, h2, h3, h4, h5⟩ := filter_leaf_facts tpc garbage i p t s e len hp htt
    have hnodes : ∀ l : Node, l.is_leaf = true → l.nodes = [l] := by
      intro l hl
      cases l with
      | leaf _ _ _ _ _ => rfl
      | internal _ _ _ => simp [Node.is_leaf] at hl
    refine ⟨h2, ?_, ?_, h4, ?_⟩
    · cases hx : ((Node.leaf i p t s e).filter_nd_pcid tpc garbage len).1 with
      | leaf _ _ _ _ _ => rfl
      | internal _ _ _ => rw [hx] at h1; simp [Node.is_leaf] at h1
    · simp only [Node.ids, hnodes _ h1, List.map_cons, List.map_nil, h2]
      rfl
    · intro E U O _ _ m hm
      rw [hnodes _ h1, List.mem_singleton] at hm
      subst hm
      exact Node.Local.of_leaf h1 h3
  | hint i p cs ih =>
    intro hn ht len
    obtain ⟨hloc, hch⟩ := (Node.inv_iff _ _ _ _).mp hn
    obtain ⟨hp, hi⟩ := hloc
    obtain ⟨g1, g2, g3, g4⟩ := hi rfl
    simp only [Node.children_internal, Node.id_internal, no_id, or_false] at g1 g2 g3 g4 hch
    obtain ⟨p2, len2, heq, hp2⟩ := filter_internal_eq tpc garbage i p cs len
    have hmem2 := (filter_nd_pcid_list_eq tpc garbage len2 cs).2
    rw [heq]
    have htc : ∀ c ∈ cs, ∀ x ∈ c.tags, AllPos x.2 := by
      intro c hc x hx
      apply ht x
      rw [Node.tags_internal]
      refine List.mem_cons_of_mem _ (List.mem_map.mpr ?_)
      obtain ⟨m, hm, rfl⟩ := List.mem_map.mp hx
      exact ⟨m, Node.mem_nodes_list.mpr ⟨c, hc, hm⟩, rfl⟩
    have ihc := fun c (hc : c ∈ cs) => ih c hc (hch c hc) (htc c hc) len2
    refine ⟨rfl, rfl, ?_, ?_, ?_⟩
    · rw [Node.ids_internal, Node.ids_internal, ids_list_map_eq (fun c hc => (ihc c hc).2.2.1)]
    · simp only [Node.pfx_internal, Node.id_internal]
      by_cases h : p2 = p
      · exact Or.inl h
      · right; simp [h]
    · intro E U O hE hU
      rw [Node.inv_iff]
      simp only [Node.children_internal]
      constructor
      · refine ⟨hp2 hp, fun _ => ?_⟩
        simp only [Node.children_internal, Node.id_internal]
        have hUi : ∀ c ∈ cs, c.id ∈ (c.filter_nd_pcid tpc garbage len2).2 → U i := by
          intro c hc hcf
          have := hU _ (Node.self_mem_nodes _) (c.filter_nd_pcid tpc garbage len2).1
            (by simp only [Node.children_internal]; exact List.mem_map.mpr ⟨c, hc, rfl⟩)
            (by
              rw [(ihc c hc).1]
              exact hE _ (List.mem_append_right _ ((hmem2 _).mpr ⟨c, hc, hcf⟩)))
          simpa using this
        refine ⟨by simpa using g1, ?_, Or.inl (by simpa using g3), ?_⟩
        · by_cases hex : ∃ c ∈ cs, c.id ∈ (c.filter_nd_pcid tpc garbage len2).2
          · obtain ⟨c, hc, hcf⟩ := hex
            exact Or.inr (hUi c hc hcf)
          · left
            apply children_sorted_map_eq _ g2
            intro c hc
            exact (ihc c hc).2.2.2.1.resolve_right (fun h => hex ⟨c, hc, h⟩)
        · intro d hd hdi hde
          obtain ⟨c, hc, rfl⟩ := List.mem_map.mp hd
          rw [(ihc c hc).2.1] at hdi
          have hne : c.pfx ≠ EPSILON := fun h => (g4 c hc hdi h).1
          have hcf : c.id ∈ (c.filter_nd_pcid tpc garbage len2).2 :=
            (ihc c hc).2.2.2.1.resolve_left (fun h => hne (by rw [← h, hde]))
          refine ⟨hUi c hc hcf, ?_⟩
          rw [(ihc c hc).1]
          exact hE _ (List.mem_append_right _ ((hmem2 _).mpr ⟨c, hc, hcf⟩))
      · intro d hd
        obtain ⟨c, hc, rfl⟩ := List.mem_map.mp hd
        apply (ihc c hc).2.2.2.2 E U O
        · intro x hx
          exact hE _ (List.mem_append_right _ ((hmem2 _).mpr ⟨c, hc, hx⟩))
        · intro a ha
          apply hU a
          rw [Node.nodes_internal]
          exact List.mem_cons_of_mem _ (Node.mem_nodes_list.mpr
            ⟨_, List.mem_map.mpr ⟨c, hc, rfl⟩, ha⟩)

theorem Node.Good.inv : ∀ n : Node, n.Good → n.Inv no_id no_id no_id := by
  intro n
  induction n using Node.induct with
  | hleaf i p t s e =>
    intro h m hm
    simp only [Node.nodes, List.mem_singleton] at hm
    subst hm
    exact Node.Local.of_leaf rfl h
  | hint i p cs ih =>
    intro h
    obtain ⟨h1, h2, h3, h4⟩ := h
    have hg := (Node.goodList_iff cs).mp h4
    rw [Node.inv_iff]
    refine ⟨⟨Or.inr h1, fun _ => ⟨?_, Or.inl h3, Or.inl h2, ?_⟩⟩, fun c hc => ih c hc (hg c hc)⟩
    · intro h0
      simp only [Node.children_internal] at h0
      rw [h0] at h2
      simp at h2
    · intro c hc hci hce
      exact absurd hce ((hg c hc).internal_ne_epsilon hci)

theorem Node.RootGood.root_inv {n : Node} (h : n.RootGood) : n.Inv no_id no_id no_id := by
  cases n with
  | leaf i p t s e =>
    intro m hm
    simp only [Node.nodes, List.mem_singleton] at hm
    subst hm
    exact Node.Local.of_leaf rfl (Or.inr h)
  | internal i p cs =>
    obtain ⟨h1, h2, h3, h4⟩ := h
    have hg := (Node.goodList_iff cs).mp h4
    rw [Node.inv_iff]
    refine ⟨⟨h1.imp (fun h => h.1) (fun h => h), fun _ => ⟨?_, Or.inl h3, Or.inl h2, ?_⟩⟩,
      fun c hc => Node.Good.inv c (hg c hc)⟩
    · intro h0
      simp only [Node.children_internal] at h0
      rw [h0] at h2
      simp at h2
    · intro c hc hci hce
      exact absurd hce ((hg c hc).internal_ne_epsilon hci)

theorem mem_ptr_insert (addr : Nat → Nat) {l : List Nat} {x y : Nat} :
    x ∈ ptr_insert addr l y ↔ x = y ∨ x ∈ l := by
  induction l with
  | nil => simp [ptr_insert]
  | cons a as ih =>
    simp only [ptr_insert]
    split
    · rename_i h
      subst h
      simp
    · split
      · simp
      · simp only [List.mem_cons, ih]
        tauto

theorem mem_foldl_ptr_insert (addr : Nat → Nat) {l acc : List Nat} {x : Nat} :
    x ∈ l.foldl (ptr_insert addr) acc ↔ x ∈ acc ∨ x ∈ l := by
  induction l generalizing acc with
  | nil => simp
  | cons a as ih =>
    simp only [List.foldl_cons, ih, mem_ptr_insert, List.mem_cons]
    tauto

/-- With distinct addresses, a node has one position. -/
theorem Node.pos_unique : ∀ (q1 q2 : Pos) {n a b : Node}, n.ids.Nodup →
    n.get? q1 = some a → n.get? q2 = some b → a.id = b.id → q1 = q2 := by
  intro q1
  induction q1 with
  | nil =>
    intro q2 n a b hnd h1 h2 hid
    simp [Node.get?] at h1
    subst h1
    by_contra hne
    exact Node.id_not_mem_ids_of_get hnd h2 (fun h => hne h.symm) (hid ▸ b.id_mem_ids)
  | cons k1 r1 ih =>
    intro q2 n a b hnd h1 h2 hid
    cases q2 with
    | nil =>
      simp [Node.get?] at h2
      subst h2
      exact absurd (hid ▸ a.id_mem_ids) (Node.id_not_mem_ids_of_get hnd h1 (by simp))
    | cons k2 r2 =>
      cases n with
      | leaf i p t s e => simp [Node.get?] at h1
      | internal i p cs =>
        simp only [Node.get?] at h1 h2
        cases hc1 : cs[k1]? with
        | none => simp [hc1] at h1
        | some c1 =>
          cases hc2 : cs[k2]? with
          | none => simp [hc2] at h2
          | some c2 =>
            simp only [hc1] at h1
            simp only [hc2] at h2
            rw [Node.ids_internal, List.nodup_cons] at hnd
            have hk : k1 = k2 := by
              by_contra hne
              have hx : a.id ∈ c1.ids := Node.ids_subset_of_get h1 a.id_mem_ids
              have hy : a.id ∈ c2.ids := hid ▸ Node.ids_subset_of_get h2 b.id_mem_ids
              exact Node.ids_disjoint_children hnd.2 hc1 hc2 hne hx hy
            subst hk
            rw [hc1] at hc2
            simp only [Option.some.injEq] at hc2
            subst hc2
            have hgc : (Node.internal i p cs).get? [k1] = some c1 := by simp [Node.get?, hc1]
            have hnd1 : (Node.internal i p cs).ids.Nodup := by
              rw [Node.ids_internal, List.nodup_cons]; exact hnd
            rw [ih r2 (Node.nodup_ids_of_get hnd1 hgc) h1 h2 hid]

/-- With distinct addresses, `node_at` finds every node of the tree at its
position. -/
theorem ExecTree.node_at_of_get {t : ExecTree} {root m : Node} {q : Pos}
    (hroot : t.root = some root) (hnd : root.ids.Nodup) (hq : root.get? q = some m) :
    t.node_at m.id = some (q, m) := by
  cases h : t.node_at m.id with
  | none =>
    exact absurd (Node.ids_subset_of_get hq m.id_mem_ids) (ExecTree.node_at_none h root hroot)
  | some r =>
    obtain ⟨pos, n⟩ := r
    obtain ⟨root2, h1, h2, h3⟩ := ExecTree.node_at_some h
    rw [hroot] at h1
    simp only [Option.some.injEq] at h1
    subst h1
    have := Node.pos_unique pos q hnd h2 hq h3
    subst this
    rw [h2] at hq
    simp only [Option.some.injEq] at hq
    rw [hq]

theorem ExecTree.mem_parents_of (addr : Nat → Nat) (t : ExecTree) {F : List Nat} {id : Nat}
    {pos : Pos} {n parent : Node} (hid : id ∈ F) (hn : t.node_at id = some (pos, n))
    (hpos : pos ≠ []) (hp : t.root.bind (fun r => r.get? pos.dropLast) = some parent) :
    parent.id ∈ t.parents_of addr F := by
  unfold ExecTree.parents_of
  have hmono : ∀ (l : List Nat) (acc : List Nat) (x : Nat), x ∈ acc →
      x ∈ l.foldl (fun acc id =>
        match t.node_at id with
        | some (pos, _) =>
          if pos.isEmpty then acc
          else
            match t.root.bind (fun r => r.get? pos.dropLast) with
            | some parent => ptr_insert addr acc parent.id
            | none => acc
        | none => acc) acc := by
    intro l
    induction l with
    | nil => intro acc x hx; exact hx
    | cons a as ih =>
      intro acc x hx
      simp only [List.foldl_cons]
      apply ih
      split
      · split
        · exact hx
        · split
          · exact (mem_ptr_insert addr).mpr (Or.inr hx)
          · exact hx
      · exact hx
  generalize ([] : List Nat) = acc0
  induction F generalizing acc0 with
  | nil => simp at hid
  | cons a as ih =>
    simp only [List.foldl_cons]
    rcases List.mem_cons.mp hid with h | h
    · subst h
      apply hmono
      have hne : pos.isEmpty = false := by
        cases pos with
        | nil => exact absurd rfl hpos
        | cons _ _ => rfl
      simp only [hn, hne, hp, Bool.false_eq_true, if_false]
      exact (mem_ptr_insert addr).mpr (Or.inl rfl)
    · exact ih h _

/-- The tree after the first phase of `prune`. -/
theorem prune_stage1 (tpc : TracePC) (addr garbage : Nat → Nat) (t : ExecTree) (root : Node)
    (hr : root.RootGood) (ht : root.TagsOK t.next_id AllPos) :
    (root.filter_nd_pcid tpc garbage 0).1.ids.Nodup ∧
    (∀ i ∈ (root.filter_nd_pcid tpc garbage 0).1.ids, i < t.next_id) ∧
    (root.filter_nd_pcid tpc garbage 0).1.Inv
      (fun i => i ∈ (root.filter_nd_pcid tpc garbage 0).2.foldl (ptr_insert addr) [])
      (fun i => i ∈ ExecTree.parents_of addr
        { t with root := some (root.filter_nd_pcid tpc garbage 0).1 }
        ((root.filter_nd_pcid tpc garbage 0).2.foldl (ptr_insert addr) []))
      no_id := by
  obtain ⟨h1, h2, h3, h4, h5⟩ := filter_spec tpc garbage root hr.root_inv (fun x hx => (ht.2 x hx).2) 0
  have hnd : (root.filter_nd_pcid tpc garbage 0).1.ids.Nodup := by rw [h3]; exact ht.1
  refine ⟨hnd, ?_, ?_⟩
  · intro i hi
    rw [h3, Node.ids_eq_tags] at hi
    obtain ⟨x, hx, rfl⟩ := List.mem_map.mp hi
    exact (ht.2 x hx).1
  · apply h5
    · intro x hx
      exact (mem_foldl_ptr_insert addr).mpr (Or.inr hx)
    · intro a ha c hc hcF
      obtain ⟨q, hq⟩ := Node.exists_get_of_mem_nodes _ ha
      obtain ⟨k, hk, hkc⟩ := List.getElem_of_mem hc
      have hk2 : a.children[k]? = some c := by rw [List.getElem?_eq_getElem hk, hkc]
      have hqc : (root.filter_nd_pcid tpc garbage 0).1.get? (q ++ [k]) = some c := by
        rw [Node.get?_snoc hq k, hk2]
      have hna := @ExecTree.node_at_of_get
        { t with root := some (root.filter_nd_pcid tpc garbage 0).1 } _ c (q ++ [k]) rfl hnd hqc
      exact ExecTree.mem_parents_of addr _ hcF hna (by simp)
        (by simp only [dropLast_snoc, Option.bind]; exact hq)

/-! ## The second phase of `prune`: removing internal Epsilon nodes -/

theorem ids_list_add_child_perm (cs : List Node) (x : Node) :
    (Node.ids_list (add_child cs x)).Perm (x.ids ++ Node.ids_list cs) := by
  have := (nodes_list_add_child_perm cs x).map Node.id
  rwa [List.map_append] at this

theorem ids_list_eraseIdx_perm {cs : List Node} {k : Nat} {c : Node} (h : cs[k]? = some c) :
    (Node.ids_list cs).Perm (c.ids ++ Node.ids_list (cs.eraseIdx k)) := by
  have := (nodes_list_eraseIdx_perm h).map Node.id
  rwa [List.map_append] at this

theorem mem_foldl_add_child {l base : List Node} {x : Node} :
    x ∈ l.foldl add_child base ↔ x ∈ base ∨ x ∈ l := by
  induction l generalizing base with
  | nil => simp
  | cons a as ih =>
    simp only [List.foldl_cons, ih, mem_add_child, List.mem_cons]
    tauto

theorem length_foldl_add_child (l base : List Node) :
    (l.foldl add_child base).length = base.length + l.length := by
  induction l generalizing base with
  | nil => simp
  | cons a as ih =>
    simp only [List.foldl_cons, ih, length_add_child, List.length_cons]
    omega

theorem ids_list_foldl_add_child_perm (l base : List Node) :
    (Node.ids_list (l.foldl add_child base)).Perm (Node.ids_list base ++ Node.ids_list l) := by
  induction l generalizing base with
  | nil => simp [Node.ids_list, Node.nodes_list]
  | cons a as ih =>
    simp only [List.foldl_cons]
    refine (ih _).trans ?_
    rw [Node.ids_list_cons]
    refine (List.Perm.append_right _ (ids_list_add_child_perm base a)).trans ?_
    rw [← Multiset.coe_eq_coe]
    simp only [← Multiset.coe_add]
    abel

/-- Addresses after a subtree is replaced by one whose addresses are old ones of
that subtree or fresh. -/
theorem Node.ids_modifyAt_sub {n m : Node} {q : Pos} (f : Node → Node) {nid nid2 : Nat}
    (hnd : n.ids.Nodup) (hb : ∀ i ∈ n.ids, i < nid) (hq : n.get? q = some m)
    (hf : (f m).ids.Nodup) (hsub : ∀ i ∈ (f m).ids, i ∈ m.ids ∨ (nid ≤ i ∧ i < nid2))
    (hle : nid ≤ nid2) :
    (n.modifyAt f q).ids.Nodup ∧ (∀ i ∈ (n.modifyAt f q).ids, i < nid2) ∧
    (∀ i ∈ (n.modifyAt f q).ids, i ∉ (f m).ids → i ∈ n.ids ∧ i ∉ m.ids) := by
  obtain ⟨rest, h1, h2⟩ := Node.ids_modifyAt hq
  have h3 := h2 f
  have hnd1 := (List.Perm.nodup_iff h1).mp hnd
  obtain ⟨g1, g2, g3⟩ := List.nodup_append.mp hnd1
  have hrest : ∀ i ∈ rest, i < nid := fun i hi => hb i (h1.symm.subset (List.mem_append_left _ hi))
  refine ⟨(List.Perm.nodup_iff h3).mpr (List.nodup_append.mpr ⟨g1, hf, ?_⟩), ?_, ?_⟩
  · intro a ha hb2
    rcases hsub a hb2 with h | h
    · exact g3 ha h
    · have := hrest a ha
      omega
  · intro i hi
    rcases List.mem_append.mp (h3.subset hi) with h | h
    · exact Nat.lt_of_lt_of_le (hrest i h) hle
    · rcases hsub i h with h | h
      · exact Nat.lt_of_lt_of_le (hb i (Node.ids_subset_of_get hq h)) hle
      · exact h.2
  · intro i hi hni
    rcases List.mem_append.mp (h3.subset hi) with h | h
    · exact ⟨h1.symm.subset (List.mem_append_left _ h), fun hm => g3 h hm⟩
    · exact absurd h hni
theorem Node.child_mem_nodes_list {n a c : Node} (ha : a ∈ n.nodes) (hc : c ∈ a.children) :
    c ∈ Node.nodes_list n.children := by
  rw [Node.nodes_eq_cons, List.mem_cons] at ha
  rcases ha with ha | ha
  · subst ha
    exact Node.mem_nodes_list.mpr ⟨c, hc, c.self_mem_nodes⟩
  · obtain ⟨d, hd, had⟩ := Node.mem_nodes_list.mp ha
    exact Node.mem_nodes_list.mpr
      ⟨d, hd, Node.mem_nodes_trans d had (Node.mem_nodes_of_child hc)⟩

theorem Node.mem_nodes_of_mem_nodes_list {n m : Node} (h : m ∈ Node.nodes_list n.children) :
    m ∈ n.nodes := by
  rw [Node.nodes_eq_cons]
  exact List.mem_cons_of_mem _ h

/-- The invariant with a smaller set `E`, when the addresses dropped from `E` are
not those of internal Epsilon nodes below the root. -/
theorem Node.Inv.shrink_E {E E2 U O : Nat → Prop} {n : Node} (h : n.Inv E U O)
    (hE : ∀ c ∈ Node.nodes_list n.children, c.is_internal = true → c.pfx = EPSILON →
      E c.id → E2 c.id) : n.Inv E2 U O := by
  intro a ha
  obtain ⟨h1, h2⟩ := h a ha
  refine ⟨h1, fun hi => ?_⟩
  obtain ⟨g1, g2, g3, g4⟩ := h2 hi
  refine ⟨g1, g2, g3, fun c hc hci hce => ?_⟩
  obtain ⟨e1, e2⟩ := g4 c hc hci hce
  exact ⟨e1, hE c (Node.child_mem_nodes_list ha hc) hci hce e2⟩

theorem Node.internal_of_children_ne_nil {n : Node} (h : n.children ≠ []) :
    n.is_internal = true := by
  cases n with
  | leaf i p t s e => simp [Node.children] at h
  | internal i p cs => rfl

/-- One iteration of the loop over `filtered_nodes` that removes the internal
Epsilon nodes. -/
theorem rm_epsilon_step (t : ExecTree) (id : Nat) (rest : List Nat) (U O : Nat → Prop)
    (h : t.PInv (fun i => i ∈ id :: rest) U O) :
    ExecTree.PInv (fun i => i ∈ rest) U O
      (match t.node_at id with
        | some (pos, n) =>
          if n.is_internal && !pos.isEmpty then t.rm_internal_epsilon_node pos else t
        | none => t) := by
  cases hroot : t.root with
  | none =>
    have : t.node_at id = none := by simp [ExecTree.node_at, hroot]
    simp [this, ExecTree.PInv, hroot]
  | some root =>
    obtain ⟨hnd, hb, hinv⟩ : root.ids.Nodup ∧ (∀ i ∈ root.ids, i < t.next_id) ∧
        root.Inv (fun i => i ∈ id :: rest) U O := by
      simpa [ExecTree.PInv, hroot] using h
    have hsame : (∀ c ∈ Node.nodes_list root.children, c.is_internal = true →
        c.pfx = EPSILON → c.id ≠ id) → t.PInv (fun i => i ∈ rest) U O := by
      intro hne
      simp only [ExecTree.PInv, hroot]
      refine ⟨hnd, hb, hinv.shrink_E ?_⟩
      intro c hc hci hce hE
      rcases List.mem_cons.mp hE with h1 | h1
      · exact absurd h1 (hne c hc hci hce)
      · exact h1
    cases hna : t.node_at id with
    | none =>
      simp only []
      apply hsame
      intro c hc _ _ hcid
      have := ExecTree.node_at_none hna root hroot
      exact this (hcid ▸ Node.mem_ids.mpr ⟨c, Node.mem_nodes_of_mem_nodes_list hc, rfl⟩)
    | some r =>
      obtain ⟨pos, n⟩ := r
      obtain ⟨root2, hr2, hget, hnid⟩ := ExecTree.node_at_some hna
      rw [hroot] at hr2
      simp only [Option.some.injEq] at hr2
      subst hr2
      simp only []
      by_cases hcond : (n.is_internal && !pos.isEmpty) = true
      · rw [if_pos hcond]
        simp only [Bool.and_eq_true, Bool.not_eq_true', List.isEmpty_eq_false] at hcond
        obtain ⟨hni, hpos⟩ := hcond
        rcases List.eq_nil_or_concat pos with h0 | ⟨q, idx, h0⟩
        · exact absurd h0 (by simpa using hpos)
        rw [List.concat_eq_append] at h0
        subst h0
        unfold ExecTree.rm_internal_epsilon_node
        simp only [hroot, hget, getLast?_snoc, dropLast_snoc]
        by_cases hpe : n.pfx = EPSILON
        · rw [if_neg (by simpa using hpe)]
          obtain ⟨P, hq, hk⟩ := Node.get?_snoc_inv hget
          have hPi : P.is_internal = true := Node.is_internal_of_child hk
          have hPloc := hinv.local_of_get hq
          have hXloc := hinv.local_of_get hget
          obtain ⟨-, hP2⟩ := hPloc
          obtain ⟨p1, p2, p3, p4⟩ := hP2 hPi
          obtain ⟨-, hX2⟩ := hXloc
          obtain ⟨x1, x2, x3, x4⟩ := hX2 hni
          have hXU := p4 n (List.getElem?_mem hk) hni hpe
          have hndP : P.ids.Nodup := Node.nodup_ids_of_get hnd hq
          rw [Node.ids_eq_cons] at hndP
          have hperm1 := ids_list_eraseIdx_perm hk
          have hperm2 := ids_list_foldl_add_child_perm n.children (P.children.eraseIdx idx)
          have hndc : (n.ids ++ Node.ids_list (P.children.eraseIdx idx)).Nodup :=
            (List.Perm.nodup_iff hperm1).mp (List.nodup_cons.mp hndP).2
          rw [Node.ids_eq_cons n] at hndc
          obtain ⟨c1, c2, c3⟩ := List.nodup_append.mp hndc
          have hxin : n.id ∉ Node.ids_list
              (n.children.foldl add_child (P.children.eraseIdx idx)) := by
            intro hx
            rcases List.mem_append.mp (hperm2.subset hx) with hx | hx
            · exact c3 (List.mem_cons_self _ _) hx
            · exact (List.nodup_cons.mp c1).1 hx
          have hsubP : ∀ i ∈ Node.ids_list
              (n.children.foldl add_child (P.children.eraseIdx idx)),
              i ∈ Node.ids_list P.children := by
            intro i hi
            apply hperm1.symm.subset
            rcases List.mem_append.mp (hperm2.subset hi) with hx | hx
            · exact List.mem_append_right _ hx
            · rw [Node.ids_eq_cons n]
              exact List.mem_append_left _ (List.mem_cons_of_mem _ hx)
          have hfids : (P.set_children
              (n.children.foldl add_child (P.children.eraseIdx idx))).ids =
              P.id :: Node.ids_list (n.children.foldl add_child (P.children.eraseIdx idx)) := by
            cases P with
            | leaf _ _ _ _ _ => simp [Node.is_internal] at hPi
            | internal pi pp pcs => rfl
          have hfnd : (P.set_children
              (n.children.foldl add_child (P.children.eraseIdx idx))).ids.Nodup := by
            rw [hfids, List.nodup_cons]
            refine ⟨fun hx => (List.nodup_cons.mp hndP).1 (hsubP _ hx), ?_⟩
            apply (List.Perm.nodup_iff hperm2).mpr
            refine List.nodup_append.mpr ⟨c2, (List.nodup_cons.mp c1).2, ?_⟩
            intro a ha1 ha2
            exact c3 (List.mem_cons_of_mem _ ha2) ha1
          have hfsub : ∀ i ∈ (P.set_children
              (n.children.foldl add_child (P.children.eraseIdx idx))).ids, i ∈ P.ids := by
            intro i hi
            rw [hfids] at hi
            rw [Node.ids_eq_cons]
            rcases List.mem_cons.mp hi with hi | hi
            · exact hi ▸ List.mem_cons_self _ _
            · exact List.mem_cons_of_mem _ (hsubP i hi)
          obtain ⟨k1, k2, -⟩ := Node.ids_modifyAt_sub
            (fun m => m.set_children (n.children.foldl add_child (m.children.eraseIdx idx)))
            hnd hb hq hfnd (fun i hi => Or.inl (hfsub i hi)) (Nat.le_refl _)
          simp only [ExecTree.PInv]
          refine ⟨k1, k2, ?_⟩
          apply Node.Inv.modifyAt _ q hnd hq hinv
          · -- the new parent
            rw [Node.inv_iff]
            have hchild : ∀ d ∈ (P.set_children
                (n.children.foldl add_child (P.children.eraseIdx idx))).children,
                (d ∈ P.children ∨ d ∈ n.children) ∧ n.id ∉ d.ids := by
              intro d hd
              have hd2 : d ∈ n.children.foldl add_child (P.children.eraseIdx idx) := by
                cases P with
                | leaf _ _ _ _ _ => simp [Node.is_internal] at hPi
                | internal pi pp pcs => simpa using hd
              refine ⟨(mem_foldl_add_child.mp hd2).imp List.mem_of_mem_eraseIdx (fun h => h), ?_⟩
              intro hx
              exact hxin (Node.mem_ids_list.mpr ⟨d, hd2, hx⟩)
            constructor
            · refine ⟨by
                cases P with
                | leaf _ _ _ _ _ => simp [Node.is_internal] at hPi
                | internal pi pp pcs => exact (hinv.local_of_get hq).1, fun _ => ?_⟩
              have hch : (P.set_children
                  (n.children.foldl add_child (P.children.eraseIdx idx))).children =
                  n.children.foldl add_child (P.children.eraseIdx idx) := by
                cases P with
                | leaf _ _ _ _ _ => simp [Node.is_internal] at hPi
                | internal pi pp pcs => rfl
              rw [Node.id_set_children]
              refine ⟨?_, Or.inr hXU.1, ?_, ?_⟩
              · rw [hch]
                intro h0
                have e1 := congrArg List.length h0
                rw [length_foldl_add_child] at e1
                have e2 := List.length_pos.mpr x1
                simp only [List.length_nil] at e1
                omega
              · rcases p3 with p3 | p3
                · left
                  rw [hch, length_foldl_add_child]
                  have hlt : idx < P.children.length := by
                    by_contra hlt
                    simp [List.getElem?_eq_none (Nat.le_of_not_lt hlt)] at hk
                  rw [List.length_eraseIdx, if_pos hlt]
                  have := List.length_pos.mpr x1
                  omega
                · exact Or.inr p3
              · intro d hd hdi hde
                obtain ⟨hd1, hd2⟩ := hchild d hd
                refine ⟨hXU.1, ?_⟩
                have hE : d.id ∈ id :: rest := by
                  rcases hd1 with hd1 | hd1
                  · exact (p4 d hd1 hdi hde).2
                  · exact (x4 d hd1 hdi hde).2
                rcases List.mem_cons.mp hE with h1 | h1
                · exact absurd (by rw [hnid, ← h1]; exact d.id_mem_ids) hd2
                · exact h1
            · intro d hd
              obtain ⟨hd1, hd2⟩ := hchild d hd
              have hdn : d ∈ root.nodes := by
                rcases hd1 with hd1 | hd1
                · exact Node.mem_nodes_trans root (Node.mem_nodes_of_get hq)
                    (Node.mem_nodes_of_child hd1)
                · exact Node.mem_nodes_trans root (Node.mem_nodes_of_get hget)
                    (Node.mem_nodes_of_child hd1)
              have hdi : d.Inv (fun i => i ∈ id :: rest) U O :=
                fun a ha => hinv a (Node.mem_nodes_trans root hdn ha)
              apply hdi.shrink_E
              intro c hc _ _ hE
              rcases List.mem_cons.mp hE with h1 | h1
              · exfalso
                apply hd2
                rw [hnid, ← h1]
                exact Node.mem_ids.mpr ⟨c, Node.mem_nodes_of_mem_nodes_list hc, rfl⟩
              · exact h1
          · intro _
            cases P with
            | leaf _ _ _ _ _ => simp [Node.is_internal] at hPi
            | internal pi pp pcs => exact ⟨rfl, fun h1 h2 => ⟨h1, h2, rfl⟩⟩
          · intro a ha haP hloc
            obtain ⟨h1, h2⟩ := hloc
            refine ⟨h1, fun hi => ?_⟩
            obtain ⟨g1, g2, g3, g4⟩ := h2 hi
            refine ⟨g1, g2, g3, fun c hc hci hce => ?_⟩
            obtain ⟨e1, e2⟩ := g4 c hc hci hce
            refine ⟨e1, ?_⟩
            rcases List.mem_cons.mp e2 with h3 | h3
            · exfalso
              obtain ⟨qa, hqa⟩ := Node.exists_get_of_mem_nodes root ha
              obtain ⟨k, hk1, hk2⟩ := List.getElem_of_mem hc
              have hqc : root.get? (qa ++ [k]) = some c := by
                rw [Node.get?_snoc hqa k, List.getElem?_eq_getElem hk1, hk2]
              have hpu := Node.pos_unique _ _ hnd hqc hget (by rw [h3, hnid])
              have hqq : qa = q := by
                have := congrArg List.dropLast hpu
                simpa using this
              subst hqq
              rw [hqa] at hq
              simp only [Option.some.injEq] at hq
              subst hq
              exact haP a.id_mem_ids
            · exact h3
        · rw [if_pos (by simpa using hpe)]
          apply hsame
          intro c hc _ hce hcid
          have := Node.eq_of_id_eq hnd (Node.mem_nodes_of_mem_nodes_list hc)
            (Node.mem_nodes_of_get hget) (by rw [hcid, hnid])
          subst this
          exact hpe hce
      · rw [if_neg hcond]
        apply hsame
        intro c hc hci _ hcid
        obtain ⟨qc, hqc0, hqc⟩ := Node.exists_get_of_mem_nodes_list hc
        have hpu := Node.pos_unique _ _ hnd hqc hget (by rw [hcid, hnid])
        subst hpu
        rw [hqc] at hget
        simp only [Option.some.injEq] at hget
        subst hget
        apply hcond
        simp only [Bool.and_eq_true, Bool.not_eq_true', List.isEmpty_eq_false]
        exact ⟨hci, by simpa using hqc0⟩

/-- After the loop that removes internal Epsilon nodes, no internal node below the
root has the Epsilon prefix. -/
theorem rm_epsilon_loop_ok (U O : Nat → Prop) : ∀ (F : List Nat) (t : ExecTree),
    t.PInv (fun i => i ∈ F) U O → (t.rm_epsilon_loop F).PInv no_id U O := by
  intro F
  induction F with
  | nil =>
    intro t h
    simpa [ExecTree.rm_epsilon_loop, no_id] using h
  | cons id rest ih =>
    intro t h
    have := ih _ (rm_epsilon_step t id rest U O h)
    simpa [ExecTree.rm_epsilon_loop] using this

/-! ## The third phase of `prune`: `merge`, `sort` and the sort loop -/

theorem Node.Inv.mono {E U O U2 O2 : Nat → Prop} {n : Node} (h : n.Inv E U O)
    (hU : ∀ i, U i → U2 i) (hO : ∀ i, O i → O2 i) : n.Inv E U2 O2 := by
  intro a ha
  obtain ⟨h1, h2⟩ := h a ha
  refine ⟨h1, fun hi => ?_⟩
  obtain ⟨g1, g2, g3, g4⟩ := h2 hi
  exact ⟨g1, g2.imp (fun h => h) (hU _), g3.imp (fun h => h) (hO _),
    fun c hc hci hce => ⟨hU _ (g4 c hc hci hce).1, (g4 c hc hci hce).2⟩⟩

/-- A node whose internal children have no Epsilon prefix: the form the invariant
takes once the Epsilon loop is over. -/
theorem Node.Local.no_eps_child {U O : Nat → Prop} {n c : Node} (h : n.Local no_id U O)
    (hc : c ∈ n.children) (hci : c.is_internal = true) : c.pfx ≠ EPSILON := by
  intro hce
  exact (h.2 (Node.internal_of_children_ne_nil (List.ne_nil_of_mem hc))).2.2.2 c hc hci hce |>.2

theorem Node.Inv.set_pfx_inv {E U O : Nat → Prop} {n : Node} (h : n.Inv E U O) {p : ExecPath}
    (hp : p = EPSILON ∨ ValidPath p) : (n.set_pfx p).Inv E U O := by
  rw [Node.inv_iff] at h ⊢
  cases n with
  | leaf i q t s e => exact ⟨Node.Local.of_leaf rfl hp, by simp [Node.set_pfx, Node.children]⟩
  | internal i q cs => exact ⟨⟨hp, h.1.2⟩, h.2⟩

theorem Node.inv_leaf {E U O : Nat → Prop} (i : Nat) (p t : ExecPath) (s : List Input)
    (e : Bool) (hp : p = EPSILON ∨ ValidPath p) : (Node.leaf i p t s e).Inv E U O := by
  intro m hm
  simp only [Node.nodes, List.mem_singleton] at hm
  subst hm
  exact Node.Local.of_leaf rfl hp

/-- The invariant on a new internal node whose address is in `U`. -/
theorem Node.inv_new_internal {U O : Nat → Prop} (j : Nat) (p : ExecPath) (ks : List Node)
    (hp : ValidPath p) (hU : U j) (hlen : 2 ≤ ks.length)
    (hks : ∀ d ∈ ks, d.Inv no_id U O ∧ (d.is_internal = true → d.pfx ≠ EPSILON)) :
    (Node.internal j p ks).Inv no_id U O := by
  rw [Node.inv_iff]
  refine ⟨⟨Or.inr hp, fun _ => ⟨?_, Or.inr hU, Or.inl hlen, ?_⟩⟩, fun d hd => (hks d hd).1⟩
  · intro h0
    simp only [Node.children_internal] at h0
    rw [h0] at hlen
    simp at hlen
  · intro c hc hci hce
    exact absurd hce ((hks c hc).2 hci)

theorem validPath_of_front_pos {p : ExecPath} (h : p = EPSILON ∨ ValidPath p)
    (hf : 0 < front p) : ValidPath p := by
  rcases h with h | h
  · rw [h] at hf; simp [front, EPSILON, EpsilonPCID] at hf
  · exact h

theorem eq_epsilon_of_front_zero {p : ExecPath} (h : p = EPSILON ∨ ValidPath p)
    (hf : front p = 0) : p = EPSILON := by
  rcases h with h | h
  · exact h
  · have := validPath_front_pos h; omega

theorem ids_set_pfx (n : Node) (p : ExecPath) : (n.set_pfx p).ids = n.ids := by
  cases n <;> rfl

theorem Node.children_set_pfx (n : Node) (p : ExecPath) : (n.set_pfx p).children = n.children := by
  cases n <;> rfl

theorem Node.is_internal_set_pfx (n : Node) (p : ExecPath) :
    (n.set_pfx p).is_internal = n.is_internal := by
  cases n <;> rfl
theorem merge_eq (left right : Node) (nid : Nat) :
    merge left right nid =
      if left.pfx = right.pfx then
        match left, right with
        | .leaf _ _ ltail ls le, .leaf _ _ _ rs _ =>
          (.leaf nid left.pfx ltail (merge_inputset (merge_inputset [] ls) rs) le, nid + 1)
        | .leaf i _ t s e, .internal j p cs =>
          (.internal j p (add_child cs (.leaf i EPSILON t s e)), nid)
        | .internal j p cs, .leaf i _ t s e =>
          (.internal j p (add_child cs (.leaf i EPSILON t s e)), nid)
        | .internal _ _ lcs, .internal _ _ rcs =>
          (.internal nid left.pfx ((lcs ++ rcs).foldl add_child []), nid + 1)
      else if left.pfx.length = common_prefix_length left.pfx right.pfx then
        (.internal nid (left.pfx.take (common_prefix_length left.pfx right.pfx))
          (add_child (absorb [] left)
            (right.set_pfx (right.pfx.drop (common_prefix_length left.pfx right.pfx)))),
          nid + 1)
      else if right.pfx.length = common_prefix_length left.pfx right.pfx then
        (.internal nid (left.pfx.take (common_prefix_length left.pfx right.pfx))
          (absorb (add_child []
            (left.set_pfx (left.pfx.drop (common_prefix_length left.pfx right.pfx)))) right),
          nid + 1)
      else
        (.internal nid (left.pfx.take (common_prefix_length left.pfx right.pfx))
          (add_child (add_child []
            (left.set_pfx (left.pfx.drop (common_prefix_length left.pfx right.pfx))))
            (right.set_pfx (right.pfx.drop (common_prefix_length left.pfx right.pfx)))),
          nid + 1) := by
  unfold merge
  simp only [subvec_len_zero, subvec]
  by_cases h : left.pfx = right.pfx
  · have hc : common_prefix_length left.pfx right.pfx = left.pfx.length := by
      rw [← h]
      have := common_prefix_length_append left.pfx []
      simpa using this
    simp only [h, if_true]
    rw [h] at hc
    cases left <;> cases right <;> simp only [Node.pfx_leaf, Node.pfx_internal] at hc ⊢ <;>
      simp [hc]
  · simp only [h, if_false]
    cases left <;> cases right <;> rfl

theorem absorb_facts {U O : Nat → Prop} (base : List Node) (n : Node) (hn : n.Inv no_id U O) :
    (∀ d ∈ absorb base n, d ∈ base ∨
      (d.Inv no_id U O ∧ (d.is_internal = true → d.pfx ≠ EPSILON))) ∧
    base.length + 1 ≤ (absorb base n).length ∧
    (Node.ids_list (absorb base n)).Subperm (Node.ids_list base ++ n.ids) := by
  cases n with
  | leaf i p t s e =>
    refine ⟨?_, ?_, ?_⟩
    · intro d hd
      simp only [absorb, mem_add_child] at hd
      rcases hd with hd | hd
      · right
        subst hd
        exact ⟨Node.inv_leaf _ _ _ _ _ (Or.inl rfl), by simp [Node.is_internal]⟩
      · exact Or.inl hd
    · simp [absorb, length_add_child]
    · simp only [absorb]
      refine List.Perm.subperm ((ids_list_add_child_perm base _).trans ?_)
      exact List.perm_append_comm
  | internal i p cs =>
    have hloc := hn _ (Node.self_mem_nodes _)
    have hinv := ((Node.inv_iff _ _ _ _).mp hn).2
    refine ⟨?_, ?_, ?_⟩
    · intro d hd
      simp only [absorb] at hd
      rcases mem_foldl_add_child.mp hd with hd | hd
      · exact Or.inl hd
      · exact Or.inr ⟨hinv d hd, fun hdi => hloc.no_eps_child hd hdi⟩
    · simp only [absorb, length_foldl_add_child]
      have : cs ≠ [] := (hloc.2 rfl).1
      have := List.length_pos.mpr this
      omega
    · simp only [absorb]
      refine (ids_list_foldl_add_child_perm cs base).subperm.trans ?_
      rw [Node.ids_internal]
      exact (List.Sublist.append_left (List.sublist_cons_self i _) _).subperm

/-- Addresses of a new node over children taken from two nodes. -/
theorem ids_new_node {A B L : List Nat} {nid : Nat} (hnd : (A ++ B).Nodup)
    (hb : ∀ i ∈ A ++ B, i < nid) (hL : L.Subperm (A ++ B)) :
    (nid :: L).Nodup ∧ ∀ i ∈ nid :: L, i ∈ A ∨ i ∈ B ∨ i = nid := by
  have hLn : L.Nodup := by
    obtain ⟨l, hl1, hl2⟩ := hL
    exact (hl1.nodup_iff).mp (hnd.sublist hl2)
  refine ⟨List.nodup_cons.mpr ⟨fun h => ?_, hLn⟩, ?_⟩
  · have := hb nid (hL.subset h)
    omega
  · intro i hi
    rcases List.mem_cons.mp hi with h | h
    · exact Or.inr (Or.inr h)
    · rcases List.mem_append.mp (hL.subset h) with h | h
      · exact Or.inl h
      · exact Or.inr (Or.inl h)
theorem subperm_append_swap {a x b : List Nat} (h : x.Subperm b) : (a ++ x).Subperm (b ++ a) := by
  rw [← Multiset.coe_le] at h ⊢
  simp only [← Multiset.coe_add]
  rw [add_comm]
  exact add_le_add_right h _

theorem ids_list_nil : Node.ids_list [] = [] := rfl

theorem ids_list_singleton (c : Node) : Node.ids_list [c] = c.ids := by
  simp [Node.ids_list_cons, ids_list_nil]

/-- The node `merge` returns satisfies the invariant once its address is in
`may_need_sort`. -/
theorem merge_ok {U O : Nat → Prop} (left right : Node) (nid : Nat)
    (hl : left.Inv no_id U O) (hr : right.Inv no_id U O)
    (hlv : left.is_internal = true → ValidPath left.pfx)
    (hrv : right.is_internal = true → ValidPath right.pfx)
    (hf : front left.pfx = front right.pfx)
    (hnd : (left.ids ++ right.ids).Nodup) (hb : ∀ i ∈ left.ids ++ right.ids, i < nid) :
    MergeOK U O left right nid (merge left right nid) := by
  have hlp := (hl _ left.self_mem_nodes).1
  have hrp := (hr _ right.self_mem_nodes).1
  have hnew : ∀ (p : ExecPath) (ks : List Node), ValidPath p → front p = front left.pfx →
      2 ≤ ks.length →
      (∀ d ∈ ks, d.Inv no_id U O ∧ (d.is_internal = true → d.pfx ≠ EPSILON)) →
      (Node.ids_list ks).Subperm (left.ids ++ right.ids) →
      MergeOK U O left right nid (.internal nid p ks, nid + 1) := by
    intro p ks hp hfp hlen hks hsub
    obtain ⟨h1, h2⟩ := ids_new_node hnd hb hsub
    exact {
      inv := Node.inv_new_internal nid p ks hp (Or.inr rfl) hlen
        (fun d hd => ⟨(hks d hd).1.mono (fun i h => Or.inl h) (fun i h => h), (hks d hd).2⟩)
      valid := fun _ => hp
      pfx := Or.inr hp
      front := hfp
      nodup := h1
      ids := fun i hi => (h2 i hi).imp (fun h => h) (fun h => h.imp (fun h => h) (fun h => ⟨h, rfl⟩))
      next := ⟨by simp, by simp⟩ }
  have hjoin : ∀ (i : Nat) (t : ExecPath) (s : List Input) (e : Bool) (j : Nat) (p : ExecPath)
      (cs : List Node), (Node.internal j p cs).Inv no_id U O → ValidPath p →
      (i :: j :: Node.ids_list cs).Nodup →
      left.pfx = p →
      (∀ x ∈ i :: j :: Node.ids_list cs, x ∈ left.ids ∨ x ∈ right.ids) →
      MergeOK U O left right nid
        (.internal j p (add_child cs (.leaf i EPSILON t s e)), nid) := by
    intro i t s e j p cs hn hp hnd2 hpe hmem
    have hloc := hn _ (Node.self_mem_nodes _)
    have hinv := ((Node.inv_iff _ _ _ _).mp hn).2
    have hperm := ids_list_add_child_perm cs (.leaf i EPSILON t s e)
    have hids : (Node.internal j p (add_child cs (.leaf i EPSILON t s e))).ids.Perm
        (i :: j :: Node.ids_list cs) := by
      rw [Node.ids_internal]
      refine (List.Perm.cons j hperm).trans ?_
      exact List.Perm.swap _ _ _
    exact {
      inv := by
        apply Node.inv_new_internal j p _ hp (Or.inr rfl)
        · rw [length_add_child]
          have := List.length_pos.mpr (hloc.2 rfl).1
          simp only [Node.children_internal] at this
          omega
        · intro d hd
          rcases mem_add_child.mp hd with hd | hd
          · subst hd
            exact ⟨Node.inv_leaf _ _ _ _ _ (Or.inl rfl), by simp [Node.is_internal]⟩
          · exact ⟨(hinv d hd).mono (fun i h => Or.inl h) (fun i h => h),
              fun hdi => hloc.no_eps_child hd hdi⟩
      valid := fun _ => hp
      pfx := Or.inr hp
      front := by rw [hpe]; rfl
      nodup := (hids.nodup_iff).mpr hnd2
      ids := fun x hx => (hmem x (hids.subset hx)).imp (fun h => h) (fun h => Or.inl h)
      next := ⟨Nat.le_refl _, by simp⟩ }
  rw [merge_eq]
  by_cases hsame : left.pfx = right.pfx
  · rw [if_pos hsame]
    cases left with
    | leaf li lp lt ls le =>
      cases right with
      | leaf ri rp rt rs re =>
        exact {
          inv := Node.inv_leaf _ _ _ _ _ hlp
          valid := by simp [Node.is_internal]
          pfx := hlp
          front := rfl
          nodup := by simp [Node.ids, Node.nodes]
          ids := by
            intro i hi
            simp only [Node.ids, Node.nodes, List.map_cons, List.map_nil, List.mem_singleton,
              Node.id_leaf] at hi
            exact Or.inr (Or.inr ⟨hi, rfl⟩)
          next := ⟨by simp, by simp⟩ }
      | internal rj rp rcs =>
        apply hjoin li lt ls le rj rp rcs hr (hrv rfl) _ hsame
        · intro x hx
          simp only [List.mem_cons] at hx
          rcases hx with hx | hx
          · left; simp [Node.ids, Node.nodes, hx]
          · right; rw [Node.ids_internal]; simpa using hx
        · exact hnd
    | internal lj lp lcs =>
      cases right with
      | leaf ri rp rt rs re =>
        apply hjoin ri rt rs re lj lp lcs hl (hlv rfl) _ rfl
        · intro x hx
          simp only [List.mem_cons] at hx
          rcases hx with hx | hx
          · right; simp [Node.ids, Node.nodes, hx]
          · left; rw [Node.ids_internal]; simpa using hx
        · have : ((Node.leaf ri rp rt rs re).ids ++ (Node.internal lj lp lcs).ids).Nodup :=
            (List.perm_append_comm.nodup_iff).mp hnd
          exact this
      | internal rj rp rcs =>
        have hlloc := hl _ (Node.self_mem_nodes _)
        have hrloc := hr _ (Node.self_mem_nodes _)
        have hlinv := ((Node.inv_iff _ _ _ _).mp hl).2
        have hrinv := ((Node.inv_iff _ _ _ _).mp hr).2
        apply hnew _ _ (hlv rfl) rfl
        · rw [length_foldl_add_child, List.length_append]
          have h1 := List.length_pos.mpr (hlloc.2 rfl).1
          have h2 := List.length_pos.mpr (hrloc.2 rfl).1
          simp only [Node.children_internal] at h1 h2
          simp only [List.length_nil]
          omega
        · intro d hd
          rcases mem_foldl_add_child.mp hd with hd | hd
          · simp at hd
          · rcases List.mem_append.mp hd with hd | hd
            · exact ⟨hlinv d hd, fun hdi => hlloc.no_eps_child hd hdi⟩
            · exact ⟨hrinv d hd, fun hdi => hrloc.no_eps_child hd hdi⟩
        · refine (ids_list_foldl_add_child_perm _ _).subperm.trans ?_
          rw [ids_list_nil, List.nil_append, Node.ids_list_append, Node.ids_internal,
            Node.ids_internal]
          exact (List.Sublist.append (List.sublist_cons_self _ _)
            (List.sublist_cons_self _ _)).subperm
  · rw [if_neg hsame]
    have hlval : ValidPath left.pfx := by
      refine validPath_of_front_pos hlp ?_
      by_contra h0
      have h1 : front left.pfx = 0 := by omega
      exact hsame ((eq_epsilon_of_front_zero hlp h1).trans
        (eq_epsilon_of_front_zero hrp (hf ▸ h1)).symm)
    have hrval : ValidPath right.pfx :=
      validPath_of_front_pos hrp (hf ▸ validPath_front_pos hlval)
    have hcl : 0 < common_prefix_length left.pfx right.pfx :=
      common_prefix_length_pos hlval.1 hrval.1 hf
    have hcv : ValidPath (left.pfx.take (common_prefix_length left.pfx right.pfx)) :=
      validPath_take hlval hcl
    have hcf : front (left.pfx.take (common_prefix_length left.pfx right.pfx)) =
        front left.pfx := front_take hcl
    have hle1 := common_prefix_length_le_left left.pfx right.pfx
    have hle2 := common_prefix_length_le_right left.pfx right.pfx
    have htk := take_common_prefix_length left.pfx right.pfx
    have hright : left.pfx.length ≠ common_prefix_length left.pfx right.pfx ∨
        common_prefix_length left.pfx right.pfx < right.pfx.length := by
      by_contra hcon
      simp only [not_or, not_not, not_lt] at hcon
      apply hsame
      have e1 : left.pfx.take (common_prefix_length left.pfx right.pfx) = left.pfx :=
        List.take_of_length_le (by omega)
      have e2 : right.pfx.take (common_prefix_length left.pfx right.pfx) = right.pfx :=
        List.take_of_length_le (by omega)
      exact e1.symm.trans (htk.trans e2)
    have hset : ∀ (n : Node), n.Inv no_id U O → ValidPath n.pfx →
        common_prefix_length left.pfx right.pfx < n.pfx.length →
        (n.set_pfx (n.pfx.drop (common_prefix_length left.pfx right.pfx))).Inv no_id U O ∧
        ((n.set_pfx (n.pfx.drop (common_prefix_length left.pfx right.pfx))).is_internal = true →
          (n.set_pfx (n.pfx.drop (common_prefix_length left.pfx right.pfx))).pfx ≠
            EPSILON) := by
      intro n hn hv hlt
      have := validPath_drop hv hlt
      exact ⟨hn.set_pfx_inv (Or.inr this), fun _ => by
        rw [Node.pfx_set_pfx]; exact validPath_ne_epsilon this⟩
    by_cases hA : left.pfx.length = common_prefix_length left.pfx right.pfx
    · rw [if_pos hA]
      have hlt : common_prefix_length left.pfx right.pfx < right.pfx.length :=
        hright.resolve_left (fun h => h hA)
      obtain ⟨a1, a2, a3⟩ := absorb_facts [] left hl
      apply hnew _ _ hcv hcf
      · rw [length_add_child]
        simp only [List.length_nil] at a2
        omega
      · intro d hd
        rcases mem_add_child.mp hd with hd | hd
        · subst hd
          exact hset right hr hrval hlt
        · rcases a1 d hd with h | h
          · simp at h
          · exact h
      · refine (ids_list_add_child_perm _ _).subperm.trans ?_
        rw [ids_set_pfx]
        rw [ids_list_nil, List.nil_append] at a3
        exact subperm_append_swap a3
    · rw [if_neg hA]
      have hltl : common_prefix_length left.pfx right.pfx < left.pfx.length := by omega
      by_cases hB : right.pfx.length = common_prefix_length left.pfx right.pfx
      · rw [if_pos hB]
        obtain ⟨a1, a2, a3⟩ := absorb_facts (add_child []
          (left.set_pfx (left.pfx.drop (common_prefix_length left.pfx right.pfx)))) right hr
        apply hnew _ _ hcv hcf
        · simp only [add_child, List.length_singleton] at a2
          exact a2
        · intro d hd
          rcases a1 d hd with h | h
          · simp only [add_child, List.mem_singleton] at h
            subst h
            exact hset left hl hlval hltl
          · exact h
        · simp only [add_child] at a3 ⊢
          rw [ids_list_singleton, ids_set_pfx] at a3
          exact a3
      · rw [if_neg hB]
        have hltr : common_prefix_length left.pfx right.pfx < right.pfx.length := by omega
        apply hnew _ _ hcv hcf
        · rw [length_add_child]
          simp [add_child]
        · intro d hd
          rcases mem_add_child.mp hd with hd | hd
          · subst hd
            exact hset right hr hrval hltr
          · simp only [add_child, List.mem_singleton] at hd
            subst hd
            exact hset left hl hlval hltl
        · refine (ids_list_add_child_perm _ _).subperm.trans ?_
          simp only [add_child]
          rw [ids_list_singleton, ids_set_pfx, ids_set_pfx]
          exact List.perm_append_comm.subperm

theorem ptr_insert_ne_nil (addr : Nat → Nat) (l : List Nat) (x : Nat) :
    ptr_insert addr l x ≠ [] := by
  intro h
  have : x ∈ ptr_insert addr l x := (mem_ptr_insert addr).mpr (Or.inl rfl)
  rw [h] at this
  simp at this

theorem add_child_ne_nil (cs : List Node) (x : Node) : add_child cs x ≠ [] := by
  intro h
  have : x ∈ add_child cs x := mem_add_child.mpr (Or.inl rfl)
  rw [h] at this
  simp at this

theorem mem_ids_list_of_mem {cs : List Node} {c : Node} (hc : c ∈ cs) {i : Nat}
    (hi : i ∈ c.ids) : i ∈ Node.ids_list cs :=
  Node.mem_ids_list.mpr ⟨c, hc, hi⟩

/-- One iteration of the loop of `sort`. -/
theorem sort_step_ok (addr : Nat → Nat) {U O : Nat → Prop} {nid0 : Nat}
    {done todo : List Node} {st : List Node × List Nat × Nat} {x : Node}
    (h : SortInv U O nid0 done (x :: todo) st) (hx : x.Inv no_id U O)
    (hxv : x.is_internal = true → ValidPath x.pfx)
    (hxb : ∀ i ∈ Node.ids_list (x :: todo), i < nid0) :
    SortInv U O nid0 (done ++ [x]) todo (sort_step addr st x) := by
  obtain ⟨hs, hinv, hnd, hids, hbound, hnext, hlen⟩ := h
  rw [Node.ids_list_cons] at hnd hxb
  have hxp := (hx _ x.self_mem_nodes).1
  unfold sort_step
  cases hl : lookup_child st.1 (front x.pfx) with
  | none =>
    simp only []
    have hperm := ids_list_add_child_perm st.1 x
    refine ⟨?_, ?_, ?_, ?_, ?_, hnext, ?_, ?_⟩
    · exact children_sorted_add_child hs (lookup_child_none.mp hl)
    · intro d hd
      rcases mem_add_child.mp hd with hd | hd
      · subst hd
        exact ⟨hx.mono (fun i h => Or.inl h) (fun i h => h), hxv⟩
      · exact hinv d hd
    · refine (List.Perm.nodup_iff ?_).mpr hnd
      refine (List.Perm.append_right _ hperm).trans ?_
      rw [List.append_assoc]
      exact perm_append_swap _ _ _
    · intro i hi
      rcases List.mem_append.mp (hperm.subset hi) with h1 | h1
      · left
        rw [Node.ids_list_append, ids_list_singleton]
        exact List.mem_append_right _ h1
      · rcases hids i h1 with h2 | h2
        · left
          rw [Node.ids_list_append]
          exact List.mem_append_left _ h2
        · exact Or.inr h2
    · intro i hi
      rcases List.mem_append.mp (hperm.subset hi) with h1 | h1
      · exact Nat.lt_of_lt_of_le (hxb i (List.mem_append_left _ h1)) hnext
      · exact hbound i h1
    · intro h0
      rw [length_add_child, hlen.1 h0]
      simp
    · intro _
      exact add_child_ne_nil _ _
  | some idx =>
    obtain ⟨conflict, hc, hcf, -⟩ := lookup_child_some hl
    simp only [hc]
    have hcm : conflict ∈ st.1 := List.getElem?_mem hc
    have hperm1 := ids_list_eraseIdx_perm hc
    have hnd1 : ((conflict.ids ++ Node.ids_list (st.1.eraseIdx idx)) ++
        (x.ids ++ Node.ids_list todo)).Nodup :=
      (List.Perm.nodup_iff (List.Perm.append_right _ hperm1)).mp hnd
    obtain ⟨n1, n2, n3⟩ := List.nodup_append.mp hnd1
    obtain ⟨n4, n5, n6⟩ := List.nodup_append.mp n1
    obtain ⟨n7, n8, n9⟩ := List.nodup_append.mp n2
    have hmok : MergeOK (fun i => U i ∨ i ∈ st.2.1) O conflict x st.2.2
        (merge conflict x st.2.2) := by
      apply merge_ok conflict x st.2.2 (hinv conflict hcm).1
        (hx.mono (fun i h => Or.inl h) (fun i h => h)) (hinv conflict hcm).2 hxv hcf
      · refine List.nodup_append.mpr ⟨n4, n7, ?_⟩
        intro a ha1 ha2
        exact n3 (List.mem_append_left _ ha1) (List.mem_append_left _ ha2)
      · intro i hi
        rcases List.mem_append.mp hi with h1 | h1
        · exact hbound i (mem_ids_list_of_mem hcm h1)
        · exact Nat.lt_of_lt_of_le (hxb i (List.mem_append_left _ h1)) hnext
    obtain ⟨m1, m2, m3, m4, m5, m6, m7⟩ := hmok
    have hperm := ids_list_add_child_perm (st.1.eraseIdx idx) (merge conflict x st.2.2).1
    have hmsrc : ∀ i ∈ (merge conflict x st.2.2).1.ids,
        i ∈ conflict.ids ∨ i ∈ x.ids ∨ i = st.2.2 :=
      fun i hi => (m6 i hi).imp (fun h => h) (fun h => h.imp (fun h => h) (fun h => h.1))
    have herb : ∀ i ∈ Node.ids_list (st.1.eraseIdx idx), i < st.2.2 :=
      fun i hi => hbound i (hperm1.symm.subset (List.mem_append_right _ hi))
    refine ⟨?_, ?_, ?_, ?_, ?_, Nat.le_trans hnext m7.1, ?_, ?_⟩
    · apply children_sorted_add_child (children_sorted_eraseIdx hs idx)
      intro c hcm2
      obtain ⟨j, hji, hj⟩ := List.mem_eraseIdx_iff_getElem?.mp hcm2
      intro hfe
      rw [m4] at hfe
      exact hji (children_sorted_index hs hj hc hfe)
    · intro d hd
      rcases mem_add_child.mp hd with hd | hd
      · subst hd
        refine ⟨m1.mono ?_ (fun i h => h), m2⟩
        intro i hi
        rcases hi with (hi | hi) | hi
        · exact Or.inl hi
        · exact Or.inr ((mem_ptr_insert addr).mpr (Or.inr hi))
        · exact Or.inr ((mem_ptr_insert addr).mpr (Or.inl hi))
      · refine ⟨(hinv d (List.mem_of_mem_eraseIdx hd)).1.mono ?_ (fun i h => h),
          (hinv d (List.mem_of_mem_eraseIdx hd)).2⟩
        intro i hi
        exact hi.imp (fun h => h) (fun h => (mem_ptr_insert addr).mpr (Or.inr h))
    · refine (List.Perm.nodup_iff (List.Perm.append_right _ hperm)).mpr ?_
      rw [List.append_assoc]
      refine List.nodup_append.mpr ⟨m5, List.nodup_append.mpr ⟨n5, n8, ?_⟩, ?_⟩
      · intro a ha1 ha2
        exact n3 (List.mem_append_right _ ha1) (List.mem_append_right _ ha2)
      · intro a ha1 ha2
        rcases hmsrc a ha1 with h1 | h1 | h1
        · rcases List.mem_append.mp ha2 with h2 | h2
          · exact n6 h1 h2
          · exact n3 (List.mem_append_left _ h1) (List.mem_append_right _ h2)
        · rcases List.mem_append.mp ha2 with h2 | h2
          · exact n3 (List.mem_append_right _ h2) (List.mem_append_left _ h1)
          · exact n9 h1 h2
        · rcases List.mem_append.mp ha2 with h2 | h2
          · have := herb a h2; omega
          · have := hxb a (List.mem_append_right _ h2); omega
    · intro i hi
      rcases List.mem_append.mp (hperm.subset hi) with h1 | h1
      · rcases hmsrc i h1 with h2 | h2 | h2
        · rcases hids i (mem_ids_list_of_mem hcm h2) with h3 | h3
          · left; rw [Node.ids_list_append]; exact List.mem_append_left _ h3
          · exact Or.inr h3
        · left
          rw [Node.ids_list_append, ids_list_singleton]
          exact List.mem_append_right _ h2
        · right; omega
      · rcases hids i (hperm1.symm.subset (List.mem_append_right _ h1)) with h3 | h3
        · left; rw [Node.ids_list_append]; exact List.mem_append_left _ h3
        · exact Or.inr h3
    · show ∀ i ∈ Node.ids_list (add_child (st.1.eraseIdx idx) (merge conflict x st.2.2).1),
        i < (merge conflict x st.2.2).2
      intro i hi
      rcases List.mem_append.mp (hperm.subset hi) with h1 | h1
      · rcases m6 i h1 with h2 | h2 | h2
        · exact Nat.lt_of_lt_of_le (hbound i (mem_ids_list_of_mem hcm h2)) m7.1
        · have := hxb i (List.mem_append_left _ h2)
          have := m7.1
          omega
        · omega
      · exact Nat.lt_of_lt_of_le (herb i h1) m7.1
    · intro h0
      exact absurd h0 (ptr_insert_ne_nil _ _ _)
    · intro _
      exact add_child_ne_nil _ _

/-- The loop of `sort` over the pulled children. -/
theorem sort_fold_ok (addr : Nat → Nat) {U O : Nat → Prop} {nid0 : Nat} :
    ∀ (todo done : List Node) (st : List Node × List Nat × Nat),
    SortInv U O nid0 done todo st →
    (∀ x ∈ todo, x.Inv no_id U O ∧ (x.is_internal = true → ValidPath x.pfx)) →
    (∀ i ∈ Node.ids_list todo, i < nid0) →
    SortInv U O nid0 (done ++ todo) [] (todo.foldl (sort_step addr) st) := by
  intro todo
  induction todo with
  | nil =>
    intro done st h _ _
    simpa using h
  | cons x todo ih =>
    intro done st h hx hb
    have h1 := sort_step_ok addr h (hx x (by simp)).1 (hx x (by simp)).2 hb
    have h2 := ih (done ++ [x]) _ h1 (fun y hy => hx y (by simp [hy]))
      (fun i hi => hb i (by rw [Node.ids_list_cons]; exact List.mem_append_right _ hi))
    simpa using h2

theorem Node.Inv.mono_nodes {E U O U2 O2 : Nat → Prop} {n : Node} (h : n.Inv E U O)
    (hU : ∀ a ∈ n.nodes, a.is_internal = true → U a.id → U2 a.id)
    (hO : ∀ a ∈ n.nodes, a.is_internal = true → O a.id → O2 a.id) : n.Inv E U2 O2 := by
  intro a ha
  obtain ⟨h1, h2⟩ := h a ha
  refine ⟨h1, fun hi => ?_⟩
  obtain ⟨g1, g2, g3, g4⟩ := h2 hi
  exact ⟨g1, g2.imp (fun h => h) (hU a ha hi), g3.imp (fun h => h) (hO a ha hi),
    fun c hc hci hce => ⟨hU a ha hi (g4 c hc hci hce).1, (g4 c hc hci hce).2⟩⟩

/-- The invariant with a smaller set `U`, when the addresses dropped from `U` are
those of internal nodes with sorted children. -/
theorem Node.Inv.shrink_U {U U2 O : Nat → Prop} {n : Node} (h : n.Inv no_id U O)
    (hU : ∀ a ∈ n.nodes, a.is_internal = true → children_sorted a.children ≠ true →
      U a.id → U2 a.id) : n.Inv no_id U2 O := by
  intro a ha
  obtain ⟨h1, h2⟩ := h a ha
  refine ⟨h1, fun hi => ?_⟩
  obtain ⟨g1, g2, g3, g4⟩ := h2 hi
  refine ⟨g1, ?_, g3, fun c hc hci hce => absurd (g4 c hc hci hce).2 (fun h => h)⟩
  by_cases hs : children_sorted a.children = true
  · exact Or.inl hs
  · exact Or.inr (hU a ha hi hs (g2.resolve_left hs))

/-- The tree after `sort` has rebuilt the children of the node at `pos`. -/
theorem sort_tree_ok (addr : Nat → Nat) (t : ExecTree) (root m : Node) (pos : Pos)
    (target : Nat) (mns mhoc : List Nat) (U2 O2 : Nat → Prop)
    (hnd : root.ids.Nodup) (hb : ∀ i ∈ root.ids, i < t.next_id)
    (hinv : root.Inv no_id (fun i => i ∈ target :: mns) (fun i => i ∈ mhoc))
    (hget : root.get? pos = some m) (hid : m.id = target) (hmi : m.is_internal = true)
    (hU2a : ∀ i, i ∈ mns → U2 i)
    (hU2b : ∀ a ∈ (root.modifyAt (fun n => n.set_children
        (m.children.foldl (sort_step addr) ([], [], t.next_id)).1) pos).nodes,
      a.is_internal = true →
      a.id ∈ (m.children.foldl (sort_step addr) ([], [], t.next_id)).2.1 → U2 a.id)
    (hO2a : ∀ i, i ∈ mhoc → O2 i)
    (hO2b : (m.children.foldl (sort_step addr) ([], [], t.next_id)).2.1 ≠ [] → O2 target) :
    ExecTree.PInv no_id U2 O2
      { root := some (root.modifyAt (fun n => n.set_children
          (m.children.foldl (sort_step addr) ([], [], t.next_id)).1) pos),
        next_id := (m.children.foldl (sort_step addr) ([], [], t.next_id)).2.2 } := by
  have hmloc := hinv.local_of_get hget
  obtain ⟨g1, g2, g3, g4⟩ := hmloc.2 hmi
  have hminv := ((Node.inv_iff _ _ _ _).mp (hinv.of_get hget)).2
  have hmnd : m.ids.Nodup := Node.nodup_ids_of_get hnd hget
  rw [Node.ids_eq_cons] at hmnd
  have hmb : ∀ i ∈ Node.ids_list m.children, i < t.next_id := by
    intro i hi
    apply hb i (Node.ids_subset_of_get hget _)
    rw [Node.ids_eq_cons]
    exact List.mem_cons_of_mem _ hi
  have hinit : SortInv (fun i => i ∈ target :: mns) (fun i => i ∈ mhoc) t.next_id []
      m.children ([], [], t.next_id) := by
    refine ⟨rfl, by simp, ?_, by simp [ids_list_nil], by simp [ids_list_nil], Nat.le_refl _,
      by simp, by simp⟩
    simpa [ids_list_nil] using (List.nodup_cons.mp hmnd).2
  have hfold := sort_fold_ok addr m.children [] _ hinit
    (fun x hx => ⟨hminv x hx, fun hxi =>
      (((hminv x hx) _ x.self_mem_nodes).1).resolve_left (hmloc.no_eps_child hx hxi)⟩) hmb
  simp only [List.nil_append] at hfold
  obtain ⟨s1, s2, s3, s4, s5, s6, s7⟩ := hfold
  generalize m.children.foldl (sort_step addr) ([], [], t.next_id) = r0 at *
  simp only [ids_list_nil, List.append_nil] at s3
  have hmid : m.id ∉ Node.ids_list r0.1 := by
    intro hx
    rcases s4 _ hx with h1 | h1
    · exact (List.nodup_cons.mp hmnd).1 h1
    · have := hb m.id (Node.ids_subset_of_get hget m.id_mem_ids)
      omega
  have hfids : (m.set_children r0.1).ids = m.id :: Node.ids_list r0.1 := by
    cases m with
    | leaf _ _ _ _ _ => simp [Node.is_internal] at hmi
    | internal _ _ _ => rfl
  have hfch : (m.set_children r0.1).children = r0.1 := by
    cases m with
    | leaf _ _ _ _ _ => simp [Node.is_internal] at hmi
    | internal _ _ _ => rfl
  have hfnd : (m.set_children r0.1).ids.Nodup := by
    rw [hfids]
    exact List.nodup_cons.mpr ⟨hmid, s3⟩
  have hfsub : ∀ i ∈ (m.set_children r0.1).ids,
      i ∈ m.ids ∨ (t.next_id ≤ i ∧ i < r0.2.2) := by
    intro i hi
    rw [hfids] at hi
    rcases List.mem_cons.mp hi with h1 | h1
    · left; rw [h1]; exact m.id_mem_ids
    · rcases s4 i h1 with h2 | h2
      · left; rw [Node.ids_eq_cons]; exact List.mem_cons_of_mem _ h2
      · exact Or.inr ⟨h2, s5 i h1⟩
  obtain ⟨k1, k2, -⟩ := Node.ids_modifyAt_sub (fun n => n.set_children r0.1) hnd hb hget
    hfnd hfsub s6
  simp only [ExecTree.PInv]
  refine ⟨k1, k2, ?_⟩
  have hgetn : (root.modifyAt (fun n => n.set_children r0.1) pos).get? pos =
      some (m.set_children r0.1) := by
    have := Node.get?_modifyAt (fun n => n.set_children r0.1) hget []
    simpa [Node.get?] using this
  apply Node.Inv.modifyAt _ pos hnd hget hinv
  · rw [Node.inv_iff]
    constructor
    · refine ⟨by
        cases m with
        | leaf _ _ _ _ _ => simp [Node.is_internal] at hmi
        | internal _ _ _ => exact hmloc.1, fun _ => ?_⟩
      rw [hfch, Node.id_set_children]
      refine ⟨s7.2 g1, Or.inl s1, ?_, ?_⟩
      · by_cases hm0 : r0.2.1 = []
        · rw [s7.1 hm0]
          exact g3.imp (fun h => h) (hO2a _)
        · exact Or.inr (hid ▸ hO2b hm0)
      · intro c hc hci hce
        exact absurd hce (validPath_ne_epsilon ((s2 c hc).2 hci))
    · intro d hd
      rw [hfch] at hd
      have hdn : ∀ a ∈ d.nodes,
          a ∈ (root.modifyAt (fun n => n.set_children r0.1) pos).nodes ∧ a.id ≠ target := by
        intro a ha
        constructor
        · apply Node.mem_nodes_trans _ (Node.mem_nodes_of_get hgetn)
          apply Node.mem_nodes_trans _ (Node.mem_nodes_of_child (by rw [hfch]; exact hd)) ha
        · intro h0
          apply hmid
          rw [hid, ← h0]
          exact Node.mem_ids_list.mpr ⟨d, hd, Node.mem_ids.mpr ⟨a, ha, rfl⟩⟩
      apply (s2 d hd).1.mono_nodes
      · intro a ha hai hU
        rcases hU with hU | hU
        · rcases List.mem_cons.mp hU with h1 | h1
          · exact absurd h1 (hdn a ha).2
          · exact hU2a _ h1
        · exact hU2b a (hdn a ha).1 hai hU
      · intro a _ _ hO
        exact hO2a _ hO
  · intro _
    cases m with
    | leaf _ _ _ _ _ => simp [Node.is_internal] at hmi
    | internal _ _ _ => exact ⟨rfl, fun h1 h2 => ⟨h1, h2, rfl⟩⟩
  · intro a _ ham hloc
    obtain ⟨h1, h2⟩ := hloc
    refine ⟨h1, fun hi => ?_⟩
    obtain ⟨e1, e2, e3, e4⟩ := h2 hi
    refine ⟨e1, e2.imp (fun h => h) ?_, e3.imp (fun h => h) (hO2a _),
      fun c hc hci hce => absurd (e4 c hc hci hce).2 (fun h => h)⟩
    intro hU
    rcases List.mem_cons.mp hU with h3 | h3
    · exact absurd (by rw [h3, ← hid]; exact m.id_mem_ids) ham
    · exact hU2a _ h3

theorem mem_merged_fold (addr : Nat → Nat) (t : ExecTree) (l : List Nat) :
    ∀ acc : List Nat,
    (∀ i ∈ acc, i ∈ l.foldl (fun acc id =>
        match t.node_at id with
        | some (_, n) => if n.is_internal then ptr_insert addr acc id else acc
        | none => acc) acc) ∧
    (∀ id ∈ l, ∀ (pos : Pos) (n : Node), t.node_at id = some (pos, n) →
      n.is_internal = true → id ∈ l.foldl (fun acc id =>
        match t.node_at id with
        | some (_, n) => if n.is_internal then ptr_insert addr acc id else acc
        | none => acc) acc) := by
  induction l with
  | nil => intro acc; simp
  | cons a as ih =>
    intro acc
    simp only [List.foldl_cons]
    constructor
    · intro i hi
      apply (ih _).1
      split
      · split
        · exact (mem_ptr_insert addr).mpr (Or.inr hi)
        · exact hi
      · exact hi
    · intro id hid pos n hn hni
      rcases List.mem_cons.mp hid with h | h
      · subst h
        apply (ih _).1
        simp only [hn, hni, if_true]
        exact (mem_ptr_insert addr).mpr (Or.inl rfl)
      · exact (ih _).2 id h pos n hn hni

/-- The sort loop: when it ends, the invariant holds with an empty
`may_need_sort`, so every internal node has strictly sorted children. -/
theorem sort_loop_ok (addr : Nat → Nat) : ∀ (fuel : Nat) (t : ExecTree) (mns mhoc : List Nat)
    (res : ExecTree × List Nat), ExecTree.sort_loop addr fuel t mns mhoc = some res →
    t.PInv no_id (fun i => i ∈ mns) (fun i => i ∈ mhoc) →
    res.1.PInv no_id no_id (fun i => i ∈ res.2) := by
  intro fuel
  induction fuel with
  | zero =>
    intro t mns mhoc res h hinv
    cases mns with
    | nil =>
      simp only [ExecTree.sort_loop, Option.some.injEq] at h
      subst h
      simpa [no_id] using hinv
    | cons a as => simp [ExecTree.sort_loop] at h
  | succ fuel ih =>
    intro t mns mhoc res h hinv
    cases mns with
    | nil =>
      simp only [ExecTree.sort_loop, Option.some.injEq] at h
      subst h
      simpa [no_id] using hinv
    | cons target mns =>
      simp only [ExecTree.sort_loop] at h
      cases hroot : t.root with
      | none =>
        have hna : t.node_at target = none := by simp [ExecTree.node_at, hroot]
        rw [hna] at h
        exact ih t mns mhoc res h (by simp [ExecTree.PInv, hroot])
      | some root =>
        obtain ⟨hnd, hb, hri⟩ : root.ids.Nodup ∧ (∀ i ∈ root.ids, i < t.next_id) ∧
            root.Inv no_id (fun i => i ∈ target :: mns) (fun i => i ∈ mhoc) := by
          simpa [ExecTree.PInv, hroot] using hinv
        cases hna : t.node_at target with
        | none =>
          rw [hna] at h
          apply ih t mns mhoc res h
          simp only [ExecTree.PInv, hroot]
          refine ⟨hnd, hb, hri.shrink_U ?_⟩
          intro a ha _ _ hU
          rcases List.mem_cons.mp hU with h1 | h1
          · exact absurd (Node.mem_ids.mpr ⟨a, ha, h1⟩) (ExecTree.node_at_none hna root hroot)
          · exact h1
        | some r =>
          obtain ⟨pos, m⟩ := r
          obtain ⟨root2, hr2, hget, hmid⟩ := ExecTree.node_at_some hna
          rw [hroot] at hr2
          simp only [Option.some.injEq] at hr2
          subst hr2
          rw [hna] at h
          simp only [ExecTree.sort, hroot, hget] at h
          by_cases hs : children_sorted m.children = true
          · simp only [hs, if_true, List.isEmpty_nil] at h
            apply ih t mns mhoc res h
            simp only [ExecTree.PInv, hroot]
            refine ⟨hnd, hb, hri.shrink_U ?_⟩
            intro a ha _ hns hU
            rcases List.mem_cons.mp hU with h1 | h1
            · have := Node.eq_of_id_eq hnd ha (Node.mem_nodes_of_get hget) (by rw [h1, hmid])
              subst this
              exact absurd hs hns
            · exact h1
          · have hmi : m.is_internal = true := by
              apply Node.internal_of_children_ne_nil
              intro h0
              rw [h0] at hs
              exact hs rfl
            simp only [hs, Bool.false_eq_true, if_false] at h
            by_cases hem : (m.children.foldl (sort_step addr) ([], [], t.next_id)).2.1.isEmpty
                = true
            · rw [if_pos hem] at h
              apply ih _ mns mhoc res h
              have he : (m.children.foldl (sort_step addr) ([], [], t.next_id)).2.1 = [] :=
                List.isEmpty_iff.mp hem
              exact sort_tree_ok addr t root m pos target mns mhoc _ _ hnd hb hri hget hmid hmi
                (fun i h => h) (fun a _ _ h => by rw [he] at h; simp at h) (fun i h => h)
                (fun h => absurd he h)
            · rw [if_neg hem] at h
              apply ih _ _ _ res h
              have hmf := mem_merged_fold addr
                { root := some (root.modifyAt (fun n => n.set_children
                    (m.children.foldl (sort_step addr) ([], [], t.next_id)).1) pos),
                  next_id := (m.children.foldl (sort_step addr) ([], [], t.next_id)).2.2 }
                (m.children.foldl (sort_step addr) ([], [], t.next_id)).2.1 mns
              have hpre := sort_tree_ok addr t root m pos target mns mhoc
                (fun _ => True) (fun _ => True) hnd hb hri hget hmid hmi
                (fun i _ => trivial) (fun _ _ _ _ => trivial) (fun i _ => trivial)
                (fun _ => trivial)
              refine sort_tree_ok addr t root m pos target mns mhoc _ _ hnd hb hri hget hmid
                hmi (fun i h => hmf.1 i h) ?_
                (fun i h => (mem_ptr_insert addr).mpr (Or.inr h))
                (fun _ => (mem_ptr_insert addr).mpr (Or.inl rfl))
              intro a ha hai ham
              obtain ⟨q, hq⟩ := Node.exists_get_of_mem_nodes _ ha
              have hnd2 := hpre.1
              have hna2 := @ExecTree.node_at_of_get
                { root := some (root.modifyAt (fun n => n.set_children
                    (m.children.foldl (sort_step addr) ([], [], t.next_id)).1) pos),
                  next_id := (m.children.foldl (sort_step addr) ([], [], t.next_id)).2.2 }
                _ a q rfl hnd2 hq
              exact hmf.2 a.id ham q a hna2 hai

/-! ## The last phase of `prune`: collapsing internal nodes with one child -/

theorem Node.Inv.shrink_O {E U O O2 : Nat → Prop} {n : Node} (h : n.Inv E U O)
    (hO : ∀ a ∈ n.nodes, a.is_internal = true → ¬ 2 ≤ a.children.length →
      O a.id → O2 a.id) : n.Inv E U O2 := by
  intro a ha
  obtain ⟨h1, h2⟩ := h a ha
  refine ⟨h1, fun hi => ?_⟩
  obtain ⟨g1, g2, g3, g4⟩ := h2 hi
  refine ⟨g1, g2, ?_, g4⟩
  by_cases hs : 2 ≤ a.children.length
  · exact Or.inl hs
  · exact Or.inr (hO a ha hi hs (g3.resolve_left hs))

/-- Replacing the child `j` of the node at `q` through `add_child` after erasing
it, by a node with the same `prefix[0]`, is a replacement in place. -/
theorem replace_child_eq {root P m : Node} {q : Pos} {j : Nat} (c1 : Node)
    (hq : root.get? q = some P) (hk : P.children[j]? = some m)
    (hs : children_sorted P.children = true) (hf : front c1.pfx = front m.pfx) :
    root.modifyAt (fun n => n.set_children (add_child (n.children.eraseIdx j) c1)) q =
      root.modifyAt (fun _ => c1) (q ++ [j]) := by
  rw [Node.modifyAt_append]
  apply Node.modifyAt_congr hq
  cases P with
  | leaf _ _ _ _ _ => simp [Node.children] at hk
  | internal gi gp gcs =>
    simp only [Node.children_internal] at hk hs
    simp only [Node.modifyAt, hk, Node.modifyAt_nil, Node.set_children_internal,
      Node.children_internal]
    rw [(add_child_eraseIdx hs hk hf).1]

/-- The only child after `rm_internal_with_only_child` has given it the prefix of
the removed node. -/
theorem collapse_inv {E U O : Nat → Prop} {mp : ExecPath} {c : Node} (hc : c.Inv E U O)
    (hmp : mp = EPSILON ∨ ValidPath mp) :
    (if mp = EPSILON then c.set_pfx c.pfx
      else if c.pfx = EPSILON then c.set_pfx mp
      else c.set_pfx (vec_concat mp c.pfx)).Inv E U O ∧
    (if mp = EPSILON then c.set_pfx c.pfx
      else if c.pfx = EPSILON then c.set_pfx mp
      else c.set_pfx (vec_concat mp c.pfx)).ids = c.ids ∧
    (ValidPath mp →
      front (if mp = EPSILON then c.set_pfx c.pfx
        else if c.pfx = EPSILON then c.set_pfx mp
        else c.set_pfx (vec_concat mp c.pfx)).pfx = front mp ∧
      ValidPath (if mp = EPSILON then c.set_pfx c.pfx
        else if c.pfx = EPSILON then c.set_pfx mp
        else c.set_pfx (vec_concat mp c.pfx)).pfx) := by
  have hcp := (hc _ c.self_mem_nodes).1
  by_cases h1 : mp = EPSILON
  · rw [if_pos h1, Node.set_pfx_self]
    exact ⟨hc, rfl, fun h => absurd h1 (validPath_ne_epsilon h)⟩
  · have hv := hmp.resolve_left h1
    simp only [h1, if_false]
    by_cases h2 : c.pfx = EPSILON
    · simp only [h2, if_true]
      exact ⟨hc.set_pfx_inv (Or.inr hv), ids_set_pfx _ _, fun _ => by simp [hv]⟩
    · simp only [h2, if_false]
      have hcv := hcp.resolve_left h2
      have hv2 : ValidPath (vec_concat mp c.pfx) := by
        refine ⟨fun h => hv.1 (List.append_eq_nil.mp h).1, ?_⟩
        intro x hx
        simp only [vec_concat, List.mem_append] at hx
        rcases hx with hx | hx
        · exact hv.2 x hx
        · exact hcv.2 x hx
      refine ⟨hc.set_pfx_inv (Or.inr hv2), ids_set_pfx _ _, fun _ => ?_⟩
      rw [Node.pfx_set_pfx]
      exact ⟨front_append_of_ne_nil hv.1 _, hv2⟩

/-- One iteration of the loop over `may_have_only_child`. -/
theorem only_child_step (t : ExecTree) (id : Nat) (rest : List Nat)
    (h : t.PInv no_id no_id (fun i => i ∈ id :: rest)) :
    ExecTree.PInv no_id no_id (fun i => i ∈ rest)
      (match t.node_at id with
        | some (pos, _) => t.rm_internal_with_only_child pos
        | none => t) := by
  cases hroot : t.root with
  | none =>
    have : t.node_at id = none := by simp [ExecTree.node_at, hroot]
    simp [this, ExecTree.PInv, hroot]
  | some root =>
    obtain ⟨hnd, hb, hinv⟩ : root.ids.Nodup ∧ (∀ i ∈ root.ids, i < t.next_id) ∧
        root.Inv no_id no_id (fun i => i ∈ id :: rest) := by
      simpa [ExecTree.PInv, hroot] using h
    have hsame : (∀ a ∈ root.nodes, a.is_internal = true → ¬ 2 ≤ a.children.length →
        a.id ≠ id) → t.PInv no_id no_id (fun i => i ∈ rest) := by
      intro hne
      simp only [ExecTree.PInv, hroot]
      refine ⟨hnd, hb, hinv.shrink_O ?_⟩
      intro a ha hai hlen hO
      rcases List.mem_cons.mp hO with h1 | h1
      · exact absurd h1 (hne a ha hai hlen)
      · exact h1
    cases hna : t.node_at id with
    | none =>
      simp only []
      apply hsame
      intro a ha _ _ haid
      exact ExecTree.node_at_none hna root hroot (Node.mem_ids.mpr ⟨a, ha, haid⟩)
    | some r =>
      obtain ⟨pos, m⟩ := r
      obtain ⟨root2, hr2, hget, hmid⟩ := ExecTree.node_at_some hna
      rw [hroot] at hr2
      simp only [Option.some.injEq] at hr2
      subst hr2
      simp only []
      unfold ExecTree.rm_internal_with_only_child
      simp only [hroot, hget]
      have hmeq : ∀ a ∈ root.nodes, a.id = id → a = m := fun a ha haid =>
        Node.eq_of_id_eq hnd ha (Node.mem_nodes_of_get hget) (by rw [haid, hmid])
      by_cases h2 : has_two_or_more_children m = true
      · rw [if_pos h2]
        apply hsame
        intro a ha _ hlen haid
        rw [hmeq a ha haid] at hlen
        exact hlen (by simpa [has_two_or_more_children] using h2)
      · rw [if_neg h2]
        cases hch : m.children with
        | nil =>
          simp only []
          apply hsame
          intro a ha hai _ haid
          rw [hmeq a ha haid] at hai
          exact ((hinv.local_of_get hget).2 hai).1 hch
        | cons c cr =>
          simp only []
          have hmi : m.is_internal = true :=
            Node.internal_of_children_ne_nil (by rw [hch]; simp)
          have hcr : cr = [] := by
            simp only [has_two_or_more_children, hch, List.length_cons, decide_eq_true_eq]
              at h2
            apply List.length_eq_zero.mp
            omega
          subst hcr
          have hcm : c ∈ m.children := by rw [hch]; simp
          have hmloc := hinv.local_of_get hget
          have hcinv : c.Inv no_id no_id (fun i => i ∈ id :: rest) :=
            ((Node.inv_iff _ _ _ _).mp (hinv.of_get hget)).2 c hcm
          obtain ⟨k1, k2, k3⟩ := @collapse_inv _ _ _ m.pfx c hcinv hmloc.1
          have hmnd : m.ids.Nodup := Node.nodup_ids_of_get hnd hget
          have hcids : ∀ i ∈ c.ids, i ∈ m.ids ∧ i ≠ id := by
            intro i hi
            have h1 : i ∈ Node.ids_list m.children := mem_ids_list_of_mem hcm hi
            refine ⟨by rw [Node.ids_eq_cons]; exact List.mem_cons_of_mem _ h1, ?_⟩
            intro h0
            apply Node.id_not_mem_ids_list hmnd
            rw [hmid, ← h0]
            exact h1
          have hcnd : c.ids.Nodup := by
            have hg : m.get? [0] = some c := by
              cases m with
              | leaf _ _ _ _ _ => simp [Node.is_internal] at hmi
              | internal _ _ mcs =>
                simp only [Node.children_internal] at hch
                simp [Node.get?, hch]
            exact Node.nodup_ids_of_get hmnd hg
          generalize (if m.pfx = EPSILON then c.set_pfx c.pfx
            else if c.pfx = EPSILON then c.set_pfx m.pfx
            else c.set_pfx (vec_concat m.pfx c.pfx)) = c1 at k1 k2 k3
          have hc1 : c1.Inv no_id no_id (fun i => i ∈ rest) := by
            apply k1.mono_nodes (fun a _ _ h => h)
            intro a ha _ hO
            rcases List.mem_cons.mp hO with h1 | h1
            · exact absurd h1 (hcids a.id (k2 ▸ Node.mem_ids.mpr ⟨a, ha, rfl⟩)).2
            · exact h1
          rcases List.eq_nil_or_concat pos with h0 | ⟨q, j, h0⟩
          · subst h0
            simp [Node.get?] at hget
            subst hget
            simp only [List.getLast?_nil, ExecTree.PInv]
            refine ⟨k2 ▸ hcnd, ?_, hc1⟩
            intro i hi
            rw [k2] at hi
            exact hb i (hcids i hi).1
          · rw [List.concat_eq_append] at h0
            subst h0
            simp only [getLast?_snoc, dropLast_snoc, ExecTree.PInv]
            obtain ⟨P, hq, hk⟩ := Node.get?_snoc_inv hget
            have hPi : P.is_internal = true := Node.is_internal_of_child hk
            have hPloc := hinv.local_of_get hq
            have hPs : children_sorted P.children = true :=
              ((hPloc.2 hPi).2.1).resolve_right (fun h => h)
            have hmv : ValidPath m.pfx :=
              hmloc.1.resolve_left (hPloc.no_eps_child (List.getElem?_mem hk) hmi)
            rw [replace_child_eq c1 hq hk hPs (k3 hmv).1]
            obtain ⟨e1, e2, -⟩ := Node.ids_modifyAt_sub (fun _ => c1) hnd hb hget
              (k2 ▸ hcnd) (fun i hi => Or.inl (hcids i (k2 ▸ hi)).1) (Nat.le_refl _)
            refine ⟨e1, e2, ?_⟩
            apply Node.Inv.modifyAt _ _ hnd hget hinv hc1
            · intro _
              exact ⟨(k3 hmv).1, fun _ h => absurd h (validPath_ne_epsilon (k3 hmv).2)⟩
            · intro a _ ham hloc
              obtain ⟨h1, h2⟩ := hloc
              refine ⟨h1, fun hi => ?_⟩
              obtain ⟨g1, g2, g3, g4⟩ := h2 hi
              refine ⟨g1, g2, g3.imp (fun h => h) ?_, g4⟩
              intro hO
              rcases List.mem_cons.mp hO with h3 | h3
              · exact absurd (by rw [h3, ← hmid]; exact m.id_mem_ids) ham
              · exact h3

theorem only_child_loop_ok : ∀ (mhoc : List Nat) (t : ExecTree),
    t.PInv no_id no_id (fun i => i ∈ mhoc) → (t.only_child_loop mhoc).PInv no_id no_id no_id := by
  intro mhoc
  induction mhoc with
  | nil =>
    intro t h
    simpa [ExecTree.only_child_loop, no_id] using h
  | cons id rest ih =>
    intro t h
    have := ih _ (only_child_step t id rest h)
    simpa [ExecTree.only_child_loop] using this

/-! ## `prune` keeps the invariants -/

theorem Node.exists_parent_of_mem_nodes_list : ∀ (n : Node) {c : Node},
    c ∈ Node.nodes_list n.children → ∃ a ∈ n.nodes, c ∈ a.children := by
  intro n
  induction n using Node.induct with
  | hleaf i p t s e =>
    intro c hc
    simp [Node.children, Node.nodes_list] at hc
  | hint i p cs ih =>
    intro c hc
    simp only [Node.children_internal] at hc
    obtain ⟨d, hd, hcd⟩ := Node.mem_nodes_list.mp hc
    rw [Node.nodes_eq_cons, List.mem_cons] at hcd
    rcases hcd with hcd | hcd
    · subst hcd
      exact ⟨_, Node.self_mem_nodes _, hd⟩
    · obtain ⟨a, ha, hca⟩ := ih d hd hcd
      exact ⟨a, Node.mem_nodes_trans _ (Node.mem_nodes_of_child hd) ha, hca⟩

/-- A tree with the invariant and empty worklists passes the four checks of
`is_sorted`. -/
theorem ExecTree.PInv.passes_checks {t : ExecTree} (h : t.PInv no_id no_id no_id) :
    t.no_empty_prefixed_node = true ∧ t.no_epsilon_internal_node = true ∧ t.sorted = true ∧
    t.no_only_child_internal_node = true ∧ t.is_sorted = true := by
  have hall : t.no_empty_prefixed_node = true ∧ t.no_epsilon_internal_node = true ∧
      t.sorted = true ∧ t.no_only_child_internal_node = true := by
    unfold ExecTree.no_empty_prefixed_node ExecTree.no_epsilon_internal_node
      ExecTree.sorted ExecTree.no_only_child_internal_node ExecTree.all_nodes
      ExecTree.non_root_nodes
    cases hr : t.root with
    | none => simp
    | some root =>
      obtain ⟨-, -, hinv⟩ : root.ids.Nodup ∧ (∀ i ∈ root.ids, i < t.next_id) ∧
          root.Inv no_id no_id no_id := by
        simpa [ExecTree.PInv, hr] using h
      simp only [List.all_eq_true]
      refine ⟨?_, ?_, ?_, ?_⟩
      · intro m hm
        have := (hinv m hm).1
        rcases this with h1 | h1
        · simp [h1, EPSILON]
        · simpa using h1.1
      · intro m hm
        obtain ⟨a, ha, hma⟩ := Node.exists_parent_of_mem_nodes_list root hm
        have := (hinv a ha).no_eps_child hma
        simp only [Bool.not_eq_true', Bool.and_eq_false_imp, decide_eq_false_iff_not]
        exact this
      · intro m hm
        by_cases hi : m.is_internal = true
        · have := ((hinv m hm).2 hi).2.1.resolve_right (fun h => h)
          simp [hi, this]
        · simp [hi]
      · intro m hm
        by_cases hi : m.is_internal = true
        · have := ((hinv m hm).2 hi).2.2.1.resolve_right (fun h => h)
          simp [hi, has_two_or_more_children, this]
        · simp [hi]
  refine ⟨hall.1, hall.2.1, hall.2.2.1, hall.2.2.2, ?_⟩
  simp [ExecTree.is_sorted, hall.1, hall.2.1, hall.2.2.1, hall.2.2.2]

/-- When `prune` returns on a good tree with distinct addresses and positive
tails, the tree it returns satisfies the invariant with empty worklists. -/
theorem prune_inv (tpc : TracePC) (addr garbage : Nat → Nat) (fuel : Nat) (t t2 : ExecTree)
    (hg : t.Good) (ht : t.TagsOK AllPos) (h : t.prune tpc addr garbage fuel = some t2) :
    t2.PInv no_id no_id no_id := by
  unfold ExecTree.prune at h
  cases hroot : t.root with
  | none =>
    simp only [hroot, Option.some.injEq] at h
    subst h
    simp [ExecTree.PInv, hroot]
  | some root =>
    simp only [hroot] at h
    have hr : root.RootGood := by simpa [ExecTree.Good, hroot] using hg
    have htg : root.TagsOK t.next_id AllPos := by simpa [ExecTree.TagsOK, hroot] using ht
    obtain ⟨h1, h2, h3⟩ := prune_stage1 tpc addr garbage t root hr htg
    have hp1 : ExecTree.PInv
        (fun i => i ∈ (root.filter_nd_pcid tpc garbage 0).2.foldl (ptr_insert addr) [])
        (fun i => i ∈ ExecTree.parents_of addr
          { t with root := some (root.filter_nd_pcid tpc garbage 0).1 }
          ((root.filter_nd_pcid tpc garbage 0).2.foldl (ptr_insert addr) []))
        no_id { t with root := some (root.filter_nd_pcid tpc garbage 0).1 } := by
      simp only [ExecTree.PInv]
      exact ⟨h1, h2, h3⟩
    have hp2 := rm_epsilon_loop_ok _ _ _ _ hp1
    cases hsl : ExecTree.sort_loop addr fuel
        (ExecTree.rm_epsilon_loop { t with root := some (root.filter_nd_pcid tpc garbage 0).1 }
          ((root.filter_nd_pcid tpc garbage 0).2.foldl (ptr_insert addr) []))
        (ExecTree.parents_of addr { t with root := some (root.filter_nd_pcid tpc garbage 0).1 }
          ((root.filter_nd_pcid tpc garbage 0).2.foldl (ptr_insert addr) [])) [] with
    | none => simp [hsl] at h
    | some res =>
      obtain ⟨t3, mhoc⟩ := res
      simp only [hsl, Option.some.injEq] at h
      subst h
      have hp3 := sort_loop_ok addr fuel _ _ _ _ hsl
        (by
          have : (fun i => i ∈ ([] : List Nat)) = no_id := by
            funext i; simp [no_id]
          rw [this]; exact hp2)
      exact only_child_loop_ok mhoc t3 hp3

theorem allPos_tail_of (tpc : TracePC) {p : ExecPath} (h : ValidPath p) :
    AllPos (tpc.tail_of p) := by
  intro x hx
  unfold TracePC.tail_of at hx
  split at hx
  · simp at hx
  · simp only [subvec_len] at hx
    exact h.2 x (List.mem_of_mem_drop (List.mem_of_mem_take hx))

theorem ExecTree.insert_calls_tags (tpc : TracePC) (calls : List InsertCall)
    (P : ExecPath → Prop) (hP0 : P []) (hP : ∀ c ∈ calls, P (tpc.tail_of c.epath)) :
    (ExecTree.insert_calls tpc calls).TagsOK P := by
  induction calls using List.reverseRecOn with
  | nil => simp [ExecTree.insert_calls, ExecTree.TagsOK, ExecTree.empty]
  | append_singleton calls c ih =>
    rw [ExecTree.insert_calls_append]
    exact insert_set_tags tpc _ c.epath [c.input] c.run_status c.rnd P hP0 (hP c (by simp))
      (ih (fun c0 hc0 => hP c0 (by simp [hc0])))

/-! ## The paths of the tree through `prune` -/

theorem prune_append (tpc : TracePC) (a b : ExecPath) :
    tpc.Prune (a ++ b) = tpc.Prune a ++ tpc.Prune b := by
  simp [TracePC.Prune]

theorem prune_ne_epsilon (tpc : TracePC) {p : ExecPath} (hp : ValidPath p) :
    tpc.Prune p ≠ EPSILON := by
  intro h
  have h0 : (0 : Nat) ∈ tpc.Prune p := by rw [h]; simp [EPSILON, EpsilonPCID]
  have := allPos_prune tpc hp.2 0 h0
  omega

/-- The squeezed prefix a leaf without tail has after `filter_nd_pcid`. -/
theorem squeeze_filter_leaf (tpc : TracePC) {p : ExecPath} (hp : p = EPSILON ∨ ValidPath p) :
    squeeze (if (if p = EPSILON then p else tpc.Prune p).length = 0 then EPSILON
      else (if p = EPSILON then p else tpc.Prune p)) = tpc.Prune (squeeze p) := by
  by_cases hpe : p = EPSILON
  · subst hpe
    rw [squeeze_epsilon]
    simp [EPSILON, TracePC.Prune, squeeze]
  · have hpv := hp.resolve_left hpe
    simp only [hpe, if_false, squeeze_of_valid hpv]
    by_cases h0 : (tpc.Prune p).length = 0
    · rw [if_pos h0, squeeze_epsilon]
      exact (List.length_eq_zero.mp h0).symm
    · rw [if_neg h0]
      simp [squeeze, prune_ne_epsilon tpc hpv]

/-- The squeezed prefix an internal node has after `filter_nd_pcid`. -/
theorem squeeze_filter_internal (tpc : TracePC) {p : ExecPath}
    (hp : p = EPSILON ∨ ValidPath p) :
    squeeze (if (decide (p ≠ EPSILON) &&
        decide ((if p = EPSILON then p else tpc.Prune p).length ≠ p.length) &&
        decide ((if p = EPSILON then p else tpc.Prune p).length = 0)) = true then EPSILON
      else if p = EPSILON then p else tpc.Prune p) = tpc.Prune (squeeze p) := by
  by_cases hpe : p = EPSILON
  · subst hpe
    simp [squeeze_epsilon, TracePC.Prune]
  · have hpv := hp.resolve_left hpe
    simp only [hpe, if_false, squeeze_of_valid hpv, ne_eq, not_false_eq_true, decide_True,
      Bool.true_and]
    by_cases h0 : (tpc.Prune p).length = 0
    · have hl : (tpc.Prune p).length ≠ p.length := by
        rw [h0]
        intro h
        exact hpv.1 (List.length_eq_zero.mp h.symm)
      have hl0 : ¬ 0 = p.length := fun h => hl (by rw [h0, h])
      rw [if_pos (by simp [h0, hl0]), squeeze_epsilon]
      exact (List.length_eq_zero.mp h0).symm
    · simp only [h0, decide_False, Bool.and_false, Bool.false_eq_true, if_false]
      simp [squeeze, prune_ne_epsilon tpc hpv]

theorem denote_list_map_of {cs : List Node} {f : Node → Node} {g : ExecPath → ExecPath}
    (h : ∀ c ∈ cs, (f c).denote = c.denote.map g) :
    Node.denote_list (cs.map f) = (Node.denote_list cs).map g := by
  induction cs with
  | nil => rfl
  | cons c cs ih =>
    simp only [List.map_cons, Node.denote_list, List.map_append]
    rw [h c (by simp), ih (fun d hd => h d (by simp [hd]))]

/-- With empty tails, `filter_nd_pcid` prunes every path of the tree. -/
theorem denote_filter (tpc : TracePC) (garbage : Nat → Nat) : ∀ n : Node,
    (∀ m ∈ n.nodes, m.pfx = EPSILON ∨ ValidPath m.pfx) → (∀ x ∈ n.tags, x.2 = []) →
    ∀ len : Nat, (n.filter_nd_pcid tpc garbage len).1.denote = n.denote.map tpc.Prune := by
  intro n
  induction n using Node.induct with
  | hleaf i p t s e =>
    intro hn ht len
    have hp : p = EPSILON ∨ ValidPath p := hn _ (Node.self_mem_nodes _)
    have ht0 : t = [] := ht (i, t) (by simp [Node.tags_leaf])
    subst ht0
    have := squeeze_filter_leaf tpc hp
    simp only [Node.filter_nd_pcid, Node.denote, List.map_cons, List.map_nil]
    simpa [TracePC.Prune] using this
  | hint i p cs ih =>
    intro hn ht len
    have hp : p = EPSILON ∨ ValidPath p := hn _ (Node.self_mem_nodes _)
    simp only [Node.filter_nd_pcid]
    rw [(filter_nd_pcid_list_eq tpc garbage _ cs).1]
    simp only [Node.denote]
    rw [denote_list_map_of (g := tpc.Prune), squeeze_filter_internal tpc hp, List.map_map,
      List.map_map]
    · apply List.map_congr_left
      intro x _
      simp [prune_append]
    · intro c hc
      refine ih c hc (fun m hm => hn m ?_) (fun x hx => ht x ?_) _
      · exact Node.mem_nodes_trans _ (Node.mem_nodes_of_child hc) hm
      · rw [Node.tags_internal]
        refine List.mem_cons_of_mem _ ?_
        obtain ⟨m, hm, rfl⟩ := List.mem_map.mp hx
        exact List.mem_map.mpr ⟨m, Node.mem_nodes_list.mpr ⟨c, hc, hm⟩, rfl⟩
theorem ExecTree.SamePaths.rfl_same (t : ExecTree) : t.SamePaths t := fun _ => Iff.rfl

theorem ExecTree.SamePaths.trans_same {t u v : ExecTree} (h1 : t.SamePaths u)
    (h2 : u.SamePaths v) : t.SamePaths v := fun x => (h1 x).trans (h2 x)

/-- Replacing the node at `q` by one that stands for the same paths does not
change the paths of the tree. -/
theorem Node.mem_denote_modifyAt_same {n m : Node} {q : Pos} (f : Node → Node)
    (h : n.get? q = some m) (hf : ∀ x, x ∈ (f m).denote ↔ x ∈ m.denote) :
    ∀ x, x ∈ (n.modifyAt f q).denote ↔ x ∈ n.denote := by
  induction q generalizing n with
  | nil =>
    simp [Node.get?] at h
    subst h
    simpa [Node.modifyAt] using hf
  | cons k rest ih =>
    cases n with
    | leaf i p t s e => simp [Node.get?] at h
    | internal i p cs =>
      simp only [Node.get?] at h
      cases hc : cs[k]? with
      | none => simp [hc] at h
      | some c =>
        simp only [hc] at h
        have hklt : k < cs.length := by
          by_contra hlt
          simp [List.getElem?_eq_none (Nat.le_of_not_lt hlt)] at hc
        have hget : (cs.set k (c.modifyAt f rest))[k]? = some (c.modifyAt f rest) := by
          rw [List.getElem?_set_self hklt]
        have hcm : c ∈ cs := List.getElem?_mem hc
        have ihc := ih h
        intro x
        simp only [Node.modifyAt, hc, Node.denote, List.mem_map, Node.mem_denote_list]
        constructor
        · rintro ⟨z, ⟨c1, hc1, hz⟩, rfl⟩
          rcases List.mem_or_eq_of_mem_set hc1 with hc1 | hc1
          · exact ⟨z, ⟨c1, hc1, hz⟩, rfl⟩
          · subst hc1
            exact ⟨z, ⟨c, hcm, (ihc z).mp hz⟩, rfl⟩
        · rintro ⟨z, ⟨c1, hc1, hz⟩, rfl⟩
          obtain ⟨j, hj, hjc⟩ := List.getElem_of_mem hc1
          by_cases hjk : j = k
          · subst hjk
            have : c1 = c := by
              rw [List.getElem?_eq_getElem hj] at hc
              exact hjc ▸ (Option.some.inj hc)
            subst this
            exact ⟨z, ⟨_, List.getElem?_mem hget, (ihc z).mpr hz⟩, rfl⟩
          · refine ⟨z, ⟨c1, ?_, hz⟩, rfl⟩
            have : (cs.set k (c.modifyAt f rest))[j]? = some c1 := by
              rw [List.getElem?_set_ne (Ne.symm hjk), List.getElem?_eq_getElem hj, hjc]
            exact List.getElem?_mem this

theorem mem_or_mem_eraseIdx {cs : List Node} {idx : Nat} {c d : Node}
    (hk : cs[idx]? = some c) (hd : d ∈ cs) : d = c ∨ d ∈ cs.eraseIdx idx := by
  obtain ⟨j, hj, hjd⟩ := List.getElem_of_mem hd
  by_cases hjk : j = idx
  · subst hjk
    left
    rw [List.getElem?_eq_getElem hj] at hk
    exact hjd ▸ (Option.some.inj hk)
  · right
    exact List.mem_eraseIdx_iff_getElem.mpr ⟨j, hj, hjk, hjd⟩

/-- The parent after `rm_internal_epsilon_node` has pulled its internal Epsilon
child and taken over the children of that child: the same paths. -/
theorem rm_epsilon_den {P n : Node} {idx : Nat} (hk : P.children[idx]? = some n)
    (hni : n.is_internal = true) (hpe : n.pfx = EPSILON) :
    ∀ x, x ∈ (P.set_children (n.children.foldl add_child (P.children.eraseIdx idx))).denote ↔
      x ∈ P.denote := by
  cases P with
  | leaf i p t s e => simp [Node.children] at hk
  | internal i p cs =>
    cases n with
    | leaf _ _ _ _ _ => simp [Node.is_internal] at hni
    | internal j pn ns =>
      simp only [Node.children] at hk
      simp only [Node.pfx] at hpe
      subst hpe
      intro x
      simp only [Node.set_children, Node.children, Node.denote, List.mem_map,
        Node.mem_denote_list, mem_foldl_add_child]
      constructor
      · rintro ⟨z, ⟨c, hc | hc, hz⟩, rfl⟩
        · exact ⟨z, ⟨c, List.mem_of_mem_eraseIdx hc, hz⟩, rfl⟩
        · refine ⟨z, ⟨_, List.getElem?_mem hk, ?_⟩, rfl⟩
          simp only [Node.denote, List.mem_map, Node.mem_denote_list, squeeze_epsilon,
            List.nil_append, exists_eq_right]
          exact ⟨c, hc, hz⟩
      · rintro ⟨z, ⟨c, hc, hz⟩, rfl⟩
        rcases mem_or_mem_eraseIdx hk hc with h1 | h1
        · subst h1
          simp only [Node.denote, List.mem_map, Node.mem_denote_list, squeeze_epsilon,
            List.nil_append, exists_eq_right] at hz
          obtain ⟨d, hd, hz⟩ := hz
          exact ⟨z, ⟨d, Or.inr hd, hz⟩, rfl⟩
        · exact ⟨z, ⟨c, Or.inl h1, hz⟩, rfl⟩

theorem rm_epsilon_step_den (t : ExecTree) (id : Nat) :
    ExecTree.SamePaths
      (match t.node_at id with
        | some (pos, n) =>
          if n.is_internal && !pos.isEmpty then t.rm_internal_epsilon_node pos else t
        | none => t) t := by
  cases hna : t.node_at id with
  | none => exact ExecTree.SamePaths.rfl_same t
  | some r =>
    obtain ⟨pos, n⟩ := r
    obtain ⟨root, hroot, hget, hnid⟩ := ExecTree.node_at_some hna
    simp only []
    by_cases hcond : (n.is_internal && !pos.isEmpty) = true
    · rw [if_pos hcond]
      simp only [Bool.and_eq_true, Bool.not_eq_true', List.isEmpty_eq_false] at hcond
      obtain ⟨hni, hpos⟩ := hcond
      rcases List.eq_nil_or_concat pos with h0 | ⟨q, idx, h0⟩
      · exact absurd h0 (by simpa using hpos)
      rw [List.concat_eq_append] at h0
      subst h0
      unfold ExecTree.rm_internal_epsilon_node
      simp only [hroot, hget, getLast?_snoc, dropLast_snoc]
      by_cases hpe : n.pfx = EPSILON
      · rw [if_neg (by simpa using hpe)]
        obtain ⟨P, hq, hk⟩ := Node.get?_snoc_inv hget
        intro x
        simp only [ExecTree.denote, hroot]
        exact Node.mem_denote_modifyAt_same
          (fun m => m.set_children (n.children.foldl add_child (m.children.eraseIdx idx)))
          hq (rm_epsilon_den hk hni hpe) x
      · rw [if_pos (by simpa using hpe)]
        exact ExecTree.SamePaths.rfl_same t
    · rw [if_neg hcond]
      exact ExecTree.SamePaths.rfl_same t

theorem rm_epsilon_loop_den : ∀ (F : List Nat) (t : ExecTree),
    (t.rm_epsilon_loop F).SamePaths t := by
  intro F
  induction F with
  | nil =>
    intro t
    exact ExecTree.SamePaths.rfl_same t
  | cons id rest ih =>
    intro t
    have h1 := ih (match t.node_at id with
        | some (pos, n) =>
          if n.is_internal && !pos.isEmpty then t.rm_internal_epsilon_node pos else t
        | none => t)
    have h2 := rm_epsilon_step_den t id
    have := h1.trans_same h2
    simpa [ExecTree.rm_epsilon_loop] using this

/-- The only child of an internal node, with the prefix
`rm_internal_with_only_child` gives it, stands for the paths of the internal node. -/
theorem collapse_den (i : Nat) (p : ExecPath) (c : Node) :
    (if p = EPSILON then c.set_pfx c.pfx
      else if c.pfx = EPSILON then c.set_pfx p
      else c.set_pfx (vec_concat p c.pfx)).denote = (Node.internal i p [c]).denote := by
  have hr : (Node.internal i p [c]).denote = c.rests.map (fun x => squeeze p ++ (squeeze c.pfx ++ x)) := by
    simp only [Node.denote, Node.denote_list, List.append_nil]
    rw [Node.denote_eq, List.map_map]
    rfl
  rw [hr]
  by_cases h1 : p = EPSILON
  · subst h1
    rw [if_pos rfl, Node.set_pfx_self, Node.denote_eq]
    simp [squeeze_epsilon]
  · rw [if_neg h1]
    have hsp : squeeze p = p := by simp [squeeze, h1]
    by_cases h2 : c.pfx = EPSILON
    · rw [if_pos h2, Node.denote_set_pfx, h2, squeeze_epsilon]
      simp
    · rw [if_neg h2, Node.denote_set_pfx]
      have hsc : squeeze c.pfx = c.pfx := by simp [squeeze, h2]
      have hne : vec_concat p c.pfx ≠ EPSILON := by
        intro h
        simp only [vec_concat, EPSILON] at h
        rcases List.append_eq_cons_iff.mp h with ⟨h3, h4⟩ | ⟨a, h3, h4⟩
        · exact h2 h4
        · have := List.append_eq_nil.mp h4.symm
          rw [this.1] at h3
          exact h1 h3
      have hsv : squeeze (vec_concat p c.pfx) = p ++ c.pfx := by
        rw [squeeze, if_neg hne]
        rfl
      rw [hsv, hsp, hsc]
      simp

/-- The parent after one of its children has been replaced, through `pull_node`
and `add_child`, by a node that stands for the same paths. -/
theorem replace_child_den {P n c1 : Node} {idx : Nat} (hk : P.children[idx]? = some n)
    (hc : c1.denote = n.denote) :
    ∀ x, x ∈ (P.set_children (add_child (P.children.eraseIdx idx) c1)).denote ↔
      x ∈ P.denote := by
  cases P with
  | leaf i p t s e => simp [Node.children] at hk
  | internal i p cs =>
    simp only [Node.children] at hk
    intro x
    simp only [Node.set_children, Node.children, Node.denote, List.mem_map,
      Node.mem_denote_list, mem_add_child]
    constructor
    · rintro ⟨z, ⟨c, hc1 | hc1, hz⟩, rfl⟩
      · subst hc1
        rw [hc] at hz
        exact ⟨z, ⟨_, List.getElem?_mem hk, hz⟩, rfl⟩
      · exact ⟨z, ⟨c, List.mem_of_mem_eraseIdx hc1, hz⟩, rfl⟩
    · rintro ⟨z, ⟨c, hc1, hz⟩, rfl⟩
      rcases mem_or_mem_eraseIdx hk hc1 with h1 | h1
      · subst h1
        exact ⟨z, ⟨c1, Or.inl rfl, by rw [hc]; exact hz⟩, rfl⟩
      · exact ⟨z, ⟨c, Or.inr h1, hz⟩, rfl⟩

theorem only_child_den (t : ExecTree) (pos : Pos) :
    (t.rm_internal_with_only_child pos).SamePaths t := by
  unfold ExecTree.rm_internal_with_only_child
  cases hroot : t.root with
  | none => exact ExecTree.SamePaths.rfl_same t
  | some root =>
    simp only []
    cases hget : root.get? pos with
    | none => exact ExecTree.SamePaths.rfl_same t
    | some m =>
      simp only []
      by_cases h2 : has_two_or_more_children m = true
      · rw [if_pos h2]
        exact ExecTree.SamePaths.rfl_same t
      · rw [if_neg h2]
        cases m with
        | leaf i p tl s e => exact ExecTree.SamePaths.rfl_same t
        | internal i p cs =>
          cases cs with
          | nil => exact ExecTree.SamePaths.rfl_same t
          | cons c rest =>
            have hrest : rest = [] := by
              simp only [has_two_or_more_children, Node.children, List.length_cons,
                decide_eq_true_eq] at h2
              exact List.length_eq_zero.mp (by omega)
            subst hrest
            have hcd := collapse_den i p c
            simp only [Node.children_internal, Node.pfx_internal]
            rcases List.eq_nil_or_concat pos with h0 | ⟨q, idx, h0⟩
            · subst h0
              simp only [Node.get?, Option.some.injEq] at hget
              subst hget
              simp only [List.getLast?_nil]
              intro x
              simp only [ExecTree.denote, hroot]
              rw [hcd]
            · rw [List.concat_eq_append] at h0
              subst h0
              simp only [getLast?_snoc, dropLast_snoc]
              obtain ⟨P, hq, hk⟩ := Node.get?_snoc_inv hget
              intro x
              simp only [ExecTree.denote, hroot]
              exact Node.mem_denote_modifyAt_same
                (fun n => n.set_children (add_child (n.children.eraseIdx idx)
                  (if p = EPSILON then c.set_pfx c.pfx
                    else if c.pfx = EPSILON then c.set_pfx p
                    else c.set_pfx (vec_concat p c.pfx))))
                hq (replace_child_den hk hcd) x

theorem only_child_loop_den : ∀ (mhoc : List Nat) (t : ExecTree),
    (t.only_child_loop mhoc).SamePaths t := by
  intro l
  induction l with
  | nil =>
    intro t
    exact ExecTree.SamePaths.rfl_same t
  | cons id rest ih =>
    intro t
    have h2 : ExecTree.SamePaths
        (match t.node_at id with
          | some (pos, _) => t.rm_internal_with_only_child pos
          | none => t) t := by
      cases hna : t.node_at id with
      | none => exact ExecTree.SamePaths.rfl_same t
      | some r => exact only_child_den t r.1
    have := (ih _).trans_same h2
    simpa [ExecTree.only_child_loop] using this

/-! ## The measure of the sort loop -/

theorem Node.size_eq (n : Node) : n.size = n.weight + Node.size_list n.children := by
  rw [Node.size, Node.nodes_eq_cons]
  rfl

theorem Node.size_list_nil : Node.size_list [] = 0 := rfl

theorem Node.size_list_cons (c : Node) (cs : List Node) :
    Node.size_list (c :: cs) = c.size + Node.size_list cs := by
  simp [Node.size_list, Node.size, Node.nodes_list]

theorem Node.size_list_add_child (cs : List Node) (x : Node) :
    Node.size_list (add_child cs x) = Node.size_list cs + x.size := by
  have := ((nodes_list_add_child_perm cs x).map Node.weight).sum_eq
  simp only [List.map_append, List.sum_append] at this
  simp only [Node.size_list, Node.size, this]
  omega

theorem Node.size_list_foldl_add_child (l base : List Node) :
    Node.size_list (l.foldl add_child base) = Node.size_list base + Node.size_list l := by
  induction l generalizing base with
  | nil => simp [Node.size_list_nil]
  | cons a as ih =>
    rw [List.foldl_cons, ih, Node.size_list_add_child, Node.size_list_cons]
    omega

theorem Node.size_list_eraseIdx {cs : List Node} {k : Nat} {c : Node} (h : cs[k]? = some c) :
    Node.size_list (cs.eraseIdx k) + c.size = Node.size_list cs := by
  have := ((nodes_list_eraseIdx_perm h).map Node.weight).sum_eq
  simp only [List.map_append, List.sum_append] at this
  simp only [Node.size_list, Node.size, this]
  omega

theorem Node.size_set_pfx (n : Node) (p : ExecPath) :
    (n.set_pfx p).size = 2 * (squeeze p).length + 1 + Node.size_list n.children := by
  rw [Node.size_eq, Node.children_set_pfx]
  simp [Node.weight]

theorem Node.size_pos (n : Node) : 0 < n.size := by
  rw [Node.size_eq, Node.weight]
  omega

theorem Node.size_modifyAt {n m : Node} {q : Pos} (h : n.get? q = some m) (f : Node → Node) :
    (n.modifyAt f q).size + m.size = n.size + (f m).size := by
  obtain ⟨rest, h1, h2⟩ := nodes_map_modifyAt Node.weight (fun _ _ _ _ => rfl) q h
  have e1 := h1.sum_eq
  have e2 := (h2 f).sum_eq
  simp only [List.sum_append] at e1 e2
  simp only [Node.size, e1, e2]
  omega

theorem mem_denote_list_add_child {cs : List Node} {c : Node} {z : ExecPath} :
    z ∈ Node.denote_list (add_child cs c) ↔ z ∈ Node.denote_list cs ∨ z ∈ c.denote := by
  simp only [Node.mem_denote_list, mem_add_child]
  constructor
  · rintro ⟨d, hd | hd, hz⟩
    · right; rw [← hd]; exact hz
    · left; exact ⟨d, hd, hz⟩
  · rintro (⟨d, hd, hz⟩ | hz)
    · exact ⟨d, Or.inr hd, hz⟩
    · exact ⟨c, Or.inl rfl, hz⟩

theorem mem_denote_list_foldl_add_child {l base : List Node} {z : ExecPath} :
    z ∈ Node.denote_list (l.foldl add_child base) ↔
      z ∈ Node.denote_list base ∨ z ∈ Node.denote_list l := by
  simp only [Node.mem_denote_list, mem_foldl_add_child]
  constructor
  · rintro ⟨d, hd | hd, hz⟩
    · left; exact ⟨d, hd, hz⟩
    · right; exact ⟨d, hd, hz⟩
  · rintro (⟨d, hd, hz⟩ | ⟨d, hd, hz⟩)
    · exact ⟨d, Or.inl hd, hz⟩
    · exact ⟨d, Or.inr hd, hz⟩

theorem mem_denote_list_absorb {base : List Node} {n : Node} {z : ExecPath} :
    z ∈ Node.denote_list (absorb base n) ↔ z ∈ Node.denote_list base ∨ z ∈ n.rests := by
  cases n with
  | leaf i p t s e =>
    simp only [absorb, mem_denote_list_add_child, Node.denote, Node.rests, squeeze_epsilon]
  | internal i p cs =>
    simp only [absorb, mem_denote_list_foldl_add_child, Node.rests]

theorem size_list_absorb (base : List Node) (n : Node) :
    Node.size_list (absorb base n) + n.weight ≤ Node.size_list base + n.size + 1 ∧
    (n.is_internal = true →
      Node.size_list (absorb base n) + n.weight = Node.size_list base + n.size) := by
  cases n with
  | leaf i p t s e =>
    simp only [absorb, Node.size_list_add_child, Node.is_internal, Bool.false_eq_true,
      false_implies, and_true]
    rw [Node.size_eq (Node.leaf i p t s e), Node.size_eq (Node.leaf i EPSILON t s e)]
    simp only [Node.weight, squeeze_epsilon, Node.size_list_nil, Node.pfx_leaf,
      Node.children_leaf, List.length_nil]
    omega
  | internal i p cs =>
    simp only [absorb, Node.size_list_foldl_add_child, Node.is_internal, true_implies]
    rw [Node.size_eq (Node.internal i p cs)]
    simp only [Node.children_internal]
    omega

/-- The node `merge` returns stands for the paths of the two merged nodes, and it
weighs less than the two together. -/
theorem merge_den (left right : Node) (nid : Nat)
    (hlp : left.pfx = EPSILON ∨ ValidPath left.pfx)
    (hrp : right.pfx = EPSILON ∨ ValidPath right.pfx)
    (hlv : left.is_internal = true → ValidPath left.pfx)
    (hrv : right.is_internal = true → ValidPath right.pfx)
    (hf : front left.pfx = front right.pfx) :
    (∀ x, x ∈ (merge left right nid).1.denote ↔ x ∈ left.denote ∨ x ∈ right.denote) ∧
    (merge left right nid).1.size + 1 ≤ left.size + right.size := by
  have hjoin : ∀ (i : Nat) (q t : ExecPath) (s : List Input) (e : Bool) (j : Nat)
      (p : ExecPath) (cs : List Node), ValidPath p → q = p →
      (∀ x, x ∈ (Node.internal j p (add_child cs (.leaf i EPSILON t s e))).denote ↔
        x ∈ (Node.leaf i q t s e).denote ∨ x ∈ (Node.internal j p cs).denote) ∧
      (Node.internal j p (add_child cs (.leaf i EPSILON t s e))).size + 1 ≤
        (Node.leaf i q t s e).size + (Node.internal j p cs).size := by
    intro i q t s e j p cs hp hq
    subst hq
    constructor
    · intro x
      simp only [Node.denote, List.mem_map, mem_denote_list_add_child, List.mem_singleton,
        squeeze_epsilon]
      constructor
      · rintro ⟨z, hz | hz, rfl⟩
        · right; exact ⟨z, hz, rfl⟩
        · left; rw [hz]; simp
      · rintro (hx | ⟨z, hz, rfl⟩)
        · exact ⟨[], Or.inr rfl, by rw [hx]; simp⟩
        · exact ⟨z, Or.inl hz, rfl⟩
    · rw [Node.size_eq, Node.size_eq (Node.leaf i q t s e), Node.size_eq (Node.internal j q cs)]
      simp only [Node.children_internal, Node.children_leaf, Node.size_list_add_child,
        Node.size_list_nil]
      rw [Node.size_eq (Node.leaf i EPSILON t s e)]
      have hl : 0 < q.length := List.length_pos.mpr hp.1
      simp only [Node.weight, Node.pfx_internal, Node.pfx_leaf, squeeze_epsilon,
        squeeze_of_valid hp, Node.children_leaf, Node.size_list_nil, List.length_nil]
      omega
  rw [merge_eq]
  by_cases hsame : left.pfx = right.pfx
  · rw [if_pos hsame]
    cases left with
    | leaf li lp lt ls le =>
      cases right with
      | leaf ri rp rt rs re =>
        simp only [Node.pfx_leaf] at hsame
        subst hsame
        constructor
        · intro x
          simp [Node.denote]
        · simp only [Node.size, Node.nodes, List.map_cons, List.map_nil, List.sum_cons,
            List.sum_nil, Node.weight, Node.pfx_leaf]
          omega
      | internal rj rp rcs =>
        exact hjoin li lp lt ls le rj rp rcs (hrv rfl) hsame
    | internal lj lp lcs =>
      cases right with
      | leaf ri rp rt rs re =>
        obtain ⟨h1, h2⟩ := hjoin ri rp rt rs re lj lp lcs (hlv rfl) hsame.symm
        exact ⟨fun x => (h1 x).trans Or.comm, le_of_le_of_eq h2 (Nat.add_comm _ _)⟩
      | internal rj rp rcs =>
        simp only [Node.pfx_internal] at hsame
        subst hsame
        have hp : ValidPath lp := hlv rfl
        constructor
        · intro x
          simp only [Node.denote, List.mem_map, mem_denote_list_foldl_add_child,
            Node.pfx_internal]
          constructor
          · rintro ⟨z, hz | hz, rfl⟩
            · simp [Node.denote_list] at hz
            · simp only [Node.mem_denote_list, List.mem_append] at hz
              obtain ⟨d, hd | hd, hz⟩ := hz
              · left; exact ⟨z, Node.mem_denote_list.mpr ⟨d, hd, hz⟩, rfl⟩
              · right; exact ⟨z, Node.mem_denote_list.mpr ⟨d, hd, hz⟩, rfl⟩
          · rintro (⟨z, hz, rfl⟩ | ⟨z, hz, rfl⟩)
            · obtain ⟨d, hd, hz⟩ := Node.mem_denote_list.mp hz
              exact ⟨z, Or.inr (Node.mem_denote_list.mpr
                ⟨d, List.mem_append_left _ hd, hz⟩), rfl⟩
            · obtain ⟨d, hd, hz⟩ := Node.mem_denote_list.mp hz
              exact ⟨z, Or.inr (Node.mem_denote_list.mpr
                ⟨d, List.mem_append_right _ hd, hz⟩), rfl⟩
        · rw [Node.size_eq, Node.size_eq (Node.internal lj lp lcs),
            Node.size_eq (Node.internal rj lp rcs)]
          simp only [Node.children_internal, Node.size_list_foldl_add_child,
            Node.size_list_nil, Node.weight, Node.pfx_internal]
          have : Node.size_list (lcs ++ rcs) = Node.size_list lcs + Node.size_list rcs := by
            simp [Node.size_list, Node.nodes_list_append]
          omega
  · rw [if_neg hsame]
    have hlval : ValidPath left.pfx := by
      refine validPath_of_front_pos hlp ?_
      by_contra h0
      have h1 : front left.pfx = 0 := by omega
      exact hsame ((eq_epsilon_of_front_zero hlp h1).trans
        (eq_epsilon_of_front_zero hrp (hf ▸ h1)).symm)
    have hrval : ValidPath right.pfx :=
      validPath_of_front_pos hrp (hf ▸ validPath_front_pos hlval)
    have hcl : 0 < common_prefix_length left.pfx right.pfx :=
      common_prefix_length_pos hlval.1 hrval.1 hf
    have hcv : ValidPath (left.pfx.take (common_prefix_length left.pfx right.pfx)) :=
      validPath_take hlval hcl
    have hle1 := common_prefix_length_le_left left.pfx right.pfx
    have hle2 := common_prefix_length_le_right left.pfx right.pfx
    have htk := take_common_prefix_length left.pfx right.pfx
    have htl : (left.pfx.take (common_prefix_length left.pfx right.pfx)).length =
        common_prefix_length left.pfx right.pfx := by
      rw [List.length_take]; omega
    have hright : left.pfx.length ≠ common_prefix_length left.pfx right.pfx ∨
        common_prefix_length left.pfx right.pfx < right.pfx.length := by
      by_contra hcon
      simp only [not_or, not_not, not_lt] at hcon
      apply hsame
      have e1 : left.pfx.take (common_prefix_length left.pfx right.pfx) = left.pfx :=
        List.take_of_length_le (by omega)
      have e2 : right.pfx.take (common_prefix_length left.pfx right.pfx) = right.pfx :=
        List.take_of_length_le (by omega)
      exact e1.symm.trans (htk.trans e2)
    have hden : ∀ (n : Node) (x : ExecPath), ValidPath n.pfx → (x ∈ n.denote ↔
        ∃ y ∈ n.rests, x = n.pfx ++ y) := by
      intro n x hv
      rw [Node.mem_denote, squeeze_of_valid hv]
    have hsz : ∀ (n : Node), ValidPath n.pfx →
        n.size = 2 * n.pfx.length + 1 + Node.size_list n.children := by
      intro n hv
      rw [Node.size_eq, Node.weight, squeeze_of_valid hv]
    have hset : ∀ (n : Node), ValidPath n.pfx →
        common_prefix_length left.pfx right.pfx < n.pfx.length →
        n.pfx.take (common_prefix_length left.pfx right.pfx) =
          left.pfx.take (common_prefix_length left.pfx right.pfx) →
        (∀ x, (∃ z ∈ (n.set_pfx (n.pfx.drop
            (common_prefix_length left.pfx right.pfx))).denote,
            left.pfx.take (common_prefix_length left.pfx right.pfx) ++ z = x) ↔
          x ∈ n.denote) ∧
        (n.set_pfx (n.pfx.drop (common_prefix_length left.pfx right.pfx))).size +
          2 * common_prefix_length left.pfx right.pfx = n.size := by
      intro n hv hlt htake
      have hd := validPath_drop hv hlt
      constructor
      · intro x
        rw [hden n x hv]
        simp only [Node.denote_set_pfx, squeeze_of_valid hd, List.mem_map]
        constructor
        · rintro ⟨z, ⟨y, hy, rfl⟩, rfl⟩
          refine ⟨y, hy, ?_⟩
          rw [← List.append_assoc, ← htake, List.take_append_drop]
        · rintro ⟨y, hy, rfl⟩
          refine ⟨_, ⟨y, hy, rfl⟩, ?_⟩
          rw [← List.append_assoc, ← htake, List.take_append_drop]
      · rw [Node.size_set_pfx, squeeze_of_valid hd, hsz n hv, List.length_drop]
        omega
    have hnewden : ∀ (p : ExecPath) (ks : List Node) (x : ExecPath), ValidPath p →
        (x ∈ (Node.internal nid p ks).denote ↔ ∃ z ∈ Node.denote_list ks, p ++ z = x) := by
      intro p ks x hp
      simp only [Node.denote, List.mem_map, squeeze_of_valid hp]
    have hnewsz : ∀ (p : ExecPath) (ks : List Node), ValidPath p →
        (Node.internal nid p ks).size = 2 * p.length + 1 + Node.size_list ks := by
      intro p ks hp
      rw [hsz _ (by simpa using hp)]
      rfl
    have habs : ∀ (n : Node), ValidPath n.pfx →
        n.pfx.length = common_prefix_length left.pfx right.pfx →
        n.pfx = left.pfx.take (common_prefix_length left.pfx right.pfx) →
        ∀ (base : List Node),
        (∀ x, (∃ z ∈ Node.denote_list (absorb base n),
            left.pfx.take (common_prefix_length left.pfx right.pfx) ++ z = x) ↔
          (∃ z ∈ Node.denote_list base,
            left.pfx.take (common_prefix_length left.pfx right.pfx) ++ z = x) ∨
          x ∈ n.denote) ∧
        Node.size_list (absorb base n) + 2 * common_prefix_length left.pfx right.pfx ≤
          Node.size_list base + n.size := by
      intro n hv hlen hpfx base
      constructor
      · intro x
        rw [hden n x hv]
        simp only [mem_denote_list_absorb]
        constructor
        · rintro ⟨z, hz | hz, rfl⟩
          · left; exact ⟨z, hz, rfl⟩
          · right; exact ⟨z, hz, by rw [← hpfx]⟩
        · rintro (⟨z, hz, rfl⟩ | ⟨z, hz, rfl⟩)
          · exact ⟨z, Or.inl hz, rfl⟩
          · exact ⟨z, Or.inr hz, by rw [← hpfx]⟩
      · have := (size_list_absorb base n).1
        simp only [Node.weight, squeeze_of_valid hv] at this
        omega
    by_cases hA : left.pfx.length = common_prefix_length left.pfx right.pfx
    · rw [if_pos hA]
      have hlt : common_prefix_length left.pfx right.pfx < right.pfx.length :=
        hright.resolve_left (fun h => h hA)
      obtain ⟨s1, s2⟩ := hset right hrval hlt htk.symm
      obtain ⟨a1, a2⟩ := habs left hlval hA (List.take_of_length_le (by omega)).symm []
      constructor
      · intro x
        rw [hnewden _ _ x hcv]
        simp only [mem_denote_list_add_child, or_and_right, exists_or]
        rw [a1 x, s1 x]
        simp [Node.denote_list]
      · rw [hnewsz _ _ hcv, Node.size_list_add_child, htl]
        simp only [Node.size_list_nil] at a2
        omega
    · rw [if_neg hA]
      have hltl : common_prefix_length left.pfx right.pfx < left.pfx.length := by omega
      obtain ⟨l1, l2⟩ := hset left hlval hltl rfl
      by_cases hB : right.pfx.length = common_prefix_length left.pfx right.pfx
      · rw [if_pos hB]
        obtain ⟨a1, a2⟩ := habs right hrval hB
          ((List.take_of_length_le (by omega)).symm.trans htk.symm)
          (add_child [] (left.set_pfx (left.pfx.drop (common_prefix_length left.pfx right.pfx))))
        constructor
        · intro x
          rw [hnewden _ _ x hcv, a1 x]
          simp only [mem_denote_list_add_child, or_and_right, exists_or]
          rw [l1 x]
          simp [Node.denote_list]
        · rw [hnewsz _ _ hcv, htl]
          rw [Node.size_list_add_child, Node.size_list_nil] at a2
          omega
      · rw [if_neg hB]
        have hltr : common_prefix_length left.pfx right.pfx < right.pfx.length := by omega
        obtain ⟨s1, s2⟩ := hset right hrval hltr htk.symm
        constructor
        · intro x
          rw [hnewden _ _ x hcv]
          simp only [mem_denote_list_add_child, or_and_right, exists_or]
          rw [l1 x, s1 x]
          simp [Node.denote_list]
        · rw [hnewsz _ _ hcv, htl, Node.size_list_add_child, Node.size_list_add_child,
            Node.size_list_nil]
          omega

theorem length_ptr_insert_le (addr : Nat → Nat) (l : List Nat) (x : Nat) :
    (ptr_insert addr l x).length ≤ l.length + 1 := by
  induction l with
  | nil => simp [ptr_insert]
  | cons y ys ih =>
    simp only [ptr_insert]
    split
    · simp
    · split
      · simp
      · simp only [List.length_cons]
        omega

theorem mem_denote_list_eraseIdx {cs : List Node} {idx : Nat} {c : Node}
    (hk : cs[idx]? = some c) (z : ExecPath) :
    z ∈ Node.denote_list cs ↔ z ∈ c.denote ∨ z ∈ Node.denote_list (cs.eraseIdx idx) := by
  simp only [Node.mem_denote_list]
  constructor
  · rintro ⟨d, hd, hz⟩
    rcases mem_or_mem_eraseIdx hk hd with h1 | h1
    · left; rw [← h1]; exact hz
    · right; exact ⟨d, h1, hz⟩
  · rintro (hz | ⟨d, hd, hz⟩)
    · exact ⟨c, List.getElem?_mem hk, hz⟩
    · exact ⟨d, List.mem_of_mem_eraseIdx hd, hz⟩

/-- One iteration of the loop of `sort` keeps the paths of the children, and every
merge makes room in the measure for the entry it adds to `merged_nodes`. -/
theorem sort_step_den (addr : Nat → Nat) {U O : Nat → Prop} {nid0 : Nat}
    {done todo : List Node} {st : List Node × List Nat × Nat} {x : Node}
    (h : SortInv U O nid0 done (x :: todo) st) (hx : x.Inv no_id U O)
    (hxv : x.is_internal = true → ValidPath x.pfx) :
    (∀ z, z ∈ Node.denote_list (sort_step addr st x).1 ↔
      z ∈ Node.denote_list st.1 ∨ z ∈ x.denote) ∧
    Node.size_list (sort_step addr st x).1 + (sort_step addr st x).2.1.length ≤
      Node.size_list st.1 + st.2.1.length + x.size := by
  have hxp := (hx _ x.self_mem_nodes).1
  unfold sort_step
  cases hl : lookup_child st.1 (front x.pfx) with
  | none =>
    simp only []
    refine ⟨fun z => mem_denote_list_add_child, ?_⟩
    rw [Node.size_list_add_child]
    omega
  | some idx =>
    obtain ⟨conflict, hc, hcf, -⟩ := lookup_child_some hl
    simp only [hc]
    have hcm : conflict ∈ st.1 := List.getElem?_mem hc
    have hci := h.inv conflict hcm
    obtain ⟨m1, m2⟩ := merge_den conflict x st.2.2 ((hci.1 _ conflict.self_mem_nodes).1) hxp
      hci.2 hxv hcf
    constructor
    · intro z
      rw [mem_denote_list_add_child, m1 z, mem_denote_list_eraseIdx hc z]
      tauto
    · have h1 := Node.size_list_eraseIdx hc
      have h2 := length_ptr_insert_le addr st.2.1 (merge conflict x st.2.2).1.id
      rw [Node.size_list_add_child]
      omega

theorem sort_fold_den (addr : Nat → Nat) {U O : Nat → Prop} {nid0 : Nat} :
    ∀ (todo done : List Node) (st : List Node × List Nat × Nat),
    SortInv U O nid0 done todo st →
    (∀ x ∈ todo, x.Inv no_id U O ∧ (x.is_internal = true → ValidPath x.pfx)) →
    (∀ i ∈ Node.ids_list todo, i < nid0) →
    (∀ z, z ∈ Node.denote_list (todo.foldl (sort_step addr) st).1 ↔
      z ∈ Node.denote_list st.1 ∨ z ∈ Node.denote_list todo) ∧
    Node.size_list (todo.foldl (sort_step addr) st).1 +
        (todo.foldl (sort_step addr) st).2.1.length ≤
      Node.size_list st.1 + st.2.1.length + Node.size_list todo := by
  intro todo
  induction todo with
  | nil =>
    intro done st h _ _
    simp [Node.denote_list, Node.size_list_nil]
  | cons x todo ih =>
    intro done st h hx hb
    have h1 := sort_step_ok addr h (hx x (by simp)).1 (hx x (by simp)).2 hb
    obtain ⟨d1, d2⟩ := sort_step_den addr h (hx x (by simp)).1 (hx x (by simp)).2
    obtain ⟨e1, e2⟩ := ih (done ++ [x]) _ h1 (fun y hy => hx y (by simp [hy]))
      (fun i hi => hb i (by rw [Node.ids_list_cons]; exact List.mem_append_right _ hi))
    simp only [List.foldl_cons]
    constructor
    · intro z
      rw [e1 z, d1 z]
      simp only [Node.denote_list, List.mem_append]
      tauto
    · rw [Node.size_list_cons]
      omega

/-- The method `sort` keeps the paths of the tree, and the weight of the tree
decreases by at least the number of merged nodes. -/
theorem sort_den (addr : Nat → Nat) (t : ExecTree) (root m : Node) (pos : Pos)
    (U O : Nat → Prop) (hroot : t.root = some root)
    (hnd : root.ids.Nodup) (hb : ∀ i ∈ root.ids, i < t.next_id)
    (hinv : root.Inv no_id U O) (hget : root.get? pos = some m) :
    (t.sort addr pos).1.SamePaths t ∧
    (t.sort addr pos).1.size + (t.sort addr pos).2.length ≤ t.size := by
  unfold ExecTree.sort
  simp only [hroot, hget]
  by_cases hs : children_sorted m.children = true
  · rw [if_pos hs]
    exact ⟨ExecTree.SamePaths.rfl_same t, by simp⟩
  · rw [if_neg hs]
    cases m with
    | leaf i p tl s e => exact absurd rfl hs
    | internal mi mp mcs =>
      have hmi : (Node.internal mi mp mcs).is_internal = true := rfl
      have hmloc := hinv.local_of_get hget
      have hminv := ((Node.inv_iff _ _ _ _).mp (hinv.of_get hget)).2
      have hmnd : (Node.internal mi mp mcs).ids.Nodup := Node.nodup_ids_of_get hnd hget
      rw [Node.ids_eq_cons] at hmnd
      have hmb : ∀ i ∈ Node.ids_list mcs, i < t.next_id := by
        intro i hi
        apply hb i (Node.ids_subset_of_get hget _)
        rw [Node.ids_eq_cons]
        exact List.mem_cons_of_mem _ hi
      have hinit : SortInv U O t.next_id [] mcs ([], [], t.next_id) := by
        refine ⟨rfl, by simp, ?_, by simp [ids_list_nil], by simp [ids_list_nil],
          Nat.le_refl _, by simp, by simp⟩
        simpa [ids_list_nil] using (List.nodup_cons.mp hmnd).2
      obtain ⟨f1, f2⟩ := sort_fold_den addr mcs [] _ hinit
        (fun x hx => ⟨hminv x hx, fun hxi =>
          (((hminv x hx) _ x.self_mem_nodes).1).resolve_left (hmloc.no_eps_child hx hxi)⟩) hmb
      simp only [Node.children_internal] at f1 f2 ⊢
      generalize mcs.foldl (sort_step addr) ([], [], t.next_id) = r0 at *
      constructor
      · intro x
        simp only [ExecTree.denote, hroot]
        apply Node.mem_denote_modifyAt_same (fun n => n.set_children r0.1) hget
        intro y
        simp only [Node.set_children, Node.denote, List.mem_map]
        constructor
        · rintro ⟨z, hz, rfl⟩
          exact ⟨z, by simpa [Node.denote_list] using (f1 z).mp hz, rfl⟩
        · rintro ⟨z, hz, rfl⟩
          exact ⟨z, (f1 z).mpr (Or.inr hz), rfl⟩
      · have hsz := Node.size_modifyAt hget (fun n => n.set_children r0.1)
        simp only [ExecTree.size, hroot]
        rw [Node.size_eq (Node.internal mi mp mcs),
          Node.size_eq ((Node.internal mi mp mcs).set_children r0.1)] at hsz
        simp only [Node.set_children_internal, Node.children_internal, Node.weight,
          Node.pfx_internal, Node.size_list_nil, List.length_nil] at hsz f2
        omega

theorem ExecTree.sort_loop_succ (addr : Nat → Nat) (fuel : Nat) (t : ExecTree) (target : Nat)
    (mns mhoc : List Nat) :
    ExecTree.sort_loop addr (fuel + 1) t (target :: mns) mhoc =
      ExecTree.sort_loop addr fuel (t.sort_loop_step addr target mns mhoc).1
        (t.sort_loop_step addr target mns mhoc).2.1
        (t.sort_loop_step addr target mns mhoc).2.2 := by
  simp only [ExecTree.sort_loop, ExecTree.sort_loop_step]
  cases t.node_at target with
  | none => rfl
  | some r =>
    simp only []
    split <;> rfl

theorem length_merged_fold_le (addr : Nat → Nat) (t : ExecTree) (l : List Nat) :
    ∀ acc : List Nat,
    (l.foldl (fun acc id =>
        match t.node_at id with
        | some (_, n) => if n.is_internal then ptr_insert addr acc id else acc
        | none => acc) acc).length ≤ acc.length + l.length := by
  induction l with
  | nil => intro acc; simp
  | cons a as ih =>
    intro acc
    simp only [List.foldl_cons, List.length_cons]
    refine Nat.le_trans (ih _) ?_
    have := length_ptr_insert_le addr acc a
    split
    · split
      · omega
      · omega
    · omega

/-- One iteration of the sort loop keeps the invariant and the paths of the tree,
and the weight of the tree plus the size of `may_need_sort` decreases. -/
theorem sort_loop_step_ok (addr : Nat → Nat) (t : ExecTree) (target : Nat)
    (mns mhoc : List Nat)
    (hinv : t.PInv no_id (fun i => i ∈ target :: mns) (fun i => i ∈ mhoc)) :
    (t.sort_loop_step addr target mns mhoc).1.PInv no_id
      (fun i => i ∈ (t.sort_loop_step addr target mns mhoc).2.1)
      (fun i => i ∈ (t.sort_loop_step addr target mns mhoc).2.2) ∧
    (t.sort_loop_step addr target mns mhoc).1.SamePaths t ∧
    (t.sort_loop_step addr target mns mhoc).1.size +
      (t.sort_loop_step addr target mns mhoc).2.1.length ≤ t.size + mns.length := by
  cases hroot : t.root with
  | none =>
    have hna : t.node_at target = none := by simp [ExecTree.node_at, hroot]
    simp only [ExecTree.sort_loop_step, hna]
    exact ⟨by simp [ExecTree.PInv, hroot], ExecTree.SamePaths.rfl_same t, Nat.le_refl _⟩
  | some root =>
    obtain ⟨hnd, hb, hri⟩ : root.ids.Nodup ∧ (∀ i ∈ root.ids, i < t.next_id) ∧
        root.Inv no_id (fun i => i ∈ target :: mns) (fun i => i ∈ mhoc) := by
      simpa [ExecTree.PInv, hroot] using hinv
    cases hna : t.node_at target with
    | none =>
      simp only [ExecTree.sort_loop_step, hna]
      refine ⟨?_, ExecTree.SamePaths.rfl_same t, Nat.le_refl _⟩
      simp only [ExecTree.PInv, hroot]
      refine ⟨hnd, hb, hri.shrink_U ?_⟩
      intro a ha _ _ hU
      rcases List.mem_cons.mp hU with h1 | h1
      · exact absurd (Node.mem_ids.mpr ⟨a, ha, h1⟩) (ExecTree.node_at_none hna root hroot)
      · exact h1
    | some r =>
      obtain ⟨pos, m⟩ := r
      obtain ⟨root2, hr2, hget, hmid⟩ := ExecTree.node_at_some hna
      rw [hroot] at hr2
      simp only [Option.some.injEq] at hr2
      subst hr2
      obtain ⟨d1, d2⟩ := sort_den addr t root m pos _ _ hroot hnd hb hri hget
      simp only [ExecTree.sort_loop_step, hna]
      have hsort : t.sort addr pos =
          if children_sorted m.children then (t, [])
          else
            ({ root := some (root.modifyAt (fun n => n.set_children
                (m.children.foldl (sort_step addr) ([], [], t.next_id)).1) pos),
               next_id := (m.children.foldl (sort_step addr) ([], [], t.next_id)).2.2 },
              (m.children.foldl (sort_step addr) ([], [], t.next_id)).2.1) := by
        simp only [ExecTree.sort, hroot, hget]
      by_cases hs : children_sorted m.children = true
      · have hst : t.sort addr pos = (t, []) := by rw [hsort, if_pos hs]
        rw [hst]
        simp only [List.isEmpty_nil, if_true]
        refine ⟨?_, ExecTree.SamePaths.rfl_same t, Nat.le_refl _⟩
        simp only [ExecTree.PInv, hroot]
        refine ⟨hnd, hb, hri.shrink_U ?_⟩
        intro a ha _ hns hU
        rcases List.mem_cons.mp hU with h1 | h1
        · have := Node.eq_of_id_eq hnd ha (Node.mem_nodes_of_get hget) (by rw [h1, hmid])
          subst this
          exact absurd hs hns
        · exact h1
      · have hmi : m.is_internal = true := by
          apply Node.internal_of_children_ne_nil
          intro h0
          rw [h0] at hs
          exact hs rfl
        rw [if_neg hs] at hsort
        rw [hsort] at d1 d2 ⊢
        simp only [] at d1 d2 ⊢
        by_cases hem : (m.children.foldl (sort_step addr) ([], [], t.next_id)).2.1.isEmpty
            = true
        · rw [if_pos hem]
          have he : (m.children.foldl (sort_step addr) ([], [], t.next_id)).2.1 = [] :=
            List.isEmpty_iff.mp hem
          refine ⟨?_, d1, by simp only []; omega⟩
          exact sort_tree_ok addr t root m pos target mns mhoc _ _ hnd hb hri hget hmid hmi
            (fun i h => h) (fun a _ _ h => by rw [he] at h; simp at h) (fun i h => h)
            (fun h => absurd he h)
        · rw [if_neg hem]
          have hmf := mem_merged_fold addr
            { root := some (root.modifyAt (fun n => n.set_children
                (m.children.foldl (sort_step addr) ([], [], t.next_id)).1) pos),
              next_id := (m.children.foldl (sort_step addr) ([], [], t.next_id)).2.2 }
            (m.children.foldl (sort_step addr) ([], [], t.next_id)).2.1 mns
          have hlen := length_merged_fold_le addr
            { root := some (root.modifyAt (fun n => n.set_children
                (m.children.foldl (sort_step addr) ([], [], t.next_id)).1) pos),
              next_id := (m.children.foldl (sort_step addr) ([], [], t.next_id)).2.2 }
            (m.children.foldl (sort_step addr) ([], [], t.next_id)).2.1 mns
          have hpre := sort_tree_ok addr t root m pos target mns mhoc
            (fun _ => True) (fun _ => True) hnd hb hri hget hmid hmi
            (fun i _ => trivial) (fun _ _ _ _ => trivial) (fun i _ => trivial)
            (fun _ => trivial)
          refine ⟨?_, d1, by simp only []; omega⟩
          refine sort_tree_ok addr t root m pos target mns mhoc _ _ hnd hb hri hget hmid
            hmi (fun i h => hmf.1 i h) ?_
            (fun i h => (mem_ptr_insert addr).mpr (Or.inr h))
            (fun _ => (mem_ptr_insert addr).mpr (Or.inl rfl))
          intro a ha hai ham
          obtain ⟨q, hq⟩ := Node.exists_get_of_mem_nodes _ ha
          have hnd2 := hpre.1
          have hna2 := @ExecTree.node_at_of_get
            { root := some (root.modifyAt (fun n => n.set_children
                (m.children.foldl (sort_step addr) ([], [], t.next_id)).1) pos),
              next_id := (m.children.foldl (sort_step addr) ([], [], t.next_id)).2.2 }
            _ a q rfl hnd2 hq
          exact hmf.2 a.id ham q a hna2 hai

/-- The sort loop ends: a number of iterations above the weight of the tree plus
the size of `may_need_sort` is enough, and the tree it ends with satisfies the
invariant and stands for the same paths. -/
theorem sort_loop_total (addr : Nat → Nat) : ∀ (fuel : Nat) (t : ExecTree)
    (mns mhoc : List Nat), t.PInv no_id (fun i => i ∈ mns) (fun i => i ∈ mhoc) →
    t.size + mns.length ≤ fuel →
    ∃ res, ExecTree.sort_loop addr fuel t mns mhoc = some res ∧
      res.1.PInv no_id no_id (fun i => i ∈ res.2) ∧ res.1.SamePaths t := by
  intro fuel
  induction fuel with
  | zero =>
    intro t mns mhoc hinv hf
    have h0 : mns = [] := List.length_eq_zero.mp (by omega)
    subst h0
    exact ⟨(t, mhoc), by simp [ExecTree.sort_loop],
      by simpa [no_id] using hinv, ExecTree.SamePaths.rfl_same t⟩
  | succ fuel ih =>
    intro t mns mhoc hinv hf
    cases mns with
    | nil =>
      exact ⟨(t, mhoc), by simp [ExecTree.sort_loop],
        by simpa [no_id] using hinv, ExecTree.SamePaths.rfl_same t⟩
    | cons target mns =>
      obtain ⟨s1, s2, s3⟩ := sort_loop_step_ok addr t target mns mhoc hinv
      simp only [List.length_cons] at hf
      obtain ⟨res, r1, r2, r3⟩ := ih _ _ _ s1 (by omega)
      exact ⟨res, by rw [ExecTree.sort_loop_succ]; exact r1, r2, r3.trans_same s2⟩

/-- The tree the sort loop ends with, whatever the bound on the iterations, stands
for the paths of the tree it started with. -/
theorem sort_loop_den (addr : Nat → Nat) : ∀ (fuel : Nat) (t : ExecTree) (mns mhoc : List Nat)
    (res : ExecTree × List Nat), ExecTree.sort_loop addr fuel t mns mhoc = some res →
    t.PInv no_id (fun i => i ∈ mns) (fun i => i ∈ mhoc) → res.1.SamePaths t := by
  intro fuel
  induction fuel with
  | zero =>
    intro t mns mhoc res h _
    cases mns with
    | nil =>
      simp only [ExecTree.sort_loop, Option.some.injEq] at h
      subst h
      exact ExecTree.SamePaths.rfl_same t
    | cons a as => simp [ExecTree.sort_loop] at h
  | succ fuel ih =>
    intro t mns mhoc res h hinv
    cases mns with
    | nil =>
      simp only [ExecTree.sort_loop, Option.some.injEq] at h
      subst h
      exact ExecTree.SamePaths.rfl_same t
    | cons target mns =>
      obtain ⟨s1, s2, -⟩ := sort_loop_step_ok addr t target mns mhoc hinv
      rw [ExecTree.sort_loop_succ] at h
      exact (ih _ _ _ res h s1).trans_same s2

/-! ## The tree `prune` returns -/

/-- A node that satisfies the invariant of `prune` with empty worklists and is not
an internal Epsilon node satisfies the shape invariant of `insert`. -/
theorem Node.Inv.good_node : ∀ n : Node, n.Inv no_id no_id no_id →
    (n.is_internal = true → ValidPath n.pfx) → n.Good := by
  intro n
  induction n using Node.induct with
  | hleaf i p t s e =>
    intro h _
    exact (h _ (Node.self_mem_nodes _)).1
  | hint i p cs ih =>
    intro h hv
    obtain ⟨hloc, hch⟩ := (Node.inv_iff _ _ _ _).mp h
    obtain ⟨g1, g2, g3, g4⟩ := hloc.2 rfl
    simp only [Node.Good, Node.goodList_iff]
    refine ⟨hv rfl, g3.resolve_right (fun h => h), g2.resolve_right (fun h => h), ?_⟩
    intro c hc
    refine ih c hc (hch c hc) (fun hci => ?_)
    exact ((hch c hc) _ c.self_mem_nodes).1.resolve_left (hloc.no_eps_child hc hci)

/-- A tree that satisfies the invariant of `prune` with empty worklists and does
not hold the empty path satisfies the shape invariant of `insert`. -/
theorem ExecTree.PInv.good_tree {t : ExecTree} (h : t.PInv no_id no_id no_id)
    (hne : [] ∉ t.denote) : t.Good := by
  cases hroot : t.root with
  | none => simp [ExecTree.Good, hroot]
  | some root =>
    obtain ⟨-, -, hinv⟩ : root.ids.Nodup ∧ (∀ i ∈ root.ids, i < t.next_id) ∧
        root.Inv no_id no_id no_id := by
      simpa [ExecTree.PInv, hroot] using h
    simp only [ExecTree.denote, hroot] at hne
    simp only [ExecTree.Good, hroot]
    cases root with
    | leaf i p tl s e =>
      have hp := (hinv _ (Node.self_mem_nodes _)).1
      refine hp.resolve_left (fun hpe => hne ?_)
      simp only [Node.pfx_leaf] at hpe
      simp [Node.denote, hpe, squeeze_epsilon]
    | internal i p cs =>
      obtain ⟨hloc, hch⟩ := (Node.inv_iff _ _ _ _).mp hinv
      obtain ⟨g1, g2, g3, g4⟩ := hloc.2 rfl
      have hgood : ∀ c ∈ cs, c.Good := by
        intro c hc
        refine Node.Inv.good_node c (hch c hc) (fun hci => ?_)
        exact ((hch c hc) _ c.self_mem_nodes).1.resolve_left (hloc.no_eps_child hc hci)
      simp only [Node.RootGood, Node.goodList_iff]
      refine ⟨?_, g3.resolve_right (fun h => h), g2.resolve_right (fun h => h), hgood⟩
      rcases hloc.1 with hpe | hpv
      · left
        simp only [Node.pfx_internal] at hpe
        refine ⟨hpe, fun c hc => ?_⟩
        have hcp := (hgood c hc).pfx_cases
        rcases hcp with hce | hcv
        · exfalso
          cases c with
          | leaf ci cp ct cs2 ce =>
            apply hne
            simp only [Node.pfx_leaf] at hce
            simp only [Node.denote, List.mem_map, Node.mem_denote_list, hpe, squeeze_epsilon,
              List.nil_append, exists_eq_right]
            exact ⟨_, hc, by simp [Node.denote, hce, squeeze_epsilon]⟩
          | internal ci cp ccs =>
            exact hloc.no_eps_child hc rfl hce
        · exact validPath_front_pos hcv
      · exact Or.inr hpv

theorem ExecTree.TagsOK.allPos {t : ExecTree} (h : t.TagsOK (fun p => p = [])) :
    t.TagsOK AllPos := by
  cases hroot : t.root with
  | none => simp [ExecTree.TagsOK, hroot]
  | some root =>
    simp only [ExecTree.TagsOK, hroot] at h ⊢
    refine ⟨h.1, fun x hx => ⟨(h.2 x hx).1, ?_⟩⟩
    rw [(h.2 x hx).2]
    intro y hy
    simp at hy

theorem ExecTree.PInv.nil_O {t : ExecTree} {U : Nat → Prop} (h : t.PInv no_id U no_id) :
    t.PInv no_id U (fun i => i ∈ ([] : List Nat)) := by
  have hno : (fun i => i ∈ ([] : List Nat)) = no_id := by
    funext i; simp [no_id]
  rw [hno]
  exact h

theorem sort_loop_ends (addr : Nat → Nat) (t : ExecTree) (mns mhoc : List Nat)
    (h : t.PInv no_id (fun i => i ∈ mns) (fun i => i ∈ mhoc)) :
    ∃ fuel0, ∀ fuel, fuel0 ≤ fuel → ∃ res, ExecTree.sort_loop addr fuel t mns mhoc = some res :=
  ⟨t.size + mns.length, fun fuel hf =>
    (sort_loop_total addr fuel t mns mhoc h hf).imp (fun _ hres => hres.1)⟩

/-- The four phases of `prune` as one statement: for a tree that satisfies the
shape invariant of `insert`, the sort loop ends, and the tree `prune` returns
satisfies the invariant with empty worklists; without tails it stands for the
pruned paths of the tree. -/
theorem prune_spec (tpc : TracePC) (addr garbage : Nat → Nat) (t : ExecTree)
    (hg : t.Good) (ht : t.TagsOK AllPos) :
    (∃ fuel0, ∀ fuel, fuel0 ≤ fuel → ∃ t2, t.prune tpc addr garbage fuel = some t2) ∧
    ∀ fuel t2, t.prune tpc addr garbage fuel = some t2 →
      t2.PInv no_id no_id no_id ∧
      (t.TagsOK (fun p => p = []) → ∀ x, x ∈ t2.denote ↔ x ∈ t.denote.map tpc.Prune) := by
  cases hroot : t.root with
  | none =>
    refine ⟨⟨0, fun fuel _ => ⟨t, by simp [ExecTree.prune, hroot]⟩⟩, ?_⟩
    intro fuel t2 h
    simp only [ExecTree.prune, hroot, Option.some.injEq] at h
    subst h
    exact ⟨by simp [ExecTree.PInv, hroot], fun _ x => by simp [ExecTree.denote, hroot]⟩
  | some root =>
    have hr : root.RootGood := by simpa [ExecTree.Good, hroot] using hg
    have htg : root.TagsOK t.next_id AllPos := by simpa [ExecTree.TagsOK, hroot] using ht
    obtain ⟨h1, h2, h3⟩ := prune_stage1 tpc addr garbage t root hr htg
    have hp1 : ExecTree.PInv
        (fun i => i ∈ (root.filter_nd_pcid tpc garbage 0).2.foldl (ptr_insert addr) [])
        (fun i => i ∈ ExecTree.parents_of addr
          { t with root := some (root.filter_nd_pcid tpc garbage 0).1 }
          ((root.filter_nd_pcid tpc garbage 0).2.foldl (ptr_insert addr) []))
        no_id { t with root := some (root.filter_nd_pcid tpc garbage 0).1 } := by
      simp only [ExecTree.PInv]
      exact ⟨h1, h2, h3⟩
    have hp2 := (rm_epsilon_loop_ok _ _ _ _ hp1).nil_O
    have hd2 := rm_epsilon_loop_den
      ((root.filter_nd_pcid tpc garbage 0).2.foldl (ptr_insert addr) [])
      { t with root := some (root.filter_nd_pcid tpc garbage 0).1 }
    have hprune : ∀ fuel, t.prune tpc addr garbage fuel =
        match ExecTree.sort_loop addr fuel
          (ExecTree.rm_epsilon_loop
            { t with root := some (root.filter_nd_pcid tpc garbage 0).1 }
            ((root.filter_nd_pcid tpc garbage 0).2.foldl (ptr_insert addr) []))
          (ExecTree.parents_of addr
            { t with root := some (root.filter_nd_pcid tpc garbage 0).1 }
            ((root.filter_nd_pcid tpc garbage 0).2.foldl (ptr_insert addr) [])) [] with
        | none => none
        | some (t3, may_have_only_child) => some (t3.only_child_loop may_have_only_child) := by
      intro fuel
      simp only [ExecTree.prune, hroot]
    constructor
    · obtain ⟨fuel0, hf0⟩ := sort_loop_ends addr _ _ _ hp2
      refine ⟨fuel0, fun fuel hf => ?_⟩
      obtain ⟨res, r1⟩ := hf0 fuel hf
      rw [hprune fuel, r1]
      exact ⟨_, rfl⟩
    · intro fuel t2 h
      rw [hprune fuel] at h
      cases hsl : ExecTree.sort_loop addr fuel
          (ExecTree.rm_epsilon_loop
            { t with root := some (root.filter_nd_pcid tpc garbage 0).1 }
            ((root.filter_nd_pcid tpc garbage 0).2.foldl (ptr_insert addr) []))
          (ExecTree.parents_of addr
            { t with root := some (root.filter_nd_pcid tpc garbage 0).1 }
            ((root.filter_nd_pcid tpc garbage 0).2.foldl (ptr_insert addr) [])) [] with
      | none => simp [hsl] at h
      | some res =>
        obtain ⟨t3, mhoc⟩ := res
        simp only [hsl, Option.some.injEq] at h
        subst h
        have hp3 := sort_loop_ok addr fuel _ _ _ _ hsl hp2
        have hd3 := sort_loop_den addr fuel _ _ _ _ hsl hp2
        have hd4 := only_child_loop_den mhoc t3
        refine ⟨only_child_loop_ok mhoc t3 hp3, fun ht0 x => ?_⟩
        have htg0 : root.TagsOK t.next_id (fun p => p = []) := by
          simpa [ExecTree.TagsOK, hroot] using ht0
        rw [((hd4.trans_same hd3).trans_same hd2) x]
        simp only [ExecTree.denote, hroot]
        rw [denote_filter tpc garbage root (fun m hm => (hr.root_inv m hm).1)
          (fun y hy => (htg0.2 y hy).2) 0]


/-! ## The tracer: bitmaps and the path log -/

theorem BitMap.and_bitmask_ne_zero (x k : Nat) :
    (x &&& BitMap.bitmask k ≠ 0) ↔ x.testBit k = true := by
  rw [BitMap.bitmask, Nat.and_two_pow]
  cases h : x.testBit k
  · simp
  · simp [Nat.pos_iff_ne_zero.mp (Nat.two_pow_pos k)]

theorem BitMap.capacity_set (b : BitMap) (i : Nat) : (b.set i).capacity = b.capacity := by
  unfold BitMap.set BitMap.capacity
  cases hb : b.bitmap with
  | none => simp [hb]
  | some bytes => simp

theorem BitMap.capacity_init (n : Nat) : n ≤ (BitMap.init n).capacity := by
  simp only [BitMap.init, BitMap.capacity, List.length_replicate]
  split <;> split <;> omega

/-- Reading a bitmap after `set(i)`: the bit `i` is on, the others are as before. -/
theorem BitMap.is_set_set (b : BitMap) (i j : Nat) (hi : i < b.capacity) :
    (b.set i).is_set j = (decide (i = j) || b.is_set j) := by
  unfold BitMap.capacity at hi
  unfold BitMap.set BitMap.is_set
  cases hb : b.bitmap with
  | none => simp [hb] at hi
  | some bytes =>
    simp only [hb] at hi ⊢
    have hlt : i / 8 < bytes.length := by omega
    by_cases hij : i / 8 = j / 8
    · have hget : (bytes.modify (fun byte => byte ||| BitMap.bitmask (i % 8)) (i / 8)).getD
          (j / 8) 0 = bytes.getD (j / 8) 0 ||| BitMap.bitmask (i % 8) := by
        rw [← hij]
        simp [List.getD_eq_getElem?_getD, List.getElem?_modify, hlt]
      rw [hget]
      have h1 := BitMap.and_bitmask_ne_zero
        (bytes.getD (j / 8) 0 ||| BitMap.bitmask (i % 8)) (j % 8)
      have h2 := BitMap.and_bitmask_ne_zero (bytes.getD (j / 8) 0) (j % 8)
      rw [Nat.testBit_or, BitMap.bitmask, Nat.testBit_two_pow] at h1
      by_cases hm : i % 8 = j % 8
      · have hji : i = j := by omega
        have h3 : (bytes.getD (j / 8) 0 ||| 2 ^ (i % 8)) &&& BitMap.bitmask (j % 8) ≠ 0 :=
          h1.mpr (by simp [hm])
        rw [BitMap.bitmask]
        simp only [hji, decide_True, Bool.true_or, decide_eq_true_eq]
        rw [hm] at h3
        exact h3
      · have : i ≠ j := fun h => hm (by rw [h])
        simp only [hm, decide_False, Bool.or_false] at h1
        simp only [this, decide_False, Bool.false_or]
        rw [decide_eq_decide]
        exact h1.trans h2.symm
    · have hget : (bytes.modify (fun byte => byte ||| BitMap.bitmask (i % 8)) (i / 8)).getD
          (j / 8) 0 = bytes.getD (j / 8) 0 := by
        simp [List.getD_eq_getElem?_getD, List.getElem?_modify, hij]
      have : i ≠ j := fun h => hij (by rw [h])
      rw [hget]
      simp [this]

theorem Tracer.append_frame (t : Tracer) (pcid : PCID) :
    (t.AppendPathLog pcid).trace = t.trace ∧
    (t.AppendPathLog pcid).max_significant_execpath_size = t.max_significant_execpath_size ∧
    (t.AppendPathLog pcid).max_tail_execpath_size = t.max_tail_execpath_size ∧
    (t.AppendPathLog pcid).nondeterministic_pc_bitmap = t.nondeterministic_pc_bitmap ∧
    (t.AppendPathLog pcid).PathLog.length = t.PathLog.length := by
  unfold Tracer.AppendPathLog Tracer.IsND Tracer.InitNDBitMap
  by_cases h1 : t.trace = true
  · by_cases h2 : t.covered_pc_bitmap.is_available = true <;>
    by_cases h3 : t.PathLogSize < t.max_significant_execpath_size + t.max_tail_execpath_size <;>
    by_cases h4 : t.nondeterministic_pc_bitmap.is_available = true <;>
    by_cases h5 : t.nondeterministic_pc_bitmap.is_set (Tracer.bit_of pcid) = true <;>
    simp [h1, h2, h3, h4, h5]
  · simp [h1]

theorem Tracer.append_covered (t : Tracer) (pcid : PCID) (ht : t.trace = true)
    (hb : Tracer.bit_of pcid < t.covered_pc_bitmap.capacity) :
    (t.AppendPathLog pcid).covered_pc_bitmap.is_set (Tracer.bit_of pcid) = true := by
  have hav : t.covered_pc_bitmap.is_available = true := by
    unfold BitMap.capacity at hb
    unfold BitMap.is_available
    cases h : t.covered_pc_bitmap.bitmap with
    | none => simp [h] at hb
    | some _ => rfl
  have hset := BitMap.is_set_set t.covered_pc_bitmap (Tracer.bit_of pcid) (Tracer.bit_of pcid) hb
  unfold Tracer.AppendPathLog Tracer.IsND Tracer.InitNDBitMap
  by_cases h3 : t.PathLogSize < t.max_significant_execpath_size + t.max_tail_execpath_size <;>
  by_cases h4 : t.nondeterministic_pc_bitmap.is_available = true <;>
  by_cases h5 : t.nondeterministic_pc_bitmap.is_set (Tracer.bit_of pcid) = true <;>
  simp [ht, hav, h3, h4, h5, hset]

/-- What `AppendPathLog` does to the log when tracing is on. -/
theorem Tracer.append_log (t : Tracer) (pcid : PCID) (ht : t.trace = true)
    (hcap : t.PathLog.length = t.max_significant_execpath_size + t.max_tail_execpath_size) :
    ((t.nd_marked pcid = false ∧
        t.PathLogSize < t.max_significant_execpath_size + t.max_tail_execpath_size) →
      (t.AppendPathLog pcid).GetPathLog = t.GetPathLog ++ [pcid] ∧
      (t.AppendPathLog pcid).PathLogSize = t.PathLogSize + 1) ∧
    (¬ (t.nd_marked pcid = false ∧
        t.PathLogSize < t.max_significant_execpath_size + t.max_tail_execpath_size) →
      (t.AppendPathLog pcid).GetPathLog = t.GetPathLog ∧
      (t.AppendPathLog pcid).PathLogSize = t.PathLogSize) := by
  have hput : t.PathLogSize < t.max_significant_execpath_size + t.max_tail_execpath_size →
      (t.PathLog.set t.PathLogSize pcid).take
        (min (t.PathLogSize + 1) (t.max_significant_execpath_size + t.max_tail_execpath_size)) =
      t.PathLog.take
        (min t.PathLogSize (t.max_significant_execpath_size + t.max_tail_execpath_size)) ++
        [pcid] := by
    intro h3
    rw [min_eq_left (by omega), min_eq_left (by omega)]
    apply List.ext_getElem
    · simp only [List.length_take, List.length_set, List.length_append, List.length_singleton]
      omega
    · intro n h1 h2
      simp only [List.length_take, List.length_set] at h1
      by_cases hn : n = t.PathLogSize
      · subst hn
        rw [List.getElem_take, List.getElem_set_self,
          List.getElem_append_right (by simp)]
        simp
      · have hlt : n < t.PathLogSize := by omega
        rw [List.getElem_take, List.getElem_set_ne (fun h => hn h.symm),
          List.getElem_append_left (by simp; omega), List.getElem_take]
  unfold Tracer.nd_marked Tracer.AppendPathLog Tracer.IsND Tracer.InitNDBitMap Tracer.GetPathLog
  by_cases h2 : t.covered_pc_bitmap.is_available = true <;>
  by_cases h3 : t.PathLogSize < t.max_significant_execpath_size + t.max_tail_execpath_size <;>
  by_cases h4 : t.nondeterministic_pc_bitmap.is_available = true <;>
  by_cases h5 : t.nondeterministic_pc_bitmap.is_set (Tracer.bit_of pcid) = true <;>
  simp [ht, h2, h3, h4, h5] <;> exact hput h3

theorem Tracer.nd_marked_congr {t s : Tracer}
    (h : s.nondeterministic_pc_bitmap = t.nondeterministic_pc_bitmap) (p : PCID) :
    s.nd_marked p = t.nd_marked p := by
  unfold Tracer.nd_marked
  rw [h]

/-- A run of `AppendPathLog` calls with tracing on: the PCIDs that are not marked
are appended while the log has room. -/
theorem Tracer.append_all (t : Tracer) : ∀ (pcids : List PCID) (s : Tracer),
    s.trace = true →
    s.PathLog.length = s.max_significant_execpath_size + s.max_tail_execpath_size →
    s.max_significant_execpath_size = t.max_significant_execpath_size →
    s.max_tail_execpath_size = t.max_tail_execpath_size →
    s.nondeterministic_pc_bitmap = t.nondeterministic_pc_bitmap →
    s.PathLogSize ≤ t.max_significant_execpath_size + t.max_tail_execpath_size →
    (pcids.foldl Tracer.AppendPathLog s).GetPathLog =
      (s.GetPathLog ++ pcids.filter (fun p => !t.nd_marked p)).take
        (t.max_significant_execpath_size + t.max_tail_execpath_size) ∧
    (pcids.foldl Tracer.AppendPathLog s).PathLogSize ≤
      t.max_significant_execpath_size + t.max_tail_execpath_size := by
  intro pcids
  induction pcids with
  | nil =>
    intro s _ hcap h1 h2 _ hsz
    refine ⟨?_, hsz⟩
    simp only [List.foldl_nil, List.filter_nil, List.append_nil]
    rw [List.take_of_length_le]
    simp only [Tracer.GetPathLog, List.length_take]
    omega
  | cons p ps ih =>
    intro s ht hcap h1 h2 hnd hsz
    obtain ⟨f1, f2, f3, f4, f5⟩ := s.append_frame p
    obtain ⟨a1, a2⟩ := s.append_log p ht hcap
    have hlen : s.GetPathLog.length = s.PathLogSize := by
      simp only [Tracer.GetPathLog, List.length_take]
      omega
    simp only [List.foldl_cons]
    by_cases hc : s.nd_marked p = false ∧
        s.PathLogSize < s.max_significant_execpath_size + s.max_tail_execpath_size
    · obtain ⟨b1, b2⟩ := a1 hc
      obtain ⟨i1, i2⟩ := ih (s.AppendPathLog p) (f1.trans ht) (by rw [f5, f2, f3]; exact hcap)
        (f2.trans h1) (f3.trans h2) (f4.trans hnd) (by rw [b2]; omega)
      refine ⟨?_, i2⟩
      rw [i1, b1]
      have hm : t.nd_marked p = false := by
        rw [← Tracer.nd_marked_congr hnd p]; exact hc.1
      simp [List.filter_cons, hm]
    · obtain ⟨b1, b2⟩ := a2 hc
      obtain ⟨i1, i2⟩ := ih (s.AppendPathLog p) (f1.trans ht) (by rw [f5, f2, f3]; exact hcap)
        (f2.trans h1) (f3.trans h2) (f4.trans hnd) (by rw [b2]; omega)
      refine ⟨?_, i2⟩
      rw [i1, b1]
      by_cases hm : t.nd_marked p = true
      · simp [List.filter_cons, hm]
      · have hm2 : t.nd_marked p = false := by simpa using hm
        have hfull : s.PathLogSize =
            t.max_significant_execpath_size + t.max_tail_execpath_size := by
          have : s.nd_marked p = false := by rw [Tracer.nd_marked_congr hnd p]; exact hm2
          simp only [this, true_and, not_lt] at hc
          omega
        simp only [List.filter_cons, hm2, Bool.not_false, if_true]
        rw [List.take_append_of_le_length (by omega),
          List.take_append_of_le_length (by omega)]


/-! ### Enum bit vectors -/

theorem EnumArgBitVec.set_list_fields (ub : Nat → Nat) (vs : List Nat) (bv : EnumArgBitVec) :
    (bv.set_list ub vs).name = bv.name ∧ (bv.set_list ub vs).start = bv.start ∧
    (bv.set_list ub vs).size = bv.size := by
  induction vs generalizing bv with
  | nil => exact ⟨rfl, rfl, rfl⟩
  | cons v vs ih =>
    have h := ih (bv.set ub v)
    simpa [EnumArgBitVec.set_list, EnumArgBitVec.set] using h

/-- Bit pattern of `1 << s` for a shift below 32. -/
theorem EnumArgBitVec.idx_to_bitfield_small (ub : Nat → Nat) (bv : EnumArgBitVec) (idx : Nat)
    (hs : bv.size ≤ 32) (hi : idx < bv.size) :
    bv.idx_to_bitfield ub idx =
      if bv.size - 1 - idx < 31 then 2 ^ (bv.size - 1 - idx) else 2 ^ 64 - 2 ^ 31 := by
  have h1 : (bv.size + (2 ^ 64 - 1 - idx % 2 ^ 64)) % 2 ^ 64 = bv.size - 1 - idx := by
    have : idx % 2 ^ 64 = idx := Nat.mod_eq_of_lt (by omega)
    rw [this]
    have : bv.size + (2 ^ 64 - 1 - idx) = (bv.size - 1 - idx) + 2 ^ 64 := by omega
    rw [this, Nat.add_mod_right]
    exact Nat.mod_eq_of_lt (by omega)
  unfold EnumArgBitVec.idx_to_bitfield
  simp only [h1]
  by_cases h : bv.size - 1 - idx < 31
  · simp [h]
  · have : bv.size - 1 - idx = 31 := by omega
    simp [this]

theorem shifted_one_disjoint : ∀ s, s ≤ 31 → ∀ t, t ≤ 31 → s ≠ t →
    (if s < 31 then 2 ^ s else 2 ^ 64 - 2 ^ 31) &&& (if t < 31 then 2 ^ t else 2 ^ 64 - 2 ^ 31) = 0 := by
  decide

theorem shifted_one_ne_zero : ∀ s, s ≤ 31 → (if s < 31 then 2 ^ s else 2 ^ 64 - 2 ^ 31) ≠ 0 := by
  decide

theorem EnumArgBitVec.set_list_bitvec (ub : Nat → Nat) (vs : List Nat) (bv : EnumArgBitVec)
    (hstart : bv.start = 0) (hsize : bv.size ≤ 32) (hvs : ∀ v ∈ vs, v < bv.size) (i : Nat)
    (hi : i < bv.size) :
    (bv.set_list ub vs).bitvec &&& bv.idx_to_bitfield ub i =
      (bv.bitvec &&& bv.idx_to_bitfield ub i) |||
        (if i ∈ vs then bv.idx_to_bitfield ub i else 0) := by
  induction vs generalizing bv with
  | nil => simp [EnumArgBitVec.set_list]
  | cons v vs ih =>
    have hv : v < bv.size := hvs v (List.mem_cons_self _ _)
    have hidx : ∀ j, (bv.set ub v).idx_to_bitfield ub j = bv.idx_to_bitfield ub j := fun j => rfl
    have h := ih (bv.set ub v) hstart hsize (fun w hw => hvs w (List.mem_cons_of_mem _ hw)) hi
    rw [hidx] at h
    have hset : (bv.set ub v).bitvec = bv.bitvec ||| bv.idx_to_bitfield ub v := by
      have hm : (v + (2 ^ 64 - bv.start % 2 ^ 64)) % 2 ^ 64 = v := by rw [hstart]; omega
      show bv.bitvec ||| bv.idx_to_bitfield ub ((v + (2 ^ 64 - bv.start % 2 ^ 64)) % 2 ^ 64) = _
      rw [hm]
    have hl : bv.set_list ub (v :: vs) = (bv.set ub v).set_list ub vs := rfl
    rw [hl, h, hset, Nat.and_comm (bv.bitvec ||| bv.idx_to_bitfield ub v), Nat.and_or_distrib_left,
      Nat.and_comm (bv.idx_to_bitfield ub i) bv.bitvec,
      Nat.and_comm (bv.idx_to_bitfield ub i) (bv.idx_to_bitfield ub v)]
    by_cases hiv : i = v
    · subst hiv
      simp only [Nat.and_self, List.mem_cons, true_or, if_true]
      by_cases hm : i ∈ vs
      · simp [hm, Nat.or_assoc]
      · simp [hm]
    · have hd : bv.idx_to_bitfield ub v &&& bv.idx_to_bitfield ub i = 0 := by
        rw [EnumArgBitVec.idx_to_bitfield_small ub bv v hsize hv,
          EnumArgBitVec.idx_to_bitfield_small ub bv i hsize hi]
        exact shifted_one_disjoint _ (by omega) _ (by omega) (by omega)
      rw [hd]
      simp [hiv]

theorem EnumArgBitVec.eval_set_list (ub : Nat → Nat) (bv : EnumArgBitVec) (vs : List Nat)
    (args : Args) (hstart : bv.start = 0) (hsize : bv.size ≤ 32) (hempty : bv.bitvec = 0)
    (hvs : ∀ v ∈ vs, v < bv.size)
    (hlo : 0 ≤ args.get bv.name) (hhi : args.get bv.name < bv.size) :
    ((bv.set_list ub vs).eval ub args = true ↔ (args.get bv.name).toNat ∉ vs) := by
  obtain ⟨hn, _, hsz⟩ := EnumArgBitVec.set_list_fields ub vs bv
  have hi : (args.get bv.name).toNat < bv.size := by omega
  have hconv : to_size_t (args.get bv.name) = (args.get bv.name).toNat := by
    unfold to_size_t
    rw [Int.emod_eq_of_lt hlo (by omega)]
  have hidx : ∀ j, (bv.set_list ub vs).idx_to_bitfield ub j = bv.idx_to_bitfield ub j := by
    intro j
    simp only [EnumArgBitVec.idx_to_bitfield, hsz]
  have h := EnumArgBitVec.set_list_bitvec ub vs bv hstart hsize hvs _ hi
  have hne : bv.idx_to_bitfield ub (args.get bv.name).toNat ≠ 0 := by
    rw [EnumArgBitVec.idx_to_bitfield_small ub bv _ hsize hi]
    exact shifted_one_ne_zero _ (by omega)
  unfold EnumArgBitVec.eval
  simp only [hn, hconv, hidx, h, hempty, Nat.zero_and, Nat.zero_or]
  by_cases hm : (args.get bv.name).toNat ∈ vs
  · simp [hm]
  · simp [hm, hne]

/-! ### Branch conditions -/

theorem BranchCondition.classify_pos_shift (env : SynthEnv) (c : BranchCondition) (l : List Input) :
    ∀ tp fn, c.classify_pos env l tp (fn + 1) =
      (c.classify_pos env l tp fn).map (fun p => (p.1, p.2 + 1)) := by
  induction l with
  | nil => intro tp fn; rfl
  | cons x rest ih =>
    intro tp fn
    unfold BranchCondition.classify_pos
    split
    · exact ih _ _
    · exact ih _ _
    · exact ih _ _
    · rfl

theorem BranchCondition.classify_neg_shift (env : SynthEnv) (c : BranchCondition) (l : List Input) :
    ∀ tn fp, c.classify_neg env l tn (fp + 1) =
      (c.classify_neg env l tn fp).map (fun p => (p.1, p.2 + 1)) := by
  induction l with
  | nil => intro tn fp; rfl
  | cons x rest ih =>
    intro tn fp
    unfold BranchCondition.classify_neg
    split
    · exact ih _ _
    · exact ih _ _
    · exact ih _ _
    · rfl

theorem BranchCondition.classify_pos_raise (env : SynthEnv) (c : BranchCondition) (x : Input)
    (hx : c.eval env x true = .error .CondEvalException) (l1 l2 : List Input) :
    ∀ tp fn, c.classify_pos env (l1 ++ x :: l2) tp fn =
      (c.classify_pos env (l1 ++ l2) tp fn).map (fun p => (p.1, p.2 + 1)) := by
  induction l1 with
  | nil =>
    intro tp fn
    rw [List.nil_append, List.nil_append, ← BranchCondition.classify_pos_shift]
    conv => lhs; unfold BranchCondition.classify_pos
    simp only [hx]
  | cons y rest ih =>
    intro tp fn
    simp only [List.cons_append]
    unfold BranchCondition.classify_pos
    split
    · exact ih _ _
    · exact ih _ _
    · exact ih _ _
    · rfl

theorem BranchCondition.classify_neg_raise (env : SynthEnv) (c : BranchCondition) (x : Input)
    (hx : c.eval env x false = .error .CondEvalException) (l1 l2 : List Input) :
    ∀ tn fp, c.classify_neg env (l1 ++ x :: l2) tn fp =
      (c.classify_neg env (l1 ++ l2) tn fp).map (fun p => (p.1, p.2 + 1)) := by
  induction l1 with
  | nil =>
    intro tn fp
    rw [List.nil_append, List.nil_append, ← BranchCondition.classify_neg_shift]
    conv => lhs; unfold BranchCondition.classify_neg
    simp only [hx]
  | cons y rest ih =>
    intro tn fp
    simp only [List.cons_append]
    unfold BranchCondition.classify_neg
    split
    · exact ih _ _
    · exact ih _ _
    · exact ih _ _
    · rfl

theorem BranchCondition.classify_raise_pos (env : SynthEnv) (c : BranchCondition) (x : Input)
    (hx : c.eval env x true = .error .CondEvalException) (l1 l2 neg : List Input) :
    c.classify env (l1 ++ x :: l2) neg =
      (c.classify env (l1 ++ l2) neg).map (fun c2 => c2.more_fn 1) := by
  unfold BranchCondition.classify
  rw [BranchCondition.classify_pos_raise env c x hx]
  cases c.classify_pos env (l1 ++ l2) 0 0 with
  | error e => rfl
  | ok p =>
    obtain ⟨tp, fn⟩ := p
    simp only [Except.map]
    cases c.classify_neg env neg 0 0 with
    | error e => rfl
    | ok q => rfl

theorem BranchCondition.classify_raise_neg (env : SynthEnv) (c : BranchCondition) (x : Input)
    (hx : c.eval env x false = .error .CondEvalException) (pos l1 l2 : List Input) :
    c.classify env pos (l1 ++ x :: l2) =
      (c.classify env pos (l1 ++ l2)).map (fun c2 => c2.more_fp 1) := by
  unfold BranchCondition.classify
  rw [BranchCondition.classify_neg_raise env c x hx]
  cases c.classify_pos env pos 0 0 with
  | error e => rfl
  | ok p =>
    obtain ⟨tp, fn⟩ := p
    simp only
    cases c.classify_neg env (l1 ++ l2) 0 0 with
    | error e => rfl
    | ok q => rfl

theorem BranchCondition.eval_numeric_raise (env : SynthEnv) (c : BranchCondition) (e : BoolExpr)
    (input : Input) (hbody : c.body = .Numeric (some e))
    (hraise : e.eval input.numeric_args = .error .CondEvalException) (ground_truth : Bool) :
    c.eval env input ground_truth = .error .CondEvalException := by
  unfold BranchCondition.eval
  rw [hbody]
  simp only [hraise]


/-! ## Conditions of the nodes under `insert` and `promote_cond` -/

theorem Books.kind_set_cond (b : Books) (i : Nat) (c : Option BranchCondition) (x : Nat) :
    (b.set_cond i c).kind x = if x = i then c.map BranchCondition.get_condtype else b.kind x := by
  unfold Books.kind Books.set_cond
  by_cases h : x = i <;> simp [h]

theorem Books.kind_set_inputs (inputs : List Input) (leaf : Nat) (x : Nat) :
    ∀ b : Books, (b.set_inputs inputs leaf).kind x = b.kind x := by
  induction inputs with
  | nil => intro b; rfl
  | cons a rest ih =>
    intro b
    show ((b.set_input a leaf).set_inputs rest leaf).kind x = b.kind x
    rw [ih]
    rfl

theorem Books.kind_erase_inputs (inputs : List Input) (x : Nat) :
    ∀ b : Books, (b.erase_inputs inputs).kind x = b.kind x := by
  induction inputs with
  | nil => intro b; rfl
  | cons a rest ih =>
    intro b
    show ((b.erase_input a).erase_inputs rest).kind x = b.kind x
    rw [ih]
    rfl

theorem Books.kind_insert_inputset (b : Books) (rnd : Nat) (leaf : Node) (inputset : List Input)
    (x : Nat) : (b.insert_inputset rnd leaf inputset).kind x = b.kind x := by
  unfold Books.insert_inputset
  simp only [Books.kind_set_inputs]
  split
  · split <;> rfl
  · rfl

theorem Books.kind_pull_node (b : Books) (node : Node) (x : Nat) :
    (b.pull_node node).kind x = b.kind x := by
  unfold Books.pull_node
  split
  · exact Books.kind_erase_inputs _ _ _
  · rfl

theorem kind_default_branch_condition (env : SynthEnv) :
    (default_branch_condition env).get_condtype = default_condtype env := by
  unfold default_branch_condition default_condtype
  by_cases h : env.enum_params_size > 0 <;> simp [h] <;> rfl

theorem Books.kind_add_node_root (env : SynthEnv) (b : Books) (node : Node)
    (cond : Option BranchCondition) (x : Nat) :
    (b.add_node env node true cond).kind x =
      if x = node.id then some .CT_NEGLECT else b.kind x := by
  unfold Books.add_node
  simp only [if_true, Books.kind_set_cond]
  split
  · rfl
  · split
    · exact Books.kind_set_inputs _ _ _ _
    · rfl

theorem Books.kind_add_node (env : SynthEnv) (b : Books) (node : Node)
    (cond : Option BranchCondition) (x : Nat) :
    (b.add_node env node false cond).kind x =
      if x = node.id then
        some (match cond with
          | some c => c.get_condtype
          | none => default_condtype env)
      else b.kind x := by
  unfold Books.add_node
  simp only [Bool.false_eq_true, if_false, Books.kind_set_cond]
  split
  · cases cond with
    | none => simp [kind_default_branch_condition]
    | some c => rfl
  · split
    · exact Books.kind_set_inputs _ _ _ _
    · rfl

theorem Books.kind_initialize_children_cond (env : SynthEnv) (cs : List Node) (x : Nat) :
    ∀ b : Books, (b.initialize_children_cond env (default_condtype env) cs).kind x =
      if x ∈ cs.map Node.id then some (default_condtype env) else b.kind x := by
  induction cs with
  | nil => intro b; rfl
  | cons c rest ih =>
    intro b
    unfold Books.initialize_children_cond
    simp only [List.foldl_cons]
    have h := ih (if default_condtype env = .CT_ENUM
      then b.set_cond c.id (some (EnumCondition.new env))
      else b.set_cond c.id (some (NumericCondition.new env)))
    unfold Books.initialize_children_cond at h
    rw [h]
    have hk : (if default_condtype env = .CT_ENUM
        then b.set_cond c.id (some (EnumCondition.new env))
        else b.set_cond c.id (some (NumericCondition.new env))).kind x =
        if x = c.id then some (default_condtype env) else b.kind x := by
      unfold default_condtype
      by_cases h1 : env.enum_params_size > 0
      · simp only [h1, if_true, Books.kind_set_cond]
        rfl
      · simp only [h1, if_false, reduceCtorEq]
        rw [Books.kind_set_cond]
        rfl
    rw [hk]
    by_cases h1 : x = c.id
    · simp [h1]
    · simp [h1]

theorem Node.id_modifyAt {root m : Node} {q : Pos} (f : Node → Node)
    (hq : root.get? q = some m) (hid : (f m).id = m.id) : (root.modifyAt f q).id = root.id := by
  cases q with
  | nil =>
    simp only [Node.get?, Option.some.injEq] at hq
    subst hq
    rw [Node.modifyAt_nil, hid]
  | cons k rest =>
    cases root with
    | leaf i p t s e => simp [Node.get?] at hq
    | internal i p cs =>
      simp only [Node.modifyAt]
      split <;> rfl

/-- The addresses below the root after a local step that adds the addresses
`news`. -/
theorem Node.ids_list_children_modifyAt {root m : Node} {q : Pos} (f : Node → Node)
    {news : List Nat} (hq : root.get? q = some m) (hid : (f m).id = m.id)
    (hp : (f m).ids.Perm (m.ids ++ news)) :
    (Node.ids_list (root.modifyAt f q).children).Perm (Node.ids_list root.children ++ news) := by
  obtain ⟨rest, h1, h2⟩ := Node.ids_modifyAt hq
  have h3 : (root.modifyAt f q).ids.Perm (root.ids ++ news) := by
    refine (h2 f).trans ?_
    refine (List.Perm.append_left rest hp).trans ?_
    rw [← List.append_assoc]
    exact List.Perm.append_right news h1.symm
  rw [Node.ids_eq_cons, Node.ids_eq_cons root, Node.id_modifyAt f hq hid, List.cons_append] at h3
  exact h3.cons_inv

theorem ExecTree.non_root_ids_mk (r : Node) (nid : Nat) :
    ExecTree.non_root_ids { root := some r, next_id := nid } = Node.ids_list r.children := rfl

theorem Node.ids_of_tags_perm {n n2 : Node} {news : List (Nat × ExecPath)}
    (h : n2.tags.Perm (n.tags ++ news)) : n2.ids.Perm (n.ids ++ news.map Prod.fst) := by
  rw [Node.ids_eq_tags, Node.ids_eq_tags]
  simpa using h.map Prod.fst

theorem Node.id_insert_inputset (rnd : Nat) (tl : ExecPath) (inputset : List Input)
    (run_status : Int) (n : Node) : (insert_inputset rnd tl inputset run_status n).id = n.id := by
  cases n <;> rfl

theorem Node.ids_insert_inputset (rnd : Nat) (tl : ExecPath) (inputset : List Input)
    (run_status : Int) (n : Node) : (insert_inputset rnd tl inputset run_status n).ids = n.ids := by
  cases n <;> rfl

theorem Node.ids_of_leaf {m : Node} (h : m.is_internal = false) : m.ids = [m.id] := by
  cases m with
  | leaf i p t s e => rfl
  | internal i p cs => simp [Node.is_internal] at h

theorem Node.child_id_mem_ids_list {root m c : Node} {q : Pos} {k : Nat}
    (hq : root.get? q = some m) (hc : m.children[k]? = some c) :
    c.id ∈ Node.ids_list root.children := by
  have h1 : c ∈ Node.nodes_list root.children :=
    Node.child_mem_nodes_list (Node.mem_nodes_of_get hq) (List.getElem?_mem hc)
  exact List.mem_map.mpr ⟨c, h1, rfl⟩

theorem Books.kind_some_of_eq {b : Books} {x : Nat} {d : CondType} (h : b.kind x = some d) :
    (match b.cond x with
      | some c => c.get_condtype
      | none => default_condtype env) = d := by
  unfold Books.kind at h
  cases hc : b.cond x with
  | none => simp [hc] at h
  | some c => simpa [hc] using h

theorem mem_ids_list_add_child {cs : List Node} {x : Node} {i : Nat} :
    i ∈ Node.ids_list (add_child cs x) ↔ i ∈ x.ids ∨ i ∈ Node.ids_list cs := by
  rw [(ids_list_add_child_perm cs x).mem_iff, List.mem_append]

theorem ids_new_internal_perm (id : Nat) (p : ExecPath) (a b : Node) :
    (Node.internal id p (add_child (add_child [] a) b)).ids.Perm (a.ids ++ [id] ++ b.ids) := by
  have h := Node.ids_of_tags_perm
    (show (Node.internal id p (add_child (add_child [] a) b)).tags.Perm
      (a.tags ++ ([(id, ([] : ExecPath))] ++ b.tags)) by
        simpa using tags_new_internal id p a b)
  rw [List.map_append, ← Node.ids_eq_tags] at h
  simpa [List.append_assoc] using h

theorem ids_new_leaf (rnd : Nat) (tl : ExecPath) (inputset : List Input) (run_status : Int)
    (id : Nat) (p : ExecPath) :
    (insert_inputset rnd tl inputset run_status (create_leaf id p)).ids = [id] := rfl

theorem ids_add_leaf (n x : Node) (hn : n.is_internal = true) :
    (n.set_children (add_child n.children x)).ids.Perm (n.ids ++ x.ids) := by
  have h := Node.ids_of_tags_perm (tags_add_leaf n x hn)
  rwa [← Node.ids_eq_tags] at h

theorem ids_replace_child {n c : Node} {k : Nat} (hn : n.is_internal = true)
    (hk : n.children[k]? = some c) (x : Node) {news : List Nat}
    (hx : x.ids.Perm (c.ids ++ news)) :
    (n.set_children (add_child (n.children.eraseIdx k) x)).ids.Perm (n.ids ++ news) := by
  cases n with
  | leaf i p t s e => simp [Node.is_internal] at hn
  | internal i p cs =>
    simp only [Node.children_internal, Node.set_children_internal, Node.ids_internal] at hk ⊢
    rw [List.cons_append]
    refine List.Perm.cons _ ?_
    refine (ids_list_add_child_perm (cs.eraseIdx k) x).trans ?_
    have h1 := ids_list_eraseIdx_perm hk
    refine (List.Perm.append_right _ hx).trans ?_
    refine List.Perm.trans ?_ (List.Perm.append_right news h1.symm)
    rw [← Multiset.coe_eq_coe]
    simp only [← Multiset.coe_add]
    abel

theorem Books.kind_initialize_eq (env : SynthEnv) (cs : List Node) (x : Nat) (b : Books)
    (h : b.kind x = some (default_condtype env)) :
    (b.initialize_children_cond env (default_condtype env) cs).kind x =
      some (default_condtype env) := by
  rw [Books.kind_initialize_children_cond]
  split
  · rfl
  · exact h

/-- The function `insert` leaves every node below the root with a condition of the
default kind. -/
theorem insert_books_default (env : SynthEnv) (tpc : TracePC) (t : ExecTree) (b : Books)
    (epath : ExecPath) (inputset : List Input) (run_status : Int) (rnd : Nat)
    (ht : t.TagsOK (fun _ => True))
    (hK : ∀ x ∈ t.non_root_ids, b.kind x = some (default_condtype env)) :
    ∀ x ∈ (t.insert_set tpc epath inputset run_status rnd).1.non_root_ids,
      (t.insert_books env tpc b epath inputset run_status rnd).kind x =
        some (default_condtype env) := by
  unfold ExecTree.insert_set ExecTree.insert_books
  generalize tpc.tail_of epath = tl
  generalize tpc.significant epath = e
  simp only []
  cases hroot : t.root with
  | none =>
    intro x hx
    simp [ExecTree.non_root_ids, create_leaf, insert_inputset, Node.children, Node.ids_list,
      Node.nodes_list] at hx
  | some root =>
    have hr : root.TagsOK t.next_id (fun _ => True) := by
      simpa [ExecTree.TagsOK, hroot] using ht
    have hK2 : ∀ x ∈ Node.ids_list root.children, b.kind x = some (default_condtype env) := by
      simpa [ExecTree.non_root_ids, hroot] using hK
    have hlt : ∀ x ∈ root.ids, x < t.next_id := by
      intro x hx
      rw [Node.ids_eq_tags] at hx
      obtain ⟨y, hy, rfl⟩ := List.mem_map.mp hx
      exact (hr.2 y hy).1
    simp only []
    cases hf : root.find [] e with
    | mk nearest rem =>
    cases nearest with
    | none =>
      simp only []
      by_cases hpe : root.pfx = EPSILON
      · simp only [if_pos hpe]
        intro x hx
        rw [ExecTree.non_root_ids_mk] at hx
        apply Books.kind_initialize_eq
        rw [Books.kind_add_node, Books.kind_insert_inputset]
        by_cases hne : x = (insert_inputset rnd tl inputset run_status
            (create_leaf t.next_id rem)).id
        · rw [if_pos hne]
        · rw [if_neg hne]
          cases root with
          | leaf i p tt s ee => simp [Node.set_children, Node.children, Node.ids_list,
              Node.nodes_list] at hx
          | internal i p cs =>
            simp only [Node.children_internal, Node.set_children_internal] at hx
            rcases mem_ids_list_add_child.mp hx with h1 | h1
            · rw [ids_new_leaf, List.mem_singleton] at h1
              exact absurd h1 (by simpa [Node.id_insert_inputset, create_leaf] using hne)
            · exact hK2 x h1
      · simp only [if_neg hpe]
        intro x hx
        rw [ExecTree.non_root_ids_mk] at hx
        apply Books.kind_initialize_eq
        simp only [create_internal, Node.children_internal, Node.set_children_internal] at hx
        rw [Books.kind_add_node, Books.kind_insert_inputset, Books.kind_add_node_root,
          Books.kind_add_node, Books.kind_pull_node]
        simp only [Node.id_insert_inputset, create_leaf, Node.id_leaf,
          create_internal, Node.set_children_internal, Node.id_internal, Node.id_set_pfx,
          Node.children_internal]
        rcases mem_ids_list_add_child.mp hx with h1 | h1
        · rw [ids_new_leaf, List.mem_singleton] at h1
          rw [if_pos h1]
        · have h2 : x ∈ root.ids := by
            rcases mem_ids_list_add_child.mp h1 with h3 | h3
            · rwa [ids_set_pfx] at h3
            · simp [Node.ids_list, Node.nodes_list] at h3
          have h3 := hlt x h2
          have hx1 : x ≠ t.next_id + 1 := by omega
          have hx2 : x ≠ t.next_id := by omega
          rw [if_neg hx1, if_neg hx2]
          by_cases hne : x = root.id
          · rw [if_pos hne]
          · rw [if_neg hne]
            rw [Node.ids_eq_cons, List.mem_cons] at h2
            rcases h2 with h2 | h2
            · exact absurd h2 hne
            · exact hK2 x h2
    | some nearest =>
      simp only []
      cases hq : root.get? nearest with
      | none =>
        simp only []
        intro x hx
        rw [ExecTree.non_root_ids, hroot] at hx
        exact hK2 x hx
      | some m =>
        simp only []
        have hd : ∀ x, x ∈ Node.ids_list root.children → x ≠ t.next_id ∧ x ≠ t.next_id + 1 := by
          intro x hx
          have := hlt x (by rw [Node.ids_eq_cons]; exact List.mem_cons_of_mem _ hx)
          omega
        have add_leaf : ∀ p : ExecPath, m.is_internal = true →
            ∀ x ∈ Node.ids_list (root.modifyAt (fun n => n.set_children (add_child n.children
                (insert_inputset rnd tl inputset run_status (create_leaf t.next_id p))))
                nearest).children,
              ((b.insert_inputset rnd (create_leaf t.next_id p) inputset).add_node env
                (insert_inputset rnd tl inputset run_status (create_leaf t.next_id p))
                false none).kind x = some (default_condtype env) := by
          intro p hi x hx
          have hp := Node.ids_list_children_modifyAt
            (fun n => n.set_children (add_child n.children
              (insert_inputset rnd tl inputset run_status (create_leaf t.next_id p))))
            hq (by simp) (ids_add_leaf m _ hi)
          have hx2 := List.mem_append.mp (hp.mem_iff.mp hx)
          rw [Books.kind_add_node, Books.kind_insert_inputset]
          by_cases hne : x = (insert_inputset rnd tl inputset run_status
              (create_leaf t.next_id p)).id
          · rw [if_pos hne]
          · rw [if_neg hne]
            rcases hx2 with h1 | h1
            · exact hK2 x h1
            · rw [ids_new_leaf, List.mem_singleton] at h1
              exact absurd h1 (by simpa [Node.id_insert_inputset, create_leaf] using hne)
        by_cases hrem : rem.length = 0
        · simp only [if_pos hrem]
          by_cases hi : m.is_internal = true
          · simp only [if_pos hi]
            intro x hx
            rw [ExecTree.non_root_ids_mk] at hx
            exact add_leaf EPSILON hi x hx
          · simp only [if_neg hi]
            intro x hx
            rw [ExecTree.non_root_ids_mk] at hx
            have hp : (Node.ids_list (root.modifyAt
                (insert_inputset rnd tl inputset run_status) nearest).children).Perm
                (Node.ids_list root.children ++ []) :=
              Node.ids_list_children_modifyAt
                (insert_inputset rnd tl inputset run_status) hq
                (Node.id_insert_inputset _ _ _ _ _)
                (by rw [Node.ids_insert_inputset]; simp)
            rw [Books.kind_insert_inputset]
            exact hK2 x (by simpa using hp.mem_iff.mp hx)
        · simp only [if_neg hrem]
          by_cases hi : m.is_internal = true
          · simp only [if_pos hi]
            cases hl : lookup_child m.children (front rem) with
            | none =>
              simp only []
              intro x hx
              rw [ExecTree.non_root_ids_mk] at hx
              exact add_leaf rem hi x hx
            | some k =>
              simp only []
              cases hc : m.children[k]? with
              | none =>
                simp only []
                intro x hx
                rw [ExecTree.non_root_ids, hroot] at hx
                exact hK2 x hx
              | some c =>
                simp only [create_internal, Node.children_internal,
                  Node.set_children_internal]
                intro x hx
                rw [ExecTree.non_root_ids_mk] at hx
                have hX := ids_new_internal_perm t.next_id
                  (subvec_len c.pfx 0 (common_prefix_length c.pfx rem))
                  (c.set_pfx (subvec c.pfx (common_prefix_length c.pfx rem)))
                  (insert_inputset rnd tl inputset run_status
                    (create_leaf (t.next_id + 1)
                      (if rem.length = common_prefix_length c.pfx rem then EPSILON
                       else subvec rem (common_prefix_length c.pfx rem))))
                rw [ids_set_pfx, ids_new_leaf, List.append_assoc] at hX
                have hp := Node.ids_list_children_modifyAt
                  (fun n => n.set_children (add_child (m.children.eraseIdx k)
                    (Node.internal t.next_id
                      (subvec_len c.pfx 0 (common_prefix_length c.pfx rem))
                      (add_child (add_child []
                        (c.set_pfx (subvec c.pfx (common_prefix_length c.pfx rem))))
                        (insert_inputset rnd tl inputset run_status
                          (create_leaf (t.next_id + 1)
                            (if rem.length = common_prefix_length c.pfx rem then EPSILON
                             else subvec rem (common_prefix_length c.pfx rem))))))))
                  hq (by simp) (ids_replace_child hi hc _ hX)
                have hx2 := List.mem_append.mp (hp.mem_iff.mp hx)
                have hcK := hK2 c.id (Node.child_id_mem_ids_list hq hc)
                rw [Books.kind_add_node, Books.kind_insert_inputset, Books.kind_add_node,
                  Books.kind_add_node, Books.kind_pull_node]
                simp only [Node.id_insert_inputset, create_leaf, Node.id_leaf, Node.id_internal,
                  Node.id_set_pfx]
                by_cases h1 : x = t.next_id + 1
                · rw [if_pos h1]
                · rw [if_neg h1]
                  by_cases h2 : x = t.next_id
                  · rw [if_pos h2, Books.kind_some_of_eq hcK]
                  · rw [if_neg h2]
                    by_cases h3 : x = c.id
                    · rw [if_pos h3]
                    · rw [if_neg h3]
                      rcases hx2 with h4 | h4
                      · exact hK2 x h4
                      · have h5 : x = t.next_id ∨ x = t.next_id + 1 := by simpa using h4
                        omega
          · simp only [if_neg hi]
            simp only [create_internal, Node.children_internal, Node.set_children_internal]
            have hi2 : m.is_internal = false := by simpa using hi
            have hX := ids_new_internal_perm t.next_id m.pfx (m.set_pfx EPSILON)
              (insert_inputset rnd tl inputset run_status (create_leaf (t.next_id + 1) rem))
            rw [ids_set_pfx, ids_new_leaf, List.append_assoc] at hX
            rcases List.eq_nil_or_concat nearest with h0 | ⟨q0, idx, h0⟩
            · subst h0
              simp only [List.getLast?_nil, Option.isNone_none]
              simp [Node.get?] at hq
              subst hq
              intro x hx
              rw [ExecTree.non_root_ids_mk, Node.children_internal] at hx
              rw [Books.kind_add_node_root, Books.kind_add_node, Books.kind_insert_inputset,
                Books.kind_add_node, Books.kind_pull_node]
              simp only [Node.id_insert_inputset, create_leaf, Node.id_leaf, Node.id_internal,
                Node.id_set_pfx]
              have hx3 : x = root.id ∨ x = t.next_id + 1 := by
                rcases mem_ids_list_add_child.mp hx with h1 | h1
                · rw [ids_new_leaf, List.mem_singleton] at h1
                  exact Or.inr h1
                · rcases mem_ids_list_add_child.mp h1 with h3 | h3
                  · rw [ids_set_pfx, Node.ids_of_leaf hi2, List.mem_singleton] at h3
                    exact Or.inl h3
                  · simp [Node.ids_list, Node.nodes_list] at h3
              have hrl := hlt root.id root.id_mem_ids
              rcases hx3 with h1 | h1
              · have e1 : x ≠ t.next_id := by omega
                have e2 : x ≠ t.next_id + 1 := by omega
                rw [if_neg e1, if_neg e2, if_pos h1]
              · have e1 : x ≠ t.next_id := by omega
                rw [if_neg e1, if_pos h1]
            · rw [List.concat_eq_append] at h0
              subst h0
              simp only [getLast?_snoc, dropLast_snoc, Option.isNone_some]
              obtain ⟨parent, hp1, hp2⟩ := Node.get?_snoc_inv hq
              simp only [hp1]
              intro x hx
              rw [ExecTree.non_root_ids_mk] at hx
              have hp := Node.ids_list_children_modifyAt
                (fun n => n.set_children (add_child (parent.children.eraseIdx idx)
                  (Node.internal t.next_id m.pfx
                    (add_child (add_child [] (m.set_pfx EPSILON))
                      (insert_inputset rnd tl inputset run_status
                        (create_leaf (t.next_id + 1) rem))))))
                hp1 (by simp) (ids_replace_child (Node.is_internal_of_child hp2) hp2 _ hX)
              have hx2 := List.mem_append.mp (hp.mem_iff.mp hx)
              have hcK := hK2 m.id (Node.child_id_mem_ids_list hp1 hp2)
              rw [Books.kind_add_node, Books.kind_add_node, Books.kind_insert_inputset,
                Books.kind_add_node, Books.kind_pull_node]
              simp only [Node.id_insert_inputset, create_leaf, Node.id_leaf, Node.id_internal,
                Node.id_set_pfx]
              by_cases h2 : x = t.next_id
              · rw [if_pos h2, Books.kind_some_of_eq hcK]
              · rw [if_neg h2]
                by_cases h1 : x = t.next_id + 1
                · rw [if_pos h1]
                · rw [if_neg h1]
                  by_cases h3 : x = m.id
                  · rw [if_pos h3]
                  · rw [if_neg h3]
                    rcases hx2 with h4 | h4
                    · exact hK2 x h4
                    · have h5 : x = t.next_id ∨ x = t.next_id + 1 := by simpa using h4
                      omega

theorem BookedTree.tree_foldl_insert (env : SynthEnv) (tpc : TracePC) (calls : List InsertCall) :
    ∀ bt : BookedTree, (calls.foldl (BookedTree.insert env tpc) bt).tree =
      calls.foldl (fun t c => (t.insert tpc c.epath c.input c.run_status c.rnd).1) bt.tree := by
  induction calls with
  | nil => intro bt; rfl
  | cons c rest ih =>
    intro bt
    simp only [List.foldl_cons]
    rw [ih]
    rfl

theorem BookedTree.tree_insert_calls (env : SynthEnv) (tpc : TracePC) (calls : List InsertCall) :
    (BookedTree.insert_calls env tpc calls).tree = ExecTree.insert_calls tpc calls :=
  BookedTree.tree_foldl_insert env tpc calls BookedTree.empty

theorem BookedTree.insert_calls_snoc (env : SynthEnv) (tpc : TracePC) (calls : List InsertCall)
    (c : InsertCall) :
    BookedTree.insert_calls env tpc (calls ++ [c]) =
      (BookedTree.insert_calls env tpc calls).insert env tpc c := by
  simp [BookedTree.insert_calls, List.foldl_append]

theorem BookedTree.insert_calls_tagged (env : SynthEnv) (tpc : TracePC) (calls : List InsertCall) :
    (BookedTree.insert_calls env tpc calls).tree.TagsOK (fun _ => True) := by
  rw [BookedTree.tree_insert_calls]
  exact ExecTree.insert_calls_tags tpc calls _ trivial (fun _ _ => trivial)

theorem BookedTree.insert_calls_default (env : SynthEnv) (tpc : TracePC)
    (calls : List InsertCall) : (BookedTree.insert_calls env tpc calls).AllDefault env := by
  induction calls using List.reverseRecOn with
  | nil =>
    intro x hx
    simp [BookedTree.insert_calls, BookedTree.empty, ExecTree.empty, ExecTree.non_root_ids] at hx
  | append_singleton calls c ih =>
    rw [BookedTree.insert_calls_snoc]
    exact insert_books_default env tpc _ _ c.epath [c.input] c.run_status c.rnd
      (BookedTree.insert_calls_tagged env tpc calls) ih

theorem BookedTree.AllDefault.same_kind {env : SynthEnv} {bt : BookedTree}
    (h : bt.AllDefault env) : bt.SiblingsSameKind := by
  intro n hn c1 hc1 c2 hc2
  unfold ExecTree.all_nodes at hn
  unfold BookedTree.AllDefault ExecTree.non_root_ids at h
  cases hr : bt.tree.root with
  | none => simp [hr] at hn
  | some root =>
    simp only [hr] at hn h
    have m1 : c1.id ∈ Node.ids_list root.children :=
      List.mem_map.mpr ⟨c1, Node.child_mem_nodes_list hn hc1, rfl⟩
    have m2 : c2.id ∈ Node.ids_list root.children :=
      List.mem_map.mpr ⟨c2, Node.child_mem_nodes_list hn hc2, rfl⟩
    rw [h _ m1, h _ m2]

/-- With distinct addresses a node has one parent. -/
theorem Node.parent_unique {root n P c a : Node} (hnd : root.ids.Nodup)
    (hn : n ∈ root.nodes) (hP : P ∈ root.nodes) (hc : c ∈ n.children) (ha : a ∈ P.children)
    (hid : c.id = a.id) : n = P := by
  obtain ⟨q1, h1⟩ := Node.exists_get_of_mem_nodes root hn
  obtain ⟨q2, h2⟩ := Node.exists_get_of_mem_nodes root hP
  obtain ⟨k1, hk1⟩ := List.getElem?_of_mem hc
  obtain ⟨k2, hk2⟩ := List.getElem?_of_mem ha
  have g1 : root.get? (q1 ++ [k1]) = some c := by rw [Node.get?_snoc h1, hk1]
  have g2 : root.get? (q2 ++ [k2]) = some a := by rw [Node.get?_snoc h2, hk2]
  have hq := Node.pos_unique _ _ hnd g1 g2 hid
  have hq2 : q1 = q2 := by
    have := congrArg List.dropLast hq
    simpa using this
  subst hq2
  rw [h1] at h2
  exact Option.some.inj h2

theorem Node.get_sibling_spec {root a s : Node} {pos : Pos} (ha : root.get? pos = some a)
    (hs : root.get_sibling pos = some s) :
    ∃ P, P ∈ root.nodes ∧ a ∈ P.children ∧ s ∈ P.children ∧
      ∀ c ∈ P.children, c = a ∨ c = s := by
  unfold Node.get_sibling at hs
  rcases List.eq_nil_or_concat pos with h0 | ⟨q0, k, h0⟩
  · subst h0
    simp at hs
  · rw [List.concat_eq_append] at h0
    subst h0
    simp only [getLast?_snoc, dropLast_snoc] at hs
    obtain ⟨P, hp1, hp2⟩ := Node.get?_snoc_inv ha
    simp only [hp1] at hs
    by_cases hl : P.children.length ≠ 2
    · simp [hl] at hs
    · simp only [hl, if_false] at hs
      have hl2 : P.children.length = 2 := by simpa using hl
      obtain ⟨u, v, huv⟩ : ∃ u v, P.children = [u, v] := by
        match hcs : P.children, hl2 with
        | [u, v], _ => exact ⟨u, v, rfl⟩
      refine ⟨P, Node.mem_nodes_of_get hp1, List.getElem?_mem hp2, ?_, ?_⟩
      · by_cases hk : k = 0
        · rw [if_pos hk] at hs
          exact List.getElem?_mem hs
        · rw [if_neg hk] at hs
          exact List.getElem?_mem hs
      · rw [huv] at hp2 hs ⊢
        intro c hc
        simp only [List.mem_cons, List.mem_singleton, List.not_mem_nil, or_false] at hc
        by_cases hk : k = 0
        · subst hk
          simp at hp2 hs
          rcases hc with rfl | rfl
          · exact Or.inl hp2
          · exact Or.inr hs
        · rw [if_neg hk] at hs
          simp at hs
          have hk1 : k = 1 := by
            rcases k with _ | _ | k
            · exact absurd rfl hk
            · rfl
            · simp at hp2
          subst hk1
          simp at hp2
          rcases hc with rfl | rfl
          · exact Or.inr hs
          · exact Or.inl hp2

theorem promoted_cond_kind (env : SynthEnv) (cond : BranchCondition) :
    (if cond.get_condtype = .CT_ENUM then NumericCondition.new env
      else if cond.get_condtype = .CT_NUMERIC then NeglectCondition.new env
      else cond).get_condtype = cond.get_condtype.promoted := by
  cases h : cond.get_condtype with
  | CT_ENUM => simp [CondType.promoted]; rfl
  | CT_NUMERIC => simp [CondType.promoted]; rfl
  | CT_NEGLECT => simp [CondType.promoted, h]

/-- The kinds of the node and of its sibling after `promote_cond`; the kinds of all
other nodes stay. -/
theorem Books.promote_cond_kind (env : SynthEnv) (t : ExecTree) (b : Books) (pos : Pos)
    {root node sibling : Node} {cond : BranchCondition} (hr : t.root = some root)
    (hn : root.get? pos = some node) (hs : root.get_sibling pos = some sibling)
    (hc : b.cond node.id = some cond) (x : Nat) :
    (b.promote_cond env t pos).kind x =
      if x = sibling.id ∨ x = node.id then some cond.get_condtype.promoted else b.kind x := by
  unfold Books.promote_cond
  simp only [hr, hn, hc, hs]
  rw [Books.kind_set_cond, Books.kind_set_cond]
  simp only [Option.map_some', promoted_cond_kind]
  by_cases h1 : x = sibling.id
  · simp [h1]
  · by_cases h2 : x = node.id
    · simp [h2]
    · simp [h1, h2]

theorem BookedTree.promote_cond_same_kind (env : SynthEnv) (bt : BookedTree) (pos : Pos)
    (hnd : ∀ root, bt.tree.root = some root → root.ids.Nodup) (hS : bt.SiblingsSameKind)
    (hp : bt.tree.has_one_sibling pos = true) : (bt.promote_cond env pos).SiblingsSameKind := by
  unfold ExecTree.has_one_sibling at hp
  cases hr : bt.tree.root with
  | none => simp [hr] at hp
  | some root =>
    simp only [hr, Bool.and_eq_true, Option.isSome_iff_exists] at hp
    obtain ⟨⟨a, ha⟩, ⟨s, hs⟩⟩ := hp
    cases hc : bt.books.cond a.id with
    | none =>
      have : bt.promote_cond env pos = bt := by
        unfold BookedTree.promote_cond Books.promote_cond
        simp [hr, ha, hc]
      rw [this]
      exact hS
    | some cond =>
      obtain ⟨P, hP, haP, hsP, hall⟩ := Node.get_sibling_spec ha hs
      intro n hn c1 hc1 c2 hc2
      have hn2 : n ∈ root.nodes := by
        simpa [BookedTree.promote_cond, ExecTree.all_nodes, hr] using hn
      show (bt.books.promote_cond env bt.tree pos).kind c1.id =
        (bt.books.promote_cond env bt.tree pos).kind c2.id
      rw [Books.promote_cond_kind env bt.tree bt.books pos hr ha hs hc,
        Books.promote_cond_kind env bt.tree bt.books pos hr ha hs hc]
      have key : ∀ c ∈ n.children, (c.id = s.id ∨ c.id = a.id) → n = P := by
        intro c hc h
        rcases h with h | h
        · exact Node.parent_unique (hnd root hr) hn2 hP hc hsP h
        · exact Node.parent_unique (hnd root hr) hn2 hP hc haP h
      have inP : ∀ c ∈ P.children, c.id = s.id ∨ c.id = a.id := by
        intro c hc
        rcases hall c hc with rfl | rfl
        · exact Or.inr rfl
        · exact Or.inl rfl
      by_cases h1 : c1.id = s.id ∨ c1.id = a.id
      · have hnP := key c1 hc1 h1
        subst hnP
        rw [if_pos h1, if_pos (inP c2 hc2)]
      · by_cases h2 : c2.id = s.id ∨ c2.id = a.id
        · have hnP := key c2 hc2 h2
          subst hnP
          exact absurd (inP c1 hc1) h1
        · rw [if_neg h1, if_neg h2]
          exact hS n (by simpa [ExecTree.all_nodes, hr] using hn2) c1 hc1 c2 hc2

theorem BookedTree.promotions_same_kind (env : SynthEnv) (ps : List Pos) :
    ∀ bt : BookedTree, (∀ root, bt.tree.root = some root → root.ids.Nodup) →
      bt.SiblingsSameKind → (∀ p ∈ ps, bt.tree.has_one_sibling p = true) →
      (ps.foldl (BookedTree.promote_cond env) bt).SiblingsSameKind ∧
      (ps.foldl (BookedTree.promote_cond env) bt).tree = bt.tree := by
  induction ps with
  | nil => intro bt _ hS _; exact ⟨hS, rfl⟩
  | cons p rest ih =>
    intro bt hnd hS hps
    simp only [List.foldl_cons]
    have h1 := BookedTree.promote_cond_same_kind env bt p hnd hS (hps p (List.mem_cons_self _ _))
    have h2 := ih (bt.promote_cond env p) hnd h1
      (fun q hq => hps q (List.mem_cons_of_mem _ hq))
    exact ⟨h2.1, h2.2⟩


/-! ## The order of inputs and the input sets of leaves -/

/-- The order of two entries of an argument map. -/
theorem entry_lt_irrefl (x : String × Int) : ¬ (x.1 < x.1 ∨ (x.1 = x.1 ∧ x.2 < x.2)) := by
  rintro (h | ⟨_, h⟩)
  · exact lt_irrefl _ h
  · exact lt_irrefl _ h

theorem entry_lt_trans {x y z : String × Int}
    (h1 : x.1 < y.1 ∨ (x.1 = y.1 ∧ x.2 < y.2)) (h2 : y.1 < z.1 ∨ (y.1 = z.1 ∧ y.2 < z.2)) :
    x.1 < z.1 ∨ (x.1 = z.1 ∧ x.2 < z.2) := by
  rcases h1 with h1 | ⟨e1, h1⟩
  · rcases h2 with h2 | ⟨e2, h2⟩
    · exact Or.inl (lt_trans h1 h2)
    · exact Or.inl (e2 ▸ h1)
  · rcases h2 with h2 | ⟨e2, h2⟩
    · exact Or.inl (e1 ▸ h2)
    · exact Or.inr ⟨e1.trans e2, lt_trans h1 h2⟩

theorem entry_eq_of_not_lt {x y : String × Int}
    (h1 : ¬ (x.1 < y.1 ∨ (x.1 = y.1 ∧ x.2 < y.2)))
    (h2 : ¬ (y.1 < x.1 ∨ (y.1 = x.1 ∧ y.2 < x.2))) : x = y := by
  have e1 : x.1 = y.1 := by
    rcases lt_trichotomy x.1 y.1 with h | h | h
    · exact absurd (Or.inl h) h1
    · exact h
    · exact absurd (Or.inl h) h2
  have e2 : x.2 = y.2 := by
    rcases lt_trichotomy x.2 y.2 with h | h | h
    · exact absurd (Or.inr ⟨e1, h⟩) h1
    · exact h
    · exact absurd (Or.inr ⟨e1.symm, h⟩) h2
  exact Prod.ext e1 e2

theorem Args.lt_cons (x y : String × Int) (r1 r2 : Args) :
    Args.lt (x :: r1) (y :: r2) =
      if x.1 < y.1 ∨ (x.1 = y.1 ∧ x.2 < y.2) then true
      else if y.1 < x.1 ∨ (y.1 = x.1 ∧ y.2 < x.2) then false
      else Args.lt r1 r2 := by
  obtain ⟨k1, v1⟩ := x
  obtain ⟨k2, v2⟩ := y
  rfl

theorem Args.lt_self : ∀ a : Args, Args.lt a a = false
  | [] => rfl
  | x :: r => by
    rw [Args.lt_cons, if_neg (entry_lt_irrefl x), if_neg (entry_lt_irrefl x)]
    exact Args.lt_self r

theorem Args.eq_of_lt_false : ∀ a b : Args, Args.lt a b = false → Args.lt b a = false → a = b
  | [], [], _, _ => rfl
  | [], _ :: _, h, _ => by simp [Args.lt] at h
  | _ :: _, [], _, h => by simp [Args.lt] at h
  | x :: r1, y :: r2, h1, h2 => by
    rw [Args.lt_cons] at h1 h2
    by_cases p1 : x.1 < y.1 ∨ (x.1 = y.1 ∧ x.2 < y.2)
    · rw [if_pos p1] at h1
      exact Bool.noConfusion h1
    · by_cases p2 : y.1 < x.1 ∨ (y.1 = x.1 ∧ y.2 < x.2)
      · rw [if_pos p2] at h2
        exact Bool.noConfusion h2
      · rw [if_neg p1, if_neg p2] at h1
        rw [if_neg p2, if_neg p1] at h2
        rw [entry_eq_of_not_lt p1 p2, Args.eq_of_lt_false r1 r2 h1 h2]

theorem Args.lt_chain : ∀ a b c : Args, Args.lt a b = true → Args.lt b c = true →
    Args.lt a c = true
  | [], _, [], _, h => by cases ‹Args› <;> simp [Args.lt] at h
  | [], _, _ :: _, _, _ => rfl
  | _ :: _, [], _, h, _ => by simp [Args.lt] at h
  | _ :: _, _ :: _, [], _, h => by simp [Args.lt] at h
  | x :: r1, y :: r2, z :: r3, h1, h2 => by
    rw [Args.lt_cons] at h1 h2 ⊢
    by_cases p1 : x.1 < y.1 ∨ (x.1 = y.1 ∧ x.2 < y.2)
    · by_cases q1 : y.1 < z.1 ∨ (y.1 = z.1 ∧ y.2 < z.2)
      · rw [if_pos (entry_lt_trans p1 q1)]
      · by_cases q2 : z.1 < y.1 ∨ (z.1 = y.1 ∧ z.2 < y.2)
        · rw [if_neg q1, if_pos q2] at h2
          exact Bool.noConfusion h2
        · have e := entry_eq_of_not_lt q1 q2
          rw [← e, if_pos p1]
    · by_cases p2 : y.1 < x.1 ∨ (y.1 = x.1 ∧ y.2 < x.2)
      · rw [if_neg p1, if_pos p2] at h1
        exact Bool.noConfusion h1
      · have e := entry_eq_of_not_lt p1 p2
        rw [if_neg p1, if_neg p2] at h1
        rw [← e] at h2
        by_cases q1 : x.1 < z.1 ∨ (x.1 = z.1 ∧ x.2 < z.2)
        · rw [if_pos q1]
        · by_cases q2 : z.1 < x.1 ∨ (z.1 = x.1 ∧ z.2 < x.2)
          · rw [if_neg q1, if_pos q2] at h2
            exact Bool.noConfusion h2
          · rw [if_neg q1, if_neg q2] at h2 ⊢
            exact Args.lt_chain r1 r2 r3 h1 h2

theorem Input.lt_irrefl (a : Input) : Input.lt a a = false := by
  simp [Input.lt, Args.lt_self]

theorem Input.eq_of_not_lt {a b : Input} (h1 : Input.lt a b = false)
    (h2 : Input.lt b a = false) : a = b := by
  unfold Input.lt at h1 h2
  cases e1 : Args.lt a.enum_args b.enum_args
  · cases e2 : Args.lt b.enum_args a.enum_args
    · simp only [e1, e2, Bool.false_eq_true, if_false] at h1 h2
      obtain ⟨ae, an⟩ := a
      obtain ⟨be, bn⟩ := b
      simp only at e1 e2 h1 h2
      rw [Args.eq_of_lt_false ae be e1 e2, Args.eq_of_lt_false an bn h1 h2]
    · simp [e1, e2] at h2
  · simp [e1] at h1

theorem Input.lt_trans {a b c : Input} (h1 : Input.lt a b = true) (h2 : Input.lt b c = true) :
    Input.lt a c = true := by
  unfold Input.lt at h1 h2 ⊢
  cases e1 : Args.lt a.enum_args b.enum_args
  · cases e1' : Args.lt b.enum_args a.enum_args
    · have eab := Args.eq_of_lt_false _ _ e1 e1'
      simp only [e1, e1', Bool.false_eq_true, if_false] at h1
      rw [eab]
      cases e2 : Args.lt b.enum_args c.enum_args
      · cases e2' : Args.lt c.enum_args b.enum_args
        · simp only [e2, e2', Bool.false_eq_true, if_false] at h2 ⊢
          exact Args.lt_chain _ _ _ h1 h2
        · simp [e2, e2'] at h2
      · simp
    · simp [e1, e1'] at h1
  · cases e2 : Args.lt b.enum_args c.enum_args
    · cases e2' : Args.lt c.enum_args b.enum_args
      · have ebc := Args.eq_of_lt_false _ _ e2 e2'
        rw [← ebc, e1]
        simp
      · simp [e2, e2'] at h2
    · rw [Args.lt_chain _ _ _ e1 e2]
      simp

theorem mem_set_insert {x i : Input} : ∀ {s : List Input}, i ∈ set_insert s x ↔ i = x ∨ i ∈ s
  | [] => by simp [set_insert]
  | y :: ys => by
    unfold set_insert
    by_cases h1 : Input.lt x y = true
    · rw [if_pos h1]
      simp
    · rw [if_neg h1]
      by_cases h2 : Input.lt y x = true
      · rw [if_pos h2]
        simp only [List.mem_cons, @mem_set_insert x i ys]
        tauto
      · rw [if_neg h2]
        have e : x = y := Input.eq_of_not_lt (by simpa using h1) (by simpa using h2)
        subst e
        simp

theorem InputsSorted.after_insert {x : Input} : ∀ {s : List Input}, InputsSorted s →
    InputsSorted (set_insert s x)
  | [], _ => by simp [set_insert, InputsSorted]
  | y :: ys, h => by
    unfold set_insert
    unfold InputsSorted at h ⊢
    by_cases h1 : Input.lt x y = true
    · rw [if_pos h1]
      refine List.Pairwise.cons ?_ h
      intro a ha
      rcases List.mem_cons.mp ha with rfl | ha
      · exact h1
      · exact Input.lt_trans h1 ((List.pairwise_cons.mp h).1 a ha)
    · rw [if_neg h1]
      by_cases h2 : Input.lt y x = true
      · rw [if_pos h2]
        refine List.Pairwise.cons ?_ (InputsSorted.after_insert (List.pairwise_cons.mp h).2)
        intro a ha
        rcases mem_set_insert.mp ha with rfl | ha
        · exact h2
        · exact (List.pairwise_cons.mp h).1 a ha
      · rw [if_neg h2]
        exact h

theorem InputsSorted.nodup {s : List Input} (h : InputsSorted s) : s.Nodup := by
  unfold InputsSorted at h
  refine List.Pairwise.imp ?_ h
  intro a b hab e
  subst e
  rw [Input.lt_irrefl] at hab
  exact Bool.noConfusion hab

theorem InputsSorted.after_evict {s : List Input} (h : InputsSorted s) (rnd : Nat) :
    InputsSorted (evict_random rnd s) :=
  List.Pairwise.sublist (List.eraseIdx_sublist _ _) h

theorem mem_eraseIdx_of_nodup {s : List Input} (h : s.Nodup) {k : Nat} {a : Input}
    (hk : s[k]? = some a) (i : Input) : i ∈ s.eraseIdx k ↔ i ∈ s ∧ i ≠ a := by
  induction s generalizing k with
  | nil => simp at hk
  | cons y ys ih =>
    cases k with
    | zero =>
      simp only [List.getElem?_cons_zero, Option.some.injEq] at hk
      subst hk
      simp only [List.eraseIdx_cons_zero, List.mem_cons]
      have hy := (List.nodup_cons.mp h).1
      constructor
      · intro hi
        exact ⟨Or.inr hi, fun e => hy (e ▸ hi)⟩
      · rintro ⟨h1 | h1, h2⟩
        · exact absurd h1 h2
        · exact h1
    | succ k =>
      simp only [List.getElem?_cons_succ] at hk
      simp only [List.eraseIdx_cons_succ, List.mem_cons, ih (List.nodup_cons.mp h).2 hk]
      have hy := (List.nodup_cons.mp h).1
      have ha : a ∈ ys := List.getElem?_mem hk
      constructor
      · rintro (h1 | h1)
        · exact ⟨Or.inl h1, fun e => hy (by rw [← h1, e]; exact ha)⟩
        · exact ⟨Or.inr h1.1, h1.2⟩
      · rintro ⟨h1 | h1, h2⟩
        · exact Or.inl h1
        · exact Or.inr ⟨h1, h2⟩

/-! ## The leaves of a tree with their paths -/

theorem under_nil (x : ExecPath × Nat × List Input) : under [] x = x := rfl

theorem under_under (a b : ExecPath) (x : ExecPath × Nat × List Input) :
    under a (under b x) = under (a ++ b) x := by
  simp [under]

theorem map_under_nil (l : List (ExecPath × Nat × List Input)) : l.map (under []) = l := by
  induction l with
  | nil => rfl
  | cons x xs ih => simp [under_nil, ih]

theorem map_under_under (a b : ExecPath) (l : List (ExecPath × Nat × List Input)) :
    (l.map (under b)).map (under a) = l.map (under (a ++ b)) := by
  simp [List.map_map, Function.comp_def, under_under]

theorem Node.entries_list_append (a b : List Node) :
    Node.entries_list (a ++ b) = Node.entries_list a ++ Node.entries_list b := by
  induction a with
  | nil => rfl
  | cons c cs ih => simp [Node.entries_list, ih]

theorem Node.entries_eq (n : Node) : n.entries = n.erests.map (under (squeeze n.pfx)) := by
  cases n <;> simp [Node.entries, Node.erests, Node.pfx, under]

theorem Node.erests_set_pfx (p : ExecPath) (n : Node) : (n.set_pfx p).erests = n.erests := by
  cases n <;> rfl

theorem Node.entries_set_pfx (p : ExecPath) (n : Node) :
    (n.set_pfx p).entries = n.erests.map (under (squeeze p)) := by
  rw [Node.entries_eq, Node.erests_set_pfx, Node.pfx_set_pfx]

theorem Node.entries_internal (i : Nat) (p : ExecPath) (cs : List Node) :
    (Node.internal i p cs).entries = (Node.entries_list cs).map (under (squeeze p)) := by
  simp [Node.entries]

theorem entries_list_add_child_perm (cs : List Node) (x : Node) :
    (Node.entries_list (add_child cs x)).Perm (x.entries ++ Node.entries_list cs) := by
  rw [add_child_eq]
  conv_rhs => rw [← List.take_append_drop (add_child_idx cs x) cs]
  simp only [Node.entries_list_append, Node.entries_list]
  exact perm_append_swap _ _ _

theorem entries_list_eraseIdx_perm {cs : List Node} {k : Nat} {c : Node} (h : cs[k]? = some c) :
    (Node.entries_list cs).Perm (c.entries ++ Node.entries_list (cs.eraseIdx k)) := by
  rw [List.eraseIdx_eq_take_drop_succ]
  conv_lhs => rw [split_at_index h]
  simp only [Node.entries_list_append, Node.entries_list]
  exact perm_append_swap _ _ _

mutual
theorem Node.entries_fst : ∀ n : Node, n.entries.map Prod.fst = n.denote
  | .leaf i p t s e => by simp [Node.entries, Node.denote]
  | .internal i p cs => by
    simp only [Node.entries, Node.denote, List.map_map]
    rw [← Node.entries_list_fst cs, List.map_map]
    rfl
theorem Node.entries_list_fst : ∀ cs : List Node,
    (Node.entries_list cs).map Prod.fst = Node.denote_list cs
  | [] => rfl
  | c :: cs => by
    simp only [Node.entries_list, Node.denote_list, List.map_append]
    rw [Node.entries_fst c, Node.entries_list_fst cs]
end

mutual
theorem Node.entries_snd : ∀ n : Node, n.entries.map Prod.snd =
    (n.nodes.filter Node.is_leaf).map (fun l => (l.id, ExecTree.leaf_inputset l))
  | .leaf i p t s e => by
    simp [Node.entries, Node.nodes, Node.is_leaf, Node.id, ExecTree.leaf_inputset]
  | .internal i p cs => by
    simp only [Node.entries, Node.nodes, List.map_map]
    rw [List.filter_cons_of_neg (by simp [Node.is_leaf]), ← Node.entries_list_snd cs]
    rfl
theorem Node.entries_list_snd : ∀ cs : List Node, (Node.entries_list cs).map Prod.snd =
    ((Node.nodes_list cs).filter Node.is_leaf).map (fun l => (l.id, ExecTree.leaf_inputset l))
  | [] => rfl
  | c :: cs => by
    simp only [Node.entries_list, Node.nodes_list, List.map_append, List.filter_append]
    rw [Node.entries_snd c, Node.entries_list_snd cs]
end

/-- Replacing the subtree at a position changes the leaves only inside it. -/
theorem Node.entries_modifyAt : ∀ (q : Pos) {n m : Node}, n.get? q = some m →
    ∃ rest : List (ExecPath × Nat × List Input),
      n.entries.Perm (rest ++ m.entries.map (under (n.path_to q))) ∧
      ∀ f : Node → Node,
        (n.modifyAt f q).entries.Perm (rest ++ (f m).entries.map (under (n.path_to q))) := by
  intro q
  induction q with
  | nil =>
    intro n m h
    simp [Node.get?] at h
    subst h
    refine ⟨[], ?_, fun f => ?_⟩
    · simp [Node.path_to, map_under_nil]
    · simp [Node.modifyAt_nil, Node.path_to, map_under_nil]
  | cons k r ih =>
    intro n m h
    cases n with
    | leaf i p t s e => simp [Node.get?] at h
    | internal i p cs =>
      simp only [Node.get?] at h
      cases hc : cs[k]? with
      | none => simp [hc] at h
      | some c =>
        simp only [hc] at h
        obtain ⟨rc, h1, h2⟩ := ih h
        refine ⟨(Node.entries_list (cs.take k) ++ rc ++
          Node.entries_list (cs.drop (k + 1))).map (under (squeeze p)), ?_, ?_⟩
        · have hs := split_at_index hc
          rw [Node.entries_internal]
          conv_lhs => rw [hs]
          simp only [Node.path_to, hc, ← map_under_under, ← List.map_append]
          refine List.Perm.map _ ?_
          simp only [Node.entries_list_append, Node.entries_list]
          have := @perm_insert_middle _ (([], 0, []) : ExecPath × Nat × List Input)
            (Node.entries_list (cs.take k)) (Node.entries_list (cs.drop (k + 1)))
            c.entries rc (m.entries.map (under (c.path_to r))) h1
          simpa using this
        · intro f
          simp only [Node.modifyAt, hc, Node.entries_internal]
          rw [set_at_index hc]
          simp only [Node.path_to, hc, ← map_under_under, ← List.map_append]
          refine List.Perm.map _ ?_
          simp only [Node.entries_list_append, Node.entries_list]
          have := @perm_insert_middle _ (([], 0, []) : ExecPath × Nat × List Input)
            (Node.entries_list (cs.take k)) (Node.entries_list (cs.drop (k + 1)))
            (c.modifyAt f r).entries rc ((f m).entries.map (under (c.path_to r))) (h2 f)
          simpa using this

/-- The leaf at a position is listed with its squeezed path log. -/
theorem Node.entry_of_get {n l : Node} {q : Pos} (h : n.get? q = some l)
    (hl : l.is_leaf = true) :
    (n.path_log q, l.id, ExecTree.leaf_inputset l) ∈ n.entries := by
  obtain ⟨rest, h1, _⟩ := Node.entries_modifyAt q h
  apply h1.symm.subset
  apply List.mem_append_right
  rw [Node.path_log_at h]
  cases l with
  | internal i p cs => simp [Node.is_leaf] at hl
  | leaf i p t s e =>
    simp [Node.entries, under, Node.pfx, Node.id, ExecTree.leaf_inputset]

/-! ## The writes to `all_input` -/

theorem Books.all_input_set_cond (b : Books) (id : Nat) (c : Option BranchCondition) :
    (b.set_cond id c).all_input = b.all_input := rfl

theorem Books.all_input_set_inputs (inputs : List Input) (leaf : Nat) (i : Input) :
    ∀ b : Books, (b.set_inputs inputs leaf).all_input i =
      if i ∈ inputs then some leaf else b.all_input i := by
  induction inputs with
  | nil => intro b; simp [Books.set_inputs]
  | cons y ys ih =>
    intro b
    have := ih (b.set_input y leaf)
    simp only [Books.set_inputs, List.foldl_cons] at this ⊢
    rw [this]
    simp only [Books.set_input, List.mem_cons]
    by_cases h1 : i ∈ ys
    · simp [h1]
    · by_cases h2 : i = y
      · simp [h2]
      · simp [h1, h2]

theorem Books.all_input_erase_inputs (inputs : List Input) (i : Input) :
    ∀ b : Books, (b.erase_inputs inputs).all_input i =
      if i ∈ inputs then none else b.all_input i := by
  induction inputs with
  | nil => intro b; simp [Books.erase_inputs]
  | cons y ys ih =>
    intro b
    have := ih (b.erase_input y)
    simp only [Books.erase_inputs, List.foldl_cons] at this ⊢
    rw [this]
    simp only [Books.erase_input, List.mem_cons]
    by_cases h1 : i ∈ ys
    · simp [h1]
    · by_cases h2 : i = y
      · simp [h2]
      · simp [h1, h2]

theorem Books.all_input_initialize_children_cond (env : SynthEnv) (condtype : CondType)
    (cs : List Node) : ∀ b : Books,
    (b.initialize_children_cond env condtype cs).all_input = b.all_input := by
  induction cs with
  | nil => intro b; rfl
  | cons c cs ih =>
    intro b
    simp only [Books.initialize_children_cond, List.foldl_cons] at ih ⊢
    rw [ih]
    split <;> rfl

theorem Books.all_input_add_node (env : SynthEnv) (b : Books) (node : Node) (is_root : Bool)
    (cond : Option BranchCondition) (i : Input) :
    (b.add_node env node is_root cond).all_input i =
      if node.is_leaf = true ∧ i ∈ ExecTree.leaf_inputset node then some node.id
      else b.all_input i := by
  unfold Books.add_node
  simp only []
  have h0 : ∀ b1 : Books, (if is_root = true then
      b1.set_cond node.id (some (NeglectCondition.new env))
    else b1.set_cond node.id (some (match cond with
        | some c => c
        | none => default_branch_condition env))).all_input = b1.all_input := by
    intro b1
    split <;> rfl
  rw [h0]
  by_cases hl : node.is_leaf = true
  · rw [if_pos hl, Books.all_input_set_inputs]
    simp [hl]
  · rw [if_neg hl]
    simp [hl]

theorem Books.all_input_pull_node (b : Books) (node : Node) (i : Input) :
    (b.pull_node node).all_input i =
      if node.is_leaf = true ∧ i ∈ ExecTree.leaf_inputset node then none
      else b.all_input i := by
  unfold Books.pull_node
  by_cases hl : node.is_leaf = true
  · rw [if_pos hl, Books.all_input_erase_inputs]
    simp [hl]
  · rw [if_neg hl]
    simp [hl]

theorem ExecTree.leaf_inputset_set_pfx (p : ExecPath) (n : Node) :
    ExecTree.leaf_inputset (n.set_pfx p) = ExecTree.leaf_inputset n := by
  cases n <;> rfl

/-- Pulling a node and adding it again, with another prefix, leaves `all_input` as
it is when the inputs of the node map to it. -/
theorem Books.all_input_pull_add (env : SynthEnv) (b : Books) (m : Node) (p : ExecPath)
    (is_root : Bool) (cond : Option BranchCondition)
    (hA : m.is_leaf = true → ∀ i ∈ ExecTree.leaf_inputset m, b.all_input i = some m.id)
    (i : Input) :
    ((b.pull_node m).add_node env (m.set_pfx p) is_root cond).all_input i = b.all_input i := by
  rw [Books.all_input_add_node, Books.all_input_pull_node, Node.is_leaf_set_pfx,
    ExecTree.leaf_inputset_set_pfx, Node.id_set_pfx]
  by_cases h : m.is_leaf = true ∧ i ∈ ExecTree.leaf_inputset m
  · rw [if_pos h, hA h.1 i h.2]
  · rw [if_neg h, if_neg h]

/-- The writes for a fresh leaf that receives the single input `x`. -/
theorem Books.all_input_new_leaf (env : SynthEnv) (b : Books) (rnd : Nat) (tl : ExecPath)
    (x : Input) (run_status : Int) (id : Nat) (p : ExecPath) (is_root : Bool)
    (cond : Option BranchCondition) (i : Input) :
    ((b.insert_inputset rnd (create_leaf id p) [x]).add_node env
      (Pathfinder.insert_inputset rnd tl [x] run_status (create_leaf id p)) is_root cond).all_input i =
      if i = x then some id else b.all_input i := by
  rw [Books.all_input_add_node]
  have h1 : (Pathfinder.insert_inputset rnd tl [x] run_status (create_leaf id p)).is_leaf = true := rfl
  have h2 : ExecTree.leaf_inputset (Pathfinder.insert_inputset rnd tl [x] run_status (create_leaf id p))
      = [x] := rfl
  have h3 : (Pathfinder.insert_inputset rnd tl [x] run_status (create_leaf id p)).id = id := rfl
  rw [h1, h2, h3]
  by_cases hi : i = x
  · simp [hi]
  · simp only [hi, List.mem_singleton, and_false, if_false]
    unfold Books.insert_inputset
    simp only [create_leaf, ExecTree.leaf_inputset, Node.id]
    rw [Books.all_input_set_inputs]
    simp [hi, is_full, MAX_INPUT_PER_PATH]

theorem Books.all_input_add_internal (env : SynthEnv) (b : Books) (id : Nat) (p : ExecPath)
    (cs : List Node) (is_root : Bool) (cond : Option BranchCondition) (i : Input) :
    (b.add_node env (.internal id p cs) is_root cond).all_input i = b.all_input i := by
  rw [Books.all_input_add_node]
  simp [Node.is_leaf]

/-- The writes of `insert_inputset` with the single input `x` on an existing leaf. -/
theorem Books.all_input_insert_inputset (b : Books) (rnd : Nat) (m : Node) (x i : Input) :
    (b.insert_inputset rnd m [x]).all_input i =
      if i = x then some m.id
      else if is_full (ExecTree.leaf_inputset m) = true ∧
          (ExecTree.leaf_inputset m)[rnd % (ExecTree.leaf_inputset m).length]? = some i
        then none
      else b.all_input i := by
  unfold Books.insert_inputset
  simp only []
  rw [Books.all_input_set_inputs]
  by_cases hi : i = x
  · simp [hi]
  · simp only [List.mem_singleton, hi, if_false]
    by_cases hf : is_full (ExecTree.leaf_inputset m) = true
    · rw [if_pos hf]
      cases hev : (ExecTree.leaf_inputset m)[rnd % (ExecTree.leaf_inputset m).length]? with
      | none => simp
      | some ev =>
        simp only [Books.erase_input, Option.some.injEq, hf, true_and]
        by_cases h2 : i = ev
        · simp [h2]
        · have : ¬ ev = i := fun h => h2 h.symm
          simp [h2, this]
    · rw [if_neg hf]
      simp [hf]

/-! ## The leaves after the local steps of `insert` -/

theorem entries_new_leaf (rnd : Nat) (tl : ExecPath) (x : Input) (run_status : Int) (id : Nat)
    (p : ExecPath) :
    (insert_inputset rnd tl [x] run_status (create_leaf id p)).entries =
      [(squeeze p, id, [x])] := rfl

theorem entries_add_leaf (n x : Node) (hn : n.is_internal = true) :
    (n.set_children (add_child n.children x)).entries.Perm
      (n.entries ++ x.entries.map (under (squeeze n.pfx))) := by
  cases n with
  | leaf i p t s e => simp [Node.is_internal] at hn
  | internal i p cs =>
    simp only [Node.children_internal, Node.set_children_internal, Node.entries_internal,
      Node.pfx_internal, ← List.map_append]
    refine List.Perm.map _ ?_
    exact (entries_list_add_child_perm cs x).trans List.perm_append_comm

/-- The new internal node of cases 2, 6 and 7 of `insert`, over the node `c` with
a shortened prefix and the new leaf `l`. -/
theorem entries_new_internal (id : Nat) (common rest : ExecPath) (c l : Node)
    (h : squeeze common ++ squeeze rest = squeeze c.pfx) :
    (Node.internal id common (add_child (add_child [] (c.set_pfx rest)) l)).entries.Perm
      (c.entries ++ l.entries.map (under (squeeze common))) := by
  rw [Node.entries_internal]
  have h1 := (entries_list_add_child_perm (add_child [] (c.set_pfx rest)) l).map
    (under (squeeze common))
  have h2 : Node.entries_list (add_child [] (c.set_pfx rest)) = (c.set_pfx rest).entries := by
    simp [add_child, Node.entries_list]
  rw [h2, List.map_append, Node.entries_set_pfx, map_under_under, h, ← Node.entries_eq] at h1
  exact h1.trans List.perm_append_comm

theorem entries_replace_child {n c : Node} {k : Nat} (hn : n.is_internal = true)
    (hk : n.children[k]? = some c) (x : Node) {news : List (ExecPath × Nat × List Input)}
    (hx : x.entries.Perm (c.entries ++ news)) :
    (n.set_children (add_child (n.children.eraseIdx k) x)).entries.Perm
      (n.entries ++ news.map (under (squeeze n.pfx))) := by
  cases n with
  | leaf i p t s e => simp [Node.is_internal] at hn
  | internal i p cs =>
    simp only [Node.children_internal, Node.set_children_internal, Node.entries_internal,
      Node.pfx_internal, ← List.map_append] at hk ⊢
    refine List.Perm.map _ ?_
    refine (entries_list_add_child_perm (cs.eraseIdx k) x).trans ?_
    have h1 := entries_list_eraseIdx_perm hk
    refine (List.Perm.append_right _ hx).trans ?_
    refine List.Perm.trans ?_ (List.Perm.append_right news h1.symm)
    rw [← Multiset.coe_eq_coe]
    simp only [← Multiset.coe_add]
    abel

/-- A local change that adds leaves below the node at `q` adds them to the tree. -/
theorem Node.entries_modifyAt_add {n m : Node} {q : Pos} (f : Node → Node)
    {news : List (ExecPath × Nat × List Input)} (hq : n.get? q = some m)
    (hp : (f m).entries.Perm (m.entries ++ news)) :
    (n.modifyAt f q).entries.Perm (n.entries ++ news.map (under (n.path_to q))) := by
  obtain ⟨rest, h1, h2⟩ := Node.entries_modifyAt q hq
  refine (h2 f).trans ?_
  refine (List.Perm.append_left rest (hp.map _)).trans ?_
  rw [List.map_append, ← List.append_assoc]
  exact List.Perm.append_right _ h1.symm

theorem squeeze_split_pos {p : ExecPath} {cl : Nat} (hv : ValidPath p) (h1 : 0 < cl)
    (h2 : cl < p.length) :
    squeeze (subvec_len p 0 cl) ++ squeeze (subvec p cl) = squeeze p := by
  have hd : subvec p cl = p.drop cl := by simp [subvec]
  rw [subvec_len_zero, squeeze_of_valid (validPath_take hv h1), hd,
    squeeze_of_valid (validPath_drop hv h2), squeeze_of_valid hv, List.take_append_drop]

theorem squeeze_split_root {p : ExecPath} {cl : Nat} (hv : ValidPath p) (h2 : cl < p.length) :
    squeeze (if cl = 0 then EPSILON else subvec_len p 0 cl) ++ squeeze (subvec p cl) =
      squeeze p := by
  by_cases h0 : cl = 0
  · subst h0
    simp [squeeze_epsilon, subvec]
  · rw [if_neg h0]
    exact squeeze_split_pos hv (by omega) h2

theorem entries_insert_inputset (rnd : Nat) (tl : ExecPath) (x : Input) (run_status : Int)
    {m : Node} (hm : m.is_leaf = true) :
    m.entries = [(squeeze m.pfx, m.id, ExecTree.leaf_inputset m)] ∧
    (insert_inputset rnd tl [x] run_status m).entries =
      [(squeeze m.pfx, m.id,
        set_insert (if is_full (ExecTree.leaf_inputset m)
          then evict_random rnd (ExecTree.leaf_inputset m)
          else ExecTree.leaf_inputset m) x)] := by
  cases m with
  | internal i p cs => simp [Node.is_leaf] at hm
  | leaf i p t s e => exact ⟨rfl, rfl⟩

/-- One call of `insert` with a single input `x`, on the leaves and on `all_input`:
either the path is not that of a leaf and a new leaf with the input `x` appears,
`x` mapping to it, or the leaf of the path receives `x` after evicting an input
when it is full. -/
theorem insert_entries_raw (env : SynthEnv) (tpc : TracePC)
    (hS : 0 < tpc.max_significant_execpath_size) (t : ExecTree) (b : Books) (ht : t.Good)
    (epath : ExecPath) (he : ValidPath epath) (x : Input) (run_status : Int) (rnd : Nat)
    (hA : ∀ z ∈ t.entries, ∀ i ∈ z.2.2, b.all_input i = some z.2.1) :
    ((∀ root q l, t.root = some root → root.get? q = some l → l.is_leaf = true →
        root.find [] (tpc.significant epath) ≠ (some q, [])) ∧
      ∃ y nid, t.next_id ≤ nid ∧
        (t.insert_set tpc epath [x] run_status rnd).1.entries.Perm
          (t.entries ++ [(y, nid, [x])]) ∧
        ∀ i, (t.insert_books env tpc b epath [x] run_status rnd).all_input i =
          if i = x then some nid else b.all_input i) ∨
    (∃ R id0 s0, t.entries.Perm (R ++ [(tpc.significant epath, id0, s0)]) ∧
      (t.insert_set tpc epath [x] run_status rnd).1.entries.Perm
        (R ++ [(tpc.significant epath, id0,
          set_insert (if is_full s0 then evict_random rnd s0 else s0) x)]) ∧
      ∀ i, (t.insert_books env tpc b epath [x] run_status rnd).all_input i =
        if i = x then some id0
        else if is_full s0 = true ∧ s0[rnd % s0.length]? = some i then none
        else b.all_input i) := by
  have hev := significant_valid tpc hS he
  unfold ExecTree.insert_set ExecTree.insert_books
  generalize tpc.tail_of epath = tl
  generalize tpc.significant epath = e at hev ⊢
  simp only []
  cases hroot : t.root with
  | none =>
    left
    refine ⟨fun root q l h => by simp at h, e, t.next_id, Nat.le_refl _, ?_, ?_⟩
    · simp only [ExecTree.entries, hroot, entries_new_leaf, squeeze_of_valid hev,
        List.nil_append]
      exact List.Perm.refl _
    · intro i
      exact Books.all_input_new_leaf env b rnd tl x run_status t.next_id e true none i
  | some root =>
    have hr : root.RootGood := by
      simpa [ExecTree.Good, hroot] using ht
    have hent : t.entries = root.entries := by simp [ExecTree.entries, hroot]
    have hApos : ∀ q l, root.get? q = some l → l.is_leaf = true →
        ∀ i ∈ ExecTree.leaf_inputset l, b.all_input i = some l.id := by
      intro q l hq hl i hi
      have := Node.entry_of_get hq hl
      exact hA _ (by rw [hent]; exact this) i hi
    rw [hent]
    simp only []
    rcases find_spec_root root hr e hev with ⟨hf, hmiss⟩ | ⟨q, rem, hf, m, hq, heq, hlocal⟩
    · rw [hf]
      simp only []
      left
      refine ⟨fun root1 q l h _ _ => by simp [Option.some.inj h ▸ hf], ?_⟩
      rcases hmiss with ⟨hpe, hlook⟩ | ⟨hpe, hnp⟩
      · -- Case 2, Epsilon root
        simp only [if_pos hpe]
        have hint : root.is_internal = true := by
          rcases hr.root_pfx_cases with h | h
          · exact h.2
          · exact absurd hpe (validPath_ne_epsilon h)
        refine ⟨squeeze root.pfx ++ squeeze e, t.next_id, Nat.le_refl _, ?_, ?_⟩
        · simp only [ExecTree.entries]
          refine (entries_add_leaf root _ hint).trans ?_
          rw [entries_new_leaf]
          exact List.Perm.refl _
        · intro i
          rw [Books.all_input_initialize_children_cond]
          exact Books.all_input_new_leaf env b rnd tl x run_status t.next_id e false none i
      · -- Case 2, new root
        simp only [if_neg hpe]
        have hrv : ValidPath root.pfx := by
          rcases hr.root_pfx_cases with h | h
          · exact absurd h.1 hpe
          · exact h
        simp only [create_internal, Node.children_internal, Node.set_children_internal]
        refine ⟨?_, t.next_id + 1, by omega, ?_, ?_⟩
        rotate_left
        · simp only [ExecTree.entries]
          refine (entries_new_internal _ _ _ root _
            (squeeze_split_root hrv (cpl_lt_of_not_isPrefix hnp))).trans ?_
          rw [entries_new_leaf]
          exact List.Perm.refl _
        · intro i
          rw [Books.all_input_initialize_children_cond, Books.all_input_new_leaf,
            Books.all_input_add_internal, Books.all_input_pull_add]
          intro hl
          exact hApos [] root (by cases root <;> rfl) hl
    · rw [hf]
      simp only [hq]
      rw [squeeze_of_valid hev] at heq
      by_cases hrem : rem = []
      · subst hrem
        simp only [List.length_nil, if_true]
        simp only [List.append_nil] at heq
        by_cases hmi : m.is_internal = true
        · -- Case 3
          simp only [if_pos hmi]
          left
          refine ⟨?_, ?_⟩
          · intro root1 q1 l h1 h2 h3 h4
            have e1 := Option.some.inj h1
            subst e1
            rw [hf] at h4
            have e2 : q = q1 := by simpa using h4
            subst e2
            rw [hq] at h2
            have e3 := Option.some.inj h2
            subst e3
            cases m <;> simp_all
          refine ⟨?_, t.next_id, Nat.le_refl _, ?_, ?_⟩
          rotate_left
          · simp only [ExecTree.entries]
            refine (Node.entries_modifyAt_add (fun n => n.set_children (add_child n.children _)) hq
                (entries_add_leaf m _ hmi)).trans ?_
            rw [entries_new_leaf]
            exact List.Perm.refl _
          · intro i
            exact Books.all_input_new_leaf env b rnd tl x run_status t.next_id EPSILON false
              none i
        · -- Case 4
          simp only [if_neg hmi]
          right
          have hml := Node.is_leaf_of_not_internal hmi
          obtain ⟨e1, e2⟩ := entries_insert_inputset rnd tl x run_status hml
          obtain ⟨rest, h1, h2⟩ := Node.entries_modifyAt q hq
          refine ⟨rest, m.id, ExecTree.leaf_inputset m, ?_, ?_, ?_⟩
          · refine h1.trans ?_
            rw [e1]
            simp only [List.map_cons, List.map_nil, under, heq]
            exact List.Perm.refl _
          · simp only [ExecTree.entries]
            refine (h2 _).trans ?_
            rw [e2]
            simp only [List.map_cons, List.map_nil, under, heq]
            exact List.Perm.refl _
          · intro i
            exact Books.all_input_insert_inputset b rnd m x i
      · have hlen : ¬ rem.length = 0 := fun h => hrem (List.length_eq_zero.mp h)
        simp only [if_neg hlen]
        obtain ⟨hrv, hleafne, hint⟩ := hlocal.2 hrem
        left
        refine ⟨fun root1 q1 l h1 _ _ h4 => by
          rw [← Option.some.inj h1, hf] at h4
          have h5 : q = q1 ∧ rem = [] := by simpa using h4
          exact hrem h5.2, ?_⟩
        have hmg : q ≠ [] → m.Good := fun hq0 => hr.get_below hq hq0
        by_cases hmi : m.is_internal = true
        · simp only [if_pos hmi]
          cases hl : lookup_child m.children (front rem) with
          | none =>
            -- Case 5
            simp only []
            refine ⟨?_, t.next_id, Nat.le_refl _, ?_, ?_⟩
            rotate_left
            · simp only [ExecTree.entries]
              refine (Node.entries_modifyAt_add (fun n => n.set_children (add_child n.children _)) hq
                (entries_add_leaf m _ hmi)).trans ?_
              rw [entries_new_leaf]
              exact List.Perm.refl _
            · intro i
              exact Books.all_input_new_leaf env b rnd tl x run_status t.next_id rem false
                none i
          | some k =>
            -- Case 6
            obtain ⟨c, hc, hcf, _⟩ := lookup_child_some hl
            simp only [hc]
            have hnp := hint hmi k c hl hc
            have hcg : c.Good := by
              by_cases hq0 : q = []
              · subst hq0
                simp [Node.get?] at hq
                subst hq
                exact hr.root_child_good (List.getElem?_mem hc)
              · exact (hmg hq0).child_good (List.getElem?_mem hc)
            have hcv : ValidPath c.pfx :=
              hcg.valid_of_front_pos (hcf ▸ validPath_front_pos hrv)
            have hc1 : 0 < common_prefix_length c.pfx rem :=
              common_prefix_length_pos hcv.1 hrv.1 hcf
            have hc2 := cpl_lt_of_not_isPrefix hnp
            simp only [create_internal, Node.children_internal, Node.set_children_internal]
            refine ⟨?_, t.next_id + 1, by omega, ?_, ?_⟩
            rotate_left
            · simp only [ExecTree.entries]
              refine (Node.entries_modifyAt_add
                (fun n => n.set_children (add_child (m.children.eraseIdx k) _)) hq
                (entries_replace_child hmi hc _
                  (entries_new_internal _ _ _ c _ (squeeze_split_pos hcv hc1 hc2)))).trans ?_
              rw [entries_new_leaf]
              exact List.Perm.refl _
            · intro i
              rw [Books.all_input_new_leaf, Books.all_input_add_internal,
                Books.all_input_pull_add]
              intro hcl
              exact hApos (q ++ [k]) c (by rw [Node.get?_snoc hq k]; exact hc) hcl
        · -- Case 7
          simp only [if_neg hmi]
          have hml := Node.is_leaf_of_not_internal hmi
          simp only [create_internal, Node.children_internal, Node.set_children_internal]
          have hnew : (Node.internal t.next_id m.pfx
              (add_child (add_child [] (m.set_pfx EPSILON))
                (insert_inputset rnd tl [x] run_status
                  (create_leaf (t.next_id + 1) rem)))).entries.Perm
              (m.entries ++ [(squeeze m.pfx ++ squeeze rem, t.next_id + 1, [x])]) := by
            refine (entries_new_internal _ _ _ m _ (by simp [squeeze_epsilon])).trans ?_
            rw [entries_new_leaf]
            exact List.Perm.refl _
          have hbooks : ∀ (r : Bool) (i : Input),
              (Books.add_node env
                ((((b.pull_node m).add_node env (m.set_pfx EPSILON) false none).insert_inputset
                    rnd (create_leaf (t.next_id + 1) rem) [x]).add_node env
                  (insert_inputset rnd tl [x] run_status (create_leaf (t.next_id + 1) rem))
                  false none)
                (Node.internal t.next_id m.pfx []) r (b.cond m.id)).all_input i =
              if i = x then some (t.next_id + 1) else b.all_input i := by
            intro r i
            rw [Books.all_input_add_internal, Books.all_input_new_leaf,
              Books.all_input_pull_add]
            intro hl
            exact hApos q m hq hl
          rcases List.eq_nil_or_concat q with hq0 | ⟨q0, idx, hq0⟩
          · subst hq0
            simp [Node.get?] at hq
            subst hq
            simp only [List.getLast?_nil]
            refine ⟨?_, t.next_id + 1, by omega, ?_, ?_⟩
            rotate_left
            · simp only [ExecTree.entries]
              exact hnew
            · intro i
              exact hbooks _ i
          · rw [List.concat_eq_append] at hq0
            subst hq0
            obtain ⟨parent, hp1, hp2⟩ := Node.get?_snoc_inv hq
            have hpi := Node.is_internal_of_child hp2
            simp only [List.getLast?_concat, List.dropLast_concat, hp1]
            refine ⟨?_, t.next_id + 1, by omega, ?_, ?_⟩
            rotate_left
            · simp only [ExecTree.entries]
              refine (Node.entries_modifyAt_add
                (fun n => n.set_children (add_child (parent.children.eraseIdx idx) _)) hp1
                (entries_replace_child hpi hp2 _ hnew)).trans ?_
              exact List.Perm.refl _
            · intro i
              exact hbooks _ i

mutual
/-- Every listed leaf sits at a position, with the squeezed path log as its path. -/
theorem Node.exists_get_of_entry : ∀ (n : Node) (z : ExecPath × Nat × List Input),
    z ∈ n.entries → ∃ (q : Pos) (l : Node), n.get? q = some l ∧ l.is_leaf = true ∧
      z = (n.path_log q, l.id, ExecTree.leaf_inputset l)
  | .leaf i p t s e, z, h => by
    refine ⟨[], _, rfl, rfl, ?_⟩
    simp only [Node.entries, List.mem_singleton] at h
    rw [h]
    simp [Node.path_log, squeeze, Node.pfx, Node.id, ExecTree.leaf_inputset]
  | .internal i p cs, z, h => by
    simp only [Node.entries, List.mem_map] at h
    obtain ⟨w, hw, rfl⟩ := h
    obtain ⟨k, c, hc, q, l, hq, hl, hwz⟩ := Node.exists_get_of_entry_list cs w hw
    refine ⟨k :: q, l, ?_, hl, ?_⟩
    · simp [Node.get?, hc, hq]
    · simp [Node.path_log, hc, under, hwz, vec_concat, squeeze]
theorem Node.exists_get_of_entry_list : ∀ (cs : List Node) (z : ExecPath × Nat × List Input),
    z ∈ Node.entries_list cs → ∃ (k : Nat) (c : Node), cs[k]? = some c ∧
      ∃ (q : Pos) (l : Node), c.get? q = some l ∧
      l.is_leaf = true ∧ z = (c.path_log q, l.id, ExecTree.leaf_inputset l)
  | [], z, h => by simp [Node.entries_list] at h
  | c :: cs, z, h => by
    simp only [Node.entries_list, List.mem_append] at h
    rcases h with h | h
    · exact ⟨0, c, by simp, Node.exists_get_of_entry c z h⟩
    · obtain ⟨k, c1, hc1, r⟩ := Node.exists_get_of_entry_list cs z h
      exact ⟨k + 1, c1, by simpa using hc1, r⟩
end

/-- One call of `insert` with the input `x` and a path with significant part `e`:
either no leaf has the path `e` and a new leaf with the path `e` and the input `x`
appears, `x` mapping to it, or the leaf with the path `e` receives `x`, after
evicting an input when it is full. -/
theorem insert_entries (env : SynthEnv) (tpc : TracePC)
    (hS : 0 < tpc.max_significant_execpath_size) (t : ExecTree) (b : Books) (ht : t.Good)
    (epath : ExecPath) (he : ValidPath epath) (x : Input) (run_status : Int) (rnd : Nat)
    (hA : ∀ z ∈ t.entries, ∀ i ∈ z.2.2, b.all_input i = some z.2.1) :
    ((∀ z ∈ t.entries, z.1 ≠ tpc.significant epath) ∧
      ∃ nid,
        (t.insert_set tpc epath [x] run_status rnd).1.entries.Perm
          (t.entries ++ [(tpc.significant epath, nid, [x])]) ∧
        ∀ i, (t.insert_books env tpc b epath [x] run_status rnd).all_input i =
          if i = x then some nid else b.all_input i) ∨
    (∃ R id0 s0, t.entries.Perm (R ++ [(tpc.significant epath, id0, s0)]) ∧
      (t.insert_set tpc epath [x] run_status rnd).1.entries.Perm
        (R ++ [(tpc.significant epath, id0,
          set_insert (if is_full s0 then evict_random rnd s0 else s0) x)]) ∧
      ∀ i, (t.insert_books env tpc b epath [x] run_status rnd).all_input i =
        if i = x then some id0
        else if is_full s0 = true ∧ s0[rnd % s0.length]? = some i then none
        else b.all_input i) := by
  rcases insert_entries_raw env tpc hS t b ht epath he x run_status rnd hA with
    ⟨hno, y, nid, _, hperm, hbooks⟩ | h
  · left
    have hold : ∀ z ∈ t.entries, z.1 ≠ tpc.significant epath := by
      intro z hz hze
      cases hroot : t.root with
      | none => simp [ExecTree.entries, hroot] at hz
      | some root =>
        have hr : root.RootGood := by simpa [ExecTree.Good, hroot] using ht
        simp only [ExecTree.entries, hroot] at hz
        obtain ⟨q, l, hq, hl, rfl⟩ := Node.exists_get_of_entry root z hz
        have hfc := find_complete root hr q l hq hl
        simp only at hze
        rw [hze] at hfc
        exact hno root q l hroot hq hl hfc
    refine ⟨hold, nid, ?_, hbooks⟩
    have hok := insert_set_ok tpc hS t ht epath he [x] run_status rnd
    obtain ⟨root1, hr1, ⟨l, hl1, hl2⟩, hpath⟩ := hok.leaf
    have hmem := Node.entry_of_get hl1 hl2
    rw [hpath] at hmem
    have hmem2 : (tpc.significant epath, l.id, ExecTree.leaf_inputset l) ∈
        (t.insert_set tpc epath [x] run_status rnd).1.entries := by
      simp only [ExecTree.entries, hr1]
      exact hmem
    rcases List.mem_append.mp (hperm.subset hmem2) with h1 | h1
    · exact absurd rfl (hold _ h1)
    · simp only [List.mem_singleton, Prod.mk.injEq] at h1
      rw [h1.1]
      exact hperm
  · right
    exact h

/-! ## The invariant of `all_input` -/

theorem InputsInv.of_empty (tpc : TracePC) : InputsInv tpc [] BookedTree.empty := by
  refine ⟨?_, ?_, ?_, ?_, ?_⟩
  · simp [BookedTree.empty, ExecTree.empty, ExecTree.Good]
  · intro i k
    simp [BookedTree.empty, ExecTree.empty, ExecTree.entries, Books.empty]
  · intro z hz
    simp [BookedTree.empty, ExecTree.empty, ExecTree.entries] at hz
  · intro z hz
    simp [BookedTree.empty, ExecTree.empty, ExecTree.entries] at hz
  · simp [BookedTree.empty, ExecTree.empty, ExecTree.entries]

theorem is_full_index {s : List Input} (h : is_full s = true) (rnd : Nat) :
    ∃ a, s[rnd % s.length]? = some a := by
  have hpos : 0 < s.length := by
    simp [is_full, MAX_INPUT_PER_PATH] at h
    omega
  cases h2 : s[rnd % s.length]? with
  | none =>
    rw [List.getElem?_eq_none_iff] at h2
    have := Nat.mod_lt rnd hpos
    omega
  | some a => exact ⟨a, rfl⟩

/-- The inputs a leaf keeps when it makes room for a new one. -/
theorem mem_after_evict {s : List Input} (hs : s.Nodup) (rnd : Nat) (i : Input) :
    i ∈ (if is_full s then evict_random rnd s else s) ↔
      i ∈ s ∧ ¬ (is_full s = true ∧ s[rnd % s.length]? = some i) := by
  by_cases hf : is_full s = true
  · obtain ⟨a, ha⟩ := is_full_index hf rnd
    rw [if_pos hf]
    unfold evict_random
    rw [mem_eraseIdx_of_nodup hs ha i, ha]
    simp only [hf, true_and, Option.some.injEq]
    constructor
    · rintro ⟨h1, h2⟩
      exact ⟨h1, fun h3 => h2 h3.symm⟩
    · rintro ⟨h1, h2⟩
      exact ⟨h1, fun h3 => h2 h3.symm⟩
  · rw [if_neg hf]
    simp [hf]

/-- One call of `insert` keeps the invariant when its input has not been inserted
with a path of another significant part. -/
theorem InputsInv.step (env : SynthEnv) (tpc : TracePC)
    (hS : 0 < tpc.max_significant_execpath_size) {calls : List InsertCall} {bt : BookedTree}
    (h : InputsInv tpc calls bt) (c : InsertCall) (hv : ValidPath c.epath)
    (hone : OnePathPerInput tpc (calls ++ [c])) :
    InputsInv tpc (calls ++ [c]) (bt.insert env tpc c) := by
  have hA : ∀ z ∈ bt.tree.entries, ∀ i ∈ z.2.2, bt.books.all_input i = some z.2.1 :=
    fun z hz i hi => (h.mapped i z.2.1).mpr ⟨z, hz, rfl, hi⟩
  have hF2 : ∀ z1 ∈ bt.tree.entries, ∀ z2 ∈ bt.tree.entries, ∀ i, i ∈ z1.2.2 → i ∈ z2.2.2 →
      z1.1 = z2.1 := by
    intro z1 hz1 z2 hz2 i h1 h2
    obtain ⟨c1, hc1, e1, e2⟩ := h.origin z1 hz1 i h1
    obtain ⟨c2, hc2, e3, e4⟩ := h.origin z2 hz2 i h2
    rw [← e2, ← e4]
    exact hone c1 (by simp [hc1]) c2 (by simp [hc2]) (e1.trans e3.symm)
  have hF : ∀ z ∈ bt.tree.entries, c.input ∈ z.2.2 → z.1 = tpc.significant c.epath := by
    intro z hz hx
    obtain ⟨c1, hc1, e1, e2⟩ := h.origin z hz _ hx
    rw [← e2]
    exact hone c1 (by simp [hc1]) c (by simp) e1
  have horig : ∀ z ∈ bt.tree.entries, ∀ i ∈ z.2.2,
      ∃ c1 ∈ calls ++ [c], c1.input = i ∧ tpc.significant c1.epath = z.1 := by
    intro z hz i hi
    obtain ⟨c1, hc1, e1, e2⟩ := h.origin z hz i hi
    exact ⟨c1, by simp [hc1], e1, e2⟩
  have hgood :=
    (insert_set_ok tpc hS bt.tree h.good c.epath hv [c.input] c.run_status c.rnd).good
  have htree : (bt.insert env tpc c).tree =
      (bt.tree.insert_set tpc c.epath [c.input] c.run_status c.rnd).1 := rfl
  have hbk : (bt.insert env tpc c).books =
      bt.tree.insert_books env tpc bt.books c.epath [c.input] c.run_status c.rnd := rfl
  rcases insert_entries env tpc hS bt.tree bt.books h.good c.epath hv c.input c.run_status
      c.rnd hA with ⟨hno, nid, hperm, hbooks⟩ | ⟨R, id0, s0, hp0, hp1, hbooks⟩
  · -- a new leaf
    have hmem : ∀ z, z ∈ (bt.insert env tpc c).tree.entries ↔
        z ∈ bt.tree.entries ∨ z = (tpc.significant c.epath, nid, [c.input]) := by
      intro z
      rw [htree, hperm.mem_iff]
      simp
    refine ⟨hgood, ?_, ?_, ?_, ?_⟩
    · intro i k
      rw [hbk, hbooks i]
      constructor
      · intro hk
        by_cases hi : i = c.input
        · rw [if_pos hi] at hk
          exact ⟨_, (hmem _).mpr (Or.inr rfl), Option.some.inj hk, by simp [hi]⟩
        · rw [if_neg hi] at hk
          obtain ⟨z, hz, h1, h2⟩ := (h.mapped i k).mp hk
          exact ⟨z, (hmem z).mpr (Or.inl hz), h1, h2⟩
      · rintro ⟨z, hz, h1, h2⟩
        rcases (hmem z).mp hz with hz | hz
        · have hi : i ≠ c.input := by
            rintro rfl
            exact hno z hz (hF z hz h2)
          rw [if_neg hi]
          exact (h.mapped i k).mpr ⟨z, hz, h1, h2⟩
        · subst hz
          simp only [List.mem_singleton] at h2
          simp only at h1
          rw [if_pos h2, h1]
    · intro z hz i hi
      rcases (hmem z).mp hz with hz | hz
      · exact horig z hz i hi
      · subst hz
        simp only [List.mem_singleton] at hi
        exact ⟨c, by simp, hi.symm, rfl⟩
    · intro z hz
      rcases (hmem z).mp hz with hz | hz
      · exact h.sorted z hz
      · subst hz
        simp [InputsSorted]
    · rw [htree, (hperm.map Prod.fst).nodup_iff, List.map_append]
      refine List.nodup_append.mpr ⟨h.paths, by simp, ?_⟩
      intro a ha hb
      simp only [List.map_cons, List.map_nil, List.mem_singleton] at hb
      obtain ⟨z, hz, rfl⟩ := List.mem_map.mp ha
      exact hno z hz hb
  · -- the leaf of the path
    have hnd0 := (hp0.map Prod.fst).nodup_iff.mp h.paths
    have hR : ∀ z ∈ R, z.1 ≠ tpc.significant c.epath := by
      intro z hz hze
      rw [List.map_append] at hnd0
      have hdis := (List.nodup_append.mp hnd0).2.2
      exact hdis (List.mem_map.mpr ⟨z, hz, rfl⟩) (by simp [hze])
    have hz0 : (tpc.significant c.epath, id0, s0) ∈ bt.tree.entries :=
      hp0.symm.subset (by simp)
    have hRin : ∀ z ∈ R, z ∈ bt.tree.entries := fun z hz => hp0.symm.subset (by simp [hz])
    have hs0 : InputsSorted s0 := h.sorted _ hz0
    have hmem : ∀ z, z ∈ (bt.insert env tpc c).tree.entries ↔
        z ∈ R ∨ z = (tpc.significant c.epath, id0,
          set_insert (if is_full s0 then evict_random c.rnd s0 else s0) c.input) := by
      intro z
      rw [htree, hp1.mem_iff]
      simp
    have hmemS := mem_after_evict hs0.nodup c.rnd
    refine ⟨hgood, ?_, ?_, ?_, ?_⟩
    · intro i k
      rw [hbk, hbooks i]
      constructor
      · intro hk
        by_cases hi : i = c.input
        · rw [if_pos hi] at hk
          exact ⟨_, (hmem _).mpr (Or.inr rfl), Option.some.inj hk,
            mem_set_insert.mpr (Or.inl hi)⟩
        · rw [if_neg hi] at hk
          by_cases hev : is_full s0 = true ∧ s0[c.rnd % s0.length]? = some i
          · rw [if_pos hev] at hk
            exact Option.noConfusion hk
          · rw [if_neg hev] at hk
            obtain ⟨z, hz, h1, h2⟩ := (h.mapped i k).mp hk
            rcases List.mem_append.mp (hp0.subset hz) with hzR | hz0'
            · exact ⟨z, (hmem z).mpr (Or.inl hzR), h1, h2⟩
            · simp only [List.mem_singleton] at hz0'
              subst hz0'
              exact ⟨_, (hmem _).mpr (Or.inr rfl), h1,
                mem_set_insert.mpr (Or.inr ((hmemS i).mpr ⟨h2, hev⟩))⟩
      · rintro ⟨z, hz, h1, h2⟩
        rcases (hmem z).mp hz with hzR | hz
        · have hi : i ≠ c.input := by
            rintro rfl
            exact hR z hzR (hF z (hRin z hzR) h2)
          have hev : ¬ (is_full s0 = true ∧ s0[c.rnd % s0.length]? = some i) := by
            rintro ⟨_, hj⟩
            have hin : i ∈ s0 := List.getElem?_mem hj
            exact hR z hzR (hF2 z (hRin z hzR) _ hz0 i h2 hin)
          rw [if_neg hi, if_neg hev]
          exact (h.mapped i k).mpr ⟨z, hRin z hzR, h1, h2⟩
        · subst hz
          simp only at h1 h2
          by_cases hi : i = c.input
          · rw [if_pos hi, h1]
          · rw [if_neg hi]
            rcases mem_set_insert.mp h2 with h3 | h3
            · exact absurd h3 hi
            · obtain ⟨h4, h5⟩ := (hmemS i).mp h3
              rw [if_neg h5]
              exact (h.mapped i k).mpr ⟨_, hz0, h1, h4⟩
    · intro z hz i hi
      rcases (hmem z).mp hz with hzR | hz
      · exact horig z (hRin z hzR) i hi
      · subst hz
        simp only at hi
        rcases mem_set_insert.mp hi with h3 | h3
        · exact ⟨c, by simp, h3.symm, rfl⟩
        · exact horig _ hz0 i ((hmemS i).mp h3).1
    · intro z hz
      rcases (hmem z).mp hz with hzR | hz
      · exact h.sorted z (hRin z hzR)
      · subst hz
        apply InputsSorted.after_insert
        by_cases hf : is_full s0 = true
        · rw [if_pos hf]
          exact hs0.after_evict c.rnd
        · rw [if_neg hf]
          exact hs0
    · rw [htree, (hp1.map Prod.fst).nodup_iff]
      simpa using hnd0

/-- The tree built by the calls `calls` satisfies the invariant when the paths are
valid and no input comes with two paths of different significant parts. -/
theorem BookedTree.insert_calls_inv (env : SynthEnv) (tpc : TracePC)
    (hS : 0 < tpc.max_significant_execpath_size) (calls : List InsertCall)
    (hv : ∀ c ∈ calls, ValidPath c.epath) (hone : OnePathPerInput tpc calls) :
    InputsInv tpc calls (BookedTree.insert_calls env tpc calls) := by
  induction calls using List.reverseRecOn with
  | nil => exact InputsInv.of_empty tpc
  | append_singleton calls c ih =>
    rw [BookedTree.insert_calls_snoc]
    refine InputsInv.step env tpc hS (ih ?_ ?_) c (hv c (by simp)) hone
    · intro c0 hc0
      exact hv c0 (by simp [hc0])
    · intro c1 hc1 c2 hc2 he
      exact hone c1 (by simp [hc1]) c2 (by simp [hc2]) he

theorem ExecTree.mem_leaf_inputs_iff (t : ExecTree) (k : Nat) (s : List Input) :
    (∃ z ∈ t.entries, z.2 = (k, s)) ↔
      ∃ l ∈ t.all_nodes, l.is_leaf = true ∧ l.id = k ∧ ExecTree.leaf_inputset l = s := by
  unfold ExecTree.entries ExecTree.all_nodes
  cases t.root with
  | none => simp
  | some r =>
    simp only []
    have h := Node.entries_snd r
    have h1 : (∃ z ∈ r.entries, z.2 = (k, s)) ↔ (k, s) ∈ r.entries.map Prod.snd := by
      simp [List.mem_map]
    rw [h1, h]
    simp only [List.mem_map, List.mem_filter, Prod.mk.injEq]
    constructor
    · rintro ⟨l, ⟨h2, h3⟩, h4, h5⟩
      exact ⟨l, h2, h3, h4, h5⟩
    · rintro ⟨l, h2, h3, h4, h5⟩
      exact ⟨l, ⟨h2, h3⟩, h4, h5⟩

/-- Under the invariant, the inputs of every leaf map to the leaf, and the keys of
`all_input` are the inputs of the leaves. -/
theorem InputsInv.mapped_leaves {tpc : TracePC} {calls : List InsertCall} {bt : BookedTree}
    (h : InputsInv tpc calls bt) : bt.LeafInputsMapped ∧ bt.KeysAreLeafInputs := by
  constructor
  · intro l hl hleaf i hi
    obtain ⟨z, hz, hz2⟩ := (bt.tree.mem_leaf_inputs_iff l.id (ExecTree.leaf_inputset l)).mpr
      ⟨l, hl, hleaf, rfl, rfl⟩
    refine (h.mapped i l.id).mpr ⟨z, hz, ?_, ?_⟩
    · rw [hz2]
    · rw [hz2]
      exact hi
  · intro i
    constructor
    · intro hs
      obtain ⟨k, hk⟩ := Option.isSome_iff_exists.mp hs
      obtain ⟨z, hz, h1, h2⟩ := (h.mapped i k).mp hk
      obtain ⟨l, hl, hleaf, _, h3⟩ := (bt.tree.mem_leaf_inputs_iff z.2.1 z.2.2).mp ⟨z, hz, rfl⟩
      exact ⟨l, hl, hleaf, h3 ▸ h2⟩
    · rintro ⟨l, hl, hleaf, hi⟩
      obtain ⟨z, hz, hz2⟩ := (bt.tree.mem_leaf_inputs_iff l.id (ExecTree.leaf_inputset l)).mpr
        ⟨l, hl, hleaf, rfl, rfl⟩
      have := (h.mapped i l.id).mpr ⟨z, hz, by rw [hz2], by rw [hz2]; exact hi⟩
      rw [this]
      rfl


/-! ## The vectors of the search for the middle snake -/

theorem Except.bind_ok_eq {ε α β : Type} (a : α) (f : α → Except ε β) :
    (Except.ok a >>= f) = f a := rfl

theorem NegIndexable.normal_idx_lt (a : NegIndexable) {w idx : Int}
    (hlen : 2 * w < a.vec.length) (h1 : -w ≤ idx) (h2 : idx ≤ w) :
    a.normal_idx idx < a.vec.length := by
  unfold NegIndexable.normal_idx
  split
  · omega
  · split
    · omega
    · omega

theorem NegIndexable.normal_idx_window (a : NegIndexable) {w idx : Int}
    (hlen : 2 * w < a.vec.length) (h1 : -w ≤ idx) :
    (a.normal_idx idx : Int) = if 0 ≤ idx then idx else (a.vec.length : Int) + idx := by
  unfold NegIndexable.normal_idx
  by_cases h : 0 ≤ idx
  · rw [if_pos h, if_pos h]
    omega
  · rw [if_neg h, if_neg h]
    have h2 : 0 ≤ (a.vec.length : Int) + idx := by omega
    rw [if_pos h2]
    omega

theorem NegIndexable.normal_idx_inj (a : NegIndexable) {w i j : Int}
    (hlen : 2 * w < a.vec.length) (h1 : -w ≤ i) (h2 : i ≤ w) (h3 : -w ≤ j) (h4 : j ≤ w)
    (h : a.normal_idx i = a.normal_idx j) : i = j := by
  have e1 := a.normal_idx_window hlen h1
  have e2 := a.normal_idx_window hlen h3
  rw [h] at e1
  rw [e1] at e2
  split at e2 <;> split at e2 <;> omega

theorem NegIndexable.get_create (n : Nat) {w idx : Int} (hlen : 2 * w < n) (h1 : -w ≤ idx)
    (h2 : idx ≤ w) : (NegIndexable.create n).get idx = .ok 0 := by
  have hl : (NegIndexable.create n).vec.length = n := by simp [NegIndexable.create]
  have := NegIndexable.normal_idx_lt (NegIndexable.create n) (by rw [hl]; exact hlen) h1 h2
  unfold NegIndexable.get
  rw [List.getElem?_eq_getElem this]
  simp [NegIndexable.create]

/-- A write inside the window changes the entry written and no other entry of the
window. -/
theorem NegIndexable.set_spec (a : NegIndexable) {w idx : Int} (v : Int)
    (hlen : 2 * w < a.vec.length) (h1 : -w ≤ idx) (h2 : idx ≤ w) (hv : 0 ≤ v) :
    ∃ a1, a.set idx v = .ok a1 ∧ a1.vec.length = a.vec.length ∧ a1.get idx = .ok v ∧
      ∀ j, -w ≤ j → j ≤ w → j ≠ idx → a1.get j = a.get j := by
  have hlt := a.normal_idx_lt hlen h1 h2
  refine ⟨{ vec := a.vec.set (a.normal_idx idx) v.toNat }, ?_, ?_, ?_, ?_⟩
  · unfold NegIndexable.set
    rw [if_pos hlt]
  · simp
  · have hn : NegIndexable.normal_idx { vec := a.vec.set (a.normal_idx idx) v.toNat } idx =
        a.normal_idx idx := by
      simp [NegIndexable.normal_idx]
    unfold NegIndexable.get
    rw [hn]
    simp only [List.getElem?_set_self hlt]
    congr 1
    omega
  · intro j h3 h4 hne
    have hn : NegIndexable.normal_idx { vec := a.vec.set (a.normal_idx idx) v.toNat } j =
        a.normal_idx j := by
      simp [NegIndexable.normal_idx]
    unfold NegIndexable.get
    rw [hn]
    have hne2 : a.normal_idx idx ≠ a.normal_idx j := by
      intro h
      exact hne (a.normal_idx_inj hlen h3 h4 h1 h2 h.symm)
    simp only [List.getElem?_set_ne hne2]

theorem at_index_nat (v : ExecPath) (i : Nat) (h : i < v.length) :
    at_index v (i : Int) = .ok (v.get ⟨i, h⟩) := by
  unfold at_index
  simp [List.getElem?_eq_getElem h]

theorem at_index_eq_getElem? (v : ExecPath) (i : Nat) (a : PCID) :
    at_index v (i : Int) = .ok a ↔ v[i]? = some a := by
  unfold at_index
  simp only [Int.natCast_nonneg, if_true, Int.toNat_ofNat]
  cases h : v[i]? with
  | none => simp
  | some b => simp

/-! ## The snake loop -/

/-- The snake loop returns: it moves along the diagonal, stays inside the two parts
unless it starts outside, and every step it makes follows a successful
comparison. -/
theorem snake_spec (left right : ExecPath) (ls N rs M : Nat) (back : Bool)
    (hl : ls + N ≤ left.length) (hr : rs + M ≤ right.length) :
    ∀ (fuel : Nat) (x y : Int), 0 ≤ x → 0 ≤ y → (N : Int) ≤ x + fuel →
    ∃ x1, snake left right ls N rs M back fuel x y = .ok (x1, y + (x1 - x)) ∧ x ≤ x1 ∧
      (¬ (x < N ∧ y < M) → x1 = x) ∧ (x < N → x1 ≤ N) ∧ (y < M → y + (x1 - x) ≤ M) ∧
      (x < x1 → snake_match left right ls N rs M back x y ∧
        snake_match left right ls N rs M back (x1 - 1) (y + (x1 - x) - 1)) ∧
      (x1 < N → y + (x1 - x) < M → ¬ snake_match left right ls N rs M back x1 (y + (x1 - x))) := by
  intro fuel
  induction fuel with
  | zero =>
    intro x y hx hy hf
    have hn : ¬ (x < N ∧ y < M) := by omega
    refine ⟨x, ?_, le_refl _, fun _ => rfl, by omega, by omega, by omega, by omega⟩
    unfold snake
    rw [if_neg hn]
    simp
  | succ fuel ih =>
    intro x y hx hy hf
    unfold snake
    by_cases hc : x < N ∧ y < M
    · rw [if_pos hc]
      have hxi : ∃ a, at_index left
          (if back = true then (ls : Int) + (N - x - 1) else ls + x) = .ok a := by
        by_cases hb : back = true
        · rw [if_pos hb]
          have e : (ls : Int) + (N - x - 1) = ((ls + (N - x - 1).toNat : Nat) : Int) := by
            omega
          rw [e]
          exact ⟨_, at_index_nat left _ (by omega)⟩
        · rw [if_neg hb]
          have e : (ls : Int) + x = ((ls + x.toNat : Nat) : Int) := by omega
          rw [e]
          exact ⟨_, at_index_nat left _ (by omega)⟩
      have hyi : ∃ b, at_index right
          (if back = true then (rs : Int) + (M - y - 1) else rs + y) = .ok b := by
        by_cases hb : back = true
        · rw [if_pos hb]
          have e : (rs : Int) + (M - y - 1) = ((rs + (M - y - 1).toNat : Nat) : Int) := by
            omega
          rw [e]
          exact ⟨_, at_index_nat right _ (by omega)⟩
        · rw [if_neg hb]
          have e : (rs : Int) + y = ((rs + y.toNat : Nat) : Int) := by omega
          rw [e]
          exact ⟨_, at_index_nat right _ (by omega)⟩
      obtain ⟨a, ha⟩ := hxi
      obtain ⟨b, hb⟩ := hyi
      rw [ha, hb]
      simp only [Except.bind_ok_eq]
      by_cases hab : a = b
      · rw [if_pos hab]
        obtain ⟨x1, h1, h2, h3, h4, h5, h6, h7⟩ := ih (x + 1) (y + 1) (by omega) (by omega)
          (by push_cast at hf ⊢; omega)
        have hm : snake_match left right ls N rs M back x y := ⟨a, ha, hab ▸ hb⟩
        refine ⟨x1, ?_, by omega, fun h => absurd hc h, ?_, ?_, ?_, ?_⟩
        · rw [h1]
          congr 2
          omega
        · intro _
          by_cases h8 : x + 1 < N
          · exact h4 h8
          · have := h3 (fun h => h8 h.1)
            omega
        · intro _
          by_cases h8 : y + 1 < M
          · have := h5 h8
            omega
          · have := h3 (fun h => h8 h.2)
            omega
        · intro _
          refine ⟨hm, ?_⟩
          by_cases h8 : x + 1 < x1
          · have := (h6 h8).2
            have e : y + 1 + (x1 - (x + 1)) - 1 = y + (x1 - x) - 1 := by omega
            rw [e] at this
            exact this
          · have e1 : x1 - 1 = x := by omega
            have e2 : y + (x1 - x) - 1 = y := by omega
            rw [e1, e2]
            exact hm
        · intro h8 h9
          have e : y + 1 + (x1 - (x + 1)) = y + (x1 - x) := by omega
          rw [e] at h7
          exact h7 h8 h9
      · rw [if_neg hab]
        refine ⟨x, ?_, le_refl _, fun _ => rfl, fun h => by omega, fun h => by omega,
          fun h => by omega, ?_⟩
        · simp
        · intro _ _
          simp only [sub_self, add_zero]
          rintro ⟨c, hc1, hc2⟩
          rw [ha] at hc1
          rw [hb] at hc2
          have e1 : a = c := by simpa using hc1
          have e2 : b = c := by simpa using hc2
          exact hab (e1.trans e2.symm)
    · rw [if_neg hc]
      refine ⟨x, by simp, le_refl _, fun _ => rfl, fun h => by omega, fun h => by omega,
        fun h => by omega, fun h1 h2 => ?_⟩
      simp only [sub_self, add_zero] at h2
      exact absurd ⟨h1, h2⟩ hc

theorem snake_ge (left right : ExecPath) (ls N rs M : Nat) (back : Bool) :
    ∀ (fuel : Nat) (x y : Int) (r : Int × Int),
      snake left right ls N rs M back fuel x y = .ok r → x ≤ r.1 := by
  intro fuel
  induction fuel with
  | zero =>
    intro x y r h
    unfold snake at h
    split at h
    · exact Except.noConfusion h
    · have e : (x, y) = r := by simpa using h
      rw [← e]
  | succ fuel ih =>
    intro x y r h
    unfold snake at h
    split at h
    · cases ha : at_index left (if back = true then (ls : Int) + (N - x - 1) else ls + x) with
      | error f => rw [ha] at h; exact Except.noConfusion h
      | ok a =>
        cases hb : at_index right (if back = true then (rs : Int) + (M - y - 1) else rs + y) with
        | error f => rw [ha, hb] at h; exact Except.noConfusion h
        | ok b =>
          rw [ha, hb] at h
          simp only [Except.bind_ok_eq] at h
          split at h
          · have := ih _ _ _ h
            omega
          · have e : (x, y) = r := by simpa using h
            rw [← e]
    · have e : (x, y) = r := by simpa using h
      rw [← e]

theorem snake_end_ge (left right : ExecPath) (ls N rs M : Nat) (back : Bool) (x k : Int) :
    x ≤ snake_end left right ls N rs M back x k := by
  unfold snake_end
  cases h : snake left right ls N rs M back (N + 1) x (x - k) with
  | error f => exact le_refl _
  | ok r => exact snake_ge left right ls N rs M back _ _ _ r h

/-- The end of the snake from a start with non-negative coordinates. -/
theorem snake_end_spec (left right : ExecPath) (ls N rs M : Nat) (back : Bool)
    (hl : ls + N ≤ left.length) (hr : rs + M ≤ right.length) (x k : Int) (hx : 0 ≤ x)
    (hy : 0 ≤ x - k) :
    snake left right ls N rs M back (N + 1) x (x - k) =
      .ok (snake_end left right ls N rs M back x k,
        snake_end left right ls N rs M back x k - k) ∧
    (¬ (x < N ∧ x - k < M) → snake_end left right ls N rs M back x k = x) ∧
    (x < N → snake_end left right ls N rs M back x k ≤ N) ∧
    (x - k < M → snake_end left right ls N rs M back x k - k ≤ M) ∧
    (x < snake_end left right ls N rs M back x k →
      snake_match left right ls N rs M back x (x - k) ∧
      snake_match left right ls N rs M back (snake_end left right ls N rs M back x k - 1)
        (snake_end left right ls N rs M back x k - k - 1)) ∧
    (snake_end left right ls N rs M back x k < N →
      snake_end left right ls N rs M back x k - k < M →
      ¬ snake_match left right ls N rs M back (snake_end left right ls N rs M back x k)
        (snake_end left right ls N rs M back x k - k)) := by
  obtain ⟨x1, h1, h2, h3, h4, h5, h6, h7⟩ :=
    snake_spec left right ls N rs M back hl hr (N + 1) x (x - k) hx hy (by push_cast; omega)
  have he : snake_end left right ls N rs M back x k = x1 := by
    unfold snake_end
    rw [h1]
  have e1 : x - k + (x1 - x) = x1 - k := by omega
  rw [e1] at h1 h5 h6 h7
  have e2 : x1 - k - 1 = x1 - k - 1 := rfl
  rw [he]
  exact ⟨h1, h3, h4, h5, h6, h7⟩

/-! ## The rows of the search -/

theorem search_row_succ (left right : ExecPath) (ls N rs M : Nat) (back : Bool) (d : Nat)
    (k : Int) :
    search_row left right ls N rs M back (d + 1) k =
      snake_end left right ls N rs M back
        (diag_start (search_row left right ls N rs M back d) d k) k := rfl

theorem diag_start_nonneg {g : Int → Int} (hg : ∀ k, 0 ≤ g k) (d k : Int) :
    0 ≤ diag_start g d k := by
  unfold diag_start
  split
  · exact hg _
  · split
    · split
      · exact hg _
      · have := hg (k - 1)
        omega
    · have := hg (k - 1)
      omega

theorem search_row_nonneg (left right : ExecPath) (ls N rs M : Nat) (back : Bool) :
    ∀ (d : Nat) (k : Int), 0 ≤ search_row left right ls N rs M back d k := by
  intro d
  induction d with
  | zero => intro k; simp [search_row]
  | succ d ih =>
    intro k
    rw [search_row_succ]
    exact le_trans (diag_start_nonneg ih d k) (snake_end_ge _ _ _ _ _ _ _ _ _)

/-- The start on a diagonal of round `d` has non-negative coordinates whose sum is at
least `d`. -/
theorem diag_start_in_row (left right : ExecPath) (ls N rs M : Nat) (back : Bool) :
    ∀ (d : Nat) (k : Int), InRow d k →
      0 ≤ diag_start (search_row left right ls N rs M back d) d k - k ∧
      (d : Int) ≤ 2 * diag_start (search_row left right ls N rs M back d) d k - k := by
  intro d
  induction d with
  | zero =>
    intro k hk
    have hk0 : k = 0 := by unfold InRow at hk; omega
    subst hk0
    simp [diag_start, search_row]
  | succ d ih =>
    intro k hk
    unfold InRow at hk
    have hstep : ∀ k1, InRow d k1 →
        0 ≤ search_row left right ls N rs M back (d + 1) k1 - k1 ∧
        (d : Int) ≤ 2 * search_row left right ls N rs M back (d + 1) k1 - k1 := by
      intro k1 hk1
      have := ih k1 hk1
      have h2 := snake_end_ge left right ls N rs M back
        (diag_start (search_row left right ls N rs M back d) d k1) k1
      rw [← search_row_succ] at h2
      omega
    unfold diag_start
    push_cast
    by_cases h1 : k = -((d : Int) + 1)
    · rw [if_pos h1]
      have := hstep (k + 1) (by unfold InRow; omega)
      omega
    · rw [if_neg h1]
      by_cases h2 : k ≠ (d : Int) + 1
      · rw [if_pos h2]
        have ha := hstep (k + 1) (by unfold InRow; omega)
        have hb := hstep (k - 1) (by unfold InRow; omega)
        split <;> omega
      · rw [if_neg h2]
        have hb := hstep (k - 1) (by unfold InRow; omega)
        omega

theorem search_row_in_row (left right : ExecPath) (ls N rs M : Nat) (back : Bool)
    (d : Nat) (k : Int) (hk : InRow d k) :
    0 ≤ search_row left right ls N rs M back (d + 1) k - k ∧
    (d : Int) ≤ 2 * search_row left right ls N rs M back (d + 1) k - k := by
  have := diag_start_in_row left right ls N rs M back d k hk
  have h2 := snake_end_ge left right ls N rs M back
    (diag_start (search_row left right ls N rs M back d) d k) k
  rw [← search_row_succ] at h2
  omega

/-- The start on diagonal `k` is at least the entry above it, and at least one more
than the entry on its left. -/
theorem diag_start_ge (g : Int → Int) (d k : Int) :
    (k ≠ d → g (k + 1) ≤ diag_start g d k) ∧ (k ≠ -d → g (k - 1) + 1 ≤ diag_start g d k) := by
  unfold diag_start
  constructor
  · intro h1
    by_cases h0 : k = -d
    · rw [if_pos h0]
    · rw [if_neg h0, if_pos h1]
      split <;> omega
  · intro h1
    rw [if_neg h1]
    by_cases h2 : k ≠ d
    · rw [if_pos h2]
      split <;> omega
    · rw [if_neg h2]

/-- The start is the entry above or one more than the entry on the left. -/
theorem diag_start_cases (g : Int → Int) (d k : Int) :
    (diag_start g d k = g (k + 1) ∧ (k = -d ∨ k ≠ d)) ∨
    (diag_start g d k = g (k - 1) + 1 ∧ k ≠ -d) := by
  unfold diag_start
  by_cases h1 : k = -d
  · rw [if_pos h1]
    exact Or.inl ⟨rfl, Or.inl h1⟩
  · rw [if_neg h1]
    by_cases h2 : k ≠ d
    · rw [if_pos h2]
      split
      · exact Or.inl ⟨rfl, Or.inr h2⟩
      · exact Or.inr ⟨rfl, h1⟩
    · rw [if_neg h2]
      exact Or.inr ⟨rfl, h1⟩

/-- An entry beyond the end of the left part was reached by steps to the right only:
`j` rounds earlier and `j` diagonals to the left the search was at the end of the left
part already. -/
theorem row_undo_right (left right : ExecPath) (ls N rs M : Nat) (back : Bool)
    (hl : ls + N ≤ left.length) (hr : rs + M ≤ right.length) :
    ∀ (d : Nat) (k : Int) (j : Nat), InRow d k → 1 ≤ j →
      (N : Int) + j ≤ search_row left right ls N rs M back (d + 1) k →
      j ≤ d ∧ InRow (d - j) (k - j) ∧
        (N : Int) ≤ search_row left right ls N rs M back (d - j + 1) (k - j) := by
  intro d
  induction d with
  | zero =>
    intro k j hk hj hx
    exfalso
    have hk0 : k = 0 := by unfold InRow at hk; omega
    subst hk0
    rw [search_row_succ] at hx
    have hs : diag_start (search_row left right ls N rs M back 0) (0 : Nat) 0 = 0 := by
      simp [diag_start, search_row]
    rw [hs] at hx
    obtain ⟨_, h2, h3, _⟩ := snake_end_spec left right ls N rs M back hl hr 0 0 (le_refl _)
      (by simp)
    by_cases h : (0 : Int) < N
    · have := h3 h
      omega
    · have := h2 (fun hh => h hh.1)
      omega
  | succ d ih =>
    intro k j hk hj hx
    have hs0 := diag_start_nonneg (search_row_nonneg left right ls N rs M back (d + 1))
      ((d + 1 : Nat) : Int) k
    have hs1 := diag_start_in_row left right ls N rs M back (d + 1) k hk
    rw [search_row_succ] at hx
    obtain ⟨_, h2, h3, _⟩ := snake_end_spec left right ls N rs M back hl hr _ k hs0 hs1.1
    have hsx : (N : Int) + j ≤
        diag_start (search_row left right ls N rs M back (d + 1)) ((d + 1 : Nat) : Int) k := by
      by_cases h : diag_start (search_row left right ls N rs M back (d + 1))
          ((d + 1 : Nat) : Int) k < N
      · have := h3 h
        omega
      · have := h2 (fun hh => h hh.1)
        omega
    unfold InRow at hk
    rcases diag_start_cases (search_row left right ls N rs M back (d + 1))
        ((d + 1 : Nat) : Int) k with ⟨he, hc⟩ | ⟨he, hc⟩
    · have hk1 : InRow d (k + 1) := by
        unfold InRow
        push_cast at hk hc
        omega
      rw [he] at hsx
      obtain ⟨g1, g2, g3⟩ := ih (k + 1) j hk1 hj hsx
      have hne : k - (j : Int) ≠ ((d - j + 1 : Nat) : Int) := by
        push_cast at hk hc ⊢
        omega
      have hge := (diag_start_ge (search_row left right ls N rs M back (d - j + 1))
        ((d - j + 1 : Nat) : Int) (k - j)).1 hne
      have hse := snake_end_ge left right ls N rs M back
        (diag_start (search_row left right ls N rs M back (d - j + 1))
          ((d - j + 1 : Nat) : Int) (k - j)) (k - j)
      rw [← search_row_succ] at hse
      have e1 : d + 1 - j = d - j + 1 := by omega
      have e2 : k - (j : Int) + 1 = k + 1 - j := by omega
      rw [e2] at hge
      refine ⟨by omega, ?_, ?_⟩
      · unfold InRow at g2 ⊢
        push_cast at g2 ⊢
        omega
      · rw [e1]
        omega
    · have hk1 : InRow d (k - 1) := by
        unfold InRow
        push_cast at hk hc
        omega
      rw [he] at hsx
      by_cases hj1 : j = 1
      · subst hj1
        refine ⟨by omega, ?_, ?_⟩
        · simpa using hk1
        · simp only [Nat.add_sub_cancel, Nat.cast_one]
          push_cast at hsx
          omega
      · obtain ⟨g1, g2, g3⟩ := ih (k - 1) (j - 1) hk1 (by omega) (by push_cast; omega)
        have e1 : d - (j - 1) = d + 1 - j := by omega
        have e2 : k - 1 - ((j - 1 : Nat) : Int) = k - j := by omega
        rw [e1, e2] at g2 g3
        exact ⟨by omega, g2, g3⟩

/-- An entry beyond the end of the right part was reached by steps down only: `j`
rounds earlier and `j` diagonals to the right the search was at the end of the right
part already. -/
theorem row_undo_down (left right : ExecPath) (ls N rs M : Nat) (back : Bool)
    (hl : ls + N ≤ left.length) (hr : rs + M ≤ right.length) :
    ∀ (d : Nat) (k : Int) (j : Nat), InRow d k → 1 ≤ j →
      (M : Int) + j ≤ search_row left right ls N rs M back (d + 1) k - k →
      j ≤ d ∧ InRow (d - j) (k + j) ∧
        (M : Int) ≤ search_row left right ls N rs M back (d - j + 1) (k + j) - (k + j) := by
  intro d
  induction d with
  | zero =>
    intro k j hk hj hx
    exfalso
    have hk0 : k = 0 := by unfold InRow at hk; omega
    subst hk0
    rw [search_row_succ] at hx
    have hs : diag_start (search_row left right ls N rs M back 0) (0 : Nat) 0 = 0 := by
      simp [diag_start, search_row]
    rw [hs] at hx
    obtain ⟨_, h2, _, h4, _⟩ := snake_end_spec left right ls N rs M back hl hr 0 0 (le_refl _)
      (by simp)
    by_cases h : (0 : Int) - 0 < M
    · have := h4 h
      omega
    · have := h2 (fun hh => h hh.2)
      omega
  | succ d ih =>
    intro k j hk hj hx
    have hs0 := diag_start_nonneg (search_row_nonneg left right ls N rs M back (d + 1))
      ((d + 1 : Nat) : Int) k
    have hs1 := diag_start_in_row left right ls N rs M back (d + 1) k hk
    rw [search_row_succ] at hx
    obtain ⟨_, h2, _, h4, _⟩ := snake_end_spec left right ls N rs M back hl hr _ k hs0 hs1.1
    have hsx : (M : Int) + j ≤
        diag_start (search_row left right ls N rs M back (d + 1)) ((d + 1 : Nat) : Int) k - k := by
      by_cases h : diag_start (search_row left right ls N rs M back (d + 1))
          ((d + 1 : Nat) : Int) k - k < M
      · have := h4 h
        omega
      · have := h2 (fun hh => h hh.2)
        omega
    unfold InRow at hk
    rcases diag_start_cases (search_row left right ls N rs M back (d + 1))
        ((d + 1 : Nat) : Int) k with ⟨he, hc⟩ | ⟨he, hc⟩
    · have hk1 : InRow d (k + 1) := by
        unfold InRow
        push_cast at hk hc
        omega
      rw [he] at hsx
      by_cases hj1 : j = 1
      · subst hj1
        refine ⟨by omega, ?_, ?_⟩
        · simpa using hk1
        · simp only [Nat.add_sub_cancel, Nat.cast_one]
          push_cast at hsx
          omega
      · obtain ⟨g1, g2, g3⟩ := ih (k + 1) (j - 1) hk1 (by omega) (by push_cast; omega)
        have e1 : d - (j - 1) = d + 1 - j := by omega
        have e2 : k + 1 + ((j - 1 : Nat) : Int) = k + j := by omega
        rw [e1, e2] at g2 g3
        exact ⟨by omega, g2, g3⟩
    · have hk1 : InRow d (k - 1) := by
        unfold InRow
        push_cast at hk hc
        omega
      rw [he] at hsx
      obtain ⟨g1, g2, g3⟩ := ih (k - 1) j hk1 hj (by omega)
      have hne : k + (j : Int) ≠ -((d - j + 1 : Nat) : Int) := by
        push_cast at hk hc ⊢
        omega
      have hge := (diag_start_ge (search_row left right ls N rs M back (d - j + 1))
        ((d - j + 1 : Nat) : Int) (k + j)).2 hne
      have hse := snake_end_ge left right ls N rs M back
        (diag_start (search_row left right ls N rs M back (d - j + 1))
          ((d - j + 1 : Nat) : Int) (k + j)) (k + j)
      rw [← search_row_succ] at hse
      have e1 : d + 1 - j = d - j + 1 := by omega
      have e2 : k + (j : Int) - 1 = k - 1 + j := by omega
      rw [e2] at hge
      refine ⟨by omega, ?_, ?_⟩
      · unfold InRow at g2 ⊢
        push_cast at g2 ⊢
        omega
      · rw [e1]
        omega

/-! ## The overlap tests -/

/-- The forward test succeeds on a diagonal in reach of the backward search as soon as
the forward search is at the end of one of the two parts. -/
theorem forward_hit_of_edge (left right : ExecPath) (ls N rs M : Nat) (d : Nat) (k : Int)
    (hk : InRow d k) (hodd : ((N : Int) - M) % 2 = 1)
    (h1 : -((d : Int) - 1) ≤ (N : Int) - M - k) (h2 : (N : Int) - M - k ≤ (d : Int) - 1)
    (he : (N : Int) ≤ search_row left right ls N rs M false (d + 1) k ∨
      (M : Int) ≤ search_row left right ls N rs M false (d + 1) k - k) :
    forward_hit left right ls N rs M d k := by
  refine ⟨hodd, h1, h2, ?_⟩
  have hb0 := search_row_nonneg left right ls N rs M true d ((N : Int) - M - k)
  rcases he with he | he
  · omega
  · unfold InRow at hk
    have hd : 1 ≤ d := by omega
    have hin : InRow (d - 1) ((N : Int) - M - k) := by
      unfold InRow
      omega
    have := search_row_in_row left right ls N rs M true (d - 1) _ hin
    have e : d - 1 + 1 = d := by omega
    rw [e] at this
    omega

/-- The backward test succeeds on a diagonal in reach of the forward search as soon as
the backward search is at the end of one of the two parts. -/
theorem backward_hit_of_edge (left right : ExecPath) (ls N rs M : Nat) (d : Nat) (k : Int)
    (hk : InRow d k) (heven : ((N : Int) - M) % 2 = 0)
    (h1 : -(d : Int) ≤ (N : Int) - M - k) (h2 : (N : Int) - M - k ≤ (d : Int))
    (he : (N : Int) ≤ search_row left right ls N rs M true (d + 1) k ∨
      (M : Int) ≤ search_row left right ls N rs M true (d + 1) k - k) :
    backward_hit left right ls N rs M d k := by
  refine ⟨heven, h1, h2, ?_⟩
  have hb0 := search_row_nonneg left right ls N rs M false (d + 1) ((N : Int) - M - k)
  rcases he with he | he
  · omega
  · unfold InRow at hk
    have hin : InRow d ((N : Int) - M - k) := by
      unfold InRow
      omega
    have := search_row_in_row left right ls N rs M false d _ hin
    omega

/-- At the first successful forward test the forward search is inside the two parts. -/
theorem forward_hit_in_grid (left right : ExecPath) (ls N rs M : Nat)
    (hl : ls + N ≤ left.length) (hr : rs + M ≤ right.length) (d : Nat) (k : Int)
    (hno : NoHit left right ls N rs M d) (hk : InRow d k)
    (hh : forward_hit left right ls N rs M d k) :
    search_row left right ls N rs M false (d + 1) k ≤ N ∧
    search_row left right ls N rs M false (d + 1) k - k ≤ M := by
  obtain ⟨hodd, h1, h2, _⟩ := hh
  by_contra hcon
  by_cases hx : search_row left right ls N rs M false (d + 1) k ≤ N
  · have hy : (M : Int) + ((search_row left right ls N rs M false (d + 1) k - k - M).toNat : Nat)
        ≤ search_row left right ls N rs M false (d + 1) k - k := by omega
    obtain ⟨g1, g2, g3⟩ := row_undo_down left right ls N rs M false hl hr d k _ hk
      (by omega) hy
    refine (hno _ (by omega) _ g2).1 (forward_hit_of_edge left right ls N rs M _ _ g2 hodd
      ?_ ?_ (Or.inr g3))
    · omega
    · omega
  · have hxj : (N : Int) + ((search_row left right ls N rs M false (d + 1) k - N).toNat : Nat)
        ≤ search_row left right ls N rs M false (d + 1) k := by omega
    obtain ⟨g1, g2, g3⟩ := row_undo_right left right ls N rs M false hl hr d k _ hk
      (by omega) hxj
    by_cases hy : search_row left right ls N rs M false (d + 1) k - k ≤ M
    · refine (hno _ (by omega) _ g2).1 (forward_hit_of_edge left right ls N rs M _ _ g2 hodd
        ?_ ?_ (Or.inl g3))
      · omega
      · omega
    · have hy2 : (M : Int) +
          ((search_row left right ls N rs M false (d + 1) k - k - M).toNat : Nat) ≤
          search_row left right ls N rs M false
            (d - (search_row left right ls N rs M false (d + 1) k - N).toNat + 1)
            (k - ((search_row left right ls N rs M false (d + 1) k - N).toNat : Nat)) -
          (k - ((search_row left right ls N rs M false (d + 1) k - N).toNat : Nat)) := by
        omega
      obtain ⟨q1, q2, q3⟩ := row_undo_down left right ls N rs M false hl hr _ _ _ g2
        (by omega) hy2
      have hq2 := q2
      unfold InRow at hq2
      refine (hno _ (by omega) _ q2).1 (forward_hit_of_edge left right ls N rs M _ _ q2 hodd
        ?_ ?_ (Or.inr q3))
      · omega
      · omega

/-- At the first successful backward test the backward search is inside the two
parts. -/
theorem backward_hit_in_grid (left right : ExecPath) (ls N rs M : Nat)
    (hl : ls + N ≤ left.length) (hr : rs + M ≤ right.length) (d : Nat) (k : Int)
    (hno : NoHit left right ls N rs M d) (hk : InRow d k)
    (hh : backward_hit left right ls N rs M d k) :
    search_row left right ls N rs M true (d + 1) k ≤ N ∧
    search_row left right ls N rs M true (d + 1) k - k ≤ M := by
  obtain ⟨heven, h1, h2, _⟩ := hh
  by_contra hcon
  by_cases hx : search_row left right ls N rs M true (d + 1) k ≤ N
  · have hy : (M : Int) + ((search_row left right ls N rs M true (d + 1) k - k - M).toNat : Nat)
        ≤ search_row left right ls N rs M true (d + 1) k - k := by omega
    obtain ⟨g1, g2, g3⟩ := row_undo_down left right ls N rs M true hl hr d k _ hk
      (by omega) hy
    refine (hno _ (by omega) _ g2).2 (backward_hit_of_edge left right ls N rs M _ _ g2 heven
      ?_ ?_ (Or.inr g3))
    · omega
    · omega
  · have hxj : (N : Int) + ((search_row left right ls N rs M true (d + 1) k - N).toNat : Nat)
        ≤ search_row left right ls N rs M true (d + 1) k := by omega
    obtain ⟨g1, g2, g3⟩ := row_undo_right left right ls N rs M true hl hr d k _ hk
      (by omega) hxj
    by_cases hy : search_row left right ls N rs M true (d + 1) k - k ≤ M
    · refine (hno _ (by omega) _ g2).2 (backward_hit_of_edge left right ls N rs M _ _ g2 heven
        ?_ ?_ (Or.inl g3))
      · omega
      · omega
    · have hy2 : (M : Int) +
          ((search_row left right ls N rs M true (d + 1) k - k - M).toNat : Nat) ≤
          search_row left right ls N rs M true
            (d - (search_row left right ls N rs M true (d + 1) k - N).toNat + 1)
            (k - ((search_row left right ls N rs M true (d + 1) k - N).toNat : Nat)) -
          (k - ((search_row left right ls N rs M true (d + 1) k - N).toNat : Nat)) := by
        omega
      obtain ⟨q1, q2, q3⟩ := row_undo_down left right ls N rs M true hl hr _ _ _ g2
        (by omega) hy2
      refine (hno _ (by omega) _ q2).2 (backward_hit_of_edge left right ls N rs M _ _ q2 heven
        ?_ ?_ (Or.inr q3))
      · omega
      · omega

/-- At the first successful forward test after round 1 the snake does not start at the
far corner. -/
theorem forward_hit_start (left right : ExecPath) (ls N rs M : Nat)
    (hl : ls + N ≤ left.length) (hr : rs + M ≤ right.length) (d : Nat) (k : Int)
    (hno : NoHit left right ls N rs M d) (hk : InRow d k)
    (hh : forward_hit left right ls N rs M d k) (hd : 2 ≤ d) :
    2 * diag_start (search_row left right ls N rs M false d) d k - k < (N : Int) + M := by
  obtain ⟨g1, g2⟩ := forward_hit_in_grid left right ls N rs M hl hr d k hno hk hh
  obtain ⟨hodd, h1, h2, _⟩ := hh
  have hse := snake_end_ge left right ls N rs M false
    (diag_start (search_row left right ls N rs M false d) d k) k
  rw [← search_row_succ] at hse
  by_contra hcon
  obtain ⟨e, rfl⟩ : ∃ e, d = e + 1 := ⟨d - 1, by omega⟩
  have hk2 := hk
  unfold InRow at hk2
  rcases diag_start_cases (search_row left right ls N rs M false (e + 1))
      ((e + 1 : Nat) : Int) k with ⟨he, hc⟩ | ⟨he, hc⟩
  · have hin : InRow e (k + 1) := by
      unfold InRow
      push_cast at hk2 hc
      omega
    rw [he] at hcon hse
    refine (hno e (by omega) _ hin).1 (forward_hit_of_edge left right ls N rs M _ _ hin hodd
      ?_ ?_ (Or.inl ?_))
    · push_cast at hk2; omega
    · push_cast at hk2; omega
    · omega
  · have hin : InRow e (k - 1) := by
      unfold InRow
      push_cast at hk2 hc
      omega
    rw [he] at hcon hse
    refine (hno e (by omega) _ hin).1 (forward_hit_of_edge left right ls N rs M _ _ hin hodd
      ?_ ?_ (Or.inr ?_))
    · push_cast at hk2; omega
    · push_cast at hk2; omega
    · omega

/-- At the first successful backward test after round 0 the snake does not start at
the far corner. -/
theorem backward_hit_start (left right : ExecPath) (ls N rs M : Nat)
    (hl : ls + N ≤ left.length) (hr : rs + M ≤ right.length) (d : Nat) (k : Int)
    (hno : NoHit left right ls N rs M d) (hk : InRow d k)
    (hh : backward_hit left right ls N rs M d k) (hd : 1 ≤ d) :
    2 * diag_start (search_row left right ls N rs M true d) d k - k < (N : Int) + M := by
  obtain ⟨g1, g2⟩ := backward_hit_in_grid left right ls N rs M hl hr d k hno hk hh
  obtain ⟨heven, h1, h2, _⟩ := hh
  have hse := snake_end_ge left right ls N rs M true
    (diag_start (search_row left right ls N rs M true d) d k) k
  rw [← search_row_succ] at hse
  by_contra hcon
  obtain ⟨e, rfl⟩ : ∃ e, d = e + 1 := ⟨d - 1, by omega⟩
  have hk2 := hk
  unfold InRow at hk2
  rcases diag_start_cases (search_row left right ls N rs M true (e + 1))
      ((e + 1 : Nat) : Int) k with ⟨he, hc⟩ | ⟨he, hc⟩
  · have hin : InRow e (k + 1) := by
      unfold InRow
      push_cast at hk2 hc
      omega
    rw [he] at hcon hse
    refine (hno e (by omega) _ hin).2 (backward_hit_of_edge left right ls N rs M _ _ hin heven
      ?_ ?_ (Or.inl ?_))
    · push_cast at hk2; omega
    · push_cast at hk2; omega
    · omega
  · have hin : InRow e (k - 1) := by
      unfold InRow
      push_cast at hk2 hc
      omega
    rw [he] at hcon hse
    refine (hno e (by omega) _ hin).2 (backward_hit_of_edge left right ls N rs M _ _ hin heven
      ?_ ?_ (Or.inr ?_))
    · push_cast at hk2; omega
    · push_cast at hk2; omega
    · omega

/-- In round `d_max` an overlap test succeeds, if none did before. -/
theorem hit_by_d_max (left right : ExecPath) (ls N rs M : Nat) (hN : 1 ≤ N) (hM : 1 ≤ M)
    (d : Nat) (hd : d = if (N + M) % 2 = 0 then (N + M) / 2 else (N + M) / 2 + 1) :
    ∃ k, InRow d k ∧ (forward_hit left right ls N rs M d k ∨
      backward_hit left right ls N rs M d k) := by
  by_cases hpar : (N + M) % 2 = 0
  · rw [if_pos hpar] at hd
    have heven : ((N : Int) - M) % 2 = 0 := by omega
    have hex : ∃ k : Int, InRow d k ∧ -(d : Int) ≤ (N : Int) - M - k ∧
        (N : Int) - M - k ≤ d := by
      by_cases hNM : M ≤ N
      · refine ⟨(N : Int) - M - d, ?_, by omega, by omega⟩
        unfold InRow
        omega
      · refine ⟨(N : Int) - M + d, ?_, by omega, by omega⟩
        unfold InRow
        omega
    obtain ⟨k, hk, h1, h2⟩ := hex
    refine ⟨k, hk, Or.inr ⟨heven, h1, h2, ?_⟩⟩
    have a1 := search_row_in_row left right ls N rs M true d k hk
    have hin : InRow d ((N : Int) - M - k) := by
      unfold InRow at hk ⊢
      omega
    have a2 := search_row_in_row left right ls N rs M false d _ hin
    omega
  · rw [if_neg hpar] at hd
    have hodd : ((N : Int) - M) % 2 = 1 := by omega
    have hex : ∃ k : Int, InRow d k ∧ -((d : Int) - 1) ≤ (N : Int) - M - k ∧
        (N : Int) - M - k ≤ (d : Int) - 1 := by
      by_cases hNM : M ≤ N
      · refine ⟨(N : Int) - M - (d - 1), ?_, by omega, by omega⟩
        unfold InRow
        omega
      · refine ⟨(N : Int) - M + (d - 1), ?_, by omega, by omega⟩
        unfold InRow
        omega
    obtain ⟨k, hk, h1, h2⟩ := hex
    refine ⟨k, hk, Or.inl ⟨hodd, h1, h2, ?_⟩⟩
    have a1 := search_row_in_row left right ls N rs M false d k hk
    have hin : InRow (d - 1) ((N : Int) - M - k) := by
      unfold InRow at hk ⊢
      omega
    have a2 := search_row_in_row left right ls N rs M true (d - 1) _ hin
    have e : d - 1 + 1 = d := by omega
    rw [e] at a2
    omega
theorem tmod_two_ne_zero (a : Int) : Int.tmod a 2 ≠ 0 ↔ a % 2 = 1 := by
  cases a with
  | ofNat n =>
    have : Int.tmod (Int.ofNat n) 2 = (Int.ofNat n) % 2 :=
      Int.tmod_eq_emod (Int.ofNat_nonneg n) (by omega)
    rw [this]
    omega
  | negSucc m =>
    have : Int.tmod (Int.negSucc m) 2 = -(((m + 1) % 2 : Nat) : Int) := rfl
    rw [this, Int.negSucc_eq]
    omega
theorem tmod_two_eq_zero (a : Int) : Int.tmod a 2 = 0 ↔ a % 2 = 0 := by
  have := tmod_two_ne_zero a
  constructor
  · intro h
    by_contra h2
    have h3 : a % 2 = 1 := by omega
    exact (this.mpr h3) h
  · intro h
    by_contra h2
    have := this.mp h2
    omega

/-! ## The loops of the search and the rows -/

theorem holdsPrev_succ {a : NegIndexable} {g : Nat → Int → Int} {d : Nat}
    (h : ∀ k, InRow d k → a.get k = .ok (g (d + 1) k)) : HoldsPrev a g (d + 1) := by
  intro k hk
  unfold InPrev at hk
  rcases hk with ⟨h0, _⟩ | ⟨_, hk⟩
  · omega
  · exact h k (by simpa using hk)

theorem start_x_spec (a : NegIndexable) (g : Nat → Int → Int) (d : Nat) (k : Int)
    (hp : HoldsPrev a g d) (hk : InRow d k) :
    start_x a d k = .ok (diag_start (g d) d k) := by
  unfold InRow at hk
  have hget : ∀ k1, InPrev d k1 → a.get k1 = .ok (g d k1) := hp
  unfold start_x diag_start
  by_cases h1 : k = -(d : Int)
  · rw [if_pos h1, if_pos h1]
    apply hget
    unfold InPrev InRow
    omega
  · rw [if_neg h1, if_neg h1]
    have hm : a.get (k - 1) = .ok (g d (k - 1)) := by
      apply hget
      unfold InPrev InRow
      omega
    by_cases h2 : k ≠ (d : Int)
    · rw [if_pos h2, if_pos h2]
      have hq : a.get (k + 1) = .ok (g d (k + 1)) := by
        apply hget
        unfold InPrev InRow
        omega
      rw [hm, hq]
      simp only [Except.bind_ok_eq]
      split <;> rfl
    · rw [if_neg h2, if_neg h2, hm]
      rfl

/-- The statements of a pass of an inner loop up to the write: the start, the snake
and the new entry are those of the row. -/
theorem loop_body_spec (left right : ExecPath) (ls N rs M : Nat) (back : Bool)
    (hl : ls + N ≤ left.length) (hr : rs + M ≤ right.length) (a : NegIndexable) (d : Nat)
    (k : Int) (hlen : a.vec.length = 2 * (N + M)) (hd : d + 1 ≤ N + M) (hNM : 2 ≤ N + M)
    (hp : HoldsPrev a (search_row left right ls N rs M back) d)
    (hb : HoldsBelow a (search_row left right ls N rs M back) d k) (hk : InRow d k) :
    start_x a d k = .ok (diag_start (search_row left right ls N rs M back d) d k) ∧
    snake left right ls N rs M back (N + 1)
        (diag_start (search_row left right ls N rs M back d) d k)
        (diag_start (search_row left right ls N rs M back d) d k - k) =
      .ok (search_row left right ls N rs M back (d + 1) k,
        search_row left right ls N rs M back (d + 1) k - k) ∧
    ∃ a1, a.set k (search_row left right ls N rs M back (d + 1) k) = .ok a1 ∧
      a1.vec.length = 2 * (N + M) ∧
      a1.get k = .ok (search_row left right ls N rs M back (d + 1) k) ∧
      HoldsPrev a1 (search_row left right ls N rs M back) d ∧
      HoldsBelow a1 (search_row left right ls N rs M back) d (k + 2) := by
  have hs0 := diag_start_nonneg (search_row_nonneg left right ls N rs M back d) (d : Int) k
  have hs1 := diag_start_in_row left right ls N rs M back d k hk
  obtain ⟨e1, _⟩ := snake_end_spec left right ls N rs M back hl hr _ k hs0 hs1.1
  rw [← search_row_succ] at e1
  refine ⟨start_x_spec a _ d k hp hk, e1, ?_⟩
  have hk2 := hk
  unfold InRow at hk2
  have hw : 2 * ((N : Int) + M - 1) < a.vec.length := by rw [hlen]; push_cast; omega
  obtain ⟨a1, g1, g2, g3, g4⟩ := @NegIndexable.set_spec a ((N : Int) + M - 1) k
    (search_row left right ls N rs M back (d + 1) k) hw (by omega) (by omega)
    (search_row_nonneg left right ls N rs M back (d + 1) k)
  refine ⟨a1, g1, by rw [g2, hlen], g3, ?_, ?_⟩
  · intro k1 hk1
    have := hp k1 hk1
    rw [← this]
    unfold InPrev InRow at hk1
    apply g4 <;> omega
  · intro k1 hk1 hlt
    by_cases e : k1 = k
    · rw [e]
      exact g3
    · have hk1' := hk1
      unfold InRow at hk1'
      rw [g4 k1 (by omega) (by omega) e]
      exact hb k1 hk1 (by omega)

/-- The forward loop of round `d` returns: with the tuple of the first diagonal on
which the overlap test succeeds, or with the complete row. -/
theorem forward_loop_spec (left right : ExecPath) (ls N rs M : Nat)
    (hl : ls + N ≤ left.length) (hr : rs + M ≤ right.length) (d : Nat) (vb : NegIndexable)
    (hd : d + 1 ≤ N + M) (hNM : 2 ≤ N + M)
    (hvb : 1 ≤ d → ∀ k, InRow (d - 1) k →
      vb.get k = .ok (search_row left right ls N rs M true d k)) :
    ∀ (fuel : Nat) (i : Nat) (vf : NegIndexable), fuel + i = d + 1 →
      vf.vec.length = 2 * (N + M) →
      HoldsPrev vf (search_row left right ls N rs M false) d →
      HoldsBelow vf (search_row left right ls N rs M false) d (-(d : Int) + 2 * i) →
      (∀ k, InRow d k → k < -(d : Int) + 2 * i → ¬ forward_hit left right ls N rs M d k) →
      ∃ res vf1, forward_loop left right ls N rs M ((N : Int) - M) d vb fuel
          (-(d : Int) + 2 * i) vf = .ok (res, vf1) ∧ vf1.vec.length = 2 * (N + M) ∧
        ((res = none ∧
            (∀ k, InRow d k →
              vf1.get k = .ok (search_row left right ls N rs M false (d + 1) k)) ∧
            ∀ k, InRow d k → ¬ forward_hit left right ls N rs M d k) ∨
          ∃ k, InRow d k ∧ forward_hit left right ls N rs M d k ∧
            res = some ⟨2 * (d : Int) - 1,
              diag_start (search_row left right ls N rs M false d) d k,
              diag_start (search_row left right ls N rs M false d) d k - k,
              search_row left right ls N rs M false (d + 1) k,
              search_row left right ls N rs M false (d + 1) k - k⟩) := by
  intro fuel
  induction fuel with
  | zero =>
    intro i vf hf hlen hp hb hno
    refine ⟨none, vf, ?_, hlen, Or.inl ⟨rfl, ?_, ?_⟩⟩
    · unfold forward_loop
      rw [if_neg (by omega)]
    · intro k hk
      have hk2 := hk
      unfold InRow at hk2
      exact hb k hk (by omega)
    · intro k hk
      have hk2 := hk
      unfold InRow at hk2
      exact hno k hk (by omega)
  | succ fuel ih =>
    intro i vf hf hlen hp hb hno
    have hk : InRow d (-(d : Int) + 2 * i) := by
      unfold InRow
      omega
    obtain ⟨b1, b2, a1, b3, b4, b5, b6, b7⟩ := loop_body_spec left right ls N rs M false hl hr
      vf d _ hlen hd hNM hp hb hk
    unfold forward_loop
    rw [if_pos (by omega), b1]
    simp only [Except.bind_ok_eq]
    rw [b2]
    simp only [Except.bind_ok_eq]
    rw [b3]
    simp only [Except.bind_ok_eq]
    have hnext : -(d : Int) + 2 * i + 2 = -(d : Int) + 2 * ((i + 1 : Nat) : Int) := by
      push_cast; omega
    have hrec : ¬ forward_hit left right ls N rs M d (-(d : Int) + 2 * i) →
        ∃ res vf1, forward_loop left right ls N rs M ((N : Int) - M) d vb fuel
          (-(d : Int) + 2 * i + 2) a1 = .ok (res, vf1) ∧ vf1.vec.length = 2 * (N + M) ∧
        ((res = none ∧
            (∀ k, InRow d k →
              vf1.get k = .ok (search_row left right ls N rs M false (d + 1) k)) ∧
            ∀ k, InRow d k → ¬ forward_hit left right ls N rs M d k) ∨
          ∃ k, InRow d k ∧ forward_hit left right ls N rs M d k ∧
            res = some ⟨2 * (d : Int) - 1,
              diag_start (search_row left right ls N rs M false d) d k,
              diag_start (search_row left right ls N rs M false d) d k - k,
              search_row left right ls N rs M false (d + 1) k,
              search_row left right ls N rs M false (d + 1) k - k⟩) := by
      intro hnh
      rw [hnext]
      apply ih (i + 1) a1 (by omega) b4 b6
      · rw [← hnext]
        exact b7
      · intro k hk1 hlt
        by_cases e : k = -(d : Int) + 2 * i
        · rw [e]
          exact hnh
        · exact hno k hk1 (by unfold InRow at hk1; push_cast at hlt; omega)
    by_cases hc : Int.tmod ((N : Int) - M) 2 ≠ 0 ∧
        -(-(d : Int) + 2 * i - ((N : Int) - M)) ≥ -((d : Int) - 1) ∧
        -(-(d : Int) + 2 * i - ((N : Int) - M)) ≤ (d : Int) - 1
    · rw [if_pos hc]
      obtain ⟨c1, c2, c3⟩ := hc
      rw [tmod_two_ne_zero] at c1
      have hkb : vb.get (-(-(d : Int) + 2 * i - ((N : Int) - M))) =
          .ok (search_row left right ls N rs M true d
            ((N : Int) - M - (-(d : Int) + 2 * i))) := by
        have e : -(-(d : Int) + 2 * i - ((N : Int) - M)) =
            (N : Int) - M - (-(d : Int) + 2 * i) := by omega
        rw [e]
        apply hvb (by omega)
        unfold InRow
        omega
      rw [b5, hkb]
      simp only [Except.bind_ok_eq]
      by_cases hsum : search_row left right ls N rs M false (d + 1) (-(d : Int) + 2 * i) +
          search_row left right ls N rs M true d ((N : Int) - M - (-(d : Int) + 2 * i)) ≥ N
      · rw [if_pos hsum]
        exact ⟨_, a1, rfl, b4, Or.inr ⟨_, hk, ⟨c1, by omega, by omega, hsum⟩, rfl⟩⟩
      · rw [if_neg hsum]
        exact hrec (fun hh => hsum hh.2.2.2)
    · rw [if_neg hc]
      apply hrec
      intro hh
      apply hc
      refine ⟨(tmod_two_ne_zero _).mpr hh.1, ?_, ?_⟩
      · have := hh.2.1
        omega
      · have := hh.2.2.1
        omega

/-- The backward loop of round `d` returns: with the tuple of the first diagonal on
which the overlap test succeeds, or with the complete row. -/
theorem backward_loop_spec (left right : ExecPath) (ls N rs M : Nat)
    (hl : ls + N ≤ left.length) (hr : rs + M ≤ right.length) (d : Nat) (vf : NegIndexable)
    (hd : d + 1 ≤ N + M) (hNM : 2 ≤ N + M)
    (hvf : ∀ k, InRow d k → vf.get k = .ok (search_row left right ls N rs M false (d + 1) k)) :
    ∀ (fuel : Nat) (i : Nat) (vb : NegIndexable), fuel + i = d + 1 →
      vb.vec.length = 2 * (N + M) →
      HoldsPrev vb (search_row left right ls N rs M true) d →
      HoldsBelow vb (search_row left right ls N rs M true) d (-(d : Int) + 2 * i) →
      (∀ k, InRow d k → k < -(d : Int) + 2 * i → ¬ backward_hit left right ls N rs M d k) →
      ∃ res vb1, backward_loop left right ls N rs M ((N : Int) - M) d vf fuel
          (-(d : Int) + 2 * i) vb = .ok (res, vb1) ∧ vb1.vec.length = 2 * (N + M) ∧
        ((res = none ∧
            (∀ k, InRow d k →
              vb1.get k = .ok (search_row left right ls N rs M true (d + 1) k)) ∧
            ∀ k, InRow d k → ¬ backward_hit left right ls N rs M d k) ∨
          ∃ k, InRow d k ∧ backward_hit left right ls N rs M d k ∧
            res = some ⟨2 * (d : Int),
              (N : Int) - search_row left right ls N rs M true (d + 1) k,
              (M : Int) - (search_row left right ls N rs M true (d + 1) k - k),
              (N : Int) - diag_start (search_row left right ls N rs M true d) d k,
              (M : Int) - (diag_start (search_row left right ls N rs M true d) d k - k)⟩) := by
  intro fuel
  induction fuel with
  | zero =>
    intro i vb hf hlen hp hb hno
    refine ⟨none, vb, ?_, hlen, Or.inl ⟨rfl, ?_, ?_⟩⟩
    · unfold backward_loop
      rw [if_neg (by omega)]
    · intro k hk
      have hk2 := hk
      unfold InRow at hk2
      exact hb k hk (by omega)
    · intro k hk
      have hk2 := hk
      unfold InRow at hk2
      exact hno k hk (by omega)
  | succ fuel ih =>
    intro i vb hf hlen hp hb hno
    have hk : InRow d (-(d : Int) + 2 * i) := by
      unfold InRow
      omega
    obtain ⟨b1, b2, a1, b3, b4, b5, b6, b7⟩ := loop_body_spec left right ls N rs M true hl hr
      vb d _ hlen hd hNM hp hb hk
    unfold backward_loop
    rw [if_pos (by omega), b1]
    simp only [Except.bind_ok_eq]
    rw [b2]
    simp only [Except.bind_ok_eq]
    rw [b3]
    simp only [Except.bind_ok_eq]
    have hnext : -(d : Int) + 2 * i + 2 = -(d : Int) + 2 * ((i + 1 : Nat) : Int) := by
      push_cast; omega
    have hrec : ¬ backward_hit left right ls N rs M d (-(d : Int) + 2 * i) →
        ∃ res vb1, backward_loop left right ls N rs M ((N : Int) - M) d vf fuel
          (-(d : Int) + 2 * i + 2) a1 = .ok (res, vb1) ∧ vb1.vec.length = 2 * (N + M) ∧
        ((res = none ∧
            (∀ k, InRow d k →
              vb1.get k = .ok (search_row left right ls N rs M true (d + 1) k)) ∧
            ∀ k, InRow d k → ¬ backward_hit left right ls N rs M d k) ∨
          ∃ k, InRow d k ∧ backward_hit left right ls N rs M d k ∧
            res = some ⟨2 * (d : Int),
              (N : Int) - search_row left right ls N rs M true (d + 1) k,
              (M : Int) - (search_row left right ls N rs M true (d + 1) k - k),
              (N : Int) - diag_start (search_row left right ls N rs M true d) d k,
              (M : Int) - (diag_start (search_row left right ls N rs M true d) d k - k)⟩) := by
      intro hnh
      rw [hnext]
      apply ih (i + 1) a1 (by omega) b4 b6
      · rw [← hnext]
        exact b7
      · intro k hk1 hlt
        by_cases e : k = -(d : Int) + 2 * i
        · rw [e]
          exact hnh
        · exact hno k hk1 (by unfold InRow at hk1; push_cast at hlt; omega)
    by_cases hc : Int.tmod ((N : Int) - M) 2 = 0 ∧
        -(-(d : Int) + 2 * i - ((N : Int) - M)) ≥ -(d : Int) ∧
        -(-(d : Int) + 2 * i - ((N : Int) - M)) ≤ (d : Int)
    · rw [if_pos hc]
      obtain ⟨c1, c2, c3⟩ := hc
      rw [tmod_two_eq_zero] at c1
      have hkb : vf.get (-(-(d : Int) + 2 * i - ((N : Int) - M))) =
          .ok (search_row left right ls N rs M false (d + 1)
            ((N : Int) - M - (-(d : Int) + 2 * i))) := by
        have e : -(-(d : Int) + 2 * i - ((N : Int) - M)) =
            (N : Int) - M - (-(d : Int) + 2 * i) := by omega
        rw [e]
        apply hvf
        unfold InRow
        omega
      rw [b5, hkb]
      simp only [Except.bind_ok_eq]
      by_cases hsum : search_row left right ls N rs M true (d + 1) (-(d : Int) + 2 * i) +
          search_row left right ls N rs M false (d + 1)
            ((N : Int) - M - (-(d : Int) + 2 * i)) ≥ N
      · rw [if_pos hsum]
        exact ⟨_, a1, rfl, b4, Or.inr ⟨_, hk, ⟨c1, by omega, by omega, hsum⟩, rfl⟩⟩
      · rw [if_neg hsum]
        exact hrec (fun hh => hsum hh.2.2.2)
    · rw [if_neg hc]
      apply hrec
      intro hh
      apply hc
      refine ⟨(tmod_two_eq_zero _).mpr hh.1, ?_, ?_⟩
      · have := hh.2.1
        omega
      · have := hh.2.2.1
        omega

/-- What `find_middle_snake_myers_original` returns for two non-empty parts: a tuple
of a round in which an overlap test succeeds for the first time. -/
theorem middle_snake_rounds_spec (left right : ExecPath) (ls N rs M : Nat)
    (hl : ls + N ≤ left.length) (hr : rs + M ≤ right.length) (hN : 1 ≤ N) (hM : 1 ≤ M)
    (d_max : Nat)
    (hdm : d_max = if (N + M) % 2 = 0 then (N + M) / 2 else (N + M) / 2 + 1) :
    ∀ (fuel : Nat) (d : Nat) (vf vb : NegIndexable), fuel + d = d_max + 1 →
      vf.vec.length = 2 * (N + M) → vb.vec.length = 2 * (N + M) →
      HoldsPrev vf (search_row left right ls N rs M false) d →
      HoldsPrev vb (search_row left right ls N rs M true) d →
      NoHit left right ls N rs M d →
      ∃ (t : MiddleSnake) (d1 : Nat) (k : Int),
        middle_snake_rounds left right ls N rs M ((N : Int) - M) d_max fuel d vf vb = .ok t ∧
        InRow d1 k ∧ NoHit left right ls N rs M d1 ∧
        ((forward_hit left right ls N rs M d1 k ∧
            t = ⟨2 * (d1 : Int) - 1,
              diag_start (search_row left right ls N rs M false d1) d1 k,
              diag_start (search_row left right ls N rs M false d1) d1 k - k,
              search_row left right ls N rs M false (d1 + 1) k,
              search_row left right ls N rs M false (d1 + 1) k - k⟩) ∨
          (backward_hit left right ls N rs M d1 k ∧
            t = ⟨2 * (d1 : Int),
              (N : Int) - search_row left right ls N rs M true (d1 + 1) k,
              (M : Int) - (search_row left right ls N rs M true (d1 + 1) k - k),
              (N : Int) - diag_start (search_row left right ls N rs M true d1) d1 k,
              (M : Int) - (diag_start (search_row left right ls N rs M true d1) d1 k - k)⟩)) := by
  have hdN : d_max + 1 ≤ N + M := by
    rw [hdm]
    split <;> omega
  intro fuel
  induction fuel with
  | zero =>
    intro d vf vb hf hlf hlb hpf hpb hno
    exfalso
    obtain ⟨k, hk, hh⟩ := hit_by_d_max left right ls N rs M hN hM d_max hdm
    have := hno d_max (by omega) k hk
    rcases hh with hh | hh
    · exact this.1 hh
    · exact this.2 hh
  | succ fuel ih =>
    intro d vf vb hf hlf hlb hpf hpb hno
    have hd : d + 1 ≤ N + M := by omega
    have hvb : 1 ≤ d → ∀ k, InRow (d - 1) k →
        vb.get k = .ok (search_row left right ls N rs M true d k) := by
      intro h1 k hk
      exact hpb k (Or.inr ⟨h1, hk⟩)
    obtain ⟨res, vf1, e1, e2, e3⟩ := forward_loop_spec left right ls N rs M hl hr d vb hd
      (by omega) hvb (d + 1) 0 vf (by omega) hlf hpf
      (by intro k hk hlt; unfold InRow at hk; simp at hlt; omega)
      (by intro k hk hlt; unfold InRow at hk; simp at hlt; omega)
    unfold middle_snake_rounds
    rw [if_pos (by omega)]
    have ed : ((d : Int)).toNat = d := by simp
    rw [ed]
    simp only [Nat.cast_zero, mul_zero, add_zero] at e1
    rw [e1]
    simp only [Except.bind_ok_eq]
    rcases e3 with ⟨r1, r2, r3⟩ | ⟨k, hk, hh, r1⟩
    · subst r1
      simp only []
      obtain ⟨res2, vb1, f1, f2, f3⟩ := backward_loop_spec left right ls N rs M hl hr d vf1 hd
        (by omega) r2 (d + 1) 0 vb (by omega) hlb hpb
        (by intro k hk hlt; unfold InRow at hk; simp at hlt; omega)
        (by intro k hk hlt; unfold InRow at hk; simp at hlt; omega)
      simp only [Nat.cast_zero, mul_zero, add_zero] at f1
      rw [f1]
      simp only [Except.bind_ok_eq]
      rcases f3 with ⟨s1, s2, s3⟩ | ⟨k, hk, hh, s1⟩
      · subst s1
        simp only []
        have hcast : (d : Int) + 1 = ((d + 1 : Nat) : Int) := by push_cast; rfl
        rw [hcast]
        apply ih (d + 1) vf1 vb1 (by omega) e2 f2 (holdsPrev_succ r2) (holdsPrev_succ s2)
        intro d1 hd1 k hk
        by_cases e : d1 = d
        · subst e
          exact ⟨r3 k hk, s3 k hk⟩
        · exact hno d1 (by omega) k hk
      · subst s1
        simp only []
        exact ⟨_, d, k, rfl, hk, hno, Or.inr ⟨hh, rfl⟩⟩
    · subst r1
      simp only []
      exact ⟨_, d, k, rfl, hk, hno, Or.inl ⟨hh, rfl⟩⟩

theorem snake_match_heads (left right : ExecPath) (ls N rs M : Nat) (back : Bool) (x y : Int)
    (h : snake_match left right ls N rs M back x y)
    (hx : (if back = true then (ls : Int) + (N - x - 1) else ls + x) = ls)
    (hy : (if back = true then (rs : Int) + (M - y - 1) else rs + y) = rs) :
    left[ls]? = right[rs]? := by
  obtain ⟨a, h1, h2⟩ := h
  rw [hx] at h1
  rw [hy] at h2
  rw [(at_index_eq_getElem? left ls a).mp h1, (at_index_eq_getElem? right rs a).mp h2]

/-- The function `find_middle_snake_myers_original` on two non-empty parts returns a
tuple inside the two parts; for `d > 1` the two halves it cuts out are smaller than
the whole; and when the first elements of the two parts differ, `d` is not `0`, and
for `d > 1` the first half is not empty. -/
theorem find_middle_snake_spec (left right : ExecPath) (ls N rs M : Nat)
    (hl : ls + N ≤ left.length) (hr : rs + M ≤ right.length) (hN : 1 ≤ N) (hM : 1 ≤ M) :
    ∃ t, find_middle_snake_myers_original left ls N right rs M = .ok t ∧
      0 ≤ t.d ∧ 0 ≤ t.x ∧ t.x ≤ t.u ∧ t.u ≤ N ∧ 0 ≤ t.y ∧ t.y ≤ t.v ∧ t.v ≤ M ∧
      (1 < t.d → t.x + t.y < (N : Int) + M ∧ 0 < t.u + t.v) ∧
      (left[ls]? ≠ right[rs]? → t.d ≠ 0 ∧ (1 < t.d → 0 < t.x + t.y)) := by
  obtain ⟨d_max, hdm⟩ : ∃ d_max : Nat,
      d_max = if (N + M) % 2 = 0 then (N + M) / 2 else (N + M) / 2 + 1 := ⟨_, rfl⟩
  have hw : 2 * ((N : Int) + M - 1) < ((N + M) * 2 : Nat) := by push_cast; omega
  have hset : ∀ g : Nat → Int → Int, (∀ k, g 0 k = 0) →
      ∃ v, (NegIndexable.create ((N + M) * 2)).set 1 0 = .ok v ∧
        v.vec.length = 2 * (N + M) ∧ HoldsPrev v g 0 := by
    intro g hg
    obtain ⟨v, g1, g2, g3, _⟩ := @NegIndexable.set_spec (NegIndexable.create ((N + M) * 2))
      ((N : Int) + M - 1) 1 0 (by simpa [NegIndexable.create] using hw) (by omega) (by omega)
      (le_refl _)
    refine ⟨v, g1, ?_, ?_⟩
    · rw [g2]
      simp [NegIndexable.create]
      omega
    · intro k hk
      unfold InPrev at hk
      rcases hk with ⟨_, hk⟩ | ⟨hk, _⟩
      · rw [hk, hg]
        exact g3
      · omega
  obtain ⟨vf, f1, f2, f3⟩ := hset (search_row left right ls N rs M false) (fun _ => rfl)
  obtain ⟨vb, b1, b2, b3⟩ := hset (search_row left right ls N rs M true) (fun _ => rfl)
  obtain ⟨t, d1, k, e1, hk, hno, hcase⟩ := middle_snake_rounds_spec left right ls N rs M hl hr
    hN hM d_max hdm (d_max + 1) 0 vf vb (by omega) f2 b2 f3 b3
    (by intro d1 hd1; omega)
  have hdcast : (if (N + M) % 2 = 0 then (((N + M : Nat) : Int)) / 2
      else (((N + M : Nat) : Int)) / 2 + 1) = (d_max : Int) := by
    rw [hdm]
    split <;> push_cast <;> omega
  refine ⟨t, ?_, ?_⟩
  · unfold find_middle_snake_myers_original
    simp only []
    rw [if_pos (by omega)]
    have hvv : vb = vf := by
      have h2 := b1.symm.trans f1
      injection h2
    rw [f1]
    simp only []
    rw [hdcast]
    rw [hvv] at e1
    simp only [Int.toNat_ofNat, Nat.cast_zero] at e1 ⊢
    exact e1
  · have hk2 := hk
    unfold InRow at hk2
    rcases hcase with ⟨hh, rfl⟩ | ⟨hh, rfl⟩
    · obtain ⟨g1, g2⟩ := forward_hit_in_grid left right ls N rs M hl hr d1 k hno hk hh
      have hs0 := diag_start_nonneg (search_row_nonneg left right ls N rs M false d1)
        (d1 : Int) k
      have hs1 := diag_start_in_row left right ls N rs M false d1 k hk
      have hse := snake_end_ge left right ls N rs M false
        (diag_start (search_row left right ls N rs M false d1) d1 k) k
      rw [← search_row_succ] at hse
      have hd1 : 1 ≤ d1 := by
        obtain ⟨_, h1, h2, _⟩ := hh
        omega
      simp only []
      refine ⟨by omega, hs0, hse, g1, hs1.1, by omega, g2, ?_, ?_⟩
      · intro hlt
        have := forward_hit_start left right ls N rs M hl hr d1 k hno hk hh (by omega)
        omega
      · intro _
        refine ⟨by omega, fun hlt => by omega⟩
    · obtain ⟨g1, g2⟩ := backward_hit_in_grid left right ls N rs M hl hr d1 k hno hk hh
      have hs0 := diag_start_nonneg (search_row_nonneg left right ls N rs M true d1)
        (d1 : Int) k
      have hs1 := diag_start_in_row left right ls N rs M true d1 k hk
      have hse := snake_end_ge left right ls N rs M true
        (diag_start (search_row left right ls N rs M true d1) d1 k) k
      have hspec := snake_end_spec left right ls N rs M true hl hr
        (diag_start (search_row left right ls N rs M true d1) d1 k) k hs0 hs1.1
      rw [← search_row_succ] at hse hspec
      simp only []
      refine ⟨by omega, by omega, by omega, by omega, by omega, by omega, by omega, ?_, ?_⟩
      · intro hlt
        have := backward_hit_start left right ls N rs M hl hr d1 k hno hk hh (by omega)
        omega
      · intro hne
        have hcorner : search_row left right ls N rs M true (d1 + 1) k = N →
            search_row left right ls N rs M true (d1 + 1) k - k = M →
            diag_start (search_row left right ls N rs M true d1) d1 k <
              search_row left right ls N rs M true (d1 + 1) k → False := by
          intro c1 c2 c3
          have hm := (hspec.2.2.2.2.1 c3).2
          apply hne
          apply snake_match_heads left right ls N rs M true _ _ hm
          · simp only [if_true]
            omega
          · simp only [if_true]
            omega
        constructor
        · intro h0
          have hd0 : d1 = 0 := by omega
          subst hd0
          have hk0 : k = 0 := by omega
          subst hk0
          obtain ⟨_, h1, h2, h3⟩ := hh
          have hf0 : search_row left right ls N rs M false 1 0 = 0 := by
            have hsf := snake_end_spec left right ls N rs M false hl hr 0 0 (le_refl _)
              (by simp)
            have hsd : diag_start (search_row left right ls N rs M false 0) ((0 : Nat) : Int) 0
                = 0 := by simp [diag_start, search_row]
            show search_row left right ls N rs M false (0 + 1) 0 = 0
            rw [search_row_succ, hsd]
            by_contra hcon
            have hpos : 0 < snake_end left right ls N rs M false 0 0 := by
              have := snake_end_ge left right ls N rs M false 0 0
              omega
            apply hne
            apply snake_match_heads left right ls N rs M false _ _ (hsf.2.2.2.2.1 hpos).1
            · simp
            · simp
          have hsd : diag_start (search_row left right ls N rs M true 0) ((0 : Nat) : Int) 0
              = 0 := by simp [diag_start, search_row]
          simp only [Nat.cast_zero, sub_zero, zero_add] at h1 h2 h3 g1 g2
          have hnm : (N : Int) - M = 0 := by omega
          rw [hnm, hf0] at h3
          refine hcorner ?_ ?_ ?_
          · simp only [zero_add]
            omega
          · simp only [zero_add]
            omega
          · rw [hsd]
            simp only [zero_add]
            omega
        · intro hlt
          by_contra hcon
          have hstart := backward_hit_start left right ls N rs M hl hr d1 k hno hk hh
            (by omega)
          exact hcorner (by omega) (by omega) (by omega)

/-! ## The shadows of the recursive comparison -/

theorem ShadowGrows.grows_refl (s : List Bool) : ShadowGrows s s := ⟨rfl, fun _ h => h⟩

theorem ShadowGrows.grows_trans {s1 s2 s3 : List Bool} (h1 : ShadowGrows s1 s2)
    (h2 : ShadowGrows s2 s3) : ShadowGrows s1 s3 :=
  ⟨h2.1.trans h1.1, fun j h => h2.2 j (h1.2 j h)⟩

theorem set_shadow_spec (shadow : List Bool) (i : Nat) (h : i < shadow.length) :
    ∃ s, set_shadow shadow i = .ok s ∧ ShadowGrows shadow s ∧ s[i]? = some true := by
  refine ⟨shadow.set i true, by simp [set_shadow, h], ⟨by simp, ?_⟩, ?_⟩
  · intro j hj
    by_cases hij : i = j
    · subst hij
      simp [List.getElem?_set_self, h]
    · rw [List.getElem?_set_ne hij]
      exact hj
  · simp [List.getElem?_set_self, h]

theorem shadow_range_spec (start size : Nat) :
    ∀ (fuel i : Nat) (shadow : List Bool), start + size ≤ shadow.length → size ≤ i + fuel →
      ∃ s, shadow_range start size fuel i shadow = .ok s ∧ ShadowGrows shadow s ∧
        ∀ j, i ≤ j → j < size → s[start + j]? = some true
  | 0, i, shadow, _, hf => by
    refine ⟨shadow, ?_, ShadowGrows.grows_refl _, fun j h1 h2 => by omega⟩
    simp only [shadow_range]
    rw [if_neg (by omega)]
  | fuel + 1, i, shadow, hlen, hf => by
    by_cases hi : i < size
    · obtain ⟨s1, e1, g1, b1⟩ := set_shadow_spec shadow (start + i) (by omega)
      obtain ⟨s2, e2, g2, b2⟩ := shadow_range_spec start size fuel (i + 1) s1
        (by rw [g1.1]; exact hlen) (by omega)
      refine ⟨s2, ?_, g1.grows_trans g2, ?_⟩
      · simp only [shadow_range]
        rw [if_pos hi, e1]
        exact e2
      · intro j h1 h2
        by_cases hj : j = i
        · subst hj
          exact g2.2 _ b1
        · exact b2 j (by omega) h2
    · refine ⟨shadow, ?_, ShadowGrows.grows_refl _, fun j h1 h2 => by omega⟩
      simp only [shadow_range]
      rw [if_neg hi]

theorem at_index_add (v : ExecPath) (s i : Nat) (h : s + i < v.length) :
    at_index v ((s : Int) + (i : Int)) = .ok (v.get ⟨s + i, h⟩) := by
  rw [← Nat.cast_add]
  exact at_index_nat v (s + i) h

theorem shadow_first_diff_spec (a b : ExecPath) (a_start b_start size : Nat)
    (ha : a_start + size ≤ a.length) (hb : b_start + size ≤ b.length) :
    ∀ (fuel i : Nat) (shadow : List Bool), shadow.length = a.length → size ≤ i + fuel →
      ∃ s, shadow_first_diff a b a_start b_start size fuel i shadow = .ok s ∧
        ShadowGrows shadow s ∧
        (i < size → a[a_start + i]? ≠ b[b_start + i]? → s[a_start + i]? = some true)
  | 0, i, shadow, _, hf => by
    refine ⟨shadow, ?_, ShadowGrows.grows_refl _, fun h => by omega⟩
    simp only [shadow_first_diff]
    rw [if_neg (by omega)]
  | fuel + 1, i, shadow, hlen, hf => by
    by_cases hi : i < size
    · have h1 : a_start + i < a.length := by omega
      have h2 : b_start + i < b.length := by omega
      by_cases hne : a.get ⟨a_start + i, h1⟩ ≠ b.get ⟨b_start + i, h2⟩
      · obtain ⟨s1, e1, g1, b1⟩ := set_shadow_spec shadow (a_start + i) (by omega)
        refine ⟨s1, ?_, g1, fun _ _ => b1⟩
        simp only [shadow_first_diff]
        rw [if_pos hi, at_index_add a a_start i h1, at_index_add b b_start i h2]
        simp only [Except.bind_ok_eq]
        rw [if_pos hne]
        exact e1
      · obtain ⟨s2, e2, g2, _⟩ := shadow_first_diff_spec a b a_start b_start size ha hb fuel
          (i + 1) shadow hlen (by omega)
        refine ⟨s2, ?_, g2, ?_⟩
        · simp only [shadow_first_diff]
          rw [if_pos hi, at_index_add a a_start i h1, at_index_add b b_start i h2]
          simp only [Except.bind_ok_eq]
          rw [if_neg hne]
          exact e2
        · intro _ hdiff
          exfalso
          apply hdiff
          rw [List.getElem?_eq_getElem h1, List.getElem?_eq_getElem h2]
          push_neg at hne
          exact congrArg some hne
    · refine ⟨shadow, ?_, ShadowGrows.grows_refl _, fun h => by omega⟩
      simp only [shadow_first_diff]
      rw [if_neg hi]

theorem size_of_int_nat (n : Nat) : size_of_int (n : Int) = n := by
  simp [size_of_int]

theorem size_sub_of_le {a b : Nat} (h : b ≤ a) : size_sub a b = a - b := by
  simp [size_sub, h]

/-- The recursive comparison returns with enough fuel; the two shadows keep their
sizes and their set bits; and when one part is empty and the other is not, or the
first elements of the two parts differ, the first position of a part is shadowed. -/
theorem CheckDiff_shadow_spec (left right : ExecPath) :
    ∀ (fuel ls N rs M : Nat) (sl sr : List Bool),
      ls + N ≤ left.length → rs + M ≤ right.length →
      sl.length = left.length → sr.length = right.length → N + M < fuel →
      ∃ sl2 sr2, CheckDiff_shadow left right fuel ls N rs M sl sr = .ok (sl2, sr2) ∧
        ShadowGrows sl sl2 ∧ ShadowGrows sr sr2 ∧
        ((N = 0 ∧ 0 < M) ∨ (0 < N ∧ M = 0) ∨ (0 < N ∧ 0 < M ∧ left[ls]? ≠ right[rs]?) →
          (0 < N ∧ sl2[ls]? = some true) ∨ (0 < M ∧ sr2[rs]? = some true))
  | 0, ls, N, rs, M, sl, sr, _, _, _, _, hf => by omega
  | fuel + 1, ls, N, rs, M, sl, sr, hl, hr, hsl, hsr, hf => by
    by_cases hN : N = 0
    · obtain ⟨s, e, g, b⟩ := shadow_range_spec rs M M 0 sr (by omega) (by omega)
      refine ⟨sl, s, ?_, ShadowGrows.grows_refl _, g, ?_⟩
      · simp only [CheckDiff_shadow]
        rw [if_pos hN, e]
        rfl
      · intro hc
        right
        have hM : 0 < M := by omega
        exact ⟨hM, b 0 (le_refl _) hM⟩
    by_cases hM : M = 0
    · obtain ⟨s, e, g, b⟩ := shadow_range_spec ls N N 0 sl (by omega) (by omega)
      refine ⟨s, sr, ?_, g, ShadowGrows.grows_refl _, ?_⟩
      · simp only [CheckDiff_shadow]
        rw [if_neg hN, if_pos hM, e]
        rfl
      · intro hc
        left
        have hN2 : 0 < N := by omega
        exact ⟨hN2, b 0 (le_refl _) hN2⟩
    obtain ⟨t, ht, h0d, h0x, hxu, huN, h0y, hyv, hvM, hbig, hheads⟩ :=
      find_middle_snake_spec left right ls N rs M hl hr (by omega) (by omega)
    obtain ⟨td, tx, ty, tu, tv⟩ := t
    simp only [] at h0d h0x hxu huN h0y hyv hvM hbig hheads
    obtain ⟨d, rfl⟩ := Int.eq_ofNat_of_zero_le h0d
    obtain ⟨x, rfl⟩ := Int.eq_ofNat_of_zero_le h0x
    obtain ⟨y, rfl⟩ := Int.eq_ofNat_of_zero_le h0y
    obtain ⟨u, rfl⟩ := Int.eq_ofNat_of_zero_le (le_trans h0x hxu)
    obtain ⟨v, rfl⟩ := Int.eq_ofNat_of_zero_le (le_trans h0y hyv)
    have hxu2 : x ≤ u := by omega
    have huN2 : u ≤ N := by omega
    have hyv2 : y ≤ v := by omega
    have hvM2 : v ≤ M := by omega
    have hunfold : CheckDiff_shadow left right (fuel + 1) ls N rs M sl sr =
        if d > 1 then
          (CheckDiff_shadow left right fuel ls x rs y sl sr >>= fun s =>
            CheckDiff_shadow left right fuel (ls + u) (N - u) (rs + v) (M - v) s.1 s.2)
        else if d = 1 then
          if N < M then
            (shadow_first_diff right left rs ls N N 0 sr >>= fun sr1 =>
              set_shadow sr1 (rs + M - 1) >>= fun sr2 => .ok (sl, sr2))
          else
            (shadow_first_diff left right ls rs M M 0 sl >>= fun sl1 =>
              set_shadow sl1 (ls + N - 1) >>= fun sl2 => .ok (sl2, sr))
        else .ok (sl, sr) := by
      simp only [CheckDiff_shadow]
      rw [if_neg hN, if_neg hM, ht]
      simp only [Except.bind_ok_eq, size_of_int_nat, size_sub_of_le huN2, size_sub_of_le hvM2]
    rw [hunfold]
    by_cases hd1 : d > 1
    · rw [if_pos hd1]
      obtain ⟨hb1, hb2⟩ := hbig (by omega)
      obtain ⟨a1, a2, ea, ga1, ga2, ia⟩ := CheckDiff_shadow_spec left right fuel ls x rs y sl sr
        (by omega) (by omega) hsl hsr (by omega)
      obtain ⟨c1, c2, ec, gc1, gc2, _⟩ := CheckDiff_shadow_spec left right fuel (ls + u) (N - u)
        (rs + v) (M - v) a1 a2 (by omega) (by omega) (by rw [ga1.1]; exact hsl)
        (by rw [ga2.1]; exact hsr) (by omega)
      refine ⟨c1, c2, ?_, ga1.grows_trans gc1, ga2.grows_trans gc2, ?_⟩
      · rw [ea]
        exact ec
      · intro hc
        have hne : left[ls]? ≠ right[rs]? := by
          rcases hc with ⟨h, _⟩ | ⟨_, h⟩ | ⟨_, _, h⟩
          · omega
          · omega
          · exact h
        have hpos := (hheads hne).2 (by omega)
        have hfirst : (x = 0 ∧ 0 < y) ∨ (0 < x ∧ y = 0) ∨
            (0 < x ∧ 0 < y ∧ left[ls]? ≠ right[rs]?) := by
          by_cases hx0 : x = 0
          · left; omega
          · by_cases hy0 : y = 0
            · right; left; omega
            · right; right; exact ⟨by omega, by omega, hne⟩
        rcases ia hfirst with ⟨_, h⟩ | ⟨_, h⟩
        · left
          exact ⟨by omega, gc1.2 _ h⟩
        · right
          exact ⟨by omega, gc2.2 _ h⟩
    rw [if_neg hd1]
    by_cases hd2 : d = 1
    · rw [if_pos hd2]
      by_cases hlt : N < M
      · rw [if_pos hlt]
        obtain ⟨s1, e1, g1, b1⟩ := shadow_first_diff_spec right left rs ls N (by omega)
          (by omega) N 0 sr hsr (by omega)
        obtain ⟨s2, e2, g2, _⟩ := set_shadow_spec s1 (rs + M - 1) (by rw [g1.1]; omega)
        refine ⟨sl, s2, ?_, ShadowGrows.grows_refl _, g1.grows_trans g2, ?_⟩
        · rw [e1]
          simp only [Except.bind_ok_eq]
          rw [e2]
          rfl
        · intro hc
          have hne : left[ls]? ≠ right[rs]? := by
            rcases hc with ⟨h, _⟩ | ⟨_, h⟩ | ⟨_, _, h⟩
            · omega
            · omega
            · exact h
          right
          refine ⟨by omega, g2.2 _ ?_⟩
          exact b1 (by omega) (fun h => hne h.symm)
      · rw [if_neg hlt]
        obtain ⟨s1, e1, g1, b1⟩ := shadow_first_diff_spec left right ls rs M (by omega)
          (by omega) M 0 sl hsl (by omega)
        obtain ⟨s2, e2, g2, _⟩ := set_shadow_spec s1 (ls + N - 1) (by rw [g1.1]; omega)
        refine ⟨s2, sr, ?_, g1.grows_trans g2, ShadowGrows.grows_refl _, ?_⟩
        · rw [e1]
          simp only [Except.bind_ok_eq]
          rw [e2]
          rfl
        · intro hc
          have hne : left[ls]? ≠ right[rs]? := by
            rcases hc with ⟨h, _⟩ | ⟨_, h⟩ | ⟨_, _, h⟩
            · omega
            · omega
            · exact h
          left
          refine ⟨by omega, g2.2 _ ?_⟩
          exact b1 (by omega) hne
    · rw [if_neg hd2]
      refine ⟨sl, sr, rfl, ShadowGrows.grows_refl _, ShadowGrows.grows_refl _, ?_⟩
      intro hc
      have hne : left[ls]? ≠ right[rs]? := by
        rcases hc with ⟨h, _⟩ | ⟨_, h⟩ | ⟨_, _, h⟩
        · omega
        · omega
        · exact h
      have := (hheads hne).1
      omega

/-! ## The two calls of `AddND` in a pass of the loop -/

theorem TracePC.IsND_iff (tpc : TracePC) (p : PCID) : tpc.IsND p = true ↔ p ∈ tpc.nd := by
  simp [TracePC.IsND]

theorem TracePC.IsND_false_iff (tpc : TracePC) (p : PCID) : tpc.IsND p = false ↔ p ∉ tpc.nd := by
  rw [← TracePC.IsND_iff]
  simp


theorem MarksWithin.within_refl (t : TracePC) (epath : ExecPath) : MarksWithin t t epath :=
  ⟨rfl, fun _ h => h, fun _ h => Or.inl h⟩

theorem MarksWithin.within_trans {t1 t2 t3 : TracePC} {e1 e2 e3 : ExecPath}
    (h1 : MarksWithin t1 t2 e1) (h2 : MarksWithin t2 t3 e2)
    (he1 : ∀ p ∈ e1, p ∈ e3) (he2 : ∀ p ∈ e2, p ∈ e3) : MarksWithin t1 t3 e3 := by
  refine ⟨h2.1.trans h1.1, fun p hp => h2.2.1 p (h1.2.1 p hp), fun p hp => ?_⟩
  rcases h2.2.2 p hp with h | h
  · rcases h1.2.2 p h with h | h
    · exact Or.inl h
    · exact Or.inr (he1 p h)
  · exact Or.inr (he2 p h)

theorem TracePC.AddND_within (tpc : TracePC) (p : PCID) :
    MarksWithin tpc (tpc.AddND [p]) [p] := by
  refine ⟨rfl, fun q hq => ?_, fun q hq => ?_⟩
  · simp [TracePC.AddND, hq]
  · simpa [TracePC.AddND] using hq

theorem TracePC.AddND_half_spec (ch : Nat) :
    ∀ (rest : List (PCID × Bool)) (seen : Nat) (tpc : TracePC),
      MarksWithin tpc (TracePC.AddND_half ch rest seen tpc) (rest.map Prod.fst)
  | [], seen, tpc => by
    simp only [TracePC.AddND_half]
    exact MarksWithin.within_refl _ _
  | (pcid, sh) :: rest, seen, tpc => by
    simp only [TracePC.AddND_half]
    split
    · exact MarksWithin.within_refl _ _
    · split
      · refine MarksWithin.within_trans (TracePC.AddND_within tpc pcid)
          (TracePC.AddND_half_spec ch rest seen (tpc.AddND [pcid])) ?_ ?_
        · intro p hp
          simp at hp
          simp [hp]
        · intro p hp
          simp only [List.map_cons, List.mem_cons]
          exact Or.inr hp
      · refine MarksWithin.within_trans (MarksWithin.within_refl tpc [])
          (TracePC.AddND_half_spec ch rest (seen + 1) tpc) ?_ ?_
        · intro p hp
          simp at hp
        · intro p hp
          simp only [List.map_cons, List.mem_cons]
          exact Or.inr hp

theorem TracePC.AddND_foldl_spec :
    ∀ (rest : List (PCID × Bool)) (tpc : TracePC),
      MarksWithin tpc
        (rest.foldl (fun acc e => if e.2 = true then acc.AddND [e.1] else acc) tpc)
        (rest.map Prod.fst)
  | [], tpc => by
    simp only [List.foldl_nil]
    exact MarksWithin.within_refl _ _
  | (pcid, sh) :: rest, tpc => by
    simp only [List.foldl_cons]
    split
    · refine MarksWithin.within_trans (TracePC.AddND_within tpc pcid)
        (TracePC.AddND_foldl_spec rest (tpc.AddND [pcid])) ?_ ?_
      · intro p hp
        simp at hp
        simp [hp]
      · intro p hp
        simp only [List.map_cons, List.mem_cons]
        exact Or.inr hp
    · refine MarksWithin.within_trans (MarksWithin.within_refl tpc [])
        (TracePC.AddND_foldl_spec rest tpc) ?_ ?_
      · intro p hp
        simp at hp
      · intro p hp
        simp only [List.map_cons, List.mem_cons]
        exact Or.inr hp

/-- The call `AddND(epath, shadow_epath, do_all)` keeps the marks, marks only PCIDs
of `epath`, and marks the first PCID of `epath` when its shadow bit is set. -/
theorem TracePC.AddND_shadow_spec (tpc : TracePC) (epath : ExecPath) (shadow : List Bool)
    (do_all : Bool) :
    MarksWithin tpc (tpc.AddND_shadow epath shadow do_all) epath ∧
    (∀ a rest srest, epath = a :: rest → shadow = true :: srest →
      a ∈ (tpc.AddND_shadow epath shadow do_all).nd) := by
  have hsub : ∀ p ∈ (epath.zip shadow).map Prod.fst, p ∈ epath := by
    intro p hp
    obtain ⟨⟨a, b⟩, hab, rfl⟩ := List.mem_map.1 hp
    exact (List.of_mem_zip hab).1
  constructor
  · unfold TracePC.AddND_shadow
    split
    · exact MarksWithin.within_trans (MarksWithin.within_refl tpc []) (TracePC.AddND_foldl_spec _ tpc)
        (by intro p hp; simp at hp) hsub
    · exact MarksWithin.within_trans (MarksWithin.within_refl tpc []) (TracePC.AddND_half_spec _ _ 0 tpc)
        (by intro p hp; simp at hp) hsub
  · intro a rest srest he hs
    subst he hs
    unfold TracePC.AddND_shadow
    split
    · simp only [List.zip_cons_cons, List.foldl_cons, if_true]
      exact (TracePC.AddND_foldl_spec _ (tpc.AddND [a])).2.1 a (by simp [TracePC.AddND])
    · simp only [List.zip_cons_cons, TracePC.AddND_half]
      rw [if_neg (by omega), if_pos trivial]
      exact (TracePC.AddND_half_spec _ _ 0 (tpc.AddND [a])).2.1 a (by simp [TracePC.AddND])

theorem shadow_head_of_get (s : List Bool) (h : s[0]? = some true) :
    ∃ srest, s = true :: srest := by
  cases s with
  | nil => simp at h
  | cons b srest =>
    simp at h
    exact ⟨srest, by rw [h]⟩

/-- A pass of the loop returns; its marks are PCIDs of the two chunks; and it marks
the first PCID of a chunk when one chunk is empty and the other is not, or the
two chunks start with different PCIDs. -/
theorem TracePC.CheckDiff_round_spec (tpc : TracePC) (is_last_iter : Bool)
    (left_chunk right_chunk : ExecPath)
    (hne : left_chunk ≠ [] ∨ right_chunk ≠ [])
    (hheads : left_chunk ≠ [] → right_chunk ≠ [] → left_chunk[0]? ≠ right_chunk[0]?) :
    ∃ tpc1, tpc.CheckDiff_round is_last_iter left_chunk right_chunk = .ok tpc1 ∧
      MarksWithin tpc tpc1 (left_chunk ++ right_chunk) ∧
      ∃ p ∈ left_chunk ++ right_chunk, p ∈ tpc1.nd := by
  obtain ⟨sl, sr, e, gl, gr, hidx⟩ := CheckDiff_shadow_spec left_chunk right_chunk
    (left_chunk.length + right_chunk.length + 1) 0 left_chunk.length 0 right_chunk.length
    (List.replicate left_chunk.length false) (List.replicate right_chunk.length false)
    (by omega) (by omega) (by simp) (by simp) (by omega)
  have hl := TracePC.AddND_shadow_spec tpc left_chunk sl is_last_iter
  have hr := TracePC.AddND_shadow_spec (tpc.AddND_shadow left_chunk sl is_last_iter)
    right_chunk sr is_last_iter
  refine ⟨_, ?_, MarksWithin.within_trans hl.1 hr.1 (by intro p hp; simp [hp])
    (by intro p hp; simp [hp]), ?_⟩
  · unfold TracePC.CheckDiff_round
    rw [e]
    rfl
  · have hcase : (left_chunk.length = 0 ∧ 0 < right_chunk.length) ∨
        (0 < left_chunk.length ∧ right_chunk.length = 0) ∨
        (0 < left_chunk.length ∧ 0 < right_chunk.length ∧ left_chunk[0]? ≠ right_chunk[0]?) := by
      cases left_chunk with
      | nil =>
        cases right_chunk with
        | nil => simp at hne
        | cons b r => left; simp
      | cons a l =>
        cases right_chunk with
        | nil => right; left; simp
        | cons b r =>
          right; right
          exact ⟨by simp, by simp, hheads (by simp) (by simp)⟩
    rcases hidx hcase with ⟨hpos, h0⟩ | ⟨hpos, h0⟩
    · obtain ⟨srest, hs⟩ := shadow_head_of_get sl h0
      cases hlc : left_chunk with
      | nil => rw [hlc] at hpos; simp at hpos
      | cons a l =>
        refine ⟨a, by simp, ?_⟩
        rw [← hlc]
        exact hr.1.2.1 a (hl.2 a l srest hlc hs)
    · obtain ⟨srest, hs⟩ := shadow_head_of_get sr h0
      cases hrc : right_chunk with
      | nil => rw [hrc] at hpos; simp at hpos
      | cons a l =>
        refine ⟨a, by simp, ?_⟩
        rw [← hrc]
        exact hr.2 a l srest hrc hs

/-! ## The loop of `CheckDiff` -/

theorem getElem?_eq_of_lt_common_prefix_length :
    ∀ (l r : ExecPath) (i : Nat), i < common_prefix_length l r → l[i]? = r[i]?
  | [], r, i, h => by simp [common_prefix_length] at h
  | a :: l, [], i, h => by simp [common_prefix_length] at h
  | a :: l, b :: r, i, h => by
    by_cases hab : a = b
    · subst hab
      cases i with
      | zero => simp
      | succ j =>
        simp only [common_prefix_length, if_true] at h
        simp only [List.getElem?_cons_succ]
        exact getElem?_eq_of_lt_common_prefix_length l r j (by omega)
    · simp [common_prefix_length, hab] at h

theorem TracePC.same_upto_iff (left right : ExecPath) (n : Nat) :
    TracePC.same_upto left right n = true ↔ ∀ i < n, left[i]? = right[i]? := by
  simp [TracePC.same_upto]

theorem TracePC.eq_significant_self (tpc : TracePC) (p : ExecPath) :
    tpc.eq_significant p p = true := by
  unfold TracePC.eq_significant
  split
  · exact (TracePC.same_upto_iff p p _).2 (fun _ _ => rfl)
  · rw [if_neg (by simp)]
    exact (TracePC.same_upto_iff p p _).2 (fun _ _ => rfl)

theorem TracePC.eq_significant_of_common (tpc : TracePC) (l r : ExecPath)
    (h : tpc.ExecPathSignificantMax ≤ common_prefix_length l r) :
    tpc.eq_significant l r = true := by
  have h1 := common_prefix_length_le_left l r
  have h2 := common_prefix_length_le_right l r
  unfold TracePC.eq_significant
  rw [if_pos ⟨by omega, by omega⟩]
  exact (TracePC.same_upto_iff l r tpc.ExecPathSignificantMax).2
    (fun i hi => getElem?_eq_of_lt_common_prefix_length l r i (by omega))

theorem eq_of_remove_common_prefix_nil (l r : ExecPath)
    (h1 : ( remove_common_prefix l r).1.length = 0)
    (h2 : ( remove_common_prefix l r).2.1.length = 0) : l = r := by
  simp only [ remove_common_prefix, subvec, List.length_drop] at h1 h2
  have e := take_common_prefix_length l r
  rw [List.take_of_length_le (by omega), List.take_of_length_le (by omega)] at e
  exact e

/-- The condition under which the loop of `CheckDiff` ends gives the two pruned
paths the same significant part. -/
theorem TracePC.equal_of_exit (tpc : TracePC) (l r : ExecPath)
    (h : ( remove_common_prefix l r).2.2 ≥ tpc.ExecPathSignificantMax ∨
      (( remove_common_prefix l r).1.length = 0 ∧ ( remove_common_prefix l r).2.1.length = 0)) :
    (l = r ∨ tpc.ExecPathSignificantMax ≤ common_prefix_length l r) ∧
      tpc.eq_significant l r = true := by
  rcases h with h | ⟨h1, h2⟩
  · exact ⟨Or.inr h, TracePC.eq_significant_of_common tpc l r h⟩
  · have e := eq_of_remove_common_prefix_nil l r h1 h2
    subst e
    exact ⟨Or.inl rfl, TracePC.eq_significant_self tpc l⟩

theorem head_ne_of_headD_ne (a b : ExecPath) (ha : a ≠ []) (hb : b ≠ [])
    (h : a.headD 0 ≠ b.headD 0) : a[0]? ≠ b[0]? := by
  cases a with
  | nil => exact absurd rfl ha
  | cons x l =>
    cases b with
    | nil => exact absurd rfl hb
    | cons y r =>
      simp only [List.headD_cons] at h
      simpa using h

/-- The chunks cut from two paths of unmarked PCIDs that are not equal up to the end
of both are chunks a pass of the loop can work on. -/
theorem TracePC.chunks_ok (tpc : TracePC) (left right l r : ExecPath)
    (hS : 10 ≤ tpc.max_significant_execpath_size)
    (hl : ∀ p ∈ l, p ∈ left ∧ tpc.IsND p = false)
    (hr : ∀ p ∈ r, p ∈ right ∧ tpc.IsND p = false)
    (hne : ¬ (( remove_common_prefix l r).1.length = 0 ∧
      ( remove_common_prefix l r).2.1.length = 0)) :
    ChunksOK tpc left right
      (tpc.chunks ( remove_common_prefix l r).1 ( remove_common_prefix l r).2.1).2.1
      (tpc.chunks ( remove_common_prefix l r).1 ( remove_common_prefix l r).2.1).2.2 := by
  have hdiv := common_prefix_length_diverge l r
  simp only [ remove_common_prefix, subvec] at hne ⊢
  generalize hA : l.drop (common_prefix_length l r) = A at hne hdiv ⊢
  generalize hB : r.drop (common_prefix_length l r) = B at hne hdiv ⊢
  have hAl : ∀ p ∈ A, p ∈ left ∧ tpc.IsND p = false := by
    intro p hp
    rw [← hA] at hp
    exact hl p (List.mem_of_mem_drop hp)
  have hBr : ∀ p ∈ B, p ∈ right ∧ tpc.IsND p = false := by
    intro p hp
    rw [← hB] at hp
    exact hr p (List.mem_of_mem_drop hp)
  have hheads : A ≠ [] → B ≠ [] → A[0]? ≠ B[0]? := by
    intro ha hb
    rcases hdiv with h | h | h
    · exact absurd h ha
    · exact absurd h hb
    · exact head_ne_of_headD_ne A B ha hb h
  have hcs : 1 ≤ tpc.CheckDiffChunkSize := by
    unfold TracePC.CheckDiffChunkSize
    omega
  unfold TracePC.chunks
  simp only []
  split
  · dsimp only
    refine ⟨?_, ?_, hheads⟩
    · intro p hp
      rcases List.mem_append.1 hp with h | h
      · exact ⟨List.mem_append_left _ (hAl p h).1, (hAl p h).2⟩
      · exact ⟨List.mem_append_right _ (hBr p h).1, (hBr p h).2⟩
    · by_contra hcon
      push_neg at hcon
      apply hne
      simp [hcon.1, hcon.2]
  · rename_i hlast
    dsimp only
    simp only [Bool.or_eq_true, decide_eq_true_eq, not_or, not_le] at hlast
    have hA1 : A ≠ [] := by
      intro h
      rw [h] at hlast
      simp at hlast
    have hB1 : B ≠ [] := by
      intro h
      rw [h] at hlast
      simp at hlast
    have hAt : (subvec_len A 0 tpc.CheckDiffChunkSize)[0]? = A[0]? := by
      simp only [subvec_len, List.drop_zero]
      rw [List.getElem?_take_of_lt (by omega)]
    have hBt : (subvec_len B 0 tpc.CheckDiffChunkSize)[0]? = B[0]? := by
      simp only [subvec_len, List.drop_zero]
      rw [List.getElem?_take_of_lt (by omega)]
    refine ⟨?_, ?_, ?_⟩
    · intro p hp
      simp only [subvec_len, List.drop_zero] at hp
      rcases List.mem_append.1 hp with h | h
      · have h2 := List.mem_of_mem_take h
        exact ⟨List.mem_append_left _ (hAl p h2).1, (hAl p h2).2⟩
      · have h2 := List.mem_of_mem_take h
        exact ⟨List.mem_append_right _ (hBr p h2).1, (hBr p h2).2⟩
    · left
      intro h
      rw [h] at hAt
      cases A with
      | nil => exact hA1 rfl
      | cons a t => simp at hAt
    · intro _ _
      rw [hAt, hBt]
      exact hheads hA1 hB1

theorem unmarked_card_lt {tpc tpc1 : TracePC} (left right : ExecPath)
    (hmono : ∀ p ∈ tpc.nd, p ∈ tpc1.nd) {p : PCID} (hp : p ∈ left ++ right)
    (h1 : tpc.IsND p = false) (h2 : p ∈ tpc1.nd) :
    (unmarked tpc1 left right).card < (unmarked tpc left right).card := by
  apply Finset.card_lt_card
  rw [Finset.ssubset_iff_of_subset]
  · refine ⟨p, ?_, ?_⟩
    · simp only [unmarked, Finset.mem_filter, List.mem_toFinset]
      exact ⟨hp, h1⟩
    · simp only [unmarked, Finset.mem_filter, List.mem_toFinset, not_and]
      intro _
      rw [(TracePC.IsND_iff tpc1 p).2 h2]
      simp
  · intro q hq
    simp only [unmarked, Finset.mem_filter, List.mem_toFinset] at hq ⊢
    refine ⟨hq.1, ?_⟩
    rw [TracePC.IsND_false_iff] at hq ⊢
    exact fun h => hq.2 (hmono q h)

theorem unmarked_card_le (tpc : TracePC) (left right : ExecPath) :
    (unmarked tpc left right).card ≤ left.length + right.length := by
  unfold unmarked
  refine le_trans (Finset.card_filter_le _ _) ?_
  refine le_trans (List.toFinset_card_le _) ?_
  simp

theorem unmarked_card_pos {tpc : TracePC} (left right : ExecPath) {p : PCID}
    (hp : p ∈ left ++ right) (h1 : tpc.IsND p = false) :
    0 < (unmarked tpc left right).card := by
  apply Finset.card_pos.2
  exact ⟨p, by simp only [unmarked, Finset.mem_filter, List.mem_toFinset]; exact ⟨hp, h1⟩⟩

theorem marks_new_iff (a b : TracePC) :
    marks_new a b = true ↔ ∃ p ∈ b.nd, a.IsND p = false := by
  simp [marks_new]

theorem getLast?_cons_of_getLast? {α : Type} (a x : α) (l : List α)
    (h : l.getLast? = some x) : (a :: l).getLast? = some x := by
  cases l with
  | nil => simp at h
  | cons b t => simpa [List.getLast?_cons_cons] using h

/-- The loop of `CheckDiff` ends within as many passes as the two paths hold
unmarked PCIDs; every pass marks a new PCID; and at the end the two pruned paths
have the same significant part. -/
theorem TracePC.CheckDiff_loop_spec (left right : ExecPath) :
    ∀ (n : Nat) (tpc : TracePC) (is_last_iter : Bool) (left_chunk right_chunk : ExecPath),
      10 ≤ tpc.max_significant_execpath_size →
      (unmarked tpc left right).card ≤ n →
      ChunksOK tpc left right left_chunk right_chunk →
      ∃ states tpc2,
        TracePC.CheckDiff_loop_states left right n tpc is_last_iter left_chunk right_chunk =
          .ok states ∧
        TracePC.CheckDiff_loop left right n tpc is_last_iter left_chunk right_chunk =
          .ok tpc2 ∧
        states.getLast? = some tpc2 ∧
        List.Chain (fun a b => marks_new a b = true) tpc states ∧
        (tpc2.Prune left = tpc2.Prune right ∨
          tpc2.ExecPathSignificantMax ≤
            common_prefix_length (tpc2.Prune left) (tpc2.Prune right)) ∧
        tpc2.eq_significant (tpc2.Prune left) (tpc2.Prune right) = true
  | 0, tpc, il, lc, rc, _, hcard, hok => by
    exfalso
    obtain ⟨hel, hne, _⟩ := hok
    have hex : ∃ p, p ∈ lc ++ rc := by
      rcases hne with h | h
      · obtain ⟨a, t, e⟩ := List.exists_cons_of_ne_nil h
        exact ⟨a, by simp [e]⟩
      · obtain ⟨a, t, e⟩ := List.exists_cons_of_ne_nil h
        exact ⟨a, by simp [e]⟩
    obtain ⟨p, hp⟩ := hex
    have := unmarked_card_pos left right (hel p hp).1 (hel p hp).2
    omega
  | n + 1, tpc, il, lc, rc, hS, hcard, hok => by
    obtain ⟨hel, hne, hheads⟩ := hok
    obtain ⟨tpc1, e, mw, p, hp, hp1⟩ := TracePC.CheckDiff_round_spec tpc il lc rc hne hheads
    have hlt := unmarked_card_lt left right mw.2.1 (hel p hp).1 (hel p hp).2 hp1
    have hnew : marks_new tpc tpc1 = true := (marks_new_iff tpc tpc1).2 ⟨p, hp1, (hel p hp).2⟩
    have hS1 : 10 ≤ tpc1.max_significant_execpath_size := by rw [mw.1]; exact hS
    by_cases hexit : ( remove_common_prefix (tpc1.Prune left) (tpc1.Prune right)).2.2 ≥
        tpc1.ExecPathSignificantMax ∨
        (( remove_common_prefix (tpc1.Prune left) (tpc1.Prune right)).1.length = 0 ∧
          ( remove_common_prefix (tpc1.Prune left) (tpc1.Prune right)).2.1.length = 0)
    · refine ⟨[tpc1], tpc1, ?_, ?_, rfl, List.Chain.cons hnew List.Chain.nil, ?_⟩
      · simp only [TracePC.CheckDiff_loop_states]
        rw [e]
        simp only [Except.bind_ok_eq]
        rw [if_pos hexit]
      · simp only [TracePC.CheckDiff_loop]
        rw [e]
        simp only [Except.bind_ok_eq]
        rw [if_pos hexit]
      · exact TracePC.equal_of_exit tpc1 _ _ hexit
    · have hok1 := TracePC.chunks_ok tpc1 left right (tpc1.Prune left) (tpc1.Prune right) hS1
        (fun q hq => by
          simp only [TracePC.Prune, List.mem_filter, Bool.not_eq_true'] at hq
          exact hq)
        (fun q hq => by
          simp only [TracePC.Prune, List.mem_filter, Bool.not_eq_true'] at hq
          exact hq)
        (fun h => hexit (Or.inr h))
      obtain ⟨rest, tpc2, e1, e2, hlast, hchain, hpost⟩ := TracePC.CheckDiff_loop_spec left right n
        tpc1
        (tpc1.chunks ( remove_common_prefix (tpc1.Prune left) (tpc1.Prune right)).1
          ( remove_common_prefix (tpc1.Prune left) (tpc1.Prune right)).2.1).1
        _ _ hS1 (by omega) hok1
      refine ⟨tpc1 :: rest, tpc2, ?_, ?_, getLast?_cons_of_getLast? tpc1 tpc2 rest hlast,
        List.Chain.cons hnew hchain, hpost⟩
      · simp only [TracePC.CheckDiff_loop_states]
        rw [e]
        simp only [Except.bind_ok_eq]
        rw [if_neg hexit, e1]
        rfl
      · simp only [TracePC.CheckDiff_loop]
        rw [e]
        simp only [Except.bind_ok_eq]
        rw [if_neg hexit]
        exact e2

/-! ## Promotion, negation and the equality shape -/

mutual
theorem IntExpr.struct_eq_refl : ∀ a : IntExpr, a.struct_eq a = true
  | .CONST _ => by simp [IntExpr.struct_eq]
  | .VAR _ => by simp [IntExpr.struct_eq]
  | .ITE c l r => by simp [IntExpr.struct_eq, BoolExpr.struct_eq_self c, IntExpr.struct_eq_refl l, IntExpr.struct_eq_refl r]
  | .ADD l r => by simp [IntExpr.struct_eq, IntExpr.struct_eq_refl l, IntExpr.struct_eq_refl r]
  | .SUB l r => by simp [IntExpr.struct_eq, IntExpr.struct_eq_refl l, IntExpr.struct_eq_refl r]
  | .MULT l r => by simp [IntExpr.struct_eq, IntExpr.struct_eq_refl l, IntExpr.struct_eq_refl r]
  | .DIV l r => by simp [IntExpr.struct_eq, IntExpr.struct_eq_refl l, IntExpr.struct_eq_refl r]
  | .MOD l r => by simp [IntExpr.struct_eq, IntExpr.struct_eq_refl l, IntExpr.struct_eq_refl r]
theorem BoolExpr.struct_eq_self : ∀ a : BoolExpr, a.struct_eq a = true
  | .VAR _ => by simp [BoolExpr.struct_eq]
  | .NOT b => by simp [BoolExpr.struct_eq, BoolExpr.struct_eq_self b]
  | .AND l r => by simp [BoolExpr.struct_eq, BoolExpr.struct_eq_self l, BoolExpr.struct_eq_self r]
  | .OR l r => by simp [BoolExpr.struct_eq, BoolExpr.struct_eq_self l, BoolExpr.struct_eq_self r]
  | .EQ l r => by simp [BoolExpr.struct_eq, IntExpr.struct_eq_refl l, IntExpr.struct_eq_refl r]
  | .NEQ l r => by simp [BoolExpr.struct_eq, IntExpr.struct_eq_refl l, IntExpr.struct_eq_refl r]
  | .LT l r => by simp [BoolExpr.struct_eq, IntExpr.struct_eq_refl l, IntExpr.struct_eq_refl r]
  | .GT l r => by simp [BoolExpr.struct_eq, IntExpr.struct_eq_refl l, IntExpr.struct_eq_refl r]
  | .LTE l r => by simp [BoolExpr.struct_eq, IntExpr.struct_eq_refl l, IntExpr.struct_eq_refl r]
  | .GTE l r => by simp [BoolExpr.struct_eq, IntExpr.struct_eq_refl l, IntExpr.struct_eq_refl r]
end

mutual
theorem IntExpr.same_of_struct_eq : ∀ (a b : IntExpr), a.struct_eq b = true → a = b
  | .CONST _, b => by cases b <;> simp [IntExpr.struct_eq]
  | .VAR _, b => by cases b <;> simp [IntExpr.struct_eq]
  | .ITE c l r, b => by
    cases b <;> simp only [IntExpr.struct_eq, Bool.and_eq_true, Bool.false_eq_true, false_implies]
    rename_i c2 l2 r2
    intro h
    rw [BoolExpr.eq_of_struct_eq c c2 h.1.1, IntExpr.same_of_struct_eq l l2 h.1.2,
      IntExpr.same_of_struct_eq r r2 h.2]
  | .ADD l r, b => by
    cases b <;> simp only [IntExpr.struct_eq, Bool.and_eq_true, Bool.false_eq_true, false_implies]
    rename_i l2 r2
    intro h
    rw [IntExpr.same_of_struct_eq l l2 h.1, IntExpr.same_of_struct_eq r r2 h.2]
  | .SUB l r, b => by
    cases b <;> simp only [IntExpr.struct_eq, Bool.and_eq_true, Bool.false_eq_true, false_implies]
    rename_i l2 r2
    intro h
    rw [IntExpr.same_of_struct_eq l l2 h.1, IntExpr.same_of_struct_eq r r2 h.2]
  | .MULT l r, b => by
    cases b <;> simp only [IntExpr.struct_eq, Bool.and_eq_true, Bool.false_eq_true, false_implies]
    rename_i l2 r2
    intro h
    rw [IntExpr.same_of_struct_eq l l2 h.1, IntExpr.same_of_struct_eq r r2 h.2]
  | .DIV l r, b => by
    cases b <;> simp only [IntExpr.struct_eq, Bool.and_eq_true, Bool.false_eq_true, false_implies]
    rename_i l2 r2
    intro h
    rw [IntExpr.same_of_struct_eq l l2 h.1, IntExpr.same_of_struct_eq r r2 h.2]
  | .MOD l r, b => by
    cases b <;> simp only [IntExpr.struct_eq, Bool.and_eq_true, Bool.false_eq_true, false_implies]
    rename_i l2 r2
    intro h
    rw [IntExpr.same_of_struct_eq l l2 h.1, IntExpr.same_of_struct_eq r r2 h.2]
theorem BoolExpr.eq_of_struct_eq : ∀ (a b : BoolExpr), a.struct_eq b = true → a = b
  | .VAR _, b => by cases b <;> simp [BoolExpr.struct_eq]
  | .NOT x, b => by
    cases b <;> simp only [BoolExpr.struct_eq, Bool.and_eq_true, Bool.false_eq_true, false_implies]
    rename_i x2
    intro h
    rw [BoolExpr.eq_of_struct_eq x x2 h]
  | .AND l r, b => by
    cases b <;> simp only [BoolExpr.struct_eq, Bool.and_eq_true, Bool.false_eq_true, false_implies]
    rename_i l2 r2
    intro h
    rw [BoolExpr.eq_of_struct_eq l l2 h.1, BoolExpr.eq_of_struct_eq r r2 h.2]
  | .OR l r, b => by
    cases b <;> simp only [BoolExpr.struct_eq, Bool.and_eq_true, Bool.false_eq_true, false_implies]
    rename_i l2 r2
    intro h
    rw [BoolExpr.eq_of_struct_eq l l2 h.1, BoolExpr.eq_of_struct_eq r r2 h.2]
  | .EQ l r, b => by
    cases b <;> simp only [BoolExpr.struct_eq, Bool.and_eq_true, Bool.false_eq_true, false_implies]
    rename_i l2 r2
    intro h
    rw [IntExpr.same_of_struct_eq l l2 h.1, IntExpr.same_of_struct_eq r r2 h.2]
  | .NEQ l r, b => by
    cases b <;> simp only [BoolExpr.struct_eq, Bool.and_eq_true, Bool.false_eq_true, false_implies]
    rename_i l2 r2
    intro h
    rw [IntExpr.same_of_struct_eq l l2 h.1, IntExpr.same_of_struct_eq r r2 h.2]
  | .LT l r, b => by
    cases b <;> simp only [BoolExpr.struct_eq, Bool.and_eq_true, Bool.false_eq_true, false_implies]
    rename_i l2 r2
    intro h
    rw [IntExpr.same_of_struct_eq l l2 h.1, IntExpr.same_of_struct_eq r r2 h.2]
  | .GT l r, b => by
    cases b <;> simp only [BoolExpr.struct_eq, Bool.and_eq_true, Bool.false_eq_true, false_implies]
    rename_i l2 r2
    intro h
    rw [IntExpr.same_of_struct_eq l l2 h.1, IntExpr.same_of_struct_eq r r2 h.2]
  | .LTE l r, b => by
    cases b <;> simp only [BoolExpr.struct_eq, Bool.and_eq_true, Bool.false_eq_true, false_implies]
    rename_i l2 r2
    intro h
    rw [IntExpr.same_of_struct_eq l l2 h.1, IntExpr.same_of_struct_eq r r2 h.2]
  | .GTE l r, b => by
    cases b <;> simp only [BoolExpr.struct_eq, Bool.and_eq_true, Bool.false_eq_true, false_implies]
    rename_i l2 r2
    intro h
    rw [IntExpr.same_of_struct_eq l l2 h.1, IntExpr.same_of_struct_eq r r2 h.2]
end

theorem IntExpr.struct_eq_iff_eq (a b : IntExpr) : a.struct_eq b = true ↔ a = b :=
  ⟨IntExpr.same_of_struct_eq a b, fun h => h ▸ IntExpr.struct_eq_refl a⟩

theorem BoolExpr.struct_eq_iff (a b : BoolExpr) : a.struct_eq b = true ↔ a = b :=
  ⟨BoolExpr.eq_of_struct_eq a b, fun h => h ▸ BoolExpr.struct_eq_self a⟩


theorem Books.promote_cond_node (env : SynthEnv) (t : ExecTree) (b : Books) (pos : Pos)
    (root node : Node) (cond : BranchCondition) (hr : t.root = some root)
    (hn : root.get? pos = some node) (hc : b.cond node.id = some cond) :
    (b.promote_cond env t pos).cond node.id =
      some (if cond.get_condtype = .CT_ENUM then NumericCondition.new env
        else if cond.get_condtype = .CT_NUMERIC then NeglectCondition.new env else cond) := by
  simp only [Books.promote_cond, hr, hn, hc]
  cases root.get_sibling pos with
  | none => simp [Books.set_cond]
  | some s =>
    simp only [Books.set_cond]
    split <;> simp

theorem BookedTree.promote_cond_at (env : SynthEnv) (bt : BookedTree) (pos : Pos)
    (cond : BranchCondition) (h : bt.cond_at pos = some cond) :
    (bt.promote_cond env pos).cond_at pos =
      some (if cond.get_condtype = .CT_ENUM then NumericCondition.new env
        else if cond.get_condtype = .CT_NUMERIC then NeglectCondition.new env else cond) := by
  unfold BookedTree.cond_at at h ⊢
  simp only [BookedTree.promote_cond]
  cases hr : bt.tree.root with
  | none => simp [hr] at h
  | some root =>
    simp only [hr] at h ⊢
    cases hn : root.get? pos with
    | none => simp [hn] at h
    | some node =>
      simp only [hn] at h ⊢
      exact Books.promote_cond_node env bt.tree bt.books pos root node cond hr hn h

theorem ladder_kind (env : SynthEnv) (cond : BranchCondition) :
    (if cond.get_condtype = .CT_ENUM then NumericCondition.new env
      else if cond.get_condtype = .CT_NUMERIC then NeglectCondition.new env
      else cond).get_condtype = cond.get_condtype.promoted := by
  cases h : cond.get_condtype
  · simp [CondType.promoted, NumericCondition.new, BranchCondition.get_condtype]
  · simp [CondType.promoted, NeglectCondition.new, BranchCondition.get_condtype]
  · simp [CondType.promoted, h]

theorem BookedTree.promote_cond_iterate (env : SynthEnv) (pos : Pos) :
    ∀ (n : Nat) (bt : BookedTree) (cond : BranchCondition), bt.cond_at pos = some cond →
      (((fun b => BookedTree.promote_cond env b pos)^[n] bt).cond_at pos).map
        BranchCondition.get_condtype = some (CondType.promoted^[n] cond.get_condtype)
  | 0, bt, cond, h => by simp [h]
  | n + 1, bt, cond, h => by
    rw [Function.iterate_succ_apply, Function.iterate_succ_apply]
    rw [BookedTree.promote_cond_iterate env pos n _ _ (BookedTree.promote_cond_at env bt pos cond h)]
    rw [ladder_kind]

theorem to_equality_condition_nest (k : Nat) (a b : String) :
    to_equality_condition (nest_not k (.EQ (.VAR a) (.VAR b))) =
      .ok ⟨if k % 2 = 0 then .ET_Equal else .ET_Inequal, a, b⟩ ∧
    to_equality_condition (nest_not k (.NEQ (.VAR a) (.VAR b))) =
      .ok ⟨if k % 2 = 0 then .ET_Inequal else .ET_Equal, a, b⟩ := by
  induction k with
  | zero => simp [nest_not, to_equality_condition]
  | succ k ih =>
    simp only [nest_not, to_equality_condition, ih.1, ih.2, EqualityCondition.negate]
    rcases Nat.mod_two_eq_zero_or_one k with h | h
    · have h2 : (k + 1) % 2 = 1 := by omega
      simp [h, h2]
    · have h2 : (k + 1) % 2 = 0 := by omega
      simp [h, h2]

theorem eval_nest_not (args : Args) (e : BoolExpr) (v : Bool) (h : e.eval args = .ok v) :
    ∀ k, (nest_not k e).eval args = .ok (if k % 2 = 0 then v else !v)
  | 0 => by simp [nest_not, h]
  | k + 1 => by
    simp only [nest_not, BoolExpr.eval, eval_nest_not args e v h k]
    rcases Nat.mod_two_eq_zero_or_one k with h1 | h1
    · have h2 : (k + 1) % 2 = 1 := by omega
      simp [h1, h2]
    · have h2 : (k + 1) % 2 = 0 := by omega
      simp [h1, h2]

theorem eval_nest_not_error (args : Args) (e : BoolExpr) (err : EvalError)
    (h : e.eval args = .error err) : ∀ k, (nest_not k e).eval args = .error err
  | 0 => by simp [nest_not, h]
  | k + 1 => by simp only [nest_not, BoolExpr.eval, eval_nest_not_error args e err h k]

theorem holds_iff_eval_nest (k : Nat) (a b : String) (args : Args) :
    (((⟨if k % 2 = 0 then .ET_Equal else .ET_Inequal, a, b⟩ : EqualityCondition).holds args = true ↔
      (nest_not k (.EQ (.VAR a) (.VAR b))).eval args = .ok true)) ∧
    (((⟨if k % 2 = 0 then .ET_Inequal else .ET_Equal, a, b⟩ : EqualityCondition).holds args = true ↔
      (nest_not k (.NEQ (.VAR a) (.VAR b))).eval args = .ok true)) := by
  cases ha : args.lookup a with
  | none =>
    have h1 : (BoolExpr.EQ (.VAR a) (.VAR b)).eval args = .error .out_of_range := by
      simp [BoolExpr.eval, IntExpr.eval, Args.at, ha]
    have h2 : (BoolExpr.NEQ (.VAR a) (.VAR b)).eval args = .error .out_of_range := by
      simp [BoolExpr.eval, IntExpr.eval, Args.at, ha]
    simp [EqualityCondition.holds, ha, eval_nest_not_error args _ _ h1 k,
      eval_nest_not_error args _ _ h2 k]
  | some x =>
    cases hb : args.lookup b with
    | none =>
      have h1 : (BoolExpr.EQ (.VAR a) (.VAR b)).eval args = .error .out_of_range := by
        simp [BoolExpr.eval, IntExpr.eval, Args.at, ha, hb]
      have h2 : (BoolExpr.NEQ (.VAR a) (.VAR b)).eval args = .error .out_of_range := by
        simp [BoolExpr.eval, IntExpr.eval, Args.at, ha, hb]
      simp [EqualityCondition.holds, ha, hb, eval_nest_not_error args _ _ h1 k,
        eval_nest_not_error args _ _ h2 k]
    | some y =>
      have h1 : (BoolExpr.EQ (.VAR a) (.VAR b)).eval args = .ok (decide (x = y)) := by
        simp [BoolExpr.eval, IntExpr.eval, Args.at, ha, hb]
      have h2 : (BoolExpr.NEQ (.VAR a) (.VAR b)).eval args = .ok (decide (x ≠ y)) := by
        simp [BoolExpr.eval, IntExpr.eval, Args.at, ha, hb]
      rw [eval_nest_not args _ _ h1 k, eval_nest_not args _ _ h2 k]
      rcases Nat.mod_two_eq_zero_or_one k with h | h
      · simp [EqualityCondition.holds, ha, hb, h]
      · simp [EqualityCondition.holds, ha, hb, h]

theorem shape_of_to_equality_condition :
    ∀ (e : BoolExpr) (c : EqualityCondition), to_equality_condition e = .ok c →
      ∃ (k : Nat) (a b : String),
        e = nest_not k (.EQ (.VAR a) (.VAR b)) ∨ e = nest_not k (.NEQ (.VAR a) (.VAR b))
  | .NOT x, c, h => by
    simp only [to_equality_condition] at h
    cases hx : to_equality_condition x with
    | error r => simp [hx] at h
    | ok c2 =>
      obtain ⟨k, a, b, hk⟩ := shape_of_to_equality_condition x c2 hx
      refine ⟨k + 1, a, b, ?_⟩
      rcases hk with hk | hk
      · left; simp [nest_not, hk]
      · right; simp [nest_not, hk]
  | .EQ l r, c, h => by
    cases l <;> cases r <;> simp [to_equality_condition] at h
    rename_i a b
    exact ⟨0, a, b, Or.inl rfl⟩
  | .NEQ l r, c, h => by
    cases l <;> cases r <;> simp [to_equality_condition] at h
    rename_i a b
    exact ⟨0, a, b, Or.inr rfl⟩
  | .AND _ _, c, h => by simp [to_equality_condition] at h
  | .OR _ _, c, h => by simp [to_equality_condition] at h
  | .LT _ _, c, h => by simp [to_equality_condition] at h
  | .GT _ _, c, h => by simp [to_equality_condition] at h
  | .LTE _ _, c, h => by simp [to_equality_condition] at h
  | .GTE _ _, c, h => by simp [to_equality_condition] at h
  | .VAR _, c, h => by simp [to_equality_condition] at h

/-! ## Evaluation against the described value -/

theorem wrap_int_of_fits (x : Int) (h : fits_int x = true) : wrap_int x = x := by
  simp only [fits_int, decide_eq_true_eq] at h
  unfold wrap_int
  omega

theorem Args.at_of_lookup (args : Args) (id : String) (h : (args.lookup id).isSome = true) :
    args.at id = .ok (args.get id) := by
  unfold Args.at Args.get
  cases hl : args.lookup id with
  | none => simp [hl] at h
  | some v => simp

mutual
theorem IntExpr.eval_eq_value (args : Args) :
    ∀ (e : IntExpr), (∀ x ∈ e.vars, (args.lookup x).isSome = true) → e.no_bool_var = true →
      e.div_fits_int args = true → e.eval args = raised_or (e.value args)
  | .CONST _, _, _, _ => rfl
  | .VAR id, hv, _, _ => by
    simp only [IntExpr.eval, IntExpr.value, raised_or]
    exact Args.at_of_lookup args id (hv id (by simp [IntExpr.vars]))
  | .ITE c l r, hv, hb, hf => by
    simp only [IntExpr.no_bool_var, Bool.and_eq_true] at hb
    simp only [IntExpr.div_fits_int, Bool.and_eq_true] at hf
    have hc := BoolExpr.eval_eq_truth args c
      (fun x hx => hv x (by simp [IntExpr.vars, hx])) hb.1.1 hf.1
    simp only [IntExpr.eval, IntExpr.value, hc]
    cases hcv : c.truth args with
    | none => simp [raised_or]
    | some a =>
      have h2 := hf.2
      simp only [hcv] at h2
      cases a with
      | true =>
        simp only [raised_or]
        exact IntExpr.eval_eq_value args l
          (fun x hx => hv x (by simp [IntExpr.vars, hx])) hb.1.2 h2
      | false =>
        simp only [raised_or]
        exact IntExpr.eval_eq_value args r
          (fun x hx => hv x (by simp [IntExpr.vars, hx])) hb.2 h2
  | .ADD l r, hv, hb, hf => by
    simp only [IntExpr.no_bool_var, Bool.and_eq_true] at hb
    simp only [IntExpr.div_fits_int, Bool.and_eq_true, Bool.or_eq_true] at hf
    have hl := IntExpr.eval_eq_value args l
      (fun x hx => hv x (by simp [IntExpr.vars, hx])) hb.1 hf.1
    simp only [IntExpr.eval, IntExpr.value, hl]
    cases hlv : l.value args with
    | none => simp [raised_or]
    | some a =>
      have hr := IntExpr.eval_eq_value args r
        (fun x hx => hv x (by simp [IntExpr.vars, hx])) hb.2
        (by rcases hf.2 with h | h
            · simp [hlv] at h
            · exact h)
      simp only [raised_or, hr]
      cases hrv : r.value args <;> simp [raised_or]
  | .SUB l r, hv, hb, hf => by
    simp only [IntExpr.no_bool_var, Bool.and_eq_true] at hb
    simp only [IntExpr.div_fits_int, Bool.and_eq_true, Bool.or_eq_true] at hf
    have hl := IntExpr.eval_eq_value args l
      (fun x hx => hv x (by simp [IntExpr.vars, hx])) hb.1 hf.1
    simp only [IntExpr.eval, IntExpr.value, hl]
    cases hlv : l.value args with
    | none => simp [raised_or]
    | some a =>
      have hr := IntExpr.eval_eq_value args r
        (fun x hx => hv x (by simp [IntExpr.vars, hx])) hb.2
        (by rcases hf.2 with h | h
            · simp [hlv] at h
            · exact h)
      simp only [raised_or, hr]
      cases hrv : r.value args <;> simp [raised_or]
  | .MULT l r, hv, hb, hf => by
    simp only [IntExpr.no_bool_var, Bool.and_eq_true] at hb
    simp only [IntExpr.div_fits_int, Bool.and_eq_true, Bool.or_eq_true] at hf
    have hl := IntExpr.eval_eq_value args l
      (fun x hx => hv x (by simp [IntExpr.vars, hx])) hb.1 hf.1
    simp only [IntExpr.eval, IntExpr.value, hl]
    cases hlv : l.value args with
    | none => simp [raised_or]
    | some a =>
      have hr := IntExpr.eval_eq_value args r
        (fun x hx => hv x (by simp [IntExpr.vars, hx])) hb.2
        (by rcases hf.2 with h | h
            · simp [hlv] at h
            · exact h)
      simp only [raised_or, hr]
      cases hrv : r.value args <;> simp [raised_or]
  | .DIV l r, hv, hb, hf => by
    simp only [IntExpr.no_bool_var, Bool.and_eq_true] at hb
    simp only [IntExpr.div_fits_int, Bool.and_eq_true, Bool.or_eq_true] at hf
    have hl := IntExpr.eval_eq_value args l
      (fun x hx => hv x (by simp [IntExpr.vars, hx])) hb.1 hf.1.1
    simp only [IntExpr.eval, IntExpr.value, hl]
    cases hlv : l.value args with
    | none => simp [raised_or]
    | some a =>
      have hr := IntExpr.eval_eq_value args r
        (fun x hx => hv x (by simp [IntExpr.vars, hx])) hb.2
        (by rcases hf.1.2 with h | h
            · simp [hlv] at h
            · exact h)
      simp only [raised_or, hr]
      cases hrv : r.value args with
      | none => simp [raised_or]
      | some b =>
        have hfit := hf.2
        simp only [hlv, hrv, div_operands_fit, Bool.and_eq_true, Bool.or_eq_true,
          decide_eq_true_eq] at hfit
        simp only [raised_or]
        rw [wrap_int_of_fits a hfit.1.1, wrap_int_of_fits b hfit.1.2]
        by_cases hb0 : b = 0
        · simp [hb0]
        · rcases hfit.2 with h | h
          · exact absurd h hb0
          · simp [hb0, wrap_int_of_fits _ h]
  | .MOD l r, hv, hb, hf => by
    simp only [IntExpr.no_bool_var, Bool.and_eq_true] at hb
    simp only [IntExpr.div_fits_int, Bool.and_eq_true, Bool.or_eq_true] at hf
    have hl := IntExpr.eval_eq_value args l
      (fun x hx => hv x (by simp [IntExpr.vars, hx])) hb.1 hf.1.1
    simp only [IntExpr.eval, IntExpr.value, hl]
    cases hlv : l.value args with
    | none => simp [raised_or]
    | some a =>
      have hr := IntExpr.eval_eq_value args r
        (fun x hx => hv x (by simp [IntExpr.vars, hx])) hb.2
        (by rcases hf.1.2 with h | h
            · simp [hlv] at h
            · exact h)
      simp only [raised_or, hr]
      cases hrv : r.value args with
      | none => simp [raised_or]
      | some b =>
        have hfit := hf.2
        simp only [hlv, hrv, div_operands_fit, Bool.and_eq_true, Bool.or_eq_true,
          decide_eq_true_eq] at hfit
        simp only [raised_or]
        rw [wrap_int_of_fits a hfit.1.1, wrap_int_of_fits b hfit.1.2]
        by_cases hb0 : b = 0
        · simp [hb0]
        · rcases hfit.2 with h | h
          · exact absurd h hb0
          · simp [hb0, wrap_int_of_fits _ h]
theorem BoolExpr.eval_eq_truth (args : Args) :
    ∀ (e : BoolExpr), (∀ x ∈ e.vars, (args.lookup x).isSome = true) → e.no_bool_var = true →
      e.div_fits_int args = true → e.eval args = raised_or (e.truth args)
  | .AND l r, hv, hb, hf => by
    simp only [BoolExpr.no_bool_var, Bool.and_eq_true] at hb
    simp only [BoolExpr.div_fits_int, Bool.and_eq_true] at hf
    have hl := BoolExpr.eval_eq_truth args l
      (fun x hx => hv x (by simp [BoolExpr.vars, hx])) hb.1 hf.1
    simp only [BoolExpr.eval, BoolExpr.truth, hl]
    cases hlv : l.truth args with
    | none => simp [raised_or]
    | some a =>
      cases a with
      | false => simp [raised_or]
      | true =>
        have hr := BoolExpr.eval_eq_truth args r
          (fun x hx => hv x (by simp [BoolExpr.vars, hx])) hb.2
          (by have h := hf.2
              simp only [hlv] at h
              exact h)
        simp only [raised_or, hr]
  | .OR l r, hv, hb, hf => by
    simp only [BoolExpr.no_bool_var, Bool.and_eq_true] at hb
    simp only [BoolExpr.div_fits_int, Bool.and_eq_true] at hf
    have hl := BoolExpr.eval_eq_truth args l
      (fun x hx => hv x (by simp [BoolExpr.vars, hx])) hb.1 hf.1
    simp only [BoolExpr.eval, BoolExpr.truth, hl]
    cases hlv : l.truth args with
    | none => simp [raised_or]
    | some a =>
      cases a with
      | true => simp [raised_or]
      | false =>
        have hr := BoolExpr.eval_eq_truth args r
          (fun x hx => hv x (by simp [BoolExpr.vars, hx])) hb.2
          (by have h := hf.2
              simp only [hlv] at h
              exact h)
        simp only [raised_or, hr]
  | .NOT b, hv, hb, hf => by
    simp only [BoolExpr.no_bool_var] at hb
    simp only [BoolExpr.div_fits_int] at hf
    have h := BoolExpr.eval_eq_truth args b (fun x hx => hv x (by simp [BoolExpr.vars, hx])) hb hf
    simp only [BoolExpr.eval, BoolExpr.truth, h]
    cases b.truth args <;> simp [raised_or]
  | .EQ l r, hv, hb, hf => by
    simp only [BoolExpr.no_bool_var, Bool.and_eq_true] at hb
    simp only [BoolExpr.div_fits_int, Bool.and_eq_true, Bool.or_eq_true] at hf
    have hl := IntExpr.eval_eq_value args l
      (fun x hx => hv x (by simp [BoolExpr.vars, hx])) hb.1 hf.1
    simp only [BoolExpr.eval, BoolExpr.truth, hl]
    cases hlv : l.value args with
    | none => simp [raised_or]
    | some a =>
      have hr := IntExpr.eval_eq_value args r
        (fun x hx => hv x (by simp [BoolExpr.vars, hx])) hb.2
        (by rcases hf.2 with h | h
            · simp [hlv] at h
            · exact h)
      simp only [raised_or, hr]
      cases hrv : r.value args <;> simp [raised_or]
  | .NEQ l r, hv, hb, hf => by
    simp only [BoolExpr.no_bool_var, Bool.and_eq_true] at hb
    simp only [BoolExpr.div_fits_int, Bool.and_eq_true, Bool.or_eq_true] at hf
    have hl := IntExpr.eval_eq_value args l
      (fun x hx => hv x (by simp [BoolExpr.vars, hx])) hb.1 hf.1
    simp only [BoolExpr.eval, BoolExpr.truth, hl]
    cases hlv : l.value args with
    | none => simp [raised_or]
    | some a =>
      have hr := IntExpr.eval_eq_value args r
        (fun x hx => hv x (by simp [BoolExpr.vars, hx])) hb.2
        (by rcases hf.2 with h | h
            · simp [hlv] at h
            · exact h)
      simp only [raised_or, hr]
      cases hrv : r.value args <;> simp [raised_or]
  | .LT l r, hv, hb, hf => by
    simp only [BoolExpr.no_bool_var, Bool.and_eq_true] at hb
    simp only [BoolExpr.div_fits_int, Bool.and_eq_true, Bool.or_eq_true] at hf
    have hl := IntExpr.eval_eq_value args l
      (fun x hx => hv x (by simp [BoolExpr.vars, hx])) hb.1 hf.1
    simp only [BoolExpr.eval, BoolExpr.truth, hl]
    cases hlv : l.value args with
    | none => simp [raised_or]
    | some a =>
      have hr := IntExpr.eval_eq_value args r
        (fun x hx => hv x (by simp [BoolExpr.vars, hx])) hb.2
        (by rcases hf.2 with h | h
            · simp [hlv] at h
            · exact h)
      simp only [raised_or, hr]
      cases hrv : r.value args <;> simp [raised_or]
  | .GT l r, hv, hb, hf => by
    simp only [BoolExpr.no_bool_var, Bool.and_eq_true] at hb
    simp only [BoolExpr.div_fits_int, Bool.and_eq_true, Bool.or_eq_true] at hf
    have hl := IntExpr.eval_eq_value args l
      (fun x hx => hv x (by simp [BoolExpr.vars, hx])) hb.1 hf.1
    simp only [BoolExpr.eval, BoolExpr.truth, hl]
    cases hlv : l.value args with
    | none => simp [raised_or]
    | some a =>
      have hr := IntExpr.eval_eq_value args r
        (fun x hx => hv x (by simp [BoolExpr.vars, hx])) hb.2
        (by rcases hf.2 with h | h
            · simp [hlv] at h
            · exact h)
      simp only [raised_or, hr]
      cases hrv : r.value args <;> simp [raised_or]
  | .LTE l r, hv, hb, hf => by
    simp only [BoolExpr.no_bool_var, Bool.and_eq_true] at hb
    simp only [BoolExpr.div_fits_int, Bool.and_eq_true, Bool.or_eq_true] at hf
    have hl := IntExpr.eval_eq_value args l
      (fun x hx => hv x (by simp [BoolExpr.vars, hx])) hb.1 hf.1
    simp only [BoolExpr.eval, BoolExpr.truth, hl]
    cases hlv : l.value args with
    | none => simp [raised_or]
    | some a =>
      have hr := IntExpr.eval_eq_value args r
        (fun x hx => hv x (by simp [BoolExpr.vars, hx])) hb.2
        (by rcases hf.2 with h | h
            · simp [hlv] at h
            · exact h)
      simp only [raised_or, hr]
      cases hrv : r.value args <;> simp [raised_or]
  | .GTE l r, hv, hb, hf => by
    simp only [BoolExpr.no_bool_var, Bool.and_eq_true] at hb
    simp only [BoolExpr.div_fits_int, Bool.and_eq_true, Bool.or_eq_true] at hf
    have hl := IntExpr.eval_eq_value args l
      (fun x hx => hv x (by simp [BoolExpr.vars, hx])) hb.1 hf.1
    simp only [BoolExpr.eval, BoolExpr.truth, hl]
    cases hlv : l.value args with
    | none => simp [raised_or]
    | some a =>
      have hr := IntExpr.eval_eq_value args r
        (fun x hx => hv x (by simp [BoolExpr.vars, hx])) hb.2
        (by rcases hf.2 with h | h
            · simp [hlv] at h
            · exact h)
      simp only [raised_or, hr]
      cases hrv : r.value args <;> simp [raised_or]
  | .VAR _, _, hb, _ => by simp [BoolExpr.no_bool_var] at hb
end

/-- The Div node narrows its operands to `int`: for `x = 65536` the right operand of
`1 / (x * x)` has the value `2 ^ 32`, which is not zero, and the node raises
`CondEvalException`. -/
theorem IntExpr.div_narrows_operands :
    (IntExpr.MULT (.VAR "x") (.VAR "x")).eval [("x", 65536)] = .ok (2 ^ 32) ∧
    one_div_square.eval [("x", 65536)] = .error .CondEvalException ∧
    one_div_square.value [("x", 65536)] = some 0 := by
  refine ⟨by rfl, by rfl, by rfl⟩

/-! ## Serialization of inputs -/

theorem Args.lookup_cons_eq (k k0 : String) (v0 : Int) (rest : Args) :
    List.lookup k ((k0, v0) :: rest) = if k = k0 then some v0 else List.lookup k rest := by
  rw [List.lookup_cons]
  by_cases h : k = k0
  · simp [h]
  · rw [if_neg h, beq_false_of_ne h]

theorem Args.lookup_none_of_lt (a : Args) (k : String) (h : ∀ x ∈ a, k < x.1) :
    List.lookup k a = none := by
  induction a with
  | nil => rfl
  | cons x rest ih =>
    obtain ⟨k0, v0⟩ := x
    rw [Args.lookup_cons_eq]
    have h0 : k < k0 := h (k0, v0) (List.mem_cons_self _ _)
    rw [if_neg (ne_of_lt h0)]
    exact ih (fun y hy => h y (List.mem_cons_of_mem _ hy))

theorem Args.insert_spec : ∀ (a : Args) (key : String) (value : Int), a.is_map →
    (a.insert key value).is_map ∧
    (∀ x ∈ a.insert key value, x = (key, value) ∨ x ∈ a) ∧
    ∀ k : String, List.lookup k (a.insert key value) =
      if k = key then (match List.lookup key a with
        | some w => some w
        | none => some value)
      else List.lookup k a
  | [], key, value, _ => by
    refine ⟨by simp [Args.insert, Args.is_map], by simp [Args.insert], ?_⟩
    intro k
    simp only [Args.insert, Args.lookup_cons_eq, List.lookup_nil]
  | (k0, v0) :: rest, key, value, h => by
    have hrest : Args.is_map rest := (List.pairwise_cons.1 h).2
    have hhead : ∀ x ∈ rest, k0 < x.1 := (List.pairwise_cons.1 h).1
    by_cases h1 : key < k0
    · have hins : Args.insert ((k0, v0) :: rest) key value = (key, value) :: (k0, v0) :: rest := by
        simp [Args.insert, h1]
      rw [hins]
      refine ⟨?_, ?_, ?_⟩
      · refine List.pairwise_cons.2 ⟨?_, h⟩
        intro x hx
        rcases List.mem_cons.1 hx with hx | hx
        · rw [hx]; exact h1
        · exact lt_trans h1 (hhead x hx)
      · intro x hx
        rcases List.mem_cons.1 hx with hx | hx
        · exact Or.inl hx
        · exact Or.inr hx
      · intro k
        have hnone : List.lookup key ((k0, v0) :: rest) = none := by
          apply Args.lookup_none_of_lt
          intro x hx
          rcases List.mem_cons.1 hx with hx | hx
          · rw [hx]; exact h1
          · exact lt_trans h1 (hhead x hx)
        rw [hnone, Args.lookup_cons_eq]
    · by_cases h2 : key = k0
      · have hins : Args.insert ((k0, v0) :: rest) key value = (k0, v0) :: rest := by
          simp [Args.insert, h1, h2]
        rw [hins]
        refine ⟨h, fun x hx => Or.inr hx, ?_⟩
        intro k
        by_cases hk : k = key
        · rw [if_pos hk, hk, h2, Args.lookup_cons_eq, if_pos rfl]
        · rw [if_neg hk]
      · have hins : Args.insert ((k0, v0) :: rest) key value =
            (k0, v0) :: Args.insert rest key value := by
          simp [Args.insert, h1, h2]
        rw [hins]
        obtain ⟨ih1, ih2, ih3⟩ := Args.insert_spec rest key value hrest
        have hlt : k0 < key := by
          rcases lt_trichotomy key k0 with h3 | h3 | h3
          · exact absurd h3 h1
          · exact absurd h3 h2
          · exact h3
        refine ⟨?_, ?_, ?_⟩
        · refine List.pairwise_cons.2 ⟨?_, ih1⟩
          intro x hx
          rcases ih2 x hx with hx | hx
          · rw [hx]; exact hlt
          · exact hhead x hx
        · intro x hx
          rcases List.mem_cons.1 hx with hx | hx
          · exact Or.inr (hx ▸ List.mem_cons_self _ _)
          · rcases ih2 x hx with hx | hx
            · exact Or.inl hx
            · exact Or.inr (List.mem_cons_of_mem _ hx)
        · intro k
          have hkey : List.lookup key ((k0, v0) :: rest) = List.lookup key rest := by
            rw [Args.lookup_cons_eq, if_neg h2]
          rw [hkey, Args.lookup_cons_eq k, Args.lookup_cons_eq k, ih3 k]
          by_cases hk0 : k = k0
          · rw [if_pos hk0, if_pos hk0, if_neg (by rw [hk0]; exact fun e => h2 e.symm)]
          · rw [if_neg hk0, if_neg hk0]

theorem Args.ext_of_is_map : ∀ (a b : Args), a.is_map → b.is_map →
    (∀ k : String, List.lookup k a = List.lookup k b) → a = b
  | [], [], _, _, _ => rfl
  | [], (k, v) :: _, _, _, h => by
    have := h k
    rw [Args.lookup_cons_eq, if_pos rfl] at this
    simp at this
  | (k, v) :: _, [], _, _, h => by
    have := h k
    rw [Args.lookup_cons_eq, if_pos rfl] at this
    simp at this
  | (k1, v1) :: r1, (k2, v2) :: r2, ha, hb, h => by
    have ha1 : ∀ x ∈ r1, k1 < x.1 := (List.pairwise_cons.1 ha).1
    have hb1 : ∀ x ∈ r2, k2 < x.1 := (List.pairwise_cons.1 hb).1
    have e1 := h k1
    have e2 := h k2
    rw [Args.lookup_cons_eq, if_pos rfl, Args.lookup_cons_eq] at e1
    rw [Args.lookup_cons_eq, Args.lookup_cons_eq k2 k2, if_pos rfl] at e2
    have hk : k1 = k2 := by
      by_contra hne
      rw [if_neg hne] at e1
      rw [if_neg (fun e => hne e.symm)] at e2
      rcases lt_trichotomy k1 k2 with h3 | h3 | h3
      · rw [Args.lookup_none_of_lt r2 k1 (fun x hx => lt_trans h3 (hb1 x hx))] at e1
        cases e1
      · exact hne h3
      · rw [Args.lookup_none_of_lt r1 k2 (fun x hx => lt_trans h3 (ha1 x hx))] at e2
        cases e2
    subst hk
    rw [if_pos rfl] at e1
    have hv : v1 = v2 := Option.some.inj e1
    subst hv
    have hrest : r1 = r2 := by
      apply Args.ext_of_is_map r1 r2 (List.pairwise_cons.1 ha).2 (List.pairwise_cons.1 hb).2
      intro k
      by_cases hk : k = k1
      · rw [hk, Args.lookup_none_of_lt r1 k1 ha1, Args.lookup_none_of_lt r2 k1 hb1]
      · have := h k
        rw [Args.lookup_cons_eq, Args.lookup_cons_eq, if_neg hk, if_neg hk] at this
        exact this
    rw [hrest]

theorem InputSignature.insert_values_spec (f : String → Int) :
    ∀ (names : List String) (extra : List Int) (acc : Args), acc.is_map →
      (InputSignature.insert_values names (names.map f ++ extra) acc).is_map ∧
      ∀ k : String,
        List.lookup k (InputSignature.insert_values names (names.map f ++ extra) acc) =
          match List.lookup k acc with
          | some w => some w
          | none => if k ∈ names then some (f k) else none
  | [], extra, acc, h => by
    refine ⟨by cases extra <;> simpa [InputSignature.insert_values] using h, ?_⟩
    intro k
    have : InputSignature.insert_values [] ([].map f ++ extra) acc = acc := by
      cases extra <;> simp [InputSignature.insert_values]
    rw [this]
    cases List.lookup k acc <;> simp
  | name :: names, extra, acc, h => by
    obtain ⟨h1, _, h3⟩ := Args.insert_spec acc name (f name) h
    obtain ⟨ih1, ih2⟩ := InputSignature.insert_values_spec f names extra _ h1
    have hstep : InputSignature.insert_values (name :: names)
        ((name :: names).map f ++ extra) acc =
        InputSignature.insert_values names (names.map f ++ extra) (acc.insert name (f name)) :=
      rfl
    rw [hstep]
    refine ⟨ih1, ?_⟩
    intro k
    rw [ih2 k, h3 k]
    by_cases hk : k = name
    · subst hk
      rw [if_pos rfl]
      cases List.lookup k acc <;> simp
    · rw [if_neg hk]
      cases List.lookup k acc with
      | some w => rfl
      | none => simp [hk]

theorem Args.lookup_of_has_keys (args : Args) (names : List String) (hk : args.has_keys names)
    (k : String) :
    List.lookup k args = if k ∈ names then some (args.get k) else none := by
  by_cases h : k ∈ names
  · rw [if_pos h]
    have hin := (hk k).2 h
    cases hl : List.lookup k args with
    | none =>
      rw [List.lookup_eq_none_iff] at hl
      obtain ⟨x, hx, hx1⟩ := List.mem_map.1 hin
      have := hl x hx
      simp [hx1] at this
    | some v => simp [Args.get, hl]
  · rw [if_neg h]
    rw [List.lookup_eq_none_iff]
    intro x hx
    rw [bne_iff_ne]
    intro heq
    apply h
    apply (hk k).1
    exact List.mem_map.2 ⟨x, hx, heq.symm⟩

theorem InputSignature.insert_values_roundtrip (args : Args) (names : List String)
    (extra : List Int) (hm : args.is_map) (hk : args.has_keys names) :
    InputSignature.insert_values names (names.map (fun n => args.get n) ++ extra) [] = args := by
  obtain ⟨h1, h2⟩ :=
    InputSignature.insert_values_spec (fun n => args.get n) names extra []
      (by simp [Args.is_map])
  apply Args.ext_of_is_map _ _ h1 hm
  intro k
  rw [h2 k, Args.lookup_of_has_keys args names hk k]
  simp

theorem InputSignature.deserialize_serialize (sig : InputSignature) (input : Input)
    (he : input.enum_args.is_map) (hn : input.numeric_args.is_map)
    (hke : input.enum_args.has_keys sig.get_enum_param_names)
    (hkn : input.numeric_args.has_keys sig.get_numeric_param_names) :
    sig.deserialize (sig.serialize input) = some input := by
  have hlen : (sig.serialize input).length = sig.params_size := by
    simp [InputSignature.serialize, InputSignature.params_size,
      InputSignature.enum_params_size, InputSignature.int_params_size]
  have h1 : sig.serialize input =
      sig.get_enum_param_names.map (fun n => input.enum_args.get n) ++
        sig.get_numeric_param_names.map (fun n => input.numeric_args.get n) := by
    simp [InputSignature.serialize, InputSignature.get_enum_param_names,
      InputSignature.get_numeric_param_names, List.map_map, Function.comp_def]
  have h2 : (sig.serialize input).drop sig.enum_params_size =
      sig.get_numeric_param_names.map (fun n => input.numeric_args.get n) ++ [] := by
    rw [h1, List.append_nil]
    apply List.drop_left'
    simp [InputSignature.get_enum_param_names, InputSignature.enum_params_size]
  unfold InputSignature.deserialize
  rw [if_neg (by omega), h2]
  rw [InputSignature.insert_values_roundtrip input.numeric_args _ [] hn hkn]
  rw [h1, InputSignature.insert_values_roundtrip input.enum_args _ _ he hke]

theorem InputSignature.serialize_values (sig : InputSignature) (input : Input)
    (hke : input.enum_args.has_keys sig.get_enum_param_names)
    (hkn : input.numeric_args.has_keys sig.get_numeric_param_names) :
    (sig.serialize input).map some =
      sig.enum_params.map (fun p => List.lookup p.name input.enum_args) ++
        sig.numeric_params.map (fun p => List.lookup p.name input.numeric_args) := by
  simp only [InputSignature.serialize, List.map_append, List.map_map]
  congr 1
  · apply List.map_congr_left
    intro p hp
    have : p.name ∈ sig.get_enum_param_names := List.mem_map.2 ⟨p, hp, rfl⟩
    simp [Args.lookup_of_has_keys _ _ hke, this]
  · apply List.map_congr_left
    intro p hp
    have : p.name ∈ sig.get_numeric_param_names := List.mem_map.2 ⟨p, hp, rfl⟩
    simp [Args.lookup_of_has_keys _ _ hkn, this]

theorem InputSignature.namesOK_empty : InputSignature.empty.NamesOK := by
  simp [InputSignature.NamesOK, InputSignature.empty, InputSignature.get_enum_param_names,
    InputSignature.get_numeric_param_names]

theorem InputSignature.namesOK_push_enum (sig sig2 : InputSignature) (p : EnumParam)
    (h : sig.NamesOK) (hp : sig.push_enum p = some sig2) : sig2.NamesOK := by
  unfold InputSignature.push_enum InputSignature.check_duplicate_and_register at hp
  by_cases hm : p.name ∈ sig.name_set
  · simp [hm] at hp
  · simp only [hm, if_false, Option.some.injEq] at hp
    subst hp
    refine ⟨?_, ?_⟩
    · exact List.Nodup.append h.1 (List.nodup_singleton _) (by simpa using hm)
    · simp only [InputSignature.get_enum_param_names, InputSignature.get_numeric_param_names,
        List.map_append, List.map_cons, List.map_nil, List.append_assoc]
      have h2 := h.2
      simp only [InputSignature.get_enum_param_names,
        InputSignature.get_numeric_param_names] at h2
      refine List.Perm.trans ?_ (List.Perm.append_right [p.name] h2)
      rw [List.append_assoc]
      exact List.Perm.append_left _ List.perm_append_comm

theorem InputSignature.namesOK_push_numeric (sig sig2 : InputSignature) (p : NumericParam)
    (h : sig.NamesOK) (hp : sig.push_numeric p = some sig2) : sig2.NamesOK := by
  unfold InputSignature.push_numeric InputSignature.check_duplicate_and_register at hp
  by_cases hm : p.name ∈ sig.name_set
  · simp [hm] at hp
  · simp only [hm, if_false, Option.some.injEq] at hp
    subst hp
    refine ⟨?_, ?_⟩
    · exact List.Nodup.append h.1 (List.nodup_singleton _) (by simpa using hm)
    · simp only [InputSignature.get_enum_param_names, InputSignature.get_numeric_param_names,
        List.map_append, List.map_cons, List.map_nil]
      have h2 := h.2
      simp only [InputSignature.get_enum_param_names,
        InputSignature.get_numeric_param_names] at h2
      rw [← List.append_assoc]
      exact List.Perm.append_right [p.name] h2

theorem InputSignature.namesOK_register (sig sig2 : InputSignature) (r : Registration)
    (h : sig.NamesOK) (hr : sig.register r = some sig2) : sig2.NamesOK := by
  cases r with
  | enum_entries name entries => exact InputSignature.namesOK_push_enum sig sig2 _ h hr
  | enum_range name start size => exact InputSignature.namesOK_push_enum sig sig2 _ h hr
  | int_param name => exact InputSignature.namesOK_push_numeric sig sig2 _ h hr

theorem InputSignature.namesOK_foldlM : ∀ (regs : List Registration) (sig sig2 : InputSignature),
    sig.NamesOK → regs.foldlM InputSignature.register sig = some sig2 → sig2.NamesOK
  | [], sig, sig2, h, hr => by
    simp only [List.foldlM, pure, Option.some.injEq] at hr
    exact hr ▸ h
  | r :: regs, sig, sig2, h, hr => by
    simp only [List.foldlM] at hr
    cases h1 : sig.register r with
    | none => simp [h1, bind, Option.bind] at hr
    | some s1 =>
      simp only [h1, bind, Option.bind] at hr
      exact InputSignature.namesOK_foldlM regs s1 sig2
        (InputSignature.namesOK_register sig s1 r h h1) hr

theorem InputSignature.names_nodup_of_registered (regs : List Registration)
    (sig : InputSignature) (h : InputSignature.register_all regs = some sig) :
    (sig.get_enum_param_names ++ sig.get_numeric_param_names).Nodup := by
  have hn := InputSignature.namesOK_foldlM regs _ sig InputSignature.namesOK_empty h
  exact (List.Perm.nodup_iff hn.2).2 hn.1

/-! ## Draws of the numeric solver -/

theorem foldl_and_eq (l : List Formula) (c : Formula) (m : Z3Model) :
    (l.foldl (fun res c2 => fun m => res m && c2 m) c) m = (c m && l.all (fun f => f m)) := by
  induction l generalizing c with
  | nil => simp
  | cons d rest ih =>
    rw [List.foldl_cons, ih]
    simp [Bool.and_assoc]

theorem conjunction_eq_none (l : List Formula) : conjunction l = none ↔ l = [] := by
  cases l <;> simp [conjunction]

theorem conjunction_eq_some (l : List Formula) (f : Formula) (h : conjunction l = some f)
    (m : Z3Model) : f m = l.all (fun g => g m) := by
  cases l with
  | nil => simp [conjunction] at h
  | cons c rest =>
    simp only [conjunction, Option.some.injEq] at h
    rw [← h, foldl_and_eq]
    simp

theorem Solver.assign_vars_spec (m : Z3Model) :
    ∀ (vars vs : List SolverVar), Solver.assign_vars m vars = .ok vs →
      vs = vars.map (fun v => { v with concrete := m v.name }) ∧
      ∀ v ∈ vars, -(2 ^ 31) ≤ m v.name ∧ m v.name < 2 ^ 31
  | [], vs, h => by
    simp only [Solver.assign_vars, Except.ok.injEq] at h
    simp [← h]
  | v :: vars, vs, h => by
    simp only [Solver.assign_vars, SolverVar.assign] at h
    by_cases hf : -(2 ^ 31) ≤ m v.name ∧ m v.name < 2 ^ 31
    · rw [if_pos hf] at h
      cases hr : Solver.assign_vars m vars with
      | error e => simp [hr] at h
      | ok vs2 =>
        simp only [hr, Except.ok.injEq] at h
        obtain ⟨h1, h2⟩ := Solver.assign_vars_spec m vars vs2 hr
        refine ⟨by rw [← h, h1]; rfl, ?_⟩
        intro w hw
        rcases List.mem_cons.1 hw with hw | hw
        · rw [hw]; exact hf
        · exact h2 w hw
    · rw [if_neg hf] at h
      simp at h

theorem Solver.assign_vars_ok (m : Z3Model) :
    ∀ (vars : List SolverVar), (∀ v ∈ vars, -(2 ^ 31) ≤ m v.name ∧ m v.name < 2 ^ 31) →
      Solver.assign_vars m vars = .ok (vars.map (fun v => { v with concrete := m v.name }))
  | [], _ => rfl
  | v :: vars, h => by
    simp only [Solver.assign_vars, SolverVar.assign]
    rw [if_pos (h v (List.mem_cons_self _ _)),
      Solver.assign_vars_ok m vars (fun w hw => h w (List.mem_cons_of_mem _ hw))]
    rfl

theorem foldl_insert_eq_insert_values (m : Z3Model) :
    ∀ (vars : List SolverVar) (acc : Args),
      (vars.map (fun v => ({ v with concrete := m v.name } : SolverVar))).foldl
          (fun args v => args.insert v.name v.concrete) acc =
        InputSignature.insert_values (vars.map (fun v => v.name))
          ((vars.map (fun v => v.name)).map m) acc
  | [], acc => rfl
  | v :: vars, acc => by
    simp only [List.map_cons, List.foldl_cons, InputSignature.insert_values]
    exact foldl_insert_eq_insert_values m vars _

theorem Solver.get_args_assigned (m : Z3Model) (vars : List SolverVar) (h : Option Formula)
    (a : List Formula) :
    Solver.get_args
        { solver_vars := vars.map (fun v => ({ v with concrete := m v.name } : SolverVar)),
          history := h, assertions := a } =
      assignment_of (vars.map (fun v => v.name)) m := by
  unfold Solver.get_args assignment_of
  exact foldl_insert_eq_insert_values m vars []

theorem lookup_assignment_of (names : List String) (m : Z3Model) (k : String) :
    List.lookup k (assignment_of names m) = if k ∈ names then some (m k) else none := by
  have h := (InputSignature.insert_values_spec m names [] []
    (by simp [Args.is_map])).2 k
  rw [List.append_nil] at h
  unfold assignment_of
  rw [h]
  simp

theorem assignment_of_ne (names : List String) (m m2 : Z3Model) (n : String) (hn : n ∈ names)
    (h : m n ≠ m2 n) : assignment_of names m ≠ assignment_of names m2 := by
  intro he
  have h1 := lookup_assignment_of names m n
  have h2 := lookup_assignment_of names m2 n
  rw [if_pos hn] at h1 h2
  rw [he, h2] at h1
  exact h (Option.some.inj h1).symm

theorem current_assignment_assigned (m : Z3Model) (vars : List SolverVar) (h : Option Formula)
    (a : List Formula) (cur : Formula)
    (hfit : ∀ v ∈ vars, -(2 ^ 31) ≤ m v.name ∧ m v.name < 2 ^ 31)
    (hc : Solver.current_assignment
        { solver_vars := vars.map (fun v => ({ v with concrete := m v.name } : SolverVar)),
          history := h, assertions := a } = some cur) (m2 : Z3Model) :
    cur m2 = true ↔ ∀ v ∈ vars, m2 v.name = m v.name := by
  unfold Solver.current_assignment at hc
  rw [conjunction_eq_some _ _ hc m2]
  simp only [List.all_eq_true, List.mem_map, forall_exists_index, and_imp,
    forall_apply_eq_imp_iff₂, SolverVar.current, decide_eq_true_eq]
  constructor
  · intro hall v hv
    have := hall v hv
    rw [this]
    unfold wrap_int
    have := hfit v hv
    omega
  · intro hall v hv
    rw [hall v hv]
    unfold wrap_int
    have := hfit v hv
    omega

theorem Solver.asserted_eq (assertions pushed : List Formula) (history : Option Formula) :
    (assertions ++ pushed ++
      (match history with
       | some h => [h]
       | none => [])) = assertions ++ pushed ++ history.toList := by
  cases history <;> rfl

theorem history_holds_iff (history : Option Formula) (m : Z3Model) :
    history_holds history m = true ↔ ∀ f ∈ history.toList, f m = true := by
  cases history <;> simp [history_holds]

theorem Solver.draw_of_model (check : List Formula → Option Z3Model) (s : Solver)
    (pushed : List Formula) (m : Z3Model)
    (hc : check (s.assertions ++ pushed ++ s.history.toList) = some m)
    (hfit : ∀ v ∈ s.solver_vars, -(2 ^ 31) ≤ m v.name ∧ m v.name < 2 ^ 31) :
    ∃ s1 : Solver,
      s.draw check pushed = .ok (some (assignment_of (s.solver_vars.map (fun v => v.name)) m), s1) ∧
      s1.solver_vars = s.solver_vars.map (fun v => { v with concrete := m v.name }) ∧
      s1.assertions = s.assertions ∧
      (s.solver_vars = [] → s1.history = s.history) ∧
      (s.solver_vars ≠ [] → ∀ m2 : Z3Model,
        (history_holds s1.history m2 = true ↔
          history_holds s.history m2 = true ∧ ¬ ∀ v ∈ s.solver_vars, m2 v.name = m v.name)) := by
  obtain ⟨vars, history, assertions⟩ := s
  simp only at hc hfit ⊢
  unfold Solver.draw
  simp only
  rw [Solver.asserted_eq]
  simp only [hc, Solver.assign, Solver.assign_vars_ok m vars hfit, Solver.get_args_assigned]
  cases hcur : Solver.current_assignment
      { solver_vars := vars.map (fun v => ({ v with concrete := m v.name } : SolverVar)),
        history := history, assertions := assertions } with
  | none =>
    refine ⟨_, rfl, rfl, rfl, fun _ => rfl, ?_⟩
    intro hne
    unfold Solver.current_assignment at hcur
    rw [conjunction_eq_none] at hcur
    simp at hcur
    exact absurd hcur hne
  | some cur =>
    have hcurm := current_assignment_assigned m vars history assertions cur hfit hcur
    refine ⟨_, rfl, rfl, rfl, ?_, ?_⟩
    · intro he
      subst he
      simp [Solver.current_assignment, conjunction] at hcur
    · intro _ m2
      cases history with
      | none =>
        simp only [history_holds, Bool.not_eq_true', true_and]
        rw [← hcurm m2]
        cases cur m2 <;> simp
      | some h =>
        simp only [history_holds, Bool.and_eq_true, Bool.not_eq_true']
        rw [← hcurm m2]
        cases cur m2 <;> simp

theorem Solver.draw_none (check : List Formula → Option Z3Model) (s s1 : Solver)
    (pushed : List Formula) (h : s.draw check pushed = .ok (none, s1)) :
    s1 = s ∧ check (s.assertions ++ pushed ++ s.history.toList) = none := by
  unfold Solver.draw at h
  simp only at h
  rw [Solver.asserted_eq] at h
  cases hc : check (s.assertions ++ pushed ++ s.history.toList) with
  | none =>
    simp only [hc, Except.ok.injEq, Prod.mk.injEq, true_and] at h
    exact ⟨h.symm, rfl⟩
  | some m =>
    simp only [hc] at h
    cases ha : s.assign m with
    | error e => simp [ha] at h
    | ok s2 =>
      simp only [ha] at h
      cases hcur : s2.current_assignment <;> simp [hcur] at h

theorem Solver.draw_some (check : List Formula → Option Z3Model) (hs : SoundOracle check)
    (s s1 : Solver) (pushed : List Formula) (args : Args)
    (h : s.draw check pushed = .ok (some args, s1)) :
    ∃ m : Z3Model, (∀ f ∈ s.assertions, f m = true) ∧ (∀ f ∈ pushed, f m = true) ∧
      history_holds s.history m = true ∧
      args = assignment_of (s.solver_vars.map (fun v => v.name)) m ∧
      s1.solver_vars = s.solver_vars.map (fun v => { v with concrete := m v.name }) ∧
      s1.assertions = s.assertions ∧
      (s.solver_vars = [] → s1.history = s.history) ∧
      (s.solver_vars ≠ [] → ∀ m2 : Z3Model,
        (history_holds s1.history m2 = true ↔
          history_holds s.history m2 = true ∧ ¬ ∀ v ∈ s.solver_vars, m2 v.name = m v.name)) := by
  cases hc : check (s.assertions ++ pushed ++ s.history.toList) with
  | none =>
    have h2 := h
    unfold Solver.draw at h2
    simp only at h2
    rw [Solver.asserted_eq, hc] at h2
    simp at h2
  | some m =>
    have hfit : ∀ v ∈ s.solver_vars, -(2 ^ 31) ≤ m v.name ∧ m v.name < 2 ^ 31 := by
      have h2 := h
      unfold Solver.draw at h2
      simp only at h2
      rw [Solver.asserted_eq, hc] at h2
      simp only [Solver.assign] at h2
      cases ha : Solver.assign_vars m s.solver_vars with
      | error e => simp [ha] at h2
      | ok vs => exact (Solver.assign_vars_spec m _ vs ha).2
    obtain ⟨s2, hd, h1, h2, h3, h4⟩ := Solver.draw_of_model check s pushed m hc hfit
    rw [hd] at h
    simp only [Except.ok.injEq, Prod.mk.injEq, Option.some.injEq] at h
    have hm := hs _ m hc
    refine ⟨m, ?_, ?_, ?_, h.1.symm, h.2 ▸ h1, h.2 ▸ h2, h.2 ▸ h3, h.2 ▸ h4⟩
    · intro f hf
      exact hm f (by simp [hf])
    · intro f hf
      exact hm f (by simp [hf])
    · rw [history_holds_iff]
      intro f hf
      exact hm f (by simp [hf])

theorem Solver.draws_distinct (check : List Formula → Option Z3Model) (hs : SoundOracle check) :
    ∀ (pushed : List (List Formula)) (s : Solver) (seen : List Args)
      (results : List (Option Args)), s.solver_vars ≠ [] →
      (∀ m : Z3Model, history_holds s.history m = true →
        assignment_of (s.solver_vars.map (fun v => v.name)) m ∉ seen) →
      Solver.draws check pushed s = .ok results →
      (results.filterMap id).Nodup ∧ ∀ a ∈ results.filterMap id, a ∉ seen
  | [], s, seen, results, _, _, h => by
    simp only [Solver.draws, Except.ok.injEq] at h
    simp [← h]
  | p :: rest, s, seen, results, hne, hinv, h => by
    simp only [Solver.draws] at h
    cases hd : s.draw check p with
    | error e => simp [hd] at h
    | ok r =>
      obtain ⟨r1, s1⟩ := r
      simp only [hd] at h
      cases hr : Solver.draws check rest s1 with
      | error e => simp [hr] at h
      | ok rs =>
        simp only [hr, Except.ok.injEq] at h
        subst h
        cases r1 with
        | none =>
          obtain ⟨he, _⟩ := Solver.draw_none check s s1 p hd
          subst he
          have ih := Solver.draws_distinct check hs rest s1 seen rs hne hinv hr
          simpa using ih
        | some args =>
          obtain ⟨m, _, _, hh, hargs, hv, _, _, hhist⟩ := Solver.draw_some check hs s s1 p args hd
          have hnames : s1.solver_vars.map (fun v => v.name) = s.solver_vars.map (fun v => v.name) := by
            rw [hv, List.map_map]
            rfl
          have hne1 : s1.solver_vars ≠ [] := by
            rw [hv]
            simpa using hne
          have ih := Solver.draws_distinct check hs rest s1 (args :: seen) rs hne1 (by
            intro m2 hm2
            rw [hnames]
            have h2 := (hhist hne m2).1 hm2
            intro hmem
            rcases List.mem_cons.1 hmem with hmem | hmem
            · apply h2.2
              intro v hv2
              by_contra hcon
              exact assignment_of_ne _ m2 m v.name (List.mem_map.2 ⟨v, hv2, rfl⟩) hcon
                (hmem.trans hargs)
            · exact hinv m2 h2.1 hmem) hr
          simp only [List.filterMap_cons, id]
          refine ⟨List.nodup_cons.2 ⟨?_, ih.1⟩, ?_⟩
          · intro hmem
            exact ih.2 args hmem (List.mem_cons_self _ _)
          · intro a ha
            rcases List.mem_cons.1 ha with ha | ha
            · rw [ha, hargs]
              exact hinv m hh
            · intro hmem
              exact ih.2 a ha (List.mem_cons_of_mem _ hmem)

theorem NumericSolver.draw_plain_none (check : List Formula → Option Z3Model)
    (ns ns1 : NumericSolver) (h : ns.draw_plain check = .ok (none, ns1)) :
    check ns.solver.assertions = none := by
  unfold NumericSolver.draw_plain at h
  cases hd : ns.solver.draw check [] with
  | error e => simp [hd] at h
  | ok r =>
    obtain ⟨r1, s1⟩ := r
    cases r1 with
    | some args => simp [hd] at h
    | none =>
      simp only [hd] at h
      obtain ⟨he, _⟩ := Solver.draw_none check _ _ _ hd
      rw [he] at h
      cases hd2 : ns.solver.clear_history.draw check [] with
      | error e => simp [hd2] at h
      | ok r2 =>
        obtain ⟨r3, s2⟩ := r2
        simp only [hd2, Except.ok.injEq, Prod.mk.injEq] at h
        rw [h.1] at hd2
        have := (Solver.draw_none check _ _ _ hd2).2
        simpa [Solver.clear_history] using this

theorem NumericSolver.numeric_draw_none (check : List Formula → Option Z3Model)
    (ns ns1 : NumericSolver) (mutate : Bool) (r1 r2 r3 : Nat)
    (h : ns.draw check mutate r1 r2 r3 = .ok (none, ns1)) :
    check ns.solver.assertions = none := by
  unfold NumericSolver.draw at h
  by_cases hm : mutate = true ∧ ns.solver.solver_vars.length > 1
  · rw [if_pos hm] at h
    cases hc : ns.rand_constraint r1 r2 r3 with
    | error e => simp [hc] at h
    | ok c =>
      simp only [hc] at h
      cases hd : ns.solver.draw check [c] with
      | error e => simp [hd] at h
      | ok r =>
        obtain ⟨a, s1⟩ := r
        cases a with
        | some args => simp [hd] at h
        | none =>
          simp only [hd] at h
          obtain ⟨he, _⟩ := Solver.draw_none check _ _ _ hd
          rw [he] at h
          exact NumericSolver.draw_plain_none check _ ns1 h
  · rw [if_neg hm] at h
    exact NumericSolver.draw_plain_none check ns ns1 h

theorem exists_fresh_value (seen : List Int) (h : seen.length < 129) :
    ∃ v : Int, -64 ≤ v ∧ v ≤ 64 ∧ v ∉ seen := by
  by_contra hcon
  have hall : ∀ v : Int, -64 ≤ v → v ≤ 64 → v ∈ seen := by
    intro v h1 h2
    by_contra hv
    exact hcon ⟨v, h1, h2, hv⟩
  have hnd : ((List.range 129).map (fun (i : Nat) => (i : Int) - 64)).Nodup := by
    apply List.Nodup.map _ (List.nodup_range 129)
    intro a b hab
    simp only at hab
    omega
  have hsub : (List.range 129).map (fun (i : Nat) => (i : Int) - 64) ⊆ seen := by
    intro v hv
    obtain ⟨i, hi, rfl⟩ := List.mem_map.1 hv
    have := List.mem_range.1 hi
    exact hall _ (by omega) (by omega)
  have := (List.Nodup.subperm hnd hsub).length_le
  simp at this
  omega

theorem assignment_of_single (name : String) (m : Z3Model) :
    assignment_of [name] m = [(name, m name)] := by
  simp [assignment_of, InputSignature.insert_values, Args.insert]

theorem OneVarState.after_reset (name : String) (concrete : String → Int) (conform_soft : Bool) :
    OneVarState name
      ((NumericSolver.new (-64) 64 [{ name := name }] [] [] concrete).reset conform_soft) [] := by
  refine ⟨rfl, rfl, ?_⟩
  intro m
  simp [NumericSolver.reset, Solver.reset, NumericSolver.new, history_holds]

theorem OneVarState.after_draw (check : List Formula → Option Z3Model) (hs : SoundOracle check)
    (name : String) (hcomp : CompleteOracle check [name] (-64) 64) (ns : NumericSolver)
    (seen : List Int) (hst : OneVarState name ns seen) (hlen : seen.length < 129)
    (mutate : Bool) (r1 r2 r3 : Nat) :
    ∃ (v : Int) (ns1 : NumericSolver),
      ns.draw check mutate r1 r2 r3 = .ok (some [(name, v)], ns1) ∧ v ∉ seen ∧
      OneVarState name ns1 (v :: seen) := by
  obtain ⟨hvars, hass, hhist⟩ := hst
  have hlen1 : ns.solver.solver_vars.length = 1 := by
    have := congrArg List.length hvars
    simpa using this
  have hvar : ∀ v ∈ ns.solver.solver_vars, v.name = name := by
    intro v hv
    have : v.name ∈ ns.solver.solver_vars.map (fun v => v.name) := List.mem_map.2 ⟨v, hv, rfl⟩
    rw [hvars] at this
    simpa using this
  have hne : ns.solver.solver_vars ≠ [] := by
    intro he
    rw [he] at hlen1
    simp at hlen1
  have hbasic : ∀ m : Z3Model, basic_64 name m = true ↔ -64 ≤ m name ∧ m name ≤ 64 := by
    intro m
    simp [basic_64, SolverVar.basic_constraint]
  -- the query of the plain draw
  have hq : ∀ m : Z3Model,
      (∀ f ∈ ns.solver.assertions ++ [] ++ ns.solver.history.toList, f m = true) ↔
        (-64 ≤ m name ∧ m name ≤ 64) ∧ m name ∉ seen := by
    intro m
    rw [hass, ← hhist m, history_holds_iff, ← hbasic m]
    simp
  have hsome : ∃ m, check (ns.solver.assertions ++ [] ++ ns.solver.history.toList) = some m := by
    cases hc : check (ns.solver.assertions ++ [] ++ ns.solver.history.toList) with
    | some m => exact ⟨m, rfl⟩
    | none =>
      exfalso
      have hun := hcomp _ (by
        intro f hf m m2 hmm
        have hmm1 : m name = m2 name := hmm name (by simp)
        rw [hass] at hf
        simp only [List.append_nil, List.singleton_append, List.mem_cons,
          Option.mem_toList, Option.mem_def] at hf
        rcases hf with hf | hf
        · rw [hf]
          simp [basic_64, SolverVar.basic_constraint, hmm1]
        · have e1 := hhist m
          have e2 := hhist m2
          rw [hf] at e1 e2
          simp only [history_holds] at e1 e2
          rw [hmm1] at e1
          cases h1 : f m <;> cases h2 : f m2 <;> simp_all) (by
        intro m hm n hn
        have : n = name := by simpa using hn
        rw [this]
        exact ((hq m).1 hm).1) hc
      obtain ⟨v, hv1, hv2, hv3⟩ := exists_fresh_value seen hlen
      obtain ⟨f, hf, hfm⟩ := hun (fun _ => v)
      have := (hq (fun _ => v)).2 ⟨⟨hv1, hv2⟩, hv3⟩ f hf
      rw [this] at hfm
      cases hfm
  obtain ⟨m, hc⟩ := hsome
  have hm := (hq m).1 (hs _ m hc)
  have hfit : ∀ v ∈ ns.solver.solver_vars, -(2 ^ 31) ≤ m v.name ∧ m v.name < 2 ^ 31 := by
    intro v hv
    rw [hvar v hv]
    have := hm.1
    constructor <;> omega
  obtain ⟨s1, hd, h1, h2, _, h4⟩ := Solver.draw_of_model check ns.solver [] m hc hfit
  rw [hvars, assignment_of_single] at hd
  refine ⟨m name, { ns with solver := s1 }, ?_, hm.2, ?_⟩
  · unfold NumericSolver.draw
    rw [if_neg (by rw [hlen1]; simp)]
    unfold NumericSolver.draw_plain
    rw [hd]
  · refine ⟨?_, ?_, ?_⟩
    · show s1.solver_vars.map (fun v => v.name) = [name]
      rw [h1, List.map_map]
      exact hvars
    · show s1.assertions = [basic_64 name]
      rw [h2, hass]
    · intro m2
      show history_holds s1.history m2 = true ↔ m2 name ∉ m name :: seen
      rw [h4 hne m2, hhist m2]
      simp only [List.mem_cons, not_or]
      constructor
      · rintro ⟨ha, hb⟩
        refine ⟨?_, ha⟩
        intro he
        apply hb
        intro v hv
        rw [hvar v hv, he]
      · rintro ⟨ha, hb⟩
        refine ⟨hb, ?_⟩
        intro hall
        obtain ⟨v, hv⟩ := List.exists_mem_of_ne_nil _ hne
        have := hall v hv
        rw [hvar v hv] at this
        exact ha this

theorem OneVarState.after_draws (check : List Formula → Option Z3Model) (hs : SoundOracle check)
    (name : String) (hcomp : CompleteOracle check [name] (-64) 64) :
    ∀ (flags : List (Bool × Nat × Nat × Nat)) (ns : NumericSolver) (seen : List Int),
      OneVarState name ns seen → seen.length + flags.length ≤ 129 →
      ∃ vs : List Int,
        NumericSolver.draws check flags ns = .ok (vs.map (fun v => some [(name, v)])) ∧
        vs.length = flags.length ∧ vs.Nodup ∧ ∀ v ∈ vs, v ∉ seen
  | [], ns, seen, _, _ => ⟨[], rfl, rfl, List.nodup_nil, by simp⟩
  | (mutate, r1, r2, r3) :: rest, ns, seen, hst, hlen => by
    simp only [List.length_cons] at hlen
    obtain ⟨v, ns1, hd, hv, hst1⟩ :=
      OneVarState.after_draw check hs name hcomp ns seen hst (by omega) mutate r1 r2 r3
    obtain ⟨vs, hds, hl, hnd, hfresh⟩ :=
      OneVarState.after_draws check hs name hcomp rest ns1 (v :: seen) hst1 (by
        simp only [List.length_cons]; omega)
    refine ⟨v :: vs, ?_, by simp [hl], ?_, ?_⟩
    · simp only [NumericSolver.draws, hd, hds, List.map_cons]
    · refine List.nodup_cons.2 ⟨?_, hnd⟩
      intro hmem
      exact hfresh v hmem (List.mem_cons_self _ _)
    · intro w hw
      rcases List.mem_cons.1 hw with hw | hw
      · rw [hw]; exact hv
      · intro hmem
        exact hfresh w hw (List.mem_cons_of_mem _ hmem)

theorem check_x64_sound : SoundOracle check_x64 := by
  intro fs m h f hf
  unfold check_x64 at h
  cases hfind : ((List.range 129).map (fun (i : Nat) => (i : Int) - 64)).find?
      (fun v => fs.all (fun f => f (model_x v))) with
  | none => simp [hfind] at h
  | some v =>
    simp only [hfind, Option.map_some', Option.some.injEq] at h
    have := List.find?_some hfind
    simp only [List.all_eq_true] at this
    rw [← h]
    exact this f hf

theorem check_x64_complete : CompleteOracle check_x64 ["x"] (-64) 64 := by
  intro fs hdep hbound hnone m
  unfold check_x64 at hnone
  simp only [Option.map_eq_none', List.find?_eq_none, List.mem_map, List.mem_range,
    List.all_eq_true, forall_exists_index, and_imp, forall_apply_eq_imp_iff₂] at hnone
  by_contra hcon
  have hall : ∀ f ∈ fs, f m = true := by
    intro f hf
    by_contra hfm
    exact hcon ⟨f, hf, by simpa using hfm⟩
  have hb := hbound m hall "x" (by simp)
  have hi := hnone (m "x" + 64).toNat (by omega)
  apply hi
  intro f hf
  have : (((m "x" + 64).toNat : Int) - 64) = m "x" := by omega
  rw [this, ← hall f hf]
  apply hdep f hf
  intro n hn
  have : n = "x" := by simpa using hn
  simp [model_x, this]

/-! ## Printing a synthesized function and parsing it back (`sygus_parser.cpp`) -/

/-! ## The parser on printed functions -/

theorem Char.le_iff_toNat (a b : Char) : a ≤ b ↔ a.toNat ≤ b.toNat := by
  rfl

theorem is_digit_iff (c : Char) : is_digit c = true ↔ 48 ≤ c.toNat ∧ c.toNat ≤ 57 := by
  simp only [is_digit, Bool.and_eq_true, decide_eq_true_eq, Char.le_iff_toNat]
  rfl

theorem is_alphabet_iff (c : Char) :
    is_alphabet c = true ↔ (65 ≤ c.toNat ∧ c.toNat ≤ 90) ∨ (97 ≤ c.toNat ∧ c.toNat ≤ 122) := by
  simp only [is_alphabet, is_capital_alphabet, is_lower_alphabet, Bool.or_eq_true,
    Bool.and_eq_true, decide_eq_true_eq, Char.le_iff_toNat]
  rfl

theorem is_delimiter_imp (c : Char) (h : is_delimiter c = true) :
    c.toNat = 32 ∨ c.toNat = 10 ∨ c.toNat = 9 ∨ c.toNat = 92 := by
  simp only [is_delimiter, Bool.or_eq_true, beq_iff_eq] at h
  rcases h with ((h | h) | h) | h <;> subst h <;> decide

example : is_delimiter ' ' = true := by decide
example : "(+ ".toList = ['(', '+', ' '] := by rfl
example : "(+ ".toList = ['(', '+', ' '] := by decide


theorem strip_cons_of_not_delim (c : Char) (t : List Char) (h : is_delimiter c = false) :
    strip (c :: t) = c :: t := by
  simp [strip, List.dropWhile, h]

theorem strip_blank (t : List Char) : strip (' ' :: t) = strip t := by
  simp [strip, List.dropWhile, is_delimiter]

theorem strip_strip (cs : List Char) : strip (strip cs) = strip cs := by
  induction cs with
  | nil => rfl
  | cons c t ih =>
    by_cases h : is_delimiter c = true
    · have : strip (c :: t) = strip t := by simp [strip, List.dropWhile, h]
      rw [this, ih]
    · have h2 : is_delimiter c = false := by simpa using h
      rw [strip_cons_of_not_delim c t h2, strip_cons_of_not_delim c t h2]

theorem at_EOF_cons (c : Char) (t : List Char) (h : c.toNat ≠ 255) : at_EOF (c :: t) = false := by
  simp [at_EOF, cur, h]

theorem consume_char_head (c : Char) (t : List Char) (hc : is_delimiter c = false)
    (h255 : c.toNat ≠ 255) : consume_char (c :: t) c = .ok (strip t) := by
  simp [consume_char, at_EOF_cons c t h255, strip_cons_of_not_delim c t hc]

theorem consume_char_either (c : Char) (t cs : List Char) (hc : is_delimiter c = false)
    (h255 : c.toNat ≠ 255) (h : cs = c :: t ∨ cs = strip (' ' :: c :: t)) :
    consume_char cs c = .ok (strip t) := by
  have hs : strip (' ' :: c :: t) = c :: t := by
    rw [strip_blank, strip_cons_of_not_delim c t hc]
  rcases h with h | h
  · rw [h]; exact consume_char_head c t hc h255
  · rw [h, hs]; exact consume_char_head c t hc h255

theorem consume_char_blank (c : Char) (t : List Char) (hc : is_delimiter c = false) :
    consume_char (' ' :: c :: t) c = .ok (strip t) := by
  have h1 : at_EOF (' ' :: c :: t) = false := at_EOF_cons ' ' _ (by decide)
  simp [consume_char, h1, strip_blank, strip_cons_of_not_delim c t hc]

theorem isPrefixOf_append (str t : List Char) : str.isPrefixOf (str ++ t) = true := by
  induction str with
  | nil => simp
  | cons c s ih => simp [List.isPrefixOf, ih]

theorem consume_str_literal (c : Char) (s t : List Char) (hc : is_delimiter c = false)
    (h255 : c.toNat ≠ 255) :
    consume_str (c :: s ++ t) (c :: s) = .ok (strip t) := by
  have h1 : at_EOF (c :: s ++ t) = false := at_EOF_cons c _ h255
  have h2 : strip (c :: s ++ t) = c :: s ++ t := strip_cons_of_not_delim c _ hc
  have h3 : (c :: s).isPrefixOf (c :: s ++ t) = true := isPrefixOf_append (c :: s) t
  have h4 : (c :: s ++ t).drop (c :: s).length = t := List.drop_left' rfl
  simp only [consume_str, h1, h2, h3, h4]
  rfl

theorem takeWhile_append_stop {p : Char → Bool} (l rest : List Char) (hl : ∀ c ∈ l, p c = true)
    (hr : p (cur rest) = false ∨ rest = []) :
    (l ++ rest).takeWhile p = l ∧ (l ++ rest).dropWhile p = rest := by
  induction l with
  | nil =>
    cases rest with
    | nil => simp
    | cons d t =>
      rcases hr with hr | hr
      · simp only [cur, List.headD_cons] at hr
        simp [List.takeWhile, List.dropWhile, hr]
      · cases hr
  | cons c l ih =>
    have hc := hl c (List.mem_cons_self _ _)
    have := ih (fun d hd => hl d (List.mem_cons_of_mem _ hd))
    simp [List.takeWhile, List.dropWhile, hc, this]

theorem cur_nil_facts : is_alphanumeric (cur []) = false ∧ is_digit (cur []) = false := by
  decide

theorem parse_id_ident (id : String) (rest : List Char) (hid : is_identifier id = true)
    (hrest : ends_token rest) : parse_id (id.toList ++ rest) = .ok (id, rest) := by
  obtain ⟨data⟩ := id
  simp only [is_identifier, String.toList] at hid
  cases data with
  | nil => simp at hid
  | cons c l =>
    simp only [Bool.and_eq_true, List.all_eq_true] at hid
    obtain ⟨hc, hl⟩ := hid
    have hc255 : c.toNat ≠ 255 := by
      rcases Bool.or_eq_true_iff.1 hc with h | h
      · have := (is_alphabet_iff c).1 h
        omega
      · rw [beq_iff_eq] at h
        subst h
        decide
    have hcd : is_delimiter c = false := by
      by_contra hd
      have hd2 : is_delimiter c = true := by simpa using hd
      have h1 := is_delimiter_imp c hd2
      rcases Bool.or_eq_true_iff.1 hc with h | h
      · have := (is_alphabet_iff c).1 h
        omega
      · rw [beq_iff_eq] at h
        subst h
        revert h1
        decide
    have hstop : (fun d => is_alphanumeric d || d == '_') (cur rest) = false ∨ rest = [] := by
      left
      simp only [Bool.or_eq_false_iff, beq_eq_false_iff_ne, ne_eq]
      exact ⟨hrest.1, hrest.2⟩
    obtain ⟨h1, h2⟩ := takeWhile_append_stop (p := fun d => is_alphanumeric d || d == '_')
      l rest hl hstop
    simp only [String.toList, List.cons_append, parse_id, at_EOF_cons c _ hc255,
      strip_cons_of_not_delim c _ hcd, hc, h1, h2]
    rfl

theorem digitChar_spec : ∀ k : Fin 10,
    is_digit (Nat.digitChar k) = true ∧ (Nat.digitChar k).toNat - 48 = k := by
  decide

theorem atoi_digits_core : ∀ (fuel n : Nat), n < fuel →
    ∃ p : Nat, ∀ (ds rest : List Char) (acc : Nat),
      atoi_digits (Nat.toDigitsCore 10 fuel n ds ++ rest) acc =
        atoi_digits (ds ++ rest) (acc * p + n)
  | 0, n, h => by omega
  | fuel + 1, n, h => by
    have hd := digitChar_spec ⟨n % 10, Nat.mod_lt _ (by decide)⟩
    simp only at hd
    by_cases h0 : n / 10 = 0
    · refine ⟨10, ?_⟩
      intro ds rest acc
      have hn : n % 10 = n := by omega
      rw [hn] at hd
      simp only [Nat.toDigitsCore, h0, if_true, List.cons_append, atoi_digits, hd.1, hd.2, hn]
    · obtain ⟨p, hp⟩ := atoi_digits_core fuel (n / 10) (by omega)
      refine ⟨p * 10, ?_⟩
      intro ds rest acc
      simp only [Nat.toDigitsCore, h0, if_false]
      rw [hp, List.cons_append]
      simp only [atoi_digits, hd.1, hd.2, if_true]
      congr 1
      have := Nat.div_add_mod n 10
      ring_nf
      omega

theorem dropWhile_digits_core : ∀ (fuel n : Nat) (ds rest : List Char),
    (Nat.toDigitsCore 10 fuel n ds ++ rest).dropWhile is_digit =
      (ds ++ rest).dropWhile is_digit
  | 0, n, ds, rest => rfl
  | fuel + 1, n, ds, rest => by
    have hd := digitChar_spec ⟨n % 10, Nat.mod_lt _ (by decide)⟩
    simp only at hd
    by_cases h0 : n / 10 = 0
    · simp [Nat.toDigitsCore, h0, List.dropWhile, hd.1]
    · simp only [Nat.toDigitsCore, h0, if_false]
      rw [dropWhile_digits_core fuel (n / 10)]
      simp [List.dropWhile, hd.1]

theorem toDigitsCore_head : ∀ (fuel n : Nat) (d : Char) (ds : List Char), is_digit d = true →
    ∃ (c : Char) (t : List Char), Nat.toDigitsCore 10 fuel n (d :: ds) = c :: t ∧
      is_digit c = true
  | 0, n, d, ds, h => ⟨d, ds, rfl, h⟩
  | fuel + 1, n, d, ds, h => by
    have hd := digitChar_spec ⟨n % 10, Nat.mod_lt _ (by decide)⟩
    simp only at hd
    by_cases h0 : n / 10 = 0
    · exact ⟨Nat.digitChar (n % 10), d :: ds, by simp [Nat.toDigitsCore, h0], hd.1⟩
    · simp only [Nat.toDigitsCore, h0, if_false]
      exact toDigitsCore_head fuel (n / 10) _ _ hd.1

theorem toDigits_head (n : Nat) :
    ∃ (c : Char) (t : List Char), Nat.toDigits 10 n = c :: t ∧ is_digit c = true := by
  have hd := digitChar_spec ⟨n % 10, Nat.mod_lt _ (by decide)⟩
  simp only at hd
  unfold Nat.toDigits
  by_cases h0 : n / 10 = 0
  · exact ⟨Nat.digitChar (n % 10), [], by simp [Nat.toDigitsCore, h0], hd.1⟩
  · simp only [Nat.toDigitsCore, h0, if_false]
    exact toDigitsCore_head n (n / 10) _ _ hd.1

theorem atoi_digits_stop (rest : List Char) (acc : Nat) (h : is_digit (cur rest) = false) :
    atoi_digits rest acc = acc := by
  cases rest with
  | nil => rfl
  | cons c t =>
    simp only [cur, List.headD_cons] at h
    simp [atoi_digits, h]

theorem atoi_digits_toDigits (n : Nat) (rest : List Char) (h : is_digit (cur rest) = false) :
    atoi_digits (Nat.toDigits 10 n ++ rest) 0 = n := by
  obtain ⟨p, hp⟩ := atoi_digits_core (n + 1) n (by omega)
  unfold Nat.toDigits
  rw [hp [] rest 0]
  simp [atoi_digits_stop rest _ h]

theorem dropWhile_toDigits (n : Nat) (rest : List Char) (h : is_digit (cur rest) = false) :
    (Nat.toDigits 10 n ++ rest).dropWhile is_digit = rest := by
  unfold Nat.toDigits
  rw [dropWhile_digits_core]
  cases rest with
  | nil => rfl
  | cons c t =>
    simp only [cur, List.headD_cons] at h
    simp [List.dropWhile, h]


theorem parse_intexpr_strip (fuel : Nat) (cs : List Char) :
    parse_intexpr fuel cs = parse_intexpr fuel (strip cs) := by
  cases fuel with
  | zero => rfl
  | succ fuel => simp only [parse_intexpr, strip_strip]

theorem parse_boolexpr_blank (fuel : Nat) (t : List Char) :
    parse_boolexpr fuel (' ' :: '(' :: t) = parse_boolexpr fuel ('(' :: t) := by
  cases fuel with
  | zero => rfl
  | succ fuel =>
    simp only [parse_boolexpr, consume_char_blank '(' t (by decide),
      consume_char_head '(' t (by decide) (by decide)]

theorem parse_intexpr_paren (fuel : Nat) (t : List Char) :
    parse_intexpr (fuel + 1) ('(' :: t) =
      match int_operator (cur (strip t)) with
      | some op =>
        match consume_char (strip t) (cur (strip t)) with
        | .error e => .error e
        | .ok c3 =>
          match parse_intexpr fuel c3 with
          | .error e => .error e
          | .ok (left, c4) =>
            match parse_intexpr fuel c4 with
            | .error e => .error e
            | .ok (right, c5) =>
              match consume_char c5 ')' with
              | .error e => .error e
              | .ok c6 => .ok (op left right, c6)
      | none =>
        if cur (strip t) = 'i' then
          match consume_str (strip t) "ite".toList with
          | .error e => .error e
          | .ok c3 =>
            match parse_boolexpr fuel c3 with
            | .error e => .error e
            | .ok (cond, c4) =>
              match parse_intexpr fuel c4 with
              | .error e => .error e
              | .ok (left, c5) =>
                match parse_intexpr fuel c5 with
                | .error e => .error e
                | .ok (right, c6) =>
                  match consume_char c6 ')' with
                  | .error e => .error e
                  | .ok c7 => .ok (.ITE cond left right, c7)
        else .error .check_failed := by
  have h1 : strip ('(' :: t) = '(' :: t := strip_cons_of_not_delim _ _ (by decide)
  have h2 : cur ('(' :: t) = '(' := rfl
  have h3 : ¬ ('(' = '-' ∧ is_digit '(' = true) := by decide
  have h4 : ('(' : Char) ≠ '-' := by decide
  have h5 : is_digit '(' = false := by decide
  have h6 : (is_alphabet '(' || '(' == '_') = false := by decide
  rw [parse_intexpr]
  simp only [h1, h2, h3, h4, h5, h6, if_false, consume_char_head '(' t (by decide) (by decide),
    if_true, Bool.false_eq_true, and_self]

theorem parse_intexpr_binary (fuel : Nat) (ch : Char) (op : IntExpr → IntExpr → IntExpr)
    (hop : int_operator ch = some op) (hd : is_delimiter ch = false) (h255 : ch.toNat ≠ 255)
    (t : List Char) :
    parse_intexpr (fuel + 1) ('(' :: ch :: t) =
      match parse_intexpr fuel (strip t) with
      | .error e => .error e
      | .ok (left, c4) =>
        match parse_intexpr fuel c4 with
        | .error e => .error e
        | .ok (right, c5) =>
          match consume_char c5 ')' with
          | .error e => .error e
          | .ok c6 => .ok (op left right, c6) := by
  rw [parse_intexpr_paren]
  have h1 : strip (ch :: t) = ch :: t := strip_cons_of_not_delim _ _ hd
  have h2 : cur (ch :: t) = ch := rfl
  simp only [h1, h2, hop, consume_char_head ch t hd h255]

theorem parse_intexpr_ite (fuel : Nat) (t : List Char) :
    parse_intexpr (fuel + 1) ('(' :: 'i' :: 't' :: 'e' :: t) =
      match parse_boolexpr fuel (strip t) with
      | .error e => .error e
      | .ok (cond, c4) =>
        match parse_intexpr fuel c4 with
        | .error e => .error e
        | .ok (left, c5) =>
          match parse_intexpr fuel c5 with
          | .error e => .error e
          | .ok (right, c6) =>
            match consume_char c6 ')' with
            | .error e => .error e
            | .ok c7 => .ok (.ITE cond left right, c7) := by
  rw [parse_intexpr_paren]
  have h1 : strip ('i' :: 't' :: 'e' :: t) = 'i' :: 't' :: 'e' :: t :=
    strip_cons_of_not_delim _ _ (by decide)
  have h2 : cur ('i' :: 't' :: 'e' :: t) = 'i' := rfl
  have h3 : int_operator 'i' = none := by rfl
  have h4 : consume_str ('i' :: 't' :: 'e' :: t) "ite".toList = .ok (strip t) :=
    consume_str_literal 'i' ['t', 'e'] t (by decide) (by decide)
  simp only [h1, h2, h3, h4, if_true]

theorem parse_boolexpr_cmp (fuel : Nat) (c : Char) (s : List Char)
    (op : IntExpr → IntExpr → BoolExpr) (hd : is_delimiter c = false) (h255 : c.toNat ≠ 255)
    (t : List Char)
    (hfind : comparisons.find? (fun p => p.1.isPrefixOf (c :: s ++ t)) = some (c :: s, op)) :
    parse_boolexpr (fuel + 1) ('(' :: (c :: s ++ t)) =
      match parse_intexpr fuel (strip t) with
      | .error e => .error e
      | .ok (ileft, c3) =>
        match parse_intexpr fuel c3 with
        | .error e => .error e
        | .ok (iright, c4) =>
          match consume_char c4 ')' with
          | .error e => .error e
          | .ok c6 => .ok (op ileft iright, c6) := by
  rw [parse_boolexpr]
  have h1 : strip (c :: s ++ t) = c :: s ++ t := strip_cons_of_not_delim _ _ hd
  simp only [consume_char_head '(' _ (by decide) (by decide), h1, hfind,
    consume_str_literal c s t hd h255]
  cases parse_intexpr fuel (strip t) with
  | error e => rfl
  | ok r =>
    obtain ⟨ileft, c3⟩ := r
    simp only
    cases parse_intexpr fuel c3 with
    | error e => rfl
    | ok r2 => rfl


theorem parse_boolexpr_and (fuel : Nat) (t : List Char) :
    parse_boolexpr (fuel + 1) ('(' :: 'a' :: 'n' :: 'd' :: t) =
      match parse_boolexpr fuel (strip t) with
      | .error e => .error e
      | .ok (bleft, c3) =>
        match parse_boolexpr fuel c3 with
        | .error e => .error e
        | .ok (bright, c4) =>
          match make_binary .BOOLEXPR_AND bleft bright c4 with
          | .error e => .error e
          | .ok (ret, c5) =>
            match consume_char c5 ')' with
            | .error e => .error e
            | .ok c6 => .ok (ret, c6) := by
  rw [parse_boolexpr]
  have h1 : strip ('a' :: 'n' :: 'd' :: t) = 'a' :: 'n' :: 'd' :: t :=
    strip_cons_of_not_delim _ _ (by decide)
  have h2 : comparisons.find? (fun p => p.1.isPrefixOf ('a' :: 'n' :: 'd' :: t)) = none := by
    rfl
  have h3 : "and".toList.isPrefixOf ('a' :: 'n' :: 'd' :: t) = true :=
    isPrefixOf_append ['a', 'n', 'd'] t
  have h4 : consume_str ('a' :: 'n' :: 'd' :: t) "and".toList = .ok (strip t) :=
    consume_str_literal 'a' ['n', 'd'] t (by decide) (by decide)
  simp only [consume_char_head '(' _ (by decide) (by decide), h1, h2, h3, h4, if_true]
  cases parse_boolexpr fuel (strip t) with
  | error e => rfl
  | ok r =>
    obtain ⟨bleft, c3⟩ := r
    simp only
    cases parse_boolexpr fuel c3 with
    | error e => rfl
    | ok r2 => rfl

theorem parse_boolexpr_or (fuel : Nat) (t : List Char) :
    parse_boolexpr (fuel + 1) ('(' :: 'o' :: 'r' :: t) =
      match parse_boolexpr fuel (strip t) with
      | .error e => .error e
      | .ok (bleft, c3) =>
        match parse_boolexpr fuel c3 with
        | .error e => .error e
        | .ok (bright, c4) =>
          match make_binary .BOOLEXPR_OR bleft bright c4 with
          | .error e => .error e
          | .ok (ret, c5) =>
            match consume_char c5 ')' with
            | .error e => .error e
            | .ok c6 => .ok (ret, c6) := by
  rw [parse_boolexpr]
  have h1 : strip ('o' :: 'r' :: t) = 'o' :: 'r' :: t :=
    strip_cons_of_not_delim _ _ (by decide)
  have h2 : comparisons.find? (fun p => p.1.isPrefixOf ('o' :: 'r' :: t)) = none := by
    rfl
  have h3 : "and".toList.isPrefixOf ('o' :: 'r' :: t) = false := by rfl
  have h5 : "or".toList.isPrefixOf ('o' :: 'r' :: t) = true := isPrefixOf_append ['o', 'r'] t
  have h4 : consume_str ('o' :: 'r' :: t) "or".toList = .ok (strip t) :=
    consume_str_literal 'o' ['r'] t (by decide) (by decide)
  simp only [consume_char_head '(' _ (by decide) (by decide), h1, h2, h3, h4, h5, if_true,
    if_false, Bool.false_eq_true]
  cases parse_boolexpr fuel (strip t) with
  | error e => rfl
  | ok r =>
    obtain ⟨bleft, c3⟩ := r
    simp only
    cases parse_boolexpr fuel c3 with
    | error e => rfl
    | ok r2 => rfl

theorem parse_boolexpr_not (fuel : Nat) (t : List Char) :
    parse_boolexpr (fuel + 1) ('(' :: 'n' :: 'o' :: 't' :: t) =
      match parse_boolexpr fuel (strip t) with
      | .error e => .error e
      | .ok (b, c3) =>
        match consume_char c3 ')' with
        | .error e => .error e
        | .ok c6 => .ok (.NOT b, c6) := by
  rw [parse_boolexpr]
  have h1 : strip ('n' :: 'o' :: 't' :: t) = 'n' :: 'o' :: 't' :: t :=
    strip_cons_of_not_delim _ _ (by decide)
  have h2 : comparisons.find? (fun p => p.1.isPrefixOf ('n' :: 'o' :: 't' :: t)) = none := by
    rfl
  have h3 : "and".toList.isPrefixOf ('n' :: 'o' :: 't' :: t) = false := by rfl
  have h5 : "or".toList.isPrefixOf ('n' :: 'o' :: 't' :: t) = false := by rfl
  have h6 : "not".toList.isPrefixOf ('n' :: 'o' :: 't' :: t) = true :=
    isPrefixOf_append ['n', 'o', 't'] t
  have h4 : consume_str ('n' :: 'o' :: 't' :: t) "not".toList = .ok (strip t) :=
    consume_str_literal 'n' ['o', 't'] t (by decide) (by decide)
  simp only [consume_char_head '(' _ (by decide) (by decide), h1, h2, h3, h4, h5, h6, if_true,
    if_false, Bool.false_eq_true]
  cases parse_boolexpr fuel (strip t) with
  | error e => rfl
  | ok r => rfl

theorem atoi_of_digit_head (c : Char) (t : List Char) (h : is_digit c = true) :
    atoi (c :: t) = wrap_int (atoi_digits (c :: t) 0) := by
  have hc := (is_digit_iff c).1 h
  have hw : (c == ' ' || (decide (9 ≤ c.toNat) && decide (c.toNat ≤ 13))) = false := by
    have : c ≠ ' ' := by
      rintro rfl
      revert hc
      decide
    simp only [Bool.or_eq_false_iff, beq_eq_false_iff_ne, ne_eq, this, not_false_eq_true,
      Bool.and_eq_false_imp, decide_eq_true_eq, decide_eq_false_iff_not, true_and]
    intro _
    omega
  have h1 : c ≠ '-' := by
    rintro rfl
    revert hc
    decide
  have h2 : c ≠ '+' := by
    rintro rfl
    revert hc
    decide
  unfold atoi
  simp only [List.dropWhile, hw]
  split
  · rename_i rest heq
    exact absurd (List.cons.inj heq).1 h1
  · rename_i rest heq
    exact absurd (List.cons.inj heq).1 h2
  · rfl

theorem parse_intexpr_const (fuel : Nat) (value : Int) (rest : List Char) (h0 : 0 ≤ value)
    (h1 : value < 2 ^ 31) (hrest : ends_token rest) :
    parse_intexpr (fuel + 1) (int_to_string value ++ rest) = .ok (.CONST value, rest) := by
  have hdig : is_digit (cur rest) = false := by
    have := hrest.1
    simp only [is_alphanumeric, Bool.or_eq_false_iff] at this
    exact this.2
  have hts : int_to_string value = Nat.toDigits 10 value.toNat := by
    simp [int_to_string, not_lt.2 h0]
  obtain ⟨c, t, hct, hc⟩ := toDigits_head value.toNat
  have hcn := (is_digit_iff c).1 hc
  have hcd : is_delimiter c = false := by
    by_contra hd
    have hd2 : is_delimiter c = true := by simpa using hd
    have := is_delimiter_imp c hd2
    omega
  have hcm : c ≠ '-' := by
    rintro rfl
    revert hcn
    decide
  have hval : atoi (c :: t ++ rest) = value := by
    rw [List.cons_append, atoi_of_digit_head c _ hc, ← List.cons_append, ← hct,
      atoi_digits_toDigits _ rest hdig]
    unfold wrap_int
    omega
  have hdrop : (c :: t ++ rest).dropWhile is_digit = rest := by
    rw [← hct]
    exact dropWhile_toDigits _ rest hdig
  rw [hts, hct, parse_intexpr]
  simp only [List.cons_append, strip_cons_of_not_delim c _ hcd, cur, List.headD_cons, hcm,
    false_and, if_false, hc, if_true]
  rw [← List.cons_append, hval, hdrop]

theorem parse_intexpr_var (fuel : Nat) (id : String) (rest : List Char)
    (hid : is_identifier id = true) (hrest : ends_token rest) :
    parse_intexpr (fuel + 1) (id.toList ++ rest) = .ok (.VAR id, rest) := by
  have hp := parse_id_ident id rest hid hrest
  obtain ⟨data⟩ := id
  simp only [is_identifier, String.toList] at hid
  cases data with
  | nil => simp at hid
  | cons c l =>
    simp only [Bool.and_eq_true] at hid
    have hc := hid.1
    have hcn : (65 ≤ c.toNat ∧ c.toNat ≤ 90) ∨ (97 ≤ c.toNat ∧ c.toNat ≤ 122) ∨ c = '_' := by
      rcases Bool.or_eq_true_iff.1 hc with h | h
      · rcases (is_alphabet_iff c).1 h with h | h
        · exact Or.inl h
        · exact Or.inr (Or.inl h)
      · exact Or.inr (Or.inr (by simpa using h))
    have hcd : is_delimiter c = false := by
      by_contra hd
      have hd2 : is_delimiter c = true := by simpa using hd
      have h1 := is_delimiter_imp c hd2
      rcases hcn with h | h | h
      · omega
      · omega
      · subst h
        revert h1
        decide
    have hcm : c ≠ '-' := by
      rintro rfl
      revert hcn
      decide
    have hdg : is_digit c = false := by
      by_contra hd
      have hd2 : is_digit c = true := by simpa using hd
      have h1 := (is_digit_iff c).1 hd2
      rcases hcn with h | h | h
      · omega
      · omega
      · subst h
        revert h1
        decide
    simp only [String.toList] at hp ⊢
    rw [parse_intexpr]
    simp only [List.cons_append, strip_cons_of_not_delim c _ hcd, cur, List.headD_cons, hcm,
      false_and, if_false, hdg, Bool.false_eq_true, hc, if_true]
    rw [← List.cons_append, hp]


theorem strip_blank_append (L more : List Char)
    (h : ∃ (c : Char) (t : List Char), L = c :: t ∧ is_delimiter c = false) :
    strip (' ' :: (L ++ more)) = L ++ more ∧ strip (L ++ more) = L ++ more := by
  obtain ⟨c, t, hL, hc⟩ := h
  rw [strip_blank, hL, List.cons_append, strip_cons_of_not_delim c _ hc]
  exact ⟨rfl, rfl⟩

theorem IntExpr.to_string_head (e : IntExpr) (h : e.printable = true) :
    ∃ (c : Char) (t : List Char), e.to_string = c :: t ∧ is_delimiter c = false := by
  cases e with
  | CONST value =>
    simp only [IntExpr.printable, Bool.and_eq_true, decide_eq_true_eq] at h
    obtain ⟨c, t, hct, hc⟩ := toDigits_head value.toNat
    refine ⟨c, t, ?_, ?_⟩
    · simp [IntExpr.to_string, int_to_string, not_lt.2 h.1, hct]
    · have hcn := (is_digit_iff c).1 hc
      by_contra hd
      have hd2 : is_delimiter c = true := by simpa using hd
      have := is_delimiter_imp c hd2
      omega
  | VAR id =>
    obtain ⟨data⟩ := id
    simp only [IntExpr.printable, is_identifier, String.toList] at h
    cases data with
    | nil => simp at h
    | cons c l =>
      simp only [Bool.and_eq_true] at h
      refine ⟨c, l, rfl, ?_⟩
      by_contra hd
      have hd2 : is_delimiter c = true := by simpa using hd
      have h1 := is_delimiter_imp c hd2
      rcases Bool.or_eq_true_iff.1 h.1 with h2 | h2
      · have := (is_alphabet_iff c).1 h2
        omega
      · rw [beq_iff_eq] at h2
        subst h2
        revert h1
        decide
  | ITE c l r => exact ⟨'(', _, rfl, by decide⟩
  | ADD l r => exact ⟨'(', _, rfl, by decide⟩
  | SUB l r => exact ⟨'(', _, rfl, by decide⟩
  | MULT l r => exact ⟨'(', _, rfl, by decide⟩
  | DIV l r => exact ⟨'(', _, rfl, by decide⟩
  | MOD l r => exact ⟨'(', _, rfl, by decide⟩

theorem BoolExpr.to_string_paren (e : BoolExpr) (h : e.printable = true) :
    ∃ t : List Char, e.to_string = '(' :: t := by
  cases e with
  | VAR id => simp [BoolExpr.printable] at h
  | NEQ l r => exact ⟨_, rfl⟩
  | AND l r => exact ⟨_, rfl⟩
  | OR l r => exact ⟨_, rfl⟩
  | NOT b => exact ⟨_, rfl⟩
  | EQ l r => exact ⟨_, rfl⟩
  | LT l r => exact ⟨_, rfl⟩
  | GT l r => exact ⟨_, rfl⟩
  | LTE l r => exact ⟨_, rfl⟩
  | GTE l r => exact ⟨_, rfl⟩

theorem ends_token_cons (c : Char) (t : List Char) (h1 : is_alphanumeric c = false)
    (h2 : c ≠ '_') : ends_token (c :: t) :=
  ⟨h1, h2⟩

theorem two_int_operands {α : Type} (fuel : Nat) (l r : IntExpr) (rest : List Char)
    (op : IntExpr → IntExpr → α)
    (hl : ∀ rest : List Char, ends_token rest →
      ∃ rest2, parse_intexpr fuel (l.to_string ++ rest) = .ok (l, rest2) ∧
        (rest2 = rest ∨ rest2 = strip rest))
    (hr : ∀ rest : List Char, ends_token rest →
      ∃ rest2, parse_intexpr fuel (r.to_string ++ rest) = .ok (r, rest2) ∧
        (rest2 = rest ∨ rest2 = strip rest))
    (hrh : ∃ (c : Char) (t : List Char), r.to_string = c :: t ∧ is_delimiter c = false) :
    (match parse_intexpr fuel (l.to_string ++ (' ' :: (r.to_string ++ (')' :: rest)))) with
      | .error e => .error e
      | .ok (left, c4) =>
        match parse_intexpr fuel c4 with
        | .error e => .error e
        | .ok (right, c5) =>
          match consume_char c5 ')' with
          | .error e => .error e
          | .ok c6 => .ok (op left right, c6)) =
      (.ok (op l r, strip rest) : Except ParseFault (α × List Char)) := by
  obtain ⟨r1, h1, h1r⟩ := hl (' ' :: (r.to_string ++ (')' :: rest)))
    (ends_token_cons ' ' _ (by decide) (by decide))
  obtain ⟨r2, h2, h2r⟩ := hr (')' :: rest) (ends_token_cons ')' _ (by decide) (by decide))
  have hs := strip_blank_append r.to_string (')' :: rest) hrh
  have hr1 : parse_intexpr fuel r1 = .ok (r, r2) := by
    rw [parse_intexpr_strip]
    rcases h1r with e | e
    · rw [e, hs.1]; exact h2
    · rw [e, strip_strip, hs.1]; exact h2
  have hr2 : consume_char r2 ')' = .ok (strip rest) := by
    have hst : strip (')' :: rest) = ')' :: rest := strip_cons_of_not_delim _ _ (by decide)
    rcases h2r with e | e
    · rw [e]; exact consume_char_head ')' rest (by decide) (by decide)
    · rw [e, hst]; exact consume_char_head ')' rest (by decide) (by decide)
  simp only [h1, hr1, hr2]

theorem bool_operand_next (fuel : Nat) (e : BoolExpr) (more : List Char)
    (he : ∀ rest : List Char, parse_boolexpr fuel (e.to_string ++ rest) = .ok (e, strip rest))
    (hh : ∃ t : List Char, e.to_string = '(' :: t) :
    parse_boolexpr fuel (strip (' ' :: (e.to_string ++ more))) = .ok (e, strip more) := by
  obtain ⟨t, ht⟩ := hh
  have := strip_blank_append e.to_string more ⟨'(', t, ht, by decide⟩
  rw [this.1]
  exact he more

theorem two_bool_operands (fuel : Nat) (t_ : BinaryType) (l r ret : BoolExpr) (rest : List Char)
    (hl : ∀ rest : List Char, parse_boolexpr fuel (l.to_string ++ rest) = .ok (l, strip rest))
    (hr : ∀ rest : List Char, parse_boolexpr fuel (r.to_string ++ rest) = .ok (r, strip rest))
    (hlh : ∃ t : List Char, l.to_string = '(' :: t)
    (hrh : ∃ t : List Char, r.to_string = '(' :: t)
    (hb : BoolExpr.binary t_ l r = .ok ret) :
    ((match parse_boolexpr fuel (strip (' ' :: (l.to_string ++ (' ' :: (r.to_string ++
        (')' :: rest)))))) with
      | .error e => .error e
      | .ok (bleft, c3) =>
        match parse_boolexpr fuel c3 with
        | .error e => .error e
        | .ok (bright, c4) =>
          match make_binary t_ bleft bright c4 with
          | .error e => .error e
          | .ok (ret, c5) =>
            match consume_char c5 ')' with
            | .error e => .error e
            | .ok c6 => .ok (ret, c6)) : Except ParseFault (BoolExpr × List Char)) =
      .ok (ret, strip rest) := by
  rw [bool_operand_next fuel l _ hl hlh]
  simp only
  rw [bool_operand_next fuel r _ hr hrh]
  have hst : strip (')' :: rest) = ')' :: rest := strip_cons_of_not_delim _ _ (by decide)
  simp only [make_binary, hb, hst, consume_char_head ')' rest (by decide) (by decide)]

theorem binary_of_printable (t_ : BinaryType) (l r : BoolExpr)
    (h1 : l.struct_eq BoolExpr.true_expr = false) (h2 : r.struct_eq BoolExpr.true_expr = false)
    (h3 : l.struct_eq BoolExpr.false_expr = false)
    (h4 : r.struct_eq BoolExpr.false_expr = false) :
    BoolExpr.binary t_ l r =
      .ok (match t_ with
        | .BOOLEXPR_AND => .AND l r
        | .BOOLEXPR_OR => .OR l r) := by
  cases t_ <;> simp [BoolExpr.binary, h1, h2, h3, h4]


mutual
theorem IntExpr.parse_printed : ∀ (e : IntExpr), e.printable = true →
    ∀ (fuel : Nat) (rest : List Char), e.to_string.length ≤ fuel → ends_token rest →
      ∃ rest2 : List Char, parse_intexpr fuel (e.to_string ++ rest) = .ok (e, rest2) ∧
        (rest2 = rest ∨ rest2 = strip rest)
  | .CONST value, hp, fuel, rest, hlen, hrest => by
    simp only [IntExpr.printable, Bool.and_eq_true, decide_eq_true_eq] at hp
    obtain ⟨c, t, hct, _⟩ := IntExpr.to_string_head (.CONST value) (by
      simp only [IntExpr.printable, Bool.and_eq_true, decide_eq_true_eq]
      exact hp)
    rw [hct] at hlen
    simp only [List.length_cons] at hlen
    obtain ⟨f1, rfl⟩ : ∃ f1, fuel = f1 + 1 := ⟨fuel - 1, by omega⟩
    exact ⟨rest, parse_intexpr_const f1 value rest hp.1 hp.2 hrest, Or.inl rfl⟩
  | .VAR id, hp, fuel, rest, hlen, hrest => by
    obtain ⟨c, t, hct, _⟩ := IntExpr.to_string_head (.VAR id) hp
    rw [hct] at hlen
    simp only [List.length_cons] at hlen
    obtain ⟨f1, rfl⟩ : ∃ f1, fuel = f1 + 1 := ⟨fuel - 1, by omega⟩
    exact ⟨rest, parse_intexpr_var f1 id rest hp hrest, Or.inl rfl⟩
  | .ITE c l r, hp, fuel, rest, hlen, _ => by
    simp only [IntExpr.printable, Bool.and_eq_true] at hp
    have hform : (IntExpr.ITE c l r).to_string ++ rest =
        '(' :: 'i' :: 't' :: 'e' :: (' ' :: (c.to_string ++ (' ' :: (l.to_string ++
          (' ' :: (r.to_string ++ (')' :: rest))))))) := by
      simp only [IntExpr.to_string, List.append_assoc]
      rfl
    have hl5 := congrArg List.length hform
    simp only [List.length_append, List.length_cons] at hl5
    obtain ⟨f1, rfl⟩ : ∃ f1, fuel = f1 + 1 := ⟨fuel - 1, by omega⟩
    refine ⟨strip rest, ?_, Or.inr rfl⟩
    rw [hform, parse_intexpr_ite f1,
      bool_operand_next f1 c _ (fun rest2 => BoolExpr.parse_printed_cond c hp.1.1 f1 rest2 (by omega))
        (BoolExpr.to_string_paren c hp.1.1)]
    simp only
    rw [(strip_blank_append l.to_string _ (IntExpr.to_string_head l hp.1.2)).1]
    exact two_int_operands f1 l r rest (IntExpr.ITE c)
      (fun rest2 h2 => IntExpr.parse_printed l hp.1.2 f1 rest2 (by omega) h2)
      (fun rest2 h2 => IntExpr.parse_printed r hp.2 f1 rest2 (by omega) h2)
      (IntExpr.to_string_head r hp.2)
  | .ADD l r, hp, fuel, rest, hlen, _ => by
    simp only [IntExpr.printable, Bool.and_eq_true] at hp
    have hform : (IntExpr.ADD l r).to_string ++ rest =
        '(' :: '+' :: (' ' :: (l.to_string ++ (' ' :: (r.to_string ++ (')' :: rest))))) := by
      simp only [IntExpr.to_string, List.append_assoc]
      rfl
    have hl5 := congrArg List.length hform
    simp only [List.length_append, List.length_cons] at hl5
    obtain ⟨f1, rfl⟩ : ∃ f1, fuel = f1 + 1 := ⟨fuel - 1, by omega⟩
    refine ⟨strip rest, ?_, Or.inr rfl⟩
    rw [hform, parse_intexpr_binary f1 '+' .ADD rfl (by decide) (by decide),
      (strip_blank_append l.to_string _ (IntExpr.to_string_head l hp.1)).1]
    exact two_int_operands f1 l r rest IntExpr.ADD
      (fun rest2 h2 => IntExpr.parse_printed l hp.1 f1 rest2 (by omega) h2)
      (fun rest2 h2 => IntExpr.parse_printed r hp.2 f1 rest2 (by omega) h2)
      (IntExpr.to_string_head r hp.2)
  | .SUB l r, hp, fuel, rest, hlen, _ => by
    simp only [IntExpr.printable, Bool.and_eq_true] at hp
    have hform : (IntExpr.SUB l r).to_string ++ rest =
        '(' :: '-' :: (' ' :: (l.to_string ++ (' ' :: (r.to_string ++ (')' :: rest))))) := by
      simp only [IntExpr.to_string, List.append_assoc]
      rfl
    have hl5 := congrArg List.length hform
    simp only [List.length_append, List.length_cons] at hl5
    obtain ⟨f1, rfl⟩ : ∃ f1, fuel = f1 + 1 := ⟨fuel - 1, by omega⟩
    refine ⟨strip rest, ?_, Or.inr rfl⟩
    rw [hform, parse_intexpr_binary f1 '-' .SUB rfl (by decide) (by decide),
      (strip_blank_append l.to_string _ (IntExpr.to_string_head l hp.1)).1]
    exact two_int_operands f1 l r rest IntExpr.SUB
      (fun rest2 h2 => IntExpr.parse_printed l hp.1 f1 rest2 (by omega) h2)
      (fun rest2 h2 => IntExpr.parse_printed r hp.2 f1 rest2 (by omega) h2)
      (IntExpr.to_string_head r hp.2)
  | .MULT l r, hp, fuel, rest, hlen, _ => by
    simp only [IntExpr.printable, Bool.and_eq_true] at hp
    have hform : (IntExpr.MULT l r).to_string ++ rest =
        '(' :: '*' :: (' ' :: (l.to_string ++ (' ' :: (r.to_string ++ (')' :: rest))))) := by
      simp only [IntExpr.to_string, List.append_assoc]
      rfl
    have hl5 := congrArg List.length hform
    simp only [List.length_append, List.length_cons] at hl5
    obtain ⟨f1, rfl⟩ : ∃ f1, fuel = f1 + 1 := ⟨fuel - 1, by omega⟩
    refine ⟨strip rest, ?_, Or.inr rfl⟩
    rw [hform, parse_intexpr_binary f1 '*' .MULT rfl (by decide) (by decide),
      (strip_blank_append l.to_string _ (IntExpr.to_string_head l hp.1)).1]
    exact two_int_operands f1 l r rest IntExpr.MULT
      (fun rest2 h2 => IntExpr.parse_printed l hp.1 f1 rest2 (by omega) h2)
      (fun rest2 h2 => IntExpr.parse_printed r hp.2 f1 rest2 (by omega) h2)
      (IntExpr.to_string_head r hp.2)
  | .DIV l r, hp, fuel, rest, hlen, _ => by
    simp only [IntExpr.printable, Bool.and_eq_true] at hp
    have hform : (IntExpr.DIV l r).to_string ++ rest =
        '(' :: '/' :: (' ' :: (l.to_string ++ (' ' :: (r.to_string ++ (')' :: rest))))) := by
      simp only [IntExpr.to_string, List.append_assoc]
      rfl
    have hl5 := congrArg List.length hform
    simp only [List.length_append, List.length_cons] at hl5
    obtain ⟨f1, rfl⟩ : ∃ f1, fuel = f1 + 1 := ⟨fuel - 1, by omega⟩
    refine ⟨strip rest, ?_, Or.inr rfl⟩
    rw [hform, parse_intexpr_binary f1 '/' .DIV rfl (by decide) (by decide),
      (strip_blank_append l.to_string _ (IntExpr.to_string_head l hp.1)).1]
    exact two_int_operands f1 l r rest IntExpr.DIV
      (fun rest2 h2 => IntExpr.parse_printed l hp.1 f1 rest2 (by omega) h2)
      (fun rest2 h2 => IntExpr.parse_printed r hp.2 f1 rest2 (by omega) h2)
      (IntExpr.to_string_head r hp.2)
  | .MOD l r, hp, fuel, rest, hlen, _ => by
    simp only [IntExpr.printable, Bool.and_eq_true] at hp
    have hform : (IntExpr.MOD l r).to_string ++ rest =
        '(' :: '%' :: (' ' :: (l.to_string ++ (' ' :: (r.to_string ++ (')' :: rest))))) := by
      simp only [IntExpr.to_string, List.append_assoc]
      rfl
    have hl5 := congrArg List.length hform
    simp only [List.length_append, List.length_cons] at hl5
    obtain ⟨f1, rfl⟩ : ∃ f1, fuel = f1 + 1 := ⟨fuel - 1, by omega⟩
    refine ⟨strip rest, ?_, Or.inr rfl⟩
    rw [hform, parse_intexpr_binary f1 '%' .MOD rfl (by decide) (by decide),
      (strip_blank_append l.to_string _ (IntExpr.to_string_head l hp.1)).1]
    exact two_int_operands f1 l r rest IntExpr.MOD
      (fun rest2 h2 => IntExpr.parse_printed l hp.1 f1 rest2 (by omega) h2)
      (fun rest2 h2 => IntExpr.parse_printed r hp.2 f1 rest2 (by omega) h2)
      (IntExpr.to_string_head r hp.2)
theorem BoolExpr.parse_printed_cond : ∀ (e : BoolExpr), e.printable = true →
    ∀ (fuel : Nat) (rest : List Char), e.to_string.length ≤ fuel →
      parse_boolexpr fuel (e.to_string ++ rest) = .ok (e, strip rest)
  | .AND l r, hp, fuel, rest, hlen => by
    simp only [BoolExpr.printable, Bool.and_eq_true, Bool.not_eq_true'] at hp
    obtain ⟨⟨⟨⟨⟨h1, h2⟩, h3⟩, h4⟩, hpl⟩, hpr⟩ := hp
    have hform : (BoolExpr.AND l r).to_string ++ rest =
        '(' :: 'a' :: 'n' :: 'd' :: (' ' :: (l.to_string ++ (' ' :: (r.to_string ++
          (')' :: rest))))) := by
      simp only [BoolExpr.to_string, List.append_assoc]
      rfl
    have hl5 := congrArg List.length hform
    simp only [List.length_append, List.length_cons] at hl5
    obtain ⟨f1, rfl⟩ : ∃ f1, fuel = f1 + 1 := ⟨fuel - 1, by omega⟩
    rw [hform, parse_boolexpr_and f1]
    exact two_bool_operands f1 .BOOLEXPR_AND l r (.AND l r) rest
      (fun rest2 => BoolExpr.parse_printed_cond l hpl f1 rest2 (by omega))
      (fun rest2 => BoolExpr.parse_printed_cond r hpr f1 rest2 (by omega))
      (BoolExpr.to_string_paren l hpl) (BoolExpr.to_string_paren r hpr)
      (binary_of_printable .BOOLEXPR_AND l r h1 h2 h3 h4)
  | .OR l r, hp, fuel, rest, hlen => by
    simp only [BoolExpr.printable, Bool.and_eq_true, Bool.not_eq_true'] at hp
    obtain ⟨⟨⟨⟨⟨h1, h2⟩, h3⟩, h4⟩, hpl⟩, hpr⟩ := hp
    have hform : (BoolExpr.OR l r).to_string ++ rest =
        '(' :: 'o' :: 'r' :: (' ' :: (l.to_string ++ (' ' :: (r.to_string ++
          (')' :: rest))))) := by
      simp only [BoolExpr.to_string, List.append_assoc]
      rfl
    have hl5 := congrArg List.length hform
    simp only [List.length_append, List.length_cons] at hl5
    obtain ⟨f1, rfl⟩ : ∃ f1, fuel = f1 + 1 := ⟨fuel - 1, by omega⟩
    rw [hform, parse_boolexpr_or f1]
    exact two_bool_operands f1 .BOOLEXPR_OR l r (.OR l r) rest
      (fun rest2 => BoolExpr.parse_printed_cond l hpl f1 rest2 (by omega))
      (fun rest2 => BoolExpr.parse_printed_cond r hpr f1 rest2 (by omega))
      (BoolExpr.to_string_paren l hpl) (BoolExpr.to_string_paren r hpr)
      (binary_of_printable .BOOLEXPR_OR l r h1 h2 h3 h4)
  | .NOT b, hp, fuel, rest, hlen => by
    simp only [BoolExpr.printable] at hp
    have hform : (BoolExpr.NOT b).to_string ++ rest =
        '(' :: 'n' :: 'o' :: 't' :: (' ' :: (b.to_string ++ (')' :: rest))) := by
      simp only [BoolExpr.to_string, List.append_assoc]
      rfl
    have hl5 := congrArg List.length hform
    simp only [List.length_append, List.length_cons] at hl5
    obtain ⟨f1, rfl⟩ : ∃ f1, fuel = f1 + 1 := ⟨fuel - 1, by omega⟩
    rw [hform, parse_boolexpr_not f1,
      bool_operand_next f1 b _ (fun rest2 => BoolExpr.parse_printed_cond b hp f1 rest2 (by omega))
        (BoolExpr.to_string_paren b hp)]
    have hst : strip (')' :: rest) = ')' :: rest := strip_cons_of_not_delim _ _ (by decide)
    simp only [hst, consume_char_head ')' rest (by decide) (by decide)]
  | .EQ l r, hp, fuel, rest, hlen => by
    simp only [BoolExpr.printable, Bool.and_eq_true] at hp
    have hform : (BoolExpr.EQ l r).to_string ++ rest =
        '(' :: ('=' :: [] ++ (' ' :: (l.to_string ++ (' ' :: (r.to_string ++
          (')' :: rest)))))) := by
      simp only [BoolExpr.to_string, List.append_assoc]
      rfl
    have hl5 := congrArg List.length hform
    simp only [List.length_append, List.length_cons, List.length_nil] at hl5
    obtain ⟨f1, rfl⟩ : ∃ f1, fuel = f1 + 1 := ⟨fuel - 1, by omega⟩
    rw [hform, parse_boolexpr_cmp f1 '=' [] .EQ (by decide) (by decide) _ (by rfl),
      (strip_blank_append l.to_string _ (IntExpr.to_string_head l hp.1)).1]
    exact two_int_operands f1 l r rest BoolExpr.EQ
      (fun rest2 h2 => IntExpr.parse_printed l hp.1 f1 rest2 (by omega) h2)
      (fun rest2 h2 => IntExpr.parse_printed r hp.2 f1 rest2 (by omega) h2)
      (IntExpr.to_string_head r hp.2)
  | .LT l r, hp, fuel, rest, hlen => by
    simp only [BoolExpr.printable, Bool.and_eq_true] at hp
    have hform : (BoolExpr.LT l r).to_string ++ rest =
        '(' :: ('<' :: [] ++ (' ' :: (l.to_string ++ (' ' :: (r.to_string ++
          (')' :: rest)))))) := by
      simp only [BoolExpr.to_string, List.append_assoc]
      rfl
    have hl5 := congrArg List.length hform
    simp only [List.length_append, List.length_cons, List.length_nil] at hl5
    obtain ⟨f1, rfl⟩ : ∃ f1, fuel = f1 + 1 := ⟨fuel - 1, by omega⟩
    rw [hform, parse_boolexpr_cmp f1 '<' [] .LT (by decide) (by decide) _ (by rfl),
      (strip_blank_append l.to_string _ (IntExpr.to_string_head l hp.1)).1]
    exact two_int_operands f1 l r rest BoolExpr.LT
      (fun rest2 h2 => IntExpr.parse_printed l hp.1 f1 rest2 (by omega) h2)
      (fun rest2 h2 => IntExpr.parse_printed r hp.2 f1 rest2 (by omega) h2)
      (IntExpr.to_string_head r hp.2)
  | .GT l r, hp, fuel, rest, hlen => by
    simp only [BoolExpr.printable, Bool.and_eq_true] at hp
    have hform : (BoolExpr.GT l r).to_string ++ rest =
        '(' :: ('>' :: [] ++ (' ' :: (l.to_string ++ (' ' :: (r.to_string ++
          (')' :: rest)))))) := by
      simp only [BoolExpr.to_string, List.append_assoc]
      rfl
    have hl5 := congrArg List.length hform
    simp only [List.length_append, List.length_cons, List.length_nil] at hl5
    obtain ⟨f1, rfl⟩ : ∃ f1, fuel = f1 + 1 := ⟨fuel - 1, by omega⟩
    rw [hform, parse_boolexpr_cmp f1 '>' [] .GT (by decide) (by decide) _ (by rfl),
      (strip_blank_append l.to_string _ (IntExpr.to_string_head l hp.1)).1]
    exact two_int_operands f1 l r rest BoolExpr.GT
      (fun rest2 h2 => IntExpr.parse_printed l hp.1 f1 rest2 (by omega) h2)
      (fun rest2 h2 => IntExpr.parse_printed r hp.2 f1 rest2 (by omega) h2)
      (IntExpr.to_string_head r hp.2)
  | .LTE l r, hp, fuel, rest, hlen => by
    simp only [BoolExpr.printable, Bool.and_eq_true] at hp
    have hform : (BoolExpr.LTE l r).to_string ++ rest =
        '(' :: ('<' :: ['='] ++ (' ' :: (l.to_string ++ (' ' :: (r.to_string ++
          (')' :: rest)))))) := by
      simp only [BoolExpr.to_string, List.append_assoc]
      rfl
    have hl5 := congrArg List.length hform
    simp only [List.length_append, List.length_cons, List.length_nil] at hl5
    obtain ⟨f1, rfl⟩ : ∃ f1, fuel = f1 + 1 := ⟨fuel - 1, by omega⟩
    rw [hform, parse_boolexpr_cmp f1 '<' ['='] .LTE (by decide) (by decide) _ (by rfl),
      (strip_blank_append l.to_string _ (IntExpr.to_string_head l hp.1)).1]
    exact two_int_operands f1 l r rest BoolExpr.LTE
      (fun rest2 h2 => IntExpr.parse_printed l hp.1 f1 rest2 (by omega) h2)
      (fun rest2 h2 => IntExpr.parse_printed r hp.2 f1 rest2 (by omega) h2)
      (IntExpr.to_string_head r hp.2)
  | .GTE l r, hp, fuel, rest, hlen => by
    simp only [BoolExpr.printable, Bool.and_eq_true] at hp
    have hform : (BoolExpr.GTE l r).to_string ++ rest =
        '(' :: ('>' :: ['='] ++ (' ' :: (l.to_string ++ (' ' :: (r.to_string ++
          (')' :: rest)))))) := by
      simp only [BoolExpr.to_string, List.append_assoc]
      rfl
    have hl5 := congrArg List.length hform
    simp only [List.length_append, List.length_cons, List.length_nil] at hl5
    obtain ⟨f1, rfl⟩ : ∃ f1, fuel = f1 + 1 := ⟨fuel - 1, by omega⟩
    rw [hform, parse_boolexpr_cmp f1 '>' ['='] .GTE (by decide) (by decide) _ (by rfl),
      (strip_blank_append l.to_string _ (IntExpr.to_string_head l hp.1)).1]
    exact two_int_operands f1 l r rest BoolExpr.GTE
      (fun rest2 h2 => IntExpr.parse_printed l hp.1 f1 rest2 (by omega) h2)
      (fun rest2 h2 => IntExpr.parse_printed r hp.2 f1 rest2 (by omega) h2)
      (IntExpr.to_string_head r hp.2)
  | .NEQ _ _, hp, _, _, _ => by simp [BoolExpr.printable] at hp
  | .VAR _, hp, _, _, _ => by simp [BoolExpr.printable] at hp
end


theorem toDigitsCore_all_digits : ∀ (fuel n : Nat) (ds : List Char),
    (∀ c ∈ ds, is_digit c = true) → ∀ c ∈ Nat.toDigitsCore 10 fuel n ds, is_digit c = true
  | 0, n, ds, h => h
  | fuel + 1, n, ds, h => by
    have hd := digitChar_spec ⟨n % 10, Nat.mod_lt _ (by decide)⟩
    simp only at hd
    have h2 : ∀ c ∈ Nat.digitChar (n % 10) :: ds, is_digit c = true := by
      intro c hc
      rcases List.mem_cons.1 hc with hc | hc
      · rw [hc]; exact hd.1
      · exact h c hc
    by_cases h0 : n / 10 = 0
    · simpa [Nat.toDigitsCore, h0] using h2
    · simp only [Nat.toDigitsCore, h0, if_false]
      exact toDigitsCore_all_digits fuel (n / 10) _ h2

theorem ne_nul_of_digit (c : Char) (h : is_digit c = true) : c ≠ Char.ofNat 0 := by
  rintro rfl
  revert h
  decide

theorem ne_nul_of_ident_char (c : Char) (h : (is_alphanumeric c || c == '_') = true) :
    c ≠ Char.ofNat 0 := by
  rintro rfl
  revert h
  decide

theorem ident_no_nul (id : String) (h : is_identifier id = true) :
    ∀ c ∈ id.toList, c ≠ Char.ofNat 0 := by
  obtain ⟨data⟩ := id
  simp only [is_identifier, String.toList] at h ⊢
  cases data with
  | nil => simp
  | cons d l =>
    simp only [Bool.and_eq_true, List.all_eq_true] at h
    intro c hc
    rcases List.mem_cons.1 hc with hc | hc
    · rw [hc]
      apply ne_nul_of_ident_char
      rcases Bool.or_eq_true_iff.1 h.1 with h1 | h1
      · simp [is_alphanumeric, h1]
      · simp [h1]
    · exact ne_nul_of_ident_char c (h.2 c hc)

mutual
theorem IntExpr.to_string_no_nul : ∀ (e : IntExpr), e.printable = true →
    ∀ c ∈ e.to_string, c ≠ Char.ofNat 0
  | .CONST value, hp => by
    simp only [IntExpr.printable, Bool.and_eq_true, decide_eq_true_eq] at hp
    intro c hc
    simp only [IntExpr.to_string, int_to_string, not_lt.2 hp.1, if_false] at hc
    exact ne_nul_of_digit c (toDigitsCore_all_digits _ _ [] (by simp) c hc)
  | .VAR id, hp => ident_no_nul id hp
  | .ITE b l r, hp => by
    simp only [IntExpr.printable, Bool.and_eq_true] at hp
    intro c hc
    simp only [IntExpr.to_string, List.mem_append] at hc
    rcases hc with (((((hc | hc) | hc) | hc) | hc) | hc) | hc
    · revert c; decide
    · exact BoolExpr.cond_to_string_no_nul b hp.1.1 c hc
    · revert c; decide
    · exact IntExpr.to_string_no_nul l hp.1.2 c hc
    · revert c; decide
    · exact IntExpr.to_string_no_nul r hp.2 c hc
    · revert c; decide
  | .ADD l r, hp => by
    simp only [IntExpr.printable, Bool.and_eq_true] at hp
    intro c hc
    simp only [IntExpr.to_string, List.mem_append] at hc
    rcases hc with (((hc | hc) | hc) | hc) | hc
    · revert c; decide
    · exact IntExpr.to_string_no_nul l hp.1 c hc
    · revert c; decide
    · exact IntExpr.to_string_no_nul r hp.2 c hc
    · revert c; decide
  | .SUB l r, hp => by
    simp only [IntExpr.printable, Bool.and_eq_true] at hp
    intro c hc
    simp only [IntExpr.to_string, List.mem_append] at hc
    rcases hc with (((hc | hc) | hc) | hc) | hc
    · revert c; decide
    · exact IntExpr.to_string_no_nul l hp.1 c hc
    · revert c; decide
    · exact IntExpr.to_string_no_nul r hp.2 c hc
    · revert c; decide
  | .MULT l r, hp => by
    simp only [IntExpr.printable, Bool.and_eq_true] at hp
    intro c hc
    simp only [IntExpr.to_string, List.mem_append] at hc
    rcases hc with (((hc | hc) | hc) | hc) | hc
    · revert c; decide
    · exact IntExpr.to_string_no_nul l hp.1 c hc
    · revert c; decide
    · exact IntExpr.to_string_no_nul r hp.2 c hc
    · revert c; decide
  | .DIV l r, hp => by
    simp only [IntExpr.printable, Bool.and_eq_true] at hp
    intro c hc
    simp only [IntExpr.to_string, List.mem_append] at hc
    rcases hc with (((hc | hc) | hc) | hc) | hc
    · revert c; decide
    · exact IntExpr.to_string_no_nul l hp.1 c hc
    · revert c; decide
    · exact IntExpr.to_string_no_nul r hp.2 c hc
    · revert c; decide
  | .MOD l r, hp => by
    simp only [IntExpr.printable, Bool.and_eq_true] at hp
    intro c hc
    simp only [IntExpr.to_string, List.mem_append] at hc
    rcases hc with (((hc | hc) | hc) | hc) | hc
    · revert c; decide
    · exact IntExpr.to_string_no_nul l hp.1 c hc
    · revert c; decide
    · exact IntExpr.to_string_no_nul r hp.2 c hc
    · revert c; decide
theorem BoolExpr.cond_to_string_no_nul : ∀ (e : BoolExpr), e.printable = true →
    ∀ c ∈ e.to_string, c ≠ Char.ofNat 0
  | .NOT b, hp => by
    simp only [BoolExpr.printable] at hp
    intro c hc
    simp only [BoolExpr.to_string, List.mem_append] at hc
    rcases hc with (hc | hc) | hc
    · revert c; decide
    · exact BoolExpr.cond_to_string_no_nul b hp c hc
    · revert c; decide
  | .AND l r, hp => by
    simp only [BoolExpr.printable, Bool.and_eq_true] at hp
    intro c hc
    simp only [BoolExpr.to_string, List.mem_append] at hc
    rcases hc with (((hc | hc) | hc) | hc) | hc
    · revert c; decide
    · exact BoolExpr.cond_to_string_no_nul l hp.1.2 c hc
    · revert c; decide
    · exact BoolExpr.cond_to_string_no_nul r hp.2 c hc
    · revert c; decide
  | .OR l r, hp => by
    simp only [BoolExpr.printable, Bool.and_eq_true] at hp
    intro c hc
    simp only [BoolExpr.to_string, List.mem_append] at hc
    rcases hc with (((hc | hc) | hc) | hc) | hc
    · revert c; decide
    · exact BoolExpr.cond_to_string_no_nul l hp.1.2 c hc
    · revert c; decide
    · exact BoolExpr.cond_to_string_no_nul r hp.2 c hc
    · revert c; decide
  | .EQ l r, hp => by
    simp only [BoolExpr.printable, Bool.and_eq_true] at hp
    intro c hc
    simp only [BoolExpr.to_string, List.mem_append] at hc
    rcases hc with (((hc | hc) | hc) | hc) | hc
    · revert c; decide
    · exact IntExpr.to_string_no_nul l hp.1 c hc
    · revert c; decide
    · exact IntExpr.to_string_no_nul r hp.2 c hc
    · revert c; decide
  | .LT l r, hp => by
    simp only [BoolExpr.printable, Bool.and_eq_true] at hp
    intro c hc
    simp only [BoolExpr.to_string, List.mem_append] at hc
    rcases hc with (((hc | hc) | hc) | hc) | hc
    · revert c; decide
    · exact IntExpr.to_string_no_nul l hp.1 c hc
    · revert c; decide
    · exact IntExpr.to_string_no_nul r hp.2 c hc
    · revert c; decide
  | .GT l r, hp => by
    simp only [BoolExpr.printable, Bool.and_eq_true] at hp
    intro c hc
    simp only [BoolExpr.to_string, List.mem_append] at hc
    rcases hc with (((hc | hc) | hc) | hc) | hc
    · revert c; decide
    · exact IntExpr.to_string_no_nul l hp.1 c hc
    · revert c; decide
    · exact IntExpr.to_string_no_nul r hp.2 c hc
    · revert c; decide
  | .LTE l r, hp => by
    simp only [BoolExpr.printable, Bool.and_eq_true] at hp
    intro c hc
    simp only [BoolExpr.to_string, List.mem_append] at hc
    rcases hc with (((hc | hc) | hc) | hc) | hc
    · revert c; decide
    · exact IntExpr.to_string_no_nul l hp.1 c hc
    · revert c; decide
    · exact IntExpr.to_string_no_nul r hp.2 c hc
    · revert c; decide
  | .GTE l r, hp => by
    simp only [BoolExpr.printable, Bool.and_eq_true] at hp
    intro c hc
    simp only [BoolExpr.to_string, List.mem_append] at hc
    rcases hc with (((hc | hc) | hc) | hc) | hc
    · revert c; decide
    · exact IntExpr.to_string_no_nul l hp.1 c hc
    · revert c; decide
    · exact IntExpr.to_string_no_nul r hp.2 c hc
    · revert c; decide
  | .NEQ _ _, hp => by simp [BoolExpr.printable] at hp
  | .VAR _, hp => by simp [BoolExpr.printable] at hp
end


theorem consume_str_blank (c : Char) (s t : List Char) (hc : is_delimiter c = false) :
    consume_str (' ' :: (c :: s ++ t)) (c :: s) = .ok (strip t) := by
  have h1 : at_EOF (' ' :: (c :: s ++ t)) = false := at_EOF_cons ' ' _ (by decide)
  have h2 : strip (' ' :: (c :: s ++ t)) = c :: s ++ t := by
    rw [strip_blank]
    exact strip_cons_of_not_delim c _ hc
  have h3 : (c :: s).isPrefixOf (c :: s ++ t) = true := isPrefixOf_append (c :: s) t
  have h4 : (c :: s ++ t).drop (c :: s).length = t := List.drop_left' rfl
  simp only [consume_str, h1, h2, h3, h4]
  rfl

theorem ident_head (id : String) (h : is_identifier id = true) :
    ∃ (c : Char) (t : List Char), id.toList = c :: t ∧ is_delimiter c = false :=
  IntExpr.to_string_head (.VAR id) h

theorem parse_param_printed (id : String) (more : List Char) (h : is_identifier id = true) :
    parse_param ('(' :: (id.toList ++ (' ' :: 'I' :: 'n' :: 't' :: ')' :: more))) =
      .ok (⟨id⟩, strip more) := by
  have h1 : consume_char ('(' :: (id.toList ++ (' ' :: 'I' :: 'n' :: 't' :: ')' :: more))) '(' =
      .ok (id.toList ++ (' ' :: 'I' :: 'n' :: 't' :: ')' :: more)) := by
    rw [consume_char_head '(' _ (by decide) (by decide)]
    rw [(strip_blank_append id.toList _ (ident_head id h)).2]
  have h2 := parse_id_ident id (' ' :: 'I' :: 'n' :: 't' :: ')' :: more) h
    (ends_token_cons ' ' _ (by decide) (by decide))
  have h3 : consume_str (' ' :: 'I' :: 'n' :: 't' :: ')' :: more) "Int".toList =
      .ok (')' :: more) := by
    have := consume_str_blank 'I' ['n', 't'] (')' :: more) (by decide)
    rw [strip_cons_of_not_delim ')' more (by decide)] at this
    exact this
  have h4 : consume_char (')' :: more) ')' = .ok (strip more) :=
    consume_char_head ')' more (by decide) (by decide)
  simp only [parse_param, h1, h2, h3, h4]

theorem params_to_string_cons (p : Param) (ps : List Param) (more : List Char) :
    ∃ sep : List Char,
      params_to_string (p :: ps) ++ more =
        '(' :: (p.id.toList ++ (' ' :: 'I' :: 'n' :: 't' :: ')' :: (sep ++
          (params_to_string ps ++ more)))) ∧
      (sep = [] ∨ sep = [' ']) ∧ (ps = [] → sep = []) := by
  cases ps with
  | nil =>
    refine ⟨[], ?_, Or.inl rfl, fun _ => rfl⟩
    simp only [params_to_string, List.append_assoc]
    rfl
  | cons q rest =>
    refine ⟨[' '], ?_, Or.inr rfl, fun h => by cases h⟩
    simp only [params_to_string, List.append_assoc]
    rfl

theorem params_to_string_head (ps : List Param) (m : List Char) :
    ∃ (c : Char) (t : List Char), params_to_string ps ++ (')' :: m) = c :: t ∧
      is_delimiter c = false := by
  cases ps with
  | nil => exact ⟨')', m, rfl, by decide⟩
  | cons p rest =>
    obtain ⟨sep, h, _⟩ := params_to_string_cons p rest (')' :: m)
    exact ⟨'(', _, h, by decide⟩

theorem parse_params_printed : ∀ (ps : List Param) (fuel : Nat) (m : List Char),
    ps.length < fuel → (∀ p ∈ ps, is_identifier p.id = true) →
      parse_params fuel (params_to_string ps ++ (')' :: m)) = .ok (ps, ')' :: m)
  | [], 0, m, h, _ => by simp at h
  | [], fuel + 1, m, _, _ => by
    simp [parse_params, params_to_string, cur]
  | p :: ps, 0, m, h, _ => by simp at h
  | p :: ps, fuel + 1, m, h, hid => by
    obtain ⟨sep, hform, hsep, _⟩ := params_to_string_cons p ps (')' :: m)
    have hcur : cur (params_to_string (p :: ps) ++ (')' :: m)) ≠ ')' := by
      rw [hform]
      have hc : cur ('(' :: (p.id.toList ++ (' ' :: 'I' :: 'n' :: 't' :: ')' :: (sep ++
          (params_to_string ps ++ (')' :: m)))))) = '(' := rfl
      rw [hc]
      decide
    have hstrip : strip (sep ++ (params_to_string ps ++ (')' :: m))) =
        params_to_string ps ++ (')' :: m) := by
      obtain ⟨c, t, hct, hc⟩ := params_to_string_head ps m
      rcases hsep with e | e
      · rw [e, List.nil_append, hct, strip_cons_of_not_delim c t hc]
      · rw [e, List.singleton_append, strip_blank, hct, strip_cons_of_not_delim c t hc]
    have hparam := parse_param_printed p.id (sep ++ (params_to_string ps ++ (')' :: m)))
      (hid p (List.mem_cons_self _ _))
    rw [hstrip, ← hform] at hparam
    have ih := parse_params_printed ps fuel m (by simpa using h)
      (fun q hq => hid q (List.mem_cons_of_mem _ hq))
    rw [parse_params, if_neg hcur, hparam]
    simp only [ih]

theorem length_le_params_to_string : ∀ ps : List Param,
    ps.length ≤ (params_to_string ps).length
  | [] => by simp
  | [p] => by
    simp only [params_to_string, List.length_append, List.length_singleton]
    have : ("(".toList).length = 1 := rfl
    omega
  | p :: q :: rest => by
    have ih := length_le_params_to_string (q :: rest)
    simp only [params_to_string, List.length_append, List.length_cons] at ih ⊢
    have : ("(".toList).length = 1 := rfl
    omega

theorem no_nul_of_all (l : List Char) (h : l.all (fun c => c != Char.ofNat 0) = true) :
    ∀ c ∈ l, c ≠ Char.ofNat 0 := by
  intro c hc
  have := List.all_eq_true.1 h c hc
  simpa using this

theorem params_to_string_no_nul : ∀ ps : List Param, (∀ p ∈ ps, is_identifier p.id = true) →
    ∀ c ∈ params_to_string ps, c ≠ Char.ofNat 0
  | [], _, c, hc => by simp [params_to_string] at hc
  | [p], hid, c, hc => by
    have hp := ident_no_nul p.id (hid p (List.mem_cons_self _ _))
    simp only [params_to_string, List.mem_append] at hc
    rcases hc with (hc | hc) | hc
    · exact no_nul_of_all _ (by decide) c hc
    · exact hp c hc
    · exact no_nul_of_all _ (by decide) c hc
  | p :: q :: rest, hid, c, hc => by
    have hp := ident_no_nul p.id (hid p (List.mem_cons_self _ _))
    have ih := params_to_string_no_nul (q :: rest) (fun r hr => hid r (List.mem_cons_of_mem _ hr)) c
    simp only [params_to_string, List.mem_append] at hc ih
    rcases hc with (((hc | hc) | hc) | hc) | hc
    · exact no_nul_of_all _ (by decide) c hc
    · exact hp c hc
    · exact no_nul_of_all _ (by decide) c hc
    · exact no_nul_of_all _ (by decide) c hc
    · exact ih hc

theorem FunSynthesized.parse_fun_to_string (f : FunSynthesized) (h : f.printable = true) :
    parse_fun f.to_string = .ok f := by
  obtain ⟨name, params, body⟩ := f
  simp only [FunSynthesized.printable, Bool.and_eq_true, List.all_eq_true] at h
  obtain ⟨⟨hname, hparams⟩, hbody⟩ := h
  have hform : FunSynthesized.to_string ⟨name, params, body⟩ =
      ('(' :: ('d' :: ['e', 'f', 'i', 'n', 'e', '-', 'f', 'u', 'n'] ++ (' ' :: (name.toList
        ++ (' ' :: '(' :: (params_to_string params ++ (')' :: (' ' :: ('B' :: ['o', 'o', 'l']
        ++ (' ' :: (body.to_string ++ [')']))))))))))) := by
    simp only [FunSynthesized.to_string, List.append_assoc]
    rfl
  have hnonul : ∀ c ∈ FunSynthesized.to_string ⟨name, params, body⟩, c ≠ Char.ofNat 0 := by
    intro c hc
    simp only [FunSynthesized.to_string, List.mem_append] at hc
    rcases hc with (((((hc | hc) | hc) | hc) | hc) | hc) | hc
    · exact no_nul_of_all _ (by decide) c hc
    · exact ident_no_nul name hname c hc
    · exact no_nul_of_all _ (by decide) c hc
    · exact params_to_string_no_nul params hparams c hc
    · exact no_nul_of_all _ (by decide) c hc
    · exact BoolExpr.cond_to_string_no_nul body hbody c hc
    · exact no_nul_of_all _ (by decide) c hc
  have htake : (FunSynthesized.to_string ⟨name, params, body⟩).takeWhile
      (fun c => c ≠ Char.ofNat 0) = FunSynthesized.to_string ⟨name, params, body⟩ := by
    rw [List.takeWhile_eq_self_iff]
    intro c hc
    simpa using hnonul c hc
  have hlen := congrArg List.length hform
  simp only [List.length_append, List.length_cons, List.length_nil] at hlen
  have hlp := length_le_params_to_string params
  obtain ⟨hb, hbt⟩ := BoolExpr.to_string_paren body hbody
  have s1 : consume_char (FunSynthesized.to_string ⟨name, params, body⟩) '(' =
      .ok ('d' :: ['e', 'f', 'i', 'n', 'e', '-', 'f', 'u', 'n'] ++ (' ' :: (name.toList
        ++ (' ' :: '(' :: (params_to_string params ++ (')' :: (' ' :: ('B' :: ['o', 'o', 'l']
        ++ (' ' :: (body.to_string ++ [')'])))))))))) := by
    rw [hform, consume_char_head '(' _ (by decide) (by decide)]
    exact congrArg Except.ok (strip_cons_of_not_delim 'd' _ (by decide))
  have s2 : consume_str
      ('d' :: ['e', 'f', 'i', 'n', 'e', '-', 'f', 'u', 'n'] ++ (' ' :: (name.toList
        ++ (' ' :: '(' :: (params_to_string params ++ (')' :: (' ' :: ('B' :: ['o', 'o', 'l']
        ++ (' ' :: (body.to_string ++ [')']))))))))))
      "define-fun".toList =
      .ok (name.toList ++ (' ' :: '(' :: (params_to_string params
        ++ (')' :: (' ' :: ('B' :: ['o', 'o', 'l'] ++ (' ' :: (body.to_string ++ [')'])))))))) := by
    have := consume_str_literal 'd' ['e', 'f', 'i', 'n', 'e', '-', 'f', 'u', 'n']
      (' ' :: (name.toList ++ (' ' :: '(' :: (params_to_string params
        ++ (')' :: (' ' :: ('B' :: ['o', 'o', 'l'] ++ (' ' :: (body.to_string ++ [')']))))))))) (by decide) (by decide)
    rw [(strip_blank_append name.toList _ (ident_head name hname)).1] at this
    exact this
  have s3 := parse_id_ident name
    (' ' :: '(' :: (params_to_string params ++ (')' :: (' ' :: ('B' :: ['o', 'o', 'l']
        ++ (' ' :: (body.to_string ++ [')']))))))) hname
    (ends_token_cons ' ' _ (by decide) (by decide))
  have s4 : consume_char
      (' ' :: '(' :: (params_to_string params ++ (')' :: (' ' :: ('B' :: ['o', 'o', 'l']
        ++ (' ' :: (body.to_string ++ [')']))))))) '(' =
      .ok (params_to_string params ++ (')' :: (' ' :: ('B' :: ['o', 'o', 'l']
        ++ (' ' :: (body.to_string ++ [')'])))))) := by
    rw [consume_char_blank '(' _ (by decide)]
    obtain ⟨c, t, hct, hc⟩ := params_to_string_head params
      (' ' :: ('B' :: ['o', 'o', 'l'] ++ (' ' :: (body.to_string ++ [')']))))
    rw [hct, strip_cons_of_not_delim c t hc]
  have s5 := parse_params_printed params
    ((FunSynthesized.to_string ⟨name, params, body⟩).length + 1)
    (' ' :: ('B' :: ['o', 'o', 'l'] ++ (' ' :: (body.to_string ++ [')'])))) (by omega) hparams
  have s6 : consume_char
      (')' :: (' ' :: ('B' :: ['o', 'o', 'l'] ++ (' ' :: (body.to_string ++ [')']))))) ')' =
      .ok ('B' :: ['o', 'o', 'l'] ++ (' ' :: (body.to_string ++ [')']))) := by
    rw [consume_char_head ')' _ (by decide) (by decide), strip_blank]
    exact congrArg Except.ok (strip_cons_of_not_delim 'B' _ (by decide))
  have s7 : consume_str ('B' :: ['o', 'o', 'l'] ++ (' ' :: (body.to_string ++ [')'])))
      "Bool".toList = .ok (body.to_string ++ [')']) := by
    have := consume_str_literal 'B' ['o', 'o', 'l'] (' ' :: (body.to_string ++ [')']))
      (by decide) (by decide)
    rw [(strip_blank_append body.to_string _ ⟨'(', hb, hbt, by decide⟩).1] at this
    exact this
  have s8 := BoolExpr.parse_printed_cond body hbody
    ((FunSynthesized.to_string ⟨name, params, body⟩).length + 1) [')'] (by omega)
  unfold parse_fun
  simp only [htake, s1, s2, s3, s4, s5, s6, s7, s8]



/-! ## The value of a negated expression -/

theorem BoolExpr.eval_NOT (b : BoolExpr) (args : Args) :
    (BoolExpr.NOT b).eval args =
      (match b.eval args with
       | .ok v => .ok (!v)
       | .error err => .error err) := by
  have h : (BoolExpr.NOT b).eval args =
      (match b.eval args with
       | .error e => .error e
       | .ok v => .ok (!v)) := by
    rw [BoolExpr.eval]
  rw [h]
  generalize b.eval args = x
  cases x <;> rfl

/-- The result of an evaluation with the returned boolean negated; an exception
stays. -/
theorem BoolExpr.eval_not (e : BoolExpr) (args : Args) :
    e.not.eval args =
      (match e.eval args with
       | .ok v => .ok (!v)
       | .error err => .error err) := by
  cases e with
  | NOT b =>
    rw [BoolExpr.eval_NOT]
    simp only [BoolExpr.not]
    generalize b.eval args = x
    cases x with
    | error err => rfl
    | ok v => simp
  | AND l r => exact BoolExpr.eval_NOT _ args
  | OR l r => exact BoolExpr.eval_NOT _ args
  | VAR id => exact BoolExpr.eval_NOT _ args
  | EQ l r =>
    simp only [BoolExpr.not, BoolExpr.eval]
    cases l.eval args with
    | error err => rfl
    | ok a =>
      cases r.eval args with
      | error err => rfl
      | ok b => simp
  | NEQ l r =>
    simp only [BoolExpr.not, BoolExpr.eval]
    cases l.eval args with
    | error err => rfl
    | ok a =>
      cases r.eval args with
      | error err => rfl
      | ok b => simp
  | LT l r =>
    simp only [BoolExpr.not, BoolExpr.eval]
    cases l.eval args with
    | error err => rfl
    | ok a =>
      cases r.eval args with
      | error err => rfl
      | ok b =>
        simp only [ge_iff_le, gt_iff_lt]
        congr 1
        by_cases h : a < b
        · simp [h, not_le.2 h]
        · simp [h, not_lt.1 h]
  | GT l r =>
    simp only [BoolExpr.not, BoolExpr.eval]
    cases l.eval args with
    | error err => rfl
    | ok a =>
      cases r.eval args with
      | error err => rfl
      | ok b =>
        simp only [ge_iff_le, gt_iff_lt]
        congr 1
        by_cases h : b < a
        · simp [h, not_le.2 h]
        · simp [h, not_lt.1 h]
  | LTE l r =>
    simp only [BoolExpr.not, BoolExpr.eval]
    cases l.eval args with
    | error err => rfl
    | ok a =>
      cases r.eval args with
      | error err => rfl
      | ok b =>
        simp only [ge_iff_le, gt_iff_lt]
        congr 1
        by_cases h : a ≤ b
        · simp [h, not_lt.2 h]
        · simp [h, not_le.1 h]
  | GTE l r =>
    simp only [BoolExpr.not, BoolExpr.eval]
    cases l.eval args with
    | error err => rfl
    | ok a =>
      cases r.eval args with
      | error err => rfl
      | ok b =>
        simp only [ge_iff_le, gt_iff_lt]
        congr 1
        by_cases h : b ≤ a
        · simp [h, not_lt.2 h]
        · simp [h, not_le.1 h]

theorem eval_simplify (e : BoolExpr) (args : Args) : (simplify e).eval args = e.eval args := by
  cases e with
  | NOT b =>
    simp only [simplify]
    rw [BoolExpr.eval_not, BoolExpr.eval_NOT]
  | AND l r => rfl
  | OR l r => rfl
  | VAR id => rfl
  | EQ l r => rfl
  | NEQ l r => rfl
  | LT l r => rfl
  | GT l r => rfl
  | LTE l r => rfl
  | GTE l r => rfl

/-- A successful synthesis of a Numeric pair installs a condition and its negation. -/
theorem NumericCondition.pair_of_success (env : SynthEnv) (c : BranchCondition)
    (pos neg : List Input)
    (h : (NumericCondition.synthesize_internal env c true pos neg).1.status = .SUCCESS) :
    ∃ cond cn cs,
      (NumericCondition.synthesize_internal env c true pos neg).1.cond_new = some cn ∧
      (NumericCondition.synthesize_internal env c true pos neg).1.cond_new_sibling = some cs ∧
      cn.body = .Numeric (some cond) ∧ cs.body = .Numeric (some cond.not) := by
  unfold NumericCondition.synthesize_internal synthesize_external at h ⊢
  simp only [] at h ⊢
  split at h
  · simp at h
  · rename_i answer runs heq
    exact ⟨simplify answer,
      { synthesis_budget := c.synthesis_budget, cmat := ConfusionMatrix.zero,
        body := CondBody.Numeric (some (simplify answer)) },
      { synthesis_budget := c.synthesis_budget, cmat := ConfusionMatrix.zero,
        body := CondBody.Numeric (some (simplify answer).not) },
      rfl, by simp, rfl, rfl⟩

/-! ## A literal with a minus sign -/

/-- In front of a digit the minus sign is skipped: the test `is_digit` of the first
branch of `parse_intexpr` reads the sign itself. -/
theorem parse_intexpr_minus (fuel : Nat) (c : Char) (t : List Char) (hc : is_digit c = true) :
    parse_intexpr (fuel + 1) ('-' :: c :: t) = parse_intexpr (fuel + 1) (c :: t) := by
  have hcn := (is_digit_iff c).1 hc
  have hcd : is_delimiter c = false := by
    by_contra hd
    have hd2 : is_delimiter c = true := by simpa using hd
    have := is_delimiter_imp c hd2
    omega
  have hcm : c ≠ '-' := by
    rintro rfl
    revert hcn
    decide
  have hm : is_digit '-' = false := by decide
  rw [parse_intexpr, parse_intexpr]
  simp only [strip_cons_of_not_delim c _ hcd, strip_cons_of_not_delim '-' _ (by decide), cur,
    List.headD_cons, hcm, hm, false_and, and_false, if_false, if_true, List.tail_cons, hc,
    Bool.false_eq_true]

theorem parse_negative_literal (n : Int) (fuel : Nat) (rest : List Char) (h0 : 0 < n)
    (h1 : n < 2 ^ 31) (hrest : ends_token rest) :
    parse_intexpr (fuel + 1) ((IntExpr.CONST (-n)).to_string ++ rest) = .ok (.CONST n, rest) := by
  have hts : (IntExpr.CONST (-n)).to_string = '-' :: int_to_string n := by
    simp only [IntExpr.to_string, int_to_string]
    rw [if_pos (by omega), if_neg (by omega)]
    simp
  obtain ⟨c, t, hct, hc⟩ := toDigits_head n.toNat
  have hn : int_to_string n = c :: t := by
    simp only [int_to_string]
    rw [if_neg (by omega)]
    exact hct
  have := parse_intexpr_const fuel n rest (by omega) h1 hrest
  rw [hts, List.cons_append, hn, List.cons_append, parse_intexpr_minus fuel c _ hc,
    ← List.cons_append, ← hn]
  exact this

/-! ## The halving loop of `accuracy` -/

theorem wrap_long_of_fits (x : Int) (h1 : -2 ^ 63 ≤ x) (h2 : x < 2 ^ 63) : wrap_long x = x := by
  unfold wrap_long
  omega

theorem tdiv_two_bounds (v : Int) (h0 : 0 ≤ v) (b : Int) (hb : v ≤ 2 * b) :
    0 ≤ Int.tdiv v 2 ∧ Int.tdiv v 2 ≤ b := by
  rw [Int.tdiv_eq_ediv h0 (by decide)]
  omega

theorem ConfusionMatrix.halve_spec :
    ∀ (fuel : Nat) (a b c d : Int), 0 ≤ a → 0 ≤ b → 0 ≤ c → 0 ≤ d →
      a ≤ 25000 * 2 ^ fuel → b ≤ 25000 * 2 ^ fuel → c ≤ 25000 * 2 ^ fuel →
      d ≤ 25000 * 2 ^ fuel →
      ∃ a2 b2 c2 d2, ConfusionMatrix.halve fuel a b c d = some (a2, b2, c2, d2) ∧
        0 ≤ a2 ∧ a2 ≤ 25000 ∧ 0 ≤ b2 ∧ b2 ≤ 25000 ∧ 0 ≤ c2 ∧ c2 ≤ 25000 ∧
        0 ≤ d2 ∧ d2 ≤ 25000
  | 0, a, b, c, d, ha, hb, hc, hd, ha2, hb2, hc2, hd2 => by
    refine ⟨a, b, c, d, ?_, ha, by simpa using ha2, hb, by simpa using hb2, hc,
      by simpa using hc2, hd, by simpa using hd2⟩
    simp only [ConfusionMatrix.halve]
    rw [if_neg]
    simp only [pow_zero, mul_one] at ha2 hb2 hc2 hd2
    simp only [gt_iff_lt, not_lt, max_le_iff]
    exact ⟨⟨⟨ha2, hb2⟩, hc2⟩, hd2⟩
  | fuel + 1, a, b, c, d, ha, hb, hc, hd, ha2, hb2, hc2, hd2 => by
    by_cases hmax : max (max (max a b) c) d > 25000
    · have hp : (25000 : Int) * 2 ^ (fuel + 1) = 2 * (25000 * 2 ^ fuel) := by ring
      rw [hp] at ha2 hb2 hc2 hd2
      obtain ⟨a0, a1⟩ := tdiv_two_bounds a ha _ ha2
      obtain ⟨b0, b1⟩ := tdiv_two_bounds b hb _ hb2
      obtain ⟨c0, c1⟩ := tdiv_two_bounds c hc _ hc2
      obtain ⟨d0, d1⟩ := tdiv_two_bounds d hd _ hd2
      obtain ⟨a2, b2, c2, d2, e, h⟩ := ConfusionMatrix.halve_spec fuel _ _ _ _ a0 b0 c0 d0
        a1 b1 c1 d1
      refine ⟨a2, b2, c2, d2, ?_, h⟩
      simp only [ConfusionMatrix.halve]
      rw [if_pos hmax]
      exact e
    · refine ⟨a, b, c, d, ?_, ?_⟩
      · simp only [ConfusionMatrix.halve]
        rw [if_neg hmax]
      · simp only [gt_iff_lt, not_lt, max_le_iff] at hmax
        obtain ⟨⟨⟨h1, h2⟩, h3⟩, h4⟩ := hmax
        exact ⟨ha, h1, hb, h2, hc, h3, hd, h4⟩

theorem mul_bounds (x y bx b2 : Int) (hx0 : 0 ≤ x) (hy0 : 0 ≤ y) (hx : x ≤ bx) (hy : y ≤ b2) :
    0 ≤ x * y ∧ x * y ≤ bx * b2 :=
  ⟨Int.mul_nonneg hx0 hy0, Int.mul_le_mul hx hy hy0 (le_trans hx0 hx)⟩

/-- The integer computations of `accuracy` on counters between 0 and 25000 do not
leave the range of `int64_t`. -/
theorem ConfusionMatrix.no_overflow (a b c d : Int) (ha : 0 ≤ a) (ha2 : a ≤ 25000)
    (hb : 0 ≤ b) (hb2 : b ≤ 25000) (hc : 0 ≤ c) (hc2 : c ≤ 25000) (hd : 0 ≤ d)
    (hd2 : d ≤ 25000) :
    ConfusionMatrix.numerator a b c d = a * b - c * d ∧
    ConfusionMatrix.prod a b c d = (a + c) * (a + d) * (b + c) * (b + d) ∧
    |a * b - c * d| ≤ 625000000 ∧
    0 ≤ (a + c) * (a + d) * (b + c) * (b + d) ∧
    (a + c) * (a + d) * (b + c) * (b + d) ≤ 50000 ^ 4 := by
  obtain ⟨p1, p2⟩ := mul_bounds a b 25000 25000 ha hb ha2 hb2
  obtain ⟨q1, q2⟩ := mul_bounds c d 25000 25000 hc hd hc2 hd2
  obtain ⟨r1, r2⟩ := mul_bounds (a + c) (a + d) 50000 50000 (by omega) (by omega) (by omega)
    (by omega)
  obtain ⟨s1, s2⟩ := mul_bounds ((a + c) * (a + d)) (b + c) (50000 * 50000) 50000 r1
    (by omega) r2 (by omega)
  obtain ⟨t1, t2⟩ := mul_bounds ((a + c) * (a + d) * (b + c)) (b + d)
    (50000 * 50000 * 50000) 50000 s1 (by omega) s2 (by omega)
  norm_num at p2 q2 r2 s2 t2
  refine ⟨?_, ?_, ?_, t1, by norm_num; exact t2⟩
  · unfold ConfusionMatrix.numerator
    rw [wrap_long_of_fits (a * b) (by omega) (by omega),
      wrap_long_of_fits (c * d) (by omega) (by omega),
      wrap_long_of_fits _ (by omega) (by omega)]
  · unfold ConfusionMatrix.prod
    rw [wrap_long_of_fits (a + c) (by omega) (by omega),
      wrap_long_of_fits (a + d) (by omega) (by omega),
      wrap_long_of_fits (b + c) (by omega) (by omega),
      wrap_long_of_fits (b + d) (by omega) (by omega),
      wrap_long_of_fits ((a + c) * (a + d)) (by omega) (by omega),
      wrap_long_of_fits ((a + c) * (a + d) * (b + c)) (by omega) (by omega),
      wrap_long_of_fits _ (by omega) (by omega)]
  · rw [abs_le]
    constructor <;> omega

theorem synthesis_budget_max_pos (env : SynthEnv) (h1 : 1 ≤ env.SYNTHESIS_BUDGET)
    (h2 : env.SYNTHESIS_BUDGET * 1000000000 < 2 ^ 63) : 0 < synthesis_budget_max env := by
  unfold synthesis_budget_max
  have h3 : ((env.SYNTHESIS_BUDGET : Int) * 1000000000) < 2 ^ 63 := by exact_mod_cast h2
  have h4 : (1 : Int) ≤ env.SYNTHESIS_BUDGET := by exact_mod_cast h1
  rw [wrap_long_of_fits _ (by omega) (by omega)]
  omega

theorem synthesize_external_status (env : SynthEnv) (kind : CondType)
    (fill : BoolExpr → CondBody) (c : BranchCondition) (is_pair : Bool)
    (pos neg : List Input) (args_of : Input → Args) :
    (synthesize_external env kind .FAIL fill c is_pair pos neg args_of).1.status ≠ .GIVEUP := by
  unfold synthesize_external
  split <;> simp

theorem synthesize_status (env : SynthEnv) (c : BranchCondition) (is_pair : Bool)
    (pos neg : List Input) (res0 : SynthesisResult) (runs0 : Nat)
    (hs : c.insolvent = false)
    (hi : c.synthesize_internal env is_pair pos neg = .ok (res0, runs0))
    (res : SynthesisResult) (runs : Nat)
    (h : c.synthesize env is_pair pos neg = .ok (res, runs)) : res.status = res0.status := by
  unfold BranchCondition.synthesize at h
  rw [hs, hi] at h
  simp only [Bool.false_eq_true, if_false] at h
  split at h
  · split at h
    · exact absurd h (by simp)
    · split at h
      · split at h
        · exact absurd h (by simp)
        · injection h with h
          injection h with h _
          rw [← h]
      · injection h with h
        injection h with h _
        rw [← h]
  · injection h with h
    injection h with h _
    rw [← h]

theorem NoGiveup.of_numeric (env : SynthEnv) (pos neg : List Input) (c : BranchCondition)
    (e : Option BoolExpr) (hb : c.body = .Numeric e) (hs : 0 < c.synthesis_budget) :
    NoGiveup env pos neg c := by
  intro is_pair res runs h
  have hi : c.synthesize_internal env is_pair pos neg =
      .ok (NumericCondition.synthesize_internal env c is_pair pos neg) := by
    unfold BranchCondition.synthesize_internal
    rw [hb]
  have hins : c.insolvent = false := by
    unfold BranchCondition.insolvent
    simp only [decide_eq_false_iff_not]
    omega
  rw [synthesize_status env c is_pair pos neg _ _ hins hi res runs h]
  exact synthesize_external_status env .CT_NUMERIC (fun e => .Numeric (some e)) c is_pair
    (env.random_sample pos (min (max pos.length neg.length) 50))
    (env.random_sample neg (min (max pos.length neg.length) 50)) (fun i => i.numeric_args)

theorem NoGiveup.of_neglect (env : SynthEnv) (pos neg : List Input) (c : BranchCondition)
    (hb : c.body = .Neglect) (hs : 0 < c.synthesis_budget) :
    NoGiveup env pos neg c := by
  intro is_pair res runs h
  have hi : c.synthesize_internal env is_pair pos neg =
      .ok (NeglectCondition.synthesize_internal c is_pair) := by
    unfold BranchCondition.synthesize_internal
    rw [hb]
  have hins : c.insolvent = false := by
    unfold BranchCondition.insolvent
    simp only [decide_eq_false_iff_not]
    omega
  rw [synthesize_status env c is_pair pos neg _ _ hins hi res runs h]
  simp [NeglectCondition.synthesize_internal]

/-- A pass on a condition that does not give up leaves the loop. -/
theorem Engine.refine_pass_breaks (env : SynthEnv) (pos neg : List Input) (t t1 : RefineTarget)
    (b : Bool) (hn : NoGiveup env pos neg t.cond)
    (h : Engine.refine_pass env pos neg t = .ok (t1, b)) : b = true := by
  unfold Engine.refine_pass at h
  split at h
  · exact absurd h (by simp)
  · rename_i res runs hsyn
    have hg := hn _ res runs hsyn
    split at h
    · split at h
      · split at h
        · exact absurd h (by simp)
        · injection h with h
          injection h with _ h
          exact h.symm
      · injection h with h
        injection h with _ h
        exact h.symm
    · rename_i hst
      exfalso
      cases hres : res.status
      · exact hst (Or.inl hres)
      · exact hst (Or.inr hres)
      · exact hg hres

/-- A pass that does not leave the loop ends with a condition that does not give
up, when the budget of a new condition is positive and the condition of the target
is not a Neglect condition without budget. -/
theorem Engine.refine_pass_again (env : SynthEnv) (pos neg : List Input) (t t1 : RefineTarget)
    (hmax : 0 < synthesis_budget_max env)
    (ht : t.cond.get_condtype = .CT_NEGLECT → 0 < t.cond.synthesis_budget)
    (h : Engine.refine_pass env pos neg t = .ok (t1, false)) :
    NoGiveup env pos neg t1.cond := by
  unfold Engine.refine_pass at h
  split at h
  · exact absurd h (by simp)
  · split at h
    · split at h
      · split at h
        · exact absurd h (by simp)
        · injection h with h
          injection h with _ h
          exact absurd h (by simp)
      · injection h with h
        injection h with _ h
        exact absurd h (by simp)
    · split at h
      · exact absurd h (by simp)
      · rename_i t2 hp
        injection h with h
        injection h with h _
        subst h
        unfold RefineTarget.promote_cond at hp
        have key : NoGiveup env pos neg
            (if t.cond.get_condtype = .CT_ENUM then NumericCondition.new env
              else if t.cond.get_condtype = .CT_NUMERIC then NeglectCondition.new env
              else t.cond) := by
          by_cases h1 : t.cond.get_condtype = .CT_ENUM
          · rw [if_pos h1]
            exact NoGiveup.of_numeric env pos neg _ none rfl hmax
          · rw [if_neg h1]
            by_cases h2 : t.cond.get_condtype = .CT_NUMERIC
            · rw [if_pos h2]
              exact NoGiveup.of_neglect env pos neg _ rfl hmax
            · rw [if_neg h2]
              have h3 : t.cond.get_condtype = .CT_NEGLECT := by
                cases hc : t.cond.get_condtype
                · exact absurd hc h1
                · exact absurd hc h2
                · rfl
              have hbody : t.cond.body = .Neglect := by
                unfold BranchCondition.get_condtype at h3
                split at h3
                · exact absurd h3 (by simp)
                · exact absurd h3 (by simp)
                · assumption
              exact NoGiveup.of_neglect env pos neg _ hbody (ht h3)
        simp only [] at hp
        split at hp
        · injection hp with hp
          rw [← hp]
          exact key
        · split at hp
          · injection hp with hp
            rw [← hp]
            exact key
          · exact absurd hp (by simp)

/-- A pass does not end with the fault of the bound. -/
theorem Engine.refine_pass_ne_fuel (env : SynthEnv) (pos neg : List Input) (t : RefineTarget) :
    Engine.refine_pass env pos neg t ≠ .error .fuel := by
  unfold Engine.refine_pass
  split
  · simp
  · split
    · split
      · split
        · rename_i e1 htn
          intro hp
          injection hp with hp
          rw [hp] at htn
          unfold RefineTarget.take_new at htn
          revert htn
          split
          · simp
          · split
            · simp
            · split <;> simp
        · simp
      · simp
    · split
      · rename_i e1 hpr
        intro hp
        injection hp with hp
        rw [hp] at hpr
        unfold RefineTarget.promote_cond at hpr
        revert hpr
        simp only []
        split
        · simp
        · split <;> simp
      · simp

/-- The loop on a condition that does not give up makes one call of `synthesize`. -/
theorem Engine.refine_loop_one (env : SynthEnv) (pos neg : List Input) (t : RefineTarget)
    (hn : NoGiveup env pos neg t.cond) (fuel calls : Nat) :
    Engine.refine_loop env pos neg (fuel + 1) t calls =
        Engine.refine_loop env pos neg 1 t calls ∧
      Engine.refine_loop env pos neg 1 t calls ≠ .error .fuel ∧
      ∀ t1 n, Engine.refine_loop env pos neg 1 t calls = .ok (t1, n) → n = calls + 1 := by
  unfold Engine.refine_loop
  cases hp : Engine.refine_pass env pos neg t with
  | error e =>
    refine ⟨rfl, ?_, ?_⟩
    · intro hc
      injection hc with hc
      rw [hc] at hp
      exact Engine.refine_pass_ne_fuel env pos neg t hp
    · intro t1 n hc
      exact absurd hc (by simp)
  | ok r =>
    obtain ⟨t1, b⟩ := r
    have hb := Engine.refine_pass_breaks env pos neg t t1 b hn hp
    subst hb
    refine ⟨rfl, by simp, ?_⟩
    intro t2 n hc
    injection hc with hc
    injection hc with _ hc
    exact hc.symm

theorem BranchCondition.classify_pos_neglect (env : SynthEnv) (c : BranchCondition)
    (hb : c.body = .Neglect) (l : List Input) :
    ∀ tp fn, c.classify_pos env l tp fn = .ok (tp + l.length, fn) := by
  induction l with
  | nil => intro tp fn; simp [BranchCondition.classify_pos]
  | cons i rest ih =>
    intro tp fn
    have he : c.eval env i true = .ok true := by
      unfold BranchCondition.eval
      rw [hb]
    unfold BranchCondition.classify_pos
    rw [he]
    simp only []
    rw [ih]
    simp only [List.length_cons, Nat.cast_add, Nat.cast_one]
    congr 2
    omega

theorem BranchCondition.classify_neg_neglect (env : SynthEnv) (c : BranchCondition)
    (hb : c.body = .Neglect) (l : List Input) :
    ∀ tn fp, c.classify_neg env l tn fp = .ok (tn + l.length, fp) := by
  induction l with
  | nil => intro tn fp; simp [BranchCondition.classify_neg]
  | cons i rest ih =>
    intro tn fp
    have he : c.eval env i false = .ok true := by
      unfold BranchCondition.eval
      rw [hb]
    unfold BranchCondition.classify_neg
    rw [he]
    simp only []
    rw [ih]
    simp only [List.length_cons, Nat.cast_add, Nat.cast_one]
    congr 2
    omega

theorem classify_new_neglect (env : SynthEnv) (c : BranchCondition) (hb : c.body = .Neglect)
    (pos neg : List Input) :
    ∃ c2, classify_new env (some c) pos neg = .ok (some c2) := by
  unfold classify_new BranchCondition.classify
  simp only []
  rw [BranchCondition.classify_pos_neglect env c hb, BranchCondition.classify_neg_neglect env c hb]
  exact ⟨_, rfl⟩

/-- A Neglect condition with budget is synthesized with success. -/
theorem NeglectCondition.synthesize_success (env : SynthEnv) (c : BranchCondition)
    (hb : c.body = .Neglect) (hs : 0 < c.synthesis_budget) (is_pair : Bool)
    (pos neg : List Input) :
    ∃ res runs, c.synthesize env is_pair pos neg = .ok (res, runs) ∧ res.status = .SUCCESS := by
  have hins : c.insolvent = false := by
    unfold BranchCondition.insolvent
    simp only [decide_eq_false_iff_not]
    omega
  have hi : c.synthesize_internal env is_pair pos neg =
      .ok (NeglectCondition.synthesize_internal c is_pair) := by
    unfold BranchCondition.synthesize_internal
    rw [hb]
  unfold BranchCondition.synthesize
  rw [hins, hi]
  unfold NeglectCondition.synthesize_internal
  simp only [Bool.false_eq_true, if_false, if_true]
  obtain ⟨c2, h2⟩ := classify_new_neglect env
    { synthesis_budget := c.synthesis_budget, cmat := ConfusionMatrix.zero, body := .Neglect }
    rfl pos neg
  rw [h2]
  simp only []
  cases is_pair with
  | false => exact ⟨_, _, rfl, rfl⟩
  | true =>
    obtain ⟨c3, h3⟩ := classify_new_neglect env
      { synthesis_budget := c.synthesis_budget, cmat := ConfusionMatrix.zero, body := .Neglect }
      rfl neg pos
    simp only [if_true]
    rw [h3]
    exact ⟨_, _, rfl, rfl⟩

theorem BranchCondition.body_of_condtype_neglect (c : BranchCondition)
    (h : c.get_condtype = .CT_NEGLECT) : c.body = .Neglect := by
  unfold BranchCondition.get_condtype at h
  split at h
  · exact absurd h (by simp)
  · exact absurd h (by simp)
  · assumption

theorem BranchCondition.body_of_condtype_numeric (c : BranchCondition)
    (h : c.get_condtype = .CT_NUMERIC) : ∃ e, c.body = .Numeric e := by
  unfold BranchCondition.get_condtype at h
  split at h
  · exact absurd h (by simp)
  · exact ⟨_, by assumption⟩
  · exact absurd h (by simp)

/-- The loop on a single target with a Neglect condition without budget uses up every
bound. -/
theorem Engine.refine_loop_neglect_insolvent (env : SynthEnv) (pos neg : List Input)
    (c : BranchCondition) (hb : c.body = .Neglect) (hs : c.synthesis_budget ≤ 0) :
    ∀ fuel calls, Engine.refine_loop env pos neg fuel (single_target c) calls = .error .fuel := by
  have hins : c.insolvent = true := by
    unfold BranchCondition.insolvent
    simp only [decide_eq_true_eq]
    exact hs
  have hty : c.get_condtype = .CT_NEGLECT := by
    unfold BranchCondition.get_condtype
    rw [hb]
  have hp : Engine.refine_pass env pos neg (single_target c) = .ok (single_target c, false) := by
    unfold Engine.refine_pass BranchCondition.synthesize
    simp only [single_target, hins, if_true]
    simp [RefineTarget.promote_cond, hty]
  intro fuel
  induction fuel with
  | zero => intro calls; rfl
  | succ n ih =>
    intro calls
    unfold Engine.refine_loop
    rw [hp]
    exact ih _

/-- The loop on a single target with a Numeric condition without budget uses up every
bound when a new condition has no budget either. -/
theorem Engine.refine_loop_numeric_insolvent (env : SynthEnv) (pos neg : List Input)
    (c : BranchCondition) (e : Option BoolExpr) (hb : c.body = .Numeric e)
    (hs : c.synthesis_budget ≤ 0) (hmax : synthesis_budget_max env ≤ 0) :
    ∀ fuel calls, Engine.refine_loop env pos neg fuel (single_target c) calls = .error .fuel := by
  have hins : c.insolvent = true := by
    unfold BranchCondition.insolvent
    simp only [decide_eq_true_eq]
    exact hs
  have hty : c.get_condtype = .CT_NUMERIC := by
    unfold BranchCondition.get_condtype
    rw [hb]
  have hp : Engine.refine_pass env pos neg (single_target c) =
      .ok (single_target (NeglectCondition.new env), false) := by
    unfold Engine.refine_pass BranchCondition.synthesize
    simp only [single_target, hins, if_true]
    simp [RefineTarget.promote_cond, hty]
  intro fuel calls
  cases fuel with
  | zero => rfl
  | succ n =>
    unfold Engine.refine_loop
    rw [hp]
    exact Engine.refine_loop_neglect_insolvent env pos neg (NeglectCondition.new env) rfl hmax n _

/-! # Edit scripts in the shadows of `CheckDiff` -/

/-! ## Parts of vectors -/

theorem getElem?_span {α : Type} (v : List α) (s n i : Nat) :
    (span v s n)[i]? = if i < n then v[s + i]? else none := by
  unfold span
  rw [List.getElem?_take]
  split
  · rw [List.getElem?_drop]
  · rfl

theorem length_span {α : Type} (v : List α) (s n : Nat) (h : s + n ≤ v.length) :
    (span v s n).length = n := by
  unfold span
  rw [List.length_take, List.length_drop]
  omega

theorem span_add {α : Type} (v : List α) (s a b : Nat) :
    span v s (a + b) = span v s a ++ span v (s + a) b := by
  unfold span
  rw [List.take_add, List.drop_drop]

theorem span_eq_span {α : Type} (v w : List α) (s t n : Nat)
    (h : ∀ j, j < n → v[s + j]? = w[t + j]?) : span v s n = span w t n := by
  apply List.ext_getElem?
  intro i
  rw [getElem?_span, getElem?_span]
  split
  · exact h i (by assumption)
  · rfl

theorem span_full {α : Type} (v : List α) : span v 0 v.length = v := by
  simp [span]

theorem unshadowed_append (l1 l2 : ExecPath) (e1 e2 : List Bool) (h : l1.length = e1.length) :
    unshadowed (l1 ++ l2) (e1 ++ e2) = unshadowed l1 e1 ++ unshadowed l2 e2 := by
  unfold unshadowed
  rw [List.zip_append h, List.filter_append, List.map_append]

theorem unshadowed_replicate_false (l : ExecPath) :
    unshadowed l (List.replicate l.length false) = l := by
  induction l with
  | nil => rfl
  | cons a l ih =>
    simp only [unshadowed, List.length_cons, List.replicate_succ, List.zip_cons_cons] at ih ⊢
    simp only [List.filter_cons, Bool.not_false, if_true, List.map_cons]
    rw [ih]

theorem unshadowed_replicate_true (l : ExecPath) (n : Nat) :
    unshadowed l (List.replicate n true) = [] := by
  induction l generalizing n with
  | nil => simp [unshadowed]
  | cons a l ih =>
    cases n with
    | zero => simp [unshadowed]
    | succ n =>
      have := ih n
      simp only [unshadowed, List.replicate_succ, List.zip_cons_cons] at this ⊢
      simp only [List.filter_cons, Bool.not_true, Bool.false_eq_true, if_false]
      exact this

theorem unshadowed_inserted (l : ExecPath) (c : PCID) (p : Nat) (hp : p ≤ l.length) :
    unshadowed (l.take p ++ c :: l.drop p) ((List.replicate (l.length + 1) false).set p true) =
      l := by
  have e : (List.replicate (l.length + 1) false).set p true =
      List.replicate p false ++ true :: List.replicate (l.length - p) false := by
    apply List.ext_getElem?
    intro i
    rw [List.getElem?_set]
    by_cases h1 : p = i
    · subst h1
      rw [if_pos rfl, List.length_replicate, if_pos (by omega),
        List.getElem?_append_right (by simp)]
      simp
    · rw [if_neg h1]
      by_cases h2 : i < p
      · rw [List.getElem?_append_left (by simpa using h2)]
        simp [List.getElem?_replicate, h2]
        omega
      · rw [List.getElem?_append_right (by simpa using (by omega : p ≤ i))]
        simp only [List.length_replicate]
        obtain ⟨m, hm⟩ : ∃ m, i - p = m + 1 := ⟨i - p - 1, by omega⟩
        rw [hm]
        simp only [List.getElem?_cons_succ, List.getElem?_replicate]
        by_cases h3 : i < l.length + 1
        · rw [if_pos h3, if_pos (by omega)]
        · rw [if_neg h3, if_neg (by omega)]
  rw [e, unshadowed_append _ _ _ _ (by simp [hp])]
  have e2 : List.replicate p false = List.replicate (l.take p).length false := by
    simp [hp]
  have e3 : List.replicate (l.length - p) false = List.replicate (l.drop p).length false := by
    simp
  rw [e2, unshadowed_replicate_false, e3]
  have : unshadowed (c :: l.drop p) (true :: List.replicate (l.drop p).length false) =
      l.drop p := by
    have h := unshadowed_replicate_false (l.drop p)
    simp only [unshadowed, List.zip_cons_cons, List.filter_cons, Bool.not_true,
      Bool.false_eq_true, if_false] at h ⊢
    exact h
  rw [this, List.take_append_drop]

theorem count_le_succ_of_eq_except (v : List Bool) :
    ∀ (w : List Bool) (k : Nat), v.length = w.length → (∀ j, j ≠ k → w[j]? = v[j]?) →
      w.count true ≤ v.count true + 1 := by
  induction v with
  | nil =>
    intro w k hlen _
    have : w = [] := List.eq_nil_of_length_eq_zero hlen.symm
    simp [this]
  | cons a v ih =>
    intro w k hlen h
    cases w with
    | nil => simp
    | cons b w =>
      cases k with
      | zero =>
        have hw : w = v := by
          apply List.ext_getElem?
          intro j
          have := h (j + 1) (by omega)
          simpa using this
        rw [hw]
        simp only [List.count_cons]
        split <;> split <;> omega
      | succ k =>
        have hab : b = a := by
          have := h 0 (by omega)
          simpa using this
        have := ih w k (by simpa using hlen) (fun j hj => by
          have := h (j + 1) (by omega)
          simpa using this)
        rw [hab]
        simp only [List.count_cons]
        omega

theorem count_span_set_le (s : List Bool) (a n i : Nat) :
    (span (s.set i true) a n).count true ≤ (span s a n).count true + 1 := by
  apply count_le_succ_of_eq_except _ _ (if a ≤ i then i - a else n)
  · unfold span
    simp only [List.length_take, List.length_drop, List.length_set]
  · intro j hj
    rw [getElem?_span, getElem?_span]
    split
    · rw [List.getElem?_set_ne]
      intro e
      apply hj
      subst e
      rw [if_pos (by omega)]
      omega
    · rfl

theorem count_span_false (s : List Bool) (a n : Nat)
    (h : ∀ j, a ≤ j → j < a + n → s[j]? = some false) : (span s a n).count true = 0 := by
  rw [List.count_eq_zero]
  intro hmem
  obtain ⟨i, hi⟩ := List.mem_iff_getElem?.mp hmem
  rw [getElem?_span] at hi
  split at hi
  · rw [h (a + i) (by omega) (by omega)] at hi
    simp at hi
  · simp at hi

theorem count_le_length_span (s : List Bool) (a n : Nat) : (span s a n).count true ≤ n := by
  refine le_trans (List.count_le_length _ _) ?_
  unfold span
  rw [List.length_take]
  omega

/-! ## Every step of a snake follows a successful comparison -/

theorem snake_all_match (left right : ExecPath) (ls N rs M : Nat) (back : Bool) :
    ∀ (fuel : Nat) (x y x1 y1 : Int), snake left right ls N rs M back fuel x y = .ok (x1, y1) →
      ∀ j : Int, x ≤ j → j < x1 → snake_match left right ls N rs M back j (y + (j - x)) := by
  intro fuel
  induction fuel with
  | zero =>
    intro x y x1 y1 h j h1 h2
    unfold snake at h
    split at h
    · exact absurd h (by simp)
    · injection h with h
      injection h with h _
      omega
  | succ fuel ih =>
    intro x y x1 y1 h j h1 h2
    unfold snake at h
    split at h
    · cases ha : at_index left (if back = true then (ls : Int) + (N - x - 1) else ls + x) with
      | error e =>
        rw [ha] at h
        exact absurd h (by simp [bind, Except.bind])
      | ok a =>
        cases hb : at_index right (if back = true then (rs : Int) + (M - y - 1) else rs + y) with
        | error e =>
          rw [ha, hb] at h
          exact absurd h (by simp [bind, Except.bind])
        | ok b =>
          rw [ha, hb] at h
          simp only [Except.bind_ok_eq] at h
          split at h
          · rename_i hab
            by_cases hj : j = x
            · subst hj
              refine ⟨a, ?_, ?_⟩
              · exact ha
              · rw [show y + (j - j) = y by omega, hb, hab]
            · have := ih (x + 1) (y + 1) x1 y1 h j (by omega) h2
              rw [show y + 1 + (j - (x + 1)) = y + (j - x) by omega] at this
              exact this
          · injection h with h
            injection h with h _
            omega
    · injection h with h
      injection h with h _
      omega

theorem snake_end_all_match (left right : ExecPath) (ls N rs M : Nat) (back : Bool)
    (hl : ls + N ≤ left.length) (hr : rs + M ≤ right.length) (x k : Int) (hx : 0 ≤ x)
    (hy : 0 ≤ x - k) (j : Int) (h1 : x ≤ j)
    (h2 : j < snake_end left right ls N rs M back x k) :
    snake_match left right ls N rs M back j (j - k) := by
  have hs := (snake_end_spec left right ls N rs M back hl hr x k hx hy).1
  have := snake_all_match left right ls N rs M back _ _ _ _ _ hs j h1 h2
  rw [show x - k + (j - x) = j - k by omega] at this
  exact this

theorem forward_match_getElem (left right : ExecPath) (ls N rs M : Nat) (x y : Nat)
    (h : snake_match left right ls N rs M false (x : Int) (y : Int)) :
    left[ls + x]? = right[rs + y]? := by
  obtain ⟨a, h1, h2⟩ := h
  simp only [Bool.false_eq_true, if_false] at h1 h2
  rw [← Nat.cast_add] at h1 h2
  rw [(at_index_eq_getElem? left _ a).mp h1, (at_index_eq_getElem? right _ a).mp h2]

theorem backward_match_getElem (left right : ExecPath) (ls N rs M : Nat) (x y : Nat)
    (hx : x < N) (hy : y < M)
    (h : snake_match left right ls N rs M true (x : Int) (y : Int)) :
    left[ls + (N - 1 - x)]? = right[rs + (M - 1 - y)]? := by
  obtain ⟨a, h1, h2⟩ := h
  simp only [if_true] at h1 h2
  have e1 : (ls : Int) + ((N : Int) - x - 1) = ((ls + (N - 1 - x) : Nat) : Int) := by omega
  have e2 : (rs : Int) + ((M : Int) - y - 1) = ((rs + (M - 1 - y) : Nat) : Int) := by omega
  rw [e1] at h1
  rw [e2] at h2
  rw [(at_index_eq_getElem? left _ a).mp h1, (at_index_eq_getElem? right _ a).mp h2]

theorem forward_match_of_getElem (left right : ExecPath) (ls N rs M : Nat) (x y : Nat)
    (hx : ls + x < left.length) (h : left[ls + x]? = right[rs + y]?) :
    snake_match left right ls N rs M false (x : Int) (y : Int) := by
  refine ⟨left.get ⟨ls + x, hx⟩, ?_, ?_⟩
  · simp only [Bool.false_eq_true, if_false]
    rw [← Nat.cast_add]
    exact at_index_nat left _ hx
  · simp only [Bool.false_eq_true, if_false]
    rw [← Nat.cast_add, at_index_eq_getElem?, ← h, List.getElem?_eq_getElem hx]
    rfl

theorem backward_match_of_getElem (left right : ExecPath) (ls N rs M : Nat) (x y : Nat)
    (hxN : x < N) (hyM : y < M) (hl : ls + N ≤ left.length)
    (h : left[ls + (N - 1 - x)]? = right[rs + (M - 1 - y)]?) :
    snake_match left right ls N rs M true (x : Int) (y : Int) := by
  have hx : ls + (N - 1 - x) < left.length := by omega
  have e1 : (ls : Int) + ((N : Int) - x - 1) = ((ls + (N - 1 - x) : Nat) : Int) := by omega
  have e2 : (rs : Int) + ((M : Int) - y - 1) = ((rs + (M - 1 - y) : Nat) : Int) := by omega
  refine ⟨left.get ⟨ls + (N - 1 - x), hx⟩, ?_, ?_⟩
  · simp only [if_true]
    rw [e1]
    exact at_index_nat left _ hx
  · simp only [if_true]
    rw [e2, at_index_eq_getElem?, ← h, List.getElem?_eq_getElem hx]
    rfl

/-! ## The writes of the branch `d == 1` -/

theorem set_shadow_eq (shadow : List Bool) (i : Nat) (h : i < shadow.length) :
    set_shadow shadow i = .ok (shadow.set i true) := by
  simp [set_shadow, h]

/-- The loop over the first positions marks the first position at which the two
parts differ, if there is one. -/
theorem shadow_first_diff_exact (a b : ExecPath) (a_start b_start size p : Nat)
    (ha : a_start + size ≤ a.length) (hb : b_start + size ≤ b.length) (hpn : p ≤ size)
    (hd : p < size → a[a_start + p]? ≠ b[b_start + p]?) :
    ∀ (fuel i : Nat) (shadow : List Bool), shadow.length = a.length → size ≤ i + fuel →
      i ≤ p → (∀ j, i ≤ j → j < p → a[a_start + j]? = b[b_start + j]?) →
      shadow_first_diff a b a_start b_start size fuel i shadow =
        .ok (if p < size then shadow.set (a_start + p) true else shadow)
  | 0, i, shadow, _, hf, hip, _ => by
    simp only [shadow_first_diff]
    rw [if_neg (by omega), if_neg (by omega)]
  | fuel + 1, i, shadow, hlen, hf, hip, hm => by
    by_cases hi : i < size
    · have h1 : a_start + i < a.length := by omega
      have h2 : b_start + i < b.length := by omega
      simp only [shadow_first_diff]
      rw [if_pos hi, at_index_add a a_start i h1, at_index_add b b_start i h2]
      simp only [Except.bind_ok_eq]
      by_cases hne : a.get ⟨a_start + i, h1⟩ ≠ b.get ⟨b_start + i, h2⟩
      · rw [if_pos hne]
        have hpi : p = i := by
          by_contra hc
          have := hm i (le_refl _) (by omega)
          rw [List.getElem?_eq_getElem h1, List.getElem?_eq_getElem h2] at this
          exact hne (Option.some.inj this)
        subst hpi
        rw [if_pos hi]
        exact set_shadow_eq _ _ (by omega)
      · rw [if_neg hne]
        have hpi : p ≠ i := by
          intro hc
          subst hc
          apply hd hi
          rw [List.getElem?_eq_getElem h1, List.getElem?_eq_getElem h2]
          push_neg at hne
          exact congrArg some hne
        exact shadow_first_diff_exact a b a_start b_start size p ha hb hpn hd fuel (i + 1)
          shadow hlen (by omega) (by omega) (fun j h3 h4 => hm j (by omega) h4)
    · simp only [shadow_first_diff]
      rw [if_neg hi, if_neg (by omega)]

/-! ## The round in which the middle snake is found -/

/-- The tuple that `find_middle_snake_myers_original` returns for two non-empty parts
is the tuple of the first overlap test that succeeds. -/
theorem find_middle_snake_hit (left right : ExecPath) (ls N rs M : Nat)
    (hl : ls + N ≤ left.length) (hr : rs + M ≤ right.length) (hN : 1 ≤ N) (hM : 1 ≤ M) :
    ∃ (t : MiddleSnake) (d1 : Nat) (k : Int),
      find_middle_snake_myers_original left ls N right rs M = .ok t ∧
      InRow d1 k ∧ NoHit left right ls N rs M d1 ∧
      ((forward_hit left right ls N rs M d1 k ∧
          t = ⟨2 * (d1 : Int) - 1,
            diag_start (search_row left right ls N rs M false d1) d1 k,
            diag_start (search_row left right ls N rs M false d1) d1 k - k,
            search_row left right ls N rs M false (d1 + 1) k,
            search_row left right ls N rs M false (d1 + 1) k - k⟩) ∨
        (backward_hit left right ls N rs M d1 k ∧
          t = ⟨2 * (d1 : Int),
            (N : Int) - search_row left right ls N rs M true (d1 + 1) k,
            (M : Int) - (search_row left right ls N rs M true (d1 + 1) k - k),
            (N : Int) - diag_start (search_row left right ls N rs M true d1) d1 k,
            (M : Int) - (diag_start (search_row left right ls N rs M true d1) d1 k - k)⟩)) := by
  obtain ⟨d_max, hdm⟩ : ∃ d_max : Nat,
      d_max = if (N + M) % 2 = 0 then (N + M) / 2 else (N + M) / 2 + 1 := ⟨_, rfl⟩
  have hw : 2 * ((N : Int) + M - 1) < ((N + M) * 2 : Nat) := by push_cast; omega
  have hset : ∀ g : Nat → Int → Int, (∀ k, g 0 k = 0) →
      ∃ v, (NegIndexable.create ((N + M) * 2)).set 1 0 = .ok v ∧
        v.vec.length = 2 * (N + M) ∧ HoldsPrev v g 0 := by
    intro g hg
    obtain ⟨v, g1, g2, g3, _⟩ := @NegIndexable.set_spec (NegIndexable.create ((N + M) * 2))
      ((N : Int) + M - 1) 1 0 (by simpa [NegIndexable.create] using hw) (by omega) (by omega)
      (le_refl _)
    refine ⟨v, g1, ?_, ?_⟩
    · rw [g2]
      simp [NegIndexable.create]
      omega
    · intro k hk
      unfold InPrev at hk
      rcases hk with ⟨_, hk⟩ | ⟨hk, _⟩
      · rw [hk, hg]
        exact g3
      · omega
  obtain ⟨vf, f1, f2, f3⟩ := hset (search_row left right ls N rs M false) (fun _ => rfl)
  obtain ⟨vb, b1, b2, b3⟩ := hset (search_row left right ls N rs M true) (fun _ => rfl)
  obtain ⟨t, d1, k, e1, hk, hno, hcase⟩ := middle_snake_rounds_spec left right ls N rs M hl hr
    hN hM d_max hdm (d_max + 1) 0 vf vb (by omega) f2 b2 f3 b3
    (by intro d1 hd1; omega)
  have hdcast : (if (N + M) % 2 = 0 then (((N + M : Nat) : Int)) / 2
      else (((N + M : Nat) : Int)) / 2 + 1) = (d_max : Int) := by
    rw [hdm]
    split <;> push_cast <;> omega
  refine ⟨t, d1, k, ?_, hk, hno, hcase⟩
  unfold find_middle_snake_myers_original
  simp only []
  rw [if_pos (by omega)]
  have hvv : vb = vf := by
    have h2 := b1.symm.trans f1
    injection h2
  rw [f1]
  simp only []
  rw [hdcast]
  rw [hvv] at e1
  simp only [Int.toNat_ofNat, Nat.cast_zero] at e1 ⊢
  exact e1

/-- The snake of the forward search from the start of the two parts: it covers a
common prefix and stops at a difference or at the end of a part. -/
theorem head_snake_spec (left right : ExecPath) (ls N rs M : Nat)
    (hl : ls + N ≤ left.length) (hr : rs + M ≤ right.length) :
    ∃ p : Nat, snake_end left right ls N rs M false 0 0 = (p : Int) ∧ p ≤ N ∧ p ≤ M ∧
      (∀ j, j < p → left[ls + j]? = right[rs + j]?) ∧
      (p < N → p < M → left[ls + p]? ≠ right[rs + p]?) := by
  have hs := snake_end_spec left right ls N rs M false hl hr 0 0 (le_refl _) (by omega)
  have hge := snake_end_ge left right ls N rs M false 0 0
  obtain ⟨p, hp⟩ := Int.eq_ofNat_of_zero_le hge
  obtain ⟨_, h2, h3, h4, _, h6⟩ := hs
  rw [hp] at h2 h3 h4 h6
  simp only [sub_zero] at h3 h4 h6 h2
  refine ⟨p, hp, ?_, ?_, ?_, ?_⟩
  · by_cases h : (0 : Int) < N
    · have := h3 h
      omega
    · have := h2 (by omega)
      omega
  · by_cases h : (0 : Int) < M
    · have := h4 h
      omega
    · have := h2 (by omega)
      omega
  · intro j hj
    have := snake_end_all_match left right ls N rs M false hl hr 0 0 (le_refl _) (by omega)
      (j : Int) (by omega) (by rw [hp]; exact_mod_cast hj)
    rw [sub_zero] at this
    exact forward_match_getElem left right ls N rs M j j this
  · intro h1 h2' he
    exact h6 (by exact_mod_cast h1) (by exact_mod_cast h2')
      (forward_match_of_getElem left right ls N rs M p p (by omega) he)

/-- The snake of the backward search from the end of the two parts: it covers a common
suffix. -/
theorem tail_snake_spec (left right : ExecPath) (ls N rs M : Nat)
    (hl : ls + N ≤ left.length) (hr : rs + M ≤ right.length) :
    ∃ q : Nat, snake_end left right ls N rs M true 0 0 = (q : Int) ∧ q ≤ N ∧ q ≤ M ∧
      (∀ j, j < q → left[ls + (N - 1 - j)]? = right[rs + (M - 1 - j)]?) := by
  have hs := snake_end_spec left right ls N rs M true hl hr 0 0 (le_refl _) (by omega)
  have hge := snake_end_ge left right ls N rs M true 0 0
  obtain ⟨q, hq⟩ := Int.eq_ofNat_of_zero_le hge
  obtain ⟨_, h2, h3, h4, _, _⟩ := hs
  rw [hq] at h2 h3 h4
  simp only [sub_zero] at h3 h4 h2
  have hqN : q ≤ N := by
    by_cases h : (0 : Int) < N
    · have := h3 h
      omega
    · have := h2 (by omega)
      omega
  have hqM : q ≤ M := by
    by_cases h : (0 : Int) < M
    · have := h4 h
      omega
    · have := h2 (by omega)
      omega
  refine ⟨q, hq, hqN, hqM, ?_⟩
  intro j hj
  have := snake_end_all_match left right ls N rs M true hl hr 0 0 (le_refl _) (by omega)
    (j : Int) (by omega) (by rw [hq]; exact_mod_cast hj)
  rw [sub_zero] at this
  exact backward_match_getElem left right ls N rs M j j (by omega) (by omega) this

theorem search_row_one_zero (left right : ExecPath) (ls N rs M : Nat) (back : Bool) :
    search_row left right ls N rs M back 1 0 = snake_end left right ls N rs M back 0 0 := by
  show search_row left right ls N rs M back (0 + 1) 0 = _
  rw [search_row_succ]
  simp [diag_start, search_row]

theorem inRow_zero (k : Int) (h : InRow 0 k) : k = 0 := by
  unfold InRow at h
  omega

theorem inRow_one (k : Int) (h : InRow 1 k) : k = -1 ∨ k = 1 := by
  unfold InRow at h
  omega

theorem no_forward_hit_zero (left right : ExecPath) (ls N rs M : Nat) (k : Int) :
    ¬ forward_hit left right ls N rs M 0 k := by
  intro h
  unfold forward_hit at h
  omega

/-- The parts of the two vectors that the returned snake covers are equal. -/
theorem find_middle_snake_match (left right : ExecPath) (ls N rs M : Nat)
    (hl : ls + N ≤ left.length) (hr : rs + M ≤ right.length) (hN : 1 ≤ N) (hM : 1 ≤ M)
    (t : MiddleSnake) (ht : find_middle_snake_myers_original left ls N right rs M = .ok t) :
    t.u - t.x = t.v - t.y ∧
    ∀ j : Nat, t.x ≤ j → (j : Int) < t.u →
      left[ls + j]? = right[rs + (t.y + (j - t.x)).toNat]? := by
  obtain ⟨t2, e2, _, h0x, hxu, huN, h0y, hyv, hvM, _, _⟩ :=
    find_middle_snake_spec left right ls N rs M hl hr hN hM
  obtain ⟨t3, d1, k, e3, hk, hno, hcase⟩ := find_middle_snake_hit left right ls N rs M hl hr hN hM
  have e23 : t2 = t := by
    rw [ht] at e2
    injection e2 with e2
    exact e2.symm
  have e33 : t3 = t := by
    rw [ht] at e3
    injection e3 with e3
    exact e3.symm
  subst e23
  subst e33
  rcases hcase with ⟨_, rfl⟩ | ⟨_, rfl⟩
  · simp only [] at h0x hxu huN h0y hyv hvM ⊢
    refine ⟨by omega, ?_⟩
    intro j h1 h2
    rw [search_row_succ] at h2
    have := snake_end_all_match left right ls N rs M false hl hr _ k h0x h0y (j : Int) h1 h2
    obtain ⟨y, hy⟩ := Int.eq_ofNat_of_zero_le (by omega : (0 : Int) ≤ (j : Int) - k)
    rw [hy] at this
    have e := forward_match_getElem left right ls N rs M j y this
    rw [e]
    congr 2
    omega
  · simp only [] at h0x hxu huN h0y hyv hvM ⊢
    refine ⟨by omega, ?_⟩
    intro j h1 h2
    have hs0 : 0 ≤ diag_start (search_row left right ls N rs M true d1) d1 k := by omega
    have hs1 : 0 ≤ diag_start (search_row left right ls N rs M true d1) d1 k - k := by omega
    rw [search_row_succ] at h1 h0y h0x hxu hyv
    obtain ⟨a, ha⟩ := Int.eq_ofNat_of_zero_le (by omega : (0 : Int) ≤ (N : Int) - 1 - j)
    have := snake_end_all_match left right ls N rs M true hl hr _ k hs0 hs1 (a : Int)
      (by omega) (by omega)
    obtain ⟨y, hy⟩ := Int.eq_ofNat_of_zero_le (by omega : (0 : Int) ≤ (a : Int) - k)
    rw [hy] at this
    have e := backward_match_getElem left right ls N rs M a y (by omega) (by omega) this
    have e1 : N - 1 - a = j := by omega
    rw [e1] at e
    rw [e]
    congr 2
    rw [search_row_succ]
    omega

/-! ## The rounds 0 and 1 of the search -/

/-- A returned `d = 0` says that the two parts are equal. -/
theorem find_middle_snake_zero (left right : ExecPath) (ls N rs M : Nat)
    (hl : ls + N ≤ left.length) (hr : rs + M ≤ right.length) (hN : 1 ≤ N) (hM : 1 ≤ M)
    (t : MiddleSnake) (ht : find_middle_snake_myers_original left ls N right rs M = .ok t)
    (hd : t.d = 0) : N = M ∧ ∀ j, j < N → left[ls + j]? = right[rs + j]? := by
  obtain ⟨t3, d1, k, e3, hk, hno, hcase⟩ := find_middle_snake_hit left right ls N rs M hl hr hN hM
  have e33 : t3 = t := by
    rw [ht] at e3
    injection e3 with e3
    exact e3.symm
  subst e33
  obtain ⟨p, hp, hpN, hpM, hpm, _⟩ := head_snake_spec left right ls N rs M hl hr
  obtain ⟨q, hq, hqN, hqM, hqm⟩ := tail_snake_spec left right ls N rs M hl hr
  rcases hcase with ⟨_, rfl⟩ | ⟨hh, rfl⟩
  · simp only [] at hd
    omega
  · simp only [] at hd
    have hd1 : d1 = 0 := by omega
    subst hd1
    have hk0 := inRow_zero k hk
    subst hk0
    unfold backward_hit at hh
    obtain ⟨_, h2, h3, h4⟩ := hh
    have hNM : N = M := by omega
    subst hNM
    refine ⟨rfl, ?_⟩
    have e0 : (N : Int) - N - 0 = 0 := by omega
    rw [e0] at h4
    simp only [zero_add] at h4
    rw [search_row_one_zero, search_row_one_zero, hp, hq] at h4
    intro j hj
    by_cases hjp : j < p
    · exact hpm j hjp
    · have := hqm (N - 1 - j) (by omega)
      rw [show N - 1 - (N - 1 - j) = j by omega] at this
      exact this

theorem diag_start_one_neg (g : Int → Int) : diag_start g 1 (-1) = g 0 := by
  simp [diag_start]

theorem diag_start_one_pos (g : Int → Int) : diag_start g 1 1 = g 0 + 1 := by
  simp [diag_start]

/-- A returned `d = 1` says that one part is the other part with one element
inserted, at the end of the common prefix of the two parts. -/
theorem find_middle_snake_one (left right : ExecPath) (ls N rs M : Nat)
    (hl : ls + N ≤ left.length) (hr : rs + M ≤ right.length) (hN : 1 ≤ N) (hM : 1 ≤ M)
    (t : MiddleSnake) (ht : find_middle_snake_myers_original left ls N right rs M = .ok t)
    (hd : t.d = 1) :
    (M = N + 1 ∧ ∃ p, OneInserted right left rs ls N p) ∨
    (N = M + 1 ∧ ∃ p, OneInserted left right ls rs M p) := by
  obtain ⟨t3, d1, k, e3, hk, hno, hcase⟩ := find_middle_snake_hit left right ls N rs M hl hr hN hM
  have e33 : t3 = t := by
    rw [ht] at e3
    injection e3 with e3
    exact e3.symm
  subst e33
  obtain ⟨p, hp, hpN, hpM, hpm, hpd⟩ := head_snake_spec left right ls N rs M hl hr
  obtain ⟨q, hq, hqN, hqM, hqm⟩ := tail_snake_spec left right ls N rs M hl hr
  rcases hcase with ⟨hh, rfl⟩ | ⟨_, rfl⟩
  · simp only [] at hd
    have hd1 : d1 = 1 := by omega
    subst hd1
    unfold forward_hit at hh
    obtain ⟨_, h2, h3, h4⟩ := hh
    have hdelta : (N : Int) - M = k := by
      push_cast at h2 h3
      omega
    have e0 : (N : Int) - M - k = 0 := by omega
    rw [e0] at h4
    have h4' : search_row left right ls N rs M false (1 + 1) k +
        search_row left right ls N rs M true (0 + 1) 0 ≥ N := h4
    rw [search_row_succ, search_row_succ] at h4'
    have hq' : snake_end left right ls N rs M true
        (diag_start (search_row left right ls N rs M true 0) ((0 : Nat) : Int) 0) 0 = q := by
      rw [← hq]
      simp [diag_start, search_row]
    rw [hq'] at h4'
    rcases inRow_one k hk with hk1 | hk1
    · subst hk1
      left
      have hM1 : M = N + 1 := by omega
      subst hM1
      refine ⟨rfl, p, hpN, fun j hj => (hpm j hj).symm, fun h1 h2' => ?_, ?_⟩
      · exact hpd h1 (by omega) h2'.symm
      · intro j hj1 hj2
        have hst : diag_start (search_row left right ls N rs (N + 1) false 1) ((1 : Nat) : Int)
            (-1) = p := by
          rw [Nat.cast_one, diag_start_one_neg, search_row_one_zero, hp]
        rw [hst] at h4'
        by_cases hjA : (j : Int) < snake_end left right ls N rs (N + 1) false p (-1)
        · have := snake_end_all_match left right ls N rs (N + 1) false hl hr p (-1)
            (by omega) (by omega) (j : Int) (by omega) hjA
          rw [show (j : Int) - -1 = ((j + 1 : Nat) : Int) by push_cast; omega] at this
          exact (forward_match_getElem left right ls N rs (N + 1) j (j + 1) this).symm
        · have := hqm (N - 1 - j) (by omega)
          rw [show N - 1 - (N - 1 - j) = j by omega,
            show N + 1 - 1 - (N - 1 - j) = j + 1 by omega] at this
          exact this.symm
    · subst hk1
      right
      have hN1 : N = M + 1 := by omega
      subst hN1
      refine ⟨rfl, p, hpM, fun j hj => hpm j hj, fun h1 h2' => ?_, ?_⟩
      · exact hpd (by omega) h1 h2'
      · intro j hj1 hj2
        have hst : diag_start (search_row left right ls (M + 1) rs M false 1) ((1 : Nat) : Int)
            1 = p + 1 := by
          rw [Nat.cast_one, diag_start_one_pos, search_row_one_zero, hp]
        rw [hst] at h4'
        by_cases hjA : ((j : Int) + 1) < snake_end left right ls (M + 1) rs M false (p + 1) 1
        · have := snake_end_all_match left right ls (M + 1) rs M false hl hr (p + 1) 1
            (by omega) (by omega) ((j : Int) + 1) (by omega) hjA
          rw [show (j : Int) + 1 - 1 = (j : Int) by omega,
            show (j : Int) + 1 = ((j + 1 : Nat) : Int) by push_cast; omega] at this
          exact forward_match_getElem left right ls (M + 1) rs M (j + 1) j this
        · have := hqm (M - 1 - j) (by push_cast at h4' hjA; omega)
          rw [show M + 1 - 1 - (M - 1 - j) = j + 1 by omega,
            show M - 1 - (M - 1 - j) = j by omega] at this
          exact this
  · simp only [] at hd
    omega

/-! ## The shadows of the branches without recursion -/

theorem shadow_range_exact (start size : Nat) :
    ∀ (fuel i : Nat) (shadow : List Bool), start + size ≤ shadow.length → size ≤ i + fuel →
      ∃ s, shadow_range start size fuel i shadow = .ok s ∧ s.length = shadow.length ∧
        (∀ j, i ≤ j → j < size → s[start + j]? = some true) ∧
        (∀ j, j < start + i ∨ start + size ≤ j → s[j]? = shadow[j]?)
  | 0, i, shadow, _, hf => by
    refine ⟨shadow, ?_, rfl, fun j h1 h2 => by omega, fun _ _ => rfl⟩
    simp only [shadow_range]
    rw [if_neg (by omega)]
  | fuel + 1, i, shadow, hlen, hf => by
    by_cases hi : i < size
    · obtain ⟨s2, e2, l2, b2, o2⟩ := shadow_range_exact start size fuel (i + 1)
        (shadow.set (start + i) true) (by simpa using hlen) (by omega)
      refine ⟨s2, ?_, by simpa using l2, ?_, ?_⟩
      · simp only [shadow_range]
        rw [if_pos hi, set_shadow_eq _ _ (by omega)]
        exact e2
      · intro j h1 h2
        by_cases hj : j = i
        · subst hj
          rw [o2 (start + j) (Or.inl (by omega))]
          simp [List.getElem?_set_self, show start + j < shadow.length by omega]
        · exact b2 j (by omega) h2
      · intro j hj
        rw [o2 j (by omega), List.getElem?_set_ne (by omega)]
    · refine ⟨shadow, ?_, rfl, fun j h1 h2 => by omega, fun _ _ => rfl⟩
      simp only [shadow_range]
      rw [if_neg hi]

theorem count_replicate_true (n : Nat) : (List.replicate n true).count true = n := by
  simp

theorem count_replicate_false (n : Nat) : (List.replicate n false).count true = 0 := by
  simp [List.count_eq_zero]

theorem count_replicate_set (n p : Nat) (h : p < n) :
    ((List.replicate n false).set p true).count true = 1 := by
  induction n generalizing p with
  | zero => omega
  | succ n ih =>
    cases p with
    | zero =>
      simp only [List.replicate_succ, List.set_cons_zero, List.count_cons]
      simp [List.count_eq_zero]
    | succ p =>
      simp only [List.replicate_succ, List.set_cons_succ, List.count_cons]
      rw [ih p (by omega)]
      simp

theorem getElem?_replicate_set (n p j : Nat)
    (h : ((List.replicate n false).set p true)[j]? = some true) : j = p := by
  by_contra hne
  rw [List.getElem?_set_ne (fun e => hne e.symm), List.getElem?_replicate] at h
  split at h <;> simp at h

theorem getElem?_replicate_false (n j : Nat)
    (h : (List.replicate n false)[j]? = some true) : False := by
  rw [List.getElem?_replicate] at h
  split at h <;> simp at h

/-- The part with the inserted element is the other part with that element put in
at position `p`. -/
theorem OneInserted.span_eq {a b : ExecPath} {a_start b_start n p : Nat}
    (h : OneInserted a b a_start b_start n p) (ha : a_start + (n + 1) ≤ a.length)
    (hb : b_start + n ≤ b.length) :
    span a a_start (n + 1) =
      (span b b_start n).take p ++ a.getD (a_start + p) 0 :: (span b b_start n).drop p := by
  obtain ⟨hp, h1, _, h3⟩ := h
  have hlb := length_span b b_start n hb
  apply List.ext_getElem?
  intro i
  rw [getElem?_span]
  by_cases hip : i < p
  · rw [List.getElem?_append_left (by rw [List.length_take, hlb]; omega), List.getElem?_take,
      if_pos hip, getElem?_span, if_pos (by omega), if_pos (by omega)]
    exact h1 i hip
  · rw [List.getElem?_append_right (by rw [List.length_take, hlb]; omega), List.length_take,
      hlb, Nat.min_eq_left hp]
    by_cases hie : i = p
    · subst hie
      rw [if_pos (by omega), Nat.sub_self, List.getElem?_cons_zero,
        List.getD_eq_getElem?_getD, List.getElem?_eq_getElem (by omega)]
      rfl
    · obtain ⟨m, hm⟩ : ∃ m, i - p = m + 1 := ⟨i - p - 1, by omega⟩
      rw [hm, List.getElem?_cons_succ, List.getElem?_drop, getElem?_span]
      by_cases hin : i < n + 1
      · rw [if_pos hin, if_pos (by omega)]
        have := h3 (p + m) (by omega) (by omega)
        rw [show a_start + (p + m) + 1 = a_start + i by omega] at this
        rw [this]
      · rw [if_neg hin, if_neg (by omega)]

theorem OneInserted.unshadowed_eq {a b : ExecPath} {a_start b_start n p : Nat}
    (h : OneInserted a b a_start b_start n p) (ha : a_start + (n + 1) ≤ a.length)
    (hb : b_start + n ≤ b.length) :
    unshadowed (span a a_start (n + 1)) ((List.replicate (n + 1) false).set p true) =
      span b b_start n := by
  rw [h.span_eq ha hb]
  have hlb := length_span b b_start n hb
  have := unshadowed_inserted (span b b_start n) (a.getD (a_start + p) 0) p
    (by rw [hlb]; exact h.1)
  rw [hlb] at this
  exact this

/-- The writes of the branch `d == 1` on the longer part `a`. -/
theorem OneInserted.shadow_eq {a b : ExecPath} {a_start b_start n p : Nat}
    (h : OneInserted a b a_start b_start n p) (ha : a_start + (n + 1) ≤ a.length)
    (hb : b_start + n ≤ b.length) (shadow : List Bool) (hlen : shadow.length = a.length) :
    (shadow_first_diff a b a_start b_start n n 0 shadow >>= fun s1 =>
      set_shadow s1 (a_start + (n + 1) - 1)) =
    .ok ((if p < n then shadow.set (a_start + p) true else shadow).set (a_start + n) true) := by
  obtain ⟨hp, h1, h2, _⟩ := h
  rw [shadow_first_diff_exact a b a_start b_start n p (by omega) hb hp h2 n 0 shadow hlen
    (by omega) (by omega) (fun j _ hj => h1 j hj)]
  simp only [Except.bind_ok_eq]
  rw [show a_start + (n + 1) - 1 = a_start + n by omega]
  apply set_shadow_eq
  split
  · rw [List.length_set]
    omega
  · omega

theorem one_inserted_shadow_props (shadow : List Bool) (a_start n p : Nat) (hp : p ≤ n)
    (hlen : a_start + (n + 1) ≤ shadow.length)
    (hf : ∀ j, a_start ≤ j → j < a_start + (n + 1) → shadow[j]? = some false) :
    ((if p < n then shadow.set (a_start + p) true else shadow).set (a_start + n) true).length =
        shadow.length ∧
      (∀ j, j < a_start ∨ a_start + (n + 1) ≤ j →
        ((if p < n then shadow.set (a_start + p) true else shadow).set (a_start + n) true)[j]? =
          shadow[j]?) ∧
      ((if p < n then shadow.set (a_start + p) true else shadow).set (a_start + n) true)[
        a_start + p]? = some true ∧
      (span ((if p < n then shadow.set (a_start + p) true else shadow).set (a_start + n) true)
        a_start (n + 1)).count true ≤ 2 := by
  have h0 := count_span_false shadow a_start (n + 1) hf
  refine ⟨?_, ?_, ?_, ?_⟩
  · split <;> simp
  · intro j hj
    rw [List.getElem?_set_ne (by omega)]
    split
    · rw [List.getElem?_set_ne (by omega)]
    · rfl
  · by_cases hpn : p < n
    · rw [if_pos hpn, List.getElem?_set_ne (by omega), List.getElem?_set_self (by omega)]
    · have : p = n := by omega
      subst this
      rw [if_neg hpn, List.getElem?_set_self (by omega)]
  · refine le_trans (count_span_set_le _ _ _ _) ?_
    split
    · have := count_span_set_le shadow a_start (n + 1) (a_start + p)
      omega
    · omega

/-! ## Longest common subsequences and edit scripts -/

theorem lcs_length_nil_right (l : ExecPath) : lcs_length l [] = 0 := by
  cases l <;> rfl

theorem lcs_length_cons_cons (a b : PCID) (l r : ExecPath) :
    lcs_length (a :: l) (b :: r) =
      if a = b then lcs_length l r + 1
      else max (lcs_length l (b :: r)) (lcs_length (a :: l) r) := rfl

/-- Adding an element at the front of one sequence adds at most one to the length of
a longest common subsequence and takes nothing from it. -/
theorem lcs_length_cons_bounds :
    ∀ (n : Nat) (l r : ExecPath), l.length + r.length ≤ n → ∀ c : PCID,
      lcs_length l r ≤ lcs_length l (c :: r) ∧ lcs_length l r ≤ lcs_length (c :: l) r ∧
      lcs_length l (c :: r) ≤ lcs_length l r + 1 ∧ lcs_length (c :: l) r ≤ lcs_length l r + 1
  | 0, l, r, h, c => by
    have hl : l = [] := List.eq_nil_of_length_eq_zero (by omega)
    have hr : r = [] := List.eq_nil_of_length_eq_zero (by omega)
    subst hl
    subst hr
    simp [lcs_length, lcs_length_step]
  | n + 1, l, r, h, c => by
    have ih := lcs_length_cons_bounds n
    refine ⟨?_, ?_, ?_, ?_⟩
    · cases l with
      | nil => simp [lcs_length]
      | cons a l =>
        rw [lcs_length_cons_cons a c l r]
        split
        · exact (ih l r (by simp at h; omega) a).2.2.2
        · exact le_max_right _ _
    · cases r with
      | nil => simp [lcs_length_nil_right]
      | cons b r =>
        rw [lcs_length_cons_cons c b l r]
        split
        · exact (ih l r (by simp at h; omega) b).2.2.1
        · exact le_max_left _ _
    · cases l with
      | nil => simp [lcs_length]
      | cons a l =>
        rw [lcs_length_cons_cons a c l r]
        have h1 := ih l r (by simp at h; omega)
        split
        · have := (h1 a).2.1
          omega
        · have := (h1 c).2.2.1
          have := (h1 a).2.1
          exact max_le (by omega) (by omega)
    · cases r with
      | nil => simp [lcs_length_nil_right]
      | cons b r =>
        rw [lcs_length_cons_cons c b l r]
        have h1 := ih l r (by simp at h; omega)
        split
        · have := (h1 b).1
          omega
        · have := (h1 c).2.2.2
          have := (h1 b).1
          exact max_le (by omega) (by omega)

theorem lcs_length_le_cons_right (l r : ExecPath) (c : PCID) :
    lcs_length l r ≤ lcs_length l (c :: r) :=
  (lcs_length_cons_bounds _ l r (le_refl _) c).1

theorem lcs_length_le_cons_left (l r : ExecPath) (c : PCID) :
    lcs_length l r ≤ lcs_length (c :: l) r :=
  (lcs_length_cons_bounds _ l r (le_refl _) c).2.1

theorem Script.cast {α : Type} {a b : List α} {d e : Nat} (h : Script a b d) (he : d = e) :
    Script a b e := by
  subst he
  exact h

/-- An edit script has at least as many edits as the two sequences have elements
outside a longest common subsequence. -/
theorem Script.length_le {a b : ExecPath} {d : Nat} (h : Script a b d) :
    a.length + b.length ≤ d + 2 * lcs_length a b := by
  induction h with
  | nil => simp
  | keep c _ ih =>
    rw [lcs_length_cons_cons, if_pos rfl]
    simp only [List.length_cons]
    omega
  | del c _ ih =>
    rename_i a b d _
    have := lcs_length_le_cons_left a b c
    simp only [List.length_cons]
    omega
  | ins c _ ih =>
    rename_i a b d _
    have := lcs_length_le_cons_right a b c
    simp only [List.length_cons]
    omega

theorem Script.all_ins {α : Type} (b : List α) : Script [] b b.length := by
  induction b with
  | nil => exact Script.nil
  | cons c b ih => exact Script.ins c ih

theorem Script.all_del {α : Type} (a : List α) : Script a [] a.length := by
  induction a with
  | nil => exact Script.nil
  | cons c a ih => exact Script.del c ih

/-- There is an edit script with exactly as many edits as the two sequences have
elements outside a longest common subsequence. -/
theorem Script.exists_shortest :
    ∀ (a b : ExecPath), ∃ d, Script a b d ∧ d + 2 * lcs_length a b = a.length + b.length
  | [], b => ⟨b.length, Script.all_ins b, by simp [lcs_length]⟩
  | c :: a, [] => ⟨(c :: a).length, Script.all_del _, by simp [lcs_length_nil_right]⟩
  | c :: a, e :: b => by
    by_cases hce : c = e
    · subst hce
      obtain ⟨d, h1, h2⟩ := Script.exists_shortest a b
      refine ⟨d, Script.keep c h1, ?_⟩
      rw [lcs_length_cons_cons, if_pos rfl]
      simp only [List.length_cons]
      omega
    · by_cases hm : lcs_length (c :: a) b ≤ lcs_length a (e :: b)
      · obtain ⟨d, h1, h2⟩ := Script.exists_shortest a (e :: b)
        refine ⟨d + 1, Script.del c h1, ?_⟩
        rw [lcs_length_cons_cons, if_neg hce, max_eq_left hm]
        simp only [List.length_cons] at h2 ⊢
        omega
      · obtain ⟨d, h1, h2⟩ := Script.exists_shortest (c :: a) b
        refine ⟨d + 1, Script.ins e h1, ?_⟩
        rw [lcs_length_cons_cons, if_neg hce, max_eq_right (by omega)]
        simp only [List.length_cons] at h2 ⊢
        omega
termination_by a b => a.length + b.length

theorem lcs_length_le (a b : ExecPath) : 2 * lcs_length a b ≤ a.length + b.length := by
  obtain ⟨d, _, h⟩ := Script.exists_shortest a b
  omega

theorem Script.refl {α : Type} (a : List α) : Script a a 0 := by
  induction a with
  | nil => exact Script.nil
  | cons c a ih => exact Script.keep c ih

theorem Script.append {α : Type} {a1 b1 a2 b2 : List α} {d1 d2 : Nat} (h1 : Script a1 b1 d1)
    (h2 : Script a2 b2 d2) : Script (a1 ++ a2) (b1 ++ b2) (d1 + d2) := by
  induction h1 with
  | nil => simpa using h2
  | keep c _ ih => exact Script.keep c ih
  | del c _ ih => exact (Script.del c ih).cast (by omega)
  | ins c _ ih => exact (Script.ins c ih).cast (by omega)

theorem Script.snoc_keep {α : Type} {a b : List α} {d : Nat} (h : Script a b d) (c : α) :
    Script (a ++ [c]) (b ++ [c]) d := by
  have := h.append (Script.keep c Script.nil)
  simpa using this

theorem Script.snoc_del {α : Type} {a b : List α} {d : Nat} (h : Script a b d) (c : α) :
    Script (a ++ [c]) b (d + 1) := by
  have := h.append (Script.del c Script.nil)
  simpa using this

theorem Script.snoc_ins {α : Type} {a b : List α} {d : Nat} (h : Script a b d) (c : α) :
    Script a (b ++ [c]) (d + 1) := by
  have := h.append (Script.ins c Script.nil)
  simpa using this

theorem Script.reverse {α : Type} {a b : List α} {d : Nat} (h : Script a b d) :
    Script a.reverse b.reverse d := by
  induction h with
  | nil => exact Script.nil
  | keep c _ ih =>
    simp only [List.reverse_cons]
    exact ih.snoc_keep c
  | del c _ ih =>
    simp only [List.reverse_cons]
    exact ih.snoc_del c
  | ins c _ ih =>
    simp only [List.reverse_cons]
    exact ih.snoc_ins c

theorem Script.parity {α : Type} {a b : List α} {d : Nat} (h : Script a b d) :
    (a.length + b.length + d) % 2 = 0 ∧ a.length ≤ b.length + d ∧ b.length ≤ a.length + d := by
  induction h with
  | nil => simp
  | keep c _ ih =>
    simp only [List.length_cons]
    omega
  | del c _ ih =>
    simp only [List.length_cons]
    omega
  | ins c _ ih =>
    simp only [List.length_cons]
    omega

/-- An edit script can be cut after any number of its edits. -/
theorem Script.split {α : Type} {a b : List α} {d : Nat} (h : Script a b d) :
    ∀ c, c ≤ d → ∃ a1 a2 b1 b2, a = a1 ++ a2 ∧ b = b1 ++ b2 ∧ Script a1 b1 c ∧
      Script a2 b2 (d - c) := by
  induction h with
  | nil =>
    intro c hc
    have : c = 0 := by omega
    subst this
    exact ⟨[], [], [], [], rfl, rfl, Script.nil, Script.nil⟩
  | keep e h ih =>
    intro c hc
    obtain ⟨a1, a2, b1, b2, e1, e2, s1, s2⟩ := ih c hc
    exact ⟨e :: a1, a2, e :: b1, b2, by rw [e1]; rfl, by rw [e2]; rfl, Script.keep e s1, s2⟩
  | del e h ih =>
    rename_i a b d
    intro c hc
    cases c with
    | zero => exact ⟨[], e :: a, [], b, rfl, rfl, Script.nil, Script.del e h⟩
    | succ c =>
      obtain ⟨a1, a2, b1, b2, e1, e2, s1, s2⟩ := ih c (by omega)
      exact ⟨e :: a1, a2, b1, b2, by rw [e1]; rfl, e2, Script.del e s1,
        s2.cast (by omega)⟩
  | ins e h ih =>
    rename_i a b d
    intro c hc
    cases c with
    | zero => exact ⟨[], a, [], e :: b, rfl, rfl, Script.nil, Script.ins e h⟩
    | succ c =>
      obtain ⟨a1, a2, b1, b2, e1, e2, s1, s2⟩ := ih c (by omega)
      exact ⟨a1, a2, e :: b1, b2, e1, by rw [e2]; rfl, Script.ins e s1,
        s2.cast (by omega)⟩

/-- Without the first element of the second sequence a script needs at most one edit
more. -/
theorem Script.drop_right {α : Type} {a b0 : List α} {n : Nat} (h : Script a b0 n) :
    ∀ (e : α) (b : List α), b0 = e :: b → ∃ m, m ≤ n + 1 ∧ Script a b m := by
  induction h with
  | nil => intro e b hb; cases hb
  | keep c h _ =>
    intro e b hb
    injection hb with h1 h2
    subst h2
    exact ⟨_, le_refl _, Script.del c h⟩
  | del c _ ih =>
    intro e b hb
    obtain ⟨m, hm, s⟩ := ih e b hb
    exact ⟨m + 1, by omega, Script.del c s⟩
  | ins c h _ =>
    intro e b hb
    injection hb with h1 h2
    subst h2
    exact ⟨_, by omega, h⟩

theorem Script.drop_left {α : Type} {a0 b : List α} {n : Nat} (h : Script a0 b n) :
    ∀ (e : α) (a : List α), a0 = e :: a → ∃ m, m ≤ n + 1 ∧ Script a b m := by
  induction h with
  | nil => intro e a ha; cases ha
  | keep c h _ =>
    intro e a ha
    injection ha with h1 h2
    subst h2
    exact ⟨_, le_refl _, Script.ins c h⟩
  | del c h _ =>
    intro e a ha
    injection ha with h1 h2
    subst h2
    exact ⟨_, by omega, h⟩
  | ins c _ ih =>
    intro e a ha
    obtain ⟨m, hm, s⟩ := ih e a ha
    exact ⟨m + 1, by omega, Script.ins c s⟩

/-- Without the first elements of both sequences a script needs no more edits. -/
theorem Script.drop_both {α : Type} {a b : List α} {c e : α} {n : Nat}
    (h : Script (c :: a) (e :: b) n) : ∃ m, m ≤ n ∧ Script a b m := by
  cases h with
  | keep _ h => exact ⟨_, le_refl _, h⟩
  | del _ h =>
    obtain ⟨m, hm, s⟩ := h.drop_right e b rfl
    exact ⟨m, by omega, s⟩
  | ins _ h =>
    obtain ⟨m, hm, s⟩ := h.drop_left c a rfl
    exact ⟨m, by omega, s⟩

theorem Script.map_inl {a b : ExecPath} {d : Nat} (h : Script a b d) :
    Script (a.map (Sum.inl : PCID → Ext)) (b.map (Sum.inl : PCID → Ext)) d := by
  induction h with
  | nil => exact Script.nil
  | keep c _ ih => exact Script.keep _ ih
  | del c _ ih => exact Script.del _ ih
  | ins c _ ih => exact Script.ins _ ih

theorem Script.of_map_inl {a0 b0 : List Ext} {d : Nat} (h : Script a0 b0 d) :
    ∀ (a b : ExecPath), a0 = a.map Sum.inl → b0 = b.map Sum.inl → Script a b d := by
  induction h with
  | nil =>
    intro a b ha hb
    have h1 : a = [] := by simpa using ha.symm
    have h2 : b = [] := by simpa using hb.symm
    subst h1
    subst h2
    exact Script.nil
  | keep c _ ih =>
    intro a b ha hb
    cases a with
    | nil => simp at ha
    | cons x a =>
      cases b with
      | nil => simp at hb
      | cons y b =>
        simp only [List.map_cons, List.cons.injEq] at ha hb
        have hxy : x = y := by
          have := ha.1.symm.trans hb.1
          exact Sum.inl.inj this
        subst hxy
        exact Script.keep x (ih a b ha.2 hb.2)
  | del c _ ih =>
    intro a b ha hb
    cases a with
    | nil => simp at ha
    | cons x a =>
      simp only [List.map_cons, List.cons.injEq] at ha
      exact Script.del x (ih a b ha.2 hb)
  | ins c _ ih =>
    intro a b ha hb
    cases b with
    | nil => simp at hb
    | cons y b =>
      simp only [List.map_cons, List.cons.injEq] at hb
      exact Script.ins y (ih a b ha hb.2)

/-! ## The two parts with markers beyond their ends -/

theorem length_ext_part (v : ExecPath) (st n : Nat) (side back : Bool) :
    ∀ x, (ext_part v st n side back x).length = x
  | 0 => rfl
  | x + 1 => by
    simp only [ext_part, List.length_cons]
    rw [length_ext_part v st n side back x]

theorem ext_part_eq_nil {v : ExecPath} {st n : Nat} {side back : Bool} {x : Nat}
    (h : [] = ext_part v st n side back x) : x = 0 := by
  have := congrArg List.length h
  rw [length_ext_part] at this
  exact this.symm

theorem ext_part_eq_cons {v : ExecPath} {st n : Nat} {side back : Bool} {x : Nat} {c : Ext}
    {a : List Ext} (h : c :: a = ext_part v st n side back x) :
    ∃ x1, x = x1 + 1 ∧ c = ext_elem v st n side back x1 ∧ a = ext_part v st n side back x1 := by
  cases x with
  | zero => simp [ext_part] at h
  | succ x1 =>
    simp only [ext_part, List.cons.injEq] at h
    exact ⟨x1, rfl, h.1, h.2⟩

theorem span_one (v : ExecPath) (i : Nat) (h : i < v.length) : span v i 1 = [v.getD i 0] := by
  apply List.ext_getElem?
  intro j
  rw [getElem?_span]
  cases j with
  | zero => simp [List.getD_eq_getElem?_getD, List.getElem?_eq_getElem h]
  | succ j => simp

/-- The coordinates of the forward search below `x`, inside the part, are the first
`x` elements of the part, the last one first. -/
theorem ext_part_forward (v : ExecPath) (st n : Nat) (side : Bool) (h : st + n ≤ v.length) :
    ∀ x, x ≤ n → ext_part v st n side false x = ((span v st x).reverse).map Sum.inl
  | 0, _ => by simp [ext_part, span]
  | x + 1, hx => by
    simp only [ext_part]
    rw [ext_part_forward v st n side h x (by omega), span_add, span_one v _ (by omega)]
    simp only [List.reverse_append, List.reverse_cons, List.reverse_nil, List.nil_append,
      List.singleton_append, List.map_cons]
    congr 1
    unfold ext_elem
    rw [if_pos (by omega)]
    simp

/-- The coordinates of the backward search below `x`, inside the part, are the last
`x` elements of the part. -/
theorem ext_part_backward (v : ExecPath) (st n : Nat) (side : Bool) (h : st + n ≤ v.length) :
    ∀ x, x ≤ n → ext_part v st n side true x = (span v (st + n - x) x).map Sum.inl
  | 0, _ => by simp [ext_part, span]
  | x + 1, hx => by
    simp only [ext_part]
    rw [ext_part_backward v st n side h x (by omega), show x + 1 = 1 + x by omega, span_add,
      span_one v _ (by omega), show st + n - (1 + x) + 1 = st + n - x by omega]
    simp only [List.singleton_append, List.map_cons]
    congr 1
    unfold ext_elem
    rw [if_pos (by omega)]
    simp only [if_true]
    congr 2
    omega

theorem ext_elem_eq_of_match (left right : ExecPath) (ls N rs M : Nat) (back : Bool)
    (x y : Nat) (hx : x < N)
    (hy : y < M) (h : snake_match left right ls N rs M back (x : Int) (y : Int)) :
    ext_elem left ls N false back x = ext_elem right rs M true back y := by
  unfold ext_elem
  rw [if_pos hx, if_pos hy]
  congr 1
  cases back with
  | false =>
    have := forward_match_getElem left right ls N rs M x y h
    simp only [Bool.false_eq_true, if_false, List.getD_eq_getElem?_getD]
    rw [this]
  | true =>
    have := backward_match_getElem left right ls N rs M x y hx hy h
    simp only [if_true, List.getD_eq_getElem?_getD]
    rw [this]

theorem match_of_ext_elem_eq (left right : ExecPath) (ls N rs M : Nat) (back : Bool)
    (hl : ls + N ≤ left.length) (hr : rs + M ≤ right.length) (x y : Nat)
    (h : ext_elem left ls N false back x = ext_elem right rs M true back y) :
    x < N ∧ y < M ∧ snake_match left right ls N rs M back (x : Int) (y : Int) := by
  unfold ext_elem at h
  by_cases hx : x < N
  · by_cases hy : y < M
    · rw [if_pos hx, if_pos hy] at h
      have h := Sum.inl.inj h
      refine ⟨hx, hy, ?_⟩
      cases back with
      | false =>
        simp only [Bool.false_eq_true, if_false] at h
        apply forward_match_of_getElem left right ls N rs M x y (by omega)
        rw [List.getElem?_eq_getElem (show ls + x < left.length by omega),
          List.getElem?_eq_getElem (show rs + y < right.length by omega)]
        rw [List.getD_eq_getElem _ _ (show ls + x < left.length by omega),
          List.getD_eq_getElem _ _ (show rs + y < right.length by omega)] at h
        rw [h]
      | true =>
        simp only [if_true] at h
        apply backward_match_of_getElem left right ls N rs M x y hx hy hl
        rw [List.getElem?_eq_getElem (show ls + (N - 1 - x) < left.length by omega),
          List.getElem?_eq_getElem (show rs + (M - 1 - y) < right.length by omega)]
        rw [List.getD_eq_getElem _ _ (show ls + (N - 1 - x) < left.length by omega),
          List.getD_eq_getElem _ _ (show rs + (M - 1 - y) < right.length by omega)] at h
        rw [h]
    · rw [if_pos hx, if_neg hy] at h
      cases h
  · by_cases hy : y < M
    · rw [if_neg hx, if_pos hy] at h
      cases h
    · rw [if_neg hx, if_neg hy] at h
      have := Sum.inr.inj h
      simp at this

theorem inRow_of_script {x y d : Nat} (h1 : (x + y + d) % 2 = 0) (h2 : x ≤ y + d)
    (h3 : y ≤ x + d) : InRow d ((x : Int) - y) := by
  unfold InRow
  omega

/-- The search is at least as far on a diagonal as any edit script of the round's
number of edits leads. -/
theorem search_row_furthest (left right : ExecPath) (ls N rs M : Nat) (back : Bool)
    (hl : ls + N ≤ left.length) (hr : rs + M ≤ right.length) {a b : List Ext} {d : Nat}
    (h : Script a b d) :
    ∀ x y : Nat, a = ext_part left ls N false back x → b = ext_part right rs M true back y →
      (x : Int) ≤ search_row left right ls N rs M back (d + 1) ((x : Int) - y) := by
  induction h with
  | nil =>
    intro x y ha hb
    rw [ext_part_eq_nil ha]
    exact search_row_nonneg _ _ _ _ _ _ _ _ _
  | keep c h ih =>
    rename_i a1 b1 d1
    intro x y ha hb
    obtain ⟨x1, rfl, hc1, ha1⟩ := ext_part_eq_cons ha
    obtain ⟨y1, rfl, hc2, hb1⟩ := ext_part_eq_cons hb
    have hi := ih x1 y1 ha1 hb1
    have hp := h.parity
    rw [ha1, hb1, length_ext_part, length_ext_part] at hp
    have hk := inRow_of_script hp.1 hp.2.1 hp.2.2
    have hm := match_of_ext_elem_eq left right ls N rs M back hl hr x1 y1 (hc1.symm.trans hc2)
    have hs := diag_start_in_row left right ls N rs M back d1 _ hk
    have hs0 := diag_start_nonneg (search_row_nonneg left right ls N rs M back d1) d1
      ((x1 : Int) - y1)
    have hsp := (snake_end_spec left right ls N rs M back hl hr _ _ hs0 hs.1).2.2.2.2.2
    rw [← search_row_succ] at hsp
    have e : ((x1 + 1 : Nat) : Int) - ((y1 + 1 : Nat) : Int) = (x1 : Int) - y1 := by
      push_cast
      omega
    rw [e]
    by_contra hcon
    have hx : search_row left right ls N rs M back (d1 + 1) ((x1 : Int) - y1) = x1 := by
      push_cast at hcon
      omega
    rw [hx] at hsp
    have := hsp (by omega) (by omega)
    rw [show (x1 : Int) - ((x1 : Int) - y1) = y1 by omega] at this
    exact this hm.2.2
  | del c h ih =>
    rename_i a1 b1 d1
    intro x y ha hb
    obtain ⟨x1, rfl, hc1, ha1⟩ := ext_part_eq_cons ha
    have hi := ih x1 y ha1 hb
    have hp := h.parity
    rw [ha1, hb, length_ext_part, length_ext_part] at hp
    have hk := inRow_of_script hp.1 hp.2.1 hp.2.2
    unfold InRow at hk
    rw [search_row_succ]
    refine le_trans ?_ (snake_end_ge _ _ _ _ _ _ _ _ _)
    have := (diag_start_ge (search_row left right ls N rs M back (d1 + 1)) ((d1 + 1 : Nat) : Int)
      (((x1 + 1 : Nat) : Int) - y)).2 (by push_cast; omega)
    rw [show ((x1 + 1 : Nat) : Int) - y - 1 = (x1 : Int) - y by push_cast; omega] at this
    push_cast at this ⊢
    omega
  | ins c h ih =>
    rename_i a1 b1 d1
    intro x y ha hb
    obtain ⟨y1, rfl, hc1, hb1⟩ := ext_part_eq_cons hb
    have hi := ih x y1 ha hb1
    have hp := h.parity
    rw [ha, hb1, length_ext_part, length_ext_part] at hp
    have hk := inRow_of_script hp.1 hp.2.1 hp.2.2
    unfold InRow at hk
    rw [search_row_succ]
    refine le_trans ?_ (snake_end_ge _ _ _ _ _ _ _ _ _)
    have := (diag_start_ge (search_row left right ls N rs M back (d1 + 1)) ((d1 + 1 : Nat) : Int)
      ((x : Int) - ((y1 + 1 : Nat) : Int))).1 (by push_cast; omega)
    rw [show (x : Int) - ((y1 + 1 : Nat) : Int) + 1 = (x : Int) - y1 by push_cast; omega] at this
    push_cast at this ⊢
    omega

/-- Along a snake the elements of the two parts are equal, so a script to the start
of the snake is a script to each of its points. -/
theorem script_along_snake (left right : ExecPath) (ls N rs M : Nat) (back : Bool)
    (hl : ls + N ≤ left.length) (hr : rs + M ≤ right.length) (s k : Int) (hs0 : 0 ≤ s)
    (hsk : 0 ≤ s - k) {d : Nat} (x y : Nat) (hx : (x : Int) = s) (hy : (y : Int) = s - k)
    (h : Script (ext_part left ls N false back x) (ext_part right rs M true back y) d) :
    ∀ n : Nat, s + n ≤ snake_end left right ls N rs M back s k →
      Script (ext_part left ls N false back (x + n)) (ext_part right rs M true back (y + n)) d
  | 0, _ => h
  | n + 1, hn => by
    have ih := script_along_snake left right ls N rs M back hl hr s k hs0 hsk x y hx hy h n
      (by push_cast at hn; omega)
    have hsp := snake_end_spec left right ls N rs M back hl hr s k hs0 hsk
    have hin : s < N ∧ s - k < M := by
      by_contra hcon
      have := hsp.2.1 hcon
      push_cast at hn
      omega
    have h1 := hsp.2.2.1 hin.1
    have h2 := hsp.2.2.2.1 hin.2
    have hm := snake_end_all_match left right ls N rs M back hl hr s k hs0 hsk (s + n)
      (by omega) (by push_cast at hn; omega)
    rw [show s + (n : Int) = ((x + n : Nat) : Int) by push_cast; omega,
      show ((x + n : Nat) : Int) - k = ((y + n : Nat) : Int) by push_cast; omega] at hm
    have he := ext_elem_eq_of_match left right ls N rs M back (x + n) (y + n)
      (by push_cast at hn; omega) (by push_cast at hn; omega) hm
    show Script (ext_elem left ls N false back (x + n) :: ext_part left ls N false back (x + n))
      (ext_elem right rs M true back (y + n) :: ext_part right rs M true back (y + n)) d
    rw [he]
    exact Script.keep _ ih

/-- Every point that the search reaches in round `d` is reached by an edit script of
`d` edits. -/
theorem search_row_reached (left right : ExecPath) (ls N rs M : Nat) (back : Bool)
    (hl : ls + N ≤ left.length) (hr : rs + M ≤ right.length) :
    ∀ (d : Nat) (k : Int), InRow d k →
      (∀ x y : Nat, (x : Int) = diag_start (search_row left right ls N rs M back d) d k →
        (y : Int) = (x : Int) - k →
        Script (ext_part left ls N false back x) (ext_part right rs M true back y) d) ∧
      (∀ x y : Nat, (x : Int) = search_row left right ls N rs M back (d + 1) k →
        (y : Int) = (x : Int) - k →
        Script (ext_part left ls N false back x) (ext_part right rs M true back y) d) := by
  have ext : ∀ (d : Nat) (k : Int), InRow d k →
      (∀ x y : Nat, (x : Int) = diag_start (search_row left right ls N rs M back d) d k →
        (y : Int) = (x : Int) - k →
        Script (ext_part left ls N false back x) (ext_part right rs M true back y) d) →
      (∀ x y : Nat, (x : Int) = search_row left right ls N rs M back (d + 1) k →
        (y : Int) = (x : Int) - k →
        Script (ext_part left ls N false back x) (ext_part right rs M true back y) d) := by
    intro d k hk hstart x y hx hy
    have hs := diag_start_in_row left right ls N rs M back d k hk
    have hs0 := diag_start_nonneg (search_row_nonneg left right ls N rs M back d) d k
    have hge := snake_end_ge left right ls N rs M back
      (diag_start (search_row left right ls N rs M back d) d k) k
    rw [search_row_succ] at hx
    obtain ⟨x0, hx0⟩ := Int.eq_ofNat_of_zero_le hs0
    obtain ⟨y0, hy0⟩ := Int.eq_ofNat_of_zero_le hs.1
    have h0 := hstart x0 y0 hx0.symm (by omega)
    have := script_along_snake left right ls N rs M back hl hr _ k hs0 hs.1 x0 y0 hx0.symm
      (by omega) h0 (x - x0) (by omega)
    rw [show x0 + (x - x0) = x by omega, show y0 + (x - x0) = y by omega] at this
    exact this
  intro d
  induction d with
  | zero =>
    intro k hk
    have hk0 : k = 0 := by unfold InRow at hk; omega
    subst hk0
    have hstart : ∀ x y : Nat,
        (x : Int) = diag_start (search_row left right ls N rs M back 0) (0 : Nat) 0 →
        (y : Int) = (x : Int) - 0 →
        Script (ext_part left ls N false back x) (ext_part right rs M true back y) 0 := by
      intro x y hx hy
      have e : diag_start (search_row left right ls N rs M back 0) (0 : Nat) 0 = 0 := by
        simp [diag_start, search_row]
      rw [e] at hx
      have hx0 : x = 0 := by omega
      have hy0 : y = 0 := by omega
      subst hx0
      subst hy0
      exact Script.nil
    exact ⟨hstart, ext 0 0 hk hstart⟩
  | succ d ih =>
    intro k hk
    have hstart : ∀ x y : Nat,
        (x : Int) = diag_start (search_row left right ls N rs M back (d + 1)) ((d + 1 : Nat)) k →
        (y : Int) = (x : Int) - k →
        Script (ext_part left ls N false back x) (ext_part right rs M true back y) (d + 1) := by
      intro x y hx hy
      unfold InRow at hk
      rcases diag_start_cases (search_row left right ls N rs M back (d + 1)) ((d + 1 : Nat)) k
        with ⟨e, hc⟩ | ⟨e, hc⟩
      · rw [e] at hx
        have hin : InRow d (k + 1) := by
          unfold InRow
          push_cast at hc hk
          omega
        have hnn := (search_row_in_row left right ls N rs M back d (k + 1) hin).1
        obtain ⟨y1, hy1⟩ : ∃ y1 : Nat, y = y1 + 1 := ⟨y - 1, by omega⟩
        subst hy1
        exact Script.ins _ ((ih (k + 1) hin).2 x y1 hx (by push_cast at hy; omega))
      · rw [e] at hx
        have hin : InRow d (k - 1) := by
          unfold InRow
          push_cast at hc hk
          omega
        have hnn := search_row_nonneg left right ls N rs M back (d + 1) (k - 1)
        obtain ⟨x1, hx1⟩ : ∃ x1 : Nat, x = x1 + 1 := ⟨x - 1, by omega⟩
        subst hx1
        exact Script.del _ ((ih (k - 1) hin).2 x1 y (by push_cast at hx; omega)
          (by push_cast at hy hx ⊢; omega))
    exact ⟨hstart, ext (d + 1) k hk hstart⟩

/-! ## The middle snake lies on a shortest edit script -/

theorem edit_distance_le_of_script {a b : ExecPath} {d : Nat} (h : Script a b d) :
    edit_distance a b ≤ d := by
  have := h.length_le
  unfold edit_distance
  omega

theorem script_edit_distance (a b : ExecPath) : Script a b (edit_distance a b) := by
  obtain ⟨d, h1, h2⟩ := Script.exists_shortest a b
  exact h1.cast (by unfold edit_distance; omega)

theorem edit_distance_nil_left (b : ExecPath) : edit_distance [] b = b.length := by
  simp [edit_distance, lcs_length]

theorem edit_distance_nil_right (a : ExecPath) : edit_distance a [] = a.length := by
  simp [edit_distance, lcs_length_nil_right]

theorem edit_distance_self (a : ExecPath) : edit_distance a a = 0 := by
  have := edit_distance_le_of_script (Script.refl a)
  omega

theorem edit_distance_odd (a b : ExecPath) (h : (a.length + b.length) % 2 = 1) :
    1 ≤ edit_distance a b := by
  have := lcs_length_le a b
  unfold edit_distance
  omega

theorem span_split {α : Type} (v : List α) (s n : Nat) (h : s + n ≤ v.length) (a1 a2 : List α)
    (e : span v s n = a1 ++ a2) :
    a1.length ≤ n ∧ a1 = span v s a1.length ∧ a2 = span v (s + a1.length) (n - a1.length) := by
  have hlen := congrArg List.length e
  rw [length_span v s n h, List.length_append] at hlen
  have hle : a1.length ≤ n := by omega
  have e2 : span v s n = span v s a1.length ++ span v (s + a1.length) (n - a1.length) := by
    conv_lhs => rw [show n = a1.length + (n - a1.length) by omega]
    rw [span_add]
  rw [e2] at e
  have := List.append_inj e (length_span v s _ (by omega))
  exact ⟨hle, this.1.symm, this.2.symm⟩

theorem script_ext_part_drop (left right : ExecPath) (ls N rs M : Nat) (back : Bool)
    (x y : Nat) :
    ∀ (n d : Nat),
      Script (ext_part left ls N false back (x + n)) (ext_part right rs M true back (y + n)) d →
      ∃ m, m ≤ d ∧ Script (ext_part left ls N false back x) (ext_part right rs M true back y) m
  | 0, d, h => ⟨d, le_refl _, h⟩
  | n + 1, d, h => by
    have h1 : Script
        (ext_elem left ls N false back (x + n) :: ext_part left ls N false back (x + n))
        (ext_elem right rs M true back (y + n) :: ext_part right rs M true back (y + n)) d := h
    obtain ⟨m, hm, h2⟩ := h1.drop_both
    obtain ⟨m2, hm2, h3⟩ := script_ext_part_drop left right ls N rs M back x y n m h2
    exact ⟨m2, by omega, h3⟩

theorem script_of_ext_forward (left right : ExecPath) (ls N rs M : Nat)
    (hl : ls + N ≤ left.length) (hr : rs + M ≤ right.length) (x y d : Nat) (hx : x ≤ N)
    (hy : y ≤ M)
    (h : Script (ext_part left ls N false false x) (ext_part right rs M true false y) d) :
    Script (span left ls x) (span right rs y) d := by
  rw [ext_part_forward left ls N false hl x hx, ext_part_forward right rs M true hr y hy] at h
  have := (h.of_map_inl _ _ rfl rfl).reverse
  simpa using this

theorem script_of_ext_backward (left right : ExecPath) (ls N rs M : Nat)
    (hl : ls + N ≤ left.length) (hr : rs + M ≤ right.length) (x y d : Nat) (hx : x ≤ N)
    (hy : y ≤ M)
    (h : Script (ext_part left ls N false true x) (ext_part right rs M true true y) d) :
    Script (span left (ls + N - x) x) (span right (rs + M - y) y) d := by
  rw [ext_part_backward left ls N false hl x hx, ext_part_backward right rs M true hr y hy] at h
  exact h.of_map_inl _ _ rfl rfl

theorem ext_forward_of_script (left right : ExecPath) (ls N rs M : Nat)
    (hl : ls + N ≤ left.length) (hr : rs + M ≤ right.length) (x y d : Nat) (hx : x ≤ N)
    (hy : y ≤ M) (h : Script (span left ls x) (span right rs y) d) :
    Script (ext_part left ls N false false x) (ext_part right rs M true false y) d := by
  rw [ext_part_forward left ls N false hl x hx, ext_part_forward right rs M true hr y hy]
  exact h.reverse.map_inl

theorem ext_backward_of_script (left right : ExecPath) (ls N rs M : Nat)
    (hl : ls + N ≤ left.length) (hr : rs + M ≤ right.length) (x y d : Nat) (hx : x ≤ N)
    (hy : y ≤ M) (h : Script (span left (ls + N - x) x) (span right (rs + M - y) y) d) :
    Script (ext_part left ls N false true x) (ext_part right rs M true true y) d := by
  rw [ext_part_backward left ls N false hl x hx, ext_part_backward right rs M true hr y hy]
  exact h.map_inl

/-- As long as no overlap test succeeds, no edit script of the two parts is shorter
than the rounds tried. -/
theorem no_hit_script_bound (left right : ExecPath) (ls N rs M : Nat)
    (hl : ls + N ≤ left.length) (hr : rs + M ≤ right.length) (d1 : Nat)
    (hno : NoHit left right ls N rs M d1) {D : Nat}
    (h : Script (span left ls N) (span right rs M) D) :
    (((N : Int) - M) % 2 = 1 → 2 * d1 ≤ D + 1) ∧ (((N : Int) - M) % 2 = 0 → 2 * d1 ≤ D) := by
  have hp := h.parity
  rw [length_span left ls N hl, length_span right rs M hr] at hp
  have halves : ∀ c, c ≤ D → ∃ x y : Nat, x ≤ N ∧ y ≤ M ∧ InRow c ((x : Int) - y) ∧
      InRow (D - c) (((N : Int) - M) - ((x : Int) - y)) ∧
      (x : Int) ≤ search_row left right ls N rs M false (c + 1) ((x : Int) - y) ∧
      (N : Int) - x ≤ search_row left right ls N rs M true (D - c + 1)
        (((N : Int) - M) - ((x : Int) - y)) := by
    intro c hc
    obtain ⟨a1, a2, b1, b2, ea, eb, s1, s2⟩ := h.split c hc
    obtain ⟨hxN, ea1, ea2⟩ := span_split left ls N hl a1 a2 ea
    obtain ⟨hyM, eb1, eb2⟩ := span_split right rs M hr b1 b2 eb
    have p1 := s1.parity
    have p2 := s2.parity
    rw [ea1, eb1] at s1
    rw [ea2, eb2] at s2
    have l2 : a2.length = N - a1.length := by
      rw [ea2]
      exact length_span _ _ _ (by omega)
    have m2 : b2.length = M - b1.length := by
      rw [eb2]
      exact length_span _ _ _ (by omega)
    rw [l2, m2] at p2
    have f := search_row_furthest left right ls N rs M false hl hr
      (ext_forward_of_script left right ls N rs M hl hr _ _ _ hxN hyM s1) a1.length b1.length
      rfl rfl
    rw [show ls + a1.length = ls + N - (N - a1.length) by omega,
      show rs + b1.length = rs + M - (M - b1.length) by omega] at s2
    have g := search_row_furthest left right ls N rs M true hl hr
      (ext_backward_of_script left right ls N rs M hl hr _ _ _ (by omega) (by omega) s2)
      (N - a1.length) (M - b1.length) rfl rfl
    have e : ((N - a1.length : Nat) : Int) - ((M - b1.length : Nat) : Int) =
        ((N : Int) - M) - ((a1.length : Int) - b1.length) := by omega
    rw [e] at g
    refine ⟨a1.length, b1.length, hxN, hyM, inRow_of_script p1.1 p1.2.1 p1.2.2, ?_, f, ?_⟩
    · have := inRow_of_script p2.1 p2.2.1 p2.2.2
      rw [e] at this
      exact this
    · have : ((N - a1.length : Nat) : Int) = (N : Int) - a1.length := by omega
      rw [← this]
      exact g
  constructor
  · intro hodd
    by_contra hcon
    obtain ⟨c, hc⟩ : ∃ c, D + 1 = 2 * c := ⟨(D + 1) / 2, by omega⟩
    obtain ⟨x, y, hx, hy, r1, r2, f, g⟩ := halves c (by omega)
    refine (hno c (by omega) _ r1).1 ⟨hodd, ?_, ?_, ?_⟩
    · unfold InRow at r2
      omega
    · unfold InRow at r2
      omega
    · rw [show D - c + 1 = c by omega] at g
      omega
  · intro heven
    by_contra hcon
    obtain ⟨c, hc⟩ : ∃ c, D = 2 * c := ⟨D / 2, by omega⟩
    obtain ⟨x, y, hx, hy, r1, r2, f, g⟩ := halves c (by omega)
    rw [show D - c = c by omega] at r2 g
    refine (hno c (by omega) _ r2).2 ⟨heven, ?_, ?_, ?_⟩
    · unfold InRow at r1
      omega
    · unfold InRow at r1
      omega
    · rw [show (N : Int) - M - ((N : Int) - M - ((x : Int) - y)) = (x : Int) - y by omega]
      omega

/-- At a successful forward test the part before the snake needs at most `d` edits
and the part after it fewer than `d`. -/
theorem forward_hit_halves (left right : ExecPath) (ls N rs M : Nat)
    (hl : ls + N ≤ left.length) (hr : rs + M ≤ right.length) (d1 : Nat) (k : Int)
    (hk : InRow d1 k) (hh : forward_hit left right ls N rs M d1 k) (x y u v : Nat)
    (hx : (x : Int) = diag_start (search_row left right ls N rs M false d1) d1 k)
    (hy : (y : Int) = (x : Int) - k)
    (hu : (u : Int) = search_row left right ls N rs M false (d1 + 1) k)
    (hv : (v : Int) = (u : Int) - k) (hxN : x ≤ N) (hyM : y ≤ M) (huN : u ≤ N) (hvM : v ≤ M) :
    edit_distance (span left ls x) (span right rs y) ≤ d1 ∧
    edit_distance (span left (ls + u) (N - u)) (span right (rs + v) (M - v)) + 1 ≤ d1 := by
  constructor
  · exact edit_distance_le_of_script (script_of_ext_forward left right ls N rs M hl hr x y d1
      hxN hyM ((search_row_reached left right ls N rs M false hl hr d1 k hk).1 x y hx hy))
  · obtain ⟨hodd, h1, h2, h3⟩ := hh
    unfold InRow at hk
    obtain ⟨d0, hd0⟩ : ∃ d0, d1 = d0 + 1 := ⟨d1 - 1, by omega⟩
    subst hd0
    have hin : InRow d0 ((N : Int) - M - k) := by
      unfold InRow
      push_cast at h1 h2 hk
      omega
    have hnn := search_row_in_row left right ls N rs M true d0 _ hin
    have hn0 := search_row_nonneg left right ls N rs M true (d0 + 1) ((N : Int) - M - k)
    obtain ⟨xb, hxb⟩ := Int.eq_ofNat_of_zero_le hn0
    obtain ⟨yb, hyb⟩ := Int.eq_ofNat_of_zero_le hnn.1
    have hs := (search_row_reached left right ls N rs M true hl hr d0 _ hin).2 xb yb hxb.symm
      (by omega)
    rw [show xb = N - u + (xb - (N - u)) by omega,
      show yb = M - v + (xb - (N - u)) by omega] at hs
    obtain ⟨m, hm, hs2⟩ := script_ext_part_drop left right ls N rs M true _ _ _ _ hs
    have := edit_distance_le_of_script (script_of_ext_backward left right ls N rs M hl hr _ _ _
      (by omega) (by omega) hs2)
    rw [show ls + N - (N - u) = ls + u by omega, show rs + M - (M - v) = rs + v by omega] at this
    omega

/-- At a successful backward test the parts before and after the snake need at most
`d` edits each. -/
theorem backward_hit_halves (left right : ExecPath) (ls N rs M : Nat)
    (hl : ls + N ≤ left.length) (hr : rs + M ≤ right.length) (d1 : Nat) (k : Int)
    (hk : InRow d1 k) (hh : backward_hit left right ls N rs M d1 k) (x y u v : Nat)
    (hx : (x : Int) = (N : Int) - search_row left right ls N rs M true (d1 + 1) k)
    (hy : (y : Int) = (M : Int) - (search_row left right ls N rs M true (d1 + 1) k - k))
    (hu : (u : Int) = (N : Int) - diag_start (search_row left right ls N rs M true d1) d1 k)
    (hv : (v : Int) =
      (M : Int) - (diag_start (search_row left right ls N rs M true d1) d1 k - k))
    (hxN : x ≤ N) (hyM : y ≤ M) (huN : u ≤ N) (hvM : v ≤ M) :
    edit_distance (span left ls x) (span right rs y) ≤ d1 ∧
    edit_distance (span left (ls + u) (N - u)) (span right (rs + v) (M - v)) ≤ d1 := by
  constructor
  · obtain ⟨heven, h1, h2, h3⟩ := hh
    unfold InRow at hk
    have hin : InRow d1 ((N : Int) - M - k) := by
      unfold InRow
      omega
    have hnn := search_row_in_row left right ls N rs M false d1 _ hin
    have hn0 := search_row_nonneg left right ls N rs M false (d1 + 1) ((N : Int) - M - k)
    obtain ⟨xf, hxf⟩ := Int.eq_ofNat_of_zero_le hn0
    obtain ⟨yf, hyf⟩ := Int.eq_ofNat_of_zero_le hnn.1
    have hs := (search_row_reached left right ls N rs M false hl hr d1 _ hin).2 xf yf hxf.symm
      (by omega)
    rw [show xf = x + (xf - x) by omega, show yf = y + (xf - x) by omega] at hs
    obtain ⟨m, hm, hs2⟩ := script_ext_part_drop left right ls N rs M false _ _ _ _ hs
    have := edit_distance_le_of_script (script_of_ext_forward left right ls N rs M hl hr _ _ _
      hxN hyM hs2)
    omega
  · have hs := (search_row_reached left right ls N rs M true hl hr d1 k hk).1 (N - u) (M - v)
      (by omega) (by omega)
    have := edit_distance_le_of_script (script_of_ext_backward left right ls N rs M hl hr _ _ _
      (by omega) (by omega) hs)
    rw [show ls + N - (N - u) = ls + u by omega, show rs + M - (M - v) = rs + v by omega] at this
    exact this

/-- The number `d` that `find_middle_snake_myers_original` returns is the edit
distance of the two parts, and the edit distances of the parts before and after the
returned snake add up to it. -/
theorem find_middle_snake_shortest (left right : ExecPath) (ls N rs M : Nat)
    (hl : ls + N ≤ left.length) (hr : rs + M ≤ right.length) (hN : 1 ≤ N) (hM : 1 ≤ M)
    (t : MiddleSnake) (ht : find_middle_snake_myers_original left ls N right rs M = .ok t)
    (d x y u v : Nat) (hd : t.d = d) (hx : t.x = x) (hy : t.y = y) (hu : t.u = u)
    (hv : t.v = v) :
    edit_distance (span left ls N) (span right rs M) = d ∧
    edit_distance (span left ls x) (span right rs y) +
      edit_distance (span left (ls + u) (N - u)) (span right (rs + v) (M - v)) = d := by
  obtain ⟨t2, e2, _, h0x, hxu, huN, h0y, hyv, hvM, _, _⟩ :=
    find_middle_snake_spec left right ls N rs M hl hr hN hM
  obtain ⟨t3, d1, k, e3, hk, hno, hcase⟩ := find_middle_snake_hit left right ls N rs M hl hr hN hM
  have hmatch := find_middle_snake_match left right ls N rs M hl hr hN hM t ht
  have e23 : t2 = t := by
    rw [ht] at e2
    injection e2 with e2
    exact e2.symm
  have e33 : t3 = t := by
    rw [ht] at e3
    injection e3 with e3
    exact e3.symm
  subst e23
  subst e33
  simp only [hx, hy, hu, hv] at hxu huN hyv hvM hmatch
  have hxu2 : x ≤ u := by omega
  have huN2 : u ≤ N := by omega
  have hyv2 : y ≤ v := by omega
  have hvM2 : v ≤ M := by omega
  -- the two halves and the snake make a script of the two parts
  have hsnake : span left (ls + x) (u - x) = span right (rs + y) (v - y) := by
    rw [show v - y = u - x by omega]
    apply span_eq_span
    intro i hi
    have := hmatch.2 (x + i) (by push_cast; omega) (by push_cast; omega)
    have e : ((y : Int) + (((x + i : Nat) : Int) - (x : Int))).toNat = y + i := by
      push_cast
      omega
    rw [e, show ls + (x + i) = ls + x + i by omega,
      show rs + (y + i) = rs + y + i by omega] at this
    exact this
  have eL : span left ls N = span left ls x ++
      (span left (ls + x) (u - x) ++ span left (ls + u) (N - u)) := by
    conv_lhs => rw [show N = x + ((u - x) + (N - u)) by omega]
    rw [span_add, span_add, show ls + x + (u - x) = ls + u by omega]
  have eR : span right rs M = span right rs y ++
      (span right (rs + y) (v - y) ++ span right (rs + v) (M - v)) := by
    conv_lhs => rw [show M = y + ((v - y) + (M - v)) by omega]
    rw [span_add, span_add, show rs + y + (v - y) = rs + v by omega]
  have hcomp : edit_distance (span left ls N) (span right rs M) ≤
      edit_distance (span left ls x) (span right rs y) +
        edit_distance (span left (ls + u) (N - u)) (span right (rs + v) (M - v)) := by
    have s1 := script_edit_distance (span left ls x) (span right rs y)
    have s2 := script_edit_distance (span left (ls + u) (N - u)) (span right (rs + v) (M - v))
    have s0 : Script (span left (ls + x) (u - x)) (span right (rs + y) (v - y)) 0 := by
      rw [hsnake]
      exact Script.refl _
    have := edit_distance_le_of_script (s1.append (s0.append s2))
    rw [← eL, ← eR] at this
    omega
  have hlow := no_hit_script_bound left right ls N rs M hl hr d1 hno
    (script_edit_distance (span left ls N) (span right rs M))
  rcases hcase with ⟨hh, rfl⟩ | ⟨hh, rfl⟩
  · simp only [] at hd hx hy hu hv
    have := forward_hit_halves left right ls N rs M hl hr d1 k hk hh x y u v hx.symm
      (by omega) hu.symm (by omega) (by omega) (by omega) huN2 hvM2
    have := hlow.1 hh.1
    omega
  · simp only [] at hd hx hy hu hv
    have := backward_hit_halves left right ls N rs M hl hr d1 k hk hh x y u v (by omega)
      (by omega) (by omega) (by omega) (by omega) (by omega) huN2 hvM2
    have := hlow.2 hh.1
    omega

/-! ## The shadows hold an edit script -/

theorem ScriptIn.of_halves {left right : ExecPath} {ls N rs M x y u v : Nat}
    {sl sr a1 a2 c1 c2 el1 er1 el2 er2 : List Bool}
    (hl : ls + N ≤ left.length) (hr : rs + M ≤ right.length)
    (hxu : x ≤ u) (huN : u ≤ N) (hyv : y ≤ v) (hvM : v ≤ M) (huv : u - x = v - y)
    (hsnake : ∀ i, i < u - x → left[ls + x + i]? = right[rs + y + i]?)
    (hfl : ∀ j, ls ≤ j → j < ls + N → sl[j]? = some false)
    (hfr : ∀ j, rs ≤ j → j < rs + M → sr[j]? = some false)
    (oa1 : ∀ j, j < ls ∨ ls + x ≤ j → a1[j]? = sl[j]?)
    (oa2 : ∀ j, j < rs ∨ rs + y ≤ j → a2[j]? = sr[j]?)
    (oc1 : ∀ j, j < ls + u ∨ ls + u + (N - u) ≤ j → c1[j]? = a1[j]?)
    (oc2 : ∀ j, j < rs + v ∨ rs + v + (M - v) ≤ j → c2[j]? = a2[j]?)
    (S1 : ScriptIn left right ls x rs y a1 a2 el1 er1)
    (S2 : ScriptIn left right (ls + u) (N - u) (rs + v) (M - v) c1 c2 el2 er2) :
    ScriptIn left right ls N rs M c1 c2
      (el1 ++ (List.replicate (u - x) false ++ el2))
      (er1 ++ (List.replicate (v - y) false ++ er2)) := by
  obtain ⟨l1, r1, cl1, cr1, u1, n1⟩ := S1
  obtain ⟨l2, r2, cl2, cr2, u2, n2⟩ := S2
  have hNsplit : N = x + ((u - x) + (N - u)) := by omega
  have hMsplit : M = y + ((v - y) + (M - v)) := by omega
  have contain : ∀ (n0 w z : Nat) (e1 e2 b1 d1 : List Bool) (st : Nat),
      e1.length = w → w ≤ z → z ≤ n0 →
      (∀ j, j < w → e1[j]? = some true → b1[st + j]? = some true) →
      (∀ j, j < n0 - z → e2[j]? = some true → d1[st + z + j]? = some true) →
      (∀ j, j < st + z ∨ st + z + (n0 - z) ≤ j → d1[j]? = b1[j]?) →
      ∀ j, j < n0 → (e1 ++ (List.replicate (z - w) false ++ e2))[j]? = some true →
        d1[st + j]? = some true := by
    intro n0 w z e1 e2 b1 d1 st he1 hwz hzn c1' c2' o j hj hm
    by_cases hjw : j < w
    · rw [List.getElem?_append_left (by omega)] at hm
      rw [o (st + j) (Or.inl (by omega))]
      exact c1' j hjw hm
    · rw [List.getElem?_append_right (by omega), he1] at hm
      by_cases hjz : j < z
      · rw [List.getElem?_append_left (by simp; omega)] at hm
        exact absurd hm (fun h => getElem?_replicate_false _ _ h)
      · rw [List.getElem?_append_right (by simp; omega), List.length_replicate] at hm
        have := c2' (j - w - (z - w)) (by omega) hm
        rw [show st + z + (j - w - (z - w)) = st + j by omega] at this
        exact this
  have counts : ∀ (n0 w z : Nat) (s0 b1 d1 : List Bool) (st : Nat), w ≤ z → z ≤ n0 →
      (∀ j, st ≤ j → j < st + n0 → s0[j]? = some false) →
      (∀ j, j < st ∨ st + w ≤ j → b1[j]? = s0[j]?) →
      (∀ j, j < st + z ∨ st + z + (n0 - z) ≤ j → d1[j]? = b1[j]?) →
      (span d1 st n0).count true =
        (span b1 st w).count true + (span d1 (st + z) (n0 - z)).count true := by
    intro n0 w z s0 b1 d1 st hwz hzn hf oa oc
    have e : n0 = w + ((z - w) + (n0 - z)) := by omega
    have e1 : span d1 st n0 =
        span d1 st w ++ (span d1 (st + w) (z - w) ++ span d1 (st + w + (z - w)) (n0 - z)) := by
      conv_lhs => rw [e]
      rw [span_add, span_add]
    rw [e1, List.count_append, List.count_append,
      show st + w + (z - w) = st + z by omega]
    have e2 : span d1 st w = span b1 st w :=
      span_eq_span _ _ _ _ _ (fun j hj => oc (st + j) (Or.inl (by omega)))
    have e3 : (span d1 (st + w) (z - w)).count true = 0 := by
      apply count_span_false
      intro j h1 h2
      rw [oc j (Or.inl (by omega)), oa j (Or.inr (by omega))]
      exact hf j (by omega) (by omega)
    rw [e2, e3]
    omega
  refine ⟨?_, ?_, ?_, ?_, ?_, ?_⟩
  · simp only [List.length_append, List.length_replicate, l1, l2]
    omega
  · simp only [List.length_append, List.length_replicate, r1, r2]
    omega
  · exact contain N x u el1 el2 a1 c1 ls l1 hxu huN cl1 cl2 oc1
  · exact contain M y v er1 er2 a2 c2 rs r1 hyv hvM cr1 cr2 oc2
  · have eL : span left ls N = span left ls x ++
        (span left (ls + x) (u - x) ++ span left (ls + u) (N - u)) := by
      conv_lhs => rw [hNsplit]
      rw [span_add, span_add, show ls + x + (u - x) = ls + u by omega]
    have eR : span right rs M = span right rs y ++
        (span right (rs + y) (v - y) ++ span right (rs + v) (M - v)) := by
      conv_lhs => rw [hMsplit]
      rw [span_add, span_add, show rs + y + (v - y) = rs + v by omega]
    have lenL1 : (span left ls x).length = x := length_span _ _ _ (by omega)
    have lenR1 : (span right rs y).length = y := length_span _ _ _ (by omega)
    have lenLm : (span left (ls + x) (u - x)).length = u - x := length_span _ _ _ (by omega)
    have lenRm : (span right (rs + y) (v - y)).length = v - y := length_span _ _ _ (by omega)
    rw [eL, eR, unshadowed_append _ _ _ _ (by rw [lenL1, l1]),
      unshadowed_append _ _ _ _ (by rw [lenLm, List.length_replicate]),
      unshadowed_append _ _ _ _ (by rw [lenR1, r1]),
      unshadowed_append _ _ _ _ (by rw [lenRm, List.length_replicate]), u1, u2]
    have m1 : unshadowed (span left (ls + x) (u - x)) (List.replicate (u - x) false) =
        span left (ls + x) (u - x) := by
      have := unshadowed_replicate_false (span left (ls + x) (u - x))
      rw [lenLm] at this
      exact this
    have m2 : unshadowed (span right (rs + y) (v - y)) (List.replicate (v - y) false) =
        span right (rs + y) (v - y) := by
      have := unshadowed_replicate_false (span right (rs + y) (v - y))
      rw [lenRm] at this
      exact this
    rw [m1, m2, ← huv]
    rw [span_eq_span left right (ls + x) (rs + y) (u - x) hsnake]
  · rw [counts N x u sl a1 c1 ls hxu huN hfl oa1 oc1,
      counts M y v sr a2 c2 rs hyv hvM hfr oa2 oc2]
    simp only [List.count_append, count_replicate_false]
    omega

/-- The recursive comparison on two parts whose shadow bits are not set returns with
enough fuel, writes no bit outside the two parts, and the bits it sets hold a shortest
edit script with at least half of them. -/
theorem CheckDiff_shadow_script (left right : ExecPath) :
    ∀ (fuel ls N rs M : Nat) (sl sr : List Bool),
      ls + N ≤ left.length → rs + M ≤ right.length →
      sl.length = left.length → sr.length = right.length → N + M < fuel →
      (∀ j, ls ≤ j → j < ls + N → sl[j]? = some false) →
      (∀ j, rs ≤ j → j < rs + M → sr[j]? = some false) →
      ∃ sl2 sr2, CheckDiff_shadow left right fuel ls N rs M sl sr = .ok (sl2, sr2) ∧
        sl2.length = sl.length ∧ sr2.length = sr.length ∧
        (∀ j, j < ls ∨ ls + N ≤ j → sl2[j]? = sl[j]?) ∧
        (∀ j, j < rs ∨ rs + M ≤ j → sr2[j]? = sr[j]?) ∧
        ∃ el er, ScriptIn left right ls N rs M sl2 sr2 el er ∧
          el.count true + er.count true = edit_distance (span left ls N) (span right rs M)
  | 0, ls, N, rs, M, sl, sr, _, _, _, _, hf, _, _ => by omega
  | fuel + 1, ls, N, rs, M, sl, sr, hl, hr, hsl, hsr, hf, hfl, hfr => by
    by_cases hN : N = 0
    · subst hN
      obtain ⟨s, e, len, b, o⟩ := shadow_range_exact rs M M 0 sr (by omega) (by omega)
      refine ⟨sl, s, ?_, rfl, len, fun _ _ => rfl, fun j hj => o j (by omega), [],
        List.replicate M true, ⟨rfl, by simp, fun j hj => by omega,
        fun j hj _ => b j (by omega) hj, ?_, ?_⟩, ?_⟩
      · simp only [CheckDiff_shadow]
        rw [if_pos trivial, e]
        rfl
      · rw [unshadowed_replicate_true]
        simp [span, unshadowed]
      · have := count_le_length_span s rs M
        rw [count_replicate_true]
        simp only [span, List.take_zero, List.count_nil] at this ⊢
        omega
      · rw [count_replicate_true, show span left ls 0 = [] by simp [span],
          edit_distance_nil_left, length_span _ _ _ hr]
        simp
    by_cases hM : M = 0
    · subst hM
      obtain ⟨s, e, len, b, o⟩ := shadow_range_exact ls N N 0 sl (by omega) (by omega)
      refine ⟨s, sr, ?_, len, rfl, fun j hj => o j (by omega), fun _ _ => rfl,
        List.replicate N true, [], ⟨by simp, rfl, fun j hj _ => b j (by omega) hj,
        fun j hj => by omega, ?_, ?_⟩, ?_⟩
      · simp only [CheckDiff_shadow]
        rw [if_neg hN, if_pos trivial, e]
        rfl
      · rw [unshadowed_replicate_true]
        simp [span, unshadowed]
      · have := count_le_length_span s ls N
        rw [count_replicate_true]
        simp only [span, List.take_zero, List.count_nil] at this ⊢
        omega
      · rw [count_replicate_true, show span right rs 0 = [] by simp [span],
          edit_distance_nil_right, length_span _ _ _ hl]
        simp
    obtain ⟨t, ht, h0d, h0x, hxu, huN, h0y, hyv, hvM, hbig, _⟩ :=
      find_middle_snake_spec left right ls N rs M hl hr (by omega) (by omega)
    have hmatch := find_middle_snake_match left right ls N rs M hl hr (by omega) (by omega) t ht
    have hzero := find_middle_snake_zero left right ls N rs M hl hr (by omega) (by omega) t ht
    have hone := find_middle_snake_one left right ls N rs M hl hr (by omega) (by omega) t ht
    obtain ⟨td, tx, ty, tu, tv⟩ := t
    simp only [] at h0d h0x hxu huN h0y hyv hvM hbig hmatch hzero hone
    obtain ⟨d, rfl⟩ := Int.eq_ofNat_of_zero_le h0d
    obtain ⟨x, rfl⟩ := Int.eq_ofNat_of_zero_le h0x
    obtain ⟨y, rfl⟩ := Int.eq_ofNat_of_zero_le h0y
    obtain ⟨u, rfl⟩ := Int.eq_ofNat_of_zero_le (le_trans h0x hxu)
    obtain ⟨v, rfl⟩ := Int.eq_ofNat_of_zero_le (le_trans h0y hyv)
    have hxu2 : x ≤ u := by omega
    have huN2 : u ≤ N := by omega
    have hyv2 : y ≤ v := by omega
    have hvM2 : v ≤ M := by omega
    obtain ⟨hdist, hsum⟩ := find_middle_snake_shortest left right ls N rs M hl hr (by omega)
      (by omega) _ ht d x y u v rfl rfl rfl rfl rfl
    have hunfold : CheckDiff_shadow left right (fuel + 1) ls N rs M sl sr =
        if d > 1 then
          (CheckDiff_shadow left right fuel ls x rs y sl sr >>= fun s =>
            CheckDiff_shadow left right fuel (ls + u) (N - u) (rs + v) (M - v) s.1 s.2)
        else if d = 1 then
          if N < M then
            (shadow_first_diff right left rs ls N N 0 sr >>= fun sr1 =>
              set_shadow sr1 (rs + M - 1) >>= fun sr2 => .ok (sl, sr2))
          else
            (shadow_first_diff left right ls rs M M 0 sl >>= fun sl1 =>
              set_shadow sl1 (ls + N - 1) >>= fun sl2 => .ok (sl2, sr))
        else .ok (sl, sr) := by
      simp only [CheckDiff_shadow]
      rw [if_neg hN, if_neg hM, ht]
      simp only [Except.bind_ok_eq, size_of_int_nat, size_sub_of_le huN2, size_sub_of_le hvM2]
    rw [hunfold]
    have lenL : (span left ls N).length = N := length_span _ _ _ hl
    have lenR : (span right rs M).length = M := length_span _ _ _ hr
    by_cases hd1 : d > 1
    · rw [if_pos hd1]
      obtain ⟨hb1, hb2⟩ := hbig (by omega)
      obtain ⟨a1, a2, ea, la1, la2, oa1, oa2, el1, er1, S1, D1⟩ :=
        CheckDiff_shadow_script left right fuel ls x rs y sl sr
          (by omega) (by omega) hsl hsr (by omega)
          (fun j h1 h2 => hfl j h1 (by omega)) (fun j h1 h2 => hfr j h1 (by omega))
      obtain ⟨c1, c2, ec, lc1, lc2, oc1, oc2, el2, er2, S2, D2⟩ :=
        CheckDiff_shadow_script left right fuel (ls + u) (N - u) (rs + v) (M - v) a1 a2
          (by omega) (by omega) (by rw [la1]; exact hsl) (by rw [la2]; exact hsr) (by omega)
          (fun j h1 h2 => by
            rw [oa1 j (Or.inr (by omega))]
            exact hfl j (by omega) (by omega))
          (fun j h1 h2 => by
            rw [oa2 j (Or.inr (by omega))]
            exact hfr j (by omega) (by omega))
      refine ⟨c1, c2, ?_, by rw [lc1, la1], by rw [lc2, la2], ?_, ?_, _, _,
        ScriptIn.of_halves hl hr hxu2 huN2 hyv2 hvM2 (by omega) ?_ hfl hfr oa1 oa2 oc1 oc2
          S1 S2, ?_⟩
      · rw [ea]
        exact ec
      · intro j hj
        rw [oc1 j (by omega), oa1 j (by omega)]
      · intro j hj
        rw [oc2 j (by omega), oa2 j (by omega)]
      rotate_left
      · simp only [List.count_append, count_replicate_false]
        omega
      · intro i hi
        have := hmatch.2 (x + i) (by push_cast; omega) (by push_cast; omega)
        have e : ((y : Int) + (((x + i : Nat) : Int) - (x : Int))).toNat = y + i := by
          push_cast
          omega
        rw [e, show ls + (x + i) = ls + x + i by omega,
          show rs + (y + i) = rs + y + i by omega] at this
        exact this
    rw [if_neg hd1]
    by_cases hd2 : d = 1
    · rw [if_pos hd2]
      subst hd2
      by_cases hlt : N < M
      · rw [if_pos hlt]
        rcases hone rfl with ⟨hMN, p, hp⟩ | ⟨hNM, _⟩
        · subst hMN
          have hsh := hp.shadow_eq (by omega) (by omega) sr hsr
          obtain ⟨k1, k2, k3, k4⟩ := one_inserted_shadow_props sr rs N p hp.1 (by omega) hfr
          refine ⟨sl, _, ?_, rfl, k1, fun _ _ => rfl, k2, List.replicate N false,
            (List.replicate (N + 1) false).set p true, ⟨by simp, by simp, ?_, ?_, ?_, ?_⟩, ?_⟩
          · have e : (shadow_first_diff right left rs ls N N 0 sr >>= fun sr1 =>
                set_shadow sr1 (rs + (N + 1) - 1) >>= fun sr2 =>
                  (Except.ok (sl, sr2) : Except Fault (List Bool × List Bool))) =
                ((shadow_first_diff right left rs ls N N 0 sr >>= fun s1 =>
                  set_shadow s1 (rs + (N + 1) - 1)) >>= fun sr2 => .ok (sl, sr2)) := by
              cases shadow_first_diff right left rs ls N N 0 sr <;> rfl
            rw [e, hsh]
            rfl
          · intro j _ hj
            exact absurd hj (fun h => getElem?_replicate_false _ _ h)
          · intro j _ hj
            rw [getElem?_replicate_set _ _ _ hj]
            exact k3
          · have := unshadowed_replicate_false (span left ls N)
            rw [lenL] at this
            rw [this, hp.unshadowed_eq (by omega) (by omega)]
          · rw [count_span_false sl ls N hfl, count_replicate_false,
              count_replicate_set _ _ (by have := hp.1; omega)]
            omega
          · rw [count_replicate_false, count_replicate_set _ _ (by have := hp.1; omega), hdist]
        · omega
      · rw [if_neg hlt]
        rcases hone rfl with ⟨hMN, _⟩ | ⟨hNM, p, hp⟩
        · omega
        · subst hNM
          have hsh := hp.shadow_eq (by omega) (by omega) sl hsl
          obtain ⟨k1, k2, k3, k4⟩ := one_inserted_shadow_props sl ls M p hp.1 (by omega) hfl
          refine ⟨_, sr, ?_, k1, rfl, k2, fun _ _ => rfl,
            (List.replicate (M + 1) false).set p true, List.replicate M false, ⟨by simp,
            by simp, ?_, ?_, ?_, ?_⟩, ?_⟩
          · have e : (shadow_first_diff left right ls rs M M 0 sl >>= fun sl1 =>
                set_shadow sl1 (ls + (M + 1) - 1) >>= fun sl2 =>
                  (Except.ok (sl2, sr) : Except Fault (List Bool × List Bool))) =
                ((shadow_first_diff left right ls rs M M 0 sl >>= fun s1 =>
                  set_shadow s1 (ls + (M + 1) - 1)) >>= fun sl2 => .ok (sl2, sr)) := by
              cases shadow_first_diff left right ls rs M M 0 sl <;> rfl
            rw [e, hsh]
            rfl
          · intro j _ hj
            rw [getElem?_replicate_set _ _ _ hj]
            exact k3
          · intro j _ hj
            exact absurd hj (fun h => getElem?_replicate_false _ _ h)
          · have := unshadowed_replicate_false (span right rs M)
            rw [lenR] at this
            rw [this, hp.unshadowed_eq (by omega) (by omega)]
          · rw [count_span_false sr rs M hfr, count_replicate_false,
              count_replicate_set _ _ (by have := hp.1; omega)]
            omega
          · rw [count_replicate_false, count_replicate_set _ _ (by have := hp.1; omega), hdist]
    · rw [if_neg hd2]
      have hd0 : d = 0 := by omega
      subst hd0
      obtain ⟨hNM, heq⟩ := hzero rfl
      subst hNM
      refine ⟨sl, sr, rfl, rfl, rfl, fun _ _ => rfl, fun _ _ => rfl, List.replicate N false,
        List.replicate N false, ⟨by simp, by simp, ?_, ?_, ?_, ?_⟩, ?_⟩
      · intro j _ hj
        exact absurd hj (fun h => getElem?_replicate_false _ _ h)
      · intro j _ hj
        exact absurd hj (fun h => getElem?_replicate_false _ _ h)
      · rw [span_eq_span left right ls rs N heq]
      · rw [count_span_false sl ls N hfl, count_span_false sr rs N hfr]
        omega
      · rw [count_replicate_false, hdist]

/-! ## Equal parts, and one inserted element -/

theorem CheckDiff_shadow_of_small (left right : ExecPath) (fuel ls N rs M : Nat)
    (sl sr : List Bool) (hN : N ≠ 0) (hM : M ≠ 0) (t : MiddleSnake)
    (ht : find_middle_snake_myers_original left ls N right rs M = .ok t) :
    (t.d = 0 → CheckDiff_shadow left right (fuel + 1) ls N rs M sl sr = .ok (sl, sr)) ∧
    (t.d = 1 → N < M → CheckDiff_shadow left right (fuel + 1) ls N rs M sl sr =
      ((shadow_first_diff right left rs ls N N 0 sr >>= fun s1 =>
        set_shadow s1 (rs + M - 1)) >>= fun sr2 => .ok (sl, sr2))) := by
  constructor
  · intro hd
    simp only [CheckDiff_shadow]
    rw [if_neg hN, if_neg hM, ht]
    simp only [Except.bind_ok_eq, hd]
    rfl
  · intro hd hlt
    simp only [CheckDiff_shadow]
    rw [if_neg hN, if_neg hM, ht]
    simp only [Except.bind_ok_eq, hd]
    have e1 : size_of_int 1 = 1 := rfl
    rw [e1, if_neg (by omega), if_pos rfl, if_pos hlt]
    cases shadow_first_diff right left rs ls N N 0 sr <;> rfl

/-- For two equal parts the search returns `d = 0`. -/
theorem find_middle_snake_of_equal (left right : ExecPath) (ls N rs : Nat)
    (hl : ls + N ≤ left.length) (hr : rs + N ≤ right.length) (hN : 1 ≤ N)
    (heq : ∀ j, j < N → left[ls + j]? = right[rs + j]?) :
    ∃ t, find_middle_snake_myers_original left ls N right rs N = .ok t ∧ t.d = 0 := by
  obtain ⟨t, d1, k, e, hk, hno, hcase⟩ := find_middle_snake_hit left right ls N rs N hl hr hN hN
  obtain ⟨p, hp, hpN, _, _, hpd⟩ := head_snake_spec left right ls N rs N hl hr
  have hpeq : p = N := by
    by_contra hc
    exact hpd (by omega) (by omega) (heq p (by omega))
  have hhit : backward_hit left right ls N rs N 0 0 := by
    unfold backward_hit
    refine ⟨by omega, by omega, by omega, ?_⟩
    have e0 : (N : Int) - N - 0 = 0 := by omega
    rw [e0, search_row_one_zero, search_row_one_zero, hp, hpeq]
    have := snake_end_ge left right ls N rs N true 0 0
    omega
  have hd1 : d1 = 0 := by
    by_contra hc
    exact (hno 0 (by omega) 0 (by unfold InRow; omega)).2 hhit
  subst hd1
  refine ⟨t, e, ?_⟩
  rcases hcase with ⟨hh, _⟩ | ⟨_, rfl⟩
  · exact absurd hh (no_forward_hit_zero left right ls N rs N k)
  · rfl

/-- For a part and the same part with one element inserted the search returns
`d = 1`. -/
theorem find_middle_snake_of_inserted (left right : ExecPath) (ls N rs i : Nat)
    (hl : ls + N ≤ left.length) (hr : rs + (N + 1) ≤ right.length) (hN : 1 ≤ N)
    (h1 : ∀ j, j < i → right[rs + j]? = left[ls + j]?)
    (h2 : ∀ j, i ≤ j → j < N → right[rs + j + 1]? = left[ls + j]?) :
    ∃ t, find_middle_snake_myers_original left ls N right rs (N + 1) = .ok t ∧ t.d = 1 := by
  obtain ⟨t, d1, k, e, hk, hno, hcase⟩ :=
    find_middle_snake_hit left right ls N rs (N + 1) hl hr hN (by omega)
  obtain ⟨p, hp, hpN, _, _, hpd⟩ := head_snake_spec left right ls N rs (N + 1) hl hr
  have hpi : i ≤ p ∨ N ≤ p := by
    by_contra hc
    exact hpd (by omega) (by omega) (h1 p (by omega)).symm
  have hA : (N : Int) ≤ snake_end left right ls N rs (N + 1) false p (-1) := by
    by_contra hc
    have hs := snake_end_spec left right ls N rs (N + 1) false hl hr p (-1) (by omega)
      (by omega)
    have hge := snake_end_ge left right ls N rs (N + 1) false p (-1)
    obtain ⟨a, ha⟩ := Int.eq_ofNat_of_zero_le
      (by omega : (0 : Int) ≤ snake_end left right ls N rs (N + 1) false p (-1))
    rw [ha] at hs hc hge
    apply hs.2.2.2.2.2 (by omega) (by push_cast; omega)
    rw [show (a : Int) - -1 = ((a + 1 : Nat) : Int) by push_cast; omega]
    apply forward_match_of_getElem left right ls N rs (N + 1) a (a + 1) (by omega)
    rw [← Nat.add_assoc]
    exact (h2 a (by omega) (by omega)).symm
  have hhit : forward_hit left right ls N rs (N + 1) 1 (-1) := by
    unfold forward_hit
    refine ⟨by push_cast; omega, by push_cast; omega, by push_cast; omega, ?_⟩
    have e0 : (N : Int) - ((N + 1 : Nat) : Int) - -1 = 0 := by push_cast; omega
    rw [e0]
    show search_row left right ls N rs (N + 1) false (1 + 1) (-1) +
      search_row left right ls N rs (N + 1) true 1 0 ≥ N
    rw [search_row_succ, Nat.cast_one, diag_start_one_neg, search_row_one_zero, hp]
    have := search_row_nonneg left right ls N rs (N + 1) true 1 0
    omega
  have hd1 : d1 ≤ 1 := by
    by_contra hc
    exact (hno 1 (by omega) (-1) (by unfold InRow; omega)).1 hhit
  refine ⟨t, e, ?_⟩
  rcases hcase with ⟨hh, rfl⟩ | ⟨hh, _⟩
  · have : d1 ≠ 0 := by
      intro h0
      subst h0
      exact no_forward_hit_zero left right ls N rs (N + 1) k hh
    simp only []
    omega
  · unfold backward_hit at hh
    have := hh.1
    push_cast at this
    omega

theorem common_prefix_length_of_first_diff :
    ∀ (p : Nat) (l r : ExecPath), p ≤ l.length → p ≤ r.length →
      (∀ j, j < p → l[j]? = r[j]?) → (p < l.length → p < r.length → l[p]? ≠ r[p]?) →
      common_prefix_length l r = p
  | 0, l, r, _, _, _, h2 => by
    cases l with
    | nil => simp [common_prefix_length]
    | cons a l =>
      cases r with
      | nil => simp [common_prefix_length]
      | cons b r =>
        have : a ≠ b := by
          intro e
          apply h2 (by simp) (by simp)
          simp [e]
        simp [common_prefix_length, this]
  | p + 1, l, r, hl, hr, h1, h2 => by
    cases l with
    | nil => simp at hl
    | cons a l =>
      cases r with
      | nil => simp at hr
      | cons b r =>
        have hab : a = b := by
          have := h1 0 (by omega)
          simpa using this
        have := common_prefix_length_of_first_diff p l r (by simpa using hl) (by simpa using hr)
          (fun j hj => by
            have := h1 (j + 1) (by omega)
            simpa using this)
          (fun h3 h4 => by
            have := h2 (by simpa using h3) (by simpa using h4)
            simpa using this)
        simp [common_prefix_length, hab, this]

theorem count_set_of_false (s : List Bool) (i : Nat) (h : s[i]? = some false) :
    (s.set i true).count true = s.count true + 1 := by
  induction s generalizing i with
  | nil => simp at h
  | cons a s ih =>
    cases i with
    | zero =>
      have : a = false := by simpa using h
      subst this
      simp
    | succ i =>
      have := ih i (by simpa using h)
      simp only [List.set_cons_succ, List.count_cons, this]
      omega

/-- The inserted list: the agreement before the place of the insertion and the
shift behind it. -/
theorem getElem?_inserted (l : ExecPath) (c : PCID) (i : Nat) (hi : i ≤ l.length) :
    (∀ j, j < i → (l.take i ++ c :: l.drop i)[j]? = l[j]?) ∧
    (∀ j, i ≤ j → j < l.length → (l.take i ++ c :: l.drop i)[j + 1]? = l[j]?) := by
  constructor
  · intro j hj
    rw [List.getElem?_append_left (by rw [List.length_take]; omega), List.getElem?_take,
      if_pos hj]
  · intro j h1 h2
    rw [List.getElem?_append_right (by rw [List.length_take]; omega), List.length_take,
      Nat.min_eq_left hi, show j + 1 - i = (j - i) + 1 by omega, List.getElem?_cons_succ,
      List.getElem?_drop, show i + (j - i) = j by omega]

/-! ## The comparison of two whole paths -/

theorem ShadowGrows.count_le :
    ∀ (e s : List Bool), ShadowGrows e s → e.count true ≤ s.count true
  | [], s, _ => by simp
  | b :: e, [], h => by simp [ShadowGrows] at h
  | b :: e, c :: s, h => by
    have ih := ShadowGrows.count_le e s ⟨by simpa using h.1, fun j hj => by
      have := h.2 (j + 1) (by simpa using hj)
      simpa using this⟩
    have h0 := h.2 0
    simp only [List.getElem?_cons_zero, Option.some.injEq] at h0
    cases b with
    | false =>
      rw [List.count_cons_of_ne (by simp)]
      exact le_trans ih (List.count_le_count_cons _ _ _)
    | true =>
      rw [h0 rfl, List.count_cons_self, List.count_cons_self]
      omega

/-- On two whole paths with no shadow bit set the recursive comparison returns, and
the bits it sets hold a shortest edit script with at least half of them. -/
theorem CheckDiff_shadow_holds_script (left right : ExecPath) (fuel : Nat)
    (hf : left.length + right.length < fuel) :
    ∃ sl sr, CheckDiff_shadow left right fuel 0 left.length 0 right.length
        (List.replicate left.length false) (List.replicate right.length false) = .ok (sl, sr) ∧
      ∃ el er, ShadowGrows el sl ∧ ShadowGrows er sr ∧ el.length = left.length ∧
        er.length = right.length ∧ unshadowed left el = unshadowed right er ∧
        el.count true + er.count true = edit_distance left right ∧
        edit_distance left right ≤ sl.count true + sr.count true ∧
        sl.count true + sr.count true ≤ 2 * edit_distance left right := by
  obtain ⟨sl, sr, e, l1, l2, _, _, el, er, ⟨h1, h2, h3, h4, h5, h6⟩, h7⟩ :=
    CheckDiff_shadow_script left right fuel 0 left.length 0 right.length
      (List.replicate left.length false) (List.replicate right.length false)
      (by omega) (by omega) (by simp) (by simp) hf
      (fun j _ hj => by simp [List.getElem?_replicate]; omega)
      (fun j _ hj => by simp [List.getElem?_replicate]; omega)
  simp only [List.length_replicate] at l1 l2
  have s1 : span sl 0 left.length = sl := by
    rw [← l1]
    exact span_full sl
  have s2 : span sr 0 right.length = sr := by
    rw [← l2]
    exact span_full sr
  rw [span_full, span_full] at h5 h7
  rw [s1, s2] at h6
  have g1 : ShadowGrows el sl := by
    refine ⟨by rw [l1, h1], ?_⟩
    intro j hj
    have hlt : j < left.length := by
      by_contra hc
      rw [List.getElem?_eq_none (by omega)] at hj
      simp at hj
    have := h3 j hlt hj
    rw [Nat.zero_add] at this
    exact this
  have g2 : ShadowGrows er sr := by
    refine ⟨by rw [l2, h2], ?_⟩
    intro j hj
    have hlt : j < right.length := by
      by_contra hc
      rw [List.getElem?_eq_none (by omega)] at hj
      simp at hj
    have := h4 j hlt hj
    rw [Nat.zero_add] at this
    exact this
  have c1 := ShadowGrows.count_le el sl g1
  have c2 := ShadowGrows.count_le er sr g2
  exact ⟨sl, sr, e, el, er, g1, g2, h1, h2, h5, h7, by omega, by omega⟩

/-- On two equal paths the recursive comparison sets no shadow bit. -/
theorem CheckDiff_shadow_equal (l : ExecPath) (fuel : Nat) (sl sr : List Bool) :
    CheckDiff_shadow l l (fuel + 1) 0 l.length 0 l.length sl sr = .ok (sl, sr) := by
  by_cases hN : l.length = 0
  · simp only [CheckDiff_shadow]
    rw [if_pos hN, hN]
    simp [shadow_range]
    rfl
  · obtain ⟨t, ht, hd⟩ := find_middle_snake_of_equal l l 0 l.length 0 (by omega) (by omega)
      (by omega) (fun _ _ => rfl)
    exact (CheckDiff_shadow_of_small l l fuel 0 l.length 0 l.length sl sr hN hN t ht).1 hd

/-- On a path and the same path with one PCID inserted the recursive comparison sets
two shadow bits of the longer path: the bit of the first position at which the two
paths differ and the bit of the last position. -/
theorem CheckDiff_shadow_inserted (l : ExecPath) (c : PCID) (i : Nat) (hi : i ≤ l.length)
    (fuel : Nat) :
    CheckDiff_shadow l (l.take i ++ c :: l.drop i) (fuel + 1) 0 l.length 0 (l.length + 1)
        (List.replicate l.length false) (List.replicate (l.length + 1) false) =
      .ok (List.replicate l.length false,
        ((List.replicate (l.length + 1) false).set
          (common_prefix_length l (l.take i ++ c :: l.drop i)) true).set l.length true) ∧
    i ≤ common_prefix_length l (l.take i ++ c :: l.drop i) ∧
    common_prefix_length l (l.take i ++ c :: l.drop i) ≤ l.length ∧
    unshadowed (l.take i ++ c :: l.drop i) ((List.replicate (l.length + 1) false).set
      (common_prefix_length l (l.take i ++ c :: l.drop i)) true) = l := by
  have hrlen : (l.take i ++ c :: l.drop i).length = l.length + 1 := by
    simp only [List.length_append, List.length_take, List.length_cons, List.length_drop]
    omega
  obtain ⟨g1, g2⟩ := getElem?_inserted l c i hi
  generalize hr : l.take i ++ c :: l.drop i = r at hrlen g1 g2 ⊢
  by_cases hN : l.length = 0
  · have hl : l = [] := List.eq_nil_of_length_eq_zero hN
    subst hl
    have hi0 : i = 0 := by simpa using hi
    subst hi0
    simp only [List.take_nil, List.drop_nil, List.nil_append] at hr
    subst hr
    refine ⟨?_, by simp [common_prefix_length], by simp [common_prefix_length], ?_⟩
    · simp [CheckDiff_shadow, shadow_range, set_shadow, common_prefix_length]
      rfl
    · simp [common_prefix_length, unshadowed]
  · obtain ⟨t, ht, hd⟩ := find_middle_snake_of_inserted l r 0 l.length 0 i (by omega)
      (by omega) (by omega)
      (fun j hj => by simpa using g1 j hj)
      (fun j h1 h2 => by simpa using g2 j h1 h2)
    rcases find_middle_snake_one l r 0 l.length 0 (l.length + 1) (by omega) (by omega)
      (by omega) (by omega) t ht hd with ⟨_, p, hp⟩ | ⟨h, _⟩
    · have hpc : common_prefix_length l r = p := by
        apply common_prefix_length_of_first_diff p l r hp.1 (by have := hp.1; omega)
        · intro j hj
          have := hp.2.1 j hj
          simp only [Nat.zero_add] at this
          exact this.symm
        · intro h1 _ h3
          have := hp.2.2.1 h1
          simp only [Nat.zero_add] at this
          exact this h3.symm
      have hip : i ≤ p := by
        by_contra hc
        have h1 := hp.2.2.1 (by have := hp.1; omega)
        simp only [Nat.zero_add] at h1
        exact h1 (g1 p (by omega))
      rw [hpc]
      refine ⟨?_, hip, hp.1, ?_⟩
      · rw [(CheckDiff_shadow_of_small l r fuel 0 l.length 0 (l.length + 1) _ _ hN (by omega) t
          ht).2 hd (by omega)]
        have hsh := hp.shadow_eq (by omega) (by omega) (List.replicate (l.length + 1) false)
          (by simp [hrlen])
        rw [show 0 + (l.length + 1) - 1 = 0 + (l.length + 1) - 1 from rfl] at hsh
        rw [hsh]
        simp only [Except.bind_ok_eq, Nat.zero_add]
        by_cases hpn : p < l.length
        · rw [if_pos hpn]
        · have : p = l.length := by have := hp.1; omega
          rw [if_neg hpn, this, List.set_set]
      · have := hp.unshadowed_eq (by omega) (by omega)
        rw [← hrlen, span_full, span_full] at this
        rw [← hrlen]
        exact this
    · omega

theorem count_two_marks (n p : Nat) (hp : p ≤ n) :
    (((List.replicate (n + 1) false).set p true).set n true).count true =
      if p = n then 1 else 2 := by
  by_cases h : p = n
  · subst h
    rw [List.set_set, if_pos rfl, count_replicate_set _ _ (by omega)]
  · rw [if_neg h, count_set_of_false, count_replicate_set _ _ (by omega)]
    rw [List.getElem?_set_ne h, List.getElem?_replicate, if_pos (by omega)]

/-! ## The claims -/

/-- C1: starting from the empty tree, after every call of a sequence of `insert`
calls with non-empty paths of positive PCIDs (after the first `k` calls, for
every `k`) the tree passes the four checks I1-I4: no empty prefix, no non-root
Epsilon internal node, children strictly sorted by `prefix[0]`, at least two
children under every internal node; that is, `is_sorted()` returns true. -/
theorem insert_keeps_invariants (tpc : TracePC) (hS : 0 < tpc.max_significant_execpath_size)
    (calls : List InsertCall) (hv : ∀ c ∈ calls, c.epath ≠ [] ∧ ∀ x ∈ c.epath, 0 < x)
    (k : Nat) :
    (ExecTree.insert_calls tpc (calls.take k)).no_empty_prefixed_node = true ∧
    (ExecTree.insert_calls tpc (calls.take k)).no_epsilon_internal_node = true ∧
    (ExecTree.insert_calls tpc (calls.take k)).sorted = true ∧
    (ExecTree.insert_calls tpc (calls.take k)).no_only_child_internal_node = true ∧
    (ExecTree.insert_calls tpc (calls.take k)).is_sorted = true := by
  have hg := ExecTree.insert_calls_good tpc hS (calls.take k)
    (fun c hc => hv c (List.mem_of_mem_take hc))
  have h := hg.passes_is_sorted
  have h2 := h
  simp only [ExecTree.is_sorted, Bool.and_eq_true] at h2
  exact ⟨h2.1.1.1, h2.1.1.2, h2.1.2, h2.2, h⟩

/-- Witness of C1: the calls `insert({1,2})`, `insert({1,3})` with `S = 10`. -/
theorem insert_keeps_invariants_witness :
    0 < tpc10.max_significant_execpath_size ∧
    (∀ c ∈ calls_12_13, c.epath ≠ [] ∧ ∀ x ∈ c.epath, 0 < x) ∧
    (ExecTree.insert_calls tpc10 (calls_12_13.take 2)).is_sorted = true :=
  ⟨by decide, by decide,
    (insert_keeps_invariants tpc10 (by decide) calls_12_13 (by decide) 2).2.2.2.2⟩

/-- With the assertions of `insert` compiled out (`NDEBUG`, the tree model without
assertions): in a tree built by `insert` calls with valid paths, `insert(p, input,
status)` for a non-empty path `p` of positive PCIDs returns (the position of) a
leaf whose squeezed path log is `significant(p)`; afterwards `find(q)` returns
that same leaf and `has(q)` is true for every path `q` with `significant(q) =
significant(p)`. -/
theorem insert_returns_findable_leaf_ndebug (tpc : TracePC)
    (hS : 0 < tpc.max_significant_execpath_size) (calls : List InsertCall)
    (hv : ∀ c ∈ calls, ValidPath c.epath) (p : ExecPath) (hp : ValidPath p) (input : Input)
    (run_status : Int) (rnd : Nat) :
    (∃ root l,
      ((ExecTree.insert_calls tpc calls).insert tpc p input run_status rnd).1.root = some root ∧
      root.get? ((ExecTree.insert_calls tpc calls).insert tpc p input run_status rnd).2 = some l ∧
      l.is_leaf = true ∧
      root.path_log ((ExecTree.insert_calls tpc calls).insert tpc p input run_status rnd).2 =
        tpc.significant p) ∧
    ∀ q, tpc.significant q = tpc.significant p →
      ((ExecTree.insert_calls tpc calls).insert tpc p input run_status rnd).1.find tpc q =
        some ((ExecTree.insert_calls tpc calls).insert tpc p input run_status rnd).2 ∧
      ((ExecTree.insert_calls tpc calls).insert tpc p input run_status rnd).1.has tpc q = true := by
  have hg := ExecTree.insert_calls_good tpc hS calls hv
  have hok := insert_set_ok tpc hS _ hg p hp [input] run_status rnd
  obtain ⟨root1, h1, ⟨l, h2, h3⟩, h4⟩ := hok.leaf
  have hrg : root1.RootGood := by
    have := hok.good
    simpa [ExecTree.Good, h1] using this
  refine ⟨⟨root1, l, h1, h2, h3, h4⟩, ?_⟩
  intro q hq
  have hf := find_complete root1 hrg _ l h2 h3
  rw [h4] at hf
  have h1' : ((ExecTree.insert_calls tpc calls).insert tpc p input run_status rnd).1.root =
      some root1 := h1
  have hfind : ((ExecTree.insert_calls tpc calls).insert tpc p input run_status rnd).1.find
      tpc q = some ((ExecTree.insert_calls tpc calls).insert tpc p input run_status rnd).2 := by
    simp only [ExecTree.find, h1', hq, hf]
    simp [ExecTree.insert]
  refine ⟨hfind, ?_⟩
  simp [ExecTree.has, ExecTree.is_empty, h1', hfind]

/-- An instance without assertions: after `insert({1,2})` and `insert({1,3})`, the
call `insert({1})` with `S = 10`. -/
theorem insert_returns_findable_leaf_ndebug_instance :
    0 < tpc10.max_significant_execpath_size ∧ (∀ c ∈ calls_12_13, ValidPath c.epath) ∧
    ValidPath [1] ∧
    ((ExecTree.insert_calls tpc10 calls_12_13).insert tpc10 [1] (input_x 2) 0 0).1.has
      tpc10 [1] = true :=
  ⟨by decide, by decide, by decide,
    ((insert_returns_findable_leaf_ndebug tpc10 (by decide) calls_12_13 (by decide) [1] (by decide)
      (input_x 2) 0 0).2 [1] rfl).2⟩

/-- C3 (code evaluated at the failing input): after `insert({1,2})` and
`insert({1,3})` the path `{1}` was never inserted and differs from both inserted
paths on the significant part, yet `has({1})` is true and `find({1})` returns the
root, which is an internal node and not a leaf. -/
theorem has_true_on_internal_node :
    tpc10.significant [1] ≠ tpc10.significant [1, 2] ∧
    tpc10.significant [1] ≠ tpc10.significant [1, 3] ∧
    tree_12_13.has tpc10 [1] = true ∧
    tree_12_13.find tpc10 [1] = some [] ∧
    (tree_12_13.node_found tpc10 [1]).map Node.is_leaf = some false := by
  decide

/-- C8 (code evaluated at the failing input): the leaf at `{1}` has
`exception_path = true` and one input, `{2}` is not in the tree, and after
`purge_and_reinsert({1}, {2})` the leaf found at `{2}` holds that input but has
`exception_path = false`. -/
theorem purge_and_reinsert_loses_exception_flag :
    (tree_exc.node_found tpc10 [1]).map ExecTree.leaf_exception_path = some true ∧
    (tree_exc.node_found tpc10 [1]).map ExecTree.leaf_inputset = some [input_x 0] ∧
    tree_exc.has tpc10 [2] = false ∧
    ((tree_exc.purge_and_reinsert tpc10 [1] [2] 0).bind
      (fun t => t.node_found tpc10 [2])).map ExecTree.leaf_inputset = some [input_x 0] ∧
    ((tree_exc.purge_and_reinsert tpc10 [1] [2] 0).bind
      (fun t => t.node_found tpc10 [2])).map ExecTree.leaf_exception_path = some false := by
  decide

/-- C9 (code evaluated at the failing input): with `S = 10`, `D = {9}` and the
uninitialised read yielding `0`, `prune` leaves the input of `path_long` in a leaf
whose squeezed path log has 11 PCIDs, while `significant(Prune_D(path_long))` is
its first 10 PCIDs. -/
theorem prune_refills_past_significant :
    tpc10.significant ((tpc10.AddND [9]).Prune path_long) = [1, 1, 1, 1, 1, 2, 2, 2, 2, 3] ∧
    ((tree_tail.prune (tpc10.AddND [9]) (fun i => i) (fun _ => 0) 10).bind
      (fun t => t.path_log_of (input_x 0))) = some [1, 1, 1, 1, 1, 2, 2, 2, 2, 3, 3] := by
  decide

/-- C10 (code evaluated at the failing input): with `S = 10`, after one hundred
`insert` calls with distinct inputs on the path `{1}`, one `insert` on the path
`{2}` and `purge_and_reinsert({1}, {2})`, the tree is the single leaf `{2}` and
its inputset holds 101 inputs, one more than `MAX_INPUT_PER_PATH`. -/
theorem purge_and_reinsert_exceeds_cap :
    ExecTree.purge_and_reinsert tpc10 (ExecTree.insert_calls tpc10 calls_cap) [1] [2] 0 =
      some ⟨some (.leaf 2 [2] [] (input_x (-100) :: inputs_desc 100) false), 3⟩ ∧
    (input_x (-100) :: inputs_desc 100).length = 101 ∧ MAX_INPUT_PER_PATH = 100 := by
  refine ⟨?_, by simp [length_inputs_desc], rfl⟩
  unfold calls_cap
  rw [ExecTree.insert_calls_append, insert_calls_same_path 99 (by omega)]
  simp only []
  rw [insert_second_path, purge_and_reinsert_two_leaves,
    set_insert_all_append [input_x (-100)] 100 (by
      intro y hy
      simp only [List.mem_singleton] at hy
      exact ⟨-100, by omega, hy⟩)]
  rfl

/-- C6 as stated fails beyond the significant length: with `S = 10` the path of
ten `1`s is a proper prefix of the path of eleven `1`s, yet inserting them into
the empty tree, in either order, gives a root that is a leaf (both paths share
the leaf of their common significant part), not an internal root over two
leaves. -/
theorem nested_paths_share_leaf_beyond_significant :
    ValidPath (path_ones 10) ∧ ValidPath (path_ones 11) ∧
    path_ones 10 <+: path_ones 11 ∧ path_ones 10 ≠ path_ones 11 ∧
    (ExecTree.insert_calls tpc10
        [⟨path_ones 11, input_x 0, 0, 0⟩, ⟨path_ones 10, input_x 1, 0, 0⟩]).root.map
        Node.is_internal = some false ∧
    (ExecTree.insert_calls tpc10
        [⟨path_ones 10, input_x 1, 0, 0⟩, ⟨path_ones 11, input_x 0, 0, 0⟩]).root.map
        Node.is_internal = some false ∧
    ¬ (ExecTree.insert_calls tpc10
        [⟨path_ones 11, input_x 0, 0, 0⟩, ⟨path_ones 10, input_x 1, 0, 0⟩]).IsEpsilonFork
        (path_ones 10) (subvec (path_ones 11) (path_ones 10).length) ∧
    ¬ (ExecTree.insert_calls tpc10
        [⟨path_ones 10, input_x 1, 0, 0⟩, ⟨path_ones 11, input_x 0, 0, 0⟩]).IsEpsilonFork
        (path_ones 10) (subvec (path_ones 11) (path_ones 10).length) := by
  have h3 : (ExecTree.insert_calls tpc10
      [⟨path_ones 11, input_x 0, 0, 0⟩, ⟨path_ones 10, input_x 1, 0, 0⟩]).root.map
      Node.is_internal = some false := by decide
  have h4 : (ExecTree.insert_calls tpc10
      [⟨path_ones 10, input_x 1, 0, 0⟩, ⟨path_ones 11, input_x 0, 0, 0⟩]).root.map
      Node.is_internal = some false := by decide
  refine ⟨by decide, by decide, by decide, by decide, h3, h4, ?_, ?_⟩
  · rintro ⟨root, a, b, h1, h2, -⟩
    rw [h1] at h3
    simp [h2] at h3
  · rintro ⟨root, a, b, h1, h2, -⟩
    rw [h1] at h4
    simp [h2] at h4

/-- C6 (amended): in a tree built by `insert` calls with valid paths, `insert` of
a valid path `p` that is a prefix of an inserted path `r`, when no inserted path
has the significant part of `p`, returns a leaf with the Epsilon prefix whose
parent is an internal node with cumulative path `p`; and for `p2` a proper prefix
of `r2` with `r2` no longer than `S`, inserting `r2` then `p2` and inserting `p2`
then `r2` into the empty tree both give an internal root with prefix `p2` over
exactly two leaves, with prefixes Epsilon and `r2` minus `p2`. -/
theorem insert_proper_prefix_epsilon_leaf (tpc : TracePC)
    (hS : 0 < tpc.max_significant_execpath_size) (calls : List InsertCall)
    (hv : ∀ c ∈ calls, ValidPath c.epath) (r : InsertCall) (hr : r ∈ calls) (p : ExecPath)
    (hp : ValidPath p) (hpre : p <+: r.epath)
    (habs : ∀ c ∈ calls, tpc.significant c.epath ≠ tpc.significant p) (input : Input)
    (run_status : Int) (rnd : Nat) (p2 r2 : ExecPath) (hp2 : ValidPath p2)
    (hr2 : ValidPath r2) (hpre2 : p2 <+: r2) (hne2 : p2 ≠ r2)
    (hlen2 : r2.length ≤ tpc.max_significant_execpath_size) (c1 c2 : InsertCall)
    (h1 : c1.epath = r2) (h2 : c2.epath = p2) :
    (∃ root q k parent l,
      ((ExecTree.insert_calls tpc calls).insert tpc p input run_status rnd).1.root = some root ∧
      ((ExecTree.insert_calls tpc calls).insert tpc p input run_status rnd).2 = q ++ [k] ∧
      root.get? q = some parent ∧ parent.is_internal = true ∧ root.path_log q = p ∧
      root.get? (q ++ [k]) = some l ∧ l.is_leaf = true ∧ l.pfx = EPSILON) ∧
    (ExecTree.insert_calls tpc [c1, c2]).IsEpsilonFork p2 (subvec r2 p2.length) ∧
    (ExecTree.insert_calls tpc [c2, c1]).IsEpsilonFork p2 (subvec r2 p2.length) :=
  ⟨epsilon_leaf_of_nested_insert tpc hS calls hv r hr p hp hpre habs input run_status rnd,
    insert_two_nested tpc p2 r2 hp2 hr2 hpre2 hne2 hlen2 c1 c2 h1 h2⟩

/-- Witness of C6: after `insert({1,2})` and `insert({1,3})`, the call
`insert({1})`; and the two orders of `insert({1,2})`, `insert({1})`, with
`S = 10`. -/
theorem insert_proper_prefix_epsilon_leaf_witness :
    0 < tpc10.max_significant_execpath_size ∧ (∀ c ∈ calls_12_13, ValidPath c.epath) ∧
    (⟨[1, 2], input_x 0, 0, 0⟩ : InsertCall) ∈ calls_12_13 ∧ ValidPath [1] ∧
    [1] <+: [1, 2] ∧
    (∀ c ∈ calls_12_13, tpc10.significant c.epath ≠ tpc10.significant [1]) ∧
    ValidPath [1, 2] ∧ [1] ≠ [1, 2] ∧
    [1, 2].length ≤ tpc10.max_significant_execpath_size ∧
    (ExecTree.insert_calls tpc10
      [⟨[1, 2], input_x 0, 0, 0⟩, ⟨[1], input_x 2, 0, 0⟩]).IsEpsilonFork [1]
      (subvec [1, 2] [1].length) :=
  ⟨by decide, by decide, List.Mem.head _, by decide, by decide, by decide, by decide,
    by decide, by decide,
    (insert_proper_prefix_epsilon_leaf tpc10 (by decide) calls_12_13 (by decide)
      ⟨[1, 2], input_x 0, 0, 0⟩ (List.Mem.head _) [1] (by decide) (by decide) (by decide)
      (input_x 2) 0 0 [1] [1, 2] (by decide) (by decide) (by decide) (by decide) (by decide)
      ⟨[1, 2], input_x 0, 0, 0⟩ ⟨[1], input_x 2, 0, 0⟩ rfl rfl).2.1⟩

/-- With the assertions of `insert` compiled out (`NDEBUG`, the tree model without
assertions): for a tree built by `insert` calls with distinct valid paths of length
at most `S`, every index `i` and every valid path `q`, `purge_and_reinsert(p_i, q)`
returns, and the tree it leaves has the same shape and node prefixes as the tree
built by the calls other than the `i`-th followed by an insert of `q`; every
internal node of it has at least two children. -/
theorem purge_and_reinsert_eq_rebuild_ndebug (tpc : TracePC)
    (hS : 0 < tpc.max_significant_execpath_size) (calls : List InsertCall)
    (hv : ∀ c ∈ calls, ValidPath c.epath)
    (hlen : ∀ c ∈ calls, c.epath.length ≤ tpc.max_significant_execpath_size)
    (hd : (calls.map InsertCall.epath).Nodup) (i : Nat) (hi : i < calls.length)
    (q : ExecPath) (hq : ValidPath q) (rnd : Nat) (cq : InsertCall) (hcq : cq.epath = q) :
    ∃ t2, (ExecTree.insert_calls tpc calls).purge_and_reinsert tpc calls[i].epath q rnd =
        some t2 ∧
      t2.same_shape (ExecTree.insert_calls tpc (calls.eraseIdx i ++ [cq])) = true ∧
      t2.no_only_child_internal_node = true := by
  have hg := ExecTree.insert_calls_good tpc hS calls hv
  have hmem : calls[i] ∈ calls := List.getElem_mem hi
  have hsig : ∀ c ∈ calls, tpc.significant c.epath = c.epath :=
    fun c hc => (significant_of_le tpc (hlen c hc)).1
  have hp : calls[i].epath ∈ (ExecTree.insert_calls tpc calls).denote :=
    (ExecTree.mem_denote_insert_calls tpc hS calls hv _).mpr ⟨_, hmem, (hsig _ hmem).symm⟩
  obtain ⟨t2, h1, hg2, hd2⟩ := purge_and_reinsert_ok tpc hS _ hg _ hp (hsig _ hmem) q hq rnd
  have hv2 : ∀ c ∈ calls.eraseIdx i ++ [cq], ValidPath c.epath := by
    intro c hc
    rcases List.mem_append.mp hc with h | h
    · exact hv c (List.mem_of_mem_eraseIdx h)
    · rw [List.mem_singleton.mp h, hcq]; exact hq
  have hg3 := ExecTree.insert_calls_good tpc hS _ hv2
  refine ⟨t2, h1, ?_, ?_⟩
  · apply ExecTree.same_shape_of_same_denote t2 _ hg2 hg3
    intro x
    rw [hd2 x, ExecTree.mem_denote_insert_calls tpc hS _ hv2 x,
      ExecTree.mem_denote_insert_calls tpc hS calls hv x]
    have hex : (∃ c ∈ calls, x = tpc.significant c.epath) ↔ ∃ c ∈ calls, x = c.epath := by
      constructor
      · rintro ⟨c, hc, h⟩; exact ⟨c, hc, by rw [h, hsig c hc]⟩
      · rintro ⟨c, hc, h⟩; exact ⟨c, hc, by rw [h, hsig c hc]⟩
    have hex2 : (∃ c ∈ calls.eraseIdx i ++ [cq], x = tpc.significant c.epath) ↔
        (∃ c ∈ calls.eraseIdx i, x = c.epath) ∨ x = tpc.significant q := by
      constructor
      · rintro ⟨c, hc, h⟩
        rcases List.mem_append.mp hc with h1 | h1
        · exact Or.inl ⟨c, h1, by rw [h, hsig c (List.mem_of_mem_eraseIdx h1)]⟩
        · right; rw [h, List.mem_singleton.mp h1, hcq]
      · rintro (⟨c, hc, h⟩ | h)
        · exact ⟨c, List.mem_append.mpr (Or.inl hc),
            by rw [h, hsig c (List.mem_of_mem_eraseIdx hc)]⟩
        · exact ⟨cq, by simp, by rw [h, hcq]⟩
    rw [hex, hex2, mem_eraseIdx_epath hd hi x]
  · have := hg2.passes_is_sorted
    simp only [ExecTree.is_sorted, Bool.and_eq_true] at this
    exact this.2

/-- An instance without assertions: the unit test `PurgeAndReinsert`, with `S = 10`: after the
inserts of `{1,2,3}`, `{1,2,4}`, `{1,5,6}`, the call
`purge_and_reinsert({1,5,6}, {1,2,7})`. -/
theorem purge_and_reinsert_eq_rebuild_ndebug_instance :
    0 < tpc10.max_significant_execpath_size ∧
    (∀ c ∈ calls_purge_test, ValidPath c.epath) ∧
    (∀ c ∈ calls_purge_test, c.epath.length ≤ tpc10.max_significant_execpath_size) ∧
    (calls_purge_test.map InsertCall.epath).Nodup ∧ ValidPath [1, 2, 7] ∧
    ∃ t2, (ExecTree.insert_calls tpc10 calls_purge_test).purge_and_reinsert tpc10
        [1, 5, 6] [1, 2, 7] 0 = some t2 ∧
      t2.same_shape (ExecTree.insert_calls tpc10
        (calls_purge_test.eraseIdx 2 ++ [⟨[1, 2, 7], ⟨[], []⟩, 1, 0⟩])) = true ∧
      t2.no_only_child_internal_node = true :=
  ⟨by decide, by decide, by decide, by decide, by decide,
    purge_and_reinsert_eq_rebuild_ndebug tpc10 (by decide) calls_purge_test (by decide) (by decide)
      (by decide) 2 (by decide) [1, 2, 7] (by decide) 0 ⟨[1, 2, 7], ⟨[], []⟩, 1, 0⟩ rfl⟩

/-- C5: for a tree built by `insert` calls with non-empty paths of positive PCIDs
and every list `D` of PCIDs marked nondeterministic, `prune()` returns (the sort
loop ends), and whenever it returns (for every order of the node addresses, every
value of the uninitialised reads and every bound on the iterations of the sort
loop), the tree it returns passes the four checks I1-I4: no empty prefix, no
non-root internal Epsilon node, children strictly sorted by `prefix[0]`, at least
two children under every internal node. -/
theorem prune_keeps_invariants (tpc : TracePC) (hS : 0 < tpc.max_significant_execpath_size)
    (calls : List InsertCall) (hv : ∀ c ∈ calls, ValidPath c.epath) (D : List PCID)
    (addr garbage : Nat → Nat) :
    (∃ fuel0, ∀ fuel, fuel0 ≤ fuel → ∃ t2,
      (ExecTree.insert_calls tpc calls).prune { tpc with nd := D } addr garbage fuel =
        some t2) ∧
    ∀ fuel t2,
      (ExecTree.insert_calls tpc calls).prune { tpc with nd := D } addr garbage fuel =
        some t2 →
      t2.no_empty_prefixed_node = true ∧ t2.no_epsilon_internal_node = true ∧
      t2.sorted = true ∧ t2.no_only_child_internal_node = true ∧ t2.is_sorted = true := by
  obtain ⟨hterm, hpart⟩ := prune_spec { tpc with nd := D } addr garbage _
    (ExecTree.insert_calls_good tpc hS calls hv)
    (ExecTree.insert_calls_tags tpc calls AllPos (fun _ hx => by simp at hx)
      (fun c hc => allPos_tail_of tpc (hv c hc)))
  exact ⟨hterm, fun fuel t2 h => (hpart fuel t2 h).1.passes_checks⟩

/-- Witness of C5: after `insert({1,2})` and `insert({1,3})` with `S = 10`, the
PCID `3` is marked nondeterministic; `prune()` returns the internal node `{1}` over
an Epsilon leaf and the leaf `{2}`. -/
theorem prune_keeps_invariants_witness :
    0 < tpc10.max_significant_execpath_size ∧ (∀ c ∈ calls_12_13, ValidPath c.epath) ∧
    (ExecTree.insert_calls tpc10 calls_12_13).prune { tpc10 with nd := [3] } (fun i => i)
      (fun _ => 0) 10 =
      some ⟨some (.internal 1 [1]
        [.leaf 2 [0] [] [input_x 1] false, .leaf 0 [2] [] [input_x 0] false]), 3⟩ ∧
    ExecTree.is_sorted ⟨some (.internal 1 [1]
      [.leaf 2 [0] [] [input_x 1] false, .leaf 0 [2] [] [input_x 0] false]), 3⟩ = true :=
  ⟨by decide, by decide, rfl,
    ((prune_keeps_invariants tpc10 (by decide) calls_12_13 (by decide) [3] (fun i => i)
      (fun _ => 0)).2 10 _ rfl).2.2.2.2⟩

/-- C4: for `insert` calls with non-empty paths of positive PCIDs of length at most
`S` and a list `D` of PCIDs that leaves every pruned path non-empty, `prune()` with
`D` marked nondeterministic returns (the sort loop ends, for every order of the
node addresses and every value of the uninitialised reads), and the tree it
returns has the shape and the prefixes of the tree built by inserting the pruned
paths into an empty tree. -/
theorem prune_eq_rebuild (tpc : TracePC) (hS : 0 < tpc.max_significant_execpath_size)
    (calls : List InsertCall) (hv : ∀ c ∈ calls, ValidPath c.epath)
    (hlen : ∀ c ∈ calls, c.epath.length ≤ tpc.max_significant_execpath_size)
    (D : List PCID) (hD : ∀ c ∈ calls, TracePC.Prune { tpc with nd := D } c.epath ≠ [])
    (addr garbage : Nat → Nat) :
    (∃ fuel0, ∀ fuel, fuel0 ≤ fuel → ∃ t2,
      (ExecTree.insert_calls tpc calls).prune { tpc with nd := D } addr garbage fuel =
        some t2) ∧
    ∀ fuel t2,
      (ExecTree.insert_calls tpc calls).prune { tpc with nd := D } addr garbage fuel =
        some t2 →
      t2.same_shape (ExecTree.insert_calls tpc
        (calls.map (fun c => { c with epath := TracePC.Prune { tpc with nd := D } c.epath })))
        = true := by
  have hg := ExecTree.insert_calls_good tpc hS calls hv
  have ht0 : (ExecTree.insert_calls tpc calls).TagsOK (fun p => p = []) :=
    ExecTree.insert_calls_tags tpc calls _ rfl
      (fun c hc => (significant_of_le tpc (hlen c hc)).2)
  obtain ⟨hterm, hpart⟩ := prune_spec { tpc with nd := D } addr garbage _ hg ht0.allPos
  refine ⟨hterm, fun fuel t2 h => ?_⟩
  obtain ⟨hinv, hden⟩ := hpart fuel t2 h
  have hden := hden ht0
  have hden2 : ∀ x, x ∈ t2.denote ↔
      ∃ c ∈ calls, x = TracePC.Prune { tpc with nd := D } c.epath := by
    intro x
    rw [hden x]
    simp only [List.mem_map, ExecTree.mem_denote_insert_calls tpc hS calls hv]
    constructor
    · rintro ⟨y, ⟨c, hc, rfl⟩, rfl⟩
      exact ⟨c, hc, by rw [(significant_of_le tpc (hlen c hc)).1]⟩
    · rintro ⟨c, hc, rfl⟩
      exact ⟨_, ⟨c, hc, rfl⟩, by rw [(significant_of_le tpc (hlen c hc)).1]⟩
  have hv2 : ∀ c ∈ calls.map
      (fun c => { c with epath := TracePC.Prune { tpc with nd := D } c.epath }),
      ValidPath c.epath := by
    intro c hc
    obtain ⟨c0, hc0, rfl⟩ := List.mem_map.mp hc
    exact ⟨hD c0 hc0, allPos_prune _ (hv c0 hc0).2⟩
  have hlen2 : ∀ c ∈ calls,
      (TracePC.Prune { tpc with nd := D } c.epath).length ≤
        tpc.max_significant_execpath_size := by
    intro c hc
    refine Nat.le_trans ?_ (hlen c hc)
    unfold TracePC.Prune
    exact List.length_filter_le _ _
  apply ExecTree.same_shape_of_same_denote
  · apply hinv.good_tree
    intro h0
    obtain ⟨c, hc, h1⟩ := (hden2 []).mp h0
    exact hD c hc h1.symm
  · exact ExecTree.insert_calls_good tpc hS _ hv2
  · intro x
    rw [hden2 x, ExecTree.mem_denote_insert_calls tpc hS _ hv2]
    constructor
    · rintro ⟨c, hc, rfl⟩
      exact ⟨_, List.mem_map.mpr ⟨c, hc, rfl⟩,
        by rw [(significant_of_le tpc (hlen2 c hc)).1]⟩
    · rintro ⟨c, hc, rfl⟩
      obtain ⟨c0, hc0, rfl⟩ := List.mem_map.mp hc
      exact ⟨c0, hc0, by rw [(significant_of_le tpc (hlen2 c0 hc0)).1]⟩

/-- Witness of C4: the paths `{1,2}` and `{1,3}` with `S = 10` and `D = {3}`. -/
theorem prune_eq_rebuild_witness :
    0 < tpc10.max_significant_execpath_size ∧ (∀ c ∈ calls_12_13, ValidPath c.epath) ∧
    (∀ c ∈ calls_12_13, c.epath.length ≤ tpc10.max_significant_execpath_size) ∧
    (∀ c ∈ calls_12_13, TracePC.Prune { tpc10 with nd := [3] } c.epath ≠ []) ∧
    ((∃ fuel0, ∀ fuel, fuel0 ≤ fuel → ∃ t2,
      (ExecTree.insert_calls tpc10 calls_12_13).prune { tpc10 with nd := [3] } (fun i => i)
        (fun _ => 0) fuel = some t2) ∧
    ∀ fuel t2,
      (ExecTree.insert_calls tpc10 calls_12_13).prune { tpc10 with nd := [3] } (fun i => i)
        (fun _ => 0) fuel = some t2 →
      t2.same_shape (ExecTree.insert_calls tpc10
        (calls_12_13.map
          (fun c => { c with epath := TracePC.Prune { tpc10 with nd := [3] } c.epath })))
        = true) :=
  ⟨by decide, by decide, by decide, by decide,
    prune_eq_rebuild tpc10 (by decide) calls_12_13 (by decide) (by decide) [3] (by decide)
      (fun i => i) (fun _ => 0)⟩

/-- C15: `significant(p)` is the first `min(|p|, S)` PCIDs of `p`; `tail_of(p)` is
the PCIDs of `p` at the positions `S .. min(|p|, 2S) - 1`, empty when `|p| <= S`;
together they are `p` cut to `2S` entries, which is `p` when `|p| <= 2S`. -/
theorem significant_tail_of_split (tpc : TracePC) (p : ExecPath) :
    tpc.significant p = p.take (min p.length tpc.max_significant_execpath_size) ∧
    tpc.tail_of p = (p.drop tpc.max_significant_execpath_size).take
      (min p.length (2 * tpc.max_significant_execpath_size) -
        tpc.max_significant_execpath_size) ∧
    (p.length ≤ tpc.max_significant_execpath_size → tpc.tail_of p = []) ∧
    tpc.significant p ++ tpc.tail_of p = p.take (2 * tpc.max_significant_execpath_size) ∧
    (p.length ≤ 2 * tpc.max_significant_execpath_size →
      tpc.significant p ++ tpc.tail_of p = p) := by
  have h1 : tpc.significant p = p.take (min p.length tpc.max_significant_execpath_size) := by
    unfold TracePC.significant TracePC.ExecPathSignificantMax
    split
    · rename_i h
      rw [min_eq_left h, List.take_length]
    · rename_i h
      rw [min_eq_right (by omega), subvec_len_zero]
  have h2 : tpc.tail_of p = (p.drop tpc.max_significant_execpath_size).take
      (min p.length (2 * tpc.max_significant_execpath_size) -
        tpc.max_significant_execpath_size) := by
    unfold TracePC.tail_of TracePC.ExecPathSignificantMax TracePC.ExecPathTailMax
    split
    · rename_i h
      have : min p.length (2 * tpc.max_significant_execpath_size) -
          tpc.max_significant_execpath_size = 0 := by omega
      rw [this, List.take_zero]
    · rename_i h
      simp only [subvec_len]
      split
      · rename_i h3
        congr 1
        omega
      · rename_i h3
        congr 1
        omega
  have h3 : tpc.significant p ++ tpc.tail_of p =
      p.take (2 * tpc.max_significant_execpath_size) := by
    rw [h1, h2]
    by_cases h : p.length ≤ tpc.max_significant_execpath_size
    · rw [min_eq_left h, List.take_length, List.drop_of_length_le h, List.take_nil,
        List.append_nil, List.take_of_length_le (by omega)]
    · rw [min_eq_right (by omega), two_mul, List.take_add]
      congr 1
      by_cases h6 : p.length ≤ tpc.max_significant_execpath_size +
          tpc.max_significant_execpath_size
      · rw [min_eq_left h6, List.take_of_length_le (by rw [List.length_drop]),
          List.take_of_length_le (by rw [List.length_drop]; omega)]
      · rw [min_eq_right (by omega)]
        congr 1
        omega
  refine ⟨h1, h2, ?_, h3, ?_⟩
  · intro h
    rw [h2, List.drop_of_length_le h, List.take_nil]
  · intro h
    rw [h3, List.take_of_length_le h]

/-- C14: with tracing off `AppendPathLog(pcid)` changes nothing.  With tracing on
it sets the covered bit of `pcid` (when the covered bitmap has that bit), and the
log grows by `pcid` iff `pcid` is not marked nondeterministic and the log holds
fewer than `2S` entries.  Hence, after `ClearPathLog` with tracing on, the log
after any sequence of `AppendPathLog` calls is the first `2S` elements of the
PCIDs that are not marked, and its length never exceeds `2S`. -/
theorem append_path_log_spec (t : Tracer)
    (hcap : t.PathLog.length = 2 * t.max_significant_execpath_size)
    (htail : t.max_tail_execpath_size = t.max_significant_execpath_size) :
    (∀ pcid, t.trace = false → t.AppendPathLog pcid = t) ∧
    (∀ pcid, t.trace = true →
      (Tracer.bit_of pcid < t.covered_pc_bitmap.capacity →
        (t.AppendPathLog pcid).covered_pc_bitmap.is_set (Tracer.bit_of pcid) = true) ∧
      (t.AppendPathLog pcid).GetPathLog =
        if t.nd_marked pcid = false ∧ t.PathLogSize < 2 * t.max_significant_execpath_size
        then t.GetPathLog ++ [pcid] else t.GetPathLog) ∧
    (t.trace = true → ∀ pcids : List PCID,
      (pcids.foldl Tracer.AppendPathLog t.ClearPathLog).GetPathLog =
        (pcids.filter (fun p => !t.nd_marked p)).take (2 * t.max_significant_execpath_size) ∧
      (pcids.foldl Tracer.AppendPathLog t.ClearPathLog).GetPathLog.length ≤
        2 * t.max_significant_execpath_size ∧
      (pcids.foldl Tracer.AppendPathLog t.ClearPathLog).PathLogSize ≤
        2 * t.max_significant_execpath_size) := by
  have h2S : t.max_significant_execpath_size + t.max_tail_execpath_size =
      2 * t.max_significant_execpath_size := by omega
  refine ⟨?_, ?_, ?_⟩
  · intro pcid ht
    simp [Tracer.AppendPathLog, ht]
  · intro pcid ht
    refine ⟨Tracer.append_covered t pcid ht, ?_⟩
    obtain ⟨a1, a2⟩ := t.append_log pcid ht (by omega)
    rw [h2S] at a1 a2
    split
    · rename_i hc
      exact (a1 hc).1
    · rename_i hc
      exact (a2 hc).1
  · intro ht pcids
    obtain ⟨b1, b2⟩ := Tracer.append_all t pcids t.ClearPathLog ht (by
      show t.PathLog.length = t.max_significant_execpath_size + t.max_tail_execpath_size
      omega) rfl rfl rfl (by simp [Tracer.ClearPathLog])
    rw [h2S] at b1 b2
    have hclear : t.ClearPathLog.GetPathLog = [] := by
      simp [Tracer.ClearPathLog, Tracer.GetPathLog]
    rw [hclear, List.nil_append] at b1
    refine ⟨b1, ?_, b2⟩
    rw [b1, List.length_take]
    exact Nat.min_le_left _ _

/-- Witness of C14: the tracer of the unit tests, with `S = 10` and 100 guards. -/
theorem append_path_log_spec_witness :
    tracer10.PathLog.length = 2 * tracer10.max_significant_execpath_size ∧
    tracer10.max_tail_execpath_size = tracer10.max_significant_execpath_size ∧
    ([1, 2].foldl Tracer.AppendPathLog tracer10.ClearPathLog).GetPathLog = [1, 2] :=
  ⟨by decide, by decide,
    ((append_path_log_spec tracer10 (by decide) (by decide)).2.2 rfl [1, 2]).1.trans
      (by decide)⟩

/-- C18 (counterexample): on the bit vector of `x` over 0, 1, 2 into which only the
value 1 was put by `set(1)`, `eval` is false on `x = 1`, which is in the set, and
true on `x = 0`, which is not. -/
theorem enum_inclusion_eval_false_on_member :
    (bv_x03.set (fun _ => 0) 1).eval (fun _ => 0) [("x", 1)] = false ∧
    (bv_x03.set (fun _ => 0) 1).eval (fun _ => 0) [("x", 0)] = true := by
  decide

/-- C18 (amended): `EnumArgBitVec::eval` is true exactly on the values that are NOT in
the set.  For every bit vector of a parameter with `start = 0` and `size ≤ 32`
that is built from the empty vector by `set(v)` for the values `v` of `vs` (all in
range), and every argument map whose value for the parameter is in range, `eval` is
true iff that value is not among `vs`; this holds whatever an undefined shift
returns. -/
theorem enum_inclusion_eval_iff_not_member (ub : Nat → Nat) (bv : EnumArgBitVec)
    (vs : List Nat) (args : Args)
    (hstart : bv.start = 0) (hsize : bv.size ≤ 32) (hempty : bv.bitvec = 0)
    (hvs : ∀ v ∈ vs, v < bv.size)
    (hlo : 0 ≤ args.get bv.name) (hhi : args.get bv.name < bv.size) :
    ((bv.set_list ub vs).eval ub args = true ↔ (args.get bv.name).toNat ∉ vs) :=
  EnumArgBitVec.eval_set_list ub bv vs args hstart hsize hempty hvs hlo hhi

/-- Witness of C18: the vector of `x` over 0, 1, 2 after `set(1)`, on `x = 2`. -/
theorem enum_inclusion_eval_iff_not_member_witness :
    bv_x03.start = 0 ∧ bv_x03.size ≤ 32 ∧ bv_x03.bitvec = 0 ∧ (∀ v ∈ [1], v < bv_x03.size) ∧
    0 ≤ Args.get [("x", 2)] bv_x03.name ∧ Args.get [("x", 2)] bv_x03.name < bv_x03.size ∧
    ((bv_x03.set_list (fun _ => 0) [1]).eval (fun _ => 0) [("x", 2)] = true ↔
      (Args.get [("x", 2)] bv_x03.name).toNat ∉ [1]) :=
  ⟨by decide, by decide, by decide, by decide, by decide, by decide,
    enum_inclusion_eval_iff_not_member (fun _ => 0) bv_x03 [1] [("x", 2)]
      (by decide) (by decide) (by decide) (by decide) (by decide) (by decide)⟩

/-- C17 (failing input): with the registered enum parameter `x` over the values 1,
2, 3, the positive example `x = 1` and the negative example `x = 2`, `synthesize`
on a fresh Enum condition returns SUCCESS from the inclusion phase without a
synthesizer run, but the confusion matrix of the new condition is
`tp = 0, tn = 0, fp = 1, fn = 1` and that of the sibling is
`tp = 1, tn = 0, fp = 1, fn = 0`. -/
theorem enum_synthesize_misclassifies_with_start :
    ((EnumCondition.new env_x13).synthesize env_x13 true [enum_x 1] [enum_x 2]).map
      (fun r => (r.1.summary, r.2)) =
    .ok ((.SUCCESS, some ⟨0, 0, 1, 1⟩, some ⟨1, 0, 1, 0⟩), 0) := by
  rfl

/-- C19: when the expression of a Numeric condition raises `CondEvalException` on an
input, `eval_and_update(input, ground_truth)` returns normally with the value
false and the confusion matrix has one more `fn` when `ground_truth` is true and
one more `fp` otherwise, the other three counters, the budget and the expression
unchanged; and `classify` returns what it returns without that example, with one
more `fn` when the example is among the positive examples and one more `fp` when it
is among the negative ones. -/
theorem cond_eval_exception_counts_as_miss (env : SynthEnv) (c : BranchCondition)
    (e : BoolExpr) (input : Input) (hbody : c.body = .Numeric (some e))
    (hraise : e.eval input.numeric_args = .error .CondEvalException) :
    (∀ ground_truth, c.eval_and_update env input ground_truth =
      .ok ({ c with cmat :=
              ⟨c.cmat.tp, c.cmat.tn, c.cmat.fp + (if ground_truth then 0 else 1),
                c.cmat.fn + (if ground_truth then 1 else 0)⟩ }, false)) ∧
    (∀ l1 l2 neg, c.classify env (l1 ++ input :: l2) neg =
      (c.classify env (l1 ++ l2) neg).map (fun c2 => c2.more_fn 1)) ∧
    (∀ pos l1 l2, c.classify env pos (l1 ++ input :: l2) =
      (c.classify env pos (l1 ++ l2)).map (fun c2 => c2.more_fp 1)) := by
  have hx := BranchCondition.eval_numeric_raise env c e input hbody hraise
  refine ⟨?_, ?_, ?_⟩
  · intro ground_truth
    unfold BranchCondition.eval_and_update
    rw [hx]
    cases ground_truth <;> simp [ConfusionMatrix.add_fn, ConfusionMatrix.add_fp]
  · intro l1 l2 neg
    exact BranchCondition.classify_raise_pos env c input (hx true) l1 l2 neg
  · intro pos l1 l2
    exact BranchCondition.classify_raise_neg env c input (hx false) pos l1 l2

/-- Witness of C19: the condition `x / y = 1` on the input `x = 1, y = 0`. -/
theorem cond_eval_exception_counts_as_miss_witness :
    cond_x_div_y.body = .Numeric (some (.EQ (.DIV (.VAR "x") (.VAR "y")) (.CONST 1))) ∧
    BoolExpr.eval (input_xy 1 0).numeric_args (.EQ (.DIV (.VAR "x") (.VAR "y")) (.CONST 1)) =
      .error .CondEvalException ∧
    (cond_x_div_y.eval_and_update env_x13 (input_xy 1 0) true).map (fun r => (r.1.cmat, r.2)) =
      .ok (⟨0, 0, 0, 1⟩, false) :=
  ⟨rfl, rfl,
    ((cond_eval_exception_counts_as_miss env_x13 cond_x_div_y _ (input_xy 1 0) rfl rfl).1 true).symm ▸
      rfl⟩

/-- C20: for a condition of any kind, `insolvent()` holds iff the synthesis budget is
at most 0; `deduct_synthesis_budget(used)` with `used` not below the budget sets the
budget to exactly 0, and for every `used ≥ 0` the new budget is not negative; and
`synthesize` on an insolvent condition returns `(GIVEUP, nullptr, nullptr, 0)`
without a start of the external synthesizer. -/
theorem insolvent_budget_spec (env : SynthEnv) (c : BranchCondition) :
    (c.insolvent = true ↔ c.synthesis_budget ≤ 0) ∧
    (∀ used, c.synthesis_budget ≤ used →
      (c.deduct_synthesis_budget env used).synthesis_budget = 0) ∧
    (∀ used, 0 ≤ used → c.synthesis_budget < 2 ^ 63 →
      0 ≤ (c.deduct_synthesis_budget env used).synthesis_budget) ∧
    (c.insolvent = true → ∀ is_pair pos_examples neg_examples,
      c.synthesize env is_pair pos_examples neg_examples = .ok (⟨.GIVEUP, none, none, 0⟩, 0)) := by
  refine ⟨?_, ?_, ?_, ?_⟩
  · simp [BranchCondition.insolvent]
  · intro used h
    have : ¬ c.synthesis_budget > used := by omega
    simp [BranchCondition.deduct_synthesis_budget, this]
  · intro used h0 hb
    by_cases hgt : c.synthesis_budget > used
    · have hw : wrap_long (c.synthesis_budget - used) = c.synthesis_budget - used := by
        unfold wrap_long
        omega
      simp only [BranchCondition.deduct_synthesis_budget, hgt, if_true, hw]
      split
      · exact le_refl (0 : Int)
      · omega
    · simp [BranchCondition.deduct_synthesis_budget, hgt]
  · intro h is_pair pos_examples neg_examples
    simp [BranchCondition.synthesize, h]

/-- Witness of C20: a Neglect condition with 5 ns left, charged 7 ns. -/
theorem insolvent_budget_spec_witness :
    (5 : Int) ≤ 7 ∧
    (BranchCondition.deduct_synthesis_budget env_x13 ⟨5, ConfusionMatrix.zero, .Neglect⟩
      7).synthesis_budget = 0 :=
  ⟨by decide, (insolvent_budget_spec env_x13 ⟨5, ConfusionMatrix.zero, .Neglect⟩).2.1 7 (by decide)⟩

/-- C12 (counterexample): with Enum as the default kind, after the inserts of
`{1,2}`, `{1,3}` and `{1,4}` the root has three leaf children; `promote_cond` on the
first one makes it Numeric and leaves its two siblings Enum.  And after the inserts
of `{1,2}` and `{1,3}` and `promote_cond` on the first child, which promotes both
children to Numeric, the leaf inserted with `{1,4}` is Enum.  In both trees the
children of the root carry conditions of different kinds. -/
theorem promote_cond_leaves_other_siblings :
    ((BookedTree.insert_calls env_x13 tpc10 calls_12_13_14).promote_cond env_x13
        [0]).child_kinds [] = [some .CT_NUMERIC, some .CT_ENUM, some .CT_ENUM] ∧
    ¬ ((BookedTree.insert_calls env_x13 tpc10 calls_12_13_14).promote_cond env_x13
        [0]).SiblingsSameKind ∧
    (((BookedTree.insert_calls env_x13 tpc10 calls_12_13).promote_cond env_x13 [0]).insert
        env_x13 tpc10 ⟨[1, 4], input_x 2, 0, 0⟩).child_kinds [] =
      [some .CT_NUMERIC, some .CT_NUMERIC, some .CT_ENUM] ∧
    ¬ (((BookedTree.insert_calls env_x13 tpc10 calls_12_13).promote_cond env_x13 [0]).insert
        env_x13 tpc10 ⟨[1, 4], input_x 2, 0, 0⟩).SiblingsSameKind := by
  refine ⟨by rfl, by decide, by rfl, by decide⟩

/-- C12 (amended): in every tree built from the empty tree by `insert` calls every
node below the root carries a condition of the default kind, so a leaf inserted
into such a tree gets the kind of its siblings; after any further `promote_cond`
calls on nodes that are not the root and have exactly one sibling, all children of
every internal node carry conditions of the same kind; and `promote_cond` on a
node with exactly one sibling gives the node and the sibling the promoted kind
(Enum to Numeric, Numeric to Neglect, Neglect stays). -/
theorem sibling_kinds_after_inserts_and_pair_promotions (env : SynthEnv) (tpc : TracePC)
    (calls : List InsertCall) (ps : List Pos)
    (hps : ∀ p ∈ ps,
      (BookedTree.insert_calls env tpc calls).tree.has_one_sibling p = true) :
    (BookedTree.insert_calls env tpc calls).AllDefault env ∧
    (ps.foldl (BookedTree.promote_cond env)
      (BookedTree.insert_calls env tpc calls)).SiblingsSameKind ∧
    ∀ (bt : BookedTree) (p : Pos) (root node sibling : Node) (cond : BranchCondition),
      bt.tree.root = some root → root.get? p = some node →
      root.get_sibling p = some sibling → bt.books.cond node.id = some cond →
      (bt.promote_cond env p).books.kind node.id = some cond.get_condtype.promoted ∧
      (bt.promote_cond env p).books.kind sibling.id = some cond.get_condtype.promoted := by
  have hd := BookedTree.insert_calls_default env tpc calls
  refine ⟨hd, ?_, ?_⟩
  · refine (BookedTree.promotions_same_kind env ps _ ?_ hd.same_kind hps).1
    intro root hr
    have ht := BookedTree.insert_calls_tagged env tpc calls
    simp only [ExecTree.TagsOK, hr] at ht
    exact ht.1
  · intro bt p root node sibling cond hr hn hs hc
    constructor
    · show (bt.books.promote_cond env bt.tree p).kind node.id = _
      rw [Books.promote_cond_kind env bt.tree bt.books p hr hn hs hc]
      simp
    · show (bt.books.promote_cond env bt.tree p).kind sibling.id = _
      rw [Books.promote_cond_kind env bt.tree bt.books p hr hn hs hc]
      simp

/-- Witness of C12: the inserts of `{1,2}` and `{1,3}`, then `promote_cond` on the
first child of the root. -/
theorem sibling_kinds_after_inserts_and_pair_promotions_witness :
    (∀ p ∈ [[0]],
      (BookedTree.insert_calls env_x13 tpc10 calls_12_13).tree.has_one_sibling p = true) ∧
    ([[0]].foldl (BookedTree.promote_cond env_x13)
      (BookedTree.insert_calls env_x13 tpc10 calls_12_13)).SiblingsSameKind :=
  ⟨by decide,
    (sibling_kinds_after_inserts_and_pair_promotions env_x13 tpc10 calls_12_13 [[0]]
      (by decide)).2.1⟩

/-- C11 (counterexample): the input `x = 0` is inserted with the path `{1,2}` and
then with the path `{1,3}`.  Both leaves, at the addresses 0 and 2, hold the input,
and `all_input` maps it to the second leaf only: for the first leaf, `all_input`
does not send its input to it. -/
theorem all_input_forgets_first_of_two_leaves :
    (BookedTree.insert_calls env_x13 tpc10 calls_same_input_two_paths).tree.leaf_inputs =
      [(0, [input_x 0]), (2, [input_x 0])] ∧
    (BookedTree.insert_calls env_x13 tpc10 calls_same_input_two_paths).books.all_input
      (input_x 0) = some 2 ∧
    ¬ (BookedTree.insert_calls env_x13 tpc10 calls_same_input_two_paths).LeafInputsMapped := by
  refine ⟨by rfl, by rfl, ?_⟩
  intro h
  have hn : (BookedTree.insert_calls env_x13 tpc10 calls_same_input_two_paths).tree.all_nodes =
      [.internal 1 [1] [.leaf 0 [2] [] [input_x 0] false, .leaf 2 [3] [] [input_x 0] false],
        .leaf 0 [2] [] [input_x 0] false, .leaf 2 [3] [] [input_x 0] false] := by rfl
  have h1 := h (.leaf 0 [2] [] [input_x 0] false) (by rw [hn]; simp) rfl (input_x 0)
    (by simp [ExecTree.leaf_inputset])
  have h2 : (BookedTree.insert_calls env_x13 tpc10 calls_same_input_two_paths).books.all_input
      (input_x 0) = some 2 := by rfl
  rw [h2] at h1
  simp [Node.id] at h1

/-- C11 (amended): after any sequence of `insert` calls on an empty tree, with valid
paths, in which no input is inserted with two paths that differ in their
significant parts, every input of every leaf is mapped by `all_input` to this leaf,
the keys of `all_input` are exactly the inputs of the leaves, and the leaves (all
nodes) have distinct addresses. -/
theorem all_input_maps_inputs_to_their_leaf (env : SynthEnv) (tpc : TracePC)
    (hS : 0 < tpc.max_significant_execpath_size) (calls : List InsertCall)
    (hv : ∀ c ∈ calls, ValidPath c.epath) (hone : OnePathPerInput tpc calls) :
    (BookedTree.insert_calls env tpc calls).LeafInputsMapped ∧
    (BookedTree.insert_calls env tpc calls).KeysAreLeafInputs ∧
    ((BookedTree.insert_calls env tpc calls).tree.all_nodes.map Node.id).Nodup := by
  have h := (BookedTree.insert_calls_inv env tpc hS calls hv hone).mapped_leaves
  refine ⟨h.1, h.2, ?_⟩
  have ht := BookedTree.insert_calls_tagged env tpc calls
  unfold ExecTree.TagsOK at ht
  unfold ExecTree.all_nodes
  cases hr : (BookedTree.insert_calls env tpc calls).tree.root with
  | none => simp
  | some r =>
    rw [hr] at ht
    exact ht.1

/-- Witness of C11: `x = 0` with the path `{1,2}`, `x = 1` with the path `{1,3}`, and
`x = 0` with the path `{1,2}` again. -/
theorem all_input_maps_inputs_to_their_leaf_witness :
    0 < tpc10.max_significant_execpath_size ∧
    (∀ c ∈ calls_12_13_again, ValidPath c.epath) ∧
    OnePathPerInput tpc10 calls_12_13_again ∧
    (BookedTree.insert_calls env_x13 tpc10 calls_12_13_again).LeafInputsMapped ∧
    (BookedTree.insert_calls env_x13 tpc10 calls_12_13_again).KeysAreLeafInputs :=
  ⟨by decide, by decide, by decide,
    (all_input_maps_inputs_to_their_leaf env_x13 tpc10 (by decide) calls_12_13_again
      (by decide) (by decide)).1,
    (all_input_maps_inputs_to_their_leaf env_x13 tpc10 (by decide) calls_12_13_again
      (by decide) (by decide)).2.1⟩

/-- C21: `promote_cond` on a node that owns the condition `cond` replaces an Enum
condition by the fresh condition `NumericCondition()`, a Numeric condition by the
fresh condition `NeglectCondition()` and leaves a Neglect condition as it is; after
`n` calls on the node the kind is `n` steps up the ladder Enum, Numeric, Neglect
from the kind of `cond`, so it never moves back.  The fresh conditions take nothing
from `cond`: the Numeric one has no expression (it is invalid), both have the
all-zero confusion matrix and the budget `synthesis_budget_max()`. -/
theorem promote_cond_one_step_up (env : SynthEnv) (bt : BookedTree) (pos : Pos)
    (cond : BranchCondition) (h : bt.cond_at pos = some cond) :
    (cond.get_condtype = .CT_ENUM →
      (bt.promote_cond env pos).cond_at pos = some (NumericCondition.new env)) ∧
    (cond.get_condtype = .CT_NUMERIC →
      (bt.promote_cond env pos).cond_at pos = some (NeglectCondition.new env)) ∧
    (cond.get_condtype = .CT_NEGLECT → (bt.promote_cond env pos).cond_at pos = some cond) ∧
    (∀ n : Nat,
      (((fun b => BookedTree.promote_cond env b pos)^[n] bt).cond_at pos).map
        BranchCondition.get_condtype = some (CondType.promoted^[n] cond.get_condtype)) ∧
    ((NumericCondition.new env).get_condtype = .CT_NUMERIC ∧
      (NumericCondition.new env).invalid = true ∧
      (NumericCondition.new env).cmat = ⟨0, 0, 0, 0⟩ ∧
      (NumericCondition.new env).synthesis_budget = synthesis_budget_max env) ∧
    ((NeglectCondition.new env).get_condtype = .CT_NEGLECT ∧
      (NeglectCondition.new env).cmat = ⟨0, 0, 0, 0⟩ ∧
      (NeglectCondition.new env).synthesis_budget = synthesis_budget_max env) := by
  have hp := BookedTree.promote_cond_at env bt pos cond h
  refine ⟨?_, ?_, ?_, fun n => BookedTree.promote_cond_iterate env pos n bt cond h, ?_, ?_⟩
  · intro hk
    rw [hp, if_pos hk]
  · intro hk
    rw [hp, if_neg (by rw [hk]; decide), if_pos hk]
  · intro hk
    rw [hp, if_neg (by rw [hk]; decide), if_neg (by rw [hk]; decide)]
  · exact ⟨rfl, rfl, rfl, rfl⟩
  · exact ⟨rfl, rfl, rfl⟩

/-- Witness of C21: after the inserts of `{1,2}` and `{1,3}` the first child of the
root owns a fresh Enum condition; `promote_cond` makes it a fresh Numeric one. -/
theorem promote_cond_one_step_up_witness :
    (BookedTree.insert_calls env_x13 tpc10 calls_12_13).cond_at [0] =
      some (EnumCondition.new env_x13) ∧
    ((BookedTree.insert_calls env_x13 tpc10 calls_12_13).promote_cond env_x13 [0]).cond_at [0] =
      some (NumericCondition.new env_x13) :=
  ⟨by rfl,
    (promote_cond_one_step_up env_x13 (BookedTree.insert_calls env_x13 tpc10 calls_12_13) [0]
      (EnumCondition.new env_x13) (by rfl)).1 (by rfl)⟩

/-- C23: `simplify(Not(Not(e)))` is `e`, and `simplify` of the negation of a
comparison is the complementary comparison of the same operands: `=` gives `!=`,
`!=` gives `=`, `<` gives `>=`, `>` gives `<=`, `<=` gives `>`, `>=` gives `<`.
The results are equal as values and `struct_eq` returns true on them. -/
theorem simplify_negation_laws (e : BoolExpr) (a b : IntExpr) :
    (simplify (.NOT (.NOT e)) = e ∧ (simplify (.NOT (.NOT e))).struct_eq e = true) ∧
    (simplify (.NOT (.EQ a b)) = .NEQ a b ∧
      (simplify (.NOT (.EQ a b))).struct_eq (.NEQ a b) = true) ∧
    (simplify (.NOT (.NEQ a b)) = .EQ a b ∧
      (simplify (.NOT (.NEQ a b))).struct_eq (.EQ a b) = true) ∧
    (simplify (.NOT (.LT a b)) = .GTE a b ∧
      (simplify (.NOT (.LT a b))).struct_eq (.GTE a b) = true) ∧
    (simplify (.NOT (.GT a b)) = .LTE a b ∧
      (simplify (.NOT (.GT a b))).struct_eq (.LTE a b) = true) ∧
    (simplify (.NOT (.LTE a b)) = .GT a b ∧
      (simplify (.NOT (.LTE a b))).struct_eq (.GT a b) = true) ∧
    (simplify (.NOT (.GTE a b)) = .LT a b ∧
      (simplify (.NOT (.GTE a b))).struct_eq (.LT a b) = true) := by
  have h0 : simplify (.NOT (.NOT e)) = e := by simp [simplify, BoolExpr.not]
  refine ⟨⟨h0, ?_⟩, ⟨rfl, ?_⟩, ⟨rfl, ?_⟩, ⟨rfl, ?_⟩, ⟨rfl, ?_⟩, ⟨rfl, ?_⟩, ⟨rfl, ?_⟩⟩
  · rw [h0]; exact BoolExpr.struct_eq_self e
  all_goals exact (BoolExpr.struct_eq_iff _ _).2 rfl

/-- C24 (failing input): for `x = (a < 0)` the constructor gives `x` for
`And(True, x)` and for `Or(False, x)`, but `And(x, True)` and `Or(x, False)`, built
by the constructor or by `operator&&` and `operator||`, read through the null
member `bleft` and give no expression. -/
theorem and_true_on_the_right_reads_null_member :
    BoolExpr.binary .BOOLEXPR_AND BoolExpr.true_expr a_lt_0 = .ok a_lt_0 ∧
    BoolExpr.binary .BOOLEXPR_OR BoolExpr.false_expr a_lt_0 = .ok a_lt_0 ∧
    BoolExpr.binary .BOOLEXPR_AND a_lt_0 BoolExpr.true_expr = .error .null_pointer ∧
    BoolExpr.binary .BOOLEXPR_OR a_lt_0 BoolExpr.false_expr = .error .null_pointer ∧
    a_lt_0.and_op BoolExpr.true_expr = .error .null_pointer ∧
    a_lt_0.or_op BoolExpr.false_expr = .error .null_pointer := by
  refine ⟨by rfl, by rfl, by rfl, by rfl, by rfl, by rfl⟩

/-- C26: on `k` negations around `Eq(Var a, Var b)` the function
`to_equality_condition` returns `(Equal, a, b)` for even `k` and `(Inequal, a, b)`
for odd `k`, and the other way round around `Neq(Var a, Var b)`; on every argument
map the returned relation holds between the values of `a` and `b` iff the
expression evaluates to true; and an expression that is not of one of these two
shapes gets no result. -/
theorem to_equality_condition_spec (a b : String) (k : Nat) :
    to_equality_condition (nest_not k (.EQ (.VAR a) (.VAR b))) =
      .ok ⟨if k % 2 = 0 then .ET_Equal else .ET_Inequal, a, b⟩ ∧
    to_equality_condition (nest_not k (.NEQ (.VAR a) (.VAR b))) =
      .ok ⟨if k % 2 = 0 then .ET_Inequal else .ET_Equal, a, b⟩ ∧
    (∀ args : Args,
      ((⟨if k % 2 = 0 then .ET_Equal else .ET_Inequal, a, b⟩ : EqualityCondition).holds args
          = true ↔
        (nest_not k (.EQ (.VAR a) (.VAR b))).eval args = .ok true) ∧
      ((⟨if k % 2 = 0 then .ET_Inequal else .ET_Equal, a, b⟩ : EqualityCondition).holds args
          = true ↔
        (nest_not k (.NEQ (.VAR a) (.VAR b))).eval args = .ok true)) ∧
    (∀ e : BoolExpr,
      (∀ (k2 : Nat) (a2 b2 : String),
        e ≠ nest_not k2 (.EQ (.VAR a2) (.VAR b2)) ∧ e ≠ nest_not k2 (.NEQ (.VAR a2) (.VAR b2))) →
      ∃ r, to_equality_condition e = .error r) := by
  refine ⟨(to_equality_condition_nest k a b).1, (to_equality_condition_nest k a b).2,
    fun args => holds_iff_eval_nest k a b args, ?_⟩
  intro e he
  cases hc : to_equality_condition e with
  | error r => exact ⟨r, rfl⟩
  | ok c =>
    obtain ⟨k2, a2, b2, h⟩ := shape_of_to_equality_condition e c hc
    rcases h with h | h
    · exact absurd h (he k2 a2 b2).1
    · exact absurd h (he k2 a2 b2).2

/-- C27 (failing input): on the vector of `x` over the 32 values 0, .., 31 that
`set(0)` builds from the empty vector, `~(~a)` is not `a`: `set(0)` stores
`0xFFFFFFFF80000000`, which has 32 bits outside the mask `0xFFFFFFFF`, and the two
negations give `0x80000000`.  The distributive law holds for all vectors. -/
theorem double_negation_loses_bits_of_32 :
    (bv_x32.set (fun _ => 0) 0).bitvec = 2 ^ 64 - 2 ^ 31 ∧
    bv_x32.mask = 2 ^ 32 - 1 ∧
    (bv_x32.set (fun _ => 0) 0).not_op.not_op.bitvec = 2 ^ 31 ∧
    (bv_x32.set (fun _ => 0) 0).not_op.not_op ≠ bv_x32.set (fun _ => 0) 0 ∧
    (∀ a b c : EnumArgBitVec, (a.or_op b).and_op c = (a.and_op c).or_op (b.and_op c)) := by
  refine ⟨by decide, by decide, by decide, by decide, ?_⟩
  intro a b c
  simp only [EnumArgBitVec.or_op, EnumArgBitVec.and_op, EnumArgBitVec.bit_or,
    EnumArgBitVec.bit_and]
  congr 1
  exact Nat.and_distrib_right a.bitvec b.bitvec c.bitvec

/-- C28 (failing input): on the vector of `x` over the 33 values 0, .., 32, after
`unset_all()` and `set(1)` two bits are set, `draw()` with `rand() = 0` returns 0
and the vector is not `in` the full vector; and for the 32 values 0, .., 31 the
vector after `unset_all()` and `set(0)` is not `in` the full vector.  The shift on
both paths is the shift of the `int` 1 by 31. -/
theorem set_above_31_values_sets_more_bits :
    (bv_x33.unset_all.set (fun _ => 0) 1).num_set_bit = 2 ∧
    (bv_x33.unset_all.set (fun _ => 0) 1).draw 0 = some 0 ∧
    (bv_x33.unset_all.set (fun _ => 0) 1).in_ bv_x33.set_all = false ∧
    (bv_x32.unset_all.set (fun _ => 0) 0).in_ bv_x32.set_all = false := by
  decide

/-- C25 (counterexample): the expression `ite(p, 1, 2)` on the boolean variable `p`
has no Div and no Mod node, and on the argument map `p = 1` `IntExpr::eval` neither
raises `CondEvalException` nor returns a value: `BoolExpr::eval` throws
`Unreachable` on a boolean variable. -/
theorem int_expr_eval_unreachable_on_bool_var :
    ite_on_bool_var.eval [("p", 1)] = .error .Unreachable ∧
    ite_on_bool_var.eval [("p", 1)] ≠ .error .CondEvalException ∧
    (∀ v : Int, ite_on_bool_var.eval [("p", 1)] ≠ .ok v) ∧
    ite_on_bool_var.value [("p", 1)] = some 2 := by
  have h : ite_on_bool_var.eval [("p", 1)] = .error .Unreachable := by rfl
  refine ⟨h, ?_, ?_, by rfl⟩
  · rw [h]; intro hc; cases hc
  · intro v; rw [h]; intro hc; cases hc

/-- C25 (amended): for an expression without boolean variables, an argument map that
defines all its variables, and operand values and quotients of the reached Div and
Mod nodes that are values of `int`, `IntExpr::eval` raises `CondEvalException` iff
the evaluation reaches a Div or Mod node whose right operand has the value zero
(the described value is absent), and otherwise returns the described value: the
branch not selected by an Ite condition is not evaluated, and Div and Mod are the
truncating division and remainder of the two operand values. -/
theorem int_expr_eval_spec (e : IntExpr) (args : Args)
    (hvars : ∀ x ∈ e.vars, (args.lookup x).isSome = true) (hbv : e.no_bool_var = true)
    (hfit : e.div_fits_int args = true) :
    (e.eval args = .error .CondEvalException ↔ e.value args = none) ∧
    (∀ v : Int, e.value args = some v → e.eval args = .ok v) ∧
    (e.value args ≠ none → ∃ v : Int, e.eval args = .ok v ∧ e.value args = some v) := by
  have h := IntExpr.eval_eq_value args e hvars hbv hfit
  rw [h]
  cases hv : e.value args with
  | none => simp [raised_or]
  | some v => simp [raised_or]

/-- Witness of C25: `ite(y = 0, 0, x / y)` on `x = -7, y = 2` has the value `-3`, and
on `x = 7, y = 0` the value `0`, the division being in the branch not taken. -/
theorem int_expr_eval_spec_witness :
    (∀ x ∈ guarded_div.vars, (List.lookup x [("x", -7), ("y", 2)]).isSome = true) ∧
    guarded_div.no_bool_var = true ∧
    guarded_div.div_fits_int [("x", -7), ("y", 2)] = true ∧
    guarded_div.eval [("x", -7), ("y", 2)] = .ok (-3) ∧
    guarded_div.eval [("x", 7), ("y", 0)] = .ok 0 :=
  ⟨by decide, by decide, by decide,
    (int_expr_eval_spec guarded_div [("x", -7), ("y", 2)] (by decide) (by decide)
      (by decide)).2.1 (-3) (by decide),
    (int_expr_eval_spec guarded_div [("x", 7), ("y", 0)] (by decide) (by decide)
      (by decide)).2.1 0 (by decide)⟩

/-- C22: for a signature built by registration calls (its parameter names are then
pairwise distinct) and an input whose enum-args map has exactly the names of the
enum parameters as keys and whose numeric-args map has exactly the names of the
integer parameters as keys, `deserialize(serialize(input))` returns `input`, and
`serialize(input)` is the list of the values of the enum parameters in declaration
order followed by the values of the integer parameters in declaration order. -/
theorem deserialize_serialize_roundtrip (regs : List Registration) (sig : InputSignature)
    (input : Input) (hreg : InputSignature.register_all regs = some sig)
    (he : input.enum_args.is_map) (hn : input.numeric_args.is_map)
    (hke : input.enum_args.has_keys sig.get_enum_param_names)
    (hkn : input.numeric_args.has_keys sig.get_numeric_param_names) :
    (sig.get_enum_param_names ++ sig.get_numeric_param_names).Nodup ∧
    sig.deserialize (sig.serialize input) = some input ∧
    (sig.serialize input).map some =
      sig.enum_params.map (fun p => List.lookup p.name input.enum_args) ++
        sig.numeric_params.map (fun p => List.lookup p.name input.numeric_args) :=
  ⟨InputSignature.names_nodup_of_registered regs sig hreg,
    InputSignature.deserialize_serialize sig input he hn hke hkn,
    InputSignature.serialize_values sig input hke hkn⟩

/-- Witness of C22: the registrations of `x`, of the enum `e` and of `y`, and the
input `e = 2, x = -7, y = 5`, which serializes to `2, -7, 5`. -/
theorem deserialize_serialize_roundtrip_witness :
    InputSignature.register_all regs_e_x_y = some sig_e_x_y ∧
    input_e_x_y.enum_args.is_map ∧ input_e_x_y.numeric_args.is_map ∧
    input_e_x_y.enum_args.has_keys sig_e_x_y.get_enum_param_names ∧
    input_e_x_y.numeric_args.has_keys sig_e_x_y.get_numeric_param_names ∧
    sig_e_x_y.serialize input_e_x_y = [2, -7, 5] ∧
    sig_e_x_y.deserialize (sig_e_x_y.serialize input_e_x_y) = some input_e_x_y :=
  ⟨by decide, by decide,
    List.pairwise_pair.2 (String.lt_iff_toList_lt.2 (by decide)), by simp [Args.has_keys, input_e_x_y, sig_e_x_y,
      InputSignature.get_enum_param_names],
    by simp [Args.has_keys, input_e_x_y, sig_e_x_y, InputSignature.get_numeric_param_names],
    by decide,
    (deserialize_serialize_roundtrip regs_e_x_y sig_e_x_y input_e_x_y (by decide) (by decide)
      (List.pairwise_pair.2 (String.lt_iff_toList_lt.2 (by decide)))
      (by simp [Args.has_keys, input_e_x_y, sig_e_x_y, InputSignature.get_enum_param_names])
      (by simp [Args.has_keys, input_e_x_y, sig_e_x_y,
        InputSignature.get_numeric_param_names])).2.1⟩

/-- C29 (counterexample): when no integer parameter is declared the solver has no
variable; with the oracle `check_x64`, which returns only models of the asserted
formulas, two consecutive calls of `Solver::draw()`, and two consecutive calls of
`NumericSolver::draw()`, return the same (empty) assignment, although no
`clear_history()` lies between them: both oracle answers are models, and
`current_assignment()` is null, so the history never grows. -/
theorem draw_repeats_without_variables :
    SoundOracle check_x64 ∧
    Solver.draws check_x64 [[], []] solver_no_vars = .ok [some [], some []] ∧
    NumericSolver.draws check_x64 [(false, 0, 0, 0), (false, 0, 0, 0)]
      numeric_solver_no_params = .ok [some [], some []] :=
  ⟨check_x64_sound, by rfl, by rfl⟩

/-- C29 (amended): with an oracle that returns only models of the asserted formulas,
(1) the assignments returned by a sequence of `Solver::draw()` calls on a solver
with at least one variable, without `clear_history()` between them, plain or with
pushed (mutation) constraints, are pairwise distinct; (2) if the oracle also finds a
model whenever the formulas about the one variable with the domain -64, .., 64 have
one, then 129 consecutive calls of `NumericSolver::draw()` on the solver of one
parameter without user constraints all return an assignment and these are pairwise
distinct; (3) when `NumericSolver::draw()` returns nothing, the oracle has answered
without a model on the assertions without history, so these are unsatisfiable
whenever the oracle is complete on them. -/
theorem numeric_solver_draw_spec (check : List Formula → Option Z3Model)
    (hsound : SoundOracle check) :
    (∀ (s : Solver) (pushed : List (List Formula)) (results : List (Option Args)),
      s.solver_vars ≠ [] → Solver.draws check pushed s = .ok results →
      (results.filterMap id).Nodup) ∧
    (∀ (name : String) (concrete : String → Int) (conform_soft : Bool)
      (flags : List (Bool × Nat × Nat × Nat)),
      CompleteOracle check [name] (-64) 64 → flags.length = 129 →
      ∃ vs : List Int,
        NumericSolver.draws check flags
            ((NumericSolver.new (-64) 64 [{ name := name }] [] [] concrete).reset
              conform_soft) =
          .ok (vs.map (fun v => some [(name, v)])) ∧
        vs.length = 129 ∧ vs.Nodup) ∧
    (∀ (ns ns1 : NumericSolver) (mutate : Bool) (r1 r2 r3 : Nat),
      ns.draw check mutate r1 r2 r3 = .ok (none, ns1) →
      check ns.solver.assertions = none ∧
      ∀ (names : List String) (lo hi : Int), CompleteOracle check names lo hi →
        (∀ f ∈ ns.solver.assertions, DependsOnly names f) →
        (∀ m : Z3Model, (∀ f ∈ ns.solver.assertions, f m = true) →
          ∀ n ∈ names, lo ≤ m n ∧ m n ≤ hi) →
        Unsatisfiable ns.solver.assertions) := by
  refine ⟨?_, ?_, ?_⟩
  · intro s pushed results hne hd
    exact (Solver.draws_distinct check hsound pushed s [] results hne (by simp) hd).1
  · intro name concrete conform_soft flags hcomp hlen
    obtain ⟨vs, h1, h2, h3, _⟩ :=
      OneVarState.after_draws check hsound name hcomp flags _ []
        (OneVarState.after_reset name concrete conform_soft) (by simp [hlen])
    exact ⟨vs, h1, by rw [h2, hlen], h3⟩
  · intro ns ns1 mutate r1 r2 r3 hd
    have hnone := NumericSolver.numeric_draw_none check ns ns1 mutate r1 r2 r3 hd
    exact ⟨hnone, fun names lo hi hcomp hdep hb => hcomp _ hdep hb hnone⟩

/-- Witness of C29: the oracle `check_x64` tries the values -64, .., 64 of `x` in
order; it returns only models and is complete on formulas about `x` within the
domain; 129 draws on the solver of the parameter `x` are pairwise distinct. -/
theorem numeric_solver_draw_spec_witness :
    SoundOracle check_x64 ∧ CompleteOracle check_x64 ["x"] (-64) 64 ∧
    ∃ vs : List Int,
      NumericSolver.draws check_x64 (List.replicate 129 (false, 0, 0, 0)) numeric_solver_x64 =
        .ok (vs.map (fun v => some [("x", v)])) ∧
      vs.length = 129 ∧ vs.Nodup :=
  ⟨check_x64_sound, check_x64_complete,
    (numeric_solver_draw_spec check_x64 check_x64_sound).2.1 "x" (fun _ => 0) true
      (List.replicate 129 (false, 0, 0, 0)) check_x64_complete (by simp)⟩

/-- Claim C30: a function whose name and parameters are identifiers and whose body is
built from the comparisons `=`, `<`, `>`, `<=`, `>=`, from `and`, `or`, `not` without
an operand equal to the literal true or false expression, and from integer terms
of non-negative literals, identifiers, `+`, `-`, `*`, `/`, `%` and `ite`, is parsed back
from its printed form: `parse_fun` returns a function with the same name, the
same parameters and a body structurally equal to the body printed. -/
theorem parse_fun_round_trip (f : FunSynthesized) (h : f.printable = true) :
    ∃ g : FunSynthesized, parse_fun f.to_string = .ok g ∧ g.name = f.name ∧
      g.params = f.params ∧ g.body.struct_eq f.body = true :=
  ⟨f, FunSynthesized.parse_fun_to_string f h, rfl, rfl, BoolExpr.struct_eq_self f.body⟩

/-- The round trip on the function `f(x, y_1)` of `fun_example`. -/
theorem parse_fun_round_trip_witness :
    fun_example.printable = true ∧
      ∃ g : FunSynthesized, parse_fun fun_example.to_string = .ok g ∧
        g.name = fun_example.name ∧ g.params = fun_example.params ∧
        g.body.struct_eq fun_example.body = true :=
  ⟨by decide, parse_fun_round_trip fun_example (by decide)⟩

/-- Claim C13, on the code: the tracer has PCID 5 marked, the paths `[1, 5, 2, 5]` and
`[1, 2]` differ at their second position, and the only pass of the loop of
`CheckDiff` shadows the two occurrences of PCID 5 and nothing else: it marks no new
PCID. -/
theorem check_diff_pass_marks_no_new_pcid :
    (∃ i < tpc_nd5.ExecPathSignificantMax,
      ([1, 5, 2, 5] : ExecPath)[i]? ≠ ([1, 2] : ExecPath)[i]?) ∧
    (tpc_nd5.CheckDiff_states [1, 5, 2, 5] [1, 2] 6).toOption.map
      (fun states => states.map (fun t => t.nd)) = some [[5, 5, 5]] ∧
    (tpc_nd5.CheckDiff [1, 5, 2, 5] [1, 2] 6).toOption.map (fun t => t.nd) = some [5, 5, 5] ∧
    marks_new tpc_nd5 { max_significant_execpath_size := 10, nd := [5, 5, 5] } = false :=
  ⟨⟨1, by decide, by decide⟩, by rfl, by rfl, by rfl⟩

/-- Claim C13 (amended): for a tracer with `S ≥ 10`, as the constructor asserts, and
two paths that hold no PCID already marked nondeterministic and differ somewhere
within their first `S` positions, `CheckDiff(left, right)` returns within
`left.size() + right.size()` passes of its loop; every pass marks at least one new
PCID nondeterministic; and on return `Prune(left)` and `Prune(right)` are identical or
share a common prefix of length at least `S`, and `eq_significant` holds of them. -/
theorem check_diff_terminates_and_equalises (tpc : TracePC) (left right : ExecPath)
    (hS : 10 ≤ tpc.max_significant_execpath_size)
    (hdiff : ∃ i < tpc.ExecPathSignificantMax, left[i]? ≠ right[i]?)
    (hclean : ∀ p ∈ left ++ right, tpc.IsND p = false) :
    ∃ states tpc2,
      tpc.CheckDiff_states left right (left.length + right.length) = .ok states ∧
      tpc.CheckDiff left right (left.length + right.length) = .ok tpc2 ∧
      states.getLast? = some tpc2 ∧
      List.Chain (fun a b => marks_new a b = true) tpc states ∧
      (tpc2.Prune left = tpc2.Prune right ∨
        tpc2.ExecPathSignificantMax ≤
          common_prefix_length (tpc2.Prune left) (tpc2.Prune right)) ∧
      tpc2.eq_significant (tpc2.Prune left) (tpc2.Prune right) = true := by
  obtain ⟨i, hi, hne⟩ := hdiff
  have hcpl : ( remove_common_prefix left right).2.2 < tpc.ExecPathSignificantMax := by
    show common_prefix_length left right < tpc.ExecPathSignificantMax
    by_contra hcon
    exact hne (getElem?_eq_of_lt_common_prefix_length left right i (by omega))
  have hneq : ¬ (( remove_common_prefix left right).1.length = 0 ∧
      ( remove_common_prefix left right).2.1.length = 0) := by
    rintro ⟨h1, h2⟩
    apply hne
    rw [eq_of_remove_common_prefix_nil left right h1 h2]
  have hok := TracePC.chunks_ok tpc left right left right hS
    (fun p hp => ⟨hp, hclean p (List.mem_append_left _ hp)⟩)
    (fun p hp => ⟨hp, hclean p (List.mem_append_right _ hp)⟩) hneq
  obtain ⟨states, tpc2, e1, e2, hrest⟩ := TracePC.CheckDiff_loop_spec left right
    (left.length + right.length) tpc
    (tpc.chunks ( remove_common_prefix left right).1 ( remove_common_prefix left right).2.1).1
    _ _ hS (unmarked_card_le tpc left right) hok
  refine ⟨states, tpc2, ?_, ?_, hrest⟩
  · unfold TracePC.CheckDiff_states
    simp only []
    rw [if_pos hcpl]
    exact e1
  · unfold TracePC.CheckDiff
    simp only []
    rw [if_pos hcpl]
    exact e2

/-- Witness of C13: the paths `[1, 2]` and `[1, 3]` on a tracer with `S = 10` and no
marked PCID. -/
theorem check_diff_terminates_and_equalises_witness :
    10 ≤ tpc_fresh.max_significant_execpath_size ∧
    (∃ i < tpc_fresh.ExecPathSignificantMax,
      ([1, 2] : ExecPath)[i]? ≠ ([1, 3] : ExecPath)[i]?) ∧
    (∀ p ∈ ([1, 2] : ExecPath) ++ [1, 3], tpc_fresh.IsND p = false) ∧
    ∃ states tpc2,
      tpc_fresh.CheckDiff_states [1, 2] [1, 3] (([1, 2] : ExecPath).length +
        ([1, 3] : ExecPath).length) = .ok states ∧
      tpc_fresh.CheckDiff [1, 2] [1, 3] (([1, 2] : ExecPath).length +
        ([1, 3] : ExecPath).length) = .ok tpc2 ∧
      states.getLast? = some tpc2 ∧
      List.Chain (fun a b => marks_new a b = true) tpc_fresh states ∧
      (tpc2.Prune [1, 2] = tpc2.Prune [1, 3] ∨
        tpc2.ExecPathSignificantMax ≤
          common_prefix_length (tpc2.Prune [1, 2]) (tpc2.Prune [1, 3])) ∧
      tpc2.eq_significant (tpc2.Prune [1, 2]) (tpc2.Prune [1, 3]) = true :=
  ⟨by decide, ⟨1, by decide, by decide⟩, by decide,
    check_diff_terminates_and_equalises tpc_fresh [1, 2] [1, 3] (by decide)
      ⟨1, by decide, by decide⟩ (by decide)⟩

/-- Claim C36: the shape of the tree is canonical.  For a list of `insert` calls
whose paths are non-empty, hold positive PCIDs only and are at most `S` long, and a
list of calls whose paths are a permutation of these paths, the two trees built
from the empty tree have the same shape and the same prefix on every node. -/
theorem insert_order_gives_same_shape (tpc : TracePC) (calls permuted : List InsertCall)
    (hv : ∀ c ∈ calls, ValidPath c.epath ∧
      c.epath.length ≤ tpc.max_significant_execpath_size)
    (hperm : (calls.map (fun c => c.epath)).Perm (permuted.map (fun c => c.epath))) :
    (ExecTree.insert_calls tpc calls).same_shape (ExecTree.insert_calls tpc permuted) = true := by
  cases hc : calls with
  | nil =>
    rw [hc] at hperm
    have hp : permuted = [] := by
      have := hperm.length_eq
      simpa using this.symm
    rw [hp]
    rfl
  | cons c0 rest =>
    rw [← hc]
    have hS : 0 < tpc.max_significant_execpath_size := by
      have h0 := hv c0 (by rw [hc]; exact List.mem_cons_self _ _)
      have hlen : 0 < c0.epath.length := List.length_pos.2 h0.1.1
      omega
    have hmem : ∀ p, p ∈ calls.map (fun c => c.epath) ↔ p ∈ permuted.map (fun c => c.epath) :=
      fun p => hperm.mem_iff
    have hv1 : ∀ c ∈ calls, ValidPath c.epath := fun c h => (hv c h).1
    have hv2 : ∀ c ∈ permuted, ValidPath c.epath := by
      intro c h
      have h1 : c.epath ∈ calls.map (fun c => c.epath) :=
        (hmem c.epath).2 (List.mem_map.2 ⟨c, h, rfl⟩)
      obtain ⟨c1, hc1, e⟩ := List.mem_map.1 h1
      rw [← e]
      exact hv1 c1 hc1
    apply ExecTree.same_shape_of_same_denote _ _ (ExecTree.insert_calls_good tpc hS calls hv1)
      (ExecTree.insert_calls_good tpc hS permuted hv2)
    intro x
    rw [ExecTree.mem_denote_insert_calls tpc hS calls hv1,
      ExecTree.mem_denote_insert_calls tpc hS permuted hv2]
    constructor
    · rintro ⟨c, h, rfl⟩
      obtain ⟨c1, hc1, e⟩ := List.mem_map.1 ((hmem c.epath).1 (List.mem_map.2 ⟨c, h, rfl⟩))
      exact ⟨c1, hc1, by rw [e]⟩
    · rintro ⟨c, h, rfl⟩
      obtain ⟨c1, hc1, e⟩ := List.mem_map.1 ((hmem c.epath).2 (List.mem_map.2 ⟨c, h, rfl⟩))
      exact ⟨c1, hc1, by rw [e]⟩

/-- Witness of C36: the paths `[1, 2]`, `[1, 3]` in both orders, `S = 10`. -/
theorem insert_order_gives_same_shape_witness :
    (∀ c ∈ calls_12_13, ValidPath c.epath ∧
      c.epath.length ≤ tpc10.max_significant_execpath_size) ∧
    (calls_12_13.map (fun c => c.epath)).Perm (calls_13_12.map (fun c => c.epath)) ∧
    (ExecTree.insert_calls tpc10 calls_12_13).same_shape
      (ExecTree.insert_calls tpc10 calls_13_12) = true :=
  ⟨by decide, by decide,
    insert_order_gives_same_shape tpc10 calls_12_13 calls_13_12 (by decide) (by decide)⟩

/-- Claim C33: negation is semantically exact.  On every argument map `!e` evaluates
to the negated boolean when `e` evaluates to a boolean, and raises the exception
that `e` raises otherwise (`CondEvalException` included), also for an `e` with
boolean variables; `simplify(e)` evaluates like `e`; and after a successful
synthesis of a Numeric pair the sibling holds the negation of the new condition and
evaluates to the opposite of it wherever the new condition has a value. -/
theorem negation_is_exact (e : BoolExpr) (args : Args) :
    (e.not.eval args =
      (match e.eval args with
       | .ok v => .ok (!v)
       | .error err => .error err)) ∧
    (e.not.eval args = .error .CondEvalException ↔ e.eval args = .error .CondEvalException) ∧
    (simplify e).eval args = e.eval args ∧
    (∀ (env : SynthEnv) (c : BranchCondition) (pos neg : List Input),
      (NumericCondition.synthesize_internal env c true pos neg).1.status = .SUCCESS →
      ∃ cond cn cs,
        (NumericCondition.synthesize_internal env c true pos neg).1.cond_new = some cn ∧
        (NumericCondition.synthesize_internal env c true pos neg).1.cond_new_sibling =
          some cs ∧
        cn.body = .Numeric (some cond) ∧ cs.body = .Numeric (some cond.not) ∧
        ∀ input : Input,
          cs.eval env input true =
            (match cn.eval env input true with
             | .ok v => .ok (!v)
             | .error err => .error err)) := by
  refine ⟨BoolExpr.eval_not e args, ?_, eval_simplify e args, ?_⟩
  · rw [BoolExpr.eval_not e args]
    cases e.eval args with
    | error err => simp
    | ok v => simp
  · intro env c pos neg h
    obtain ⟨cond, cn, cs, h1, h2, h3, h4⟩ := NumericCondition.pair_of_success env c pos neg h
    refine ⟨cond, cn, cs, h1, h2, h3, h4, fun input => ?_⟩
    simp only [BranchCondition.eval, h3, h4]
    rw [BoolExpr.eval_not]
    cases cond.eval input.numeric_args with
    | error err => rfl
    | ok v => cases v <;> rfl

/-- Claim C40, on the code: the printed function `(define-fun f ((x Int)) Bool (= x -3))` is
parsed into the function with the body `x = 3`, which is false at `x = -3` where the
printed body is true; and for every `n` with `0 < n < 2^31` the printed literal `-n` is
parsed as the constant `n`. -/
theorem negative_literal_is_parsed_without_sign :
    parse_fun fun_x_eq_minus_3.to_string = .ok fun_x_eq_3 ∧
    fun_x_eq_minus_3.body.eval [("x", -3)] = .ok true ∧
    fun_x_eq_3.body.eval [("x", -3)] = .ok false ∧
    (∀ (n : Int) (fuel : Nat) (rest : List Char), 0 < n → n < 2 ^ 31 → ends_token rest →
      parse_intexpr (fuel + 1) ((IntExpr.CONST (-n)).to_string ++ rest) = .ok (.CONST n, rest)) :=
  ⟨by rfl, by rfl, by rfl, fun n fuel rest h0 h1 h2 => parse_negative_literal n fuel rest h0 h1 h2⟩

/-- Claim C31, on the code: `right = [1, 9, 2, 3]` is `left = [1, 2, 3]` with the PCID 9
inserted, the edit distance is 1, and the recursive `CheckDiff` on all-false shadows
shadows two positions of `right`, the inserted one and the last one: without the
shadowed positions `right` is `[1, 2]` and `left` is `[1, 2, 3]`. -/
theorem check_diff_shadows_the_last_position_too :
    CheckDiff_shadow [1, 2, 3] [1, 9, 2, 3] 8 0 3 0 4 [false, false, false]
      [false, false, false, false] = .ok ([false, false, false], [false, true, false, true]) ∧
    unshadowed [1, 2, 3] [false, false, false] = [1, 2, 3] ∧
    unshadowed [1, 9, 2, 3] [false, true, false, true] = [1, 2] ∧
    edit_distance [1, 2, 3] [1, 9, 2, 3] = 1 ∧
    ([false, false, false].count true + [false, true, false, true].count true = 2) :=
  ⟨by rfl, by rfl, by rfl, by rfl, by rfl⟩

/-- Claim C37, on the code: for two enum parameters over the 33 values 0, .., 32 and the
graph of the sets `{x}` and `{y}`, both with the candidates 0 and 1 and joined by an
inequality edge, the assignment `x = 1`, `y = 0` is a solution, and
`EqualityGraph::draw` with `rand()` returning 1 returns absent: `pick` on `{x}` draws
the value 1 and stores an assignment vector that holds the values 0 and 1, so `pick`
on `{y}` finds no value left, and no other value of `{x}` is tried.  The only shift
on this path is the shift of the `int` 1 by 31. -/
theorem graph_draw_absent_with_solution :
    EqualityGraph.is_solution graph_x33_y33 [1, 0] = true ∧
    (bv33_0_1 "x").values = [0, 1] ∧
    (bv33_0_1 "x").bitvec &&& (bv33_0_1 "x").mask = (bv33_0_1 "x").bitvec ∧
    (((EnumArgBitVec.of_range (fun _ => 0) "x" 0 33).set_all.exclude (bv33_0_1 "x")).negate =
      bv33_0_1 "x") ∧
    EqualityGraph.draw (fun _ => 0) (fun _ => 1) 10 graph_x33_y33 = some none ∧
    (((bv33_0_1 "x").extract_random_bit (fun _ => 0) 1).map (fun a => a.bitfield_to_idx) =
      some [0, 1]) := by
  refine ⟨by decide, by decide, by decide, by rfl, by rfl, by rfl⟩

/-- Claim C35, on the code: with `S = 10`, after the inserts of `{1}` and `{2}` the root is
an internal node with the prefix Epsilon; the insert of the path of eleven PCIDs 3
reaches the Epsilon-root branch of Case 2, where `epath_rem` is the significant part
of the path (ten PCIDs), and the assertion `epath_rem == epath` is false. -/
theorem insert_long_path_fails_assertion :
    ValidPath path_eleven_3 ∧
    path_eleven_3.length ≤ 2 * tpc10.max_significant_execpath_size ∧
    ((ExecTree.insert_calls tpc10 calls_1_2).root.map (fun r => (r.is_internal, r.pfx)) =
      some (true, EPSILON)) ∧
    (ExecTree.insert_calls tpc10 calls_1_2).insert_epsilon_root_asserts tpc10 path_eleven_3 =
      some (true, false) :=
  ⟨by decide, by decide, by rfl, by rfl⟩

/-- Claim C38, on the code: at `x = -7` the evaluator gives `x / 2 = -3` and `x % 2 = -1`
(the division of C++ truncates), the terms `to_z3_expr` builds have the values `-4`
and `1` under SMT-LIB semantics (`div` rounds down for a positive divisor and `mod`
is never negative), and the condition `x % 2 = 1` is false for the evaluator and
true for its solver term. -/
theorem eval_and_solver_term_differ_on_negative_dividend :
    x_div_2.eval [("x", -7)] = .ok (-3) ∧
    x_div_2.to_z3_expr.map (Z3Int.smt_value (Args.as_model [("x", -7)])) = .ok (-4) ∧
    x_mod_2.eval [("x", -7)] = .ok (-1) ∧
    x_mod_2.to_z3_expr.map (Z3Int.smt_value (Args.as_model [("x", -7)])) = .ok 1 ∧
    x_is_odd.eval [("x", -7)] = .ok false ∧
    x_is_odd.to_z3_expr.map (Z3Bool.smt_value (Args.as_model [("x", -7)])) = .ok true :=
  ⟨by rfl, by rfl, by rfl, by rfl, by rfl, by rfl⟩

/-- Claim C34: for counters `tp`, `tn`, `fp`, `fn` between `0` and `2^63 - 1` the halving
loop of `accuracy` ends (within 64 passes) with four values between `0` and 25000;
on them the `int64_t` computations give the exact integers (no overflow), with
`|tp * tn - fp * fn| ≤ 6.25 * 10^8` and the product of the four sums at most
`50000^4`, which is below `2^63`; and `accuracy` returns `0.0` when the product is 0. -/
theorem accuracy_scaling_avoids_overflow (c : ConfusionMatrix)
    (htp : 0 ≤ c.tp ∧ c.tp < 2 ^ 63) (htn : 0 ≤ c.tn ∧ c.tn < 2 ^ 63)
    (hfp : 0 ≤ c.fp ∧ c.fp < 2 ^ 63) (hfn : 0 ≤ c.fn ∧ c.fn < 2 ^ 63) :
    ∃ tp_ tn_ fp_ fn_ : Int,
      ConfusionMatrix.halve 64 c.tp c.tn c.fp c.fn = some (tp_, tn_, fp_, fn_) ∧
      (0 ≤ tp_ ∧ tp_ ≤ 25000) ∧ (0 ≤ tn_ ∧ tn_ ≤ 25000) ∧
      (0 ≤ fp_ ∧ fp_ ≤ 25000) ∧ (0 ≤ fn_ ∧ fn_ ≤ 25000) ∧
      ConfusionMatrix.numerator tp_ tn_ fp_ fn_ = tp_ * tn_ - fp_ * fn_ ∧
      ConfusionMatrix.prod tp_ tn_ fp_ fn_ =
        (tp_ + fp_) * (tp_ + fn_) * (tn_ + fp_) * (tn_ + fn_) ∧
      |tp_ * tn_ - fp_ * fn_| ≤ 625000000 ∧
      0 ≤ (tp_ + fp_) * (tp_ + fn_) * (tn_ + fp_) * (tn_ + fn_) ∧
      (tp_ + fp_) * (tp_ + fn_) * (tn_ + fp_) * (tn_ + fn_) ≤ 50000 ^ 4 ∧
      (50000 : Int) ^ 4 < 2 ^ 63 ∧
      c.accuracy 64 =
        some (if (tp_ + fp_) * (tp_ + fn_) * (tn_ + fp_) * (tn_ + fn_) = 0 then .zero
          else .ratio (tp_ * tn_ - fp_ * fn_)
            ((tp_ + fp_) * (tp_ + fn_) * (tn_ + fp_) * (tn_ + fn_))) := by
  have hb : (2 : Int) ^ 63 ≤ 25000 * 2 ^ 64 := by norm_num
  obtain ⟨a, b, c2, d, e, ha, ha2, hb1, hb2, hc, hc2, hd, hd2⟩ :=
    ConfusionMatrix.halve_spec 64 c.tp c.tn c.fp c.fn htp.1 htn.1 hfp.1 hfn.1
      (by omega) (by omega) (by omega) (by omega)
  obtain ⟨n1, n2, n3, n4, n5⟩ := ConfusionMatrix.no_overflow a b c2 d ha ha2 hb1 hb2 hc hc2 hd hd2
  refine ⟨a, b, c2, d, e, ⟨ha, ha2⟩, ⟨hb1, hb2⟩, ⟨hc, hc2⟩, ⟨hd, hd2⟩, n1, n2, n3, n4, n5,
    by norm_num, ?_⟩
  unfold ConfusionMatrix.accuracy
  rw [e]
  simp only [n1, n2]
  split <;> rfl

/-- Witness of C34: the counters `tp = 100000`, `tn = 3`, `fp = 0`, `fn = 7`. -/
theorem accuracy_scaling_avoids_overflow_witness :
    ((0 : Int) ≤ 100000 ∧ (100000 : Int) < 2 ^ 63) ∧ ((0 : Int) ≤ 3 ∧ (3 : Int) < 2 ^ 63) ∧
    ((0 : Int) ≤ 0 ∧ (0 : Int) < 2 ^ 63) ∧ ((0 : Int) ≤ 7 ∧ (7 : Int) < 2 ^ 63) ∧
    ∃ tp_ tn_ fp_ fn_ : Int,
      ConfusionMatrix.halve 64 100000 3 0 7 = some (tp_, tn_, fp_, fn_) ∧
      (0 ≤ tp_ ∧ tp_ ≤ 25000) ∧ (0 ≤ tn_ ∧ tn_ ≤ 25000) ∧
      (0 ≤ fp_ ∧ fp_ ≤ 25000) ∧ (0 ≤ fn_ ∧ fn_ ≤ 25000) ∧
      ConfusionMatrix.numerator tp_ tn_ fp_ fn_ = tp_ * tn_ - fp_ * fn_ ∧
      ConfusionMatrix.prod tp_ tn_ fp_ fn_ =
        (tp_ + fp_) * (tp_ + fn_) * (tn_ + fp_) * (tn_ + fn_) ∧
      |tp_ * tn_ - fp_ * fn_| ≤ 625000000 ∧
      0 ≤ (tp_ + fp_) * (tp_ + fn_) * (tn_ + fp_) * (tn_ + fn_) ∧
      (tp_ + fp_) * (tp_ + fn_) * (tn_ + fp_) * (tn_ + fn_) ≤ 50000 ^ 4 ∧
      (50000 : Int) ^ 4 < 2 ^ 63 ∧
      ConfusionMatrix.accuracy 64 ⟨100000, 3, 0, 7⟩ =
        some (if (tp_ + fp_) * (tp_ + fn_) * (tn_ + fp_) * (tn_ + fn_) = 0 then .zero
          else .ratio (tp_ * tn_ - fp_ * fn_)
            ((tp_ + fp_) * (tp_ + fn_) * (tn_ + fp_) * (tn_ + fn_))) :=
  ⟨by decide, by decide, by decide, by decide,
    accuracy_scaling_avoids_overflow ⟨100000, 3, 0, 7⟩ (by decide) (by decide) (by decide)
      (by decide)⟩

/-- C32 (as the code behaves): for the parameters `X`, `Y`, `Z` with three values each
and the equalities `X == Y`, `Z == X` the constructor of `EqualityGraph` reports no
unsatisfiability; the only set left in `eqsets` is the third one, with the three
parameters, and `param_to_eqset` maps `Y` to the first set, which was erased from
`eqsets`.  With a fourth parameter `W` and the further condition `Y != W` the
constructor reads that erased set. -/
theorem merged_parameter_keeps_erased_set :
    (∃ g, EqualityGraph.create (0, 0, 0) ["X", "Y", "Z"]
        [bv3_full "X", bv3_full "Y", bv3_full "Z"] conds_xy_zx = .ok g ∧
      g.param_to_eqset = [("X", some 2), ("Y", some 0), ("Z", some 2)] ∧
      (g.eqsets.map (fun s => s.map (fun s => s.params))) = [none, none, some ["X", "Y", "Z"]] ∧
      EqualityGraph.live g.eqsets = [2] ∧
      EqualSet.deref g.eqsets (some 0) = .error .dangling) ∧
    EqualityGraph.create (0, 0, 0) ["W", "X", "Y", "Z"]
        [bv3_full "W", bv3_full "X", bv3_full "Y", bv3_full "Z"]
        (conds_xy_zx ++ [⟨.ET_Inequal, "Y", "W"⟩]) = .error .dangling := by
  refine ⟨⟨_, rfl, ?_, ?_, ?_, ?_⟩, ?_⟩ <;> rfl

/-- C39 (as the code behaves): with the option `--synthesis_budget 9223372800`, which
is at least 1, the product `SYNTHESIS_BUDGET * 1000000000` wraps to a negative
`int64_t`, every new condition is insolvent, and the loop of `refine` on a target
with a new Numeric condition answers GIVEUP in every pass: it uses up every bound
on the number of passes.  The same holds with the budget 4 for a target whose
condition is a Neglect condition without budget, which `promote_cond` leaves as
it is. -/
theorem refine_loop_repeats_giveup :
    1 ≤ env_budget_wraps.SYNTHESIS_BUDGET ∧
    synthesis_budget_max env_budget_wraps = -9223371273709551616 ∧
    (∀ fuel, Engine.refine_loop env_budget_wraps [] [] fuel
        (single_target (NumericCondition.new env_budget_wraps)) 0 = .error .fuel) ∧
    1 ≤ env_x13.SYNTHESIS_BUDGET ∧
    (∀ fuel, Engine.refine_loop env_x13 [] [] fuel
        (single_target { NeglectCondition.new env_x13 with synthesis_budget := 0 }) 0 =
          .error .fuel) := by
  have hmax : synthesis_budget_max env_budget_wraps = -9223371273709551616 := by decide
  refine ⟨by decide, hmax, ?_, by decide, ?_⟩
  · intro fuel
    exact Engine.refine_loop_numeric_insolvent env_budget_wraps [] [] _ none rfl
      (by show synthesis_budget_max env_budget_wraps ≤ 0; rw [hmax]; decide)
      (by rw [hmax]; decide) fuel 0
  · intro fuel
    exact Engine.refine_loop_neglect_insolvent env_x13 [] [] _ rfl (le_refl _) fuel 0

/-- C39 (amended): with `1 ≤ SYNTHESIS_BUDGET` and `SYNTHESIS_BUDGET * 10^9 < 2^63`,
for every synthesizer, all examples and every target whose condition is not a
Neglect condition without budget, the loop of `refine` ends after at most two
calls of `synthesize`, through `break` or through an exception or a failed
assertion: two passes are enough, and more passes change nothing.  A
`promote_cond` on an Enum or Numeric condition gives the next kind with the full
budget; a Numeric condition with budget does not give up; a Neglect condition with
budget is synthesized with success. -/
theorem refine_loop_ends_within_two_calls (env : SynthEnv)
    (pos_examples neg_examples : List Input) (t : RefineTarget)
    (h1 : 1 ≤ env.SYNTHESIS_BUDGET) (h2 : env.SYNTHESIS_BUDGET * 1000000000 < 2 ^ 63)
    (ht : t.cond.get_condtype = .CT_NEGLECT → 0 < t.cond.synthesis_budget) (fuel : Nat) :
    Engine.refine_loop env pos_examples neg_examples (fuel + 2) t 0 =
        Engine.refine_loop env pos_examples neg_examples 2 t 0 ∧
      Engine.refine_loop env pos_examples neg_examples 2 t 0 ≠ .error .fuel ∧
      (∀ t1 n, Engine.refine_loop env pos_examples neg_examples 2 t 0 = .ok (t1, n) →
        1 ≤ n ∧ n ≤ 2) ∧
      (∀ t1, t.cond.get_condtype ≠ .CT_NEGLECT → t.promote_cond env = .ok t1 →
        t1.cond.get_condtype = t.cond.get_condtype.promoted ∧
        t1.cond.synthesis_budget = synthesis_budget_max env ∧ 0 < t1.cond.synthesis_budget) ∧
      (∀ c : BranchCondition, c.get_condtype = .CT_NUMERIC → 0 < c.synthesis_budget →
        ∀ is_pair res runs,
          c.synthesize env is_pair pos_examples neg_examples = .ok (res, runs) →
          res.status = .SUCCESS ∨ res.status = .FAIL) ∧
      (∀ c : BranchCondition, c.get_condtype = .CT_NEGLECT → 0 < c.synthesis_budget →
        ∀ is_pair, ∃ res runs,
          c.synthesize env is_pair pos_examples neg_examples = .ok (res, runs) ∧
          res.status = .SUCCESS) := by
  have hmax := synthesis_budget_max_pos env h1 h2
  refine ⟨?_, ?_, ?_, ?_, ?_, ?_⟩
  · show Engine.refine_loop env pos_examples neg_examples ((fuel + 1) + 1) t 0 =
      Engine.refine_loop env pos_examples neg_examples (1 + 1) t 0
    unfold Engine.refine_loop
    cases hp : Engine.refine_pass env pos_examples neg_examples t with
    | error e => rfl
    | ok r =>
      obtain ⟨t1, b⟩ := r
      cases b with
      | true => rfl
      | false =>
        exact (Engine.refine_loop_one env pos_examples neg_examples t1
          (Engine.refine_pass_again env pos_examples neg_examples t t1 hmax ht hp) fuel 1).1
  · show Engine.refine_loop env pos_examples neg_examples (1 + 1) t 0 ≠ .error .fuel
    unfold Engine.refine_loop
    cases hp : Engine.refine_pass env pos_examples neg_examples t with
    | error e =>
      intro hc
      injection hc with hc
      rw [hc] at hp
      exact Engine.refine_pass_ne_fuel env pos_examples neg_examples t hp
    | ok r =>
      obtain ⟨t1, b⟩ := r
      cases b with
      | true => simp
      | false =>
        exact (Engine.refine_loop_one env pos_examples neg_examples t1
          (Engine.refine_pass_again env pos_examples neg_examples t t1 hmax ht hp) 0 1).2.1
  · show ∀ t1 n, Engine.refine_loop env pos_examples neg_examples (1 + 1) t 0 = .ok (t1, n) →
      1 ≤ n ∧ n ≤ 2
    intro t2 n
    unfold Engine.refine_loop
    cases hp : Engine.refine_pass env pos_examples neg_examples t with
    | error e => intro h; exact absurd h (by simp)
    | ok r =>
      obtain ⟨t1, b⟩ := r
      cases b with
      | true =>
        intro h
        injection h with h
        injection h with _ h
        omega
      | false =>
        intro h
        have := (Engine.refine_loop_one env pos_examples neg_examples t1
          (Engine.refine_pass_again env pos_examples neg_examples t t1 hmax ht hp) 0 1).2.2 t2 n h
        omega
  · intro t1 hne hp
    unfold RefineTarget.promote_cond at hp
    simp only [] at hp
    have key : ∀ c1 : BranchCondition,
        c1 = (if t.cond.get_condtype = .CT_ENUM then NumericCondition.new env
          else if t.cond.get_condtype = .CT_NUMERIC then NeglectCondition.new env
          else t.cond) →
        c1.get_condtype = t.cond.get_condtype.promoted ∧
        c1.synthesis_budget = synthesis_budget_max env ∧ 0 < c1.synthesis_budget := by
      intro c1 hc1
      cases hty : t.cond.get_condtype with
      | CT_ENUM =>
        rw [hty] at hc1
        simp only [if_true] at hc1
        subst hc1
        exact ⟨rfl, rfl, hmax⟩
      | CT_NUMERIC =>
        rw [hty] at hc1
        simp only [reduceCtorEq, if_false, if_true] at hc1
        subst hc1
        exact ⟨rfl, rfl, hmax⟩
      | CT_NEGLECT => exact absurd hty hne
    split at hp
    · injection hp with hp
      rw [← hp]
      exact key _ rfl
    · split at hp
      · injection hp with hp
        rw [← hp]
        exact key _ rfl
      · exact absurd hp (by simp)
  · intro c hty hs is_pair res runs h
    obtain ⟨e, hb⟩ := c.body_of_condtype_numeric hty
    have hg := NoGiveup.of_numeric env pos_examples neg_examples c e hb hs is_pair res runs h
    cases hres : res.status
    · exact Or.inl rfl
    · exact Or.inr rfl
    · exact absurd hres hg
  · intro c hty hs is_pair
    exact NeglectCondition.synthesize_success env c (c.body_of_condtype_neglect hty) hs is_pair
      pos_examples neg_examples

/-- Witness of C39: the environment `env_x13` (budget 4, a synthesizer that never
answers), a single target with a new Enum condition, and the value 1 of `x` both as
positive and as negative example. -/
theorem refine_loop_ends_within_two_calls_witness :
    1 ≤ env_x13.SYNTHESIS_BUDGET ∧ env_x13.SYNTHESIS_BUDGET * 1000000000 < 2 ^ 63 ∧
    ((single_target (EnumCondition.new env_x13)).cond.get_condtype = .CT_NEGLECT →
      0 < (single_target (EnumCondition.new env_x13)).cond.synthesis_budget) ∧
    (Engine.refine_loop env_x13 [enum_x 1] [enum_x 1] (0 + 2)
          (single_target (EnumCondition.new env_x13)) 0 =
        Engine.refine_loop env_x13 [enum_x 1] [enum_x 1] 2
          (single_target (EnumCondition.new env_x13)) 0 ∧
      Engine.refine_loop env_x13 [enum_x 1] [enum_x 1] 2
          (single_target (EnumCondition.new env_x13)) 0 ≠ .error .fuel ∧
      (∀ t1 n, Engine.refine_loop env_x13 [enum_x 1] [enum_x 1] 2
          (single_target (EnumCondition.new env_x13)) 0 = .ok (t1, n) → 1 ≤ n ∧ n ≤ 2) ∧
      (∀ t1, (single_target (EnumCondition.new env_x13)).cond.get_condtype ≠ .CT_NEGLECT →
        (single_target (EnumCondition.new env_x13)).promote_cond env_x13 = .ok t1 →
        t1.cond.get_condtype =
          (single_target (EnumCondition.new env_x13)).cond.get_condtype.promoted ∧
        t1.cond.synthesis_budget = synthesis_budget_max env_x13 ∧
        0 < t1.cond.synthesis_budget) ∧
      (∀ c : BranchCondition, c.get_condtype = .CT_NUMERIC → 0 < c.synthesis_budget →
        ∀ is_pair res runs,
          c.synthesize env_x13 is_pair [enum_x 1] [enum_x 1] = .ok (res, runs) →
          res.status = .SUCCESS ∨ res.status = .FAIL) ∧
      (∀ c : BranchCondition, c.get_condtype = .CT_NEGLECT → 0 < c.synthesis_budget →
        ∀ is_pair, ∃ res runs,
          c.synthesize env_x13 is_pair [enum_x 1] [enum_x 1] = .ok (res, runs) ∧
          res.status = .SUCCESS)) :=
  ⟨by decide, by decide, fun h => absurd h (by decide),
    refine_loop_ends_within_two_calls env_x13 [enum_x 1] [enum_x 1]
      (single_target (EnumCondition.new env_x13)) (by decide) (by decide)
      (fun h => absurd h (by decide)) 0⟩

/-- Claim C2, on the code: with `S = 10` the inserts of `{1}` and `{2}` pass the
assertions and leave an internal root with the prefix Epsilon; the path of eleven
PCIDs 3 is a non-empty path of positive PCIDs, and its insert fails the assertion
`epath_rem == epath` of the Epsilon-root branch of Case 2, so no leaf is returned.
Without the assertion the call returns a leaf with the first ten PCIDs. -/
theorem insert_long_path_returns_no_leaf :
    ValidPath path_eleven_3 ∧
    ExecTree.insert_calls_asserting tpc10 calls_1_2 ExecTree.empty =
      some (ExecTree.insert_calls tpc10 calls_1_2) ∧
    (ExecTree.insert_calls tpc10 calls_1_2).insert_asserting tpc10 path_eleven_3 (input_x 2) 0 0 =
      none ∧
    (((ExecTree.insert_calls tpc10 calls_1_2).insert tpc10 path_eleven_3 (input_x 2) 0 0).1.node_found
      tpc10 path_eleven_3).map (fun l => (l.is_leaf, l.pfx)) = some (true, List.replicate 10 3) :=
  ⟨by decide, by rfl, by rfl, by rfl⟩

/-- Claim C7, on the code: with `S = 10` the inserts of the distinct paths `{1}`, `{2}`,
`{4}` pass the assertions; `purge_leaf({1})` leaves an internal root with the prefix
Epsilon over the leaves `{2}` and `{4}`; and `purge_and_reinsert({1}, q)` for the
path `q` of eleven PCIDs 3 fails the assertion `epath_rem == epath` in its call
of `insert`, so it leaves no tree. -/
theorem purge_and_reinsert_long_path_aborts :
    (∀ c ∈ calls_1_2_4, ValidPath c.epath ∧
      c.epath.length ≤ tpc10.max_significant_execpath_size) ∧
    (calls_1_2_4.map InsertCall.epath).Nodup ∧ ValidPath path_eleven_3 ∧
    ExecTree.insert_calls_asserting tpc10 calls_1_2_4 ExecTree.empty =
      some (ExecTree.insert_calls tpc10 calls_1_2_4) ∧
    (((ExecTree.insert_calls tpc10 calls_1_2_4).purge_leaf tpc10 [1]).map
      (fun r => r.1.root.map (fun n => (n.is_internal, n.pfx, n.children.map Node.pfx)))) =
      some (some (true, EPSILON, [[2], [4]])) ∧
    (ExecTree.insert_calls tpc10 calls_1_2_4).purge_and_reinsert_asserting tpc10 [1]
      path_eleven_3 0 = none :=
  ⟨by decide, by decide, by decide, by rfl, by rfl, by rfl⟩

/-- C31 (amended): the shadow bits of the recursive comparison hold a shortest edit
script, with the tie-break of the branch `d == 1` on top.  For every pair of PCID
sequences and enough fuel, `CheckDiff(left, 0, |left|, right, 0, |right|,
shadow_left, shadow_right)` on all-false shadows returns two shadows of the sizes of
the sequences; some of the bits it sets form a shortest edit script: without the
positions of these bits the two sequences are equal, and their number is the edit
distance `|left| + |right| - 2 * LCS(left, right)`; the number of all bits set is at
least the edit distance and at most twice the edit distance.  For two equal sequences
no bit is set.  When `right` is `left` with one PCID put in at position `i`, no bit of
`left` is set, and the bits set for `right` are the bit of the first position `p`
at which `right` differs from `left` and the bit of the last position: `i ≤ p`,
`right` without position `p` is `left`, and one bit is set when `p` is the last
position, two bits otherwise. -/
theorem check_diff_shadows_hold_an_edit_script :
    (∀ (left right : ExecPath) (fuel : Nat), left.length + right.length < fuel →
      ∃ sl sr, CheckDiff_shadow left right fuel 0 left.length 0 right.length
          (List.replicate left.length false) (List.replicate right.length false) =
            .ok (sl, sr) ∧
        sl.length = left.length ∧ sr.length = right.length ∧
        ∃ el er, ShadowGrows el sl ∧ ShadowGrows er sr ∧
          unshadowed left el = unshadowed right er ∧
          el.count true + er.count true = edit_distance left right ∧
          edit_distance left right ≤ sl.count true + sr.count true ∧
          sl.count true + sr.count true ≤ 2 * edit_distance left right) ∧
    (∀ (l : ExecPath) (fuel : Nat),
      CheckDiff_shadow l l (fuel + 1) 0 l.length 0 l.length (List.replicate l.length false)
          (List.replicate l.length false) =
        .ok (List.replicate l.length false, List.replicate l.length false)) ∧
    (∀ (l : ExecPath) (c : PCID) (i fuel : Nat), i ≤ l.length →
      CheckDiff_shadow l (l.take i ++ c :: l.drop i) (fuel + 1) 0 l.length 0 (l.length + 1)
          (List.replicate l.length false) (List.replicate (l.length + 1) false) =
        .ok (List.replicate l.length false,
          ((List.replicate (l.length + 1) false).set
            (common_prefix_length l (l.take i ++ c :: l.drop i)) true).set l.length true) ∧
      i ≤ common_prefix_length l (l.take i ++ c :: l.drop i) ∧
      common_prefix_length l (l.take i ++ c :: l.drop i) ≤ l.length ∧
      unshadowed (l.take i ++ c :: l.drop i) ((List.replicate (l.length + 1) false).set
        (common_prefix_length l (l.take i ++ c :: l.drop i)) true) = l ∧
      (((List.replicate (l.length + 1) false).set
          (common_prefix_length l (l.take i ++ c :: l.drop i)) true).set l.length true).count
            true =
        if common_prefix_length l (l.take i ++ c :: l.drop i) = l.length then 1 else 2) := by
  refine ⟨?_, ?_, ?_⟩
  · intro left right fuel hf
    obtain ⟨sl, sr, e, el, er, g1, g2, h1, h2, h3, h4, h5, h6⟩ :=
      CheckDiff_shadow_holds_script left right fuel hf
    exact ⟨sl, sr, e, by rw [g1.1, h1], by rw [g2.1, h2], el, er, g1, g2, h3, h4, h5, h6⟩
  · intro l fuel
    exact CheckDiff_shadow_equal l fuel _ _
  · intro l c i fuel hi
    obtain ⟨k1, k2, k3, k4⟩ := CheckDiff_shadow_inserted l c i hi fuel
    exact ⟨k1, k2, k3, k4, count_two_marks _ _ k3⟩

end Pathfinder
